import Mathlib

/-!
# Immediate-access inverted index: codec, block arena, cursors and query processors

A shallow embedding of the C++ sources (`compress.hpp`, `variable_index_blocks.hpp`,
`variable_immediate_index.hpp`, `variable_postings_cursor.hpp`, `query_processing.hpp`,
`topk_queue.hpp`).

Conventions of the embedding:

* `uint32_t` / `uint16_t` / `uint8_t` / `size_t` values are natural numbers; wrap-around is
  written out with `% 2 ^ w` at the places where the C++ arithmetic can wrap.
* Raw memory (`uint8_t *buffer`, the block arena `m_data`) is a function from byte
  addresses to byte values.  A pointer is a memory together with an address.  Every store
  reduces the stored value modulo 256.
* Loops carry a fuel argument; running out of fuel, `exit(EXIT_FAILURE)` and a shift by at
  least the width of the type (undefined in C++) are reported as `none`.
-/

/-- Byte-addressed memory: the value stored at each address (always below 256). -/
abbrev Mem := Nat → Nat

/-- Sentinel `END_CHAIN = std::numeric_limits<uint32_t>::max()` (`util.hpp`). -/
def END_CHAIN : Nat := 4294967295

/-- Threshold `MAGIC_F` of the double-VByte coder (`compress.hpp`). -/
def MAGIC_F : Nat := 4

/-- Store of one byte: `*p = v` for a `uint8_t` lvalue. -/
def store (buffer : Mem) (p v : Nat) : Mem :=
  fun a => if a = p then v % 256 else buffer a

/-- Number of bytes `vbyte_encode` needs for a 32-bit value (`compress.hpp`, `bytes_required`). -/
def bytes_required (value : Nat) : Nat :=
  if value < 2 ^ 7 then 1
  else if value < 2 ^ 14 then 2
  else if value < 2 ^ 21 then 3
  else if value < 2 ^ 28 then 4
  else 5

/-- The `while (value > 0)` loop of `vbyte_encode`.  Returns the memory, the write
position, the count written so far and the pending `write_byte`. -/
def vbyte_encode_loop : Nat → Nat → Nat → Mem → Nat → Nat → Mem × Nat × Nat × Nat
  | 0, _, write_byte, buffer, p, written => (buffer, p, written, write_byte)
  | fuel + 1, value, write_byte, buffer, p, written =>
    if value > 0 then
      vbyte_encode_loop fuel (value >>> 7) (value &&& 0x7f)
        (store buffer p (write_byte ||| 0x80)) (p + 1) (written + 1)
    else (buffer, p, written, write_byte)

/-- Function `vbyte_encode(value, buffer)`: encodes `value` at address `p` and returns the
new memory and the number of bytes written.  A 32-bit value has at most four 7-bit groups
after the first, so five rounds of fuel always reach the loop exit. -/
def vbyte_encode (value : Nat) (buffer : Mem) (p : Nat) : Mem × Nat :=
  let r := vbyte_encode_loop 5 (value >>> 7) (value &&& 0x7f) buffer p 0
  (store r.1 r.2.1 r.2.2.2, r.2.2.1 + 1)

/-- The `do ... while ((read_byte & 0x80) > 0)` loop of `vbyte_decode`.  The result is the
decoded value and the advanced stride.  A sixth round would shift a `uint32_t` by 35,
which is undefined: it is reported as `none`. -/
def vbyte_decode_loop : Nat → Mem → Nat → Nat → Nat → Nat → Option (Nat × Nat)
  | 0, _, _, _, _, _ => none
  | fuel + 1, buffer, p, stride, value, shift =>
    let read_byte := buffer p
    let value := value ||| (((read_byte &&& 0x7f) <<< shift) % 2 ^ 32)
    if (read_byte &&& 0x80) > 0 then
      vbyte_decode_loop fuel buffer (p + 1) (stride + 1) value (shift + 7)
    else some (value, stride + 1)

/-- Function `vbyte_decode(buffer, stride)`: decodes at address `p`; returns the value and
the new stride. -/
def vbyte_decode (buffer : Mem) (p stride : Nat) : Option (Nat × Nat) :=
  vbyte_decode_loop 5 buffer p stride 0 0

/-- Function `encode_magic(docgap, freq, buffer)`: the double-VByte encoder.  Returns the
new memory and the number of bytes written. -/
def encode_magic (docgap freq : Nat) (buffer : Mem) (p : Nat) : Mem × Nat :=
  if freq < MAGIC_F then
    let magic_value := (((docgap + 2 ^ 32 - 1) % 2 ^ 32) * MAGIC_F + freq) % 2 ^ 32
    vbyte_encode magic_value buffer p
  else
    let magic_value := (docgap * MAGIC_F) % 2 ^ 32
    let r1 := vbyte_encode magic_value buffer p
    let magic_value2 := (freq - MAGIC_F + 1) % 2 ^ 32
    let r2 := vbyte_encode magic_value2 r1.1 (p + r1.2)
    (r2.1, r1.2 + r2.2)

/-- Function `decode_magic(buffer, stride)`: the double-VByte decoder.  Returns the pair
`(docgap, freq)` and the new stride. -/
def decode_magic (buffer : Mem) (p stride : Nat) : Option ((Nat × Nat) × Nat) :=
  match vbyte_decode buffer p 0 with
  | none => none
  | some (decoded, local_stride) =>
    if decoded % MAGIC_F > 0 then
      some ((1 + decoded / MAGIC_F, decoded % MAGIC_F), stride + local_stride)
    else
      match vbyte_decode buffer (p + local_stride) 0 with
      | none => none
      | some (v, local_stride2) =>
        some ((decoded / MAGIC_F, (MAGIC_F + v - 1) % 2 ^ 32),
          stride + local_stride + local_stride2)

/-- Function `magic_bytes_required(docgap, freq)`: the cost of `encode_magic`. -/
def magic_bytes_required (docgap freq : Nat) : Nat :=
  if freq < MAGIC_F then
    bytes_required ((((docgap + 2 ^ 32 - 1) % 2 ^ 32) * MAGIC_F + freq) % 2 ^ 32)
  else
    bytes_required ((docgap * MAGIC_F) % 2 ^ 32)
      + bytes_required ((freq - MAGIC_F + 1) % 2 ^ 32)

/-! ## Block layout (`variable_index_blocks.hpp`) -/

/-- Constant `BLOCK_SIZE`: bytes per physical block. -/
def BLOCK_SIZE : Nat := 64

/-- Constant `HEAD_PL_OFFSET = 4 * sizeof(uint32_t) + 2 * sizeof(uint8_t) + sizeof(uint16_t)`. -/
def HEAD_PL_OFFSET : Nat := 20

/-- Constant `TT_PL_OFFSET = sizeof(uint32_t)`. -/
def TT_PL_OFFSET : Nat := 4

/-- Constant `HEAD_BYTES = BLOCK_SIZE - HEAD_PL_OFFSET`. -/
def HEAD_BYTES : Nat := 44

/-- Constant `TT_BYTES = BLOCK_SIZE - TT_PL_OFFSET`. -/
def TT_BYTES : Nat := 60

/-- Constant `MAX_SLAB_IDX`: the largest index into the slab-size table. -/
def MAX_SLAB_IDX : Nat := 255

/-- Successive stores of a byte list starting at address `p` (`std::copy`, and the bytes
of a multi-byte field in host order). -/
def write_list (m : Mem) (p : Nat) : List Nat → Mem
  | [] => m
  | b :: bs => write_list (store m p b) (p + 1) bs

/-- Load of a little-endian `uint16_t` field. -/
def read_u16 (m : Mem) (a : Nat) : Nat := m a + 256 * m (a + 1)

/-- Load of a little-endian `uint32_t` field. -/
def read_u32 (m : Mem) (a : Nat) : Nat :=
  m a + 256 * m (a + 1) + 65536 * m (a + 2) + 16777216 * m (a + 3)

/-- Load of a little-endian 64-bit `size_t`. -/
def read_u64 (m : Mem) (a : Nat) : Nat := read_u32 m a + 4294967296 * read_u32 m (a + 4)

/-- Store of a little-endian `uint16_t` field (the value wraps modulo `2 ^ 16`). -/
def write_u16 (m : Mem) (a v : Nat) : Mem := write_list m a [v, v / 256]

/-- Store of a little-endian `uint32_t` field (the value wraps modulo `2 ^ 32`). -/
def write_u32 (m : Mem) (a v : Nat) : Mem :=
  write_list m a [v, v / 256, v / 65536, v / 16777216]

/-- Store of a little-endian 64-bit `size_t`. -/
def write_u64 (m : Mem) (a v : Nat) : Mem :=
  write_u32 (write_u32 m a v) (a + 4) (v / 4294967296)

/-- Address of `m_data[block_idx]` in the arena, which is also `struct_ptr()` of each of the
three views of the block. -/
def struct_ptr (block_idx : Nat) : Nat := block_idx * BLOCK_SIZE

namespace head_block

/-- Field `m_next_block` (bytes 0..3). -/
def next_block (m : Mem) (b : Nat) : Nat := read_u32 m (struct_ptr b)

def set_next_block (m : Mem) (b v : Nat) : Mem := write_u32 m (struct_ptr b) v

/-- Field `m_tail_block` (bytes 4..7). -/
def tail_block (m : Mem) (b : Nat) : Nat := read_u32 m (struct_ptr b + 4)

def set_tail_block (m : Mem) (b v : Nat) : Mem := write_u32 m (struct_ptr b + 4) v

/-- Field `m_doc_freq` (bytes 8..11). -/
def doc_freq (m : Mem) (b : Nat) : Nat := read_u32 m (struct_ptr b + 8)

def increment_doc_freq (m : Mem) (b : Nat) : Mem :=
  write_u32 m (struct_ptr b + 8) (doc_freq m b + 1)

/-- Field `m_recent_docid` (bytes 12..15). -/
def recent_docid (m : Mem) (b : Nat) : Nat := read_u32 m (struct_ptr b + 12)

def set_recent_docid (m : Mem) (b v : Nat) : Mem := write_u32 m (struct_ptr b + 12) v

/-- Field `m_tail_byte_offset` (bytes 16..17). -/
def tail_byte_offset (m : Mem) (b : Nat) : Nat := read_u16 m (struct_ptr b + 16)

def set_tail_byte_offset (m : Mem) (b v : Nat) : Mem := write_u16 m (struct_ptr b + 16) v

/-- Method `advance_tail_byte_offset(stride)`; the overflow branch only prints a message. -/
def advance_tail_byte_offset (m : Mem) (b stride : Nat) : Mem :=
  write_u16 m (struct_ptr b + 16) (tail_byte_offset m b + stride)

/-- Field `m_growth_offset` (byte 18). -/
def growth_offset (m : Mem) (b : Nat) : Nat := m (struct_ptr b + 18)

def increment_growth_offset (m : Mem) (b : Nat) : Mem :=
  if growth_offset m b < MAX_SLAB_IDX then store m (struct_ptr b + 18) (growth_offset m b + 1)
  else m

/-- Field `m_word_length` (byte 19). -/
def word_length (m : Mem) (b : Nat) : Nat := m (struct_ptr b + 19)

/-- Method `get_term()`: the `m_word_length` bytes at the start of `m_bytes`. -/
def get_term (m : Mem) (b : Nat) : List Nat :=
  (List.range (word_length m b)).map (fun i => m (struct_ptr b + HEAD_PL_OFFSET + i))

/-- Method `set_term(term)`: stores the length and copies the characters. -/
def set_term (m : Mem) (b : Nat) (term : List Nat) : Mem :=
  write_list (store m (struct_ptr b + 19) term.length) (struct_ptr b + HEAD_PL_OFFSET) term

/-- Method `data_offset()`. -/
def data_offset (m : Mem) (b : Nat) : Nat := HEAD_PL_OFFSET + word_length m b

/-- Method `init(term, self_index)`. -/
def init (m : Mem) (b : Nat) (term : List Nat) (self_index : Nat) : Mem :=
  let m := write_u32 m (struct_ptr b) END_CHAIN
  let m := write_u32 m (struct_ptr b + 4) self_index
  let m := write_u32 m (struct_ptr b + 8) 0
  let m := set_term m b term
  let m := write_u16 m (struct_ptr b + 16) (HEAD_PL_OFFSET + word_length m b)
  let m := write_u32 m (struct_ptr b + 12) 0
  store m (struct_ptr b + 18) 0

end head_block

namespace torso_block

/-- Method `torso_block::set_next_block` (field `m_next_block`, bytes 0..3). -/
def set_next_block (m : Mem) (b v : Nat) : Mem := write_u32 m (struct_ptr b) v

end torso_block

namespace tail_block

/-- Method `tail_block::init(first_docid)` (field `m_first_docid`, bytes 0..3). -/
def init (m : Mem) (b first_docid : Nat) : Mem := write_u32 m (struct_ptr b) first_docid

/-- Method `tail_block::first_docid()`. -/
def first_docid (m : Mem) (b : Nat) : Nat := read_u32 m (struct_ptr b)

end tail_block

/-! ## The index (`variable_immediate_index.hpp`) -/

/-- Class `immediate_index`.  The vectors `m_term_offsets` and `m_data` are given by their
size and their contents; `m_data` is the arena seen as bytes (`m_data_size` counts physical
blocks); `m_slab_size` is the slab-size table. -/
structure immediate_index where
  m_next_empty : Nat
  m_term_offsets : Nat → Nat
  m_term_offsets_size : Nat
  m_data : Mem
  m_data_size : Nat
  m_slab_size : Nat → Nat

namespace immediate_index

/-- Constructor `immediate_index(no_blocks, no_hash_slots)`: empty directory, zeroed arena.
The table that `set_slab_size` computes in floating point is passed in as `slabs`. -/
def mk_sized (slabs : Nat → Nat) (no_blocks no_hash_slots : Nat) : immediate_index :=
  { m_next_empty := 0
    m_term_offsets := fun _ => END_CHAIN
    m_term_offsets_size := no_hash_slots
    m_data := fun _ => 0
    m_data_size := no_blocks
    m_slab_size := slabs }

/-- Default constructor `immediate_index()`: empty vectors. -/
def mk_default (slabs : Nat → Nat) : immediate_index :=
  { m_next_empty := 0
    m_term_offsets := fun _ => 0
    m_term_offsets_size := 0
    m_data := fun _ => 0
    m_data_size := 0
    m_slab_size := slabs }

/-- Method `next_free_slot(blocks_desired)`; `exit(EXIT_FAILURE)` is `none`. -/
def next_free_slot (idx : immediate_index) (blocks_desired : Nat) :
    Option (Nat × immediate_index) :=
  if idx.m_next_empty + blocks_desired % 2 ^ 32 ≥ idx.m_data_size then none
  else some (idx.m_next_empty,
    { idx with m_next_empty := idx.m_next_empty + blocks_desired % 2 ^ 32 })

/-- Method `term_to_offset(term)`; `hash` stands for `std::hash<std::string>`. -/
def term_to_offset (hash : List Nat → Nat) (idx : immediate_index) (term : List Nat) : Nat :=
  (hash term % idx.m_term_offsets_size) % 2 ^ 32

/-- Method `get_offset(index)`. -/
def get_offset (idx : immediate_index) (index : Nat) : Nat := idx.m_term_offsets index

/-- The probe loop of `found_or_empty_offset`. -/
def found_or_empty_offset_loop (idx : immediate_index) (term : List Nat) :
    Nat → Nat → Option Nat
  | 0, _ => none
  | fuel + 1, index =>
    if idx.m_term_offsets index ≠ END_CHAIN then
      if term = head_block.get_term idx.m_data (idx.m_term_offsets index) then some index
      else
        found_or_empty_offset_loop idx term fuel
          (((index + 1) % 2 ^ 32 % idx.m_term_offsets_size) % 2 ^ 32)
    else some index

/-- Method `found_or_empty_offset(term)`.  The probe sequence is periodic with period
`m_term_offsets.size()`, so a loop that has not returned after that many probes never
returns: this is `none`. -/
def found_or_empty_offset (hash : List Nat → Nat) (idx : immediate_index) (term : List Nat) :
    Option Nat :=
  found_or_empty_offset_loop idx term idx.m_term_offsets_size (term_to_offset hash idx term)

/-- Method `has_data(block_idx, offset)`. -/
def has_data (idx : immediate_index) (block_idx offset : Nat) : Bool :=
  idx.m_data (struct_ptr block_idx + offset) ≠ 0

/-- Method `access(block_idx, offset)`: the decoded pair and the advanced offset. -/
def access (idx : immediate_index) (block_idx offset : Nat) : Option ((Nat × Nat) × Nat) :=
  decode_magic idx.m_data (struct_ptr block_idx + offset) offset

/-- Method `next_block(block_idx, tail_idx)`. -/
def next_block (idx : immediate_index) (block_idx tail_idx : Nat) : Nat :=
  if block_idx = tail_idx then END_CHAIN else head_block.next_block idx.m_data block_idx

/-- Method `tail_block(block_idx)`. -/
def tail_block (idx : immediate_index) (block_idx : Nat) : Nat :=
  head_block.tail_block idx.m_data block_idx

/-- Method `doc_freq(block_idx)`. -/
def doc_freq (idx : immediate_index) (block_idx : Nat) : Nat :=
  head_block.doc_freq idx.m_data block_idx

/-- Method `head_data_offset(block_idx)`. -/
def head_data_offset (idx : immediate_index) (block_idx : Nat) : Nat :=
  head_block.data_offset idx.m_data block_idx

/-- Method `slab_size(block)`. -/
def slab_size (idx : immediate_index) (block : Nat) : Nat := idx.m_slab_size block

/-- First part of `insert` (lines 279-289): look the term up and, when it is new, grant
`m_slab_size[0]` blocks, enter them in the directory and initialise the head.  Returns
`head_block_index` and the index. -/
def insert_head (hash : List Nat → Nat) (idx : immediate_index) (term : List Nat) :
    Option (Nat × immediate_index) :=
  match found_or_empty_offset hash idx term with
  | none => none
  | some entry_hash =>
    let head_block_index := idx.m_term_offsets entry_hash
    if head_block_index = END_CHAIN then
      match idx.next_free_slot (idx.m_slab_size 0) with
      | none => none
      | some (slot, idx1) =>
        let head_block_index := slot % 2 ^ 32
        some (head_block_index,
          { idx1 with
            m_term_offsets := Function.update idx1.m_term_offsets entry_hash head_block_index
            m_data := head_block.init idx1.m_data head_block_index term head_block_index })
    else some (head_block_index, idx)

/-- Second part of `insert` (lines 293-341): update the head and write the posting, growing
the chain when it does not fit. -/
def insert_posting (idx : immediate_index) (head_block_index docid freq : Nat) :
    Option immediate_index :=
  let doc_gap := (docid + 2 ^ 32 - head_block.recent_docid idx.m_data head_block_index) % 2 ^ 32
  let m := head_block.increment_doc_freq idx.m_data head_block_index
  let m := head_block.set_recent_docid m head_block_index docid
  let current_block_index := head_block.tail_block m head_block_index
  let write_offset := head_block.tail_byte_offset m head_block_index
  let bytes_required := magic_bytes_required doc_gap freq
  let slab_size := BLOCK_SIZE * idx.m_slab_size (head_block.growth_offset m head_block_index)
  if write_offset + bytes_required ≤ slab_size then
    let w := encode_magic doc_gap freq m (struct_ptr current_block_index + write_offset)
    some { idx with m_data := head_block.advance_tail_byte_offset w.1 head_block_index w.2 }
  else
    let prev_block_index := current_block_index
    let m := head_block.increment_growth_offset m head_block_index
    match ({ idx with m_data := m } : immediate_index).next_free_slot
        (idx.m_slab_size (head_block.growth_offset m head_block_index)) with
    | none => none
    | some (slot, idx1) =>
      let current_block_index := slot % 2 ^ 32
      let m := tail_block.init idx1.m_data current_block_index docid
      let doc_gap :=
        if prev_block_index = head_block_index then docid
        else (docid + 2 ^ 32 - tail_block.first_docid m prev_block_index) % 2 ^ 32
      let m := torso_block.set_next_block m prev_block_index current_block_index
      let m := head_block.set_tail_block m head_block_index current_block_index
      let m := head_block.set_tail_byte_offset m head_block_index TT_PL_OFFSET
      let write_offset := head_block.tail_byte_offset m head_block_index
      let w := encode_magic doc_gap freq m (struct_ptr current_block_index + write_offset)
      some { idx1 with m_data := head_block.advance_tail_byte_offset w.1 head_block_index w.2 }

/-- Method `insert(docid, term, positions)`. -/
def insert (hash : List Nat → Nat) (idx : immediate_index) (docid : Nat) (term : List Nat)
    (positions : List Nat) : Option immediate_index :=
  let freq := positions.length % 2 ^ 32
  match insert_head hash idx term with
  | none => none
  | some (head_block_index, idx1) => insert_posting idx1 head_block_index docid freq

end immediate_index

/-! ## The cursor (`variable_postings_cursor.hpp`) -/

/-- Class `postings_cursor`; the index it refers to is passed to each method. -/
structure postings_cursor where
  m_term : List Nat
  m_head_block : Nat
  m_tail_block : Nat
  m_doc_freq : Nat
  m_current_block : Nat
  m_current_offset : Nat
  m_gap_accumulator : Nat
  m_current_docid : Nat
  m_current_tf : Nat
  m_block_count : Nat
deriving DecidableEq

namespace postings_cursor

/-- Method `valid()`. -/
def valid (c : postings_cursor) : Bool := c.m_head_block ≠ END_CHAIN

/-- Method `doc_freq()`. -/
def doc_freq (c : postings_cursor) : Nat := c.m_doc_freq

/-- Method `docid()`. -/
def docid (c : postings_cursor) : Nat := c.m_current_docid

/-- Method `freq()`. -/
def freq (c : postings_cursor) : Nat := c.m_current_tf

/-- Method `next()`. -/
def next (idx : immediate_index) (c : postings_cursor) : Option postings_cursor :=
  if c.m_current_offset < idx.slab_size c.m_block_count * BLOCK_SIZE
      ∧ idx.has_data c.m_current_block c.m_current_offset = true then
    match idx.access c.m_current_block c.m_current_offset with
    | none => none
    | some (data, offset) =>
      some { c with
        m_current_offset := offset
        m_current_docid := (c.m_current_docid + data.1) % 2 ^ 32
        m_current_tf := data.2 }
  else
    let block_count := min ((c.m_block_count + 1) % 2 ^ 32) MAX_SLAB_IDX
    let next_block := idx.next_block c.m_current_block c.m_tail_block
    if next_block = END_CHAIN then
      some { c with
        m_block_count := block_count
        m_current_block := END_CHAIN
        m_current_docid := END_CHAIN }
    else
      match idx.access next_block TT_PL_OFFSET with
      | none => none
      | some (data, offset) =>
        some { c with
          m_block_count := block_count
          m_current_block := next_block
          m_current_offset := offset
          m_gap_accumulator := (c.m_gap_accumulator + data.1) % 2 ^ 32
          m_current_docid := (c.m_gap_accumulator + data.1) % 2 ^ 32
          m_current_tf := data.2 }

/-- Constructor `postings_cursor(index, term)`. -/
def create (hash : List Nat → Nat) (idx : immediate_index) (term : List Nat) :
    Option postings_cursor :=
  match idx.found_or_empty_offset hash term with
  | none => none
  | some entry_hash =>
    let c : postings_cursor :=
      { m_term := term
        m_head_block := END_CHAIN
        m_tail_block := END_CHAIN
        m_doc_freq := END_CHAIN
        m_current_block := idx.get_offset entry_hash
        m_current_offset := END_CHAIN
        m_gap_accumulator := 0
        m_current_docid := 0
        m_current_tf := 0
        m_block_count := 0 }
    if c.m_current_block = END_CHAIN then some c
    else
      next idx { c with
        m_head_block := c.m_current_block
        m_tail_block := idx.tail_block c.m_current_block
        m_doc_freq := idx.doc_freq c.m_current_block
        m_current_offset := idx.head_data_offset c.m_current_block }

/-- Method `reset()`. -/
def reset (idx : immediate_index) (c : postings_cursor) : Option postings_cursor :=
  next idx { c with
    m_current_block := c.m_head_block
    m_current_offset := idx.head_data_offset c.m_head_block
    m_current_docid := 0
    m_gap_accumulator := 0
    m_block_count := 0 }

/-- Method `advance_to_id(target_docid)`: `while (m_current_docid < target_docid) next();`. -/
def advance_to_id (idx : immediate_index) (target_docid : Nat) :
    Nat → postings_cursor → Option postings_cursor
  | 0, _ => none
  | fuel + 1, c =>
    if c.m_current_docid < target_docid then
      match next idx c with
      | none => none
      | some c1 => advance_to_id idx target_docid fuel c1
    else some c

/-- State of the block-skipping loop of `next_geq`. -/
structure skip_state where
  current_block : Nat
  current_docid : Nat
  prev_block : Nat
  prev_docid : Nat
  block_count : Nat
deriving DecidableEq

/-- The block-skipping loop of `next_geq` (lines 122-134). -/
def next_geq_skip (idx : immediate_index) (m_tail_block target_docid : Nat) :
    Nat → skip_state → Option skip_state
  | 0, _ => none
  | fuel + 1, s =>
    if s.current_docid < target_docid ∧ s.current_block ≠ END_CHAIN then
      let current_block := idx.next_block s.current_block m_tail_block
      if current_block ≠ END_CHAIN then
        match idx.access current_block TT_PL_OFFSET with
        | none => none
        | some (data, _) =>
          next_geq_skip idx m_tail_block target_docid fuel
            { current_block := current_block
              current_docid := (s.current_docid + data.1) % 2 ^ 32
              prev_block := s.current_block
              prev_docid := s.current_docid
              block_count := s.block_count + 1 }
      else
        next_geq_skip idx m_tail_block target_docid fuel
          { current_block := current_block
            current_docid := s.current_docid
            prev_block := s.current_block
            prev_docid := s.current_docid
            block_count := s.block_count + 1 }
    else some s

/-- Method `next_geq(target_docid)`.  The fuel bounds each of its two loops. -/
def next_geq (idx : immediate_index) (fuel : Nat) (c : postings_cursor) (target_docid : Nat) :
    Option postings_cursor :=
  if target_docid ≤ c.m_current_docid then some c
  else
    match next_geq_skip idx c.m_tail_block target_docid fuel
        { current_block := c.m_current_block
          current_docid := c.m_gap_accumulator
          prev_block := c.m_current_block
          prev_docid := c.m_gap_accumulator
          block_count := c.m_block_count } with
    | none => none
    | some s =>
      let c1 : postings_cursor :=
        if s.current_docid > target_docid ∨ s.current_block = END_CHAIN then
          { c with
            m_current_block := s.prev_block
            m_gap_accumulator := s.prev_docid
            m_current_docid := s.prev_docid
            m_block_count := (s.block_count - 1) % 2 ^ 32 }
        else
          { c with
            m_current_block := s.current_block
            m_gap_accumulator := s.current_docid
            m_current_docid := s.current_docid
            m_block_count := s.block_count % 2 ^ 32 }
      let aligned : Option postings_cursor :=
        if c1.m_current_block = c1.m_head_block then
          match idx.access c1.m_current_block (idx.head_data_offset c1.m_current_block) with
          | none => none
          | some (data, offset) =>
            some { c1 with
              m_current_docid := data.1
              m_current_tf := data.2
              m_current_offset := offset }
        else
          match idx.access c1.m_current_block TT_PL_OFFSET with
          | none => none
          | some (data, offset) =>
            some { c1 with
              m_current_tf := data.2
              m_current_offset := offset }
      match aligned with
      | none => none
      | some c2 =>
        advance_to_id idx target_docid fuel
          { c2 with m_block_count := min c2.m_block_count MAX_SLAB_IDX }

end postings_cursor

/-! ## Proof-side description of the codec output -/

/-- Memory `m` holds the byte list `bs` at address `p`. -/
def holds (m : Mem) (p : Nat) (bs : List Nat) : Prop :=
  ∀ i, i < bs.length → m (p + i) = bs.getD i 0

/-- The bytes of the VByte code of `v`, least significant group first. -/
def vbyte_bytes (v : Nat) : List Nat :=
  if v < 2 ^ 7 then [v]
  else if v < 2 ^ 14 then [v % 128 + 128, v / 128]
  else if v < 2 ^ 21 then [v % 128 + 128, v / 128 % 128 + 128, v / 16384]
  else if v < 2 ^ 28 then [v % 128 + 128, v / 128 % 128 + 128, v / 16384 % 128 + 128, v / 2097152]
  else [v % 128 + 128, v / 128 % 128 + 128, v / 16384 % 128 + 128, v / 2097152 % 128 + 128,
        v / 268435456]

/-- The bytes of the double-VByte code of `(docgap, freq)`. -/
def magic_bytes (docgap freq : Nat) : List Nat :=
  if freq < MAGIC_F then
    vbyte_bytes ((((docgap + 2 ^ 32 - 1) % 2 ^ 32) * MAGIC_F + freq) % 2 ^ 32)
  else
    vbyte_bytes ((docgap * MAGIC_F) % 2 ^ 32) ++ vbyte_bytes ((freq - MAGIC_F + 1) % 2 ^ 32)

/-! ## Abstract description of a postings chain (used by the proofs) -/

/-- One logical block of a chain: index of its first physical block, number of physical
blocks, and the `(docid, freq)` postings stored in it. -/
structure Blk where
  idx : Nat
  size : Nat
  posts : List (Nat × Nat)

/-- A chain: the term and its logical blocks, head first. -/
structure Chain where
  term : List Nat
  blocks : List Blk

/-- All postings of a list of blocks, in chain order. -/
def blockPosts (bs : List Blk) : List (Nat × Nat) := bs.flatMap Blk.posts

/-- All postings of a chain. -/
def Chain.posts (c : Chain) : List (Nat × Nat) := blockPosts c.blocks

/-- Docid of the first posting of a block. -/
def firstDoc (b : Blk) : Nat := (b.posts.headD (0, 0)).1

/-- Docid of the last posting of a list, or `base` when there is none. -/
def lastDoc (base : Nat) : List (Nat × Nat) → Nat
  | [] => base
  | p :: rest => lastDoc p.1 rest

/-- Frequency of the last posting of a list, or `tf` when there is none. -/
def lastTf (tf : Nat) : List (Nat × Nat) → Nat
  | [] => tf
  | p :: rest => lastTf p.2 rest

/-- Payload bytes of a posting list whose first gap is taken from `base`. -/
def enc_posts (base : Nat) : List (Nat × Nat) → List Nat
  | [] => []
  | p :: rest => magic_bytes (p.1 - base) p.2 ++ enc_posts p.1 rest

/-- Postings with strictly increasing docids above `lo`, docids below `2 ^ 30` and
frequencies in `[1, 2 ^ 32)`. -/
def PostsOK (lo : Nat) : List (Nat × Nat) → Prop
  | [] => True
  | p :: rest => lo < p.1 ∧ p.1 < 2 ^ 30 ∧ 1 ≤ p.2 ∧ p.2 < 2 ^ 32 ∧ PostsOK p.1 rest

/-- A payload segment: at address `a + start` memory holds the codes of `posts`, it ends
within `cap`, and every byte after it up to `cap` is zero. -/
def Seg (m : Mem) (a start cap base : Nat) (posts : List (Nat × Nat)) : Prop :=
  holds m (a + start) (enc_posts base posts) ∧
  start + (enc_posts base posts).length ≤ cap ∧
  ∀ o, start + (enc_posts base posts).length ≤ o → o < cap → m (a + o) = 0

/-- Layout of the logical blocks of a chain from slab step `j` on.  `start` is the payload
offset of the first block of the list, `base` the docid its first gap is relative to, `lo`
the last docid stored before it; `tailIdx` and `tailOff` are what the head records about
the tail. -/
def BlocksRep (S : Nat → Nat) (m : Mem) (tailIdx tailOff : Nat) :
    Nat → Nat → Nat → Nat → List Blk → Prop
  | _, _, _, _, [] => True
  | j, start, base, lo, b :: rest =>
    b.size = S (min j MAX_SLAB_IDX) ∧ (1 ≤ j → b.posts ≠ []) ∧ base ≤ lo ∧
    PostsOK lo b.posts ∧
    Seg m (struct_ptr b.idx) start (BLOCK_SIZE * b.size) base b.posts ∧
    (match rest with
      | [] => (1 ≤ j → read_u32 m (struct_ptr b.idx) = firstDoc b) ∧
          (j = 0 → read_u32 m (struct_ptr b.idx) = END_CHAIN) ∧
          tailIdx = b.idx ∧ tailOff = start + (enc_posts base b.posts).length
      | b2 :: _ => read_u32 m (struct_ptr b.idx) = b2.idx ∧ b.idx ≠ tailIdx) ∧
    BlocksRep S m tailIdx tailOff (j + 1) TT_PL_OFFSET (if j = 0 then 0 else firstDoc b)
      (lastDoc lo b.posts) rest

/-- Memory `m` represents chain `c` under the slab table `S`. -/
def ChainRep (S : Nat → Nat) (m : Mem) (c : Chain) : Prop :=
  match c.blocks with
  | [] => False
  | h :: rest =>
    c.term.length ≤ HEAD_BYTES ∧ (∀ x ∈ c.term, x < 256) ∧
    head_block.word_length m h.idx = c.term.length ∧
    holds m (struct_ptr h.idx + HEAD_PL_OFFSET) c.term ∧
    head_block.doc_freq m h.idx = c.posts.length ∧
    head_block.recent_docid m h.idx = lastDoc 0 c.posts ∧
    head_block.growth_offset m h.idx = min rest.length MAX_SLAB_IDX ∧
    BlocksRep S m (head_block.tail_block m h.idx) (head_block.tail_byte_offset m h.idx)
      0 (HEAD_PL_OFFSET + c.term.length) 0 0 (h :: rest)

/-- Index of the head block of a chain. -/
def Chain.head (c : Chain) : Nat := (c.blocks.headD ⟨0, 0, []⟩).idx

/-- The slots visited by the linear probe: `step H i` is the slot probed after `i`. -/
def probe_step (H i : Nat) : Nat := ((i + 1) % 2 ^ 32 % H) % 2 ^ 32

/-- Slot `s` is reached from the hash slot of `t` through occupied slots only. -/
def ProbePath (hash : List Nat → Nat) (idx : immediate_index) (t : List Nat) (s : Nat) : Prop :=
  ∃ k, k < idx.m_term_offsets_size ∧
    (probe_step idx.m_term_offsets_size)^[k] (idx.term_to_offset hash t) = s ∧
    ∀ j, j < k →
      idx.m_term_offsets ((probe_step idx.m_term_offsets_size)^[j] (idx.term_to_offset hash t))
        ≠ END_CHAIN

/-- The slab table is usable: every size is positive and a slab fits the 16-bit
`m_tail_byte_offset`. -/
def SlabsOK (S : Nat → Nat) : Prop := ∀ i, 1 ≤ S i ∧ BLOCK_SIZE * S i ≤ 65535

/-- The index invariant: `chains s` describes the chain whose head the directory slot `s`
points to. -/
structure IndexInv (hash : List Nat → Nat) (idx : immediate_index) (chains : Nat → Option Chain) :
    Prop where
  slabs : SlabsOK idx.m_slab_size
  hsize : 0 < idx.m_term_offsets_size
  dsize : idx.m_data_size ≤ 2 ^ 32
  ne_lt : idx.m_next_empty = 0 ∨ idx.m_next_empty < idx.m_data_size
  dir_none : ∀ s, chains s = none → s < idx.m_term_offsets_size →
    idx.m_term_offsets s = END_CHAIN
  dir_out : ∀ s, idx.m_term_offsets_size ≤ s → chains s = none
  dir_some : ∀ s c, chains s = some c → idx.m_term_offsets s = c.head
  rep : ∀ s c, chains s = some c → ChainRep idx.m_slab_size idx.m_data c
  bound : ∀ s c b, chains s = some c → b ∈ c.blocks → b.idx + b.size ≤ idx.m_next_empty
  disj : ∀ s1 s2 c1 c2 b1 b2, chains s1 = some c1 → chains s2 = some c2 → s1 ≠ s2 →
    b1 ∈ c1.blocks → b2 ∈ c2.blocks → b1.idx + b1.size ≤ b2.idx ∨ b2.idx + b2.size ≤ b1.idx
  ordered : ∀ s c, chains s = some c →
    c.blocks.Pairwise (fun b1 b2 => b1.idx + b1.size ≤ b2.idx)
  zero : ∀ a, BLOCK_SIZE * idx.m_next_empty ≤ a → idx.m_data a = 0
  probe : ∀ s c, chains s = some c → ProbePath hash idx c.term s
  distinct : ∀ s1 s2 c1 c2, chains s1 = some c1 → chains s2 = some c2 → c1.term = c2.term →
    s1 = s2

/-- One call `insert(docid, term, positions)`. -/
structure insert_call where
  docid : Nat
  term : List Nat
  positions : List Nat

/-- A sequence of `insert` calls run in order; `none` when one of them fails. -/
def run_inserts (hash : List Nat → Nat) (idx : immediate_index) :
    List insert_call → Option immediate_index
  | [] => some idx
  | c :: rest =>
    match idx.insert hash c.docid c.term c.positions with
    | none => none
    | some idx1 => run_inserts hash idx1 rest

/-- The `(docid, freq)` pairs a call sequence inserts for `term`, in call order. -/
def postings_of (calls : List insert_call) (term : List Nat) : List (Nat × Nat) :=
  (calls.filter (fun c => c.term = term)).map (fun c => (c.docid, c.positions.length))

/-- Preconditions of `insert` on a call sequence: docids in `[1, 2 ^ 30)` and strictly
increasing per term, non-empty position lists (of 32-bit length), terms non-empty, at most
`HEAD_BYTES` characters, each character a byte. -/
def ValidCalls (calls : List insert_call) : Prop :=
  (∀ c ∈ calls, 1 ≤ c.docid ∧ c.docid < 2 ^ 30 ∧ 1 ≤ c.positions.length ∧
    c.positions.length < 2 ^ 32 ∧ 1 ≤ c.term.length ∧ c.term.length ≤ HEAD_BYTES ∧
    ∀ x ∈ c.term, x < 256) ∧
  calls.Pairwise (fun a b => a.term = b.term → a.docid < b.docid)

/-! ## Canonical cursor states (used by the proofs) -/

/-- The cursor `fixed` moved into block `b` of slab step `j`, after the postings `done` of
that block have been decoded. -/
def cursor_at (fixed : postings_cursor) (j : Nat) (b : Blk) (start base : Nat)
    (done : List (Nat × Nat)) : postings_cursor :=
  { fixed with
    m_current_block := b.idx
    m_current_offset := start + (enc_posts base done).length
    m_gap_accumulator := if j = 0 then 0 else firstDoc b
    m_current_docid := lastDoc base done
    m_current_tf := lastTf fixed.m_current_tf done
    m_block_count := min j MAX_SLAB_IDX }

/-- The exhausted cursor after the last block `b` of slab step `j`. -/
def cursor_end (fixed : postings_cursor) (j : Nat) (b : Blk) (start base : Nat) :
    postings_cursor :=
  { cursor_at fixed j b start base b.posts with
    m_current_block := END_CHAIN
    m_current_docid := END_CHAIN
    m_block_count := min (j + 1) MAX_SLAB_IDX }

/-- The states a cursor goes through inside block `b` while it decodes `todo`, having
decoded `done` before. -/
def states_from (fixed : postings_cursor) (j : Nat) (b : Blk) (start base : Nat) :
    List (Nat × Nat) → List (Nat × Nat) → List postings_cursor
  | _, [] => []
  | done, p :: todo =>
    cursor_at fixed j b start base (done ++ [p])
      :: states_from fixed j b start base (done ++ [p]) todo

/-- The states a cursor goes through inside block `b`, one per posting. -/
def block_states (fixed : postings_cursor) (j : Nat) (b : Blk) (start base : Nat) :
    List postings_cursor :=
  states_from fixed j b start base [] b.posts

/-- The states a cursor goes through in a list of blocks. -/
def chain_states (fixed : postings_cursor) : Nat → Nat → Nat → List Blk → List postings_cursor
  | _, _, _, [] => []
  | j, start, base, b :: rest =>
    block_states fixed j b start base
      ++ chain_states fixed (j + 1) TT_PL_OFFSET (if j = 0 then 0 else firstDoc b) rest

/-- The exhausted state reached after a non-empty list of blocks. -/
def chain_end (fixed : postings_cursor) : Nat → Nat → Nat → List Blk → postings_cursor
  | _, _, _, [] => fixed
  | j, start, base, [b] => cursor_end fixed j b start base
  | j, _, _, b :: b2 :: rest =>
    chain_end fixed (j + 1) TT_PL_OFFSET (if j = 0 then 0 else firstDoc b) (b2 :: rest)

/-- Each state of the list is the result of `next` on the one before it, starting from `c`. -/
def Follows (idx : immediate_index) : postings_cursor → List postings_cursor → Prop
  | _, [] => True
  | c, c1 :: rest => postings_cursor.next idx c = some c1 ∧ Follows idx c1 rest

/-- What a cursor shows at construction and after each of `n` calls of `next`: the list of
`(docid(), freq())`; `none` when a call fails. -/
def postings_cursor.read_all (idx : immediate_index) : Nat → postings_cursor →
    Option (List (Nat × Nat))
  | 0, c => some [(c.docid, c.freq)]
  | n + 1, c =>
    match postings_cursor.next idx c with
    | none => none
    | some c1 => (postings_cursor.read_all idx n c1).map (fun l => (c.docid, c.freq) :: l)

/-- The cursor that the constructor seats at the head of chain `c`, before its first `next`. -/
def start_cursor (idx : immediate_index) (c : Chain) : postings_cursor :=
  { m_term := c.term
    m_head_block := c.head
    m_tail_block := idx.tail_block c.head
    m_doc_freq := idx.doc_freq c.head
    m_current_block := c.head
    m_current_offset := idx.head_data_offset c.head
    m_gap_accumulator := 0
    m_current_docid := 0
    m_current_tf := 0
    m_block_count := 0 }

/-- The states of a cursor over chain `c`, one per posting, in order. -/
def canon_states (idx : immediate_index) (c : Chain) : List postings_cursor :=
  chain_states (start_cursor idx c) 0 (HEAD_PL_OFFSET + c.term.length) 0 c.blocks

/-- The exhausted state of a cursor over chain `c`. -/
def canon_end (idx : immediate_index) (c : Chain) : postings_cursor :=
  chain_end (start_cursor idx c) 0 (HEAD_PL_OFFSET + c.term.length) 0 c.blocks

/-! ## Auxiliary descriptions used by the proofs -/

/-- Memory after the two head updates that open `insert_posting`. -/
def head_upd (m : Mem) (h docid : Nat) : Mem :=
  write_u32 (write_u32 m (struct_ptr h + 8) (head_block.doc_freq m h + 1))
    (struct_ptr h + 12) docid

/-- Memory after the fit path of `insert_posting`. -/
def fit_mem (m : Mem) (h docid gap freq : Nat) : Mem :=
  head_block.advance_tail_byte_offset
    (write_list (head_upd m h docid)
      (struct_ptr (head_block.tail_block m h) + head_block.tail_byte_offset m h)
      (magic_bytes gap freq))
    h (magic_bytes gap freq).length

/-- Memory after the grow path of `insert_posting`; `nb` is the index of the new slab. -/
def grow_mem (m : Mem) (h docid freq nb : Nat) : Mem :=
  let prev := head_block.tail_block m h
  let m3 := head_block.increment_growth_offset (head_upd m h docid) h
  let m4 := tail_block.init m3 nb docid
  let doc_gap :=
    if prev = h then docid else (docid + 2 ^ 32 - tail_block.first_docid m4 prev) % 2 ^ 32
  let m5 := torso_block.set_next_block m4 prev nb
  let m6 := head_block.set_tail_block m5 h nb
  let m7 := head_block.set_tail_byte_offset m6 h TT_PL_OFFSET
  let w := write_list m7 (struct_ptr nb + head_block.tail_byte_offset m7 h)
    (magic_bytes doc_gap freq)
  head_block.advance_tail_byte_offset w h (magic_bytes doc_gap freq).length

/-- The between-block gap the grow path encodes. -/
def grow_gap (m : Mem) (h docid : Nat) : Nat :=
  if head_block.tail_block m h = h then docid
  else (docid + 2 ^ 32 - read_u32 m (struct_ptr (head_block.tail_block m h))) % 2 ^ 32

/-- What the head of a well-formed chain records about its tail. -/
structure ChainFacts (S : Nat → Nat) (m : Mem) (c : Chain) (pre : List Blk) (last : Blk) :
    Prop where
  tail : head_block.tail_block m c.head = last.idx
  size : last.size = S (min pre.length MAX_SLAB_IDX)
  growth : head_block.growth_offset m c.head = min pre.length MAX_SLAB_IDX
  off_le : head_block.tail_byte_offset m c.head ≤ BLOCK_SIZE * last.size
  single : pre = [] → last.idx = c.head ∧
    HEAD_PL_OFFSET + c.term.length ≤ head_block.tail_byte_offset m c.head
  multi : pre ≠ [] → struct_ptr c.head + 64 ≤ struct_ptr last.idx ∧
    TT_PL_OFFSET ≤ head_block.tail_byte_offset m c.head ∧
    ∃ h pre', pre = h :: pre' ∧ h.idx = c.head
  sizes : ∀ b ∈ pre ++ [last], 1 ≤ b.size
  before : ∀ b ∈ pre, b.idx + b.size ≤ last.idx
  inner : ∀ x ∈ pre.tail, struct_ptr c.head + 64 ≤ struct_ptr x.idx
  posts : PostsOK 0 c.posts
  rep : BlocksRep S m (head_block.tail_block m c.head) (head_block.tail_byte_offset m c.head)
    0 (HEAD_PL_OFFSET + c.term.length) 0 0 (pre ++ [last])
  term_len : c.term.length ≤ HEAD_BYTES
  term_ch : ∀ x ∈ c.term, x < 256
  wl : head_block.word_length m c.head = c.term.length
  term : holds m (struct_ptr c.head + HEAD_PL_OFFSET) c.term
  df : head_block.doc_freq m c.head = c.posts.length
  recent : head_block.recent_docid m c.head = lastDoc 0 c.posts
  tail_first : pre ≠ [] →
    read_u32 m (struct_ptr last.idx) = firstDoc last ∧ last.posts ≠ []

/-- The chains of the index hold exactly the posting lists `P`, one chain per term with a
non-empty list. -/
def Tracks (chains : Nat → Option Chain) (P : List Nat → List (Nat × Nat)) : Prop :=
  ∀ t, (P t = [] → ∀ s c, chains s = some c → c.term ≠ t) ∧
    (P t ≠ [] → ∃ s c, chains s = some c ∧ c.term = t ∧ c.posts = P t)

/-- Slab table of the worked examples: one block for the first two slabs, two afterwards. -/
def wslabs : Nat → Nat := fun i => if i < 2 then 1 else 2

/-- Hash of the worked examples: the sum of the characters. -/
def whash : List Nat → Nat := fun t => t.sum

/-- Calls of the worked examples: twelve postings for each of two terms, interleaved; the two
terms hash to the same directory slot and each chain stays within its head block. -/
def wcalls : List insert_call :=
  (List.range 12).flatMap (fun i =>
    [⟨300000 * i + 1, [97], List.replicate (i % 7 + 1) 0⟩, ⟨3 * i + 2, [1, 96], [1, 2]⟩])

/-! ## Description of the block skipping of `next_geq` (used by the proofs) -/

/-- The state in which the skipping loop of `next_geq` stops, started on block `b` of slab
step `j` with `rest` after it and `bc` in `block_count`. -/
def skip_model (target : Nat) : Nat → Nat → Blk → List Blk → postings_cursor.skip_state
  | bc, j, b, [] =>
    { current_block := END_CHAIN
      current_docid := if j = 0 then 0 else firstDoc b
      prev_block := b.idx
      prev_docid := if j = 0 then 0 else firstDoc b
      block_count := bc + 1 }
  | bc, j, b, nb :: rest =>
    if firstDoc nb < target then skip_model target (bc + 1) (j + 1) nb rest
    else
      { current_block := nb.idx
        current_docid := firstDoc nb
        prev_block := b.idx
        prev_docid := if j = 0 then 0 else firstDoc b
        block_count := bc + 1 }

/-- The block on which `next_geq` re-aligns: its slab step, payload offset, gap base and
the block itself. -/
def land (target : Nat) : Nat → Nat → Nat → Blk → List Blk → Nat × Nat × Nat × Blk
  | j, start, base, b, [] => (j, start, base, b)
  | j, start, base, b, nb :: rest =>
    if firstDoc nb < target then
      land target (j + 1) TT_PL_OFFSET (if j = 0 then 0 else firstDoc b) nb rest
    else if firstDoc nb = target then
      (j + 1, TT_PL_OFFSET, if j = 0 then 0 else firstDoc b, nb)
    else (j, start, base, b)

/-- The canonical states of a list of blocks followed by the exhausted state. -/
def all_states (fixed : postings_cursor) (j start base : Nat) (bs : List Blk) :
    List postings_cursor :=
  chain_states fixed j start base bs ++ [chain_end fixed j start base bs]

/-- A cursor state shows a docid at or after `target`. -/
def reached (target : Nat) (c : postings_cursor) : Bool := decide (target ≤ c.m_current_docid)

/-- Repeated `next()`: `k` calls. -/
def postings_cursor.nexts (idx : immediate_index) : Nat → postings_cursor →
    Option postings_cursor
  | 0, c => some c
  | k + 1, c =>
    match postings_cursor.next idx c with
    | none => none
    | some c1 => postings_cursor.nexts idx k c1

/-! ## Query processing (`query_processing.hpp`) -/

/-- The `for (; i < ordered_cursors.size(); ++i)` loop of `boolean_conjunction` over the
cursors from position `i` on.  Returns whether the loop ran to the end (`i == size`
afterwards, as opposed to the `i = 0; break`) and the cursors as it leaves them. -/
def boolean_conjunction_for (idx : immediate_index) (fuel candidate : Nat) :
    List postings_cursor → Option (Bool × List postings_cursor)
  | [] => some (true, [])
  | c :: rest =>
    match postings_cursor.next_geq idx fuel c candidate with
    | none => none
    | some c1 =>
      if c1.docid ≠ candidate then some (false, c1 :: rest)
      else
        match boolean_conjunction_for idx fuel candidate rest with
        | none => none
        | some r => some (r.1, c1 :: r.2)

/-- The `while (candidate != END_CHAIN)` loop of `boolean_conjunction`; `lead` is
`ordered_cursors[0]`, `others` the cursors after it, `results` the number of docids pushed
so far. -/
def boolean_conjunction_while (idx : immediate_index) (fuel : Nat) :
    Nat → postings_cursor → List postings_cursor → Nat → Option Nat
  | 0, _, _, _ => none
  | n + 1, lead, others, results =>
    let candidate := lead.docid
    if candidate ≠ END_CHAIN then
      match boolean_conjunction_for idx fuel candidate others with
      | none => none
      | some (all, others1) =>
        let results := if all then results + 1 else results
        match postings_cursor.next idx lead with
        | none => none
        | some lead1 => boolean_conjunction_while idx fuel n lead1 others1 results
    else some results

/-- Function `boolean_conjunction(cursors)`.  `sort` stands for the `std::sort` call by
`doc_freq` (whose order among equal keys is unspecified); `fuel` bounds each loop. -/
def boolean_conjunction (idx : immediate_index)
    (sort : List postings_cursor → List postings_cursor) (fuel : Nat)
    (cursors : List postings_cursor) : Option Nat :=
  if cursors.length = 0 then some 0
  else
    match sort cursors with
    | [] => none
    | lead :: others => boolean_conjunction_while idx fuel fuel lead others 0

/-- The docid of `std::min_element` by `docid()` over a cursor and the cursors after it. -/
def min_docid (c : postings_cursor) (rest : List postings_cursor) : Nat :=
  rest.foldl (fun m x => if x.docid < m then x.docid else m) c.docid

/-- The `for` loop of `boolean_disjunction`: advances every cursor that shows `candidate`
and tracks the smallest docid seen in `next_doc`. -/
def boolean_disjunction_for (idx : immediate_index) (candidate : Nat) :
    List postings_cursor → Nat → Option (List postings_cursor × Nat)
  | [], next_doc => some ([], next_doc)
  | c :: rest, next_doc =>
    match (if c.docid = candidate then postings_cursor.next idx c else some c) with
    | none => none
    | some c1 =>
      let next_doc := if c1.docid < next_doc then c1.docid else next_doc
      match boolean_disjunction_for idx candidate rest next_doc with
      | none => none
      | some r => some (c1 :: r.1, r.2)

/-- The `while (candidate != END_CHAIN)` loop of `boolean_disjunction`.  Returns `results`
and the cursors as the loop leaves them. -/
def boolean_disjunction_while (idx : immediate_index) :
    Nat → List postings_cursor → Nat → Nat → Option (Nat × List postings_cursor)
  | 0, _, _, _ => none
  | n + 1, cursors, candidate, results =>
    if candidate ≠ END_CHAIN then
      match boolean_disjunction_for idx candidate cursors END_CHAIN with
      | none => none
      | some (cursors1, next_doc) =>
        boolean_disjunction_while idx n cursors1 next_doc (results + 1)
    else some (results, cursors)

/-- Function `boolean_disjunction(cursors)`: the count returned and the cursors as it leaves
them; `fuel` bounds the `while` loop. -/
def boolean_disjunction (idx : immediate_index) (fuel : Nat)
    (cursors : List postings_cursor) : Option (Nat × List postings_cursor) :=
  match cursors with
  | [] => some (0, [])
  | c :: rest => boolean_disjunction_while idx fuel (c :: rest) (min_docid c rest) 0

/-! ## Cursors over the chains of an index (used by the proofs) -/

/-- Cursor `c` is in one of the states of a walk over a chain of the index. -/
def OnChain (idx : immediate_index) (chains : Nat → Option Chain) (c : postings_cursor) :
    Prop :=
  ∃ s ch, chains s = some ch ∧ c ∈ canon_states idx ch ++ [canon_end idx ch]

/-- Cursor `c` is where `next_geq x` leaves a cursor of its chain, for some `x ≤ bound`, and
`fuel` is enough for `next_geq` on that chain. -/
def Tracked (idx : immediate_index) (chains : Nat → Option Chain) (fuel bound : Nat)
    (c : postings_cursor) : Prop :=
  ∃ s ch x, chains s = some ch ∧ x ≤ bound ∧ ch.posts.length + 2 ≤ fuel ∧
    (canon_states idx ch ++ [canon_end idx ch]).find? (reached x) = some c

/-- The docids not yet passed by the cursors `cs`, where `D t` lists the docids of term
`t`. -/
def remaining (D : List Nat → List Nat) (cs : List postings_cursor) : Finset Nat :=
  (cs.flatMap (fun c => (D c.m_term).filter (fun d => decide (c.m_current_docid ≤ d)))).toFinset

/-- Sort by `doc_freq` used in the worked examples. -/
def wsort (cs : List postings_cursor) : List postings_cursor :=
  cs.insertionSort (fun l r => l.doc_freq ≤ r.doc_freq)

/-- Calls of the worked query examples: two terms whose docid lists share `1`, `7`, `13`. -/
def qcalls : List insert_call :=
  (List.range 8).flatMap (fun i => [⟨2 * i + 1, [97], [0]⟩, ⟨3 * i + 1, [98], [0, 0]⟩])

/-! ## Further descriptions used by the proofs -/

/-- The bytes `vbyte_encode v` emits, read back from a zeroed buffer. -/
def vbyte_emitted (v : Nat) : List Nat :=
  (List.range (vbyte_encode v (fun _ => 0) 0).2).map (vbyte_encode v (fun _ => 0) 0).1

/-- Successive calls `next_free_slot(k)` for the `k` of a list; returns the granted ranges
`(first block, length)` in call order and the index afterwards, `none` when a call fails. -/
def grants (idx : immediate_index) : List Nat → Option (List (Nat × Nat) × immediate_index)
  | [] => some ([], idx)
  | k :: ks =>
    match idx.next_free_slot k with
    | none => none
    | some (slot, idx1) =>
      match grants idx1 ks with
      | none => none
      | some (ranges, idx2) => some ((slot, k) :: ranges, idx2)

/-- The probe of `found_or_empty_offset` stops at slot `i`: the slot is empty or its head
block stores `term`. -/
def probe_stop (idx : immediate_index) (term : List Nat) (i : Nat) : Prop :=
  idx.m_term_offsets i = END_CHAIN ∨
    term = head_block.get_term idx.m_data (idx.m_term_offsets i)

/-- An index whose one-slot directory is taken by the term `[97]`. -/
def full_dir : immediate_index :=
  ((immediate_index.mk_sized wslabs 4 1).insert whash 1 [97] [0]).getD
    (immediate_index.mk_default wslabs)

/-- Function `query_to_cursors(index, in_query)`: a cursor for each term of the query, in
order, skipping the cursors that are not valid. -/
def query_to_cursors (hash : List Nat → Nat) (idx : immediate_index) :
    List (List Nat) → Option (List postings_cursor)
  | [] => some []
  | term :: rest =>
    match postings_cursor.create hash idx term with
    | none => none
    | some cursor =>
      match query_to_cursors hash idx rest with
      | none => none
      | some cursors => some (if cursor.valid then cursor :: cursors else cursors)

/-- Calls of a small worked example: two postings of one term. -/
def mcalls : List insert_call := [⟨1, [97], [0]⟩, ⟨2, [97], [0]⟩]

/-- The index built by `mcalls`. -/
def midx : immediate_index :=
  (run_inserts whash (immediate_index.mk_sized wslabs 8 4) mcalls).getD
    (immediate_index.mk_default wslabs)

/-- The cursors of the query `[97] [120]` over `midx`; `[120]` is not indexed. -/
def mcursors : List postings_cursor :=
  (query_to_cursors whash midx [[97], [120]]).getD []

/-! ## The top-k queue (`topk_queue.hpp`)

Scores are `float` in the source; the queue only compares them, so the embedding takes the
scores from any linear order `α` with a zero.  An entry is a pair `(score, docid)`. -/

/-- The three heap algorithms of the C++ standard library that the queue calls with
`min_heap_order`, as functions on the contents of the vector. -/
structure heap_ops (α : Type) where
  push_heap : List (α × Nat) → List (α × Nat)
  pop_heap : List (α × Nat) → List (α × Nat)
  sort_heap : List (α × Nat) → List (α × Nat)

/-- Struct `topk_queue`. -/
structure topk_queue (α : Type) where
  m_k : Nat
  m_threshold : α
  m_q : List (α × Nat)

namespace topk_queue

variable {α : Type} [LinearOrder α] [Zero α]

/-- Method `would_enter(score)`. -/
def would_enter (q : topk_queue α) (score : α) : Bool := decide (score > q.m_threshold)

/-- Method `size()`. -/
def size (q : topk_queue α) : Nat := q.m_q.length

/-- Method `capacity()`. -/
def capacity (q : topk_queue α) : Nat := q.m_k

/-- Method `insert(score, docid)`: the returned flag and the queue afterwards.  `front()` of
an empty vector (reached only with `m_k = 0`) is undefined and reported as `none`. -/
def insert (ops : heap_ops α) (q : topk_queue α) (score : α) (docid : Nat) :
    Option (Bool × topk_queue α) :=
  if ¬ q.would_enter score = true then some (false, q)
  else
    let emplaced := q.m_q ++ [(score, docid)]
    if emplaced.length ≤ q.m_k then
      let m_q := ops.push_heap emplaced
      if emplaced.length = q.m_k then
        match m_q.head? with
        | none => none
        | some front => some (true, { q with m_q := m_q, m_threshold := front.1 })
      else some (true, { q with m_q := m_q })
    else
      let m_q := (ops.pop_heap emplaced).dropLast
      match m_q.head? with
      | none => none
      | some front => some (true, { q with m_q := m_q, m_threshold := front.1 })

/-- Method `clear()`. -/
def clear (q : topk_queue α) : topk_queue α :=
  { q with m_q := [], m_threshold := 0 }

end topk_queue

/-! ## Descriptions of the heap algorithms and of runs of the queue (used by the proofs) -/

/-- The four bytes of a `uint32_t`. -/
def u32_bytes (v : Nat) : List Nat :=
  [v % 256, v / 256 % 256, v / 65536 % 256, v / 16777216 % 256]

/-- The eight bytes of a 64-bit `size_t`. -/
def u64_bytes (v : Nat) : List Nat := u32_bytes v ++ u32_bytes (v / 4294967296)

/-- The value of an object with the bytes `bs`. -/
def of_bytes (bs : List Nat) : Nat := bs.foldr (fun b acc => b + 256 * acc) 0

/-- The `n` bytes of memory from address `p` on. -/
def mem_bytes (m : Mem) (p n : Nat) : List Nat := (List.range n).map (fun i => m (p + i))

/-- The bytes of the first `n` elements of a `std::vector<uint32_t>`. -/
def vec_bytes (v : Nat → Nat) (n : Nat) : List Nat :=
  (List.range n).flatMap (fun s => u32_bytes (v s))

/-- Class `std::ofstream`: the bytes of the file and the put position. -/
structure ofstream where
  bytes : List Nat
  pos : Nat

namespace ofstream

/-- Method `write(s, n)` with the `n` bytes `bs`: they replace what the file holds from the
put position on, the file growing as needed. -/
def write (out : ofstream) (bs : List Nat) : ofstream :=
  { bytes := out.bytes.take out.pos ++ List.replicate (out.pos - out.bytes.length) 0 ++ bs
      ++ out.bytes.drop (out.pos + bs.length)
    pos := out.pos + bs.length }

/-- Method `tellp()`. -/
def tellp (out : ofstream) : Nat := out.pos

/-- Method `seekp(pos)`. -/
def seekp (out : ofstream) (pos : Nat) : ofstream := { out with pos := pos }

end ofstream

/-- Class `std::ifstream`: the bytes not read yet, or `none` once a read has failed. -/
abbrev ifstream := Option (List Nat)

/-- Method `read(s, n)`: the bytes extracted and the stream afterwards.  A stream that ends
before `n` bytes gives the bytes it has and fails; a failed stream gives nothing. -/
def ifstream.read (inp : ifstream) (n : Nat) : List Nat × ifstream :=
  match inp with
  | none => ([], none)
  | some bs => if n ≤ bs.length then (bs.take n, some (bs.drop n)) else (bs, none)

/-- The bytes of an object after the extracted bytes `got` were stored over its first bytes. -/
def overwrite (old got : List Nat) : List Nat := got ++ old.drop got.length

namespace immediate_index

/-- Method `serialize(out)`. -/
def serialize (idx : immediate_index) (out : ofstream) : ofstream :=
  let out := out.write (u64_bytes idx.m_next_empty)
  let ht_size := idx.m_term_offsets_size
  let out := out.write (u64_bytes ht_size)
  let out := out.write (vec_bytes idx.m_term_offsets ht_size)
  out.write (mem_bytes idx.m_data (struct_ptr 0) (idx.m_next_empty * BLOCK_SIZE))

/-- Method `load(in)`: the index and the stream afterwards.  `resize` keeps the elements a
vector has and adds zeroed ones. -/
def load (idx : immediate_index) (inp : ifstream) : immediate_index × ifstream :=
  let r1 := inp.read 8
  let m_next_empty := of_bytes (overwrite (u64_bytes idx.m_next_empty) r1.1)
  let r2 := r1.2.read 8
  let ht_size := of_bytes (overwrite (u64_bytes 0) r2.1)
  let resized : Nat → Nat :=
    fun s => if s < idx.m_term_offsets_size then idx.m_term_offsets s else 0
  let r3 := r2.2.read (4 * ht_size)
  let table := overwrite (vec_bytes resized ht_size) r3.1
  let r4 := r3.2.read (m_next_empty * BLOCK_SIZE)
  ({ idx with
      m_next_empty := m_next_empty
      m_term_offsets := fun s => of_bytes ((table.drop (4 * s)).take 4)
      m_term_offsets_size := ht_size
      m_data := fun a =>
        if a < m_next_empty * BLOCK_SIZE then
          if a < r4.1.length then r4.1.getD a 0
          else if a < idx.m_data_size * BLOCK_SIZE then idx.m_data a else 0
        else 0
      m_data_size := m_next_empty }, r4.2)

/-- The counting loop of `serialize_pack` (step 4 of the loop body): the value of
`total_blocks_in_chain` when `block_idx` reaches `tail_block`. -/
def pack_count (idx : immediate_index) (tail_block : Nat) : Nat → Nat → Nat → Nat → Option Nat
  | 0, _, _, _ => none
  | fuel + 1, block_idx, total_blocks_in_chain, slab_index =>
    if block_idx ≠ tail_block then
      pack_count idx tail_block fuel (head_block.next_block idx.m_data block_idx)
        ((total_blocks_in_chain + idx.slab_size slab_index) % 2 ^ 32)
        (min ((slab_index + 1) % 2 ^ 32) MAX_SLAB_IDX)
    else some total_blocks_in_chain

/-- State of `serialize_pack` between two steps: the index, the file and `next_idx`. -/
structure pack_state where
  idx : immediate_index
  out : ofstream
  next_idx : Nat

/-- The writing loop of `serialize_pack` (step 6 of the loop body): the state, `block_idx`
and `slab_index` when `block_idx` reaches `tail_block`. -/
def pack_write (tail_block : Nat) : Nat → pack_state → Nat → Nat →
    Option (pack_state × Nat × Nat)
  | 0, _, _, _ => none
  | fuel + 1, st, block_idx, slab_index =>
    if block_idx ≠ tail_block then
      let next_block := head_block.next_block st.idx.m_data block_idx
      let slab_blocks := st.idx.slab_size slab_index
      let next_idx := (st.next_idx + slab_blocks) % 2 ^ 32
      let m := head_block.set_next_block st.idx.m_data block_idx next_idx
      let out := st.out.write (mem_bytes m (struct_ptr block_idx) (slab_blocks * BLOCK_SIZE))
      pack_write tail_block fuel
        { idx := { st.idx with m_data := m }, out := out, next_idx := next_idx }
        next_block (min ((slab_index + 1) % 2 ^ 32) MAX_SLAB_IDX)
    else some (st, block_idx, slab_index)

/-- Body of the loop over the hash table entries in `serialize_pack` (step 5), for entry
`i`.  The fuel bounds each of the two inner loops. -/
def pack_slot (fuel : Nat) (st : pack_state) (i : Nat) : Option pack_state :=
  let head_block_idx := st.idx.m_term_offsets i
  if head_block_idx = END_CHAIN then some st
  else
    let offsets := Function.update st.idx.m_term_offsets i st.next_idx
    let tail_block := head_block.tail_block st.idx.m_data head_block_idx
    match pack_count st.idx tail_block fuel head_block_idx 0 0 with
    | none => none
    | some total_blocks_in_chain =>
      let m := head_block.set_tail_block st.idx.m_data head_block_idx
        ((total_blocks_in_chain + st.next_idx) % 2 ^ 32)
      match pack_write tail_block fuel
          { st with idx := { st.idx with m_term_offsets := offsets, m_data := m } }
          head_block_idx 0 with
      | none => none
      | some (st1, block_idx, slab_index) =>
        let slab_blocks := st1.idx.slab_size slab_index
        some { idx := st1.idx
               out := st1.out.write
                 (mem_bytes st1.idx.m_data (struct_ptr block_idx) (slab_blocks * BLOCK_SIZE))
               next_idx := (st1.next_idx + slab_blocks) % 2 ^ 32 }

/-- The loop over the hash table entries in `serialize_pack`. -/
def pack_slots (fuel : Nat) : List Nat → pack_state → Option pack_state
  | [], st => some st
  | i :: rest, st =>
    match pack_slot fuel st i with
    | none => none
    | some st1 => pack_slots fuel rest st1

/-- Method `serialize_pack(out)`: the index, which the method changes, and the file.  An inner
loop that does not end within the fuel is reported as `none`. -/
def serialize_pack (idx : immediate_index) (fuel : Nat) (out : ofstream) :
    Option (immediate_index × ofstream) :=
  let out := out.write (u64_bytes idx.m_next_empty)
  let ht_size := idx.m_term_offsets_size
  let out := out.write (u64_bytes ht_size)
  let hash_table_beginning_offset := out.tellp
  let out := out.write (vec_bytes idx.m_term_offsets ht_size)
  match pack_slots fuel (List.range idx.m_term_offsets_size)
      { idx := idx, out := out, next_idx := 0 } with
  | none => none
  | some st =>
    let out := st.out.seekp hash_table_beginning_offset
    some (st.idx, out.write (vec_bytes st.idx.m_term_offsets ht_size))

end immediate_index

/-! ## Description of the compacted file (used by the proofs) -/

/-- Number of physical blocks of a list of logical blocks. -/
def span (bs : List Blk) : Nat := (bs.map Blk.size).sum

/-- Sum of the slab sizes `S[min(i, MAX_SLAB_IDX)]` of the logical blocks `i < n` of a chain. -/
def slab_sum (S : Nat → Nat) (n : Nat) : Nat :=
  ((List.range n).map (fun i => S (min i MAX_SLAB_IDX))).sum

/-- Logical blocks moved to consecutive physical positions from `p` on. -/
def reloc_blocks : Nat → List Blk → List Blk
  | _, [] => []
  | p, b :: rest => { b with idx := p } :: reloc_blocks (p + b.size) rest

/-- Position of the last block of a list of blocks moved to `p`. -/
def reloc_tail : Nat → List Blk → Nat
  | p, [] => p
  | p, [_] => p
  | p, b :: b2 :: rest => reloc_tail (p + b.size) (b2 :: rest)

/-- A chain moved to consecutive physical positions from `p` on. -/
def relocate (c : Chain) (p : Nat) : Chain := { c with blocks := reloc_blocks p c.blocks }

/-- Physical index at which the chain of directory slot `s` starts in the compacted file:
the number of physical blocks of the chains of the slots before `s`. -/
def new_head (chains : Nat → Option Chain) (s : Nat) : Nat :=
  ((List.range s).map (fun i => match chains i with
    | none => 0
    | some c => span c.blocks)).sum

/-- The bytes written for a chain whose first block goes to position `p`: each block as it
is in memory `m`, the blocks before the last with `p` plus the sizes so far as next block. -/
def chain_image (m : Mem) : Nat → List Blk → List Nat
  | _, [] => []
  | _, [b] => mem_bytes m (struct_ptr b.idx) (b.size * BLOCK_SIZE)
  | p, b :: b2 :: rest =>
    mem_bytes (head_block.set_next_block m b.idx (p + b.size)) (struct_ptr b.idx)
      (b.size * BLOCK_SIZE) ++ chain_image m (p + b.size) (b2 :: rest)

/-- The arena that `load` finds in a file whose data part is `data`. -/
def file_mem (data : List Nat) : Mem := fun a => data.getD a 0

/-- The list `data` holds the bytes `img` from offset `off` on. -/
def Holds (data : List Nat) (off : Nat) (img : List Nat) : Prop :=
  ∀ k, k < img.length → data.getD (off + k) 0 = img.getD k 0

/-- What holds of `serialize_pack` on the index `idx0` before the directory slot `i` is
handled: the slots before `i` hold the new heads, the file holds `pre` and then the chains of
these slots back to back, and the arena is as in `idx0` outside their blocks. -/
structure PackInv (chains : Nat → Option Chain) (idx0 : immediate_index) (pre : List Nat)
    (i : Nat) (st : immediate_index.pack_state) : Prop where
  size : st.idx.m_term_offsets_size = idx0.m_term_offsets_size
  slab : st.idx.m_slab_size = idx0.m_slab_size
  ne : st.idx.m_next_empty = idx0.m_next_empty
  dir : ∀ s, st.idx.m_term_offsets s
    = if s < i ∧ (chains s).isSome = true then new_head chains s else idx0.m_term_offsets s
  nidx : st.next_idx = new_head chains i
  pos : st.out.pos = st.out.bytes.length
  out : ∃ data, st.out.bytes = pre ++ data ∧ data.length = BLOCK_SIZE * new_head chains i ∧
    ∀ s c, s < i → chains s = some c →
      Holds data (BLOCK_SIZE * new_head chains s)
        (chain_image (head_block.set_tail_block idx0.m_data c.head
          (reloc_tail (new_head chains s) c.blocks)) (new_head chains s) c.blocks)
  mem : ∀ a, (∀ s c, s < i → chains s = some c → ∀ x ∈ c.blocks,
      a < struct_ptr x.idx ∨ struct_ptr x.idx + BLOCK_SIZE * x.size ≤ a) →
    st.idx.m_data a = idx0.m_data a

/-- The chains of the compacted file: the chain of each slot moved to its new head. -/
def packed_chains (chains : Nat → Option Chain) : Nat → Option Chain :=
  fun s => (chains s).map (fun c => relocate c (new_head chains s))

/-! ## Further descriptions of the builder (used by the proofs) -/

/-- The bytes `encode_magic(docgap, freq)` emits, read back from a zeroed buffer. -/
def magic_emitted (docgap freq : Nat) : List Nat :=
  (List.range (encode_magic docgap freq (fun _ => 0) 0).2).map
    (encode_magic docgap freq (fun _ => 0) 0).1

/-- Term of a worked example: 43 characters, which leave one byte of payload in a head. -/
def gterm : List Nat := List.replicate 43 97

/-- Calls of a worked example: one posting that fills the head of `gterm`. -/
def gcalls : List insert_call := [⟨1, gterm, [0]⟩]

/-- The call that makes the chain of `gterm` grow. -/
def gcall : insert_call := ⟨2, gterm, [0, 0]⟩

/-- The index built by `gcalls`. -/
def gidx : immediate_index :=
  (run_inserts whash (immediate_index.mk_sized wslabs 8 4) gcalls).getD
    (immediate_index.mk_default wslabs)

/-- The head that the first part of `insert` finds for `gterm` in `gidx`, and the index then. -/
def ghead : Nat × immediate_index :=
  (gidx.insert_head whash gterm).getD (0, immediate_index.mk_default wslabs)

/-- The index after the call `gcall` on `gidx`. -/
def gidx2 : immediate_index :=
  (gidx.insert whash gcall.docid gcall.term gcall.positions).getD
    (immediate_index.mk_default wslabs)

/-- The block reached from block `h` by `k` hops along `next_block`. -/
def chain_walk (m : Mem) (h k : Nat) : Nat := (fun b => head_block.next_block m b)^[k] h

namespace immediate_index

/-- The `doc_gap` argument of the call `encode_magic(doc_gap, freq, ...)` made by the second
part of `insert` (lines 293-341): the gap to `recent_docid` when the posting fits the tail,
the between-block gap when a new tail is allocated; `none` when no slab is free. -/
def posting_gap (idx : immediate_index) (head_block_index docid freq : Nat) : Option Nat :=
  let doc_gap := (docid + 2 ^ 32 - head_block.recent_docid idx.m_data head_block_index) % 2 ^ 32
  let m := head_block.increment_doc_freq idx.m_data head_block_index
  let m := head_block.set_recent_docid m head_block_index docid
  let current_block_index := head_block.tail_block m head_block_index
  let write_offset := head_block.tail_byte_offset m head_block_index
  let bytes_required := magic_bytes_required doc_gap freq
  let slab_size := BLOCK_SIZE * idx.m_slab_size (head_block.growth_offset m head_block_index)
  if write_offset + bytes_required ≤ slab_size then
    some doc_gap
  else
    let prev_block_index := current_block_index
    let m := head_block.increment_growth_offset m head_block_index
    match ({ idx with m_data := m } : immediate_index).next_free_slot
        (idx.m_slab_size (head_block.growth_offset m head_block_index)) with
    | none => none
    | some (slot, idx1) =>
      let current_block_index := slot % 2 ^ 32
      let m := tail_block.init idx1.m_data current_block_index docid
      let doc_gap :=
        if prev_block_index = head_block_index then docid
        else (docid + 2 ^ 32 - tail_block.first_docid m prev_block_index) % 2 ^ 32
      some doc_gap

end immediate_index

/-- The calls of scenario S3 for `term`: postings `(1, 1), (2, 1), ..., (n, 1)`, in this
order; a call with one word position has frequency one. -/
def s3_calls (term : List Nat) (n : Nat) : List insert_call :=
  (List.range n).map (fun i => ⟨i + 1, term, [0]⟩)

/-- The index of scenario S3 after `n` postings of the one-character term `[97]`, with 8
blocks, 4 directory slots and the slab table `wslabs`. -/
def s3_idx (n : Nat) : immediate_index :=
  (run_inserts whash (immediate_index.mk_sized wslabs 8 4) (s3_calls [97] n)).getD
    (immediate_index.mk_default wslabs)

/-! ## Profiled conjunction (`query_processing.hpp`, lines 59-114) -/

/-- The `for (; i < ordered_cursors.size(); ++i)` loop of `profile_boolean_conjunction` over
the cursors from position `i` on; `counts` are the entries of `geq_count` at the same
positions.  Returns whether the loop ran to the end, the cursors and the counters as it
leaves them. -/
def profile_conjunction_for (idx : immediate_index) (fuel candidate : Nat) :
    List postings_cursor → List Nat → Option (Bool × List postings_cursor × List Nat)
  | [], counts => some (true, [], counts)
  | c :: rest, counts =>
    match postings_cursor.next_geq idx fuel c candidate with
    | none => none
    | some c1 =>
      let count := counts.headD 0 + 1
      if c1.docid ≠ candidate then some (false, c1 :: rest, count :: counts.tail)
      else
        match profile_conjunction_for idx fuel candidate rest counts.tail with
        | none => none
        | some r => some (r.1, c1 :: r.2.1, count :: r.2.2)

/-- The `while (candidate != END_CHAIN)` loop of `profile_boolean_conjunction`; `lead` is
`ordered_cursors[0]`, `others` the cursors after it, `results` the number of docids pushed
so far, `geq_count` the vector of counters (entry 0 counts the rounds, each of which ends
with `ordered_cursors[0]->next()`). -/
def profile_conjunction_while (idx : immediate_index) (fuel : Nat) :
    Nat → postings_cursor → List postings_cursor → Nat → List Nat → Option (Nat × List Nat)
  | 0, _, _, _, _ => none
  | n + 1, lead, others, results, geq_count =>
    let candidate := lead.docid
    if candidate ≠ END_CHAIN then
      match profile_conjunction_for idx fuel candidate others geq_count.tail with
      | none => none
      | some r =>
        let results := if r.1 then results + 1 else results
        let geq_count := (geq_count.headD 0 + 1) :: r.2.2
        match postings_cursor.next idx lead with
        | none => none
        | some lead1 => profile_conjunction_while idx fuel n lead1 r.2.1 results geq_count
    else some (results, geq_count)

/-- Function `profile_boolean_conjunction(cursors)`: the count returned and the vector
`geq_count` it prints.  `sort` stands for the `std::sort` call by `doc_freq`; `fuel` bounds
each loop. -/
def profile_boolean_conjunction (idx : immediate_index)
    (sort : List postings_cursor → List postings_cursor) (fuel : Nat)
    (cursors : List postings_cursor) : Option (Nat × List Nat) :=
  if cursors.length = 0 then some (0, [])
  else
    match sort cursors with
    | [] => none
    | lead :: others =>
      profile_conjunction_while idx fuel fuel lead others 0
        (List.replicate (lead :: others).length 0)

/-! ## The positional builder (`variable_immediate_index.hpp`, lines 350-437) -/

/-- A call of an encoder made by `insert_positions`: `magic w d` stands for
`encode_magic(w, d, ...)` and `vbyte v` for `vbyte_encode(v, ...)`. -/
inductive encoder_call where
  | magic (word_gap doc_gap : Nat)
  | vbyte (value : Nat)
deriving DecidableEq

namespace immediate_index

/-- One round of the `for` loop of `insert_positions` (lines 378-431), for the word position
`position`, with the values of `doc_gap` and `last_word_pos` on entry.  Returns the index and
the encoder calls the round makes, in order. -/
def insert_position (idx : immediate_index)
    (head_block_index docid doc_gap last_word_pos position : Nat) :
    Option (immediate_index × List encoder_call) :=
  let word_gap := (position + 2 ^ 32 - last_word_pos) % 2 ^ 32
  let current_block_index := head_block.tail_block idx.m_data head_block_index
  let write_offset := head_block.tail_byte_offset idx.m_data head_block_index
  let bytes_required := magic_bytes_required word_gap doc_gap
  let slab_size :=
    BLOCK_SIZE * idx.m_slab_size (head_block.growth_offset idx.m_data head_block_index)
  if write_offset + bytes_required ≤ slab_size then
    let w := encode_magic word_gap doc_gap idx.m_data
      (struct_ptr current_block_index + write_offset)
    some ({ idx with m_data := head_block.advance_tail_byte_offset w.1 head_block_index w.2 },
      [encoder_call.magic word_gap doc_gap])
  else
    let prev_block_index := current_block_index
    let m := head_block.increment_growth_offset idx.m_data head_block_index
    match ({ idx with m_data := m } : immediate_index).next_free_slot
        (idx.m_slab_size (head_block.growth_offset m head_block_index)) with
    | none => none
    | some (slot, idx1) =>
      let current_block_index := slot % 2 ^ 32
      let m := tail_block.init idx1.m_data current_block_index docid
      let doc_gap :=
        if prev_block_index = head_block_index then docid
        else (docid + 2 ^ 32 - tail_block.first_docid m prev_block_index + 1) % 2 ^ 32
      let m := torso_block.set_next_block m prev_block_index current_block_index
      let m := head_block.set_tail_block m head_block_index current_block_index
      let m := head_block.set_tail_byte_offset m head_block_index TT_PL_OFFSET
      let write_offset := head_block.tail_byte_offset m head_block_index
      let w := vbyte_encode doc_gap m (struct_ptr current_block_index + write_offset)
      let m := head_block.advance_tail_byte_offset w.1 head_block_index w.2
      let w := vbyte_encode word_gap m (struct_ptr current_block_index + write_offset)
      some ({ idx1 with m_data := head_block.advance_tail_byte_offset w.1 head_block_index w.2 },
        [encoder_call.vbyte doc_gap, encoder_call.vbyte word_gap])

/-- The `for (size_t i = 0; i < positions.size(); ++i)` loop of `insert_positions` over the
positions still to insert; after each round `doc_gap` is 1.  Returns the index and the
encoder calls of each round. -/
def insert_positions_loop (idx : immediate_index) (head_block_index docid : Nat) :
    List Nat → Nat → Nat → Option (immediate_index × List (List encoder_call))
  | [], _, _ => some (idx, [])
  | position :: rest, last_word_pos, doc_gap =>
    match insert_position idx head_block_index docid doc_gap last_word_pos position with
    | none => none
    | some (idx1, calls) =>
      match insert_positions_loop idx1 head_block_index docid rest position 1 with
      | none => none
      | some (idx2, more) => some (idx2, calls :: more)

/-- Method `insert_positions(docid, term, positions)`, with the encoder calls of each round
of its loop.  Its first part (lines 353-362) is that of `insert`. -/
def insert_positions_traced (hash : List Nat → Nat) (idx : immediate_index) (docid : Nat)
    (term : List Nat) (positions : List Nat) :
    Option (immediate_index × List (List encoder_call)) :=
  match insert_head hash idx term with
  | none => none
  | some (head_block_index, idx1) =>
    let doc_gap :=
      (docid + 2 ^ 32 - head_block.recent_docid idx1.m_data head_block_index) % 2 ^ 32
    let m := head_block.increment_doc_freq idx1.m_data head_block_index
    let m := head_block.set_recent_docid m head_block_index ((docid + 2 ^ 32 - 1) % 2 ^ 32)
    insert_positions_loop { idx1 with m_data := m } head_block_index docid positions 0 doc_gap

/-- Method `insert_positions(docid, term, positions)`. -/
def insert_positions (hash : List Nat → Nat) (idx : immediate_index) (docid : Nat)
    (term : List Nat) (positions : List Nat) : Option immediate_index :=
  (insert_positions_traced hash idx docid term positions).map Prod.fst

end immediate_index

/-- The index after `insert_positions(5, gterm, [3])` on a fresh index of 8 blocks and 4
directory slots; `gterm` leaves one byte of payload in its head block. -/
def pidx : immediate_index :=
  ((immediate_index.mk_sized wslabs 8 4).insert_positions whash 5 gterm [3]).getD
    (immediate_index.mk_default wslabs)

/-! ## Abstract description of the chains of a positional index (used by the proofs) -/

/-- A chain of a positional index: the term, its logical blocks (index of the first physical
block and number of physical blocks), head first, and the docid of the last call for the
term. -/
structure PChain where
  term : List Nat
  blocks : List (Nat × Nat)
  last_docid : Nat

/-- Index of the head block of a chain. -/
def PChain.head (c : PChain) : Nat := (c.blocks.headD (0, 0)).1

/-- The last logical block of a chain. -/
def PChain.tail (c : PChain) : Nat × Nat := c.blocks.getLastD (0, 0)

/-- Memory `m` holds the header of chain `c` under the slab table `S`: the term, a
`recent_docid` one below the docid of the last call, and what the head records about the
tail, whose `first_docid` (when it is not the head) is a docid of the term. -/
structure PChainRep (S : Nat → Nat) (m : Mem) (c : PChain) : Prop where
  ne : c.blocks ≠ []
  term_len : c.term.length ≤ HEAD_BYTES
  term_ch : ∀ x ∈ c.term, x < 256
  wlen : head_block.word_length m c.head = c.term.length
  term : holds m (struct_ptr c.head + HEAD_PL_OFFSET) c.term
  doc1 : 1 ≤ c.last_docid
  doc32 : c.last_docid < 2 ^ 32
  recent : head_block.recent_docid m c.head + 1 = c.last_docid
  growth : head_block.growth_offset m c.head = min (c.blocks.length - 1) MAX_SLAB_IDX
  tail : head_block.tail_block m c.head = c.tail.1
  sizes : ∀ j b, c.blocks[j]? = some b → b.2 = S (min j MAX_SLAB_IDX)
  off_le : head_block.tail_byte_offset m c.head ≤ BLOCK_SIZE * c.tail.2
  off_head : c.blocks.length = 1 →
    HEAD_PL_OFFSET + c.term.length ≤ head_block.tail_byte_offset m c.head
  off_tail : 1 < c.blocks.length → TT_PL_OFFSET ≤ head_block.tail_byte_offset m c.head ∧
    1 ≤ tail_block.first_docid m c.tail.1 ∧ tail_block.first_docid m c.tail.1 ≤ c.last_docid

/-- The invariant of a positional index: `chains s` describes the chain whose head the
directory slot `s` points to. -/
structure PInv (hash : List Nat → Nat) (idx : immediate_index) (chains : Nat → Option PChain) :
    Prop where
  slabs : SlabsOK idx.m_slab_size
  hsize : 0 < idx.m_term_offsets_size
  dsize : idx.m_data_size ≤ 2 ^ 32
  ne_lt : idx.m_next_empty = 0 ∨ idx.m_next_empty < idx.m_data_size
  dir_none : ∀ s, chains s = none → s < idx.m_term_offsets_size →
    idx.m_term_offsets s = END_CHAIN
  dir_out : ∀ s, idx.m_term_offsets_size ≤ s → chains s = none
  dir_some : ∀ s c, chains s = some c → idx.m_term_offsets s = c.head
  rep : ∀ s c, chains s = some c → PChainRep idx.m_slab_size idx.m_data c
  bound : ∀ s c b, chains s = some c → b ∈ c.blocks → b.1 + b.2 ≤ idx.m_next_empty
  disj : ∀ s1 s2 c1 c2 b1 b2, chains s1 = some c1 → chains s2 = some c2 → s1 ≠ s2 →
    b1 ∈ c1.blocks → b2 ∈ c2.blocks → b1.1 + b1.2 ≤ b2.1 ∨ b2.1 + b2.2 ≤ b1.1
  ordered : ∀ s c, chains s = some c → c.blocks.Pairwise (fun b1 b2 => b1.1 + b1.2 ≤ b2.1)
  probe : ∀ s c, chains s = some c → ProbePath hash idx c.term s
  distinct : ∀ s1 s2 c1 c2, chains s1 = some c1 → chains s2 = some c2 → c1.term = c2.term →
    s1 = s2

/-- The chains of the index are those of the terms with a call so far, `L t` being the docid
of the last call for `t` (0 when there is none). -/
def PTracks (chains : Nat → Option PChain) (L : List Nat → Nat) : Prop :=
  ∀ t, (L t = 0 → ∀ s c, chains s = some c → c.term ≠ t) ∧
    (L t ≠ 0 → ∃ s c, chains s = some c ∧ c.term = t ∧ c.last_docid = L t)

/-- A sequence of `insert_positions` calls run in order; `none` when one of them fails. -/
def run_positions (hash : List Nat → Nat) (idx : immediate_index) :
    List insert_call → Option immediate_index
  | [] => some idx
  | c :: rest =>
    match idx.insert_positions hash c.docid c.term c.positions with
    | none => none
    | some idx1 => run_positions hash idx1 rest

/-- Preconditions of `insert_positions` on a call sequence: docids in `[1, 2 ^ 32)` and
strictly increasing per term; word positions at least one, strictly increasing within a call
and below `2 ^ 32`; terms non-empty, at most `HEAD_BYTES` characters, each a byte. -/
def ValidPositions (calls : List insert_call) : Prop :=
  (∀ c ∈ calls, 1 ≤ c.docid ∧ c.docid < 2 ^ 32 ∧
    (0 :: c.positions).Pairwise (fun a b => a < b) ∧ (∀ p ∈ c.positions, p < 2 ^ 32) ∧
    1 ≤ c.term.length ∧ c.term.length ≤ HEAD_BYTES ∧ ∀ x ∈ c.term, x < 256) ∧
  calls.Pairwise (fun a b => a.term = b.term → a.docid < b.docid)

/-- The docid of the last call for `term`, 0 when there is none. -/
def last_docid_of (calls : List insert_call) (term : List Nat) : Nat :=
  lastDoc 0 (postings_of calls term)

/-- The arguments of an encoder call. -/
def encoder_call.args : encoder_call → List Nat
  | encoder_call.magic w d => [w, d]
  | encoder_call.vbyte v => [v]

/-- Calls of a worked example of the positional builder: two documents for the term `gterm`,
with two and one occurrences. -/
def pcalls : List insert_call := [⟨5, gterm, [3, 8]⟩, ⟨9, gterm, [2]⟩]

/-- Memory after the fit path of a round of `insert_positions`. -/
def pfit_mem (m : Mem) (h word_gap doc_gap : Nat) : Mem :=
  head_block.advance_tail_byte_offset
    (write_list m (struct_ptr (head_block.tail_block m h) + head_block.tail_byte_offset m h)
      (magic_bytes word_gap doc_gap))
    h (magic_bytes word_gap doc_gap).length

/-- The between-block gap the grow path of a round of `insert_positions` encodes. -/
def pgrow_gap (m : Mem) (h docid : Nat) : Nat :=
  if head_block.tail_block m h = h then docid
  else (docid + 2 ^ 32 - read_u32 m (struct_ptr (head_block.tail_block m h)) + 1) % 2 ^ 32

/-- Memory after the grow path of a round of `insert_positions`; `nb` is the index of the
new slab. -/
def pgrow_mem (m : Mem) (h docid word_gap nb : Nat) : Mem :=
  let prev := head_block.tail_block m h
  let m1 := head_block.increment_growth_offset m h
  let m2 := tail_block.init m1 nb docid
  let m3 := torso_block.set_next_block m2 prev nb
  let m4 := head_block.set_tail_block m3 h nb
  let m5 := head_block.set_tail_byte_offset m4 h TT_PL_OFFSET
  let m6 := head_block.advance_tail_byte_offset
    (write_list m5 (struct_ptr nb + TT_PL_OFFSET) (vbyte_bytes (pgrow_gap m h docid)))
    h (vbyte_bytes (pgrow_gap m h docid)).length
  head_block.advance_tail_byte_offset
    (write_list m6 (struct_ptr nb + TT_PL_OFFSET) (vbyte_bytes word_gap))
    h (vbyte_bytes word_gap).length

/-! ## Chains as the code sees them (used by the statements about built indexes) -/

/-- The chain headed by block `h` has `n` logical blocks: `tail_block` of the head is reached
from `h` after `n - 1` hops along `next_block`, and not before. -/
def ChainLen (m : Mem) (h n : Nat) : Prop :=
  1 ≤ n ∧ chain_walk m h (n - 1) = head_block.tail_block m h ∧
    ∀ j, j < n - 1 → chain_walk m h j ≠ head_block.tail_block m h

namespace immediate_index

/-- The call `encode_magic(doc_gap, freq, write_block.tail.struct_ptr() + write_offset)` made
by the second part of `insert` (lines 293-341): the index `current_block_index` of the block
written to, the `write_offset` inside it and the number of bytes `encode_magic` returns as
written; `none` when no slab is free. -/
def posting_write (idx : immediate_index) (head_block_index docid freq : Nat) :
    Option (Nat × Nat × Nat) :=
  let doc_gap := (docid + 2 ^ 32 - head_block.recent_docid idx.m_data head_block_index) % 2 ^ 32
  let m := head_block.increment_doc_freq idx.m_data head_block_index
  let m := head_block.set_recent_docid m head_block_index docid
  let current_block_index := head_block.tail_block m head_block_index
  let write_offset := head_block.tail_byte_offset m head_block_index
  let bytes_required := magic_bytes_required doc_gap freq
  let slab_size := BLOCK_SIZE * idx.m_slab_size (head_block.growth_offset m head_block_index)
  if write_offset + bytes_required ≤ slab_size then
    let w := encode_magic doc_gap freq m (struct_ptr current_block_index + write_offset)
    some (current_block_index, write_offset, w.2)
  else
    let prev_block_index := current_block_index
    let m := head_block.increment_growth_offset m head_block_index
    match ({ idx with m_data := m } : immediate_index).next_free_slot
        (idx.m_slab_size (head_block.growth_offset m head_block_index)) with
    | none => none
    | some (slot, idx1) =>
      let current_block_index := slot % 2 ^ 32
      let m := tail_block.init idx1.m_data current_block_index docid
      let doc_gap :=
        if prev_block_index = head_block_index then docid
        else (docid + 2 ^ 32 - tail_block.first_docid m prev_block_index) % 2 ^ 32
      let m := torso_block.set_next_block m prev_block_index current_block_index
      let m := head_block.set_tail_block m head_block_index current_block_index
      let m := head_block.set_tail_byte_offset m head_block_index TT_PL_OFFSET
      let write_offset := head_block.tail_byte_offset m head_block_index
      let w := encode_magic doc_gap freq m (struct_ptr current_block_index + write_offset)
      some (current_block_index, write_offset, w.2)

end immediate_index

/-! ## Sequences of cursor calls (used by the statement about `reset`) -/

/-- One call made on a cursor: `next()` or `next_geq(target_docid)`. -/
inductive cursor_op where
  | next : cursor_op
  | next_geq (target_docid : Nat) : cursor_op
deriving DecidableEq

/-- A sequence of cursor calls run in order; `fuel` bounds the loops of each `next_geq`;
`none` when one of the calls fails. -/
def postings_cursor.run_ops (idx : immediate_index) (fuel : Nat) :
    List cursor_op → postings_cursor → Option postings_cursor
  | [], c => some c
  | cursor_op.next :: rest, c =>
    match postings_cursor.next idx c with
    | none => none
    | some c1 => postings_cursor.run_ops idx fuel rest c1
  | cursor_op.next_geq target_docid :: rest, c =>
    match postings_cursor.next_geq idx fuel c target_docid with
    | none => none
    | some c1 => postings_cursor.run_ops idx fuel rest c1

/-- The calls of a worked example on a cursor over `midx`: the last one exhausts it. -/
def rops : List cursor_op := [cursor_op.next, cursor_op.next_geq 2, cursor_op.next_geq 7]

/-! ## Coverage of the arena (used by the statement about compaction) -/

/-- Every physical block below `next_empty` lies in a logical block of some chain. -/
def Cover (idx : immediate_index) (chains : Nat → Option Chain) : Prop :=
  ∀ a, a < idx.m_next_empty →
    ∃ s c b, chains s = some c ∧ b ∈ c.blocks ∧ b.idx ≤ a ∧ a < b.idx + b.size

/-- The number of physical blocks of the chain of directory slot `s`, given the number
`len s` of its logical blocks: the sum of their slab sizes, and 0 for a NIL slot. -/
def slot_blocks (idx : immediate_index) (len : Nat → Nat) (s : Nat) : Nat :=
  if idx.m_term_offsets s = END_CHAIN then 0 else slab_sum idx.m_slab_size (len s)

/-- Number of logical blocks of the chain of directory slot `s`; 0 for an empty slot. -/
def chain_len (chains : Nat → Option Chain) (s : Nat) : Nat :=
  match chains s with
  | none => 0
  | some c => c.blocks.length

/-! ## Proofs -/

theorem store_same (m : Mem) (p v : Nat) : store m p v p = v % 256 := by
  simp [store]

theorem store_other (m : Mem) (p v a : Nat) (h : a ≠ p) : store m p v a = m a := by
  simp [store, h]

theorem write_list_lt (bs : List Nat) : ∀ (m : Mem) (p a : Nat), a < p →
    write_list m p bs a = m a := by
  induction bs with
  | nil => intro m p a _; rfl
  | cons b bs ih =>
    intro m p a h
    rw [write_list, ih _ _ _ (by omega), store_other _ _ _ _ (by omega)]

theorem write_list_ge (bs : List Nat) : ∀ (m : Mem) (p a : Nat), p + bs.length ≤ a →
    write_list m p bs a = m a := by
  induction bs with
  | nil => intro m p a _; rfl
  | cons b bs ih =>
    intro m p a h
    simp only [List.length_cons] at h
    rw [write_list, ih _ _ _ (by omega), store_other _ _ _ _ (by omega)]

theorem write_list_in (bs : List Nat) : ∀ (m : Mem) (p i : Nat), i < bs.length →
    write_list m p bs (p + i) = bs.getD i 0 % 256 := by
  induction bs with
  | nil => intro m p i h; simp at h
  | cons b bs ih =>
    intro m p i h
    cases i with
    | zero =>
      rw [write_list, write_list_lt _ _ _ _ (by omega), Nat.add_zero, store_same]
      simp
    | succ j =>
      simp only [List.length_cons] at h
      rw [write_list, show p + (j + 1) = (p + 1) + j by omega, ih _ _ _ (by omega)]
      simp

theorem write_list_append (bs cs : List Nat) : ∀ (m : Mem) (p : Nat),
    write_list m p (bs ++ cs) = write_list (write_list m p bs) (p + bs.length) cs := by
  induction bs with
  | nil => intro m p; simp [write_list]
  | cons b bs ih =>
    intro m p
    rw [List.cons_append, write_list, write_list, ih, List.length_cons,
      show p + 1 + bs.length = p + (bs.length + 1) by omega]

theorem and_7f (x : Nat) : x &&& 0x7f = x % 128 :=
  Nat.and_pow_two_sub_one_eq_mod x 7

theorem shr_7 (x : Nat) : x >>> 7 = x / 128 :=
  Nat.shiftRight_eq_div_pow x 7

theorem or_80 (b : Nat) (h : b < 128) : b ||| 0x80 = b + 128 := by
  have := Nat.mul_add_lt_is_or (i := 7) (b := b) (by simpa using h) 1
  simp only [Nat.reducePow, Nat.mul_one] at this
  rw [Nat.or_comm, ← this]
  omega

theorem and_80_pos (b : Nat) (h : 128 ≤ b) (h2 : b < 256) : (b &&& 0x80) > 0 := by
  have hb : b &&& 0x80 = 128 := by
    apply Nat.eq_of_testBit_eq
    intro i
    rw [Nat.testBit_and, show (128 : Nat) = 2 ^ 7 by rfl, Nat.testBit_two_pow]
    by_cases hi : 7 = i
    · subst hi
      have : b = 2 ^ 7 + (b - 128) := by simp; omega
      rw [this, Nat.testBit_two_pow_add_eq, Nat.testBit_lt_two_pow (by simp; omega)]
      simp
    · simp [hi]
  omega

theorem and_80_zero (b : Nat) (h : b < 128) : ¬ (b &&& 0x80) > 0 := by
  have hb : b &&& 0x80 = 0 := by
    apply Nat.eq_of_testBit_eq
    intro i
    rw [Nat.testBit_and, show (128 : Nat) = 2 ^ 7 by rfl, Nat.testBit_two_pow]
    by_cases hi : 7 = i
    · subst hi
      rw [Nat.testBit_lt_two_pow (by simpa using h)]
      simp
    · simp [hi]
  omega

theorem or_shift (value x shift : Nat) (h : value < 2 ^ shift) :
    value ||| (x * 2 ^ shift) = value + x * 2 ^ shift := by
  rw [Nat.or_comm, Nat.mul_comm x, ← Nat.mul_add_lt_is_or h]
  omega

theorem vbyte_bytes_length (v : Nat) : (vbyte_bytes v).length = bytes_required v := by
  unfold vbyte_bytes bytes_required
  split_ifs <;> rfl

theorem bytes_required_bounds (v : Nat) : 1 ≤ bytes_required v ∧ bytes_required v ≤ 5 := by
  unfold bytes_required
  split_ifs <;> omega

theorem vbyte_bytes_lt (v : Nat) (hv : v < 2 ^ 32) : ∀ b ∈ vbyte_bytes v, b < 256 := by
  unfold vbyte_bytes
  intro b hb
  split_ifs at hb <;> simp at hb <;> omega

theorem enc_step (fuel value wb : Nat) (buf : Mem) (p w : Nat) (h : 0 < value)
    (hwb : wb < 128) :
    vbyte_encode_loop (fuel + 1) value wb buf p w
      = vbyte_encode_loop fuel (value / 128) (value % 128) (store buf p (wb + 128)) (p + 1)
          (w + 1) := by
  rw [vbyte_encode_loop, if_pos h, shr_7, and_7f, or_80 wb hwb]

theorem enc_stop (fuel wb : Nat) (buf : Mem) (p w : Nat) :
    vbyte_encode_loop (fuel + 1) 0 wb buf p w = (buf, p, w, wb) := by
  rw [vbyte_encode_loop, if_neg (by omega)]

theorem vbyte_encode_eq (v : Nat) (hv : v < 2 ^ 32) (buffer : Mem) (p : Nat) :
    vbyte_encode v buffer p = (write_list buffer p (vbyte_bytes v), (vbyte_bytes v).length) := by
  unfold vbyte_encode
  simp only [shr_7, and_7f]
  by_cases h1 : v < 2 ^ 7
  · rw [vbyte_bytes, if_pos h1, show v / 128 = 0 by omega, enc_stop,
      show v % 128 = v by omega]
    rfl
  by_cases h2 : v < 2 ^ 14
  · rw [vbyte_bytes, if_neg h1, if_pos h2, enc_step _ _ _ _ _ _ (by omega) (by omega),
      show v / 128 / 128 = 0 by omega, enc_stop, show v / 128 % 128 = v / 128 by omega]
    rfl
  by_cases h3 : v < 2 ^ 21
  · rw [vbyte_bytes, if_neg h1, if_neg h2, if_pos h3,
      enc_step _ _ _ _ _ _ (by omega) (by omega), enc_step _ _ _ _ _ _ (by omega) (by omega),
      show v / 128 / 128 / 128 = 0 by omega, enc_stop,
      show v / 128 / 128 % 128 = v / 16384 by omega]
    rfl
  by_cases h4 : v < 2 ^ 28
  · rw [vbyte_bytes, if_neg h1, if_neg h2, if_neg h3, if_pos h4,
      enc_step _ _ _ _ _ _ (by omega) (by omega), enc_step _ _ _ _ _ _ (by omega) (by omega),
      enc_step _ _ _ _ _ _ (by omega) (by omega),
      show v / 128 / 128 / 128 / 128 = 0 by omega, enc_stop,
      show v / 128 / 128 % 128 = v / 16384 % 128 by omega,
      show v / 128 / 128 / 128 % 128 = v / 2097152 by omega]
    rfl
  · rw [vbyte_bytes, if_neg h1, if_neg h2, if_neg h3, if_neg h4,
      enc_step _ _ _ _ _ _ (by omega) (by omega), enc_step _ _ _ _ _ _ (by omega) (by omega),
      enc_step _ _ _ _ _ _ (by omega) (by omega), enc_step _ _ _ _ _ _ (by omega) (by omega),
      show v / 128 / 128 / 128 / 128 / 128 = 0 by omega, enc_stop,
      show v / 128 / 128 % 128 = v / 16384 % 128 by omega,
      show v / 128 / 128 / 128 % 128 = v / 2097152 % 128 by omega,
      show v / 128 / 128 / 128 / 128 % 128 = v / 268435456 by omega]
    rfl

theorem dec_step (fuel : Nat) (m : Mem) (p stride value shift b : Nat) (hb : m p = b + 128)
    (hb2 : b < 128) (hv : value < 2 ^ shift) (hs : shift ≤ 21) :
    vbyte_decode_loop (fuel + 1) m p stride value shift
      = vbyte_decode_loop fuel m (p + 1) (stride + 1) (value + b * 2 ^ shift) (shift + 7) := by
  have hlt : b * 2 ^ shift < 2 ^ 32 := by
    calc b * 2 ^ shift < 128 * 2 ^ shift := by
          apply Nat.mul_lt_mul_of_pos_right hb2 (Nat.two_pow_pos shift)
      _ ≤ 128 * 2 ^ 21 := Nat.mul_le_mul_left _ (Nat.pow_le_pow_right (by omega) hs)
      _ < 2 ^ 32 := by norm_num
  simp only [vbyte_decode_loop]
  rw [hb, if_pos (and_80_pos _ (by omega) (by omega)), and_7f,
    show (b + 128) % 128 = b by omega, Nat.shiftLeft_eq, Nat.mod_eq_of_lt hlt,
    or_shift _ _ _ hv]

theorem dec_stop (fuel : Nat) (m : Mem) (p stride value shift b : Nat) (hb : m p = b)
    (hb2 : b < 128) (hv : value < 2 ^ shift) (hlt : b * 2 ^ shift < 2 ^ 32) :
    vbyte_decode_loop (fuel + 1) m p stride value shift
      = some (value + b * 2 ^ shift, stride + 1) := by
  simp only [vbyte_decode_loop]
  rw [hb, if_neg (and_80_zero _ hb2), and_7f,
    show b % 128 = b by omega, Nat.shiftLeft_eq, Nat.mod_eq_of_lt hlt,
    or_shift _ _ _ hv]

theorem vbyte_decode_holds (v : Nat) (hv : v < 2 ^ 32) (m : Mem) (p stride : Nat)
    (h : holds m p (vbyte_bytes v)) :
    vbyte_decode m p stride = some (v, stride + bytes_required v) := by
  unfold vbyte_decode
  unfold holds at h
  by_cases h1 : v < 2 ^ 7
  · rw [vbyte_bytes, if_pos h1] at h
    have h0 := h 0 (by simp)
    simp only [Nat.add_zero, List.getD_cons_zero] at h0
    rw [dec_stop _ _ _ _ _ _ v h0 (by omega) (by norm_num) (by omega), bytes_required,
      if_pos h1]
    simp
  by_cases h2 : v < 2 ^ 14
  · rw [vbyte_bytes, if_neg h1, if_pos h2] at h
    have h0 := h 0 (by simp)
    have h1' := h 1 (by simp)
    simp only [Nat.add_zero, List.getD_cons_zero, List.getD_cons_succ] at h0 h1'
    rw [dec_step _ _ _ _ _ _ _ h0 (by omega) (by norm_num) (by omega),
      dec_stop _ _ _ _ _ _ _ h1' (by omega) (by norm_num; omega) (by norm_num; omega),
      bytes_required, if_neg h1, if_pos h2]
    simp
    omega
  by_cases h3 : v < 2 ^ 21
  · rw [vbyte_bytes, if_neg h1, if_neg h2, if_pos h3] at h
    have h0 := h 0 (by simp)
    have h1' := h 1 (by simp)
    have h2' := h 2 (by simp)
    simp only [Nat.add_zero, List.getD_cons_zero, List.getD_cons_succ] at h0 h1' h2'
    rw [dec_step _ _ _ _ _ _ _ h0 (by omega) (by norm_num) (by omega),
      dec_step _ _ _ _ _ _ _ h1' (by omega) (by norm_num; omega) (by omega),
      dec_stop _ _ _ _ _ _ _ h2' (by omega) (by norm_num; omega) (by norm_num; omega),
      bytes_required, if_neg h1, if_neg h2, if_pos h3]
    simp
    omega
  by_cases h4 : v < 2 ^ 28
  · rw [vbyte_bytes, if_neg h1, if_neg h2, if_neg h3, if_pos h4] at h
    have h0 := h 0 (by simp)
    have h1' := h 1 (by simp)
    have h2' := h 2 (by simp)
    have h3' := h 3 (by simp)
    simp only [Nat.add_zero, List.getD_cons_zero, List.getD_cons_succ] at h0 h1' h2' h3'
    rw [dec_step _ _ _ _ _ _ _ h0 (by omega) (by norm_num) (by omega),
      dec_step _ _ _ _ _ _ _ h1' (by omega) (by norm_num; omega) (by omega),
      dec_step _ _ _ _ _ _ _ h2' (by omega) (by norm_num; omega) (by omega),
      dec_stop _ _ _ _ _ _ _ h3' (by omega) (by norm_num; omega) (by norm_num; omega),
      bytes_required, if_neg h1, if_neg h2, if_neg h3, if_pos h4]
    simp
    omega
  · rw [vbyte_bytes, if_neg h1, if_neg h2, if_neg h3, if_neg h4] at h
    have h0 := h 0 (by simp)
    have h1' := h 1 (by simp)
    have h2' := h 2 (by simp)
    have h3' := h 3 (by simp)
    have h4' := h 4 (by simp)
    simp only [Nat.add_zero, List.getD_cons_zero, List.getD_cons_succ] at h0 h1' h2' h3' h4'
    rw [dec_step _ _ _ _ _ _ _ h0 (by omega) (by norm_num) (by omega),
      dec_step _ _ _ _ _ _ _ h1' (by omega) (by norm_num; omega) (by omega),
      dec_step _ _ _ _ _ _ _ h2' (by omega) (by norm_num; omega) (by omega),
      dec_step _ _ _ _ _ _ _ h3' (by omega) (by norm_num; omega) (by omega),
      dec_stop _ _ _ _ _ _ _ h4' (by omega) (by norm_num; omega) (by norm_num; omega),
      bytes_required, if_neg h1, if_neg h2, if_neg h3, if_neg h4]
    simp
    omega

theorem holds_write_list (bs : List Nat) (hlt : ∀ b ∈ bs, b < 256) (m : Mem) (p : Nat) :
    holds (write_list m p bs) p bs := by
  intro i hi
  rw [write_list_in _ _ _ _ hi]
  apply Nat.mod_eq_of_lt
  apply hlt
  rw [List.getD_eq_getElem _ _ hi]
  exact List.getElem_mem _

theorem holds_append_left (m : Mem) (p : Nat) (bs cs : List Nat) (h : holds m p (bs ++ cs)) :
    holds m p bs := by
  intro i hi
  rw [h i (by simp; omega), List.getD_append _ _ _ _ hi]

theorem holds_append_right (m : Mem) (p : Nat) (bs cs : List Nat) (h : holds m p (bs ++ cs)) :
    holds m (p + bs.length) cs := by
  intro i hi
  rw [Nat.add_assoc, h (bs.length + i) (by simp; omega),
    List.getD_append_right _ _ _ _ (by omega)]
  simp

theorem holds_append (m : Mem) (p : Nat) (bs cs : List Nat) (h1 : holds m p bs)
    (h2 : holds m (p + bs.length) cs) : holds m p (bs ++ cs) := by
  intro i hi
  by_cases hlt : i < bs.length
  · rw [h1 i hlt, List.getD_append _ _ _ _ hlt]
  · have := h2 (i - bs.length) (by simp at hi; omega)
    rw [List.getD_append_right _ _ _ _ (by omega), ← this]
    congr 1
    omega

theorem holds_congr (m m2 : Mem) (p : Nat) (bs : List Nat) (h : holds m p bs)
    (he : ∀ a, p ≤ a → a < p + bs.length → m2 a = m a) : holds m2 p bs := by
  intro i hi
  rw [he _ (by omega) (by omega), h i hi]

theorem magic_bytes_length (d f : Nat) :
    (magic_bytes d f).length = magic_bytes_required d f := by
  unfold magic_bytes magic_bytes_required
  split_ifs
  · exact vbyte_bytes_length _
  · rw [List.length_append, vbyte_bytes_length, vbyte_bytes_length]

theorem magic_bytes_required_bounds (d f : Nat) :
    1 ≤ magic_bytes_required d f ∧ magic_bytes_required d f ≤ 10 := by
  unfold magic_bytes_required
  split_ifs
  · have := bytes_required_bounds ((((d + 2 ^ 32 - 1) % 2 ^ 32) * MAGIC_F + f) % 2 ^ 32)
    omega
  · have := bytes_required_bounds ((d * MAGIC_F) % 2 ^ 32)
    have := bytes_required_bounds ((f - MAGIC_F + 1) % 2 ^ 32)
    omega

theorem magic_bytes_lt (d f : Nat) : ∀ b ∈ magic_bytes d f, b < 256 := by
  unfold magic_bytes
  intro b hb
  split_ifs at hb
  · exact vbyte_bytes_lt _ (Nat.mod_lt _ (by norm_num)) b hb
  · rcases List.mem_append.1 hb with h | h
    · exact vbyte_bytes_lt _ (Nat.mod_lt _ (by norm_num)) b h
    · exact vbyte_bytes_lt _ (Nat.mod_lt _ (by norm_num)) b h

theorem encode_magic_eq (d f : Nat) (buffer : Mem) (p : Nat) :
    encode_magic d f buffer p
      = (write_list buffer p (magic_bytes d f), (magic_bytes d f).length) := by
  unfold encode_magic magic_bytes
  split_ifs
  · exact vbyte_encode_eq _ (Nat.mod_lt _ (by norm_num)) _ _
  · simp only
    rw [vbyte_encode_eq _ (Nat.mod_lt _ (by norm_num)), vbyte_encode_eq _ (Nat.mod_lt _ (by norm_num)),
      write_list_append, List.length_append]

theorem holds_magic_written (d f : Nat) (buffer : Mem) (p : Nat) :
    holds (encode_magic d f buffer p).1 p (magic_bytes d f) := by
  rw [encode_magic_eq]
  exact holds_write_list _ (magic_bytes_lt d f) _ _

/-- Decoding a well-formed double-VByte code found in memory. -/
theorem decode_magic_holds (d f : Nat) (hd1 : 1 ≤ d) (hd2 : d ≤ 2 ^ 30)
    (hdf : d < 2 ^ 30 ∨ f < 4) (hf1 : 1 ≤ f) (hf2 : f < 2 ^ 32) (m : Mem) (p stride : Nat)
    (h : holds m p (magic_bytes d f)) :
    decode_magic m p stride = some ((d, f), stride + magic_bytes_required d f) := by
  unfold magic_bytes at h
  unfold decode_magic magic_bytes_required
  simp only [MAGIC_F] at h ⊢
  by_cases hf : f < 4
  · rw [if_pos hf] at h
    rw [if_pos hf, vbyte_decode_holds _ (Nat.mod_lt _ (by norm_num)) m p 0 h]
    simp only
    have e : ((d + 2 ^ 32 - 1) % 2 ^ 32 * 4 + f) % 2 ^ 32 = (d - 1) * 4 + f := by omega
    rw [e, if_pos (by omega)]
    simp only [Option.some.injEq, Prod.mk.injEq]
    omega
  · rw [if_neg hf] at h
    have hd3 : d < 2 ^ 30 := by omega
    rw [if_neg hf, vbyte_decode_holds _ (Nat.mod_lt _ (by norm_num)) m p 0
      (holds_append_left _ _ _ _ h)]
    simp only
    have e : d * 4 % 2 ^ 32 = d * 4 := by omega
    have h2 := holds_append_right _ _ _ _ h
    rw [vbyte_bytes_length, e] at h2
    rw [e, if_neg (by omega), Nat.zero_add,
      vbyte_decode_holds _ (Nat.mod_lt _ (by norm_num)) m _ 0 h2]
    simp only [Option.some.injEq, Prod.mk.injEq]
    omega

/-- The first byte of a double-VByte code is never zero on the builder's domain. -/
theorem magic_bytes_head_ne_zero (d f : Nat) (hd1 : 1 ≤ d) (hd2 : d < 2 ^ 30) (hf1 : 1 ≤ f) :
    (magic_bytes d f).getD 0 0 ≠ 0 := by
  unfold magic_bytes vbyte_bytes
  simp only [MAGIC_F]
  split_ifs <;> simp <;> omega

theorem write_list_out (bs : List Nat) (m : Mem) (p x : Nat) (h : x < p ∨ p + bs.length ≤ x) :
    write_list m p bs x = m x := by
  rcases h with h | h
  · exact write_list_lt _ _ _ _ h
  · exact write_list_ge _ _ _ _ h

theorem write_u32_out (m : Mem) (a v x : Nat) (h : x < a ∨ a + 4 ≤ x) :
    write_u32 m a v x = m x :=
  write_list_out _ _ _ _ (by simpa using h)

theorem write_u16_out (m : Mem) (a v x : Nat) (h : x < a ∨ a + 2 ≤ x) :
    write_u16 m a v x = m x :=
  write_list_out _ _ _ _ (by simpa using h)

theorem read_u32_congr (m m2 : Mem) (a : Nat) (h : ∀ x, a ≤ x → x < a + 4 → m2 x = m x) :
    read_u32 m2 a = read_u32 m a := by
  unfold read_u32
  rw [h a (by omega) (by omega), h (a + 1) (by omega) (by omega),
    h (a + 2) (by omega) (by omega), h (a + 3) (by omega) (by omega)]

theorem read_u16_congr (m m2 : Mem) (a : Nat) (h : ∀ x, a ≤ x → x < a + 2 → m2 x = m x) :
    read_u16 m2 a = read_u16 m a := by
  unfold read_u16
  rw [h a (by omega) (by omega), h (a + 1) (by omega) (by omega)]

theorem read_u32_write_u32 (m : Mem) (a v : Nat) :
    read_u32 (write_u32 m a v) a = v % 2 ^ 32 := by
  unfold read_u32 write_u32
  have h0 := write_list_in [v, v / 256, v / 65536, v / 16777216] m a 0 (by simp)
  have h1 := write_list_in [v, v / 256, v / 65536, v / 16777216] m a 1 (by simp)
  have h2 := write_list_in [v, v / 256, v / 65536, v / 16777216] m a 2 (by simp)
  have h3 := write_list_in [v, v / 256, v / 65536, v / 16777216] m a 3 (by simp)
  simp only [Nat.add_zero, List.getD_cons_zero, List.getD_cons_succ] at h0 h1 h2 h3
  rw [h0, h1, h2, h3]
  omega

theorem read_u16_write_u16 (m : Mem) (a v : Nat) :
    read_u16 (write_u16 m a v) a = v % 65536 := by
  unfold read_u16 write_u16
  have h0 := write_list_in [v, v / 256] m a 0 (by simp)
  have h1 := write_list_in [v, v / 256] m a 1 (by simp)
  simp only [Nat.add_zero, List.getD_cons_zero, List.getD_cons_succ] at h0 h1
  rw [h0, h1]
  omega

theorem read_u32_write_u32_of_lt (m : Mem) (a v : Nat) (h : v < 2 ^ 32) :
    read_u32 (write_u32 m a v) a = v := by
  rw [read_u32_write_u32, Nat.mod_eq_of_lt h]

theorem read_u16_write_u16_of_lt (m : Mem) (a v : Nat) (h : v < 65536) :
    read_u16 (write_u16 m a v) a = v := by
  rw [read_u16_write_u16, Nat.mod_eq_of_lt h]

theorem read_u32_write_u32_other (m : Mem) (a v b : Nat) (h : b + 4 ≤ a ∨ a + 4 ≤ b) :
    read_u32 (write_u32 m a v) b = read_u32 m b := by
  apply read_u32_congr
  intro x h1 h2
  exact write_u32_out _ _ _ _ (by omega)

theorem holds_nil (m : Mem) (p : Nat) : holds m p [] := by
  intro i hi
  simp at hi

theorem lastDoc_nil (base : Nat) : lastDoc base [] = base := rfl

theorem lastDoc_cons (base : Nat) (p : Nat × Nat) (ps : List (Nat × Nat)) :
    lastDoc base (p :: ps) = lastDoc p.1 ps := rfl

theorem lastDoc_of_ne_nil (b1 b2 : Nat) (ps : List (Nat × Nat)) (h : ps ≠ []) :
    lastDoc b1 ps = lastDoc b2 ps := by
  cases ps with
  | nil => exact absurd rfl h
  | cons p ps => rfl

theorem lastDoc_append (base : Nat) (ps qs : List (Nat × Nat)) :
    lastDoc base (ps ++ qs) = lastDoc (lastDoc base ps) qs := by
  induction ps generalizing base with
  | nil => rfl
  | cons p ps ih => exact ih p.1

theorem lastTf_append (tf : Nat) (ps qs : List (Nat × Nat)) :
    lastTf tf (ps ++ qs) = lastTf (lastTf tf ps) qs := by
  induction ps generalizing tf with
  | nil => rfl
  | cons p ps ih => exact ih p.2

theorem lastDoc_append_singleton (base : Nat) (ps : List (Nat × Nat)) (p : Nat × Nat) :
    lastDoc base (ps ++ [p]) = p.1 := by
  rw [lastDoc_append]
  rfl

theorem lastTf_append_singleton (tf : Nat) (ps : List (Nat × Nat)) (p : Nat × Nat) :
    lastTf tf (ps ++ [p]) = p.2 := by
  rw [lastTf_append]
  rfl

theorem enc_posts_append (base : Nat) (ps qs : List (Nat × Nat)) :
    enc_posts base (ps ++ qs) = enc_posts base ps ++ enc_posts (lastDoc base ps) qs := by
  induction ps generalizing base with
  | nil => rfl
  | cons p ps ih =>
    show magic_bytes (p.1 - base) p.2 ++ enc_posts p.1 (ps ++ qs) = _
    rw [ih p.1]
    show _ = (magic_bytes (p.1 - base) p.2 ++ enc_posts p.1 ps) ++ _
    rw [List.append_assoc]
    rfl

theorem PostsOK_append (lo : Nat) (ps qs : List (Nat × Nat)) :
    PostsOK lo (ps ++ qs) ↔ PostsOK lo ps ∧ PostsOK (lastDoc lo ps) qs := by
  induction ps generalizing lo with
  | nil => simp [PostsOK, lastDoc]
  | cons p ps ih =>
    show (lo < p.1 ∧ p.1 < 2 ^ 30 ∧ 1 ≤ p.2 ∧ p.2 < 2 ^ 32 ∧ PostsOK p.1 (ps ++ qs)) ↔
      (lo < p.1 ∧ p.1 < 2 ^ 30 ∧ 1 ≤ p.2 ∧ p.2 < 2 ^ 32 ∧ PostsOK p.1 ps) ∧
        PostsOK (lastDoc p.1 ps) qs
    rw [ih p.1]
    tauto

theorem PostsOK_lastDoc_ge (lo : Nat) (ps : List (Nat × Nat)) (h : PostsOK lo ps) :
    lo ≤ lastDoc lo ps := by
  induction ps generalizing lo with
  | nil => exact Nat.le_refl _
  | cons p ps ih =>
    rw [lastDoc_cons]
    have := ih p.1 h.2.2.2.2
    have := h.1
    omega

theorem PostsOK_lastDoc_lt (lo : Nat) (ps : List (Nat × Nat)) (h : PostsOK lo ps)
    (hlo : lo < 2 ^ 30) : lastDoc lo ps < 2 ^ 30 := by
  induction ps generalizing lo with
  | nil => exact hlo
  | cons p ps ih =>
    rw [lastDoc_cons]
    exact ih p.1 h.2.2.2.2 h.2.1

theorem PostsOK_mono (lo lo2 : Nat) (ps : List (Nat × Nat)) (h : PostsOK lo ps)
    (hle : lo2 ≤ lo) : PostsOK lo2 ps := by
  cases ps with
  | nil => trivial
  | cons p ps => exact ⟨by have := h.1; omega, h.2⟩

section
open postings_cursor

theorem lastDoc_mono_base (base lo : Nat) (ps : List (Nat × Nat)) (h : base ≤ lo) :
    lastDoc base ps ≤ lastDoc lo ps := by
  cases ps with
  | nil => exact h
  | cons p ps => exact Nat.le_refl _

theorem enc_posts_singleton (base : Nat) (p : Nat × Nat) :
    enc_posts base [p] = magic_bytes (p.1 - base) p.2 := by
  show magic_bytes (p.1 - base) p.2 ++ [] = _
  rw [List.append_nil]

/-- Reading the posting that follows `done` in a payload segment. -/
theorem access_seg (idx : immediate_index) (bidx start cap base lo : Nat)
    (done : List (Nat × Nat)) (p : Nat × Nat) (todo : List (Nat × Nat))
    (hseg : Seg idx.m_data (struct_ptr bidx) start cap base (done ++ p :: todo))
    (hok : PostsOK lo (done ++ p :: todo)) (hb : base ≤ lo) :
    idx.access bidx (start + (enc_posts base done).length)
        = some ((p.1 - lastDoc base done, p.2), start + (enc_posts base (done ++ [p])).length) ∧
      lastDoc base done < p.1 ∧ p.1 < 2 ^ 30 ∧
      idx.has_data bidx (start + (enc_posts base done).length) = true ∧
      start + (enc_posts base done).length < cap := by
  obtain ⟨hh, hcap, _⟩ := hseg
  rw [enc_posts_append] at hh hcap
  have hp := ((PostsOK_append lo done (p :: todo)).1 hok).2
  have hlt : lastDoc base done < p.1 := by
    have := lastDoc_mono_base base lo done hb
    have := hp.1
    omega
  have hm : holds idx.m_data (struct_ptr bidx + start + (enc_posts base done).length)
      (magic_bytes (p.1 - lastDoc base done) p.2) :=
    holds_append_left _ _ _ _ (holds_append_right _ _ _ _ hh)
  have hlen := magic_bytes_required_bounds (p.1 - lastDoc base done) p.2
  have hl2 := magic_bytes_length (p.1 - lastDoc base done) p.2
  refine ⟨?_, hlt, hp.2.1, ?_, ?_⟩
  · unfold immediate_index.access
    rw [← Nat.add_assoc, decode_magic_holds (p.1 - lastDoc base done) p.2 (by omega)
      (by have := hp.2.1; omega) (Or.inl (by have := hp.2.1; omega)) hp.2.2.1 hp.2.2.2.1 _ _ _ hm,
      enc_posts_append, enc_posts_singleton, List.length_append, hl2]
    simp only [Option.some.injEq, Prod.mk.injEq, and_true, true_and]
    omega
  · unfold immediate_index.has_data
    have h0 := hm 0 (by omega)
    have hne := magic_bytes_head_ne_zero (p.1 - lastDoc base done) p.2 (by omega)
      (by have := hp.2.1; omega) hp.2.2.1
    rw [Nat.add_zero, Nat.add_assoc] at h0
    rw [h0]
    simpa using hne
  · simp only [enc_posts, List.length_append] at hcap
    omega

/-- The end of a payload segment is recognised by `next`. -/
theorem seg_end (idx : immediate_index) (bidx start cap base : Nat) (posts : List (Nat × Nat))
    (hseg : Seg idx.m_data (struct_ptr bidx) start cap base posts) :
    ¬ (start + (enc_posts base posts).length < cap ∧
      idx.has_data bidx (start + (enc_posts base posts).length) = true) := by
  rintro ⟨h1, h2⟩
  have := hseg.2.2 _ (Nat.le_refl _) h1
  unfold immediate_index.has_data at h2
  rw [this] at h2
  simp at h2

theorem next_in_block (idx : immediate_index) (fixed : postings_cursor) (j : Nat) (b : Blk)
    (start base lo : Nat) (done : List (Nat × Nat)) (p : Nat × Nat) (todo : List (Nat × Nat))
    (hposts : b.posts = done ++ p :: todo)
    (hsize : b.size = idx.m_slab_size (min j MAX_SLAB_IDX))
    (hseg : Seg idx.m_data (struct_ptr b.idx) start (BLOCK_SIZE * b.size) base b.posts)
    (hok : PostsOK lo b.posts) (hb : base ≤ lo) :
    next idx (cursor_at fixed j b start base done)
      = some (cursor_at fixed j b start base (done ++ [p])) := by
  rw [hposts] at hseg hok
  obtain ⟨hacc, hlt, hp30, hdata, hcap⟩ := access_seg idx b.idx start _ base lo done p todo hseg hok hb
  unfold next
  have hc : (cursor_at fixed j b start base done).m_current_offset
      < idx.slab_size (cursor_at fixed j b start base done).m_block_count * BLOCK_SIZE ∧
      idx.has_data (cursor_at fixed j b start base done).m_current_block
        (cursor_at fixed j b start base done).m_current_offset = true := by
    constructor
    · show start + (enc_posts base done).length < idx.m_slab_size (min j MAX_SLAB_IDX) * BLOCK_SIZE
      rw [← hsize, Nat.mul_comm]
      exact hcap
    · exact hdata
  rw [if_pos hc]
  show (match idx.access b.idx (start + (enc_posts base done).length) with
    | none => none
    | some (data, offset) => _) = _
  rw [hacc]
  simp only [cursor_at, Option.some.injEq, postings_cursor.mk.injEq, true_and, and_true]
  refine ⟨?_, ?_⟩
  · rw [lastDoc_append_singleton]
    omega
  · rw [lastTf_append_singleton]

theorem next_cross (idx : immediate_index) (fixed : postings_cursor) (j : Nat) (b nb : Blk)
    (start base lo base2 : Nat) (q : Nat × Nat) (qs : List (Nat × Nat))
    (hbase2 : base2 = if j = 0 then 0 else firstDoc b)
    (hsize : b.size = idx.m_slab_size (min j MAX_SLAB_IDX))
    (hseg : Seg idx.m_data (struct_ptr b.idx) start (BLOCK_SIZE * b.size) base b.posts)
    (hlink : read_u32 idx.m_data (struct_ptr b.idx) = nb.idx)
    (hnt : b.idx ≠ fixed.m_tail_block) (hne : nb.idx ≠ END_CHAIN)
    (hq : nb.posts = q :: qs)
    (hseg2 : Seg idx.m_data (struct_ptr nb.idx) TT_PL_OFFSET (BLOCK_SIZE * nb.size) base2
      nb.posts)
    (hok : PostsOK lo nb.posts) (hb : base2 ≤ lo) :
    next idx (cursor_at fixed j b start base b.posts)
      = some (cursor_at fixed (j + 1) nb TT_PL_OFFSET base2 [q]) := by
  rw [hq] at hseg2 hok
  obtain ⟨hacc, hlt, hp30, -, -⟩ := access_seg idx nb.idx TT_PL_OFFSET _ _ lo [] q qs hseg2 hok hb
  have hend := seg_end idx b.idx start _ base b.posts hseg
  unfold next
  have hc : ¬ ((cursor_at fixed j b start base b.posts).m_current_offset
      < idx.slab_size (cursor_at fixed j b start base b.posts).m_block_count * BLOCK_SIZE ∧
      idx.has_data (cursor_at fixed j b start base b.posts).m_current_block
        (cursor_at fixed j b start base b.posts).m_current_offset = true) := by
    intro h
    apply hend
    refine ⟨?_, h.2⟩
    have h1 := h.1
    rw [hsize, Nat.mul_comm]
    exact h1
  rw [if_neg hc]
  have hnb : idx.next_block (cursor_at fixed j b start base b.posts).m_current_block
      (cursor_at fixed j b start base b.posts).m_tail_block = nb.idx := by
    show idx.next_block b.idx fixed.m_tail_block = nb.idx
    unfold immediate_index.next_block head_block.next_block
    rw [if_neg hnt, hlink]
  simp only [hnb, if_neg hne]
  simp only [enc_posts, List.length_nil, Nat.add_zero, lastDoc_nil] at hacc
  rw [hacc]
  have hfd : firstDoc nb = q.1 := by simp [firstDoc, hq]
  have hl : lastDoc base2 [q] = q.1 := rfl
  have hl2 : lastTf fixed.m_current_tf [q] = q.2 := rfl
  have hga : (cursor_at fixed j b start base b.posts).m_gap_accumulator = base2 := by
    rw [hbase2]
    rfl
  have hbc : (cursor_at fixed j b start base b.posts).m_block_count = min j MAX_SLAB_IDX := rfl
  simp only [lastDoc_nil] at hlt
  have hg : (base2 + (q.1 - base2)) % 2 ^ 32 = q.1 := by omega
  simp only [hga, hbc, hg]
  simp only [cursor_at, Option.some.injEq, postings_cursor.mk.injEq, true_and, and_true, hl, hl2,
    hfd, if_neg (Nat.succ_ne_zero j)]
  refine ⟨rfl, ?_⟩
  simp only [MAX_SLAB_IDX]
  omega

theorem next_end (idx : immediate_index) (fixed : postings_cursor) (j : Nat) (b : Blk)
    (start base : Nat)
    (hsize : b.size = idx.m_slab_size (min j MAX_SLAB_IDX))
    (hseg : Seg idx.m_data (struct_ptr b.idx) start (BLOCK_SIZE * b.size) base b.posts)
    (ht : b.idx = fixed.m_tail_block) :
    next idx (cursor_at fixed j b start base b.posts) = some (cursor_end fixed j b start base) := by
  have hend := seg_end idx b.idx start _ base b.posts hseg
  unfold next
  have hc : ¬ ((cursor_at fixed j b start base b.posts).m_current_offset
      < idx.slab_size (cursor_at fixed j b start base b.posts).m_block_count * BLOCK_SIZE ∧
      idx.has_data (cursor_at fixed j b start base b.posts).m_current_block
        (cursor_at fixed j b start base b.posts).m_current_offset = true) := by
    intro h
    apply hend
    refine ⟨?_, h.2⟩
    have h1 := h.1
    rw [hsize, Nat.mul_comm]
    exact h1
  rw [if_neg hc]
  have hnb : idx.next_block (cursor_at fixed j b start base b.posts).m_current_block
      (cursor_at fixed j b start base b.posts).m_tail_block = END_CHAIN := by
    show idx.next_block b.idx fixed.m_tail_block = END_CHAIN
    unfold immediate_index.next_block
    rw [if_pos ht]
  simp only [hnb, if_true]
  simp only [cursor_end, cursor_at, Option.some.injEq, postings_cursor.mk.injEq, true_and,
    and_true, MAX_SLAB_IDX]
  omega

theorem Follows_append (idx : immediate_index) (l1 l2 : List postings_cursor) :
    ∀ c, Follows idx c (l1 ++ l2) ↔ Follows idx c l1 ∧ Follows idx ((c :: l1).getLast (by simp)) l2 := by
  induction l1 with
  | nil => intro c; simp [Follows]
  | cons c1 l1 ih =>
    intro c
    have e : (c :: c1 :: l1).getLast (by simp) = (c1 :: l1).getLast (by simp) :=
      List.getLast_cons (by simp)
    show (next idx c = some c1 ∧ Follows idx c1 (l1 ++ l2)) ↔
      (next idx c = some c1 ∧ Follows idx c1 l1) ∧ Follows idx ((c :: c1 :: l1).getLast _) l2
    rw [ih c1, e, and_assoc]

theorem states_from_last (fixed : postings_cursor) (j : Nat) (b : Blk) (start base : Nat)
    (todo : List (Nat × Nat)) : ∀ done,
    (cursor_at fixed j b start base done :: states_from fixed j b start base done todo).getLast
      (by simp) = cursor_at fixed j b start base (done ++ todo) := by
  induction todo with
  | nil => intro done; simp [states_from]
  | cons p todo ih =>
    intro done
    rw [states_from, List.getLast_cons (by simp), ih (done ++ [p])]
    simp

theorem follows_in_block (idx : immediate_index) (fixed : postings_cursor) (j : Nat) (b : Blk)
    (start base lo : Nat)
    (hsize : b.size = idx.m_slab_size (min j MAX_SLAB_IDX))
    (hseg : Seg idx.m_data (struct_ptr b.idx) start (BLOCK_SIZE * b.size) base b.posts)
    (hok : PostsOK lo b.posts) (hb : base ≤ lo) (todo : List (Nat × Nat)) :
    ∀ done, b.posts = done ++ todo →
      Follows idx (cursor_at fixed j b start base done)
        (states_from fixed j b start base done todo) := by
  induction todo with
  | nil => intro done _; trivial
  | cons p todo ih =>
    intro done hd
    refine ⟨next_in_block idx fixed j b start base lo done p todo hd hsize hseg hok hb, ?_⟩
    exact ih (done ++ [p]) (by rw [hd]; simp)

theorem states_from_obs (fixed : postings_cursor) (j : Nat) (b : Blk) (start base : Nat)
    (todo : List (Nat × Nat)) : ∀ done,
    (states_from fixed j b start base done todo).map (fun c => (c.docid, c.freq)) = todo := by
  induction todo with
  | nil => intro done; rfl
  | cons p todo ih =>
    intro done
    rw [states_from, List.map_cons, ih]
    congr 1
    show (lastDoc base (done ++ [p]), lastTf fixed.m_current_tf (done ++ [p])) = p
    rw [lastDoc_append_singleton, lastTf_append_singleton]

theorem chain_states_obs (fixed : postings_cursor) (bs : List Blk) : ∀ j start base,
    (chain_states fixed j start base bs).map (fun c => (c.docid, c.freq)) = blockPosts bs := by
  induction bs with
  | nil => intro j start base; rfl
  | cons b rest ih =>
    intro j start base
    rw [chain_states, List.map_append, ih, block_states, states_from_obs]
    simp [blockPosts]

/-- Walking the rest of a chain from the last posting of block `b`. -/
theorem follows_rest (idx : immediate_index) (fixed : postings_cursor) (tailOff : Nat)
    (rest : List Blk) : ∀ (j : Nat) (b : Blk) (start base lo : Nat),
    BlocksRep idx.m_slab_size idx.m_data fixed.m_tail_block tailOff j start base lo (b :: rest) →
    (∀ x ∈ rest, x.idx ≠ END_CHAIN) →
    Follows idx (cursor_at fixed j b start base b.posts)
      (chain_states fixed (j + 1) TT_PL_OFFSET (if j = 0 then 0 else firstDoc b) rest
        ++ [chain_end fixed j start base (b :: rest)]) := by
  induction rest with
  | nil =>
    intro j b start base lo h _
    obtain ⟨hsize, _, _, _, hseg, hl, _⟩ := h
    exact ⟨next_end idx fixed j b start base hsize hseg hl.2.2.1.symm, trivial⟩
  | cons nb rest ih =>
    intro j b start base lo h hne
    obtain ⟨hsize, _, hb, hok, hseg, hl, hrest⟩ := h
    have hrest' := hrest
    obtain ⟨hsize2, hne2, hb2, hok2, hseg2, hl2, _⟩ := hrest
    cases hq : nb.posts with
    | nil => exact absurd hq (hne2 (by omega))
    | cons q qs =>
      have h1 := next_cross idx fixed j b nb start base (lastDoc lo b.posts)
        (if j = 0 then 0 else firstDoc b) q qs rfl hsize hseg hl.1 hl.2
        (hne nb (List.mem_cons_self _ _)) hq hseg2 hok2 hb2
      have h2 := follows_in_block idx fixed (j + 1) nb TT_PL_OFFSET
        (if j = 0 then 0 else firstDoc b) (lastDoc lo b.posts) hsize2 hseg2 hok2 hb2 qs [q]
        (by rw [hq]; rfl)
      have h3 := ih (j + 1) nb TT_PL_OFFSET (if j = 0 then 0 else firstDoc b)
        (lastDoc lo b.posts) hrest' (fun x hx => hne x (List.mem_cons_of_mem _ hx))
      show Follows idx _ ((block_states fixed (j + 1) nb TT_PL_OFFSET _
        ++ chain_states fixed (j + 1 + 1) TT_PL_OFFSET _ rest) ++ [chain_end fixed (j + 1) _ _ (nb :: rest)])
      rw [block_states, hq, states_from, List.nil_append, List.append_assoc, List.cons_append]
      refine ⟨h1, ?_⟩
      rw [Follows_append]
      refine ⟨h2, ?_⟩
      rw [states_from_last, List.singleton_append, ← hq]
      simp only [Nat.add_eq_zero, one_ne_zero, and_false, if_false] at h3 ⊢
      exact h3

/-- Walking a whole list of blocks from the state before the first posting of `b`. -/
theorem follows_chain (idx : immediate_index) (fixed : postings_cursor) (tailOff : Nat)
    (rest : List Blk) (j : Nat) (b : Blk) (start base lo : Nat)
    (h : BlocksRep idx.m_slab_size idx.m_data fixed.m_tail_block tailOff j start base lo
      (b :: rest))
    (hne : ∀ x ∈ rest, x.idx ≠ END_CHAIN) :
    Follows idx (cursor_at fixed j b start base [])
      (chain_states fixed j start base (b :: rest)
        ++ [chain_end fixed j start base (b :: rest)]) := by
  have h' := h
  obtain ⟨hsize, _, hb, hok, hseg, _, _⟩ := h
  rw [chain_states, List.append_assoc, Follows_append]
  refine ⟨follows_in_block idx fixed j b start base lo hsize hseg hok hb b.posts [] rfl, ?_⟩
  rw [block_states, states_from_last, List.nil_append]
  exact follows_rest idx fixed tailOff rest j b start base lo h' hne

theorem read_all_follows (idx : immediate_index) (l : List postings_cursor) :
    ∀ c, Follows idx c l →
      read_all idx l.length c = some ((c :: l).map (fun x => (x.docid, x.freq))) := by
  induction l with
  | nil => intro c _; rfl
  | cons c1 l ih =>
    intro c h
    rw [List.length_cons, read_all, h.1]
    show Option.map _ (read_all idx l.length c1) = _
    rw [ih c1 h.2]
    rfl

theorem chain_end_docid (fixed : postings_cursor) (rest : List Blk) :
    ∀ (j : Nat) (b : Blk) (start base : Nat),
      (chain_end fixed j start base (b :: rest)).m_current_docid = END_CHAIN := by
  induction rest with
  | nil => intro j b start base; rfl
  | cons nb rest ih => intro j b start base; exact ih (j + 1) nb _ _

end

section
open immediate_index

theorem get_term_eq (m : Mem) (b : Nat) (term : List Nat)
    (hl : head_block.word_length m b = term.length)
    (hh : holds m (struct_ptr b + HEAD_PL_OFFSET) term) :
    head_block.get_term m b = term := by
  unfold head_block.get_term
  rw [hl]
  apply List.ext_getElem
  · simp
  · intro i h1 h2
    simp only [List.getElem_map, List.getElem_range]
    rw [hh i h2, List.getD_eq_getElem _ _ h2]

theorem probe_step_lt (H i : Nat) (h : 0 < H) : probe_step H i < H := by
  unfold probe_step
  exact Nat.lt_of_le_of_lt (Nat.mod_le _ _) (Nat.mod_lt _ h)

theorem term_to_offset_lt (hash : List Nat → Nat) (idx : immediate_index) (t : List Nat)
    (h : 0 < idx.m_term_offsets_size) : idx.term_to_offset hash t < idx.m_term_offsets_size := by
  unfold term_to_offset
  exact Nat.lt_of_le_of_lt (Nat.mod_le _ _) (Nat.mod_lt _ h)

theorem chain_head_lt (hash : List Nat → Nat) (idx : immediate_index)
    (chains : Nat → Option Chain) (inv : IndexInv hash idx chains) (s : Nat) (c : Chain)
    (hc : chains s = some c) : c.head + 1 ≤ idx.m_next_empty := by
  have hrep := inv.rep s c hc
  unfold ChainRep at hrep
  cases hb : c.blocks with
  | nil => rw [hb] at hrep; exact hrep.elim
  | cons h rest =>
    rw [hb] at hrep
    have hs : h.size = idx.m_slab_size (min 0 MAX_SLAB_IDX) := hrep.2.2.2.2.2.2.2.1
    have := inv.bound s c h hc (by rw [hb]; exact List.mem_cons_self _ _)
    have := (inv.slabs (min 0 MAX_SLAB_IDX)).1
    have e : c.head = h.idx := by simp [Chain.head, hb]
    omega

theorem chain_head_ne_end (hash : List Nat → Nat) (idx : immediate_index)
    (chains : Nat → Option Chain) (inv : IndexInv hash idx chains) (s : Nat) (c : Chain)
    (hc : chains s = some c) : c.head ≠ END_CHAIN := by
  have := chain_head_lt hash idx chains inv s c hc
  have := inv.ne_lt
  have := inv.dsize
  simp only [END_CHAIN]
  omega

theorem chain_get_term (hash : List Nat → Nat) (idx : immediate_index)
    (chains : Nat → Option Chain) (inv : IndexInv hash idx chains) (s : Nat) (c : Chain)
    (hc : chains s = some c) : head_block.get_term idx.m_data (idx.m_term_offsets s) = c.term := by
  have hrep := inv.rep s c hc
  rw [inv.dir_some s c hc]
  unfold ChainRep at hrep
  cases hb : c.blocks with
  | nil => rw [hb] at hrep; exact hrep.elim
  | cons h rest =>
    rw [hb] at hrep
    have e : c.head = h.idx := by simp [Chain.head, hb]
    rw [e]
    exact get_term_eq _ _ _ hrep.2.2.1 hrep.2.2.2.1

theorem slot_chain (hash : List Nat → Nat) (idx : immediate_index)
    (chains : Nat → Option Chain) (inv : IndexInv hash idx chains) (s : Nat)
    (hs : s < idx.m_term_offsets_size) (h : idx.m_term_offsets s ≠ END_CHAIN) :
    ∃ c, chains s = some c := by
  cases hc : chains s with
  | none => exact absurd (inv.dir_none s hc hs) h
  | some c => exact ⟨c, rfl⟩

theorem probe_loop_found (hash : List Nat → Nat) (idx : immediate_index)
    (chains : Nat → Option Chain) (inv : IndexInv hash idx chains) (s : Nat) (c : Chain)
    (hc : chains s = some c) : ∀ (k fuel i : Nat), k < fuel → i < idx.m_term_offsets_size →
    (probe_step idx.m_term_offsets_size)^[k] i = s →
    (∀ j, j < k → idx.m_term_offsets ((probe_step idx.m_term_offsets_size)^[j] i) ≠ END_CHAIN) →
    found_or_empty_offset_loop idx c.term fuel i = some s := by
  intro k
  induction k with
  | zero =>
    intro fuel i hf hi hs _
    simp only [Function.iterate_zero, id_eq] at hs
    subst hs
    obtain ⟨f, rfl⟩ : ∃ f, fuel = f + 1 := ⟨fuel - 1, by omega⟩
    rw [found_or_empty_offset_loop, if_pos (by rw [inv.dir_some i c hc]; exact chain_head_ne_end hash idx chains inv i c hc),
      if_pos (chain_get_term hash idx chains inv i c hc).symm]
  | succ k ih =>
    intro fuel i hf hi hs hp
    obtain ⟨f, rfl⟩ : ∃ f, fuel = f + 1 := ⟨fuel - 1, by omega⟩
    have h0 := hp 0 (by omega)
    simp only [Function.iterate_zero, id_eq] at h0
    obtain ⟨c2, hc2⟩ := slot_chain hash idx chains inv i hi h0
    rw [found_or_empty_offset_loop, if_pos h0, chain_get_term hash idx chains inv i c2 hc2]
    by_cases ht : c.term = c2.term
    · rw [if_pos ht, inv.distinct s i c c2 hc hc2 ht]
    · rw [if_neg ht]
      apply ih f _ (by omega) (probe_step_lt _ _ inv.hsize)
      · rw [← hs, Function.iterate_succ_apply]
      · intro j hj
        have := hp (j + 1) (by omega)
        rw [Function.iterate_succ_apply] at this
        exact this

theorem found_of_chain (hash : List Nat → Nat) (idx : immediate_index)
    (chains : Nat → Option Chain) (inv : IndexInv hash idx chains) (s : Nat) (c : Chain)
    (hc : chains s = some c) : idx.found_or_empty_offset hash c.term = some s := by
  obtain ⟨k, hk, hs, hp⟩ := inv.probe s c hc
  unfold found_or_empty_offset
  exact probe_loop_found hash idx chains inv s c hc k _ _ hk
    (term_to_offset_lt hash idx c.term inv.hsize) hs hp

theorem probe_loop_absent (hash : List Nat → Nat) (idx : immediate_index)
    (chains : Nat → Option Chain) (inv : IndexInv hash idx chains) (t : List Nat)
    (habs : ∀ s c, chains s = some c → c.term ≠ t) :
    ∀ (fuel i e : Nat), i < idx.m_term_offsets_size →
    found_or_empty_offset_loop idx t fuel i = some e →
    ∃ k, k < fuel ∧ (probe_step idx.m_term_offsets_size)^[k] i = e ∧
      (∀ j, j < k →
        idx.m_term_offsets ((probe_step idx.m_term_offsets_size)^[j] i) ≠ END_CHAIN) ∧
      idx.m_term_offsets e = END_CHAIN ∧ e < idx.m_term_offsets_size := by
  intro fuel
  induction fuel with
  | zero => intro i e _ h; simp [found_or_empty_offset_loop] at h
  | succ f ih =>
    intro i e hi h
    rw [found_or_empty_offset_loop] at h
    by_cases h0 : idx.m_term_offsets i ≠ END_CHAIN
    · rw [if_pos h0] at h
      obtain ⟨c2, hc2⟩ := slot_chain hash idx chains inv i hi h0
      rw [chain_get_term hash idx chains inv i c2 hc2,
        if_neg (fun hh => habs i c2 hc2 hh.symm)] at h
      obtain ⟨k, hk, hs, hp, he⟩ := ih _ e (probe_step_lt _ _ inv.hsize) h
      refine ⟨k + 1, by omega, ?_, ?_, he⟩
      · rw [Function.iterate_succ_apply]
        exact hs
      · intro j hj
        cases j with
        | zero => simpa using h0
        | succ j =>
          rw [Function.iterate_succ_apply]
          exact hp j (by omega)
    · rw [if_neg h0] at h
      cases h
      exact ⟨0, by omega, rfl, fun j hj => absurd hj (by omega), by simpa using h0, hi⟩

theorem found_absent (hash : List Nat → Nat) (idx : immediate_index)
    (chains : Nat → Option Chain) (inv : IndexInv hash idx chains) (t : List Nat)
    (habs : ∀ s c, chains s = some c → c.term ≠ t) (e : Nat)
    (h : idx.found_or_empty_offset hash t = some e) :
    idx.m_term_offsets e = END_CHAIN ∧ e < idx.m_term_offsets_size ∧ chains e = none ∧
      ProbePath hash idx t e := by
  unfold found_or_empty_offset at h
  obtain ⟨k, hk, hs, hp, he, hlt⟩ := probe_loop_absent hash idx chains inv t habs _ _ e
    (term_to_offset_lt hash idx t inv.hsize) h
  refine ⟨he, hlt, ?_, ⟨k, hk, hs, hp⟩⟩
  cases hc : chains e with
  | none => rfl
  | some c =>
    have := chain_head_ne_end hash idx chains inv e c hc
    rw [← inv.dir_some e c hc] at this
    exact absurd he this

end

section
open immediate_index postings_cursor

theorem create_eq_next (hash : List Nat → Nat) (idx : immediate_index)
    (chains : Nat → Option Chain) (inv : IndexInv hash idx chains) (s : Nat) (c : Chain)
    (hc : chains s = some c) :
    create hash idx c.term = next idx (start_cursor idx c) := by
  unfold create
  rw [found_of_chain hash idx chains inv s c hc]
  simp only [get_offset, inv.dir_some s c hc, if_neg (chain_head_ne_end hash idx chains inv s c hc)]
  rfl

theorem block_idx_ne_end (hash : List Nat → Nat) (idx : immediate_index)
    (chains : Nat → Option Chain) (inv : IndexInv hash idx chains) (s : Nat) (c : Chain)
    (hc : chains s = some c) (b : Blk) (hb : b ∈ c.blocks) (hs : 1 ≤ b.size) :
    b.idx ≠ END_CHAIN := by
  have := inv.bound s c b hc hb
  have := inv.ne_lt
  have := inv.dsize
  simp only [END_CHAIN]
  omega

theorem BlocksRep_size_pos (S : Nat → Nat) (hS : SlabsOK S) (m : Mem) (tI tO : Nat)
    (bs : List Blk) : ∀ j start base lo, BlocksRep S m tI tO j start base lo bs →
    ∀ b ∈ bs, 1 ≤ b.size := by
  induction bs with
  | nil => intro _ _ _ _ _ b hb; simp at hb
  | cons x rest ih =>
    intro j start base lo h b hb
    rcases List.mem_cons.1 hb with rfl | hb
    · rw [h.1]
      exact (hS _).1
    · exact ih _ _ _ _ h.2.2.2.2.2.2 b hb

/-- The walk of a cursor over a chain of the index. -/
theorem follows_canon (hash : List Nat → Nat) (idx : immediate_index)
    (chains : Nat → Option Chain) (inv : IndexInv hash idx chains) (s : Nat) (c : Chain)
    (hc : chains s = some c) :
    Follows idx (start_cursor idx c) (canon_states idx c ++ [canon_end idx c]) ∧
    (canon_states idx c).map (fun x => (x.docid, x.freq)) = c.posts ∧
    (canon_end idx c).m_current_docid = END_CHAIN := by
  have hrep := inv.rep s c hc
  unfold ChainRep at hrep
  cases hb : c.blocks with
  | nil => rw [hb] at hrep; exact hrep.elim
  | cons h rest =>
    rw [hb] at hrep
    obtain ⟨_, _, hwl, _, _, _, _, hbr⟩ := hrep
    have e : c.head = h.idx := by simp [Chain.head, hb]
    have hsz := BlocksRep_size_pos _ inv.slabs _ _ _ _ _ _ _ _ hbr
    have hne : ∀ x ∈ rest, x.idx ≠ END_CHAIN := fun x hx =>
      block_idx_ne_end hash idx chains inv s c hc x (by rw [hb]; exact List.mem_cons_of_mem _ hx)
        (hsz x (List.mem_cons_of_mem _ hx))
    have hst : start_cursor idx c
        = cursor_at (start_cursor idx c) 0 h (HEAD_PL_OFFSET + c.term.length) 0 [] := by
      simp only [start_cursor, cursor_at, e, head_data_offset, head_block.data_offset, hwl,
        enc_posts, List.length_nil, Nat.add_zero, lastDoc, lastTf, if_true, MAX_SLAB_IDX]
      rfl
    have hbr2 : BlocksRep idx.m_slab_size idx.m_data (start_cursor idx c).m_tail_block
        (head_block.tail_byte_offset idx.m_data h.idx) 0 (HEAD_PL_OFFSET + c.term.length) 0 0
        (h :: rest) := by
      show BlocksRep idx.m_slab_size idx.m_data (idx.tail_block c.head) _ 0 _ 0 0 (h :: rest)
      rw [e]
      exact hbr
    have hf := follows_chain idx (start_cursor idx c)
      (head_block.tail_byte_offset idx.m_data h.idx) rest 0 h
      (HEAD_PL_OFFSET + c.term.length) 0 0 hbr2 hne
    refine ⟨?_, ?_, ?_⟩
    · unfold canon_states canon_end
      rw [hb]
      rw [← hst] at hf
      exact hf
    · unfold canon_states Chain.posts
      rw [hb]
      exact chain_states_obs _ _ _ _ _
    · unfold canon_end
      rw [hb]
      exact chain_end_docid _ _ _ _ _ _

theorem next_fixed (idx : immediate_index) (c c1 : postings_cursor)
    (h : next idx c = some c1) :
    c1.m_head_block = c.m_head_block ∧ c1.m_tail_block = c.m_tail_block ∧
      c1.m_doc_freq = c.m_doc_freq ∧ c1.m_term = c.m_term := by
  unfold next at h
  by_cases hc : c.m_current_offset < idx.slab_size c.m_block_count * BLOCK_SIZE
      ∧ idx.has_data c.m_current_block c.m_current_offset = true
  · rw [if_pos hc] at h
    cases ha : idx.access c.m_current_block c.m_current_offset with
    | none => rw [ha] at h; cases h
    | some r =>
      rw [ha] at h
      cases h
      exact ⟨rfl, rfl, rfl, rfl⟩
  · rw [if_neg hc] at h
    simp only at h
    by_cases hn : idx.next_block c.m_current_block c.m_tail_block = END_CHAIN
    · rw [if_pos hn] at h
      cases h
      exact ⟨rfl, rfl, rfl, rfl⟩
    · rw [if_neg hn] at h
      cases ha : idx.access (idx.next_block c.m_current_block c.m_tail_block) TT_PL_OFFSET with
      | none => rw [ha] at h; cases h
      | some r =>
        rw [ha] at h
        cases h
        exact ⟨rfl, rfl, rfl, rfl⟩

theorem chain_doc_freq (hash : List Nat → Nat) (idx : immediate_index)
    (chains : Nat → Option Chain) (inv : IndexInv hash idx chains) (s : Nat) (c : Chain)
    (hc : chains s = some c) : idx.doc_freq c.head = c.posts.length := by
  have hrep := inv.rep s c hc
  unfold ChainRep at hrep
  cases hb : c.blocks with
  | nil => rw [hb] at hrep; exact hrep.elim
  | cons h rest =>
    rw [hb] at hrep
    have e : c.head = h.idx := by simp [Chain.head, hb]
    rw [e]
    exact hrep.2.2.2.2.1

/-- A cursor created for an indexed term shows its postings in order, then `END_CHAIN`. -/
theorem cursor_reads_chain (hash : List Nat → Nat) (idx : immediate_index)
    (chains : Nat → Option Chain) (inv : IndexInv hash idx chains) (s : Nat) (c : Chain)
    (hc : chains s = some c) (hne : c.posts ≠ []) :
    ∃ c1, create hash idx c.term = some c1 ∧ c1.valid = true ∧
      c1.doc_freq = c.posts.length ∧
      read_all idx c.posts.length c1
        = some (c.posts ++ [(END_CHAIN, (canon_end idx c).freq)]) := by
  obtain ⟨hf, hobs, hend⟩ := follows_canon hash idx chains inv s c hc
  cases hst : canon_states idx c with
  | nil => rw [hst] at hobs; exact absurd hobs.symm hne
  | cons c1 st =>
    rw [hst] at hf hobs
    have hn := hf.1
    have hlen : c.posts.length = (st ++ [canon_end idx c]).length := by
      rw [← hobs]
      simp
    obtain ⟨h1, _, h3, _⟩ := next_fixed idx _ c1 hn
    refine ⟨c1, ?_, ?_, ?_, ?_⟩
    · rw [create_eq_next hash idx chains inv s c hc]
      exact hn
    · unfold valid
      rw [h1]
      simpa [start_cursor] using chain_head_ne_end hash idx chains inv s c hc
    · unfold postings_cursor.doc_freq
      rw [h3]
      exact chain_doc_freq hash idx chains inv s c hc
    · have hf2 : Follows idx c1 (st ++ [canon_end idx c]) := hf.2
      rw [hlen, read_all_follows idx _ c1 hf2, ← hobs]
      simp [postings_cursor.docid, hend]

end

section
open immediate_index

theorem next_block_congr (m m2 : Mem) (h : Nat)
    (hx : ∀ x, struct_ptr h ≤ x → x < struct_ptr h + 4 → m2 x = m x) :
    head_block.next_block m2 h = head_block.next_block m h := read_u32_congr _ _ _ hx

theorem tail_block_congr (m m2 : Mem) (h : Nat)
    (hx : ∀ x, struct_ptr h + 4 ≤ x → x < struct_ptr h + 8 → m2 x = m x) :
    head_block.tail_block m2 h = head_block.tail_block m h :=
  read_u32_congr _ _ _ (fun x h1 h2 => hx x h1 (by omega))

theorem doc_freq_congr (m m2 : Mem) (h : Nat)
    (hx : ∀ x, struct_ptr h + 8 ≤ x → x < struct_ptr h + 12 → m2 x = m x) :
    head_block.doc_freq m2 h = head_block.doc_freq m h :=
  read_u32_congr _ _ _ (fun x h1 h2 => hx x h1 (by omega))

theorem recent_docid_congr (m m2 : Mem) (h : Nat)
    (hx : ∀ x, struct_ptr h + 12 ≤ x → x < struct_ptr h + 16 → m2 x = m x) :
    head_block.recent_docid m2 h = head_block.recent_docid m h :=
  read_u32_congr _ _ _ (fun x h1 h2 => hx x h1 (by omega))

theorem tail_byte_offset_congr (m m2 : Mem) (h : Nat)
    (hx : ∀ x, struct_ptr h + 16 ≤ x → x < struct_ptr h + 18 → m2 x = m x) :
    head_block.tail_byte_offset m2 h = head_block.tail_byte_offset m h :=
  read_u16_congr _ _ _ (fun x h1 h2 => hx x h1 (by omega))

theorem growth_offset_congr (m m2 : Mem) (h : Nat)
    (hx : m2 (struct_ptr h + 18) = m (struct_ptr h + 18)) :
    head_block.growth_offset m2 h = head_block.growth_offset m h := hx

theorem word_length_congr (m m2 : Mem) (h : Nat)
    (hx : m2 (struct_ptr h + 19) = m (struct_ptr h + 19)) :
    head_block.word_length m2 h = head_block.word_length m h := hx


theorem head_upd_out (m : Mem) (h docid x : Nat)
    (hx : x < struct_ptr h + 8 ∨ struct_ptr h + 16 ≤ x) : head_upd m h docid x = m x := by
  unfold head_upd
  rw [write_u32_out _ _ _ _ (by omega), write_u32_out _ _ _ _ (by omega)]

theorem head_upd_fields (m : Mem) (h docid : Nat) :
    head_block.tail_block (head_upd m h docid) h = head_block.tail_block m h ∧
    head_block.tail_byte_offset (head_upd m h docid) h = head_block.tail_byte_offset m h ∧
    head_block.growth_offset (head_upd m h docid) h = head_block.growth_offset m h ∧
    head_block.doc_freq (head_upd m h docid) h = (head_block.doc_freq m h + 1) % 2 ^ 32 ∧
    head_block.recent_docid (head_upd m h docid) h = docid % 2 ^ 32 := by
  refine ⟨?_, ?_, ?_, ?_, ?_⟩
  · unfold head_block.tail_block
    apply read_u32_congr
    intro x h1 h2
    exact head_upd_out _ _ _ _ (by omega)
  · unfold head_block.tail_byte_offset
    apply read_u16_congr
    intro x h1 h2
    exact head_upd_out _ _ _ _ (by omega)
  · unfold head_block.growth_offset
    exact head_upd_out _ _ _ _ (by omega)
  · unfold head_block.doc_freq head_upd
    rw [read_u32_write_u32_other _ _ _ _ (by omega), read_u32_write_u32]
    rfl
  · unfold head_block.recent_docid head_upd
    rw [read_u32_write_u32]

theorem insert_posting_fit (idx : immediate_index) (h docid freq : Nat)
    (hfit : head_block.tail_byte_offset idx.m_data h
        + magic_bytes_required
          ((docid + 2 ^ 32 - head_block.recent_docid idx.m_data h) % 2 ^ 32) freq
      ≤ BLOCK_SIZE * idx.m_slab_size (head_block.growth_offset idx.m_data h)) :
    idx.insert_posting h docid freq
      = some { idx with m_data := (fit_mem idx.m_data h docid
          ((docid + 2 ^ 32 - head_block.recent_docid idx.m_data h) % 2 ^ 32) freq) } := by
  obtain ⟨e1, e2, e3, _, _⟩ := head_upd_fields idx.m_data h docid
  unfold head_upd at e1 e2 e3
  unfold insert_posting
  simp only [head_block.increment_doc_freq, head_block.set_recent_docid, e1, e2, e3]
  rw [if_pos hfit]
  simp only [encode_magic_eq]
  rfl

theorem incr_growth_out (m : Mem) (h x : Nat) (hx : x ≠ struct_ptr h + 18) :
    head_block.increment_growth_offset m h x = m x := by
  unfold head_block.increment_growth_offset
  split_ifs
  · exact store_other _ _ _ _ hx
  · rfl

theorem incr_growth_val (m : Mem) (h : Nat) (hg : head_block.growth_offset m h ≤ 255) :
    head_block.growth_offset (head_block.increment_growth_offset m h) h
      = min (head_block.growth_offset m h + 1) 255 := by
  unfold head_block.increment_growth_offset
  simp only [MAX_SLAB_IDX]
  split_ifs with hlt
  · unfold head_block.growth_offset at hlt ⊢
    rw [store_same]
    omega
  · omega

theorem insert_posting_grow (idx : immediate_index) (h docid freq : Nat)
    (hfit : ¬ head_block.tail_byte_offset idx.m_data h
        + magic_bytes_required
          ((docid + 2 ^ 32 - head_block.recent_docid idx.m_data h) % 2 ^ 32) freq
      ≤ BLOCK_SIZE * idx.m_slab_size (head_block.growth_offset idx.m_data h))
    (k : Nat)
    (hk : k = idx.m_slab_size
      (head_block.growth_offset
        (head_block.increment_growth_offset (head_upd idx.m_data h docid) h) h) % 2 ^ 32)
    (hroom : idx.m_next_empty + k < idx.m_data_size) :
    idx.insert_posting h docid freq
      = some { idx with
          m_next_empty := idx.m_next_empty + k
          m_data := (grow_mem idx.m_data h docid freq (idx.m_next_empty % 2 ^ 32)) } := by
  obtain ⟨e1, e2, e3, _, _⟩ := head_upd_fields idx.m_data h docid
  unfold head_upd at e1 e2 e3 hk
  unfold insert_posting
  simp only [head_block.increment_doc_freq, head_block.set_recent_docid, e1, e2, e3]
  rw [if_neg hfit]
  simp only [next_free_slot, ← hk, if_neg (Nat.not_le.2 hroom), encode_magic_eq]
  have e4 : head_block.tail_block
      (head_block.increment_growth_offset (head_upd idx.m_data h docid) h) h
      = head_block.tail_block idx.m_data h := by
    unfold head_block.tail_block
    apply read_u32_congr
    intro x h1 h2
    rw [incr_growth_out _ _ _ (by omega)]
    exact head_upd_out _ _ _ _ (by omega)
  rfl

theorem fit_mem_out (m : Mem) (h docid gap freq x : Nat)
    (h1 : x < struct_ptr h + 8 ∨ struct_ptr h + 18 ≤ x)
    (h2 : x < struct_ptr (head_block.tail_block m h) + head_block.tail_byte_offset m h ∨
      struct_ptr (head_block.tail_block m h) + head_block.tail_byte_offset m h
        + (magic_bytes gap freq).length ≤ x) :
    fit_mem m h docid gap freq x = m x := by
  unfold fit_mem head_block.advance_tail_byte_offset
  rw [write_u16_out _ _ _ _ (by omega), write_list_out _ _ _ _ h2,
    head_upd_out _ _ _ _ (by omega)]

theorem fit_mem_holds (m : Mem) (h docid gap freq : Nat)
    (hdis : struct_ptr (head_block.tail_block m h) + head_block.tail_byte_offset m h
        + (magic_bytes gap freq).length ≤ struct_ptr h + 16 ∨
      struct_ptr h + 18 ≤ struct_ptr (head_block.tail_block m h)
        + head_block.tail_byte_offset m h) :
    holds (fit_mem m h docid gap freq)
      (struct_ptr (head_block.tail_block m h) + head_block.tail_byte_offset m h)
      (magic_bytes gap freq) := by
  apply holds_congr _ _ _ _ (holds_write_list _ (magic_bytes_lt gap freq) (head_upd m h docid) _)
  intro a h1 h2
  unfold fit_mem head_block.advance_tail_byte_offset
  rw [write_u16_out _ _ _ _ (by omega)]

theorem fit_mem_fields (m : Mem) (h docid gap freq : Nat)
    (hdis : struct_ptr (head_block.tail_block m h) + head_block.tail_byte_offset m h
        + (magic_bytes gap freq).length ≤ struct_ptr h + 8 ∨
      struct_ptr h + 18 ≤ struct_ptr (head_block.tail_block m h)
        + head_block.tail_byte_offset m h) :
    head_block.doc_freq (fit_mem m h docid gap freq) h
      = (head_block.doc_freq m h + 1) % 2 ^ 32 ∧
    head_block.recent_docid (fit_mem m h docid gap freq) h = docid % 2 ^ 32 ∧
    head_block.tail_byte_offset (fit_mem m h docid gap freq) h
      = (head_block.tail_byte_offset m h + (magic_bytes gap freq).length) % 65536 := by
  obtain ⟨e1, e2, e3, e4, e5⟩ := head_upd_fields m h docid
  have hw : ∀ x, struct_ptr h + 8 ≤ x → x < struct_ptr h + 18 →
      write_list (head_upd m h docid)
        (struct_ptr (head_block.tail_block m h) + head_block.tail_byte_offset m h)
        (magic_bytes gap freq) x = head_upd m h docid x := by
    intro x h1 h2
    exact write_list_out _ _ _ _ (by omega)
  refine ⟨?_, ?_, ?_⟩
  · refine Eq.trans (doc_freq_congr _ _ h ?_) e4
    intro x h1 h2
    unfold fit_mem head_block.advance_tail_byte_offset
    rw [write_u16_out _ _ _ _ (by omega), hw x (by omega) (by omega)]
  · refine Eq.trans (recent_docid_congr _ _ h ?_) e5
    intro x h1 h2
    unfold fit_mem head_block.advance_tail_byte_offset
    rw [write_u16_out _ _ _ _ (by omega), hw x (by omega) (by omega)]
  · unfold fit_mem head_block.advance_tail_byte_offset
    have : head_block.tail_byte_offset (write_list (head_upd m h docid)
        (struct_ptr (head_block.tail_block m h) + head_block.tail_byte_offset m h)
        (magic_bytes gap freq)) h = head_block.tail_byte_offset m h := by
      refine Eq.trans (tail_byte_offset_congr _ _ h ?_) e2
      intro x h1 h2
      exact hw x (by omega) (by omega)
    rw [this]
    exact read_u16_write_u16 _ _ _

theorem grow_mem_eq (m : Mem) (h docid freq nb : Nat)
    (hnb : struct_ptr h + 64 ≤ struct_ptr nb)
    (hprev : head_block.tail_block m h = h ∨
      (struct_ptr h + 64 ≤ struct_ptr (head_block.tail_block m h) ∧
        struct_ptr (head_block.tail_block m h) + 64 ≤ struct_ptr nb)) :
    grow_mem m h docid freq nb =
      write_u16 (write_list (write_u16 (write_u32 (write_u32 (write_u32
        (head_block.increment_growth_offset (head_upd m h docid) h)
        (struct_ptr nb) docid) (struct_ptr (head_block.tail_block m h)) nb)
        (struct_ptr h + 4) nb) (struct_ptr h + 16) 4) (struct_ptr nb + 4)
        (magic_bytes (grow_gap m h docid) freq)) (struct_ptr h + 16)
        (4 + (magic_bytes (grow_gap m h docid) freq).length) := by
  have hprev2 : struct_ptr (head_block.tail_block m h) = struct_ptr h ∨
      (struct_ptr h + 64 ≤ struct_ptr (head_block.tail_block m h) ∧
        struct_ptr (head_block.tail_block m h) + 64 ≤ struct_ptr nb) :=
    hprev.imp (fun e => congrArg struct_ptr e) id
  unfold grow_mem
  simp only [tail_block.init, torso_block.set_next_block, head_block.set_tail_block,
    head_block.set_tail_byte_offset, head_block.advance_tail_byte_offset, TT_PL_OFFSET]
  have e7 : ∀ mm : Mem, head_block.tail_byte_offset (write_u16 mm (struct_ptr h + 16) 4) h = 4 := by
    intro mm
    exact read_u16_write_u16_of_lt _ _ _ (by omega)
  have eg : (if head_block.tail_block m h = h then docid
      else (docid + 2 ^ 32 - tail_block.first_docid
        (write_u32 (head_block.increment_growth_offset (head_upd m h docid) h) (struct_ptr nb)
          docid) (head_block.tail_block m h)) % 2 ^ 32) = grow_gap m h docid := by
    unfold grow_gap
    split_ifs with hp
    · rfl
    · have hp2 := hprev.resolve_left hp
      congr 2
      unfold tail_block.first_docid
      apply read_u32_congr
      intro x h1 h2
      rw [write_u32_out _ _ _ _ (by omega), incr_growth_out _ _ _ (by omega),
        head_upd_out _ _ _ _ (by omega)]
  rw [eg, e7]
  have e8 : ∀ mm : Mem, head_block.tail_byte_offset
      (write_list (write_u16 mm (struct_ptr h + 16) 4) (struct_ptr nb + 4)
        (magic_bytes (grow_gap m h docid) freq)) h = 4 := by
    intro mm
    refine Eq.trans (tail_byte_offset_congr _ _ h ?_) (e7 mm)
    intro x h1 h2
    exact write_list_out (magic_bytes (grow_gap m h docid) freq) _ _ _ (by omega)
  rw [e8]

theorem grow_mem_out (m : Mem) (h docid freq nb x : Nat)
    (hnb : struct_ptr h + 64 ≤ struct_ptr nb)
    (hprev : head_block.tail_block m h = h ∨
      (struct_ptr h + 64 ≤ struct_ptr (head_block.tail_block m h) ∧
        struct_ptr (head_block.tail_block m h) + 64 ≤ struct_ptr nb))
    (h1 : x < struct_ptr h + 4 ∨ struct_ptr h + 19 ≤ x)
    (h2 : x < struct_ptr (head_block.tail_block m h) ∨
      struct_ptr (head_block.tail_block m h) + 4 ≤ x)
    (h3 : x < struct_ptr nb ∨
      struct_ptr nb + 4 + (magic_bytes (grow_gap m h docid) freq).length ≤ x) :
    grow_mem m h docid freq nb x = m x := by
  have hprev2 : struct_ptr (head_block.tail_block m h) = struct_ptr h ∨
      (struct_ptr h + 64 ≤ struct_ptr (head_block.tail_block m h) ∧
        struct_ptr (head_block.tail_block m h) + 64 ≤ struct_ptr nb) :=
    hprev.imp (fun e => congrArg struct_ptr e) id
  rw [grow_mem_eq m h docid freq nb hnb hprev]
  rw [write_u16_out _ _ _ _ (by omega),
    write_list_out _ _ _ _ (by omega), write_u16_out _ _ _ _ (by omega),
    write_u32_out _ _ _ _ (by omega), write_u32_out _ _ _ _ (by omega),
    write_u32_out _ _ _ _ (by omega), incr_growth_out _ _ _ (by omega),
    head_upd_out _ _ _ _ (by omega)]

theorem grow_mem_fields (m : Mem) (h docid freq nb : Nat)
    (hnb : struct_ptr h + 64 ≤ struct_ptr nb)
    (hprev : head_block.tail_block m h = h ∨
      (struct_ptr h + 64 ≤ struct_ptr (head_block.tail_block m h) ∧
        struct_ptr (head_block.tail_block m h) + 64 ≤ struct_ptr nb))
    (hg : head_block.growth_offset m h ≤ 255) (hnb32 : nb < 2 ^ 32) (hd : docid < 2 ^ 32) :
    head_block.doc_freq (grow_mem m h docid freq nb) h
      = (head_block.doc_freq m h + 1) % 2 ^ 32 ∧
    head_block.recent_docid (grow_mem m h docid freq nb) h = docid ∧
    head_block.tail_byte_offset (grow_mem m h docid freq nb) h
      = 4 + (magic_bytes (grow_gap m h docid) freq).length ∧
    head_block.growth_offset (grow_mem m h docid freq nb) h
      = min (head_block.growth_offset m h + 1) 255 ∧
    head_block.tail_block (grow_mem m h docid freq nb) h = nb ∧
    read_u32 (grow_mem m h docid freq nb) (struct_ptr (head_block.tail_block m h)) = nb ∧
    read_u32 (grow_mem m h docid freq nb) (struct_ptr nb) = docid ∧
    holds (grow_mem m h docid freq nb) (struct_ptr nb + 4)
      (magic_bytes (grow_gap m h docid) freq) := by
  have hprev2 : struct_ptr (head_block.tail_block m h) = struct_ptr h ∨
      (struct_ptr h + 64 ≤ struct_ptr (head_block.tail_block m h) ∧
        struct_ptr (head_block.tail_block m h) + 64 ≤ struct_ptr nb) :=
    hprev.imp (fun e => congrArg struct_ptr e) id
  obtain ⟨e1, e2, e3, e4, e5⟩ := head_upd_fields m h docid
  have hlen := magic_bytes_required_bounds (grow_gap m h docid) freq
  rw [← magic_bytes_length] at hlen
  rw [grow_mem_eq m h docid freq nb hnb hprev]
  have f1 : head_block.doc_freq (head_block.increment_growth_offset (head_upd m h docid) h) h
      = (head_block.doc_freq m h + 1) % 2 ^ 32 := by
    refine Eq.trans (doc_freq_congr _ _ h ?_) e4
    intro x h1 h2
    exact incr_growth_out _ _ _ (by omega)
  have f2 : head_block.recent_docid (head_block.increment_growth_offset (head_upd m h docid) h) h
      = docid := by
    refine Eq.trans (recent_docid_congr _ _ h ?_) (e5.trans (Nat.mod_eq_of_lt hd))
    intro x h1 h2
    exact incr_growth_out _ _ _ (by omega)
  have f3 : head_block.growth_offset (head_block.increment_growth_offset (head_upd m h docid) h) h
      = min (head_block.growth_offset m h + 1) 255 :=
    Eq.trans (incr_growth_val (head_upd m h docid) h (by rw [e3]; exact hg)) (by rw [e3])
  generalize head_block.increment_growth_offset (head_upd m h docid) h = m3 at f1 f2 f3 ⊢
  generalize hbytes : magic_bytes (grow_gap m h docid) freq = bytes at hlen ⊢
  refine ⟨?_, ?_, ?_, ?_, ?_, ?_, ?_, ?_⟩
  · refine Eq.trans (doc_freq_congr _ _ h ?_) f1
    intro x h1 h2
    rw [write_u16_out _ _ _ _ (by omega),
      write_list_out _ _ _ _ (by omega), write_u16_out _ _ _ _ (by omega),
      write_u32_out _ _ _ _ (by omega), write_u32_out _ _ _ _ (by omega),
      write_u32_out _ _ _ _ (by omega)]
  · refine Eq.trans (recent_docid_congr _ _ h ?_) f2
    intro x h1 h2
    rw [write_u16_out _ _ _ _ (by omega),
      write_list_out _ _ _ _ (by omega), write_u16_out _ _ _ _ (by omega),
      write_u32_out _ _ _ _ (by omega), write_u32_out _ _ _ _ (by omega),
      write_u32_out _ _ _ _ (by omega)]
  · exact read_u16_write_u16_of_lt _ _ _ (by omega)
  · refine Eq.trans (growth_offset_congr _ _ h ?_) f3
    rw [write_u16_out _ _ _ _ (by omega),
      write_list_out _ _ _ _ (by omega), write_u16_out _ _ _ _ (by omega),
      write_u32_out _ _ _ _ (by omega), write_u32_out _ _ _ _ (by omega),
      write_u32_out _ _ _ _ (by omega)]
  · refine Eq.trans (tail_block_congr (write_u32 (write_u32 (write_u32 m3 (struct_ptr nb) docid)
      (struct_ptr (head_block.tail_block m h)) nb) (struct_ptr h + 4) nb) _ h ?_)
      (read_u32_write_u32_of_lt _ _ _ hnb32)
    intro x h1 h2
    rw [write_u16_out _ _ _ _ (by omega),
      write_list_out _ _ _ _ (by omega), write_u16_out _ _ _ _ (by omega)]
  · refine Eq.trans (read_u32_congr (write_u32 (write_u32 m3 (struct_ptr nb) docid)
      (struct_ptr (head_block.tail_block m h)) nb) _ _ ?_)
      (read_u32_write_u32_of_lt _ _ _ hnb32)
    intro x h1 h2
    rw [write_u16_out _ _ _ _ (by omega),
      write_list_out _ _ _ _ (by omega), write_u16_out _ _ _ _ (by omega),
      write_u32_out _ _ _ _ (by omega)]
  · refine Eq.trans (read_u32_congr (write_u32 m3 (struct_ptr nb) docid) _ _ ?_)
      (read_u32_write_u32_of_lt _ _ _ hd)
    intro x h1 h2
    rw [write_u16_out _ _ _ _ (by omega),
      write_list_out _ _ _ _ (by omega), write_u16_out _ _ _ _ (by omega),
      write_u32_out _ _ _ _ (by omega), write_u32_out _ _ _ _ (by omega)]
  · have hb : ∀ b ∈ bytes, b < 256 := by
      rw [← hbytes]
      exact magic_bytes_lt _ freq
    apply holds_congr _ _ _ _ (holds_write_list _ hb _ _)
    intro a h1 h2
    rw [write_u16_out _ _ _ _ (by omega)]

theorem init_out (m : Mem) (b : Nat) (term : List Nat) (x : Nat)
    (hx : x < struct_ptr b ∨ struct_ptr b + 20 + term.length ≤ x) :
    head_block.init m b term b x = m x := by
  unfold head_block.init head_block.set_term
  simp only [HEAD_PL_OFFSET]
  rw [store_other _ _ _ _ (by omega), write_u32_out _ _ _ _ (by omega),
    write_u16_out _ _ _ _ (by omega), write_list_out _ _ _ _ (by omega),
    store_other _ _ _ _ (by omega), write_u32_out _ _ _ _ (by omega),
    write_u32_out _ _ _ _ (by omega), write_u32_out _ _ _ _ (by omega)]

theorem init_fields (m : Mem) (b : Nat) (term : List Nat) (hlen : term.length ≤ 44)
    (hch : ∀ x ∈ term, x < 256) (hb : b < 2 ^ 32) :
    head_block.next_block (head_block.init m b term b) b = END_CHAIN ∧
    head_block.tail_block (head_block.init m b term b) b = b ∧
    head_block.doc_freq (head_block.init m b term b) b = 0 ∧
    head_block.recent_docid (head_block.init m b term b) b = 0 ∧
    head_block.tail_byte_offset (head_block.init m b term b) b = 20 + term.length ∧
    head_block.growth_offset (head_block.init m b term b) b = 0 ∧
    head_block.word_length (head_block.init m b term b) b = term.length ∧
    holds (head_block.init m b term b) (struct_ptr b + HEAD_PL_OFFSET) term := by
  have hwl : head_block.word_length (head_block.set_term (write_u32 (write_u32
      (write_u32 m (struct_ptr b) END_CHAIN) (struct_ptr b + 4) b) (struct_ptr b + 8) 0) b term) b
      = term.length := by
    unfold head_block.word_length head_block.set_term
    simp only [HEAD_PL_OFFSET]
    rw [write_list_out _ _ _ _ (by omega), store_same]
    omega
  unfold head_block.init
  simp only [hwl, HEAD_PL_OFFSET]
  generalize hm3 : (write_u32 (write_u32 (write_u32 m (struct_ptr b) END_CHAIN)
    (struct_ptr b + 4) b) (struct_ptr b + 8) 0) = m3
  have hm4 : ∀ x, x < struct_ptr b + 19 → head_block.set_term m3 b term x = m3 x := by
    intro x hx
    unfold head_block.set_term
    simp only [HEAD_PL_OFFSET]
    rw [write_list_out _ _ _ _ (by omega), store_other _ _ _ _ (by omega)]
  refine ⟨?_, ?_, ?_, ?_, ?_, ?_, ?_, ?_⟩
  · refine Eq.trans (next_block_congr (write_u32 m (struct_ptr b) END_CHAIN) _ b ?_)
      (read_u32_write_u32_of_lt _ _ _ (by simp [END_CHAIN]))
    intro x h1 h2
    rw [store_other _ _ _ _ (by omega), write_u32_out _ _ _ _ (by omega),
      write_u16_out _ _ _ _ (by omega), hm4 x (by omega), ← hm3,
      write_u32_out _ _ _ _ (by omega), write_u32_out _ _ _ _ (by omega)]
  · refine Eq.trans (tail_block_congr (write_u32 (write_u32 m (struct_ptr b) END_CHAIN)
      (struct_ptr b + 4) b) _ b ?_) (read_u32_write_u32_of_lt _ _ _ hb)
    intro x h1 h2
    rw [store_other _ _ _ _ (by omega), write_u32_out _ _ _ _ (by omega),
      write_u16_out _ _ _ _ (by omega), hm4 x (by omega), ← hm3,
      write_u32_out _ _ _ _ (by omega)]
  · refine Eq.trans (doc_freq_congr m3 _ b ?_)
      (by rw [← hm3]; exact read_u32_write_u32_of_lt _ _ _ (by norm_num))
    intro x h1 h2
    rw [store_other _ _ _ _ (by omega), write_u32_out _ _ _ _ (by omega),
      write_u16_out _ _ _ _ (by omega), hm4 x (by omega)]
  · refine Eq.trans (recent_docid_congr (write_u32 (write_u16 (head_block.set_term m3 b term)
      (struct_ptr b + 16) (20 + term.length)) (struct_ptr b + 12) 0) _ b ?_)
      (read_u32_write_u32_of_lt _ _ _ (by norm_num))
    intro x h1 h2
    rw [store_other _ _ _ _ (by omega)]
  · refine Eq.trans (tail_byte_offset_congr (write_u16 (head_block.set_term m3 b term)
      (struct_ptr b + 16) (20 + term.length)) _ b ?_)
      (read_u16_write_u16_of_lt _ _ _ (by omega))
    intro x h1 h2
    rw [store_other _ _ _ _ (by omega), write_u32_out _ _ _ _ (by omega)]
  · unfold head_block.growth_offset
    rw [store_same]
  · unfold head_block.word_length
    rw [store_other _ _ _ _ (by omega), write_u32_out _ _ _ _ (by omega),
      write_u16_out _ _ _ _ (by omega)]
    unfold head_block.set_term
    simp only [HEAD_PL_OFFSET]
    rw [write_list_out _ _ _ _ (by omega), store_same]
    omega
  · apply holds_congr _ _ _ _ (holds_write_list term hch (store m3 (struct_ptr b + 19) term.length)
      (struct_ptr b + 20))
    intro a h1 h2
    rw [store_other _ _ _ _ (by omega), write_u32_out _ _ _ _ (by omega),
      write_u16_out _ _ _ _ (by omega)]
    rfl

end

theorem Seg_congr (m m2 : Mem) (a start cap base : Nat) (posts : List (Nat × Nat))
    (h : Seg m a start cap base posts)
    (hx : ∀ o, start ≤ o → o < cap → m2 (a + o) = m (a + o)) : Seg m2 a start cap base posts := by
  obtain ⟨h1, h2, h3⟩ := h
  refine ⟨?_, h2, ?_⟩
  · intro i hi
    rw [Nat.add_assoc, hx _ (by omega) (by omega), ← Nat.add_assoc]
    exact h1 i hi
  · intro o ho1 ho2
    rw [hx o (by omega) ho2]
    exact h3 o ho1 ho2

theorem blockPosts_cons (b : Blk) (bs : List Blk) :
    blockPosts (b :: bs) = b.posts ++ blockPosts bs := by
  simp [blockPosts]

theorem blockPosts_append (as bs : List Blk) :
    blockPosts (as ++ bs) = blockPosts as ++ blockPosts bs := by
  simp [blockPosts]

theorem blockPosts_nil : blockPosts [] = [] := rfl

theorem BlocksRep_cons (S : Nat → Nat) (m : Mem) (tI tO j start base lo : Nat) (b : Blk)
    (rest : List Blk) :
    BlocksRep S m tI tO j start base lo (b :: rest) ↔
    (b.size = S (min j MAX_SLAB_IDX) ∧ (1 ≤ j → b.posts ≠ []) ∧ base ≤ lo ∧
    PostsOK lo b.posts ∧
    Seg m (struct_ptr b.idx) start (BLOCK_SIZE * b.size) base b.posts ∧
    (match rest with
      | [] => (1 ≤ j → read_u32 m (struct_ptr b.idx) = firstDoc b) ∧
          (j = 0 → read_u32 m (struct_ptr b.idx) = END_CHAIN) ∧
          tI = b.idx ∧ tO = start + (enc_posts base b.posts).length
      | b2 :: _ => read_u32 m (struct_ptr b.idx) = b2.idx ∧ b.idx ≠ tI) ∧
    BlocksRep S m tI tO (j + 1) TT_PL_OFFSET (if j = 0 then 0 else firstDoc b)
      (lastDoc lo b.posts) rest) := Iff.rfl

/-- Rebuilding the layout predicate after a change confined to the last block. -/
theorem BlocksRep_update (S : Nat → Nat) (hS : SlabsOK S) (m m2 : Mem)
    (tI tO tI2 tO2 : Nat) (last l0 : Blk) (rest0 : List Blk) (hl0 : l0.idx = last.idx)
    (pre : List Blk) : ∀ j start base lo,
    BlocksRep S m tI tO j start base lo (pre ++ [last]) →
    (∀ b rest', pre = b :: rest' → ∀ o, o < BLOCK_SIZE * b.size → (o < 4 ∨ start ≤ o) →
      m2 (struct_ptr b.idx + o) = m (struct_ptr b.idx + o)) →
    (∀ x ∈ pre.tail, ∀ o, o < BLOCK_SIZE * x.size →
      m2 (struct_ptr x.idx + o) = m (struct_ptr x.idx + o)) →
    (∀ b ∈ pre, b.idx ≠ tI2) →
    (∀ start' base', (pre = [] → start' = start ∧ base' = base) →
      (pre ≠ [] → start' = TT_PL_OFFSET) →
      BlocksRep S m tI tO (j + pre.length) start' base' (lastDoc lo (blockPosts pre)) [last] →
      BlocksRep S m2 tI2 tO2 (j + pre.length) start' base' (lastDoc lo (blockPosts pre))
        (l0 :: rest0)) →
    BlocksRep S m2 tI2 tO2 j start base lo (pre ++ l0 :: rest0) := by
  induction pre with
  | nil =>
    intro j start base lo h _ _ _ ht
    exact ht start base (fun _ => ⟨rfl, rfl⟩) (fun hne => absurd rfl hne) h
  | cons b pre ih =>
    intro j start base lo h hfirst hrest hnt ht
    rw [List.cons_append, BlocksRep_cons] at h
    obtain ⟨hsize, hne, hb, hok, hseg, hlink, hr⟩ := h
    rw [List.cons_append, BlocksRep_cons]
    have hsz : 4 ≤ BLOCK_SIZE * b.size := by
      rw [hsize]
      have := (hS (min j MAX_SLAB_IDX)).1
      simp only [BLOCK_SIZE]
      omega
    have hrd : read_u32 m2 (struct_ptr b.idx) = read_u32 m (struct_ptr b.idx) := by
      apply read_u32_congr
      intro x h1 h2
      have := hfirst b pre rfl (x - struct_ptr b.idx) (by omega) (Or.inl (by omega))
      rw [show struct_ptr b.idx + (x - struct_ptr b.idx) = x by omega] at this
      exact this
    refine ⟨hsize, hne, hb, hok, ?_, ?_, ?_⟩
    · exact Seg_congr _ _ _ _ _ _ _ hseg
        (fun o h1 h2 => hfirst b pre rfl o h2 (Or.inr h1))
    · cases pre with
      | nil =>
        simp only [List.nil_append] at hlink ⊢
        exact ⟨by rw [hrd, hlink.1, hl0], hnt b (List.mem_cons_self _ _)⟩
      | cons b2 pre2 =>
        simp only [List.cons_append] at hlink ⊢
        exact ⟨by rw [hrd, hlink.1], hnt b (List.mem_cons_self _ _)⟩
    · apply ih (j + 1) TT_PL_OFFSET _ _ hr
      · intro b2 rest' hp o ho _
        exact hrest b2 (by rw [List.tail_cons, hp]; exact List.mem_cons_self _ _) o ho
      · intro x hx o ho
        exact hrest x (by rw [List.tail_cons]; exact List.mem_of_mem_tail hx) o ho
      · intro x hx
        exact hnt x (List.mem_cons_of_mem _ hx)
      · intro start' base' h1 h2 h3
        have hst : start' = TT_PL_OFFSET := by
          cases pre with
          | nil => exact (h1 rfl).1
          | cons _ _ => exact h2 (by simp)
        have e1 : j + 1 + pre.length = j + (b :: pre).length := by
          simp only [List.length_cons]
          omega
        have e2 : lastDoc (lastDoc lo b.posts) (blockPosts pre)
            = lastDoc lo (blockPosts (b :: pre)) := by
          rw [blockPosts_cons, lastDoc_append]
        rw [e1, e2] at h3 ⊢
        exact ht start' base' (fun hh => absurd hh (by simp)) (fun _ => hst) h3

theorem BlocksRep_frame (S : Nat → Nat) (m m2 : Mem) (tI tO : Nat) (bs : List Blk) :
    ∀ j start base lo, BlocksRep S m tI tO j start base lo bs →
    (∀ b ∈ bs, 1 ≤ b.size) →
    (∀ b ∈ bs, ∀ o, o < BLOCK_SIZE * b.size →
      m2 (struct_ptr b.idx + o) = m (struct_ptr b.idx + o)) →
    BlocksRep S m2 tI tO j start base lo bs := by
  induction bs with
  | nil => intro _ _ _ _ _ _ _; trivial
  | cons b rest ih =>
    intro j start base lo h hsz hx
    rw [BlocksRep_cons] at h ⊢
    obtain ⟨hsize, hne, hb, hok, hseg, hlink, hr⟩ := h
    have hs1 := hsz b (List.mem_cons_self _ _)
    have hrd : read_u32 m2 (struct_ptr b.idx) = read_u32 m (struct_ptr b.idx) := by
      apply read_u32_congr
      intro x h1 h2
      have := hx b (List.mem_cons_self _ _) (x - struct_ptr b.idx)
        (by simp only [BLOCK_SIZE]; omega)
      rw [show struct_ptr b.idx + (x - struct_ptr b.idx) = x by omega] at this
      exact this
    refine ⟨hsize, hne, hb, hok, ?_, ?_, ?_⟩
    · exact Seg_congr _ _ _ _ _ _ _ hseg (fun o _ h2 => hx b (List.mem_cons_self _ _) o h2)
    · cases rest with
      | nil =>
        simp only at hlink ⊢
        rw [hrd]
        exact hlink
      | cons b2 r2 =>
        simp only at hlink ⊢
        rw [hrd]
        exact hlink
    · exact ih _ _ _ _ hr (fun x hx' => hsz x (List.mem_cons_of_mem _ hx'))
        (fun x hx' => hx x (List.mem_cons_of_mem _ hx'))

theorem BlocksRep_tail (S : Nat → Nat) (m : Mem) (tI tO : Nat) (last : Blk) (pre : List Blk) :
    ∀ j start base lo, BlocksRep S m tI tO j start base lo (pre ++ [last]) →
    tI = last.idx ∧ last.size = S (min (j + pre.length) MAX_SLAB_IDX) ∧
      tO ≤ BLOCK_SIZE * last.size ∧ (pre = [] → start ≤ tO) ∧
      (pre ≠ [] → TT_PL_OFFSET ≤ tO) := by
  induction pre with
  | nil =>
    intro j start base lo h
    obtain ⟨hsize, _, _, _, hseg, hlink, _⟩ := h
    simp only [List.nil_append] at hlink
    refine ⟨hlink.2.2.1, hsize, ?_, ?_, fun hh => absurd rfl hh⟩
    · rw [hlink.2.2.2]
      exact hseg.2.1
    · intro _
      rw [hlink.2.2.2]
      omega
  | cons b pre ih =>
    intro j start base lo h
    obtain ⟨_, _, _, _, _, _, hr⟩ := h
    obtain ⟨h1, h2, h3, h4, h5⟩ := ih _ _ _ _ hr
    refine ⟨h1, ?_, h3, fun hh => absurd hh (by simp), fun _ => ?_⟩
    · rw [h2]
      congr 2
      simp only [List.length_cons]
      omega
    · cases pre with
      | nil => exact h4 rfl
      | cons _ _ => exact h5 (by simp)

theorem firstDoc_le_lastDoc (lo : Nat) (b : Blk) (hok : PostsOK lo b.posts)
    (hne : b.posts ≠ []) : firstDoc b ≤ lastDoc lo b.posts := by
  unfold firstDoc
  cases hp : b.posts with
  | nil => exact absurd hp hne
  | cons q qs =>
    rw [hp] at hok
    simp only [List.headD_cons, lastDoc_cons]
    exact PostsOK_lastDoc_ge _ _ hok.2.2.2.2

theorem BlocksRep_fit (S : Nat → Nat) (m m2 : Mem) (tI tO j start base lo : Nat) (last : Blk)
    (p : Nat × Nat)
    (h : BlocksRep S m tI tO j start base lo [last])
    (hp : lastDoc lo last.posts < p.1 ∧ p.1 < 2 ^ 30 ∧ 1 ≤ p.2 ∧ p.2 < 2 ^ 32)
    (hbase : last.posts = [] → base = lo) (hstart : 4 ≤ start)
    (hroom : tO + (magic_bytes (p.1 - lastDoc lo last.posts) p.2).length
      ≤ BLOCK_SIZE * last.size)
    (hold : ∀ o, o < BLOCK_SIZE * last.size → (o < 4 ∨ start ≤ o) →
      (o < tO ∨ tO + (magic_bytes (p.1 - lastDoc lo last.posts) p.2).length ≤ o) →
      m2 (struct_ptr last.idx + o) = m (struct_ptr last.idx + o))
    (hnew : holds m2 (struct_ptr last.idx + tO)
      (magic_bytes (p.1 - lastDoc lo last.posts) p.2)) :
    BlocksRep S m2 tI (tO + (magic_bytes (p.1 - lastDoc lo last.posts) p.2).length)
      j start base lo [⟨last.idx, last.size, last.posts ++ [p]⟩] := by
  obtain ⟨hsize, hne, hb, hok, hseg, hlink, _⟩ := h
  simp only at hlink
  obtain ⟨hl1, hl2, hl3, hl4⟩ := hlink
  have hld : lastDoc base last.posts = lastDoc lo last.posts := by
    by_cases hn : last.posts = []
    · rw [hbase hn]
    · exact lastDoc_of_ne_nil _ _ _ hn
  have henc : enc_posts base (last.posts ++ [p])
      = enc_posts base last.posts ++ magic_bytes (p.1 - lastDoc lo last.posts) p.2 := by
    rw [enc_posts_append, enc_posts_singleton, hld]
  have hrd : read_u32 m2 (struct_ptr last.idx) = read_u32 m (struct_ptr last.idx) := by
    apply read_u32_congr
    intro x h1 h2
    have := hold (x - struct_ptr last.idx) (by omega) (Or.inl (by omega)) (Or.inl (by omega))
    rw [show struct_ptr last.idx + (x - struct_ptr last.idx) = x by omega] at this
    exact this
  rw [BlocksRep_cons]
  refine ⟨hsize, fun _ => by simp, hb, ?_, ?_, ?_, trivial⟩
  · exact (PostsOK_append lo last.posts [p]).2 ⟨hok, hp.1, hp.2.1, hp.2.2.1, hp.2.2.2, trivial⟩
  · show Seg m2 (struct_ptr last.idx) start (BLOCK_SIZE * last.size) base (last.posts ++ [p])
    rw [Seg, henc, List.length_append]
    refine ⟨?_, by omega, ?_⟩
    · apply holds_append
      · apply holds_congr _ _ _ _ hseg.1
        intro a h1 h2
        have := hold (a - struct_ptr last.idx) (by omega) (Or.inr (by omega)) (Or.inl (by omega))
        rw [show struct_ptr last.idx + (a - struct_ptr last.idx) = a by omega] at this
        exact this
      · rw [Nat.add_assoc, ← hl4]
        exact hnew
    · intro o h1 h2
      rw [hold o h2 (Or.inr (by omega)) (Or.inr (by omega))]
      exact hseg.2.2 o (by omega) h2
  · refine ⟨fun hj => ?_, fun hj => by rw [hrd]; exact hl2 hj, hl3, ?_⟩
    · show read_u32 m2 (struct_ptr last.idx) = firstDoc ⟨last.idx, last.size, last.posts ++ [p]⟩
      rw [hrd, hl1 hj]
      have hn := hne hj
      unfold firstDoc
      cases hq : last.posts with
      | nil => exact absurd hq hn
      | cons q qs => rfl
    · show tO + _ = start + (enc_posts base (last.posts ++ [p])).length
      rw [henc, List.length_append, hl4]
      omega

theorem BlocksRep_grow (S : Nat → Nat) (hS : SlabsOK S) (m m2 : Mem)
    (tI tO j start base lo : Nat) (last nb : Blk) (p : Nat × Nat)
    (h : BlocksRep S m tI tO j start base lo [last])
    (hp : lastDoc lo last.posts < p.1 ∧ p.1 < 2 ^ 30 ∧ 1 ≤ p.2 ∧ p.2 < 2 ^ 32)
    (hnbsize : nb.size = S (min (j + 1) MAX_SLAB_IDX)) (hnbposts : nb.posts = [p])
    (hold : ∀ o, o < BLOCK_SIZE * last.size → start ≤ o →
      m2 (struct_ptr last.idx + o) = m (struct_ptr last.idx + o))
    (hlink : read_u32 m2 (struct_ptr last.idx) = nb.idx) (hne : last.idx ≠ nb.idx)
    (hfirst : read_u32 m2 (struct_ptr nb.idx) = p.1)
    (hnew : holds m2 (struct_ptr nb.idx + 4)
      (magic_bytes (p.1 - (if j = 0 then 0 else firstDoc last)) p.2))
    (hzero : ∀ o, 4 + (magic_bytes (p.1 - (if j = 0 then 0 else firstDoc last)) p.2).length ≤ o →
      o < BLOCK_SIZE * nb.size → m2 (struct_ptr nb.idx + o) = 0) :
    BlocksRep S m2 nb.idx
      (4 + (magic_bytes (p.1 - (if j = 0 then 0 else firstDoc last)) p.2).length)
      j start base lo [last, nb] := by
  obtain ⟨hsize, hne0, hb, hok, hseg, _, _⟩ := h
  have hlen := magic_bytes_required_bounds (p.1 - (if j = 0 then 0 else firstDoc last)) p.2
  rw [← magic_bytes_length] at hlen
  have hb2 : (if j = 0 then 0 else firstDoc last) ≤ lastDoc lo last.posts := by
    split_ifs with hj
    · omega
    · exact firstDoc_le_lastDoc lo last hok (hne0 (by omega))
  rw [BlocksRep_cons]
  refine ⟨hsize, hne0, hb, hok, ?_, ⟨hlink, hne⟩, ?_⟩
  · exact Seg_congr _ _ _ _ _ _ _ hseg (fun o h1 h2 => hold o h2 h1)
  · rw [BlocksRep_cons]
    refine ⟨hnbsize, fun _ => by rw [hnbposts]; simp, hb2, ?_, ?_, ?_, trivial⟩
    · rw [hnbposts]
      exact ⟨hp.1, hp.2.1, hp.2.2.1, hp.2.2.2, trivial⟩
    · rw [hnbposts, Seg, enc_posts_singleton]
      refine ⟨hnew, ?_, hzero⟩
      have := (hS (min (j + 1) MAX_SLAB_IDX)).1
      rw [hnbsize]
      simp only [BLOCK_SIZE, TT_PL_OFFSET]
      omega
    · refine ⟨fun _ => ?_, fun hj => absurd hj (by omega), rfl, ?_⟩
      · rw [hfirst]
        simp [firstDoc, hnbposts]
      · rw [hnbposts, enc_posts_singleton]
        rfl

theorem sp_le (a k b : Nat) (h : a + k ≤ b) : struct_ptr a + BLOCK_SIZE * k ≤ struct_ptr b := by
  unfold struct_ptr
  simp only [BLOCK_SIZE]
  omega

theorem PostsOK_length (lo : Nat) (ps : List (Nat × Nat)) (h : PostsOK lo ps) :
    lo + ps.length ≤ lastDoc lo ps := by
  induction ps generalizing lo with
  | nil => exact Nat.le_refl _
  | cons p ps ih =>
    have := ih p.1 h.2.2.2.2
    have := h.1
    rw [lastDoc_cons, List.length_cons]
    omega

theorem BlocksRep_posts (S : Nat → Nat) (m : Mem) (tI tO : Nat) (bs : List Blk) :
    ∀ j start base lo, BlocksRep S m tI tO j start base lo bs → PostsOK lo (blockPosts bs) := by
  induction bs with
  | nil => intro _ _ _ _ _; trivial
  | cons b rest ih =>
    intro j start base lo h
    rw [blockPosts_cons, PostsOK_append]
    exact ⟨h.2.2.2.1, ih _ _ _ _ h.2.2.2.2.2.2⟩

theorem BlocksRep_tail_first (S : Nat → Nat) (m : Mem) (tI tO : Nat) (last : Blk)
    (pre : List Blk) : ∀ j start base lo,
    BlocksRep S m tI tO j start base lo (pre ++ [last]) → 1 ≤ j + pre.length →
    read_u32 m (struct_ptr last.idx) = firstDoc last ∧ last.posts ≠ [] := by
  induction pre with
  | nil =>
    intro j start base lo h hj
    obtain ⟨_, hne, _, _, _, hlink, _⟩ := h
    simp only [List.nil_append] at hlink
    simp only [List.length_nil, Nat.add_zero] at hj
    exact ⟨hlink.1 hj, hne hj⟩
  | cons b pre ih =>
    intro j start base lo h _
    exact ih _ _ _ _ h.2.2.2.2.2.2 (by omega)

theorem chain_facts (S : Nat → Nat) (hS : SlabsOK S) (m : Mem) (c : Chain) (pre : List Blk)
    (last : Blk) (hc : c.blocks = pre ++ [last]) (hrep : ChainRep S m c)
    (hord : c.blocks.Pairwise (fun b1 b2 => b1.idx + b1.size ≤ b2.idx)) :
    ChainFacts S m c pre last := by
  unfold ChainRep at hrep
  cases hb : c.blocks with
  | nil => rw [hb] at hrep; exact hrep.elim
  | cons h rest =>
    rw [hb] at hrep
    obtain ⟨htl, htc, hwl, hterm, hdf, hrec, hgr, hbr⟩ := hrep
    have e : c.head = h.idx := by simp [Chain.head, hb]
    have hpl : h :: rest = pre ++ [last] := by rw [← hb, hc]
    have hlen : rest.length = pre.length := by
      have := congrArg List.length hpl
      simp at this
      exact this
    rw [hpl] at hbr
    rw [← e] at hwl hterm hdf hrec hgr hbr
    obtain ⟨t1, t2, t3, t4, t5⟩ := BlocksRep_tail _ _ _ _ _ _ _ _ _ _ hbr
    have hsz := BlocksRep_size_pos _ hS _ _ _ _ _ _ _ _ hbr
    rw [hc, List.pairwise_append] at hord
    obtain ⟨ho1, _, ho3⟩ := hord
    have hbefore : ∀ b ∈ pre, b.idx + b.size ≤ last.idx :=
      fun b hb' => ho3 b hb' last (List.mem_singleton_self _)
    refine ⟨t1, by simpa using t2, by rw [hgr, hlen], t3, ?_, ?_, hsz, hbefore, ?_,
      ?_, hbr, htl, htc, hwl, hterm, hdf, hrec, ?_⟩
    · intro hp
      subst hp
      simp only [List.nil_append, List.cons.injEq] at hpl
      exact ⟨by rw [e, hpl.1], t4 rfl⟩
    · intro hp
      cases pre with
      | nil => exact absurd rfl hp
      | cons h2 pre2 =>
        simp only [List.cons_append, List.cons.injEq] at hpl
        have h1 := hbefore h2 (List.mem_cons_self _ _)
        have h2s := hsz h2 (by simp)
        refine ⟨?_, t5 hp, h2, pre2, rfl, by rw [e, hpl.1]⟩
        rw [e, hpl.1]
        have := sp_le h2.idx h2.size last.idx h1
        simp only [BLOCK_SIZE] at this
        omega
    · intro x hx
      cases pre with
      | nil => simp at hx
      | cons h2 pre2 =>
        simp only [List.cons_append, List.cons.injEq] at hpl
        simp only [List.tail_cons] at hx
        rw [List.pairwise_cons] at ho1
        have h1 := ho1.1 x hx
        have h2s := hsz h2 (by simp)
        rw [e, hpl.1]
        have := sp_le h2.idx h2.size x.idx h1
        simp only [BLOCK_SIZE] at this
        omega
    · have := BlocksRep_posts _ _ _ _ _ _ _ _ _ hbr
      unfold Chain.posts
      rw [hc]
      exact this
    · intro hp
      apply BlocksRep_tail_first _ _ _ _ _ _ _ _ _ _ hbr
      cases pre with
      | nil => exact absurd rfl hp
      | cons _ _ => simp

theorem ChainRep_of (S : Nat → Nat) (m : Mem) (c : Chain) (hne : c.blocks ≠ [])
    (htl : c.term.length ≤ HEAD_BYTES) (htc : ∀ x ∈ c.term, x < 256)
    (hwl : head_block.word_length m c.head = c.term.length)
    (hterm : holds m (struct_ptr c.head + HEAD_PL_OFFSET) c.term)
    (hdf : head_block.doc_freq m c.head = c.posts.length)
    (hrec : head_block.recent_docid m c.head = lastDoc 0 c.posts)
    (hgr : head_block.growth_offset m c.head = min (c.blocks.length - 1) MAX_SLAB_IDX)
    (hbr : BlocksRep S m (head_block.tail_block m c.head) (head_block.tail_byte_offset m c.head)
      0 (HEAD_PL_OFFSET + c.term.length) 0 0 c.blocks) :
    ChainRep S m c := by
  unfold ChainRep
  cases hb : c.blocks with
  | nil => exact absurd hb hne
  | cons h rest =>
    have e : c.head = h.idx := by simp [Chain.head, hb]
    rw [hb] at hgr hbr
    rw [e] at hwl hterm hdf hrec hgr hbr
    exact ⟨htl, htc, hwl, hterm, hdf, hrec, by simpa using hgr, hbr⟩

theorem head_append (t : List Nat) (c : Chain) (pre : List Blk) (last l2 : Blk)
    (rest : List Blk) (hc : c.blocks = pre ++ [last]) (hi : l2.idx = last.idx) :
    (⟨t, pre ++ l2 :: rest⟩ : Chain).head = c.head := by
  unfold Chain.head
  rw [hc]
  cases pre with
  | nil => simp [hi]
  | cons h pre => simp

theorem ChainRep_fit (S : Nat → Nat) (hS : SlabsOK S) (m : Mem) (c : Chain) (pre : List Blk)
    (last : Blk) (F : ChainFacts S m c pre last) (hc : c.blocks = pre ++ [last])
    (d f : Nat) (hd : lastDoc 0 c.posts < d) (hd30 : d < 2 ^ 30) (hf1 : 1 ≤ f)
    (hf2 : f < 2 ^ 32)
    (hfit : head_block.tail_byte_offset m c.head
      + (magic_bytes (d - lastDoc 0 c.posts) f).length ≤ BLOCK_SIZE * last.size) :
    ChainRep S (fit_mem m c.head d (d - lastDoc 0 c.posts) f)
      ⟨c.term, pre ++ [⟨last.idx, last.size, last.posts ++ [(d, f)]⟩]⟩ := by
  have hposts : c.posts = blockPosts pre ++ last.posts := by
    unfold Chain.posts
    rw [hc, blockPosts_append]
    simp [blockPosts]
  have hposts2 : (⟨c.term, pre ++ [⟨last.idx, last.size, last.posts ++ [(d, f)]⟩]⟩ : Chain).posts
      = c.posts ++ [(d, f)] := by
    unfold Chain.posts
    rw [hc, blockPosts_append, blockPosts_append]
    simp [blockPosts]
  have hhead := head_append c.term c pre last ⟨last.idx, last.size, last.posts ++ [(d, f)]⟩ []
    hc rfl
  have hcap : BLOCK_SIZE * last.size ≤ 65535 := by
    rw [F.size]
    exact (hS _).2
  have hlast1 := F.sizes last (by simp)
  -- where the write lands relative to the head header
  have hregion : struct_ptr c.head + HEAD_PL_OFFSET + c.term.length
      ≤ struct_ptr last.idx + head_block.tail_byte_offset m c.head := by
    by_cases hp : pre = []
    · have := F.single hp
      rw [this.1]
      omega
    · have := F.multi hp
      have := F.term_len
      simp only [HEAD_BYTES, HEAD_PL_OFFSET] at *
      omega
  have hA : ∀ x, (x < struct_ptr c.head + 8 ∨ struct_ptr c.head + 18 ≤ x) →
      (x < struct_ptr last.idx + head_block.tail_byte_offset m c.head ∨
        struct_ptr last.idx + head_block.tail_byte_offset m c.head
          + (magic_bytes (d - lastDoc 0 c.posts) f).length ≤ x) →
      fit_mem m c.head d (d - lastDoc 0 c.posts) f x = m x := by
    intro x h1 h2
    apply fit_mem_out _ _ _ _ _ _ h1
    rw [F.tail]
    exact h2
  have hdis : struct_ptr (head_block.tail_block m c.head) + head_block.tail_byte_offset m c.head
      + (magic_bytes (d - lastDoc 0 c.posts) f).length ≤ struct_ptr c.head + 8 ∨
      struct_ptr c.head + 18 ≤ struct_ptr (head_block.tail_block m c.head)
        + head_block.tail_byte_offset m c.head := by
    rw [F.tail]
    simp only [HEAD_PL_OFFSET] at hregion
    omega
  obtain ⟨g1, g2, g3⟩ := fit_mem_fields m c.head d (d - lastDoc 0 c.posts) f hdis
  have hnew := fit_mem_holds m c.head d (d - lastDoc 0 c.posts) f (by omega)
  rw [F.tail] at hnew
  have hplen := PostsOK_length 0 c.posts F.posts
  have hpok := PostsOK_lastDoc_lt 0 c.posts F.posts (by norm_num)
  apply ChainRep_of
  · simp
  · exact F.term_len
  · exact F.term_ch
  · rw [hhead]
    refine Eq.trans (word_length_congr _ _ _ ?_) F.wl
    exact hA _ (by omega) (by simp only [HEAD_PL_OFFSET] at hregion; omega)
  · rw [hhead]
    apply holds_congr _ _ _ _ F.term
    intro a h1 h2
    exact hA _ (by simp only [HEAD_PL_OFFSET] at h1; omega) (by omega)
  · rw [hhead, hposts2, g1, F.df, List.length_append]
    simp only [List.length_singleton]
    omega
  · rw [hhead, hposts2, g2, lastDoc_append_singleton]
    omega
  · rw [hhead]
    refine Eq.trans (growth_offset_congr _ _ _ ?_) (F.growth.trans (by simp))
    exact hA _ (by omega) (by simp only [HEAD_PL_OFFSET] at hregion; omega)
  · rw [hhead]
    have ht2 : head_block.tail_block (fit_mem m c.head d (d - lastDoc 0 c.posts) f) c.head
        = head_block.tail_block m c.head := by
      apply tail_block_congr
      intro x h1 h2
      exact hA _ (by omega) (by simp only [HEAD_PL_OFFSET] at hregion; omega)
    rw [ht2, g3, Nat.mod_eq_of_lt (by omega)]
    show BlocksRep S _ _ _ 0 _ 0 0 (pre ++ [⟨last.idx, last.size, last.posts ++ [(d, f)]⟩])
    apply BlocksRep_update S hS m _ _ _ _ _ last
      ⟨last.idx, last.size, last.posts ++ [(d, f)]⟩ [] rfl pre 0 _ 0 0 F.rep
    · intro b rest' hp o ho hor
      have hb := F.before b (by rw [hp]; exact List.mem_cons_self _ _)
      have hsp := sp_le _ _ _ hb
      obtain ⟨h0, pre0, hp0, hh0⟩ := (F.multi (by rw [hp]; simp)).2.2
      rw [hp] at hp0
      cases hp0
      rw [hh0] at hsp ⊢
      exact hA _ (by simp only [HEAD_PL_OFFSET] at hor; omega) (by omega)
    · intro x hx o ho
      have hin := F.inner x hx
      have hb := F.before x (List.mem_of_mem_tail hx)
      have hsp := sp_le _ _ _ hb
      exact hA _ (by omega) (by omega)
    · intro b hb
      have := F.before b hb
      have := F.sizes b (by simp [hb])
      rw [F.tail]
      omega
    · intro start' base' h1 h2 h3
      have hld : lastDoc (lastDoc 0 (blockPosts pre)) last.posts = lastDoc 0 c.posts := by
        rw [hposts, lastDoc_append]
      have hst : 4 ≤ start' := by
        by_cases hp : pre = []
        · rw [(h1 hp).1]
          simp only [HEAD_PL_OFFSET]
          omega
        · rw [h2 hp]
          simp only [TT_PL_OFFSET]
          omega
      have := BlocksRep_fit S m (fit_mem m c.head d (d - lastDoc 0 c.posts) f) _ _ _ _ _ _
        last (d, f) h3 (by rw [hld]; exact ⟨hd, hd30, hf1, hf2⟩)
        (by
          intro hnil
          have hj := h3.2.1
          by_cases hp : pre = []
          · rw [(h1 hp).2, hp]
            rfl
          · exfalso
            apply hj _ hnil
            cases pre with
            | nil => exact absurd rfl hp
            | cons _ _ => simp)
        hst (by rw [hld]; exact hfit)
        (by
          intro o ho hor hw
          rw [hld] at hw
          dsimp only at hw
          apply hA _ _ (by omega)
          by_cases hp : pre = []
          · rw [(h1 hp).1] at hor
            rw [(F.single hp).1]
            simp only [HEAD_PL_OFFSET] at hor
            omega
          · have := (F.multi hp).1
            omega)
        (by rw [hld]; exact hnew)
      rw [hld] at this
      exact this

theorem ChainRep_grow (S : Nat → Nat) (hS : SlabsOK S) (m : Mem) (c : Chain) (pre : List Blk)
    (last : Blk) (F : ChainFacts S m c pre last) (hc : c.blocks = pre ++ [last])
    (d f : Nat) (hd : lastDoc 0 c.posts < d) (hd30 : d < 2 ^ 30) (hf1 : 1 ≤ f)
    (hf2 : f < 2 ^ 32) (nb : Nat) (hnb : ∀ b ∈ pre ++ [last], b.idx + b.size ≤ nb)
    (hnb32 : nb < 2 ^ 32) (hzero : ∀ a, struct_ptr nb ≤ a → m a = 0) :
    ChainRep S (grow_mem m c.head d f nb)
      ⟨c.term, pre ++ [last, ⟨nb, S (min (pre.length + 1) MAX_SLAB_IDX), [(d, f)]⟩]⟩ := by
  have hposts : c.posts = blockPosts pre ++ last.posts := by
    unfold Chain.posts
    rw [hc, blockPosts_append]
    simp [blockPosts]
  have hposts2 : (⟨c.term,
      pre ++ [last, ⟨nb, S (min (pre.length + 1) MAX_SLAB_IDX), [(d, f)]⟩]⟩ : Chain).posts
      = c.posts ++ [(d, f)] := by
    unfold Chain.posts
    rw [hc, blockPosts_append, blockPosts_append]
    simp [blockPosts]
  have hhead := head_append c.term c pre last last
    [⟨nb, S (min (pre.length + 1) MAX_SLAB_IDX), [(d, f)]⟩] hc rfl
  have hlast1 := F.sizes last (by simp)
  have hlast_nb := sp_le _ _ _ (hnb last (by simp))
  have hplen := PostsOK_length 0 c.posts F.posts
  have hpok := PostsOK_lastDoc_lt 0 c.posts F.posts (by norm_num)
  -- the head lies before the new slab
  have hnbh : struct_ptr c.head + 64 ≤ struct_ptr nb := by
    by_cases hp : pre = []
    · rw [← (F.single hp).1]
      simp only [BLOCK_SIZE] at hlast_nb
      omega
    · have := (F.multi hp).1
      simp only [BLOCK_SIZE] at hlast_nb
      omega
  have hprev : head_block.tail_block m c.head = c.head ∨
      (struct_ptr c.head + 64 ≤ struct_ptr (head_block.tail_block m c.head) ∧
        struct_ptr (head_block.tail_block m c.head) + 64 ≤ struct_ptr nb) := by
    rw [F.tail]
    by_cases hp : pre = []
    · exact Or.inl (F.single hp).1
    · refine Or.inr ⟨(F.multi hp).1, ?_⟩
      simp only [BLOCK_SIZE] at hlast_nb
      omega
  have hgap : grow_gap m c.head d = d - (if 0 + pre.length = 0 then 0 else firstDoc last) := by
    unfold grow_gap
    rw [F.tail]
    by_cases hp : pre = []
    · rw [if_pos (F.single hp).1, hp]
      rfl
    · have h1 := (F.multi hp).1
      have hne : last.idx ≠ c.head := by
        intro e
        rw [e] at h1
        omega
      have hl : 0 + pre.length ≠ 0 := by
        cases pre with
        | nil => exact absurd rfl hp
        | cons _ _ => simp
      rw [if_neg hne, if_neg hl, (F.tail_first hp).1]
      have hle := firstDoc_le_lastDoc (lastDoc 0 (blockPosts pre)) last
        (by
          have := F.posts
          rw [hposts, PostsOK_append] at this
          exact this.2) (F.tail_first hp).2
      rw [← lastDoc_append, ← hposts] at hle
      omega
  have hg255 : head_block.growth_offset m c.head ≤ 255 := by
    rw [F.growth]
    simp only [MAX_SLAB_IDX]
    omega
  obtain ⟨g1, g2, g3, g4, g5, g6, g7, g8⟩ := grow_mem_fields m c.head d f nb hnbh hprev hg255
    hnb32 (by omega)
  rw [F.tail] at g6
  rw [hgap] at g3 g8
  have hlen := magic_bytes_required_bounds (grow_gap m c.head d) f
  rw [← magic_bytes_length, hgap] at hlen
  have hA : ∀ x, (x < struct_ptr c.head + 4 ∨ struct_ptr c.head + 19 ≤ x) →
      (x < struct_ptr last.idx ∨ struct_ptr last.idx + 4 ≤ x) →
      (x < struct_ptr nb ∨ struct_ptr nb + 4
        + (magic_bytes (d - (if 0 + pre.length = 0 then 0 else firstDoc last)) f).length ≤ x) →
      grow_mem m c.head d f nb x = m x := by
    intro x h1 h2 h3
    apply grow_mem_out _ _ _ _ _ _ hnbh hprev h1
    · rw [F.tail]
      exact h2
    · rw [hgap]
      exact h3
  have hsingle : pre = [] → struct_ptr last.idx = struct_ptr c.head :=
    fun hp => congrArg struct_ptr (F.single hp).1
  apply ChainRep_of
  · simp
  · exact F.term_len
  · exact F.term_ch
  · rw [hhead]
    refine Eq.trans (word_length_congr _ _ _ ?_) F.wl
    apply hA _ (by omega) _ (by omega)
    by_cases hp : pre = []
    · have := hsingle hp
      omega
    · have := (F.multi hp).1
      omega
  · rw [hhead]
    apply holds_congr _ _ _ _ F.term
    intro a h1 h2
    simp only [HEAD_PL_OFFSET] at h1 h2
    have := F.term_len
    simp only [HEAD_BYTES] at this
    apply hA _ (by omega) _ (by omega)
    by_cases hp : pre = []
    · have := hsingle hp
      omega
    · have := (F.multi hp).1
      omega
  · rw [hhead, hposts2, g1, F.df, List.length_append]
    simp only [List.length_singleton]
    omega
  · rw [hhead, hposts2, g2, lastDoc_append_singleton]
  · rw [hhead, g4, F.growth]
    simp only [MAX_SLAB_IDX, List.length_append, List.length_cons, List.length_nil]
    omega
  · rw [hhead, g5, g3]
    show BlocksRep S _ _ _ 0 _ 0 0
      (pre ++ last :: [⟨nb, S (min (pre.length + 1) MAX_SLAB_IDX), [(d, f)]⟩])
    apply BlocksRep_update S hS m _ _ _ _ _ last last
      [⟨nb, S (min (pre.length + 1) MAX_SLAB_IDX), [(d, f)]⟩] rfl pre 0 _ 0 0 F.rep
    · intro b rest' hp o ho hor
      have hb := F.before b (by rw [hp]; exact List.mem_cons_self _ _)
      have hsp := sp_le _ _ _ hb
      obtain ⟨h0, pre0, hp0, hh0⟩ := (F.multi (by rw [hp]; simp)).2.2
      rw [hp] at hp0
      cases hp0
      rw [hh0] at hsp ⊢
      simp only [HEAD_PL_OFFSET] at hor
      exact hA _ (by omega) (by omega) (by omega)
    · intro x hx o ho
      have hin := F.inner x hx
      have hb := F.before x (List.mem_of_mem_tail hx)
      have hsp := sp_le _ _ _ hb
      exact hA _ (by omega) (by omega) (by omega)
    · intro b hb
      have := hnb b (by simp [hb])
      have := F.sizes b (by simp [hb])
      omega
    · intro start' base' h1 h2 h3
      have hld : lastDoc (lastDoc 0 (blockPosts pre)) last.posts = lastDoc 0 c.posts := by
        rw [hposts, lastDoc_append]
      have := BlocksRep_grow S hS m (grow_mem m c.head d f nb) _ _ _ _ _ _ last
        ⟨nb, S (min (pre.length + 1) MAX_SLAB_IDX), [(d, f)]⟩ (d, f) h3
        (by rw [hld]; exact ⟨hd, hd30, hf1, hf2⟩)
        (by simp only; rw [Nat.zero_add]) rfl
        (by
          intro o ho hst
          by_cases hp : pre = []
          · rw [(h1 hp).1] at hst
            have := hsingle hp
            simp only [HEAD_PL_OFFSET] at hst
            exact hA _ (by omega) (by omega) (by omega)
          · rw [h2 hp] at hst
            have := (F.multi hp).1
            simp only [TT_PL_OFFSET] at hst
            exact hA _ (by omega) (by omega) (by omega))
        g6
        (by
          have := hnb last (by simp)
          show last.idx ≠ nb
          omega)
        g7 g8
        (by
          intro o ho1 ho2
          dsimp only at ho1 ho2 ⊢
          have hz := hzero (struct_ptr nb + o) (by omega)
          rw [← hz]
          apply hA _ (by omega) (by omega) (by omega))
      exact this

section
open immediate_index

theorem ChainRep_frame (S : Nat → Nat) (hS : SlabsOK S) (m m2 : Mem) (c : Chain)
    (h : ChainRep S m c)
    (hx : ∀ b ∈ c.blocks, ∀ o, o < BLOCK_SIZE * b.size →
      m2 (struct_ptr b.idx + o) = m (struct_ptr b.idx + o)) : ChainRep S m2 c := by
  unfold ChainRep at h ⊢
  cases hb : c.blocks with
  | nil => rw [hb] at h; exact h.elim
  | cons hd rest =>
    rw [hb] at h hx
    simp only at h ⊢
    obtain ⟨htl, htc, hwl, hterm, hdf, hrec, hgr, hbr⟩ := h
    have hsz := BlocksRep_size_pos _ hS _ _ _ _ _ _ _ _ hbr
    have h1 := hsz hd (List.mem_cons_self _ _)
    have hh : ∀ x, struct_ptr hd.idx ≤ x → x < struct_ptr hd.idx + 64 → m2 x = m x := by
      intro x hx1 hx2
      have := hx hd (List.mem_cons_self _ _) (x - struct_ptr hd.idx)
        (by simp only [BLOCK_SIZE]; omega)
      rw [show struct_ptr hd.idx + (x - struct_ptr hd.idx) = x by omega] at this
      exact this
    have e1 : head_block.tail_block m2 hd.idx = head_block.tail_block m hd.idx :=
      tail_block_congr _ _ _ (fun x a b => hh x (by omega) (by omega))
    have e2 : head_block.tail_byte_offset m2 hd.idx = head_block.tail_byte_offset m hd.idx :=
      tail_byte_offset_congr _ _ _ (fun x a b => hh x (by omega) (by omega))
    refine ⟨htl, htc, ?_, ?_, ?_, ?_, ?_, ?_⟩
    · exact (word_length_congr _ _ _ (hh _ (by omega) (by omega))).trans hwl
    · apply holds_congr _ _ _ _ hterm
      intro a ha1 ha2
      simp only [HEAD_PL_OFFSET, HEAD_BYTES] at ha1 ha2 htl
      exact hh a (by omega) (by omega)
    · exact (doc_freq_congr _ _ _ (fun x a b => hh x (by omega) (by omega))).trans hdf
    · exact (recent_docid_congr _ _ _ (fun x a b => hh x (by omega) (by omega))).trans hrec
    · exact (growth_offset_congr _ _ _ (hh _ (by omega) (by omega))).trans hgr
    · rw [e1, e2]
      exact BlocksRep_frame S m m2 _ _ _ _ _ _ _ hbr hsz hx

theorem ChainRep_new (S : Nat → Nat) (hS : SlabsOK S) (m : Mem) (t : List Nat) (nb : Nat)
    (htl : t.length ≤ HEAD_BYTES) (htc : ∀ x ∈ t, x < 256) (hnb : nb < 2 ^ 32)
    (hzero : ∀ a, struct_ptr nb ≤ a → m a = 0) :
    ChainRep S (head_block.init m nb t nb) ⟨t, [⟨nb, S 0, []⟩]⟩ := by
  simp only [HEAD_BYTES] at htl
  obtain ⟨g1, g2, g3, g4, g5, g6, g7, g8⟩ := init_fields m nb t htl htc hnb
  have hS0 := hS 0
  apply ChainRep_of
  · simp
  · exact htl
  · exact htc
  · exact g7
  · exact g8
  · exact g3
  · exact g4
  · rw [show (⟨t, [⟨nb, S 0, []⟩]⟩ : Chain).head = nb from rfl, g6]
    rfl
  · show BlocksRep S _ (head_block.tail_block _ nb) (head_block.tail_byte_offset _ nb) 0
      (HEAD_PL_OFFSET + t.length) 0 0 [⟨nb, S 0, []⟩]
    rw [g2, g5, BlocksRep_cons]
    refine ⟨rfl, fun hh => absurd hh (by omega), Nat.le_refl _, trivial, ?_, ?_, trivial⟩
    · show Seg _ (struct_ptr nb) (HEAD_PL_OFFSET + t.length) (BLOCK_SIZE * S 0) 0 []
      refine ⟨holds_nil _ _, ?_, ?_⟩
      · simp only [enc_posts, List.length_nil, HEAD_PL_OFFSET, BLOCK_SIZE] at *
        omega
      · intro o ho1 ho2
        simp only [enc_posts, List.length_nil, HEAD_PL_OFFSET] at ho1
        rw [init_out _ _ _ _ (by omega)]
        exact hzero _ (by omega)
    · exact ⟨fun hh => absurd hh (by omega), fun _ => g1, rfl, by simp [enc_posts, HEAD_PL_OFFSET]⟩

theorem ProbePath_mono (hash : List Nat → Nat) (idx idx2 : immediate_index) (t : List Nat)
    (s : Nat) (hsz : idx2.m_term_offsets_size = idx.m_term_offsets_size)
    (hd : ∀ x, idx.m_term_offsets x ≠ END_CHAIN → idx2.m_term_offsets x ≠ END_CHAIN)
    (h : ProbePath hash idx t s) : ProbePath hash idx2 t s := by
  obtain ⟨k, hk, hs, hp⟩ := h
  have e : idx2.term_to_offset hash t = idx.term_to_offset hash t := by
    unfold term_to_offset
    rw [hsz]
  refine ⟨k, by rw [hsz]; exact hk, by rw [hsz, e]; exact hs, ?_⟩
  intro j hj
  rw [hsz, e]
  exact hd _ (hp j hj)

theorem sp_range (b o ne : Nat) (k : Nat) (ho : o < BLOCK_SIZE * k) (hb : b + k ≤ ne) :
    struct_ptr b + o < BLOCK_SIZE * ne := by
  have := sp_le b k ne hb
  unfold struct_ptr at *
  simp only [BLOCK_SIZE] at *
  omega

/-- The invariant survives an update confined to the blocks of one chain and to the
blocks granted meanwhile. -/
theorem inv_update (hash : List Nat → Nat) (idx : immediate_index)
    (chains : Nat → Option Chain) (inv : IndexInv hash idx chains) (s : Nat) (c : Chain)
    (hc : chains s = some c) (idx' : immediate_index) (c' : Chain)
    (hslab : idx'.m_slab_size = idx.m_slab_size)
    (hdir : idx'.m_term_offsets = idx.m_term_offsets)
    (hsz : idx'.m_term_offsets_size = idx.m_term_offsets_size)
    (hds : idx'.m_data_size = idx.m_data_size)
    (hne : idx.m_next_empty ≤ idx'.m_next_empty)
    (hne2 : idx'.m_next_empty = 0 ∨ idx'.m_next_empty < idx'.m_data_size)
    (hterm : c'.term = c.term) (hhead : c'.head = c.head)
    (hrep : ChainRep idx.m_slab_size idx'.m_data c')
    (hblocks : ∀ b' ∈ c'.blocks, (∃ b ∈ c.blocks, b.idx = b'.idx ∧ b.size = b'.size) ∨
      (idx.m_next_empty ≤ b'.idx ∧ b'.idx + b'.size ≤ idx'.m_next_empty))
    (hord : c'.blocks.Pairwise (fun b1 b2 => b1.idx + b1.size ≤ b2.idx))
    (hframe : ∀ x, (∀ b ∈ c.blocks, x < struct_ptr b.idx ∨
        struct_ptr b.idx + BLOCK_SIZE * b.size ≤ x) →
      (x < BLOCK_SIZE * idx.m_next_empty ∨ BLOCK_SIZE * idx'.m_next_empty ≤ x) →
      idx'.m_data x = idx.m_data x) :
    IndexInv hash idx' (Function.update chains s (some c')) := by
  have hbound' : ∀ b' ∈ c'.blocks, b'.idx + b'.size ≤ idx'.m_next_empty := by
    intro b' hb'
    rcases hblocks b' hb' with ⟨b, hb, e1, e2⟩ | h
    · have := inv.bound s c b hc hb
      omega
    · exact h.2
  have hdisj' : ∀ s2 c2 b' b2, s2 ≠ s → chains s2 = some c2 → b' ∈ c'.blocks → b2 ∈ c2.blocks →
      b'.idx + b'.size ≤ b2.idx ∨ b2.idx + b2.size ≤ b'.idx := by
    intro s2 c2 b' b2 hs2 hc2 hb' hb2
    rcases hblocks b' hb' with ⟨b, hb, e1, e2⟩ | h
    · have := inv.disj s s2 c c2 b b2 hc hc2 (Ne.symm hs2) hb hb2
      omega
    · have := inv.bound s2 c2 b2 hc2 hb2
      omega
  constructor
  · rw [hslab]
    exact inv.slabs
  · rw [hsz]
    exact inv.hsize
  · rw [hds]
    exact inv.dsize
  · exact hne2
  · intro s2 h2 hlt
    by_cases hs : s2 = s
    · subst hs
      simp at h2
    · rw [Function.update_noteq hs] at h2
      rw [hdir]
      exact inv.dir_none s2 h2 (by rw [← hsz]; exact hlt)
  · intro s2 hle
    by_cases hs : s2 = s
    · subst hs
      have := inv.dir_out s2 (by rw [← hsz]; exact hle)
      rw [hc] at this
      cases this
    · rw [Function.update_noteq hs]
      exact inv.dir_out s2 (by rw [← hsz]; exact hle)
  · intro s2 c2 h2
    rw [hdir]
    by_cases hs : s2 = s
    · subst hs
      simp only [Function.update_same, Option.some.injEq] at h2
      subst h2
      rw [hhead]
      exact inv.dir_some s2 c hc
    · rw [Function.update_noteq hs] at h2
      exact inv.dir_some s2 c2 h2
  · intro s2 c2 h2
    rw [hslab]
    by_cases hs : s2 = s
    · subst hs
      simp only [Function.update_same, Option.some.injEq] at h2
      subst h2
      exact hrep
    · rw [Function.update_noteq hs] at h2
      apply ChainRep_frame _ inv.slabs _ _ _ (inv.rep s2 c2 h2)
      intro b hb o ho
      apply hframe
      · intro bc hbc
        have := inv.disj s2 s c2 c b bc h2 hc hs hb hbc
        rcases this with h | h
        · have := sp_le _ _ _ h
          omega
        · have := sp_le _ _ _ h
          omega
      · exact Or.inl (sp_range _ _ _ _ ho (inv.bound s2 c2 b h2 hb))
  · intro s2 c2 b h2 hb
    by_cases hs : s2 = s
    · subst hs
      simp only [Function.update_same, Option.some.injEq] at h2
      subst h2
      exact hbound' b hb
    · rw [Function.update_noteq hs] at h2
      have := inv.bound s2 c2 b h2 hb
      omega
  · intro s1 s2 c1 c2 b1 b2 h1 h2 hne12 hb1 hb2
    by_cases hs1 : s1 = s
    · subst hs1
      simp only [Function.update_same, Option.some.injEq] at h1
      subst h1
      rw [Function.update_noteq (Ne.symm hne12)] at h2
      exact hdisj' s2 c2 b1 b2 (Ne.symm hne12) h2 hb1 hb2
    · rw [Function.update_noteq hs1] at h1
      by_cases hs2 : s2 = s
      · subst hs2
        simp only [Function.update_same, Option.some.injEq] at h2
        subst h2
        exact (hdisj' s1 c1 b2 b1 hs1 h1 hb2 hb1).symm
      · rw [Function.update_noteq hs2] at h2
        exact inv.disj s1 s2 c1 c2 b1 b2 h1 h2 hne12 hb1 hb2
  · intro s2 c2 h2
    by_cases hs : s2 = s
    · subst hs
      simp only [Function.update_same, Option.some.injEq] at h2
      subst h2
      exact hord
    · rw [Function.update_noteq hs] at h2
      exact inv.ordered s2 c2 h2
  · intro a ha
    rw [hframe a _ (Or.inr ha)]
    · apply inv.zero
      have := Nat.mul_le_mul_left BLOCK_SIZE hne
      omega
    · intro b hb
      have h1 := sp_le _ _ _ (inv.bound s c b hc hb)
      have h2 := Nat.mul_le_mul_left BLOCK_SIZE hne
      have h3 : struct_ptr idx.m_next_empty = BLOCK_SIZE * idx.m_next_empty := by
        unfold struct_ptr
        exact Nat.mul_comm _ _
      right
      omega
  · intro s2 c2 h2
    have hp : ∀ t s3, ProbePath hash idx t s3 → ProbePath hash idx' t s3 :=
      fun t s3 => ProbePath_mono hash idx idx' t s3 hsz (by rw [hdir]; exact fun _ h => h)
    by_cases hs : s2 = s
    · subst hs
      simp only [Function.update_same, Option.some.injEq] at h2
      subst h2
      rw [hterm]
      exact hp _ _ (inv.probe s2 c hc)
    · rw [Function.update_noteq hs] at h2
      exact hp _ _ (inv.probe s2 c2 h2)
  · intro s1 s2 c1 c2 h1 h2 ht
    have key : ∀ sa ca, Function.update chains s (some c') sa = some ca →
        ∃ cb, chains sa = some cb ∧ cb.term = ca.term := by
      intro sa ca ha
      by_cases hs : sa = s
      · subst hs
        simp only [Function.update_same, Option.some.injEq] at ha
        subst ha
        exact ⟨c, hc, hterm.symm⟩
      · rw [Function.update_noteq hs] at ha
        exact ⟨ca, ha, rfl⟩
    obtain ⟨d1, hd1, e1⟩ := key s1 c1 h1
    obtain ⟨d2, hd2, e2⟩ := key s2 c2 h2
    exact inv.distinct s1 s2 d1 d2 hd1 hd2 (by rw [e1, e2, ht])

end

section
open immediate_index

theorem insert_posting_full (idx : immediate_index) (h docid freq : Nat)
    (hfit : ¬ head_block.tail_byte_offset idx.m_data h
        + magic_bytes_required
          ((docid + 2 ^ 32 - head_block.recent_docid idx.m_data h) % 2 ^ 32) freq
      ≤ BLOCK_SIZE * idx.m_slab_size (head_block.growth_offset idx.m_data h))
    (k : Nat)
    (hk : k = idx.m_slab_size
      (head_block.growth_offset
        (head_block.increment_growth_offset (head_upd idx.m_data h docid) h) h) % 2 ^ 32)
    (hroom : ¬ idx.m_next_empty + k < idx.m_data_size) :
    idx.insert_posting h docid freq = none := by
  obtain ⟨e1, e2, e3, _, _⟩ := head_upd_fields idx.m_data h docid
  unfold head_upd at e1 e2 e3 hk
  unfold insert_posting
  simp only [head_block.increment_doc_freq, head_block.set_recent_docid, e1, e2, e3]
  rw [if_neg hfit]
  simp only [next_free_slot, ← hk, if_pos (Nat.not_lt.1 hroom)]

theorem chain_blocks_snoc (S : Nat → Nat) (m : Mem) (c : Chain) (h : ChainRep S m c) :
    ∃ pre last, c.blocks = pre ++ [last] := by
  have hne : c.blocks ≠ [] := by
    intro e
    unfold ChainRep at h
    rw [e] at h
    exact h
  exact ⟨c.blocks.dropLast, c.blocks.getLast hne, (List.dropLast_append_getLast hne).symm⟩

theorem head_mem (c : Chain) (hne : c.blocks ≠ []) :
    ∃ b ∈ c.blocks, b.idx = c.head := by
  unfold Chain.head
  cases hb : c.blocks with
  | nil => exact absurd hb hne
  | cons b rest => exact ⟨b, List.mem_cons_self _ _, rfl⟩

theorem gap_eq (d r : Nat) (h : r < d) (hd : d < 2 ^ 30) :
    (d + 2 ^ 32 - r) % 2 ^ 32 = d - r := by
  omega

theorem inv_fit (hash : List Nat → Nat) (idx : immediate_index)
    (chains : Nat → Option Chain) (inv : IndexInv hash idx chains) (s : Nat) (c : Chain)
    (hc : chains s = some c) (pre : List Blk) (last : Blk) (hcb : c.blocks = pre ++ [last])
    (d f : Nat) (hd : lastDoc 0 c.posts < d) (hd30 : d < 2 ^ 30) (hf1 : 1 ≤ f)
    (hf2 : f < 2 ^ 32)
    (hfit : head_block.tail_byte_offset idx.m_data c.head
      + (magic_bytes (d - lastDoc 0 c.posts) f).length ≤ BLOCK_SIZE * last.size) :
    IndexInv hash
      { idx with m_data := fit_mem idx.m_data c.head d (d - lastDoc 0 c.posts) f }
      (Function.update chains s
        (some ⟨c.term, pre ++ [⟨last.idx, last.size, last.posts ++ [(d, f)]⟩]⟩)) := by
  have F := chain_facts _ inv.slabs _ c pre last hcb (inv.rep s c hc) (inv.ordered s c hc)
  have hord := inv.ordered s c hc
  rw [hcb] at hord
  refine inv_update hash idx chains inv s c hc
    { idx with m_data := fit_mem idx.m_data c.head d (d - lastDoc 0 c.posts) f }
    ⟨c.term, pre ++ [⟨last.idx, last.size, last.posts ++ [(d, f)]⟩]⟩
    rfl rfl rfl rfl (Nat.le_refl _) inv.ne_lt rfl ?_ ?_ ?_ ?_ ?_
  · exact head_append _ c pre last _ [] hcb rfl
  · exact ChainRep_fit _ inv.slabs _ c pre last F hcb d f hd hd30 hf1 hf2 hfit
  · intro b' hb'
    left
    rw [hcb]
    simp only [List.mem_append, List.mem_singleton] at hb' ⊢
    rcases hb' with h | h
    · exact ⟨b', Or.inl h, rfl, rfl⟩
    · subst h
      exact ⟨last, Or.inr rfl, rfl, rfl⟩
  · rw [List.pairwise_append] at hord ⊢
    refine ⟨hord.1, List.pairwise_singleton _ _, ?_⟩
    intro a ha b hb
    simp only [List.mem_singleton] at hb
    subst hb
    exact hord.2.2 a ha last (List.mem_singleton.2 rfl)
  · intro x hx _
    obtain ⟨hb, hbm, hbi⟩ := head_mem c (by rw [hcb]; simp)
    have h1 := hx hb hbm
    have hs1 := F.sizes hb (by rw [← hcb]; exact hbm)
    have h2 := hx last (by rw [hcb]; simp)
    rw [hbi] at h1
    show fit_mem idx.m_data c.head d (d - lastDoc 0 c.posts) f x = idx.m_data x
    apply fit_mem_out
    · simp only [BLOCK_SIZE] at h1
      omega
    · rw [F.tail]
      omega

theorem inv_grow (hash : List Nat → Nat) (idx : immediate_index)
    (chains : Nat → Option Chain) (inv : IndexInv hash idx chains) (s : Nat) (c : Chain)
    (hc : chains s = some c) (pre : List Blk) (last : Blk) (hcb : c.blocks = pre ++ [last])
    (d f : Nat) (hd : lastDoc 0 c.posts < d) (hd30 : d < 2 ^ 30) (hf1 : 1 ≤ f)
    (hf2 : f < 2 ^ 32) (k : Nat)
    (hk : k = idx.m_slab_size (min (pre.length + 1) MAX_SLAB_IDX))
    (hroom : idx.m_next_empty + k < idx.m_data_size) :
    IndexInv hash
      { idx with
        m_next_empty := idx.m_next_empty + k
        m_data := grow_mem idx.m_data c.head d f idx.m_next_empty }
      (Function.update chains s
        (some ⟨c.term, pre ++ [last, ⟨idx.m_next_empty,
          idx.m_slab_size (min (pre.length + 1) MAX_SLAB_IDX), [(d, f)]⟩]⟩)) := by
  have F := chain_facts _ inv.slabs _ c pre last hcb (inv.rep s c hc) (inv.ordered s c hc)
  have hord := inv.ordered s c hc
  rw [hcb] at hord
  have hbound : ∀ b ∈ pre ++ [last], b.idx + b.size ≤ idx.m_next_empty := by
    intro b hb
    exact inv.bound s c b hc (by rw [hcb]; exact hb)
  have hdsz := inv.dsize
  have hsp : struct_ptr idx.m_next_empty = BLOCK_SIZE * idx.m_next_empty := by
    unfold struct_ptr
    exact Nat.mul_comm _ _
  refine inv_update hash idx chains inv s c hc
    { idx with
      m_next_empty := idx.m_next_empty + k
      m_data := grow_mem idx.m_data c.head d f idx.m_next_empty }
    ⟨c.term, pre ++ [last, ⟨idx.m_next_empty,
      idx.m_slab_size (min (pre.length + 1) MAX_SLAB_IDX), [(d, f)]⟩]⟩
    rfl rfl rfl rfl (Nat.le_add_right _ _) (Or.inr hroom) rfl ?_ ?_ ?_ ?_ ?_
  · exact head_append _ c pre last last _ hcb rfl
  · apply ChainRep_grow _ inv.slabs _ c pre last F hcb d f hd hd30 hf1 hf2 _ hbound
    · omega
    · intro a ha
      apply inv.zero
      omega
  · intro b' hb'
    rw [hcb]
    simp only [List.mem_append, List.mem_cons, List.mem_singleton, List.not_mem_nil,
      or_false] at hb' ⊢
    rcases hb' with h | h | h
    · exact Or.inl ⟨b', Or.inl h, rfl, rfl⟩
    · exact Or.inl ⟨b', Or.inr h, rfl, rfl⟩
    · subst h
      right
      show idx.m_next_empty ≤ idx.m_next_empty ∧
        idx.m_next_empty + idx.m_slab_size (min (pre.length + 1) MAX_SLAB_IDX)
          ≤ idx.m_next_empty + k
      omega
  · rw [show pre ++ [last, (⟨idx.m_next_empty,
        idx.m_slab_size (min (pre.length + 1) MAX_SLAB_IDX), [(d, f)]⟩ : Blk)]
      = (pre ++ [last]) ++ [⟨idx.m_next_empty,
        idx.m_slab_size (min (pre.length + 1) MAX_SLAB_IDX), [(d, f)]⟩] by simp]
    rw [List.pairwise_append]
    refine ⟨hord, List.pairwise_singleton _ _, ?_⟩
    intro a ha b hb
    simp only [List.mem_singleton] at hb
    subst hb
    exact hbound a ha
  · intro x hx hx2
    obtain ⟨hb, hbm, hbi⟩ := head_mem c (by rw [hcb]; simp)
    have h1 := hx hb hbm
    have hs1 := F.sizes hb (by rw [← hcb]; exact hbm)
    have hb1 := sp_le _ _ _ (hbound hb (by rw [← hcb]; exact hbm))
    have h2 := hx last (by rw [hcb]; simp)
    have hs2 := F.sizes last (by simp)
    have hb2 := sp_le _ _ _ (hbound last (by simp))
    have hk1 := (inv.slabs (min (pre.length + 1) MAX_SLAB_IDX)).1
    have hlen := (magic_bytes_required_bounds (grow_gap idx.m_data c.head d) f).2
    rw [← magic_bytes_length] at hlen
    rw [hbi] at h1 hb1
    show grow_mem idx.m_data c.head d f idx.m_next_empty x = idx.m_data x
    simp only [BLOCK_SIZE] at h1 h2 hb1 hb2 hx2 hsp
    apply grow_mem_out
    · omega
    · rw [F.tail]
      by_cases hp : pre = []
      · exact Or.inl (F.single hp).1
      · right
        have := (F.multi hp).1
        omega
    · omega
    · rw [F.tail]
      omega
    · show x < struct_ptr idx.m_next_empty ∨ _
      rw [Nat.mul_add] at hx2
      omega

theorem inv_insert_posting (hash : List Nat → Nat) (idx : immediate_index)
    (chains : Nat → Option Chain) (inv : IndexInv hash idx chains) (s : Nat) (c : Chain)
    (hc : chains s = some c) (d f : Nat) (hd : lastDoc 0 c.posts < d) (hd30 : d < 2 ^ 30)
    (hf1 : 1 ≤ f) (hf2 : f < 2 ^ 32) (idx' : immediate_index)
    (h : idx.insert_posting c.head d f = some idx') :
    ∃ c', c'.term = c.term ∧ c'.posts = c.posts ++ [(d, f)] ∧
      IndexInv hash idx' (Function.update chains s (some c')) := by
  obtain ⟨pre, last, hcb⟩ := chain_blocks_snoc _ _ c (inv.rep s c hc)
  have F := chain_facts _ inv.slabs _ c pre last hcb (inv.rep s c hc) (inv.ordered s c hc)
  have hgap : (d + 2 ^ 32 - head_block.recent_docid idx.m_data c.head) % 2 ^ 32
      = d - lastDoc 0 c.posts := by
    rw [F.recent]
    exact gap_eq _ _ hd hd30
  have hposts : c.posts = blockPosts pre ++ last.posts := by
    unfold Chain.posts
    rw [hcb, blockPosts_append]
    simp [blockPosts]
  by_cases hfit : head_block.tail_byte_offset idx.m_data c.head
        + magic_bytes_required
          ((d + 2 ^ 32 - head_block.recent_docid idx.m_data c.head) % 2 ^ 32) f
      ≤ BLOCK_SIZE * idx.m_slab_size (head_block.growth_offset idx.m_data c.head)
  · rw [insert_posting_fit idx c.head d f hfit, hgap] at h
    rw [hgap, F.growth, ← F.size, ← magic_bytes_length] at hfit
    cases h
    refine ⟨⟨c.term, pre ++ [⟨last.idx, last.size, last.posts ++ [(d, f)]⟩]⟩, rfl, ?_,
      inv_fit hash idx chains inv s c hc pre last hcb d f hd hd30 hf1 hf2 hfit⟩
    rw [hposts]
    unfold Chain.posts
    rw [blockPosts_append]
    simp [blockPosts]
  · have hg : head_block.growth_offset
          (head_block.increment_growth_offset (head_upd idx.m_data c.head d) c.head) c.head
        = min (pre.length + 1) MAX_SLAB_IDX := by
      have e : head_block.growth_offset (head_upd idx.m_data c.head d) c.head
          = head_block.growth_offset idx.m_data c.head := by
        apply growth_offset_congr
        exact head_upd_out _ _ _ _ (by omega)
      rw [incr_growth_val _ _ (by rw [e, F.growth]; simp only [MAX_SLAB_IDX]; omega), e,
        F.growth]
      simp only [MAX_SLAB_IDX]
      omega
    have hk1 := (inv.slabs (min (pre.length + 1) MAX_SLAB_IDX))
    have hkm : idx.m_slab_size (min (pre.length + 1) MAX_SLAB_IDX) % 2 ^ 32
        = idx.m_slab_size (min (pre.length + 1) MAX_SLAB_IDX) := by
      apply Nat.mod_eq_of_lt
      simp only [BLOCK_SIZE] at hk1
      omega
    by_cases hroom : idx.m_next_empty
        + idx.m_slab_size (min (pre.length + 1) MAX_SLAB_IDX) < idx.m_data_size
    · rw [insert_posting_grow idx c.head d f hfit _ (by rw [hg, hkm]) hroom] at h
      have hne : idx.m_next_empty % 2 ^ 32 = idx.m_next_empty := by
        apply Nat.mod_eq_of_lt
        have := inv.dsize
        omega
      rw [hne] at h
      cases h
      refine ⟨⟨c.term, pre ++ [last, ⟨idx.m_next_empty,
          idx.m_slab_size (min (pre.length + 1) MAX_SLAB_IDX), [(d, f)]⟩]⟩, rfl, ?_,
        inv_grow hash idx chains inv s c hc pre last hcb d f hd hd30 hf1 hf2 _ rfl hroom⟩
      rw [hposts]
      unfold Chain.posts
      rw [blockPosts_append]
      simp [blockPosts]
    · rw [insert_posting_full idx c.head d f hfit _ (by rw [hg, hkm]) hroom] at h
      cases h

theorem inv_new_head (hash : List Nat → Nat) (idx : immediate_index)
    (chains : Nat → Option Chain) (inv : IndexInv hash idx chains) (t : List Nat)
    (htl : t.length ≤ HEAD_BYTES) (htc : ∀ x ∈ t, x < 256)
    (habs : ∀ s c, chains s = some c → c.term ≠ t) (e : Nat)
    (he : idx.m_term_offsets e = END_CHAIN) (heH : e < idx.m_term_offsets_size)
    (hce : chains e = none) (hpath : ProbePath hash idx t e)
    (hroom : idx.m_next_empty + idx.m_slab_size 0 < idx.m_data_size) :
    IndexInv hash
      { idx with
        m_next_empty := idx.m_next_empty + idx.m_slab_size 0
        m_term_offsets := Function.update idx.m_term_offsets e idx.m_next_empty
        m_data := head_block.init idx.m_data idx.m_next_empty t idx.m_next_empty }
      (Function.update chains e (some ⟨t, [⟨idx.m_next_empty, idx.m_slab_size 0, []⟩]⟩)) := by
  have hsp : struct_ptr idx.m_next_empty = BLOCK_SIZE * idx.m_next_empty := by
    unfold struct_ptr
    exact Nat.mul_comm _ _
  have hdsz := inv.dsize
  have hS0 := inv.slabs 0
  have hzero : ∀ a, struct_ptr idx.m_next_empty ≤ a → idx.m_data a = 0 := by
    intro a ha
    apply inv.zero
    omega
  have hother : ∀ s2 c2 b, chains s2 = some c2 → b ∈ c2.blocks → ∀ o, o < BLOCK_SIZE * b.size →
      head_block.init idx.m_data idx.m_next_empty t idx.m_next_empty (struct_ptr b.idx + o)
        = idx.m_data (struct_ptr b.idx + o) := by
    intro s2 c2 b h2 hb o ho
    apply init_out
    left
    have := sp_range _ _ _ _ ho (inv.bound s2 c2 b h2 hb)
    omega
  constructor
  · exact inv.slabs
  · exact inv.hsize
  · exact inv.dsize
  · exact Or.inr hroom
  · intro s2 h2 hlt
    by_cases hs : s2 = e
    · subst hs
      simp at h2
    · rw [Function.update_noteq hs] at h2
      show Function.update idx.m_term_offsets e idx.m_next_empty s2 = END_CHAIN
      rw [Function.update_noteq hs]
      exact inv.dir_none s2 h2 hlt
  · intro s2 hle
    have hs : s2 ≠ e := by
      intro e1
      subst e1
      exact absurd heH (Nat.not_lt.2 hle)
    rw [Function.update_noteq hs]
    exact inv.dir_out s2 hle
  · intro s2 c2 h2
    show Function.update idx.m_term_offsets e idx.m_next_empty s2 = c2.head
    by_cases hs : s2 = e
    · subst hs
      simp only [Function.update_same, Option.some.injEq] at h2
      subst h2
      rw [Function.update_same]
      rfl
    · rw [Function.update_noteq hs] at h2 ⊢
      exact inv.dir_some s2 c2 h2
  · intro s2 c2 h2
    by_cases hs : s2 = e
    · subst hs
      simp only [Function.update_same, Option.some.injEq] at h2
      subst h2
      exact ChainRep_new _ inv.slabs _ t _ htl htc (by omega) hzero
    · rw [Function.update_noteq hs] at h2
      exact ChainRep_frame _ inv.slabs _ _ _ (inv.rep s2 c2 h2)
        (fun b hb o ho => hother s2 c2 b h2 hb o ho)
  · intro s2 c2 b h2 hb
    show b.idx + b.size ≤ idx.m_next_empty + idx.m_slab_size 0
    by_cases hs : s2 = e
    · subst hs
      simp only [Function.update_same, Option.some.injEq] at h2
      subst h2
      simp only [List.mem_singleton] at hb
      subst hb
      exact Nat.le_refl _
    · rw [Function.update_noteq hs] at h2
      have := inv.bound s2 c2 b h2 hb
      omega
  · intro s1 s2 c1 c2 b1 b2 h1 h2 hne12 hb1 hb2
    by_cases hs1 : s1 = e
    · subst hs1
      simp only [Function.update_same, Option.some.injEq] at h1
      subst h1
      rw [Function.update_noteq (Ne.symm hne12)] at h2
      simp only [List.mem_singleton] at hb1
      subst hb1
      right
      exact inv.bound s2 c2 b2 h2 hb2
    · rw [Function.update_noteq hs1] at h1
      by_cases hs2 : s2 = e
      · subst hs2
        simp only [Function.update_same, Option.some.injEq] at h2
        subst h2
        simp only [List.mem_singleton] at hb2
        subst hb2
        left
        exact inv.bound s1 c1 b1 h1 hb1
      · rw [Function.update_noteq hs2] at h2
        exact inv.disj s1 s2 c1 c2 b1 b2 h1 h2 hne12 hb1 hb2
  · intro s2 c2 h2
    by_cases hs : s2 = e
    · subst hs
      simp only [Function.update_same, Option.some.injEq] at h2
      subst h2
      exact List.pairwise_singleton _ _
    · rw [Function.update_noteq hs] at h2
      exact inv.ordered s2 c2 h2
  · intro a ha
    show head_block.init idx.m_data idx.m_next_empty t idx.m_next_empty a = 0
    have ha2 : BLOCK_SIZE * (idx.m_next_empty + idx.m_slab_size 0) ≤ a := ha
    rw [Nat.mul_add] at ha2
    simp only [HEAD_BYTES, BLOCK_SIZE] at htl ha2 hsp hS0
    rw [init_out _ _ _ _ (by omega)]
    apply inv.zero
    simp only [BLOCK_SIZE]
    omega
  · intro s2 c2 h2
    have hp : ∀ t2 s3, ProbePath hash idx t2 s3 → ProbePath hash
        { idx with
          m_next_empty := idx.m_next_empty + idx.m_slab_size 0
          m_term_offsets := Function.update idx.m_term_offsets e idx.m_next_empty
          m_data := head_block.init idx.m_data idx.m_next_empty t idx.m_next_empty } t2 s3 := by
      intro t2 s3
      refine ProbePath_mono hash idx
        { idx with
          m_next_empty := idx.m_next_empty + idx.m_slab_size 0
          m_term_offsets := Function.update idx.m_term_offsets e idx.m_next_empty
          m_data := head_block.init idx.m_data idx.m_next_empty t idx.m_next_empty }
        t2 s3 rfl ?_
      intro x hx
      have hxe : x ≠ e := by
        intro e1
        subst e1
        exact hx he
      show Function.update idx.m_term_offsets e idx.m_next_empty x ≠ END_CHAIN
      rw [Function.update_noteq hxe]
      exact hx
    by_cases hs : s2 = e
    · subst hs
      simp only [Function.update_same, Option.some.injEq] at h2
      subst h2
      exact hp _ _ hpath
    · rw [Function.update_noteq hs] at h2
      exact hp _ _ (inv.probe s2 c2 h2)
  · intro s1 s2 c1 c2 h1 h2 ht
    by_cases hs1 : s1 = e
    · subst hs1
      simp only [Function.update_same, Option.some.injEq] at h1
      subst h1
      by_cases hs2 : s2 = s1
      · exact hs2.symm
      · rw [Function.update_noteq hs2] at h2
        exact absurd ht.symm (habs s2 c2 h2)
    · rw [Function.update_noteq hs1] at h1
      by_cases hs2 : s2 = e
      · subst hs2
        simp only [Function.update_same, Option.some.injEq] at h2
        subst h2
        exact absurd ht (habs s1 c1 h1)
      · rw [Function.update_noteq hs2] at h2
        exact inv.distinct s1 s2 c1 c2 h1 h2 ht

end

section
open immediate_index

theorem tracks_update (chains : Nat → Option Chain) (P : List Nat → List (Nat × Nat))
    (tr : Tracks chains P) (s : Nat) (t : List Nat)
    (hs : ∀ c, chains s = some c → c.term = t) (c' : Chain) (ht : c'.term = t)
    (Q : List (Nat × Nat)) (hq : c'.posts = Q) (hne : Q ≠ []) :
    Tracks (Function.update chains s (some c')) (fun t2 => if t2 = t then Q else P t2) := by
  intro t2
  by_cases h2 : t2 = t
  · subst h2
    simp only [if_true]
    refine ⟨fun h => absurd h hne, fun _ => ⟨s, c', ?_, ht, hq⟩⟩
    simp
  · simp only [if_neg h2]
    constructor
    · intro hp s2 c2 hc2
      by_cases hs2 : s2 = s
      · subst hs2
        simp only [Function.update_same, Option.some.injEq] at hc2
        subst hc2
        rw [ht]
        exact fun e => h2 e.symm
      · rw [Function.update_noteq hs2] at hc2
        exact (tr t2).1 hp s2 c2 hc2
    · intro hp
      obtain ⟨s2, c2, hc2, e1, e2⟩ := (tr t2).2 hp
      have hs2 : s2 ≠ s := by
        intro e
        subst e
        exact h2 (by rw [← e1, hs c2 hc2])
      exact ⟨s2, c2, by rw [Function.update_noteq hs2]; exact hc2, e1, e2⟩

theorem inv_insert (hash : List Nat → Nat) (idx : immediate_index)
    (chains : Nat → Option Chain) (P : List Nat → List (Nat × Nat))
    (inv : IndexInv hash idx chains) (tr : Tracks chains P)
    (d : Nat) (t ps : List Nat) (htl : t.length ≤ HEAD_BYTES) (htc : ∀ x ∈ t, x < 256)
    (hd30 : d < 2 ^ 30) (hp1 : 1 ≤ ps.length) (hp2 : ps.length < 2 ^ 32)
    (hlast : lastDoc 0 (P t) < d) (idx' : immediate_index)
    (h : idx.insert hash d t ps = some idx') :
    ∃ chains', IndexInv hash idx' chains' ∧
      Tracks chains' (fun t2 => if t2 = t then P t ++ [(d, ps.length)] else P t2) := by
  have hf : ps.length % 2 ^ 32 = ps.length := Nat.mod_eq_of_lt hp2
  unfold immediate_index.insert at h
  simp only [hf] at h
  by_cases hP : P t = []
  · have habs := (tr t).1 hP
    unfold insert_head at h
    cases hfo : idx.found_or_empty_offset hash t with
    | none =>
      rw [hfo] at h
      cases h
    | some e =>
      rw [hfo] at h
      obtain ⟨he, heH, hce, hpath⟩ := found_absent hash idx chains inv t habs e hfo
      simp only [he, if_true, next_free_slot] at h
      have hS0 := inv.slabs 0
      have hdsz := inv.dsize
      have hm : idx.m_slab_size 0 % 2 ^ 32 = idx.m_slab_size 0 := by
        apply Nat.mod_eq_of_lt
        simp only [BLOCK_SIZE] at hS0
        omega
      rw [hm] at h
      by_cases hroom : idx.m_next_empty + idx.m_slab_size 0 < idx.m_data_size
      · rw [if_neg (Nat.not_le.2 hroom)] at h
        have hne : idx.m_next_empty % 2 ^ 32 = idx.m_next_empty := by
          apply Nat.mod_eq_of_lt
          omega
        simp only [hne] at h
        have inv1 := inv_new_head hash idx chains inv t htl htc habs e he heH hce hpath hroom
        obtain ⟨c', e1, e2, inv2⟩ := inv_insert_posting hash _ _ inv1 e
          ⟨t, [⟨idx.m_next_empty, idx.m_slab_size 0, []⟩]⟩ (by simp) d ps.length
          (by show 0 < d; rw [hP] at hlast; exact hlast) hd30 hp1 hp2 idx' h
        rw [Function.update_idem] at inv2
        refine ⟨_, inv2, ?_⟩
        apply tracks_update chains P tr e t _ c' e1
        · rw [e2, hP]
          rfl
        · simp
        · intro c hc
          rw [hce] at hc
          cases hc
      · rw [if_pos (Nat.not_lt.1 hroom)] at h
        cases h
  · obtain ⟨s, c, hc, e1, e2⟩ := (tr t).2 hP
    have hfo := found_of_chain hash idx chains inv s c hc
    rw [e1] at hfo
    have hdir := inv.dir_some s c hc
    have hne := chain_head_ne_end hash idx chains inv s c hc
    unfold insert_head at h
    rw [hfo] at h
    simp only [hdir, if_neg hne] at h
    obtain ⟨c', e3, e4, inv2⟩ := inv_insert_posting hash idx chains inv s c hc d ps.length
      (by rw [e2]; exact hlast) hd30 hp1 hp2 idx' h
    refine ⟨_, inv2, ?_⟩
    apply tracks_update chains P tr s t _ c' (by rw [e3, e1])
    · rw [e4, e2]
    · simp
    · intro c2 hc2
      rw [hc] at hc2
      cases hc2
      exact e1

theorem inv_init (hash : List Nat → Nat) (S : Nat → Nat) (N H : Nat) (hS : SlabsOK S)
    (hH : 0 < H) (hN : N ≤ 2 ^ 32) :
    IndexInv hash (mk_sized S N H) (fun _ => none) := by
  constructor
  · exact hS
  · exact hH
  · exact hN
  · exact Or.inl rfl
  · intro s _ _
    rfl
  · intro s _
    rfl
  · intro s c h
    cases h
  · intro s c h
    cases h
  · intro s c b h
    cases h
  · intro s1 s2 c1 c2 b1 b2 h
    cases h
  · intro s c h
    cases h
  · intro a _
    rfl
  · intro s c h
    cases h
  · intro s1 s2 c1 c2 h
    cases h

theorem tracks_init : Tracks (fun _ => none) (fun _ => []) := by
  intro t
  refine ⟨fun _ s c h => ?_, fun h => absurd rfl h⟩
  cases h

theorem postings_of_cons (c : insert_call) (rest : List insert_call) (t : List Nat) :
    postings_of (c :: rest) t
      = if c.term = t then (c.docid, c.positions.length) :: postings_of rest t
        else postings_of rest t := by
  unfold postings_of
  by_cases h : c.term = t
  · simp [List.filter_cons, h]
  · simp [List.filter_cons, h]

theorem run_inserts_inv (hash : List Nat → Nat) : ∀ (calls : List insert_call)
    (idx : immediate_index) (chains : Nat → Option Chain) (P : List Nat → List (Nat × Nat)),
    IndexInv hash idx chains → Tracks chains P →
    (∀ c ∈ calls, c.term.length ≤ HEAD_BYTES ∧ ∀ x ∈ c.term, x < 256) →
    (∀ t, PostsOK 0 (P t ++ postings_of calls t)) →
    ∀ idx', run_inserts hash idx calls = some idx' →
    ∃ chains', IndexInv hash idx' chains' ∧
      Tracks chains' (fun t => P t ++ postings_of calls t) := by
  intro calls
  induction calls with
  | nil =>
    intro idx chains P inv tr _ _ idx' h
    simp only [run_inserts, Option.some.injEq] at h
    subst h
    refine ⟨chains, inv, ?_⟩
    simpa [postings_of] using tr
  | cons c rest ih =>
    intro idx chains P inv tr hterm hok idx' h
    unfold run_inserts at h
    cases hi : idx.insert hash c.docid c.term c.positions with
    | none =>
      rw [hi] at h
      cases h
    | some idx1 =>
      rw [hi] at h
      simp only at h
      have hc := hterm c (List.mem_cons_self _ _)
      have h1 := hok c.term
      rw [postings_of_cons, if_pos rfl, PostsOK_append] at h1
      obtain ⟨_, hlt, hd30, hf1, hf2, _⟩ := h1
      obtain ⟨chains1, inv1, tr1⟩ := inv_insert hash idx chains P inv tr c.docid c.term
        c.positions hc.1 hc.2 hd30 hf1 hf2 hlt idx1 hi
      have hP : ∀ t, (if t = c.term then P c.term ++ [(c.docid, c.positions.length)] else P t)
          ++ postings_of rest t = P t ++ postings_of (c :: rest) t := by
        intro t
        rw [postings_of_cons]
        by_cases ht : t = c.term
        · subst ht
          simp
        · rw [if_neg ht, if_neg (fun e => ht e.symm)]
      obtain ⟨chains2, inv2, tr2⟩ := ih idx1 chains1 _ inv1 tr1
        (fun c2 h2 => hterm c2 (List.mem_cons_of_mem _ h2))
        (fun t => by rw [hP]; exact hok t) idx' h
      refine ⟨chains2, inv2, ?_⟩
      have hfun : (fun t => (if t = c.term then P c.term ++ [(c.docid, c.positions.length)]
          else P t) ++ postings_of rest t) = (fun t => P t ++ postings_of (c :: rest) t) :=
        funext hP
      rw [← hfun]
      exact tr2

theorem PostsOK_of_pairwise (l : List (Nat × Nat)) : ∀ lo,
    (∀ p ∈ l, lo < p.1 ∧ p.1 < 2 ^ 30 ∧ 1 ≤ p.2 ∧ p.2 < 2 ^ 32) →
    l.Pairwise (fun a b => a.1 < b.1) → PostsOK lo l := by
  induction l with
  | nil =>
    intro _ _ _
    trivial
  | cons p rest ih =>
    intro lo hb hp
    have h1 := hb p (List.mem_cons_self _ _)
    rw [List.pairwise_cons] at hp
    refine ⟨h1.1, h1.2.1, h1.2.2.1, h1.2.2.2, ih p.1 ?_ hp.2⟩
    intro q hq
    have h2 := hb q (List.mem_cons_of_mem _ hq)
    exact ⟨hp.1 q hq, h2.2⟩

theorem valid_calls_posts (calls : List insert_call) (hv : ValidCalls calls) (t : List Nat) :
    PostsOK 0 (postings_of calls t) := by
  apply PostsOK_of_pairwise
  · intro p hp
    unfold postings_of at hp
    simp only [List.mem_map, List.mem_filter] at hp
    obtain ⟨c, ⟨hc, _⟩, rfl⟩ := hp
    have := hv.1 c hc
    exact ⟨this.1, this.2.1, this.2.2.1, this.2.2.2.1⟩
  · unfold postings_of
    rw [List.pairwise_map]
    have h2 := hv.2.filter (fun c => decide (c.term = t))
    refine List.Pairwise.imp_of_mem ?_ h2
    intro a b ha hb hab
    simp only [List.mem_filter, decide_eq_true_eq] at ha hb
    exact hab (by rw [ha.2, hb.2])

end

section
open immediate_index

theorem wslabs_ok : SlabsOK wslabs := by
  intro i
  unfold wslabs BLOCK_SIZE
  split_ifs <;> omega

theorem wcalls_valid : ValidCalls wcalls := by
  unfold ValidCalls
  decide

theorem wcalls_run :
    ∃ idx, run_inserts whash (mk_sized wslabs 40 8) wcalls = some idx :=
  Option.isSome_iff_exists.1
    (show (run_inserts whash (mk_sized wslabs 40 8) wcalls).isSome = true by decide!)

theorem qcalls_valid : ValidCalls qcalls := by
  unfold ValidCalls
  decide

theorem qcalls_run :
    ∃ idx, run_inserts whash (mk_sized wslabs 40 8) qcalls = some idx :=
  Option.isSome_iff_exists.1
    (show (run_inserts whash (mk_sized wslabs 40 8) qcalls).isSome = true by decide!)

end

section
open immediate_index postings_cursor

theorem firstDoc_cons (b : Blk) (q : Nat × Nat) (qs : List (Nat × Nat)) (h : b.posts = q :: qs) :
    firstDoc b = q.1 := by
  unfold firstDoc
  rw [h]
  rfl

theorem access_first (idx : immediate_index) (nb : Blk) (start base lo : Nat) (q : Nat × Nat)
    (qs : List (Nat × Nat)) (hq : nb.posts = q :: qs)
    (hseg : Seg idx.m_data (struct_ptr nb.idx) start (BLOCK_SIZE * nb.size) base nb.posts)
    (hok : PostsOK lo nb.posts) (hb : base ≤ lo) :
    idx.access nb.idx start
        = some ((q.1 - base, q.2), start + (enc_posts base [q]).length) ∧
      base < q.1 ∧ q.1 < 2 ^ 30 := by
  rw [hq] at hseg hok
  have h := access_seg idx nb.idx start (BLOCK_SIZE * nb.size) base lo [] q qs hseg hok hb
  simp only [enc_posts, List.length_nil, Nat.add_zero, lastDoc, List.nil_append] at h
  exact ⟨h.1, h.2.1, h.2.2.1⟩

theorem skip_eq (idx : immediate_index) (tail tailOff target : Nat) (rest : List Blk) :
    ∀ (j : Nat) (b : Blk) (start base lo pb pd bc fuel : Nat),
    BlocksRep idx.m_slab_size idx.m_data tail tailOff j start base lo (b :: rest) →
    (∀ x ∈ b :: rest, x.idx ≠ END_CHAIN) →
    (if j = 0 then 0 else firstDoc b) < target →
    rest.length + 2 ≤ fuel →
    next_geq_skip idx tail target fuel ⟨b.idx, if j = 0 then 0 else firstDoc b, pb, pd, bc⟩
      = some (skip_model target bc j b rest) := by
  induction rest with
  | nil =>
    intro j b start base lo pb pd bc fuel h hne hg hfuel
    obtain ⟨f, rfl⟩ : ∃ f, fuel = f + 1 + 1 := ⟨fuel - 2, by simp at hfuel; omega⟩
    obtain ⟨_, _, _, _, _, hl, _⟩ := h
    have hb := hne b (List.mem_cons_self _ _)
    have hnext : idx.next_block b.idx tail = END_CHAIN := by
      unfold immediate_index.next_block
      rw [if_pos hl.2.2.1.symm]
    simp only [next_geq_skip, hg, hb, hnext, ne_eq, not_false_eq_true, and_self, if_true,
      not_true_eq_false, if_false, and_false, skip_model]
  | cons nb rest ih =>
    intro j b start base lo pb pd bc fuel h hne hg hfuel
    obtain ⟨f, rfl⟩ : ∃ f, fuel = f + 1 := ⟨fuel - 1, by simp at hfuel; omega⟩
    obtain ⟨_, _, _, _, _, hl, hrest⟩ := h
    have hrest' := hrest
    obtain ⟨_, hne2, hb2, hok2, hseg2, _, _⟩ := hrest
    have hb := hne b (List.mem_cons_self _ _)
    have hnb := hne nb (by simp)
    have hnext : idx.next_block b.idx tail = nb.idx := by
      unfold immediate_index.next_block head_block.next_block
      rw [if_neg hl.2, hl.1]
    cases hq : nb.posts with
    | nil => exact absurd hq (hne2 (by omega))
    | cons q qs =>
      obtain ⟨hacc, hlt, h30⟩ := access_first idx nb TT_PL_OFFSET _ _ q qs hq hseg2 hok2 hb2
      have hfd := firstDoc_cons nb q qs hq
      have hdoc : ((if j = 0 then 0 else firstDoc b) + (q.1 - (if j = 0 then 0 else firstDoc b)))
          % 2 ^ 32 = firstDoc nb := by
        rw [hfd]
        omega
      rw [next_geq_skip]
      simp only [hg, hb, hnext, hnb, ne_eq, not_false_eq_true, and_self, if_true, hacc, hdoc]
      by_cases ht : firstDoc nb < target
      · have := ih (j + 1) nb TT_PL_OFFSET _ _ b.idx (if j = 0 then 0 else firstDoc b) (bc + 1) f
          hrest' (fun x hx => hne x (List.mem_cons_of_mem _ hx))
          (by simpa using ht) (by simp at hfuel ⊢; omega)
        simp only [Nat.add_eq_zero, one_ne_zero, and_false, if_false] at this
        rw [this, skip_model, if_pos ht]
      · obtain ⟨f2, rfl⟩ : ∃ f2, f = f2 + 1 := ⟨f - 1, by simp at hfuel; omega⟩
        rw [next_geq_skip, skip_model, if_neg ht]
        simp only [ht, false_and, if_false]

theorem PostsOK_mem (ps : List (Nat × Nat)) : ∀ lo, PostsOK lo ps → ∀ p ∈ ps,
    lo < p.1 ∧ p.1 ≤ lastDoc lo ps ∧ p.1 < 2 ^ 30 := by
  induction ps with
  | nil =>
    intro lo _ p hp
    cases hp
  | cons q qs ih =>
    intro lo h p hp
    rw [lastDoc_cons]
    have hge := PostsOK_lastDoc_ge q.1 qs h.2.2.2.2
    rcases List.mem_cons.1 hp with e | hm
    · subst e
      exact ⟨h.1, hge, h.2.1⟩
    · have h3 := ih q.1 h.2.2.2.2 p hm
      have h4 := h.1
      exact ⟨by omega, h3.2.1, h3.2.2⟩

theorem block_states_mem (fixed : postings_cursor) (j : Nat) (b : Blk) (start base : Nat)
    (x : postings_cursor) (hx : x ∈ block_states fixed j b start base) :
    (x.m_current_docid, x.m_current_tf) ∈ b.posts := by
  have h := states_from_obs fixed j b start base b.posts []
  have := List.mem_map_of_mem (fun c : postings_cursor => (c.docid, c.freq)) hx
  unfold block_states at this
  rw [h] at this
  exact this

theorem chain_states_mem (fixed : postings_cursor) (bs : List Blk) (j start base : Nat)
    (x : postings_cursor) (hx : x ∈ chain_states fixed j start base bs) :
    (x.m_current_docid, x.m_current_tf) ∈ blockPosts bs := by
  have h := chain_states_obs fixed bs j start base
  have := List.mem_map_of_mem (fun c : postings_cursor => (c.docid, c.freq)) hx
  rw [h] at this
  exact this

theorem all_states_cons (fixed : postings_cursor) (j start base : Nat) (b nb : Blk)
    (rest : List Blk) :
    all_states fixed j start base (b :: nb :: rest)
      = block_states fixed j b start base
        ++ all_states fixed (j + 1) TT_PL_OFFSET (if j = 0 then 0 else firstDoc b)
          (nb :: rest) := by
  unfold all_states
  rw [chain_states, chain_end, List.append_assoc]

theorem all_states_first (fixed : postings_cursor) (j start base : Nat) (b : Blk)
    (rest : List Blk) (hne : b.posts ≠ []) :
    ∃ l2, all_states fixed j start base (b :: rest)
      = cursor_at fixed j b start base (b.posts.take 1) :: l2 := by
  unfold all_states
  rw [chain_states, block_states]
  cases hq : b.posts with
  | nil => exact absurd hq hne
  | cons q qs =>
    rw [states_from]
    exact ⟨_, rfl⟩

theorem land_spec (idx : immediate_index) (fixed : postings_cursor) (tailOff target : Nat)
    (rest : List Blk) : ∀ (j start base lo : Nat) (b : Blk) (j2 start2 base2 : Nat) (B : Blk),
    BlocksRep idx.m_slab_size idx.m_data fixed.m_tail_block tailOff j start base lo
      (b :: rest) →
    b.posts ≠ [] → land target j start base b rest = (j2, start2, base2, B) →
    (∃ lo2, PostsOK lo2 B.posts ∧ base2 ≤ lo2) ∧ B.posts ≠ [] ∧
    Seg idx.m_data (struct_ptr B.idx) start2 (BLOCK_SIZE * B.size) base2 B.posts ∧
    ((j2 = j ∧ start2 = start ∧ base2 = base ∧ B = b) ∨
      (j < j2 ∧ start2 = TT_PL_OFFSET ∧ B ∈ rest)) ∧
    ∃ l1 l2, all_states fixed j start base (b :: rest)
        = l1 ++ cursor_at fixed j2 B start2 base2 (B.posts.take 1) :: l2 ∧
      ∀ x ∈ l1, x.m_current_docid < target := by
  induction rest with
  | nil =>
    intro j start base lo b j2 start2 base2 B h hne hl
    simp only [land, Prod.mk.injEq] at hl
    obtain ⟨rfl, rfl, rfl, rfl⟩ := hl
    obtain ⟨_, _, hb, hok, hseg, _, _⟩ := h
    obtain ⟨l2, e⟩ := all_states_first fixed j start base b [] hne
    exact ⟨⟨lo, hok, hb⟩, hne, hseg, Or.inl ⟨rfl, rfl, rfl, rfl⟩, [], l2, e,
      fun x hx => by cases hx⟩
  | cons nb rest ih =>
    intro j start base lo b j2 start2 base2 B h hne hl
    obtain ⟨_, _, hb, hok, hseg, _, hrest⟩ := h
    have hrest' := hrest
    obtain ⟨_, hne2, hb2, hok2, hseg2, _, _⟩ := hrest
    have hnb : nb.posts ≠ [] := hne2 (by omega)
    have hbs : ∀ x ∈ block_states fixed j b start base, x.m_current_docid < firstDoc nb := by
      intro x hx
      have h1 := PostsOK_mem _ _ hok _ (block_states_mem fixed j b start base x hx)
      cases hq : nb.posts with
      | nil => exact absurd hq hnb
      | cons q qs =>
        rw [firstDoc_cons nb q qs hq]
        rw [hq] at hok2
        have := hok2.1
        dsimp only at h1
        omega
    rw [all_states_cons]
    unfold land at hl
    by_cases ht : firstDoc nb < target
    · rw [if_pos ht] at hl
      obtain ⟨h1, h2, h3, h4, l1, l2, e, hl1⟩ := ih (j + 1) TT_PL_OFFSET _ _ nb j2 start2 base2 B
        hrest' hnb hl
      refine ⟨h1, h2, h3, Or.inr ?_, block_states fixed j b start base ++ l1, l2, ?_, ?_⟩
      · rcases h4 with ⟨rfl, rfl, _, rfl⟩ | ⟨hj, hs, hm⟩
        · exact ⟨by omega, rfl, List.mem_cons_self _ _⟩
        · exact ⟨by omega, hs, List.mem_cons_of_mem _ hm⟩
      · rw [e, List.append_assoc]
      · intro x hx
        rcases List.mem_append.1 hx with hx | hx
        · have := hbs x hx
          omega
        · exact hl1 x hx
    · rw [if_neg ht] at hl
      by_cases he : firstDoc nb = target
      · rw [if_pos he] at hl
        simp only [Prod.mk.injEq] at hl
        obtain ⟨rfl, rfl, rfl, rfl⟩ := hl
        obtain ⟨l2, e⟩ := all_states_first fixed (j + 1) TT_PL_OFFSET
          (if j = 0 then 0 else firstDoc b) nb rest hnb
        refine ⟨⟨_, hok2, hb2⟩, hnb, hseg2, Or.inr ⟨by omega, rfl, List.mem_cons_self _ _⟩,
          block_states fixed j b start base, l2, by rw [e], ?_⟩
        intro x hx
        have := hbs x hx
        omega
      · rw [if_neg he] at hl
        simp only [Prod.mk.injEq] at hl
        obtain ⟨rfl, rfl, rfl, rfl⟩ := hl
        obtain ⟨l2, e⟩ := all_states_first fixed j start base b (nb :: rest) hne
        rw [← all_states_cons, e]
        exact ⟨⟨lo, hok, hb⟩, hne, hseg, Or.inl ⟨rfl, rfl, rfl, rfl⟩, [], l2, rfl,
          fun x hx => by cases hx⟩

theorem select_eq (target : Nat) (rest : List Blk) :
    ∀ (bc j start base : Nat) (b : Blk) (j2 start2 base2 : Nat) (B : Blk),
    (∀ x ∈ rest, x.idx ≠ END_CHAIN) →
    land target j start base b rest = (j2, start2, base2, B) →
    j ≤ j2 ∧
    ((skip_model target bc j b rest).current_docid > target ∨
        (skip_model target bc j b rest).current_block = END_CHAIN →
      (skip_model target bc j b rest).prev_block = B.idx ∧
      (skip_model target bc j b rest).prev_docid = (if j2 = 0 then 0 else firstDoc B) ∧
      (skip_model target bc j b rest).block_count - 1 = bc + (j2 - j)) ∧
    (¬ ((skip_model target bc j b rest).current_docid > target ∨
        (skip_model target bc j b rest).current_block = END_CHAIN) →
      (skip_model target bc j b rest).current_block = B.idx ∧
      (skip_model target bc j b rest).current_docid = (if j2 = 0 then 0 else firstDoc B) ∧
      (skip_model target bc j b rest).block_count = bc + (j2 - j)) := by
  induction rest with
  | nil =>
    intro bc j start base b j2 start2 base2 B _ hl
    simp only [land, Prod.mk.injEq] at hl
    obtain ⟨rfl, rfl, rfl, rfl⟩ := hl
    simp [skip_model]
  | cons nb rest ih =>
    intro bc j start base b j2 start2 base2 B hne hl
    unfold land at hl
    unfold skip_model
    by_cases ht : firstDoc nb < target
    · rw [if_pos ht] at hl
      rw [if_pos ht]
      obtain ⟨h1, h2, h3⟩ := ih (bc + 1) (j + 1) TT_PL_OFFSET _ nb j2 start2 base2 B
        (fun x hx => hne x (List.mem_cons_of_mem _ hx)) hl
      refine ⟨by omega, fun hc => ?_, fun hc => ?_⟩
      · obtain ⟨e1, e2, e3⟩ := h2 hc
        exact ⟨e1, e2, by omega⟩
      · obtain ⟨e1, e2, e3⟩ := h3 hc
        exact ⟨e1, e2, by omega⟩
    · rw [if_neg ht] at hl
      rw [if_neg ht]
      have hnb := hne nb (List.mem_cons_self _ _)
      by_cases he : firstDoc nb = target
      · rw [if_pos he] at hl
        simp only [Prod.mk.injEq] at hl
        obtain ⟨rfl, rfl, rfl, rfl⟩ := hl
        refine ⟨by omega, fun hc => ?_, fun _ => ⟨rfl, by simp, by dsimp only; omega⟩⟩
        rcases hc with hc | hc
        · exact absurd hc (by show ¬ firstDoc nb > target; omega)
        · exact absurd hc hnb
      · rw [if_neg he] at hl
        simp only [Prod.mk.injEq] at hl
        obtain ⟨rfl, rfl, rfl, rfl⟩ := hl
        refine ⟨Nat.le_refl _, fun _ => ⟨rfl, rfl, by simp⟩, fun hc => ?_⟩
        exact absurd (Or.inl (by show firstDoc nb > target; omega)) hc

theorem advance_find (idx : immediate_index) (target : Nat) (l : List postings_cursor) :
    ∀ (A : postings_cursor) (fuel : Nat), Follows idx A l →
    (∃ y ∈ A :: l, target ≤ y.m_current_docid) → (A :: l).length ≤ fuel →
    advance_to_id idx target fuel A = (A :: l).find? (reached target) := by
  induction l with
  | nil =>
    intro A fuel _ hy hfuel
    obtain ⟨f, rfl⟩ : ∃ f, fuel = f + 1 := ⟨fuel - 1, by simp at hfuel; omega⟩
    obtain ⟨y, hy, hle⟩ := hy
    simp only [List.mem_singleton] at hy
    subst hy
    simp [advance_to_id, reached, hle, Nat.not_lt.2 hle]
  | cons A1 l ih =>
    intro A fuel hf hy hfuel
    obtain ⟨f, rfl⟩ : ∃ f, fuel = f + 1 := ⟨fuel - 1, by simp at hfuel; omega⟩
    by_cases hA : target ≤ A.m_current_docid
    · simp [advance_to_id, reached, hA, Nat.not_lt.2 hA]
    · have hA2 : A.m_current_docid < target := Nat.lt_of_not_le hA
      rw [advance_to_id, if_pos hA2, hf.1]
      simp only
      rw [ih A1 f hf.2 ?_ (by simp at hfuel ⊢; omega)]
      · rw [List.find?_cons (a := A)]
        simp [reached, hA]
      · obtain ⟨y, hy, hle⟩ := hy
        rcases List.mem_cons.1 hy with e | hm
        · subst e
          exact absurd hle hA
        · exact ⟨y, hm, hle⟩

theorem states_from_fields (fixed : postings_cursor) (j : Nat) (b : Blk) (start base : Nat)
    (todo : List (Nat × Nat)) : ∀ done, ∀ x ∈ states_from fixed j b start base done todo,
    x.m_current_block = b.idx ∧ x.m_gap_accumulator = (if j = 0 then 0 else firstDoc b) ∧
    x.m_block_count = min j MAX_SLAB_IDX ∧ x.m_head_block = fixed.m_head_block ∧
    x.m_tail_block = fixed.m_tail_block ∧ x.m_term = fixed.m_term ∧
    x.m_doc_freq = fixed.m_doc_freq := by
  induction todo with
  | nil =>
    intro done x hx
    cases hx
  | cons p todo ih =>
    intro done x hx
    rw [states_from] at hx
    rcases List.mem_cons.1 hx with e | hm
    · subst e
      exact ⟨rfl, rfl, rfl, rfl, rfl, rfl, rfl⟩
    · exact ih _ x hm

theorem blocks_le_posts (S : Nat → Nat) (m : Mem) (tI tO : Nat) (bs : List Blk) :
    ∀ j start base lo, 1 ≤ j → BlocksRep S m tI tO j start base lo bs →
    bs.length ≤ (blockPosts bs).length := by
  induction bs with
  | nil =>
    intro _ _ _ _ _ _
    exact Nat.zero_le _
  | cons b rest ih =>
    intro j start base lo hj h
    have h1 := ih _ _ _ _ (by omega) h.2.2.2.2.2.2
    have h2 : 1 ≤ b.posts.length := by
      cases hq : b.posts with
      | nil => exact absurd hq (h.2.1 hj)
      | cons q qs => simp
    rw [blockPosts_cons, List.length_append, List.length_cons]
    omega

end

section
open immediate_index postings_cursor

theorem next_geq_unfold (idx : immediate_index) (fuel : Nat) (c : postings_cursor)
    (target : Nat) (s : skip_state) (hlt : c.m_current_docid < target)
    (hs : next_geq_skip idx c.m_tail_block target fuel
      ⟨c.m_current_block, c.m_gap_accumulator, c.m_current_block, c.m_gap_accumulator,
        c.m_block_count⟩ = some s)
    (blk gap cnt : Nat)
    (h1 : s.current_docid > target ∨ s.current_block = END_CHAIN →
      s.prev_block = blk ∧ s.prev_docid = gap ∧ s.block_count - 1 = cnt)
    (h2 : ¬ (s.current_docid > target ∨ s.current_block = END_CHAIN) →
      s.current_block = blk ∧ s.current_docid = gap ∧ s.block_count = cnt) :
    next_geq idx fuel c target =
      (if blk = c.m_head_block then
        (idx.access blk (idx.head_data_offset blk)).map (fun r =>
          { c with
            m_current_block := blk
            m_gap_accumulator := gap
            m_current_docid := r.1.1
            m_current_tf := r.1.2
            m_current_offset := r.2
            m_block_count := min (cnt % 2 ^ 32) MAX_SLAB_IDX })
      else
        (idx.access blk TT_PL_OFFSET).map (fun r =>
          { c with
            m_current_block := blk
            m_gap_accumulator := gap
            m_current_docid := gap
            m_current_tf := r.1.2
            m_current_offset := r.2
            m_block_count := min (cnt % 2 ^ 32) MAX_SLAB_IDX })).bind
        (advance_to_id idx target fuel) := by
  unfold next_geq
  rw [if_neg (Nat.not_le.2 hlt), hs]
  by_cases hc : s.current_docid > target ∨ s.current_block = END_CHAIN
  · obtain ⟨e1, e2, e3⟩ := h1 hc
    simp only [if_pos hc]
    simp only [e1, e2, e3]
    by_cases hb : blk = c.m_head_block
    · simp only [if_pos hb]
      cases idx.access blk (idx.head_data_offset blk) with
      | none => rfl
      | some r => rfl
    · simp only [if_neg hb]
      cases idx.access blk TT_PL_OFFSET with
      | none => rfl
      | some r => rfl
  · obtain ⟨e1, e2, e3⟩ := h2 hc
    simp only [if_neg hc]
    simp only [e1, e2, e3]
    by_cases hb : blk = c.m_head_block
    · simp only [if_pos hb]
      cases idx.access blk (idx.head_data_offset blk) with
      | none => rfl
      | some r => rfl
    · simp only [if_neg hb]
      cases idx.access blk TT_PL_OFFSET with
      | none => rfl
      | some r => rfl

theorem land_j_le (target : Nat) (rest : List Blk) :
    ∀ (j start base : Nat) (b : Blk), (land target j start base b rest).1 ≤ j + rest.length := by
  induction rest with
  | nil =>
    intro j start base b
    simp [land]
  | cons nb rest ih =>
    intro j start base b
    unfold land
    simp only [List.length_cons]
    by_cases h1 : firstDoc nb < target
    · rw [if_pos h1]
      have := ih (j + 1) TT_PL_OFFSET (if j = 0 then 0 else firstDoc b) nb
      omega
    · rw [if_neg h1]
      by_cases h2 : firstDoc nb = target
      · rw [if_pos h2]
        show j + 1 ≤ j + (rest.length + 1)
        omega
      · rw [if_neg h2]
        show j ≤ j + (rest.length + 1)
        omega

theorem find_skip (p : postings_cursor → Bool) (l1 l2 : List postings_cursor)
    (h : ∀ x ∈ l1, p x = false) : (l1 ++ l2).find? p = l2.find? p := by
  induction l1 with
  | nil => rfl
  | cons a l1 ih =>
    rw [List.cons_append, List.find?_cons, h a (List.mem_cons_self _ _)]
    exact ih (fun x hx => h x (List.mem_cons_of_mem _ hx))

theorem all_states_last (fixed : postings_cursor) (bs : List Blk) (j start base : Nat)
    (hne : bs ≠ []) :
    ∃ y ∈ all_states fixed j start base bs, y.m_current_docid = END_CHAIN := by
  cases bs with
  | nil => exact absurd rfl hne
  | cons b rest =>
    exact ⟨chain_end fixed j start base (b :: rest), by simp [all_states],
      chain_end_docid fixed rest j b start base⟩

theorem all_states_length (fixed : postings_cursor) (bs : List Blk) (j start base : Nat) :
    (all_states fixed j start base bs).length = (blockPosts bs).length + 1 := by
  unfold all_states
  rw [List.length_append, ← chain_states_obs fixed bs j start base, List.length_map]
  rfl

theorem next_geq_block (idx : immediate_index) (fixed : postings_cursor)
    (tailOff target fuel j start base lo : Nat) (b : Blk) (rest : List Blk)
    (h : BlocksRep idx.m_slab_size idx.m_data fixed.m_tail_block tailOff j start base lo
      (b :: rest))
    (hne : ∀ x ∈ b :: rest, x.idx ≠ END_CHAIN)
    (hj0 : j = 0 → b.idx = fixed.m_head_block ∧ start = idx.head_data_offset b.idx ∧ base = 0)
    (hjn : j ≠ 0 → b.idx ≠ fixed.m_head_block ∧ start = TT_PL_OFFSET)
    (hrest : ∀ x ∈ rest, x.idx ≠ fixed.m_head_block)
    (hlo : lo < 2 ^ 30) (cur : postings_cursor)
    (hcur : cur ∈ block_states fixed j b start base) (hlt : cur.m_current_docid < target)
    (ht32 : target < 2 ^ 32) (hfuel : (blockPosts (b :: rest)).length + 2 ≤ fuel) :
    next_geq idx fuel cur target
      = (all_states fixed j start base (b :: rest)).find? (reached target) := by
  obtain ⟨f1, f2, f3, f4, f5, f6, f7⟩ := states_from_fields fixed j b start base b.posts [] cur hcur
  have hposts := BlocksRep_posts _ _ _ _ _ _ _ _ _ h
  have hlen := PostsOK_length _ _ hposts
  have hlast := PostsOK_lastDoc_lt _ _ hposts hlo
  have hmem := block_states_mem fixed j b start base cur hcur
  have hbne : b.posts ≠ [] := List.ne_nil_of_mem hmem
  have hrl := blocks_le_posts _ _ _ _ rest _ _ _ _ (Nat.le_add_left 1 j) h.2.2.2.2.2.2
  rw [blockPosts_cons] at hlast
  rw [blockPosts_cons, List.length_append] at hfuel hlen
  have hg : (if j = 0 then 0 else firstDoc b) ≤ cur.m_current_docid := by
    split_ifs with hj
    · exact Nat.zero_le _
    · cases hq : b.posts with
      | nil => exact absurd hq hbne
      | cons q qs =>
        rw [firstDoc_cons b q qs hq]
        rw [hq] at hmem
        have hok := h.2.2.2.1
        rw [hq] at hok
        rcases List.mem_cons.1 hmem with e | hm
        · rw [← e]
        · have := (PostsOK_mem qs q.1 hok.2.2.2.2 _ hm).1
          exact Nat.le_of_lt this
  obtain ⟨j2, start2, base2, B, hland⟩ : ∃ j2 start2 base2 B,
      land target j start base b rest = (j2, start2, base2, B) := ⟨_, _, _, _, rfl⟩
  obtain ⟨⟨lo2, hok2, hb2⟩, hBne, hseg2, hpos, l1, l2, hall, hl1⟩ :=
    land_spec idx fixed tailOff target rest j start base lo b j2 start2 base2 B h hbne hland
  obtain ⟨hjle, hs1, hs2⟩ := select_eq target rest (min j MAX_SLAB_IDX) j start base b j2 start2
    base2 B (fun x hx => hne x (List.mem_cons_of_mem _ hx)) hland
  have hjle2 := land_j_le target rest j start base b
  rw [hland] at hjle2
  have hskip := skip_eq idx fixed.m_tail_block tailOff target rest j b start base lo b.idx
    (if j = 0 then 0 else firstDoc b) (min j MAX_SLAB_IDX) fuel h hne (by omega) (by omega)
  rw [next_geq_unfold idx fuel cur target _ hlt (by rw [f1, f2, f3, f5]; exact hskip)
    B.idx (if j2 = 0 then 0 else firstDoc B) (min j MAX_SLAB_IDX + (j2 - j)) hs1 hs2]
  have hcnt : min ((min j MAX_SLAB_IDX + (j2 - j)) % 2 ^ 32) MAX_SLAB_IDX
      = min j2 MAX_SLAB_IDX := by
    dsimp only at hjle2
    rw [Nat.mod_eq_of_lt (by simp only [MAX_SLAB_IDX]; omega)]
    simp only [MAX_SLAB_IDX]
    omega
  have hfollow := follows_chain idx fixed tailOff rest j b start base lo h
    (fun x hx => hne x (List.mem_cons_of_mem _ hx))
  have hfollow2 : Follows idx (cursor_at fixed j2 B start2 base2 (B.posts.take 1)) l2 := by
    change Follows idx _ (all_states fixed j start base (b :: rest)) at hfollow
    rw [hall, Follows_append] at hfollow
    exact hfollow.2.2
  have hend : ∃ y ∈ cursor_at fixed j2 B start2 base2 (B.posts.take 1) :: l2,
      target ≤ y.m_current_docid := by
    obtain ⟨y, hy, hye⟩ := all_states_last fixed (b :: rest) j start base (by simp)
    rw [hall] at hy
    rcases List.mem_append.1 hy with hy | hy
    · have := hl1 y hy
      rw [hye] at this
      simp only [END_CHAIN] at this
      omega
    · exact ⟨y, hy, by rw [hye]; simp only [END_CHAIN]; omega⟩
  have hlenall := all_states_length fixed (b :: rest) j start base
  rw [hall, List.length_append, blockPosts_cons, List.length_append] at hlenall
  have hadv := advance_find idx target l2 _ fuel hfollow2 hend (by omega)
  rw [hall, find_skip _ _ _ (fun x hx => by simp [reached, hl1 x hx]), ← hadv]
  cases hq : B.posts with
  | nil => exact absurd hq hBne
  | cons q qs =>
    obtain ⟨hacc, hlt2, h30⟩ := access_first idx B start2 base2 lo2 q qs hq hseg2 hok2 hb2
    have hfd := firstDoc_cons B q qs hq
    have htake : (q :: qs).take 1 = [q] := rfl
    rw [htake]
    by_cases hB : B.idx = cur.m_head_block
    · have hj : j = 0 := by
        by_contra hj
        rcases hpos with ⟨_, _, _, rfl⟩ | ⟨_, _, hm⟩
        · exact (hjn hj).1 (by rw [hB, f4])
        · exact hrest B hm (by rw [hB, f4])
      have hBb : B = b := by
        rcases hpos with ⟨_, _, _, e⟩ | ⟨_, _, hm⟩
        · exact e
        · exact absurd (by rw [hB, f4]) (hrest B hm)
      have hj2 : j2 = 0 := by
        rcases hpos with ⟨e, _, _, _⟩ | ⟨_, _, hm⟩
        · omega
        · exact absurd (by rw [hB, f4]) (hrest B hm)
      have hst : start2 = idx.head_data_offset B.idx ∧ base2 = 0 := by
        rcases hpos with ⟨_, e1, e2, _⟩ | ⟨_, _, hm⟩
        · rw [e1, e2, hBb]
          exact (hj0 hj).2
        · exact absurd (by rw [hB, f4]) (hrest B hm)
      rw [if_pos hB, ← hst.1, hacc, hcnt]
      simp only [Option.map_some', Option.some_bind]
      congr 1
      rw [hst.2] at hlt2 ⊢
      simp only [cursor_at, hj2, if_true, lastDoc, lastTf, f4, f5, f6, f7, Nat.sub_zero]
    · have hj2 : j2 ≠ 0 := by
        intro hj2
        rcases hpos with ⟨e, _, _, e4⟩ | ⟨_, _, _⟩
        · exact hB (by rw [e4, f4]; exact (hj0 (by omega)).1)
        · omega
      have hst : start2 = TT_PL_OFFSET := by
        rcases hpos with ⟨e, e1, _, _⟩ | ⟨_, e1, _⟩
        · rw [e1]
          exact (hjn (by omega)).2
        · exact e1
      rw [if_neg hB, ← hst, hacc, hcnt]
      simp only [Option.map_some', Option.some_bind]
      congr 1
      simp only [cursor_at, hj2, if_false, lastDoc, lastTf, f4, f5, f6, f7, hfd]

theorem next_geq_chain (idx : immediate_index) (fixed : postings_cursor)
    (tailOff target fuel : Nat) (ht32 : target < 2 ^ 32) (bs : List Blk) :
    ∀ (j start base lo : Nat),
    BlocksRep idx.m_slab_size idx.m_data fixed.m_tail_block tailOff j start base lo bs →
    (∀ x ∈ bs, x.idx ≠ END_CHAIN) →
    (j = 0 → ∀ b ∈ bs.head?, b.idx = fixed.m_head_block ∧
      start = idx.head_data_offset b.idx ∧ base = 0) →
    (j ≠ 0 → start = TT_PL_OFFSET ∧ ∀ b ∈ bs.head?, b.idx ≠ fixed.m_head_block) →
    (∀ x ∈ bs.tail, x.idx ≠ fixed.m_head_block) → lo < 2 ^ 30 →
    (blockPosts bs).length + 2 ≤ fuel →
    ∀ cur ∈ chain_states fixed j start base bs, cur.m_current_docid < target →
    next_geq idx fuel cur target = (all_states fixed j start base bs).find? (reached target) := by
  induction bs with
  | nil =>
    intro j start base lo _ _ _ _ _ _ _ cur hcur
    cases hcur
  | cons b rest ih =>
    intro j start base lo h hne hj0 hjn hrest hlo hfuel cur hcur hlt
    rw [chain_states] at hcur
    rcases List.mem_append.1 hcur with hcur | hcur
    · exact next_geq_block idx fixed tailOff target fuel j start base lo b rest h hne
        (fun hj => hj0 hj b (by simp))
        (fun hj => ⟨(hjn hj).2 b (by simp), (hjn hj).1⟩)
        (fun x hx => hrest x (by simpa using hx)) hlo cur hcur hlt ht32 hfuel
    · cases rest with
      | nil => cases hcur
      | cons nb rest =>
        have hok := h.2.2.2.1
        have hrep2 := h.2.2.2.2.2.2
        have hposts := BlocksRep_posts _ _ _ _ _ _ _ _ _ hrep2
        have hmem := chain_states_mem fixed (nb :: rest) _ _ _ cur hcur
        have hgt := (PostsOK_mem _ _ hposts _ hmem).1
        dsimp only at hgt
        rw [all_states_cons, find_skip]
        · apply ih (j + 1) TT_PL_OFFSET _ (lastDoc lo b.posts) hrep2
            (fun x hx => hne x (List.mem_cons_of_mem _ hx))
            (fun hj => absurd hj (Nat.succ_ne_zero j))
            (fun _ => ⟨rfl, fun x hx => hrest x (by
              simp only [List.head?_cons, Option.mem_def, Option.some.injEq] at hx
              subst hx
              simp)⟩)
            (fun x hx => hrest x (by
              simp only [List.tail_cons] at hx ⊢
              exact List.mem_cons_of_mem _ hx))
            (PostsOK_lastDoc_lt _ _ hok hlo)
            (by
              rw [blockPosts_cons, List.length_append] at hfuel
              omega)
            cur hcur hlt
        · intro x hx
          have h1 := PostsOK_mem _ _ hok _ (block_states_mem fixed j b start base x hx)
          dsimp only at h1
          simp only [reached, decide_eq_false_iff_not]
          omega

theorem next_geq_canon (hash : List Nat → Nat) (idx : immediate_index)
    (chains : Nat → Option Chain) (inv : IndexInv hash idx chains) (s : Nat) (c : Chain)
    (hc : chains s = some c) (target fuel : Nat) (ht32 : target < 2 ^ 32)
    (hfuel : c.posts.length + 2 ≤ fuel) (cur : postings_cursor)
    (hcur : cur ∈ canon_states idx c) (hlt : cur.m_current_docid < target) :
    next_geq idx fuel cur target
      = (canon_states idx c ++ [canon_end idx c]).find? (reached target) := by
  have hrep := inv.rep s c hc
  have hord := inv.ordered s c hc
  unfold ChainRep at hrep
  cases hb : c.blocks with
  | nil => rw [hb] at hrep; exact hrep.elim
  | cons h rest =>
    rw [hb] at hrep hord
    obtain ⟨_, _, hwl, _, _, _, _, hbr⟩ := hrep
    have e : c.head = h.idx := by simp [Chain.head, hb]
    have hsz := BlocksRep_size_pos _ inv.slabs _ _ _ _ _ _ _ _ hbr
    have hne : ∀ x ∈ h :: rest, x.idx ≠ END_CHAIN := fun x hx =>
      block_idx_ne_end hash idx chains inv s c hc x (by rw [hb]; exact hx) (hsz x hx)
    have hbr2 : BlocksRep idx.m_slab_size idx.m_data (start_cursor idx c).m_tail_block
        (head_block.tail_byte_offset idx.m_data h.idx) 0 (HEAD_PL_OFFSET + c.term.length) 0 0
        (h :: rest) := by
      show BlocksRep idx.m_slab_size idx.m_data (idx.tail_block c.head) _ 0 _ 0 0 (h :: rest)
      rw [e]
      exact hbr
    have hhead : ∀ x ∈ rest, x.idx ≠ (start_cursor idx c).m_head_block := by
      intro x hx
      show x.idx ≠ c.head
      rw [e]
      have h1 := (List.pairwise_cons.1 hord).1 x hx
      have h2 := hsz h (List.mem_cons_self _ _)
      omega
    unfold canon_states at hcur
    unfold canon_states canon_end
    rw [hb] at hcur ⊢
    unfold Chain.posts at hfuel
    rw [hb] at hfuel
    refine next_geq_chain idx (start_cursor idx c) _ target fuel ht32 (h :: rest) 0 _ 0 0 hbr2
      hne ?_ (fun hj => absurd rfl hj) (fun x hx => hhead x (by simpa using hx))
      (by norm_num) hfuel cur hcur hlt
    intro _ b hb2
    simp only [List.head?_cons, Option.mem_def, Option.some.injEq] at hb2
    subst hb2
    refine ⟨e.symm, ?_, rfl⟩
    simp only [head_data_offset, head_block.data_offset, hwl]

end

section
open immediate_index postings_cursor

theorem build_inv (hash : List Nat → Nat) (S : Nat → Nat) (N H : Nat)
    (calls : List insert_call) (idx : immediate_index)
    (hS : SlabsOK S) (hH : 0 < H) (hN : N ≤ 2 ^ 32) (hv : ValidCalls calls)
    (hrun : run_inserts hash (mk_sized S N H) calls = some idx) :
    ∃ chains, IndexInv hash idx chains ∧ Tracks chains (postings_of calls) := by
  obtain ⟨chains, inv, tr⟩ := run_inserts_inv hash calls _ _ (fun _ => [])
    (inv_init hash S N H hS hH hN) tracks_init
    (fun c hc => ⟨(hv.1 c hc).2.2.2.2.2.1, (hv.1 c hc).2.2.2.2.2.2⟩)
    (fun t => by simpa using valid_calls_posts calls hv t) idx hrun
  refine ⟨chains, inv, ?_⟩
  simpa using tr

theorem PostsOK_pairwise (ps : List (Nat × Nat)) : ∀ lo, PostsOK lo ps →
    ps.Pairwise (fun a b => a.1 < b.1) := by
  induction ps with
  | nil =>
    intro _ _
    exact List.Pairwise.nil
  | cons q qs ih =>
    intro lo h
    rw [List.pairwise_cons]
    exact ⟨fun p hp => (PostsOK_mem qs q.1 h.2.2.2.2 p hp).1, ih q.1 h.2.2.2.2⟩

theorem chain_posts_ok (hash : List Nat → Nat) (idx : immediate_index)
    (chains : Nat → Option Chain) (inv : IndexInv hash idx chains) (s : Nat) (c : Chain)
    (hc : chains s = some c) : PostsOK 0 c.posts := by
  obtain ⟨pre, last, hcb⟩ := chain_blocks_snoc _ _ c (inv.rep s c hc)
  exact (chain_facts _ inv.slabs _ c pre last hcb (inv.rep s c hc) (inv.ordered s c hc)).posts

theorem canon_sorted (hash : List Nat → Nat) (idx : immediate_index)
    (chains : Nat → Option Chain) (inv : IndexInv hash idx chains) (s : Nat) (c : Chain)
    (hc : chains s = some c) :
    (canon_states idx c).Pairwise (fun a b => a.m_current_docid < b.m_current_docid) ∧
    ∀ x ∈ canon_states idx c, (x.m_current_docid, x.m_current_tf) ∈ c.posts ∧
      x.m_current_docid < 2 ^ 30 := by
  have hobs := (follows_canon hash idx chains inv s c hc).2.1
  have hok := chain_posts_ok hash idx chains inv s c hc
  have hp := PostsOK_pairwise _ _ hok
  rw [← hobs, List.pairwise_map] at hp
  refine ⟨hp, fun x hx => ?_⟩
  have hm := List.mem_map_of_mem (fun c : postings_cursor => (c.docid, c.freq)) hx
  rw [hobs] at hm
  exact ⟨hm, (PostsOK_mem _ _ hok _ hm).2.2⟩

theorem geq_total (hash : List Nat → Nat) (idx : immediate_index)
    (chains : Nat → Option Chain) (inv : IndexInv hash idx chains) (s : Nat) (c : Chain)
    (hc : chains s = some c) (target : Nat) (ht32 : target < 2 ^ 32) :
    ∃ r, (canon_states idx c ++ [canon_end idx c]).find? (reached target) = some r := by
  have hend := (follows_canon hash idx chains inv s c hc).2.2
  apply Option.isSome_iff_exists.1
  rw [List.find?_isSome]
  refine ⟨canon_end idx c, by simp, ?_⟩
  simp only [reached, decide_eq_true_eq, hend, END_CHAIN]
  omega

theorem next_geq_any (hash : List Nat → Nat) (idx : immediate_index)
    (chains : Nat → Option Chain) (inv : IndexInv hash idx chains) (s : Nat) (c : Chain)
    (hc : chains s = some c) (target fuel : Nat) (ht32 : target < 2 ^ 32)
    (hfuel : c.posts.length + 2 ≤ fuel) (cur : postings_cursor)
    (hcur : cur ∈ canon_states idx c ++ [canon_end idx c]) :
    next_geq idx fuel cur target
      = if target ≤ cur.m_current_docid then some cur
        else (canon_states idx c ++ [canon_end idx c]).find? (reached target) := by
  by_cases h : target ≤ cur.m_current_docid
  · rw [if_pos h]
    unfold next_geq
    rw [if_pos h]
  · rw [if_neg h]
    rcases List.mem_append.1 hcur with hm | hm
    · exact next_geq_canon hash idx chains inv s c hc target fuel ht32 hfuel cur hm
        (Nat.lt_of_not_le h)
    · simp only [List.mem_singleton] at hm
      have hend := (follows_canon hash idx chains inv s c hc).2.2
      rw [hm, hend] at h
      simp only [END_CHAIN] at h
      omega

theorem find_reached_mono (l : List postings_cursor) (x y : Nat) (a : postings_cursor)
    (hxy : x ≤ y) (h : l.find? (reached x) = some a) (hy : y ≤ a.m_current_docid) :
    l.find? (reached y) = some a := by
  rw [List.find?_eq_some] at h ⊢
  obtain ⟨_, as, bs, e, hna⟩ := h
  refine ⟨by simpa [reached] using hy, as, bs, e, fun z hz => ?_⟩
  have := hna z hz
  simp only [reached, Bool.not_eq_true', decide_eq_false_iff_not, Nat.not_le] at this ⊢
  omega

theorem nexts_follows (idx : immediate_index) (l : List postings_cursor) :
    ∀ (x : postings_cursor) (k : Nat), Follows idx x l → k ≤ l.length →
    ∃ y, nexts idx k x = some y ∧ y ∈ x :: l ∧ (x :: l)[k]? = some y := by
  induction l with
  | nil =>
    intro x k _ hk
    simp only [List.length_nil, Nat.le_zero] at hk
    subst hk
    exact ⟨x, rfl, by simp, rfl⟩
  | cons a l ih =>
    intro x k hf hk
    cases k with
    | zero => exact ⟨x, rfl, by simp, rfl⟩
    | succ k =>
      obtain ⟨y, h1, h2, h3⟩ := ih a k hf.2 (by simpa using hk)
      refine ⟨y, ?_, List.mem_cons_of_mem _ h2, ?_⟩
      · rw [nexts, hf.1]
        exact h1
      · rw [List.getElem?_cons_succ]
        exact h3

theorem canon_all_sorted (hash : List Nat → Nat) (idx : immediate_index)
    (chains : Nat → Option Chain) (inv : IndexInv hash idx chains) (s : Nat) (c : Chain)
    (hc : chains s = some c) :
    (canon_states idx c ++ [canon_end idx c]).Pairwise
      (fun a b => a.m_current_docid < b.m_current_docid) := by
  obtain ⟨h1, h2⟩ := canon_sorted hash idx chains inv s c hc
  have hend := (follows_canon hash idx chains inv s c hc).2.2
  rw [List.pairwise_append]
  refine ⟨h1, List.pairwise_singleton _ _, fun a ha b hb => ?_⟩
  simp only [List.mem_singleton] at hb
  rw [hb, hend]
  have := (h2 a ha).2
  simp only [END_CHAIN]
  omega

theorem geq_post (hash : List Nat → Nat) (idx : immediate_index)
    (chains : Nat → Option Chain) (inv : IndexInv hash idx chains) (s : Nat) (c : Chain)
    (hc : chains s = some c) (target : Nat) (r : postings_cursor)
    (h : (canon_states idx c ++ [canon_end idx c]).find? (reached target) = some r) :
    ((r.m_current_docid, r.m_current_tf) ∈ c.posts ∧ target ≤ r.m_current_docid ∧
      ∀ p ∈ c.posts, target ≤ p.1 → r.m_current_docid ≤ p.1) ∨
    (r.m_current_docid = END_CHAIN ∧ ∀ p ∈ c.posts, p.1 < target) := by
  obtain ⟨_, h2⟩ := canon_sorted hash idx chains inv s c hc
  have hsorted := canon_all_sorted hash idx chains inv s c hc
  have hend := (follows_canon hash idx chains inv s c hc).2.2
  have hobs := (follows_canon hash idx chains inv s c hc).2.1
  have hr := List.mem_of_find?_eq_some h
  rw [List.find?_eq_some] at h
  obtain ⟨hreach, as, bs, e, hna⟩ := h
  simp only [reached, decide_eq_true_eq] at hreach
  rw [e, List.pairwise_append, List.pairwise_cons] at hsorted
  have hstate : ∀ p ∈ c.posts, ∃ x ∈ canon_states idx c,
      x.m_current_docid = p.1 ∧ (x ∈ as ∨ x = r ∨ x ∈ bs) := by
    intro p hp
    rw [← hobs, List.mem_map] at hp
    obtain ⟨x, hx, rfl⟩ := hp
    refine ⟨x, hx, rfl, ?_⟩
    have hxl : x ∈ canon_states idx c ++ [canon_end idx c] := List.mem_append_left _ hx
    rw [e] at hxl
    simpa using hxl
  have hlt : ∀ x ∈ as, x.m_current_docid < target := by
    intro x hx
    have := hna x hx
    simpa [reached] using this
  rcases List.mem_append.1 hr with hm | hm
  · left
    refine ⟨(h2 r hm).1, hreach, fun p hp hle => ?_⟩
    obtain ⟨x, _, e1, hx⟩ := hstate p hp
    rw [← e1] at hle ⊢
    rcases hx with hx | hx | hx
    · have := hlt x hx
      omega
    · rw [hx]
    · exact Nat.le_of_lt (hsorted.2.1.1 x hx)
  · right
    simp only [List.mem_singleton] at hm
    refine ⟨by rw [hm, hend], fun p hp => ?_⟩
    obtain ⟨x, hxc, e1, hx⟩ := hstate p hp
    have hx30 := (h2 x hxc).2
    rw [← e1]
    rcases hx with hx | hx | hx
    · exact hlt x hx
    · rw [hx, hm, hend] at hx30
      simp only [END_CHAIN] at hx30
      omega
    · have := hsorted.2.1.1 x hx
      rw [hm, hend] at this
      simp only [END_CHAIN] at this
      omega

theorem cursor_position (hash : List Nat → Nat) (idx : immediate_index)
    (chains : Nat → Option Chain) (inv : IndexInv hash idx chains) (s : Nat) (c : Chain)
    (hc : chains s = some c) (k : Nat) (hk : k < c.posts.length) :
    ∃ c0 cur, create hash idx c.term = some c0 ∧ nexts idx k c0 = some cur ∧
      c0 ∈ canon_states idx c ∧ cur ∈ canon_states idx c ∧
      (canon_states idx c)[k]? = some cur := by
  obtain ⟨hf, hobs, _⟩ := follows_canon hash idx chains inv s c hc
  have hlen : (canon_states idx c).length = c.posts.length := by
    rw [← hobs, List.length_map]
  cases hl : canon_states idx c with
  | nil =>
    rw [hl] at hlen
    simp only [List.length_nil] at hlen
    omega
  | cons a l =>
    rw [hl] at hf hlen
    rw [List.cons_append] at hf
    obtain ⟨y, h1, _, h3⟩ := nexts_follows idx (l ++ [canon_end idx c]) a k hf.2
      (by simp only [List.length_cons] at hlen; simp; omega)
    have h4 : (a :: l)[k]? = some y := by
      rw [← List.cons_append, List.getElem?_append_left (by rw [hlen]; exact hk)] at h3
      exact h3
    refine ⟨a, y, ?_, h1, List.mem_cons_self _ _, List.getElem?_mem h4, h4⟩
    rw [create_eq_next hash idx chains inv s c hc]
    exact hf.1

theorem next_geq_fresh (hash : List Nat → Nat) (idx : immediate_index)
    (chains : Nat → Option Chain) (inv : IndexInv hash idx chains) (s : Nat) (c : Chain)
    (hc : chains s = some c) (hne : c.posts ≠ []) (target fuel : Nat) (ht32 : target < 2 ^ 32)
    (hfuel : c.posts.length + 2 ≤ fuel) (c0 : postings_cursor)
    (hc0 : create hash idx c.term = some c0) :
    next_geq idx fuel c0 target
      = (canon_states idx c ++ [canon_end idx c]).find? (reached target) := by
  obtain ⟨a, cur, h1, h2, h3, _, h5⟩ := cursor_position hash idx chains inv s c hc 0
    (List.length_pos.2 hne)
  rw [hc0] at h1
  cases h1
  simp only [nexts, Option.some.injEq] at h2
  subst h2
  rw [next_geq_any hash idx chains inv s c hc target fuel ht32 hfuel c0
    (List.mem_append_left _ h3)]
  split_ifs with h
  · cases hl : canon_states idx c with
    | nil => rw [hl] at h3; cases h3
    | cons a l =>
      rw [hl] at h5
      simp only [List.getElem?_cons_zero, Option.some.injEq] at h5
      subst h5
      rw [List.cons_append, List.find?_cons]
      simp [reached, h]
  · rfl

theorem next_geq_twice (hash : List Nat → Nat) (idx : immediate_index)
    (chains : Nat → Option Chain) (inv : IndexInv hash idx chains) (s : Nat) (c : Chain)
    (hc : chains s = some c) (x y fuel : Nat) (hxy : x ≤ y) (hy32 : y < 2 ^ 32)
    (hfuel : c.posts.length + 2 ≤ fuel) (a1 : postings_cursor)
    (ha1 : (canon_states idx c ++ [canon_end idx c]).find? (reached x) = some a1) :
    next_geq idx fuel a1 y
      = (canon_states idx c ++ [canon_end idx c]).find? (reached y) := by
  rw [next_geq_any hash idx chains inv s c hc y fuel hy32 hfuel a1
    (List.mem_of_find?_eq_some ha1)]
  split_ifs with h
  · exact (find_reached_mono _ x y a1 hxy ha1 h).symm
  · rfl

theorem cursor_exists (hash : List Nat → Nat) (S : Nat → Nat) (N H : Nat)
    (calls : List insert_call) (idx : immediate_index) (t : List Nat)
    (hS : SlabsOK S) (hH : 0 < H) (hN : N ≤ 2 ^ 32) (hv : ValidCalls calls)
    (hrun : run_inserts hash (mk_sized S N H) calls = some idx)
    (k : Nat) (hk : k < (postings_of calls t).length) :
    ∃ c0 cur, create hash idx t = some c0 ∧ nexts idx k c0 = some cur := by
  obtain ⟨chains, inv, tr⟩ := build_inv hash S N H calls idx hS hH hN hv hrun
  obtain ⟨s, c, hc, e1, e2⟩ := (tr t).2 (List.ne_nil_of_length_pos (by omega))
  rw [← e2] at hk
  obtain ⟨c0, cur, h1, h2, _⟩ := cursor_position hash idx chains inv s c hc k hk
  rw [e1] at h1
  exact ⟨c0, cur, h1, h2⟩

end

section
open immediate_index postings_cursor

theorem follows_term (idx : immediate_index) (l : List postings_cursor) :
    ∀ x, Follows idx x l → ∀ y ∈ l, y.m_term = x.m_term := by
  induction l with
  | nil =>
    intro x _ y hy
    cases hy
  | cons a l ih =>
    intro x hf y hy
    have h1 := (next_fixed idx x a hf.1).2.2.2
    rcases List.mem_cons.1 hy with e | hm
    · rw [e, h1]
    · rw [ih a hf.2 y hm, h1]

theorem canon_term (hash : List Nat → Nat) (idx : immediate_index)
    (chains : Nat → Option Chain) (inv : IndexInv hash idx chains) (s : Nat) (ch : Chain)
    (hc : chains s = some ch) (c : postings_cursor)
    (hm : c ∈ canon_states idx ch ++ [canon_end idx ch]) : c.m_term = ch.term :=
  follows_term idx _ _ (follows_canon hash idx chains inv s ch hc).1 c hm

theorem canon_docid (hash : List Nat → Nat) (idx : immediate_index)
    (chains : Nat → Option Chain) (inv : IndexInv hash idx chains) (s : Nat) (ch : Chain)
    (hc : chains s = some ch) (c : postings_cursor)
    (hm : c ∈ canon_states idx ch ++ [canon_end idx ch]) :
    (c.m_current_docid = END_CHAIN ∧ c = canon_end idx ch) ∨
    (c.m_current_docid ∈ ch.posts.map Prod.fst ∧ c.m_current_docid < 2 ^ 30 ∧
      c ∈ canon_states idx ch) := by
  rcases List.mem_append.1 hm with h | h
  · right
    have := (canon_sorted hash idx chains inv s ch hc).2 c h
    exact ⟨List.mem_map.2 ⟨_, this.1, rfl⟩, this.2, h⟩
  · left
    simp only [List.mem_singleton] at h
    rw [h]
    exact ⟨(follows_canon hash idx chains inv s ch hc).2.2, rfl⟩

theorem canon_succ (hash : List Nat → Nat) (idx : immediate_index)
    (chains : Nat → Option Chain) (inv : IndexInv hash idx chains) (s : Nat) (ch : Chain)
    (hc : chains s = some ch) (c : postings_cursor)
    (hm : c ∈ canon_states idx ch ++ [canon_end idx ch])
    (hne : c.m_current_docid ≠ END_CHAIN) :
    ∃ c2, next idx c = some c2 ∧ c2 ∈ canon_states idx ch ++ [canon_end idx ch] ∧
      c.m_current_docid < c2.m_current_docid ∧
      ∀ d ∈ ch.posts.map Prod.fst, (c.m_current_docid < d ↔ c2.m_current_docid ≤ d) := by
  obtain ⟨hf, hobs, hend⟩ := follows_canon hash idx chains inv s ch hc
  have hsorted := canon_all_sorted hash idx chains inv s ch hc
  obtain ⟨pre, post, e⟩ := List.append_of_mem hm
  cases post with
  | nil =>
    exfalso
    have h1 : (canon_states idx ch ++ [canon_end idx ch]).getLast (by simp)
        = canon_end idx ch := by simp
    have h2 : (pre ++ [c]).getLast (by simp) = c := by simp
    have : c = canon_end idx ch := by
      rw [← h1, ← h2]
      congr 1
      exact e.symm
    rw [this] at hne
    exact hne hend
  | cons c2 post =>
    rw [e] at hf hsorted
    rw [Follows_append] at hf
    have hnext := hf.2.2.1
    rw [List.pairwise_append, List.pairwise_cons, List.pairwise_cons] at hsorted
    obtain ⟨_, ⟨hc1, hc2, _⟩, hpre⟩ := hsorted
    refine ⟨c2, hnext, by rw [e]; simp, hc1 c2 (List.mem_cons_self _ _), fun d hd => ?_⟩
    rw [← hobs, List.map_map, List.mem_map] at hd
    obtain ⟨x, hx, rfl⟩ := hd
    have hxl : x ∈ canon_states idx ch ++ [canon_end idx ch] := List.mem_append_left _ hx
    rw [e] at hxl
    simp only [List.mem_append, List.mem_cons] at hxl
    have h12 := hc1 c2 (List.mem_cons_self _ _)
    show c.m_current_docid < x.m_current_docid ↔ c2.m_current_docid ≤ x.m_current_docid
    rcases hxl with h | h | h | h
    · have := hpre x h c (List.mem_cons_self _ _)
      omega
    · rw [h]
      omega
    · rw [h]
      omega
    · have := hc2 x h
      omega

theorem tracked_geq (hash : List Nat → Nat) (idx : immediate_index)
    (chains : Nat → Option Chain) (inv : IndexInv hash idx chains) (D : List Nat → List Nat)
    (hD : ∀ s ch, chains s = some ch → ch.posts.map Prod.fst = D ch.term)
    (fuel bound cand : Nat) (c : postings_cursor) (h : Tracked idx chains fuel bound c)
    (hb : bound ≤ cand) (hc30 : cand < 2 ^ 30) :
    ∃ c1, next_geq idx fuel c cand = some c1 ∧ Tracked idx chains fuel cand c1 ∧
      c1.m_term = c.m_term ∧ (c1.m_current_docid = cand ↔ cand ∈ D c.m_term) := by
  obtain ⟨s, ch, x, hc, hx, hfuel, hfind⟩ := h
  obtain ⟨r, hr⟩ := geq_total hash idx chains inv s ch hc cand (by omega)
  have hgeq := next_geq_twice hash idx chains inv s ch hc x cand fuel (by omega) (by omega)
    hfuel c hfind
  rw [hr] at hgeq
  have t1 := canon_term hash idx chains inv s ch hc c (List.mem_of_find?_eq_some hfind)
  have t2 := canon_term hash idx chains inv s ch hc r (List.mem_of_find?_eq_some hr)
  refine ⟨r, hgeq, ⟨s, ch, cand, hc, Nat.le_refl _, hfuel, hr⟩, by rw [t1, t2], ?_⟩
  rw [t1, ← hD s ch hc]
  rcases geq_post hash idx chains inv s ch hc cand r hr with ⟨h1, h2, h3⟩ | ⟨h1, h2⟩
  · constructor
    · intro e
      rw [← e]
      exact List.mem_map.2 ⟨_, h1, rfl⟩
    · intro hm
      obtain ⟨p, hp, e⟩ := List.mem_map.1 hm
      have := h3 p hp (by rw [e])
      rw [e] at this
      omega
  · constructor
    · intro e
      rw [h1] at e
      simp only [END_CHAIN] at e
      omega
    · intro hm
      obtain ⟨p, hp, e⟩ := List.mem_map.1 hm
      have := h2 p hp
      rw [e] at this
      omega

theorem tracked_mono (idx : immediate_index) (chains : Nat → Option Chain)
    (fuel b1 b2 : Nat) (c : postings_cursor) (h : Tracked idx chains fuel b1 c)
    (hb : b1 ≤ b2) : Tracked idx chains fuel b2 c := by
  obtain ⟨s, ch, x, hc, hx, hfuel, hfind⟩ := h
  exact ⟨s, ch, x, hc, Nat.le_trans hx hb, hfuel, hfind⟩

theorem conj_for_spec (hash : List Nat → Nat) (idx : immediate_index)
    (chains : Nat → Option Chain) (inv : IndexInv hash idx chains) (D : List Nat → List Nat)
    (hD : ∀ s ch, chains s = some ch → ch.posts.map Prod.fst = D ch.term)
    (fuel cand : Nat) (hc30 : cand < 2 ^ 30) (others : List postings_cursor) :
    (∀ c ∈ others, Tracked idx chains fuel cand c) →
    ∃ all others1, boolean_conjunction_for idx fuel cand others = some (all, others1) ∧
      (all = true ↔ ∀ c ∈ others, cand ∈ D c.m_term) ∧
      (∀ c ∈ others1, Tracked idx chains fuel cand c) ∧
      others1.map (fun c => c.m_term) = others.map (fun c => c.m_term) := by
  induction others with
  | nil =>
    intro _
    exact ⟨true, [], rfl, by simp, by simp, rfl⟩
  | cons c rest ih =>
    intro htr
    obtain ⟨c1, h1, h2, h3, h4⟩ := tracked_geq hash idx chains inv D hD fuel cand cand c
      (htr c (List.mem_cons_self _ _)) (Nat.le_refl _) hc30
    have hrest : ∀ x ∈ rest, Tracked idx chains fuel cand x :=
      fun x hx => htr x (List.mem_cons_of_mem _ hx)
    unfold boolean_conjunction_for
    rw [h1]
    by_cases hd : c1.m_current_docid = cand
    · obtain ⟨all, o1, e1, e2, e3, e4⟩ := ih hrest
      simp only [postings_cursor.docid, hd, ne_eq, not_true_eq_false, if_false, e1]
      refine ⟨all, c1 :: o1, rfl, ?_, ?_, ?_⟩
      · rw [e2]
        simp only [List.mem_cons, forall_eq_or_imp]
        exact ⟨fun h => ⟨h4.1 hd, h⟩, fun h => h.2⟩
      · intro x hx
        rcases List.mem_cons.1 hx with e | hm
        · rw [e]
          exact h2
        · exact e3 x hm
      · simp only [List.map_cons, h3, e4]
    · simp only [postings_cursor.docid, hd, ne_eq, not_false_eq_true, if_true]
      refine ⟨false, c1 :: rest, rfl, ?_, ?_, ?_⟩
      · simp only [Bool.false_eq_true, List.mem_cons, forall_eq_or_imp, false_iff, not_and]
        intro hc
        exact absurd (h4.2 hc) hd
      · intro x hx
        rcases List.mem_cons.1 hx with e | hm
        · rw [e]
          exact h2
        · exact hrest x hm
      · simp only [List.map_cons, h3]

theorem conj_while_spec (hash : List Nat → Nat) (idx : immediate_index)
    (chains : Nat → Option Chain) (inv : IndexInv hash idx chains) (D : List Nat → List Nat)
    (hD : ∀ s ch, chains s = some ch → ch.posts.map Prod.fst = D ch.term)
    (fuel : Nat) (ts : List (List Nat)) (e : postings_cursor)
    (he : e.m_current_docid = END_CHAIN) (sts : List postings_cursor) :
    ∀ (lead : postings_cursor) (tl others : List postings_cursor) (res n : Nat),
    lead :: tl = sts ++ [e] → Follows idx lead tl →
    (sts ++ [e]).Pairwise (fun a b => a.m_current_docid < b.m_current_docid) →
    (∀ st ∈ sts, st.m_current_docid < 2 ^ 30) →
    (∀ c ∈ others, Tracked idx chains fuel lead.m_current_docid c) →
    others.map (fun c => c.m_term) = ts → sts.length + 1 ≤ n →
    boolean_conjunction_while idx fuel n lead others res
      = some (res + (sts.map (fun c => c.m_current_docid)).countP
          (fun d => decide (∀ t ∈ ts, d ∈ D t))) := by
  induction sts with
  | nil =>
    intro lead tl others res n hl _ _ _ _ _ hn
    obtain ⟨m, rfl⟩ : ∃ m, n = m + 1 := ⟨n - 1, by simp at hn; omega⟩
    simp only [List.nil_append, List.cons.injEq] at hl
    rw [hl.1]
    simp [boolean_conjunction_while, postings_cursor.docid, he]
  | cons a sts ih =>
    intro lead tl others res n hl hf hs h30 htr hts hn
    obtain ⟨m, rfl⟩ : ∃ m, n = m + 1 := ⟨n - 1, by simp at hn; omega⟩
    simp only [List.cons_append, List.cons.injEq] at hl
    obtain ⟨rfl, rfl⟩ := hl
    have ha30 := h30 lead (List.mem_cons_self _ _)
    have hane : lead.m_current_docid ≠ END_CHAIN := by
      simp only [END_CHAIN]
      omega
    obtain ⟨all, o1, e1, e2, e3, e4⟩ := conj_for_spec hash idx chains inv D hD fuel
      lead.m_current_docid ha30 others htr
    rw [List.cons_append, List.pairwise_cons] at hs
    cases htl : sts ++ [e] with
    | nil => simp at htl
    | cons lead1 tl1 =>
      rw [htl] at hf hs
      have hle := hs.1 lead1 (List.mem_cons_self _ _)
      have hih := ih lead1 tl1 o1 (if all = true then res + 1 else res) m htl.symm hf.2
        (by rw [htl]; exact hs.2) (fun st hst => h30 st (List.mem_cons_of_mem _ hst))
        (fun c hc => tracked_mono idx chains fuel _ _ c (e3 c hc) (Nat.le_of_lt hle))
        (by rw [e4, hts]) (by simp at hn ⊢; omega)
      unfold boolean_conjunction_while
      simp only [postings_cursor.docid, hane, ne_eq, not_false_eq_true, if_true, e1, hf.1]
      rw [hih, List.map_cons, List.countP_cons]
      have hall : all = true ↔ ∀ t ∈ ts, lead.m_current_docid ∈ D t := by
        rw [e2, ← hts]
        simp only [List.mem_map, forall_exists_index, and_imp, forall_apply_eq_imp_iff₂]
      congr 1
      by_cases hA : all = true
      · rw [if_pos hA, if_pos (by simpa using hall.1 hA)]
        omega
      · rw [if_neg hA, if_neg (by simpa using fun h => hA (hall.2 h))]
        omega

theorem fresh_tracked (hash : List Nat → Nat) (idx : immediate_index)
    (chains : Nat → Option Chain) (inv : IndexInv hash idx chains) (s : Nat) (ch : Chain)
    (hc : chains s = some ch) (hne : ch.posts ≠ []) (c : postings_cursor)
    (hc0 : create hash idx ch.term = some c) :
    ∃ l, canon_states idx ch = c :: l ∧ c.m_term = ch.term ∧
      (canon_states idx ch ++ [canon_end idx ch]).find? (reached 0) = some c := by
  obtain ⟨a, cur, h1, h2, h3, _, h5⟩ := cursor_position hash idx chains inv s ch hc 0
    (List.length_pos.2 hne)
  rw [hc0] at h1
  cases h1
  cases hl : canon_states idx ch with
  | nil => rw [hl] at h3; cases h3
  | cons a l =>
    rw [hl] at h5
    simp only [nexts, Option.some.injEq] at h2
    simp only [List.getElem?_cons_zero, Option.some.injEq] at h5
    subst h2
    subst h5
    refine ⟨l, rfl, canon_term hash idx chains inv s ch hc a (by rw [hl]; simp), ?_⟩
    rw [List.cons_append, List.find?_cons]
    simp [reached]

theorem conj_spec (hash : List Nat → Nat) (idx : immediate_index)
    (chains : Nat → Option Chain) (inv : IndexInv hash idx chains) (D : List Nat → List Nat)
    (hD : ∀ s ch, chains s = some ch → ch.posts.map Prod.fst = D ch.term)
    (fuel : Nat) (sort : List postings_cursor → List postings_cursor)
    (hsort : ∀ l, (sort l).Perm l) (cursors : List postings_cursor)
    (hfresh : ∀ c ∈ cursors, ∃ s ch, chains s = some ch ∧ ch.posts ≠ [] ∧
      create hash idx ch.term = some c ∧ ch.posts.length + 2 ≤ fuel)
    (hne : cursors ≠ []) :
    ∃ I : Finset Nat, (∀ d, d ∈ I ↔ ∀ c ∈ cursors, d ∈ D c.m_term) ∧
      boolean_conjunction idx sort fuel cursors = some I.card := by
  have hperm := hsort cursors
  unfold boolean_conjunction
  rw [if_neg (by simpa using hne)]
  cases hso : sort cursors with
  | nil =>
    rw [hso] at hperm
    exact absurd (List.Perm.eq_nil hperm.symm) hne
  | cons lead others =>
    rw [hso] at hperm
    have hmem : ∀ c, c ∈ cursors ↔ c ∈ lead :: others := fun c => (hperm.mem_iff).symm
    obtain ⟨s, ch, hc, hpne, hcr, hfuel⟩ := hfresh lead ((hmem lead).2 (List.mem_cons_self _ _))
    obtain ⟨l, hl, hterm, _⟩ := fresh_tracked hash idx chains inv s ch hc hpne lead hcr
    obtain ⟨hf, hobs, hend⟩ := follows_canon hash idx chains inv s ch hc
    have hsorted := canon_all_sorted hash idx chains inv s ch hc
    have h30 := canon_sorted hash idx chains inv s ch hc
    have hlen : (canon_states idx ch).length = ch.posts.length := by
      rw [← hobs, List.length_map]
    have hdoc : (canon_states idx ch).map (fun c => c.m_current_docid) = D lead.m_term := by
      rw [hterm, ← hD s ch hc, ← hobs, List.map_map]
      rfl
    have htr : ∀ c ∈ others, Tracked idx chains fuel lead.m_current_docid c := by
      intro c hcm
      obtain ⟨s2, ch2, hc2, hp2, hcr2, hfuel2⟩ := hfresh c ((hmem c).2
        (List.mem_cons_of_mem _ hcm))
      obtain ⟨_, _, _, hfind⟩ := fresh_tracked hash idx chains inv s2 ch2 hc2 hp2 c hcr2
      exact ⟨s2, ch2, 0, hc2, Nat.zero_le _, hfuel2, hfind⟩
    have hw := conj_while_spec hash idx chains inv D hD fuel
      (others.map (fun c => c.m_term)) (canon_end idx ch) hend (canon_states idx ch) lead
      (l ++ [canon_end idx ch]) others 0 fuel (by rw [hl]; rfl)
      (by rw [hl, List.cons_append] at hf; exact hf.2) hsorted (fun st hst => (h30.2 st hst).2)
      htr rfl (by omega)
    show ∃ I : Finset Nat, (∀ d, d ∈ I ↔ ∀ c ∈ cursors, d ∈ D c.m_term) ∧
      boolean_conjunction_while idx fuel fuel lead others 0 = some I.card
    rw [hw, hdoc, Nat.zero_add, List.countP_eq_length_filter]
    have hnodup : (D lead.m_term).Nodup := by
      rw [← hdoc]
      unfold List.Nodup
      rw [List.pairwise_map]
      exact h30.1.imp (fun h => Nat.ne_of_lt h)
    refine ⟨((D lead.m_term).filter
      (fun d => decide (∀ t ∈ others.map (fun c : postings_cursor => c.m_term),
        d ∈ D t))).toFinset, ?_, ?_⟩
    · intro d
      simp only [List.mem_toFinset, List.mem_filter, decide_eq_true_eq, List.mem_map,
        forall_exists_index, and_imp, forall_apply_eq_imp_iff₂]
      constructor
      · intro h c hcm
        rcases List.mem_cons.1 ((hmem c).1 hcm) with e | hm
        · rw [e]
          exact h.1
        · exact h.2 c hm
      · intro h
        exact ⟨h lead ((hmem lead).2 (List.mem_cons_self _ _)),
          fun c hcm => h c ((hmem c).2 (List.mem_cons_of_mem _ hcm))⟩
    · rw [List.toFinset_card_of_nodup (hnodup.filter _)]

theorem tracks_posts (hash : List Nat → Nat) (idx : immediate_index)
    (chains : Nat → Option Chain) (P : List Nat → List (Nat × Nat))
    (inv : IndexInv hash idx chains) (tr : Tracks chains P) (s : Nat) (ch : Chain)
    (hc : chains s = some ch) : ch.posts = P ch.term ∧ P ch.term ≠ [] := by
  have hne : P ch.term ≠ [] := fun h => (tr ch.term).1 h s ch hc rfl
  obtain ⟨s2, c2, h2, e1, e2⟩ := (tr ch.term).2 hne
  have := inv.distinct s2 s c2 ch h2 hc e1
  subst this
  rw [hc] at h2
  cases h2
  exact ⟨e2, hne⟩

theorem forall2_left {α β : Type} (R : α → β → Prop) (l1 : List α) (l2 : List β)
    (h : List.Forall₂ R l1 l2) : ∀ a ∈ l1, ∃ b ∈ l2, R a b := by
  induction h with
  | nil =>
    intro a ha
    cases ha
  | cons hr _ ih =>
    intro a ha
    rcases List.mem_cons.1 ha with e | hm
    · subst e
      exact ⟨_, List.mem_cons_self _ _, hr⟩
    · obtain ⟨b, hb, hab⟩ := ih a hm
      exact ⟨b, List.mem_cons_of_mem _ hb, hab⟩

theorem forall2_right {α β : Type} (R : α → β → Prop) (l1 : List α) (l2 : List β)
    (h : List.Forall₂ R l1 l2) : ∀ b ∈ l2, ∃ a ∈ l1, R a b := by
  induction h with
  | nil =>
    intro b hb
    cases hb
  | cons hr _ ih =>
    intro b hb
    rcases List.mem_cons.1 hb with e | hm
    · subst e
      exact ⟨_, List.mem_cons_self _ _, hr⟩
    · obtain ⟨a, ha, hab⟩ := ih b hm
      exact ⟨a, List.mem_cons_of_mem _ ha, hab⟩

/-- What the construction of cursors for the terms of a query gives over a built index. -/
theorem query_cursors (hash : List Nat → Nat) (idx : immediate_index)
    (chains : Nat → Option Chain) (P : List Nat → List (Nat × Nat))
    (inv : IndexInv hash idx chains) (tr : Tracks chains P)
    (terms : List (List Nat)) (cursors : List postings_cursor) (fuel : Nat)
    (hterms : ∀ t ∈ terms, P t ≠ [])
    (hcur : List.Forall₂ (fun t c => create hash idx t = some c) terms cursors)
    (hfuel : ∀ t ∈ terms, (P t).length + 2 ≤ fuel) :
    (∀ s ch, chains s = some ch → ch.posts.map Prod.fst = (P ch.term).map Prod.fst) ∧
    (∀ c ∈ cursors, ∃ s ch, chains s = some ch ∧ ch.posts ≠ [] ∧
      create hash idx ch.term = some c ∧ ch.posts.length + 2 ≤ fuel) ∧
    (∀ c ∈ cursors, c.m_term ∈ terms) ∧ (∀ t ∈ terms, ∃ c ∈ cursors, c.m_term = t) := by
  have hkey : ∀ t ∈ terms, ∀ c, create hash idx t = some c →
      ∃ s ch, chains s = some ch ∧ ch.posts ≠ [] ∧ create hash idx ch.term = some c ∧
        ch.posts.length + 2 ≤ fuel ∧ c.m_term = t := by
    intro t ht c hc
    obtain ⟨s, ch, h1, e1, e2⟩ := (tr t).2 (hterms t ht)
    have hne : ch.posts ≠ [] := by rw [e2]; exact hterms t ht
    rw [← e1] at hc
    obtain ⟨_, _, h3, _⟩ := fresh_tracked hash idx chains inv s ch h1 hne c hc
    exact ⟨s, ch, h1, hne, hc, by rw [e2]; exact hfuel t ht, by rw [h3, e1]⟩
  refine ⟨fun s ch hc => by rw [(tracks_posts hash idx chains P inv tr s ch hc).1], ?_, ?_, ?_⟩
  · intro c hc
    obtain ⟨t, ht, h⟩ := forall2_right _ _ _ hcur c hc
    obtain ⟨s, ch, h1, h2, h3, h4, _⟩ := hkey t ht c h
    exact ⟨s, ch, h1, h2, h3, h4⟩
  · intro c hc
    obtain ⟨t, ht, h⟩ := forall2_right _ _ _ hcur c hc
    obtain ⟨s, ch, _, _, _, _, h5⟩ := hkey t ht c h
    rw [h5]
    exact ht
  · intro t ht
    obtain ⟨c, hc, h⟩ := forall2_left _ _ _ hcur t ht
    obtain ⟨s, ch, _, _, _, _, h5⟩ := hkey t ht c h
    exact ⟨c, hc, h5⟩

theorem cursors_exist (hash : List Nat → Nat) (S : Nat → Nat) (N H : Nat)
    (calls : List insert_call) (idx : immediate_index)
    (hS : SlabsOK S) (hH : 0 < H) (hN : N ≤ 2 ^ 32) (hv : ValidCalls calls)
    (hrun : run_inserts hash (mk_sized S N H) calls = some idx) (terms : List (List Nat))
    (hterms : ∀ t ∈ terms, postings_of calls t ≠ []) :
    ∃ cursors, List.Forall₂ (fun t c => create hash idx t = some c) terms cursors := by
  induction terms with
  | nil => exact ⟨[], List.Forall₂.nil⟩
  | cons t rest ih =>
    obtain ⟨cs, hcs⟩ := ih (fun x hx => hterms x (List.mem_cons_of_mem _ hx))
    obtain ⟨c0, _, h1, _⟩ := cursor_exists hash S N H calls idx t hS hH hN hv hrun 0
      (List.length_pos.2 (hterms t (List.mem_cons_self _ _)))
    exact ⟨c0 :: cs, List.Forall₂.cons h1 hcs⟩

theorem wsort_perm (l : List postings_cursor) : (wsort l).Perm l :=
  List.perm_insertionSort _ l

end

section
open immediate_index postings_cursor

theorem mem_remaining (D : List Nat → List Nat) (cs : List postings_cursor) (d : Nat) :
    d ∈ remaining D cs ↔ ∃ c ∈ cs, d ∈ D c.m_term ∧ c.m_current_docid ≤ d := by
  unfold remaining
  simp only [List.mem_toFinset, List.mem_flatMap, List.mem_filter, decide_eq_true_eq]

theorem onchain_docid (hash : List Nat → Nat) (idx : immediate_index)
    (chains : Nat → Option Chain) (inv : IndexInv hash idx chains) (D : List Nat → List Nat)
    (hD : ∀ s ch, chains s = some ch → ch.posts.map Prod.fst = D ch.term)
    (c : postings_cursor) (h : OnChain idx chains c) :
    c.m_current_docid ≤ END_CHAIN ∧ (∀ d ∈ D c.m_term, d < 2 ^ 30) ∧
    (c.m_current_docid ≠ END_CHAIN → c.m_current_docid ∈ D c.m_term) := by
  obtain ⟨s, ch, hc, hm⟩ := h
  have ht := canon_term hash idx chains inv s ch hc c hm
  have hok := chain_posts_ok hash idx chains inv s ch hc
  rw [ht, ← hD s ch hc]
  refine ⟨?_, ?_, ?_⟩
  · rcases canon_docid hash idx chains inv s ch hc c hm with h | h
    · rw [h.1]
    · have := h.2.1
      simp only [END_CHAIN]
      omega
  · intro d hd
    obtain ⟨p, hp, rfl⟩ := List.mem_map.1 hd
    exact (PostsOK_mem _ _ hok p hp).2.2
  · intro hne
    rcases canon_docid hash idx chains inv s ch hc c hm with h | h
    · exact absurd h.1 hne
    · exact h.1

theorem onchain_step (hash : List Nat → Nat) (idx : immediate_index)
    (chains : Nat → Option Chain) (inv : IndexInv hash idx chains) (D : List Nat → List Nat)
    (hD : ∀ s ch, chains s = some ch → ch.posts.map Prod.fst = D ch.term)
    (cand : Nat) (hcne : cand ≠ END_CHAIN) (c : postings_cursor)
    (h : OnChain idx chains c) (hle : cand ≤ c.m_current_docid) :
    ∃ c1, (if c.docid = cand then next idx c else some c) = some c1 ∧
      OnChain idx chains c1 ∧ cand < c1.m_current_docid ∧ c1.m_term = c.m_term ∧
      ∀ d, (d ∈ D c1.m_term ∧ c1.m_current_docid ≤ d) ↔
        ((d ∈ D c.m_term ∧ c.m_current_docid ≤ d) ∧ d ≠ cand) := by
  by_cases he : c.m_current_docid = cand
  · obtain ⟨s, ch, hc, hm⟩ := h
    obtain ⟨c2, h1, h2, h3, h4⟩ := canon_succ hash idx chains inv s ch hc c hm
      (by rw [he]; exact hcne)
    have t1 := canon_term hash idx chains inv s ch hc c hm
    have t2 := canon_term hash idx chains inv s ch hc c2 h2
    refine ⟨c2, by simp only [postings_cursor.docid, he, if_true, h1], ⟨s, ch, hc, h2⟩,
      by omega, by rw [t1, t2], fun d => ?_⟩
    rw [t1, t2, ← hD s ch hc]
    constructor
    · rintro ⟨hd, hle2⟩
      have := (h4 d hd).2 hle2
      exact ⟨⟨hd, by omega⟩, by omega⟩
    · rintro ⟨⟨hd, hle2⟩, hne⟩
      exact ⟨hd, (h4 d hd).1 (by omega)⟩
  · refine ⟨c, by simp only [postings_cursor.docid, he, if_false], h, by omega, rfl,
      fun d => ?_⟩
    constructor
    · rintro ⟨hd, hle2⟩
      exact ⟨⟨hd, hle2⟩, by omega⟩
    · rintro ⟨h1, _⟩
      exact h1

theorem disj_for_spec (hash : List Nat → Nat) (idx : immediate_index)
    (chains : Nat → Option Chain) (inv : IndexInv hash idx chains) (D : List Nat → List Nat)
    (hD : ∀ s ch, chains s = some ch → ch.posts.map Prod.fst = D ch.term)
    (cand : Nat) (hcne : cand ≠ END_CHAIN) (cs : List postings_cursor) :
    ∀ nd0, (∀ c ∈ cs, OnChain idx chains c ∧ cand ≤ c.m_current_docid) →
    ∃ cs1 nd, boolean_disjunction_for idx cand cs nd0 = some (cs1, nd) ∧
      (∀ c ∈ cs1, OnChain idx chains c ∧ nd ≤ c.m_current_docid) ∧ nd ≤ nd0 ∧
      (nd = nd0 ∨ ∃ c ∈ cs1, c.m_current_docid = nd) ∧
      (∀ d, (∃ c ∈ cs1, d ∈ D c.m_term ∧ c.m_current_docid ≤ d) ↔
        ((∃ c ∈ cs, d ∈ D c.m_term ∧ c.m_current_docid ≤ d) ∧ d ≠ cand)) ∧
      cs1.length = cs.length := by
  induction cs with
  | nil =>
    intro nd0 _
    exact ⟨[], nd0, rfl, by simp, Nat.le_refl _, Or.inl rfl, by simp, rfl⟩
  | cons c rest ih =>
    intro nd0 hcs
    obtain ⟨c1, h1, h2, h3, h4, h5⟩ := onchain_step hash idx chains inv D hD cand hcne c
      (hcs c (List.mem_cons_self _ _)).1 (hcs c (List.mem_cons_self _ _)).2
    obtain ⟨cs1, nd, e1, e2, e3, e4, e5, e6⟩ :=
      ih (if c1.docid < nd0 then c1.docid else nd0)
        (fun x hx => hcs x (List.mem_cons_of_mem _ hx))
    have hmin : (if c1.docid < nd0 then c1.docid else nd0) ≤ nd0 ∧
        (if c1.docid < nd0 then c1.docid else nd0) ≤ c1.m_current_docid ∧
        ((if c1.docid < nd0 then c1.docid else nd0) = nd0 ∨
          (if c1.docid < nd0 then c1.docid else nd0) = c1.m_current_docid) := by
      unfold postings_cursor.docid
      split_ifs <;> omega
    unfold boolean_disjunction_for
    rw [h1]
    simp only [e1]
    refine ⟨c1 :: cs1, nd, rfl, ?_, by omega, ?_, ?_, by simp [e6]⟩
    · intro x hx
      rcases List.mem_cons.1 hx with e | hm
      · rw [e]
        exact ⟨h2, by omega⟩
      · exact e2 x hm
    · rcases e4 with e | ⟨x, hx, e⟩
      · rcases hmin.2.2 with e7 | e7
        · exact Or.inl (by omega)
        · exact Or.inr ⟨c1, List.mem_cons_self _ _, by omega⟩
      · exact Or.inr ⟨x, List.mem_cons_of_mem _ hx, e⟩
    · intro d
      simp only [List.mem_cons, exists_eq_or_imp]
      rw [h5 d, e5 d]
      tauto

theorem disj_while_spec (hash : List Nat → Nat) (idx : immediate_index)
    (chains : Nat → Option Chain) (inv : IndexInv hash idx chains) (D : List Nat → List Nat)
    (hD : ∀ s ch, chains s = some ch → ch.posts.map Prod.fst = D ch.term) (k : Nat) :
    ∀ (cs : List postings_cursor) (cand res n : Nat), (remaining D cs).card = k →
    (∀ c ∈ cs, OnChain idx chains c ∧ cand ≤ c.m_current_docid) →
    (cand = END_CHAIN ∨ ∃ c ∈ cs, c.m_current_docid = cand) → k + 1 ≤ n →
    ∃ final, boolean_disjunction_while idx n cs cand res = some (res + k, final) ∧
      (∀ c ∈ final, c.m_current_docid = END_CHAIN) ∧ final.length = cs.length := by
  induction k with
  | zero =>
    intro cs cand res n hk hcs hatt hn
    obtain ⟨m, rfl⟩ : ∃ m, n = m + 1 := ⟨n - 1, by omega⟩
    have hend : cand = END_CHAIN := by
      by_contra hne
      rcases hatt with h | ⟨c, hc, e⟩
      · exact hne h
      · have h1 := (onchain_docid hash idx chains inv D hD c (hcs c hc).1).2.2
          (by rw [e]; exact hne)
        have : cand ∈ remaining D cs := by
          rw [mem_remaining]
          exact ⟨c, hc, by rw [← e]; exact h1, by omega⟩
        rw [Finset.card_eq_zero] at hk
        rw [hk] at this
        simp at this
    refine ⟨cs, ?_, ?_, rfl⟩
    · unfold boolean_disjunction_while
      rw [if_neg (by simpa using hend)]
      rfl
    · intro c hc
      have h1 := (onchain_docid hash idx chains inv D hD c (hcs c hc).1).1
      have h2 := (hcs c hc).2
      omega
  | succ k ih =>
    intro cs cand res n hk hcs hatt hn
    obtain ⟨m, rfl⟩ : ∃ m, n = m + 1 := ⟨n - 1, by omega⟩
    have hne : cand ≠ END_CHAIN := by
      intro hend
      have : remaining D cs = ∅ := by
        apply Finset.eq_empty_of_forall_not_mem
        intro d hd
        rw [mem_remaining] at hd
        obtain ⟨c, hc, h1, h2⟩ := hd
        have h3 := (onchain_docid hash idx chains inv D hD c (hcs c hc).1).2.1 d h1
        have h4 := (hcs c hc).2
        rw [hend] at h4
        simp only [END_CHAIN] at h4
        omega
      rw [this] at hk
      simp at hk
    have hcm : cand ∈ remaining D cs := by
      rcases hatt with h | ⟨c, hc, e⟩
      · exact absurd h hne
      · have h1 := (onchain_docid hash idx chains inv D hD c (hcs c hc).1).2.2
          (by rw [e]; exact hne)
        rw [mem_remaining]
        exact ⟨c, hc, by rw [← e]; exact h1, by omega⟩
    obtain ⟨cs1, nd, e1, e2, e3, e4, e5, e6⟩ := disj_for_spec hash idx chains inv D hD cand hne
      cs END_CHAIN hcs
    have hrem : remaining D cs1 = (remaining D cs).erase cand := by
      ext d
      rw [Finset.mem_erase, mem_remaining, mem_remaining, e5 d]
      tauto
    have hk1 : (remaining D cs1).card = k := by
      rw [hrem, Finset.card_erase_of_mem hcm, hk]
      rfl
    obtain ⟨final, f1, f2, f3⟩ := ih cs1 nd (res + 1) m hk1 e2 e4 (by omega)
    refine ⟨final, ?_, f2, by rw [f3, e6]⟩
    unfold boolean_disjunction_while
    rw [if_pos hne, e1]
    simp only
    rw [f1]
    congr 2
    omega

theorem min_docid_fold (rest : List postings_cursor) : ∀ m0 : Nat,
    rest.foldl (fun m x => if x.docid < m then x.docid else m) m0 ≤ m0 ∧
    (∀ x ∈ rest, rest.foldl (fun m x => if x.docid < m then x.docid else m) m0
      ≤ x.m_current_docid) ∧
    (rest.foldl (fun m x => if x.docid < m then x.docid else m) m0 = m0 ∨
      ∃ x ∈ rest, x.m_current_docid
        = rest.foldl (fun m x => if x.docid < m then x.docid else m) m0) := by
  induction rest with
  | nil =>
    intro m0
    exact ⟨Nat.le_refl _, by simp, Or.inl rfl⟩
  | cons a rest ih =>
    intro m0
    rw [List.foldl_cons]
    obtain ⟨h1, h2, h3⟩ := ih (if a.docid < m0 then a.docid else m0)
    have hmin : (if a.docid < m0 then a.docid else m0) ≤ m0 ∧
        (if a.docid < m0 then a.docid else m0) ≤ a.m_current_docid ∧
        ((if a.docid < m0 then a.docid else m0) = m0 ∨
          (if a.docid < m0 then a.docid else m0) = a.m_current_docid) := by
      unfold postings_cursor.docid
      split_ifs <;> omega
    refine ⟨by omega, ?_, ?_⟩
    · intro x hx
      rcases List.mem_cons.1 hx with e | hm
      · rw [e]
        omega
      · exact h2 x hm
    · rcases h3 with e | ⟨x, hx, e⟩
      · rcases hmin.2.2 with e7 | e7
        · exact Or.inl (by omega)
        · exact Or.inr ⟨a, List.mem_cons_self _ _, by omega⟩
      · exact Or.inr ⟨x, List.mem_cons_of_mem _ hx, e⟩

theorem disj_spec (hash : List Nat → Nat) (idx : immediate_index)
    (chains : Nat → Option Chain) (inv : IndexInv hash idx chains) (D : List Nat → List Nat)
    (hD : ∀ s ch, chains s = some ch → ch.posts.map Prod.fst = D ch.term)
    (cursors : List postings_cursor)
    (hfresh : ∀ c ∈ cursors, ∃ s ch, chains s = some ch ∧ ch.posts ≠ [] ∧
      create hash idx ch.term = some c)
    (hne : cursors ≠ []) :
    ∃ U : Finset Nat, (∀ d, d ∈ U ↔ ∃ c ∈ cursors, d ∈ D c.m_term) ∧
      ∀ fuel, U.card + 1 ≤ fuel →
        ∃ final, boolean_disjunction idx fuel cursors = some (U.card, final) ∧
          final.length = cursors.length ∧ ∀ c ∈ final, c.m_current_docid = END_CHAIN := by
  have hon : ∀ c ∈ cursors, OnChain idx chains c ∧
      ∀ d ∈ D c.m_term, c.m_current_docid ≤ d := by
    intro c hc
    obtain ⟨s, ch, h1, h2, h3⟩ := hfresh c hc
    obtain ⟨l, hl, ht, _⟩ := fresh_tracked hash idx chains inv s ch h1 h2 c h3
    have hsorted := (canon_sorted hash idx chains inv s ch h1).1
    have hobs := (follows_canon hash idx chains inv s ch h1).2.1
    refine ⟨⟨s, ch, h1, by rw [hl]; simp⟩, fun d hd => ?_⟩
    rw [ht, ← hD s ch h1, ← hobs, List.map_map, hl, List.map_cons, List.mem_cons] at hd
    rw [hl, List.pairwise_cons] at hsorted
    rcases hd with e | hm
    · rw [e]
      rfl
    · obtain ⟨x, hx, rfl⟩ := List.mem_map.1 hm
      exact Nat.le_of_lt (hsorted.1 x hx)
  refine ⟨remaining D cursors, fun d => ?_, fun fuel hfuel => ?_⟩
  · rw [mem_remaining]
    constructor
    · rintro ⟨c, hc, h1, _⟩
      exact ⟨c, hc, h1⟩
    · rintro ⟨c, hc, h1⟩
      exact ⟨c, hc, h1, (hon c hc).2 d h1⟩
  · cases hcs : cursors with
    | nil => exact absurd hcs hne
    | cons c rest =>
      obtain ⟨h1, h2, h3⟩ := min_docid_fold rest c.docid
      have hall : ∀ x ∈ c :: rest, min_docid c rest ≤ x.m_current_docid := by
        intro x hx
        rcases List.mem_cons.1 hx with e | hm
        · rw [e]
          exact h1
        · exact h2 x hm
      have hatt : ∃ x ∈ c :: rest, x.m_current_docid = min_docid c rest := by
        rcases h3 with e | ⟨x, hx, e⟩
        · exact ⟨c, List.mem_cons_self _ _, e.symm⟩
        · exact ⟨x, List.mem_cons_of_mem _ hx, e⟩
      rw [hcs] at hon hfuel
      obtain ⟨final, f1, f2, f3⟩ := disj_while_spec hash idx chains inv D hD
        (remaining D (c :: rest)).card (c :: rest) (min_docid c rest) 0 fuel rfl
        (fun x hx => ⟨(hon x hx).1, hall x hx⟩) (Or.inr hatt) hfuel
      rw [Nat.zero_add] at f1
      exact ⟨final, f1, f3, f2⟩

theorem exists_bound (g : List Nat → Nat) (terms : List (List Nat)) :
    ∃ F, ∀ t ∈ terms, g t ≤ F := by
  induction terms with
  | nil => exact ⟨0, fun t ht => by cases ht⟩
  | cons a rest ih =>
    obtain ⟨F, hF⟩ := ih
    refine ⟨max (g a) F, fun t ht => ?_⟩
    rcases List.mem_cons.1 ht with e | hm
    · rw [e]
      exact Nat.le_max_left _ _
    · exact Nat.le_trans (hF t hm) (Nat.le_max_right _ _)

end

theorem wire_1 (v : Nat) (h : v < 2 ^ 7) :
    v < 128 ^ 1 ∧ ∀ i, i < 1 → [v].getD i 0 % 128 = v / 128 ^ i % 128 ∧ [v].getD i 0 < 256 ∧
      (i + 1 < 1 → 128 ≤ [v].getD i 0) ∧
      (i + 1 = 1 → [v].getD i 0 < 128 ∧ (v ≠ 0 → [v].getD i 0 ≠ 0)) := by
  refine ⟨by omega, fun i hi => ?_⟩
  interval_cases i
  simp
  omega

theorem wire_2 (v : Nat) (h1 : ¬ v < 2 ^ 7) (h : v < 2 ^ 14) :
    v < 128 ^ 2 ∧ ∀ i, i < 2 →
      [v % 128 + 128, v / 128].getD i 0 % 128 = v / 128 ^ i % 128 ∧
      [v % 128 + 128, v / 128].getD i 0 < 256 ∧
      (i + 1 < 2 → 128 ≤ [v % 128 + 128, v / 128].getD i 0) ∧
      (i + 1 = 2 → [v % 128 + 128, v / 128].getD i 0 < 128 ∧
        (v ≠ 0 → [v % 128 + 128, v / 128].getD i 0 ≠ 0)) := by
  refine ⟨by omega, fun i hi => ?_⟩
  interval_cases i <;> simp <;> omega

theorem wire_3 (v : Nat) (h1 : ¬ v < 2 ^ 14) (h : v < 2 ^ 21) :
    v < 128 ^ 3 ∧ ∀ i, i < 3 →
      [v % 128 + 128, v / 128 % 128 + 128, v / 16384].getD i 0 % 128 = v / 128 ^ i % 128 ∧
      [v % 128 + 128, v / 128 % 128 + 128, v / 16384].getD i 0 < 256 ∧
      (i + 1 < 3 → 128 ≤ [v % 128 + 128, v / 128 % 128 + 128, v / 16384].getD i 0) ∧
      (i + 1 = 3 → [v % 128 + 128, v / 128 % 128 + 128, v / 16384].getD i 0 < 128 ∧
        (v ≠ 0 → [v % 128 + 128, v / 128 % 128 + 128, v / 16384].getD i 0 ≠ 0)) := by
  refine ⟨by omega, fun i hi => ?_⟩
  interval_cases i <;> simp <;> omega

theorem wire_4 (v : Nat) (h1 : ¬ v < 2 ^ 21) (h : v < 2 ^ 28) :
    v < 128 ^ 4 ∧ ∀ i, i < 4 →
      [v % 128 + 128, v / 128 % 128 + 128, v / 16384 % 128 + 128, v / 2097152].getD i 0 % 128
        = v / 128 ^ i % 128 ∧
      [v % 128 + 128, v / 128 % 128 + 128, v / 16384 % 128 + 128, v / 2097152].getD i 0
        < 256 ∧
      (i + 1 < 4 → 128 ≤ [v % 128 + 128, v / 128 % 128 + 128, v / 16384 % 128 + 128,
        v / 2097152].getD i 0) ∧
      (i + 1 = 4 → [v % 128 + 128, v / 128 % 128 + 128, v / 16384 % 128 + 128,
          v / 2097152].getD i 0 < 128 ∧
        (v ≠ 0 → [v % 128 + 128, v / 128 % 128 + 128, v / 16384 % 128 + 128,
          v / 2097152].getD i 0 ≠ 0)) := by
  refine ⟨by omega, fun i hi => ?_⟩
  interval_cases i <;> simp <;> omega

theorem wire_5 (v : Nat) (h1 : ¬ v < 2 ^ 28) (h : v < 2 ^ 32) :
    v < 128 ^ 5 ∧ ∀ i, i < 5 →
      [v % 128 + 128, v / 128 % 128 + 128, v / 16384 % 128 + 128, v / 2097152 % 128 + 128,
        v / 268435456].getD i 0 % 128 = v / 128 ^ i % 128 ∧
      [v % 128 + 128, v / 128 % 128 + 128, v / 16384 % 128 + 128, v / 2097152 % 128 + 128,
        v / 268435456].getD i 0 < 256 ∧
      (i + 1 < 5 → 128 ≤ [v % 128 + 128, v / 128 % 128 + 128, v / 16384 % 128 + 128,
        v / 2097152 % 128 + 128, v / 268435456].getD i 0) ∧
      (i + 1 = 5 → [v % 128 + 128, v / 128 % 128 + 128, v / 16384 % 128 + 128,
          v / 2097152 % 128 + 128, v / 268435456].getD i 0 < 128 ∧
        (v ≠ 0 → [v % 128 + 128, v / 128 % 128 + 128, v / 16384 % 128 + 128,
          v / 2097152 % 128 + 128, v / 268435456].getD i 0 ≠ 0)) := by
  refine ⟨by omega, fun i hi => ?_⟩
  interval_cases i <;> simp <;> omega

theorem vbyte_bytes_groups (v : Nat) (hv : v < 2 ^ 32) :
    v < 128 ^ (vbyte_bytes v).length ∧
    ∀ i, i < (vbyte_bytes v).length →
      (vbyte_bytes v).getD i 0 % 128 = v / 128 ^ i % 128 ∧
      (vbyte_bytes v).getD i 0 < 256 ∧
      (i + 1 < (vbyte_bytes v).length → 128 ≤ (vbyte_bytes v).getD i 0) ∧
      (i + 1 = (vbyte_bytes v).length →
        (vbyte_bytes v).getD i 0 < 128 ∧ (v ≠ 0 → (vbyte_bytes v).getD i 0 ≠ 0)) := by
  unfold vbyte_bytes
  by_cases h1 : v < 2 ^ 7
  · rw [if_pos h1]
    exact wire_1 v h1
  rw [if_neg h1]
  by_cases h2 : v < 2 ^ 14
  · rw [if_pos h2]
    exact wire_2 v h1 h2
  rw [if_neg h2]
  by_cases h3 : v < 2 ^ 21
  · rw [if_pos h3]
    exact wire_3 v h2 h3
  rw [if_neg h3]
  by_cases h4 : v < 2 ^ 28
  · rw [if_pos h4]
    exact wire_4 v h3 h4
  rw [if_neg h4]
  exact wire_5 v h4 hv

section
open immediate_index

theorem probe_step_mod (H i : Nat) (hH : 0 < H) (hH32 : H ≤ 2 ^ 32) (hi : i < H) :
    probe_step H i = (i + 1) % H := by
  unfold probe_step
  have h1 : (i + 1) % H < H := Nat.mod_lt _ hH
  by_cases h : i + 1 < 2 ^ 32
  · rw [Nat.mod_eq_of_lt h, Nat.mod_eq_of_lt (by omega)]
  · have e1 : i + 1 = 2 ^ 32 := by omega
    have e2 : H = 2 ^ 32 := by omega
    rw [e1, e2]
    rfl

theorem probe_iter (H h0 k : Nat) (hH : 0 < H) (hH32 : H ≤ 2 ^ 32) :
    (probe_step H)^[k] (h0 % H % 2 ^ 32) = (h0 + k) % H := by
  induction k with
  | zero =>
    have := Nat.mod_lt h0 hH
    simp only [Function.iterate_zero, id_eq, Nat.add_zero]
    exact Nat.mod_eq_of_lt (by omega)
  | succ k ih =>
    rw [Function.iterate_succ_apply', ih, probe_step_mod H _ hH hH32 (Nat.mod_lt _ hH)]
    rw [Nat.add_mod, Nat.mod_mod, ← Nat.add_mod]
    rfl

theorem loop_sound (idx : immediate_index) (term : List Nat) :
    ∀ (fuel i e : Nat), found_or_empty_offset_loop idx term fuel i = some e →
    ∃ k, k < fuel ∧ e = (probe_step idx.m_term_offsets_size)^[k] i ∧ probe_stop idx term e ∧
      ∀ j, j < k → ¬ probe_stop idx term ((probe_step idx.m_term_offsets_size)^[j] i) := by
  intro fuel
  induction fuel with
  | zero =>
    intro i e h
    simp [found_or_empty_offset_loop] at h
  | succ f ih =>
    intro i e h
    rw [found_or_empty_offset_loop] at h
    by_cases h1 : idx.m_term_offsets i ≠ END_CHAIN
    · rw [if_pos h1] at h
      by_cases h2 : term = head_block.get_term idx.m_data (idx.m_term_offsets i)
      · rw [if_pos h2] at h
        cases h
        exact ⟨0, by omega, rfl, Or.inr h2, fun j hj => by omega⟩
      · rw [if_neg h2] at h
        obtain ⟨k, hk, e1, e2, e3⟩ := ih _ e h
        refine ⟨k + 1, by omega, ?_, e2, fun j hj => ?_⟩
        · rw [Function.iterate_succ_apply]
          exact e1
        · cases j with
          | zero =>
            simp only [Function.iterate_zero, id_eq]
            rintro (h3 | h3)
            · exact h1 h3
            · exact h2 h3
          | succ j =>
            rw [Function.iterate_succ_apply]
            exact e3 j (by omega)
    · rw [if_neg h1] at h
      cases h
      exact ⟨0, by omega, rfl, Or.inl (by simpa using h1), fun j hj => by omega⟩

theorem loop_complete (idx : immediate_index) (term : List Nat) :
    ∀ (k fuel i : Nat), k < fuel →
    probe_stop idx term ((probe_step idx.m_term_offsets_size)^[k] i) →
    (∀ j, j < k → ¬ probe_stop idx term ((probe_step idx.m_term_offsets_size)^[j] i)) →
    found_or_empty_offset_loop idx term fuel i
      = some ((probe_step idx.m_term_offsets_size)^[k] i) := by
  intro k
  induction k with
  | zero =>
    intro fuel i hf hs _
    obtain ⟨f, rfl⟩ : ∃ f, fuel = f + 1 := ⟨fuel - 1, by omega⟩
    simp only [Function.iterate_zero, id_eq] at hs ⊢
    rw [found_or_empty_offset_loop]
    by_cases h1 : idx.m_term_offsets i ≠ END_CHAIN
    · rw [if_pos h1]
      rcases hs with h | h
      · exact absurd h h1
      · rw [if_pos h]
    · rw [if_neg h1]
  | succ k ih =>
    intro fuel i hf hs hn
    obtain ⟨f, rfl⟩ : ∃ f, fuel = f + 1 := ⟨fuel - 1, by omega⟩
    have h0 := hn 0 (by omega)
    simp only [Function.iterate_zero, id_eq, probe_stop, not_or] at h0
    rw [found_or_empty_offset_loop, if_pos h0.1, if_neg h0.2]
    rw [Function.iterate_succ_apply] at hs ⊢
    apply ih f _ (by omega) hs
    intro j hj
    have := hn (j + 1) (by omega)
    rw [Function.iterate_succ_apply] at this
    exact this

theorem loop_none (idx : immediate_index) (term : List Nat) :
    ∀ (fuel i : Nat),
    (∀ j, j < fuel → ¬ probe_stop idx term ((probe_step idx.m_term_offsets_size)^[j] i)) →
    found_or_empty_offset_loop idx term fuel i = none := by
  intro fuel i h
  cases hr : found_or_empty_offset_loop idx term fuel i with
  | none => rfl
  | some e =>
    obtain ⟨k, hk, e1, e2, _⟩ := loop_sound idx term fuel i e hr
    rw [e1] at e2
    exact absurd e2 (h k hk)

theorem probe_least (idx : immediate_index) (hash : List Nat → Nat) (term : List Nat)
    (hH : 0 < idx.m_term_offsets_size) (k : Nat)
    (hs : probe_stop idx term ((hash term + k) % idx.m_term_offsets_size))
    (hn : ∀ j, j < k → ¬ probe_stop idx term ((hash term + j) % idx.m_term_offsets_size)) :
    k < idx.m_term_offsets_size := by
  by_contra hk
  have hk2 : idx.m_term_offsets_size ≤ k := Nat.le_of_not_lt hk
  apply hn (k - idx.m_term_offsets_size) (by omega)
  have e : hash term + k
      = hash term + (k - idx.m_term_offsets_size) + idx.m_term_offsets_size := by omega
  rw [e, Nat.add_mod_right] at hs
  exact hs

theorem get_term_iff (m : Mem) (b : Nat) (term : List Nat) :
    term = head_block.get_term m b ↔
      head_block.word_length m b = term.length ∧
      ∀ j, j < term.length → m (struct_ptr b + HEAD_PL_OFFSET + j) = term.getD j 0 := by
  constructor
  · intro h
    have hl : term.length = head_block.word_length m b := by
      rw [h]
      simp [head_block.get_term]
    refine ⟨hl.symm, fun j hj => ?_⟩
    have hj2 : j < (head_block.get_term m b).length := by
      rw [← h]
      exact hj
    rw [List.getD_eq_getElem _ _ hj]
    have : term[j] = (head_block.get_term m b)[j] := by
      congr 1
    rw [this]
    simp [head_block.get_term]
  · rintro ⟨hl, hb⟩
    exact (get_term_eq m b term hl hb).symm

theorem full_dir_facts :
    full_dir.m_term_offsets_size = 1 ∧ full_dir.m_term_offsets 0 = 0 ∧
      head_block.get_term full_dir.m_data 0 = [97] := by
  decide!

theorem probe_iter_lt (idx : immediate_index) (hH : 0 < idx.m_term_offsets_size) (i : Nat)
    (hi : i < idx.m_term_offsets_size) (k : Nat) :
    (probe_step idx.m_term_offsets_size)^[k] i < idx.m_term_offsets_size := by
  induction k with
  | zero => exact hi
  | succ k _ =>
    rw [Function.iterate_succ_apply']
    exact probe_step_lt _ _ hH

theorem loop_full_none (hash : List Nat → Nat) (idx : immediate_index) (term : List Nat)
    (hH : 0 < idx.m_term_offsets_size)
    (hfull : ∀ i, i < idx.m_term_offsets_size → ¬ probe_stop idx term i) (fuel : Nat) :
    found_or_empty_offset_loop idx term fuel (idx.term_to_offset hash term) = none :=
  loop_none idx term fuel _ (fun j _ =>
    hfull _ (probe_iter_lt idx hH _ (term_to_offset_lt hash idx term hH) j))

theorem full_dir_full (i : Nat) (hi : i < full_dir.m_term_offsets_size) :
    ¬ probe_stop full_dir [98] i := by
  rw [full_dir_facts.1] at hi
  have e : i = 0 := by omega
  subst e
  unfold probe_stop
  rw [full_dir_facts.2.1, full_dir_facts.2.2]
  decide

end

section
open immediate_index postings_cursor

theorem absent_invalid (hash : List Nat → Nat) (idx : immediate_index)
    (chains : Nat → Option Chain) (P : List Nat → List (Nat × Nat))
    (inv : IndexInv hash idx chains) (tr : Tracks chains P) (t : List Nat)
    (ht : P t = []) (c : postings_cursor) (hc : create hash idx t = some c) :
    c.valid = false := by
  unfold create at hc
  cases hfo : idx.found_or_empty_offset hash t with
  | none =>
    rw [hfo] at hc
    cases hc
  | some e =>
    rw [hfo] at hc
    obtain ⟨he, _, _, _⟩ := found_absent hash idx chains inv t ((tr t).1 ht) e hfo
    simp only [get_offset, he, if_true, Option.some.injEq] at hc
    rw [← hc]
    simp [valid]

theorem present_valid (hash : List Nat → Nat) (idx : immediate_index)
    (chains : Nat → Option Chain) (P : List Nat → List (Nat × Nat))
    (inv : IndexInv hash idx chains) (tr : Tracks chains P) (t : List Nat)
    (ht : P t ≠ []) (c : postings_cursor) (hc : create hash idx t = some c) :
    c.valid = true := by
  obtain ⟨s, ch, h1, e1, e2⟩ := (tr t).2 ht
  obtain ⟨c1, h2, h3, _⟩ := cursor_reads_chain hash idx chains inv s ch h1
    (by rw [e2]; exact ht)
  rw [e1, hc] at h2
  cases h2
  exact h3

theorem query_to_cursors_spec (hash : List Nat → Nat) (idx : immediate_index)
    (chains : Nat → Option Chain) (P : List Nat → List (Nat × Nat))
    (inv : IndexInv hash idx chains) (tr : Tracks chains P) (terms : List (List Nat)) :
    ∀ cs, query_to_cursors hash idx terms = some cs →
    List.Forall₂ (fun t c => create hash idx t = some c)
      (terms.filter (fun t => decide (P t ≠ []))) cs := by
  induction terms with
  | nil =>
    intro cs h
    simp only [query_to_cursors, Option.some.injEq] at h
    subst h
    exact List.Forall₂.nil
  | cons t rest ih =>
    intro cs h
    unfold query_to_cursors at h
    cases hc : create hash idx t with
    | none =>
      rw [hc] at h
      cases h
    | some c =>
      rw [hc] at h
      cases hq : query_to_cursors hash idx rest with
      | none =>
        rw [hq] at h
        cases h
      | some cs2 =>
        rw [hq] at h
        simp only [Option.some.injEq] at h
        have hrest := ih cs2 hq
        by_cases ht : P t = []
        · rw [absent_invalid hash idx chains P inv tr t ht c hc] at h
          simp only [Bool.false_eq_true, if_false] at h
          subst h
          rw [List.filter_cons_of_neg (by simpa using ht)]
          exact hrest
        · rw [present_valid hash idx chains P inv tr t ht c hc] at h
          simp only [if_true] at h
          subst h
          rw [List.filter_cons_of_pos (by simpa using ht)]
          exact List.Forall₂.cons hc hrest

theorem getD_of_isSome {α : Type} (o : Option α) (d : α) (h : o.isSome = true) :
    o = some (o.getD d) := by
  cases o with
  | none => cases h
  | some a => rfl

theorem mcalls_valid : ValidCalls mcalls := by
  unfold ValidCalls
  decide

theorem midx_run : run_inserts whash (mk_sized wslabs 8 4) mcalls = some midx :=
  getD_of_isSome _ _ (by decide!)

theorem mcursors_eq : query_to_cursors whash midx [[97], [120]] = some mcursors :=
  getD_of_isSome _ _ (by decide!)

end

section
open immediate_index

theorem u32_bytes_length (v : Nat) : (u32_bytes v).length = 4 := rfl

theorem u64_bytes_length (v : Nat) : (u64_bytes v).length = 8 := rfl

theorem of_bytes_u32 (v : Nat) (h : v < 2 ^ 32) : of_bytes (u32_bytes v) = v := by
  simp only [of_bytes, u32_bytes, List.foldr]
  omega

theorem of_bytes_u64 (v : Nat) (h : v < 2 ^ 64) : of_bytes (u64_bytes v) = v := by
  simp only [of_bytes, u64_bytes, u32_bytes, List.foldr, List.cons_append, List.nil_append]
  omega

theorem mem_bytes_length (m : Mem) (p n : Nat) : (mem_bytes m p n).length = n := by
  simp [mem_bytes]

theorem mem_bytes_getD (m : Mem) (p n i : Nat) (h : i < n) :
    (mem_bytes m p n).getD i 0 = m (p + i) := by
  simp [mem_bytes, List.getD, h]

theorem mem_bytes_congr (m m2 : Mem) (p n : Nat) (h : ∀ i, i < n → m2 (p + i) = m (p + i)) :
    mem_bytes m2 p n = mem_bytes m p n := by
  unfold mem_bytes
  apply List.map_congr_left
  intro i hi
  exact h i (List.mem_range.1 hi)

theorem vec_bytes_length (v : Nat → Nat) (n : Nat) : (vec_bytes v n).length = 4 * n := by
  induction n with
  | zero => rfl
  | succ k ih =>
    unfold vec_bytes at ih ⊢
    rw [List.range_succ, List.flatMap_append, List.length_append, ih]
    simp [u32_bytes]
    omega

theorem vec_bytes_succ (v : Nat → Nat) (n : Nat) :
    vec_bytes v (n + 1) = vec_bytes v n ++ u32_bytes (v n) := by
  unfold vec_bytes
  rw [List.range_succ, List.flatMap_append]
  simp

theorem vec_bytes_entry (v : Nat → Nat) (n s : Nat) (h : s < n) :
    ((vec_bytes v n).drop (4 * s)).take 4 = u32_bytes (v s) := by
  induction n with
  | zero => omega
  | succ k ih =>
    rw [vec_bytes_succ]
    rcases Nat.lt_or_ge s k with hs | hs
    · have hl := vec_bytes_length v k
      rw [List.drop_append_of_le_length (by omega), List.take_append_of_le_length]
      · exact ih hs
      · rw [List.length_drop]
        omega
    · have : s = k := by omega
      subst this
      have hl := vec_bytes_length v s
      rw [List.drop_append_eq_append_drop, List.drop_of_length_le (by omega), hl,
        Nat.sub_self, List.drop_zero, List.nil_append]
      exact List.take_of_length_le (by simp [u32_bytes])

theorem write_end (out : ofstream) (bs : List Nat) (h : out.pos = out.bytes.length) :
    (out.write bs).bytes = out.bytes ++ bs ∧ (out.write bs).pos = (out.write bs).bytes.length := by
  unfold ofstream.write
  simp only [h, Nat.sub_self, List.replicate_zero, List.append_nil, List.take_length]
  rw [List.drop_of_length_le (by omega)]
  simp

theorem serialize_bytes (idx : immediate_index) (out : ofstream)
    (h : out.pos = out.bytes.length) :
    (idx.serialize out).bytes = out.bytes ++ (u64_bytes idx.m_next_empty
      ++ u64_bytes idx.m_term_offsets_size
      ++ vec_bytes idx.m_term_offsets idx.m_term_offsets_size
      ++ mem_bytes idx.m_data 0 (idx.m_next_empty * BLOCK_SIZE)) := by
  unfold immediate_index.serialize
  obtain ⟨e1, p1⟩ := write_end out (u64_bytes idx.m_next_empty) h
  obtain ⟨e2, p2⟩ := write_end _ (u64_bytes idx.m_term_offsets_size) p1
  obtain ⟨e3, p3⟩ := write_end _ (vec_bytes idx.m_term_offsets idx.m_term_offsets_size) p2
  obtain ⟨e4, _⟩ := write_end _ (mem_bytes idx.m_data (struct_ptr 0)
    (idx.m_next_empty * BLOCK_SIZE)) p3
  simp only []
  rw [e4, e3, e2, e1]
  simp [struct_ptr, List.append_assoc]

theorem read_some (bs rest : List Nat) (n : Nat) (h : bs.length = n) :
    ifstream.read (some (bs ++ rest)) n = (bs, some rest) := by
  unfold ifstream.read
  simp only []
  rw [if_pos (by rw [List.length_append]; omega), ← h, List.take_left, List.drop_left]

theorem read_take (bs : List Nat) (n : Nat) :
    (ifstream.read (some bs) n).1 = bs.take n := by
  unfold ifstream.read
  simp only []
  split_ifs with h
  · rfl
  · show bs = bs.take n
    exact (List.take_of_length_le (by omega)).symm

theorem overwrite_full (old got : List Nat) (h : old.length ≤ got.length) :
    overwrite old got = got := by
  unfold overwrite
  rw [List.drop_of_length_le h, List.append_nil]

/-- What `load` gives on a stream that holds a size, a table size, a table of that size and
then any bytes. -/
theorem load_spec (tgt : immediate_index) (ne H : Nat) (table data : List Nat)
    (hne : ne < 2 ^ 64) (hH : H < 2 ^ 64) (ht : table.length = 4 * H) :
    (tgt.load (some (u64_bytes ne ++ (u64_bytes H ++ (table ++ data))))).1.m_next_empty = ne ∧
    (tgt.load (some (u64_bytes ne ++ (u64_bytes H ++ (table ++ data))))).1.m_term_offsets_size
      = H ∧
    (tgt.load (some (u64_bytes ne ++ (u64_bytes H ++ (table ++ data))))).1.m_data_size = ne ∧
    (tgt.load (some (u64_bytes ne ++ (u64_bytes H ++ (table ++ data))))).1.m_slab_size
      = tgt.m_slab_size ∧
    (∀ s, (tgt.load (some (u64_bytes ne ++ (u64_bytes H ++ (table ++ data))))).1.m_term_offsets s
      = of_bytes ((table.drop (4 * s)).take 4)) ∧
    (∀ a, (tgt.load (some (u64_bytes ne ++ (u64_bytes H ++ (table ++ data))))).1.m_data a
      = if a < ne * BLOCK_SIZE then
          if a < (data.take (ne * BLOCK_SIZE)).length then data.getD a 0
          else if a < tgt.m_data_size * BLOCK_SIZE then tgt.m_data a else 0
        else 0) := by
  have r1 := read_some (u64_bytes ne) (u64_bytes H ++ (table ++ data)) 8 rfl
  have r2 := read_some (u64_bytes H) (table ++ data) 8 rfl
  have r3 := read_some table data (4 * H) ht
  have o1 : overwrite (u64_bytes tgt.m_next_empty) (u64_bytes ne) = u64_bytes ne :=
    overwrite_full _ _ (by simp [u64_bytes_length])
  have o2 : overwrite (u64_bytes 0) (u64_bytes H) = u64_bytes H :=
    overwrite_full _ _ (by simp [u64_bytes_length])
  have o3 : ∀ f : Nat → Nat, overwrite (vec_bytes f H) table = table :=
    fun f => overwrite_full _ _ (by rw [vec_bytes_length, ht])
  unfold immediate_index.load
  simp only [r1, o1, of_bytes_u64 ne hne, r2, o2, of_bytes_u64 H hH, r3, o3, read_take]
  refine ⟨trivial, trivial, trivial, trivial, fun _ => trivial, ?_⟩
  intro a
  by_cases h1 : a < ne * BLOCK_SIZE
  · simp only [h1, if_true]
    by_cases h2 : a < (data.take (ne * BLOCK_SIZE)).length
    · simp only [h2, if_true]
      rw [List.getD_eq_getElem?_getD, List.getD_eq_getElem?_getD, List.getElem?_take_of_lt h1]
    · simp only [h2, if_false]
  · simp only [h1, if_false]

end

section
open immediate_index

theorem write_u32_eq (m m2 : Mem) (a v x : Nat) (h : m2 x = m x) :
    write_u32 m2 a v x = write_u32 m a v x := by
  simp only [write_u32, write_list, store]
  split_ifs <;> first | rfl | exact h

theorem read_u32_move (m M : Mem) (a a2 : Nat) (h : ∀ o, o < 4 → M (a2 + o) = m (a + o)) :
    read_u32 M a2 = read_u32 m a := by
  unfold read_u32
  have h0 := h 0 (by omega)
  rw [Nat.add_zero, Nat.add_zero] at h0
  rw [h0, h 1 (by omega), h 2 (by omega), h 3 (by omega)]

theorem read_u16_move (m M : Mem) (a a2 : Nat) (h : ∀ o, o < 2 → M (a2 + o) = m (a + o)) :
    read_u16 M a2 = read_u16 m a := by
  unfold read_u16
  have h0 := h 0 (by omega)
  rw [Nat.add_zero, Nat.add_zero] at h0
  rw [h0, h 1 (by omega)]

theorem Seg_move (m M : Mem) (a a2 start cap base : Nat) (posts : List (Nat × Nat))
    (h : Seg m a start cap base posts)
    (hx : ∀ o, start ≤ o → o < cap → M (a2 + o) = m (a + o)) :
    Seg M a2 start cap base posts := by
  obtain ⟨h1, h2, h3⟩ := h
  refine ⟨?_, h2, ?_⟩
  · intro i hi
    rw [Nat.add_assoc, hx _ (by omega) (by omega), ← Nat.add_assoc]
    exact h1 i hi
  · intro o ho1 ho2
    rw [hx o (by omega) ho2]
    exact h3 o ho1 ho2

theorem span_cons (b : Blk) (bs : List Blk) : span (b :: bs) = b.size + span bs := by
  simp [span]

theorem span_nil : span [] = 0 := rfl

theorem reloc_tail_ge : ∀ (bs : List Blk) (p : Nat), p ≤ reloc_tail p bs := by
  intro bs
  induction bs with
  | nil => intro p; exact le_refl _
  | cons b rest ih =>
    intro p
    cases rest with
    | nil => exact le_refl _
    | cons b2 r2 =>
      show p ≤ reloc_tail (p + b.size) (b2 :: r2)
      exact le_trans (Nat.le_add_right _ _) (ih _)

theorem reloc_tail_le : ∀ (bs : List Blk) (p : Nat), reloc_tail p bs ≤ p + span bs := by
  intro bs
  induction bs with
  | nil => intro p; exact Nat.le_add_right _ _
  | cons b rest ih =>
    intro p
    cases rest with
    | nil => exact Nat.le_add_right _ _
    | cons b2 r2 =>
      show reloc_tail (p + b.size) (b2 :: r2) ≤ _
      have := ih (p + b.size)
      rw [span_cons]
      omega

theorem chain_image_length : ∀ (bs : List Blk) (m : Mem) (p : Nat),
    (chain_image m p bs).length = BLOCK_SIZE * span bs := by
  intro bs
  induction bs with
  | nil => intro m p; rfl
  | cons b rest ih =>
    intro m p
    cases rest with
    | nil =>
      show (mem_bytes _ _ _).length = _
      rw [mem_bytes_length, span_cons, span_nil]
      simp only [BLOCK_SIZE]
      omega
    | cons b2 r2 =>
      show (mem_bytes _ _ _ ++ chain_image m (p + b.size) (b2 :: r2)).length = _
      rw [List.length_append, mem_bytes_length, ih, span_cons (b := b)]
      simp only [BLOCK_SIZE]
      omega

theorem chain_image_congr : ∀ (bs : List Blk) (m m2 : Mem) (p : Nat),
    (∀ b ∈ bs, ∀ o, o < BLOCK_SIZE * b.size →
      m2 (struct_ptr b.idx + o) = m (struct_ptr b.idx + o)) →
    chain_image m2 p bs = chain_image m p bs := by
  intro bs
  induction bs with
  | nil => intro m m2 p _; rfl
  | cons b rest ih =>
    intro m m2 p h
    cases rest with
    | nil =>
      show mem_bytes _ _ _ = mem_bytes _ _ _
      apply mem_bytes_congr
      intro i hi
      exact h b (List.mem_cons_self _ _) i (by simp only [BLOCK_SIZE] at hi ⊢; omega)
    | cons b2 r2 =>
      show mem_bytes _ _ _ ++ _ = mem_bytes _ _ _ ++ _
      congr 1
      · apply mem_bytes_congr
        intro i hi
        unfold head_block.set_next_block
        apply write_u32_eq
        exact h b (List.mem_cons_self _ _) i (by simp only [BLOCK_SIZE] at hi ⊢; omega)
      · exact ih m m2 _ (fun x hx => h x (List.mem_cons_of_mem _ hx))

theorem slab_step (j : Nat) :
    min ((min j MAX_SLAB_IDX + 1) % 2 ^ 32) MAX_SLAB_IDX = min (j + 1) MAX_SLAB_IDX := by
  simp only [MAX_SLAB_IDX]
  omega

theorem pack_count_spec (S : Nat → Nat) (idx : immediate_index) (hS : idx.m_slab_size = S)
    (tI tO : Nat) : ∀ (bs : List Blk) (b : Blk) (j start base lo fuel total : Nat),
    BlocksRep S idx.m_data tI tO j start base lo (b :: bs) →
    total + span (b :: bs) < 2 ^ 32 → bs.length < fuel →
    pack_count idx tI fuel b.idx total (min j MAX_SLAB_IDX)
      = some (reloc_tail total (b :: bs)) := by
  intro bs
  induction bs with
  | nil =>
    intro b j start base lo fuel total h _ hf
    obtain ⟨f, rfl⟩ : ∃ f, fuel = f + 1 := ⟨fuel - 1, by omega⟩
    rw [BlocksRep_cons] at h
    have ht : tI = b.idx := h.2.2.2.2.2.1.2.2.1
    unfold pack_count
    rw [if_neg (by rw [ht]; simp)]
    rfl
  | cons b2 rest ih =>
    intro b j start base lo fuel total h hb hf
    obtain ⟨f, rfl⟩ : ∃ f, fuel = f + 1 := ⟨fuel - 1, by omega⟩
    rw [BlocksRep_cons] at h
    obtain ⟨hsize, _, _, _, _, ⟨hnext, hne⟩, hrest⟩ := h
    rw [span_cons] at hb
    unfold pack_count
    rw [if_pos hne]
    have e1 : head_block.next_block idx.m_data b.idx = b2.idx := hnext
    have e2 : (total + idx.slab_size (min j MAX_SLAB_IDX)) % 2 ^ 32 = total + b.size := by
      unfold immediate_index.slab_size
      rw [hS, ← hsize]
      exact Nat.mod_eq_of_lt (by omega)
    rw [e1, e2, slab_step]
    have := ih b2 (j + 1) _ _ _ f (total + b.size) hrest (by omega)
      (by simp only [List.length_cons] at hf; omega)
    rw [this]
    rfl

theorem pack_write_spec (S : Nat → Nat) (tI tO : Nat) :
    ∀ (bs : List Blk) (b : Blk) (j start base lo fuel : Nat) (st : pack_state),
    BlocksRep S st.idx.m_data tI tO j start base lo (b :: bs) →
    st.idx.m_slab_size = S →
    (∀ x ∈ b :: bs, 1 ≤ x.size) →
    (b :: bs).Pairwise (fun b1 b2 => b1.idx + b1.size ≤ b2.idx) →
    st.out.pos = st.out.bytes.length →
    st.next_idx + span (b :: bs) < 2 ^ 32 → bs.length < fuel →
    ∃ st1 bi si, pack_write tI fuel st b.idx (min j MAX_SLAB_IDX) = some (st1, bi, si) ∧
      (st1.out.write (mem_bytes st1.idx.m_data (struct_ptr bi)
          (st1.idx.slab_size si * BLOCK_SIZE))).bytes
        = st.out.bytes ++ chain_image st.idx.m_data st.next_idx (b :: bs) ∧
      (st1.out.write (mem_bytes st1.idx.m_data (struct_ptr bi)
          (st1.idx.slab_size si * BLOCK_SIZE))).pos
        = (st1.out.write (mem_bytes st1.idx.m_data (struct_ptr bi)
          (st1.idx.slab_size si * BLOCK_SIZE))).bytes.length ∧
      st1.next_idx + st1.idx.slab_size si = st.next_idx + span (b :: bs) ∧
      st1.idx.m_term_offsets = st.idx.m_term_offsets ∧
      st1.idx.m_term_offsets_size = st.idx.m_term_offsets_size ∧
      st1.idx.m_slab_size = st.idx.m_slab_size ∧
      st1.idx.m_next_empty = st.idx.m_next_empty ∧
      st1.idx.m_data_size = st.idx.m_data_size ∧
      (∀ a, (∀ x ∈ b :: bs, a < struct_ptr x.idx ∨ struct_ptr x.idx + 4 ≤ a) →
        st1.idx.m_data a = st.idx.m_data a) := by
  intro bs
  induction bs with
  | nil =>
    intro b j start base lo fuel st h hS _ _ hpos _ hf
    obtain ⟨f, rfl⟩ : ∃ f, fuel = f + 1 := ⟨fuel - 1, by omega⟩
    rw [BlocksRep_cons] at h
    have ht : tI = b.idx := h.2.2.2.2.2.1.2.2.1
    have hsize : b.size = S (min j MAX_SLAB_IDX) := h.1
    refine ⟨st, b.idx, min j MAX_SLAB_IDX, ?_, ?_, ?_, ?_, rfl, rfl, rfl, rfl, rfl,
      fun _ _ => rfl⟩
    · unfold pack_write
      rw [if_neg (by rw [ht]; simp)]
    · rw [(write_end _ _ hpos).1]
      unfold immediate_index.slab_size
      rw [hS, ← hsize]
      rfl
    · exact (write_end _ _ hpos).2
    · unfold immediate_index.slab_size
      rw [hS, ← hsize, span_cons, span_nil, Nat.add_zero]
  | cons b2 rest ih =>
    intro b j start base lo fuel st h hS hsz hord hpos hb hf
    obtain ⟨f, rfl⟩ : ∃ f, fuel = f + 1 := ⟨fuel - 1, by omega⟩
    rw [BlocksRep_cons] at h
    obtain ⟨hsize, _, _, _, _, ⟨hnext, hne⟩, hrest⟩ := h
    rw [span_cons] at hb
    have hs1 := hsz b (List.mem_cons_self _ _)
    have hord2 := List.pairwise_cons.1 hord
    have e2 : (st.next_idx + st.idx.slab_size (min j MAX_SLAB_IDX)) % 2 ^ 32
        = st.next_idx + b.size := by
      unfold immediate_index.slab_size
      rw [hS, ← hsize]
      exact Nat.mod_eq_of_lt (by omega)
    have e3 : st.idx.slab_size (min j MAX_SLAB_IDX) = b.size := by
      unfold immediate_index.slab_size
      rw [hS, ← hsize]
    -- the state after one round of the loop
    have hframe : ∀ x ∈ b2 :: rest, ∀ o, o < BLOCK_SIZE * x.size →
        head_block.set_next_block st.idx.m_data b.idx (st.next_idx + b.size)
            (struct_ptr x.idx + o)
          = st.idx.m_data (struct_ptr x.idx + o) := by
      intro x hx o _
      unfold head_block.set_next_block
      apply write_u32_out
      right
      have := hord2.1 x hx
      simp only [struct_ptr, BLOCK_SIZE]
      omega
    have hrest2 : BlocksRep S
        (head_block.set_next_block st.idx.m_data b.idx (st.next_idx + b.size)) tI tO (j + 1)
        TT_PL_OFFSET (if j = 0 then 0 else firstDoc b) (lastDoc lo b.posts) (b2 :: rest) :=
      BlocksRep_frame S _ _ _ _ _ _ _ _ _ hrest
        (fun x hx => hsz x (List.mem_cons_of_mem _ hx)) hframe
    obtain ⟨w1, w2⟩ := write_end st.out
      (mem_bytes (head_block.set_next_block st.idx.m_data b.idx (st.next_idx + b.size))
        (struct_ptr b.idx) (b.size * BLOCK_SIZE)) hpos
    obtain ⟨st1, bi, si, r1, r2, r3, r4, r5, r6, r7, r8, r9, r10⟩ := ih b2 (j + 1) _ _ _ f
      { idx := { st.idx with
          m_data := head_block.set_next_block st.idx.m_data b.idx (st.next_idx + b.size) }
        out := st.out.write
          (mem_bytes (head_block.set_next_block st.idx.m_data b.idx (st.next_idx + b.size))
            (struct_ptr b.idx) (b.size * BLOCK_SIZE))
        next_idx := st.next_idx + b.size }
      hrest2 hS (fun x hx => hsz x (List.mem_cons_of_mem _ hx)) hord2.2 w2
      (by show st.next_idx + b.size + span (b2 :: rest) < 2 ^ 32; omega)
      (by simp only [List.length_cons] at hf; omega)
    refine ⟨st1, bi, si, ?_, ?_, r3, ?_, r5, r6, r7, r8, r9, ?_⟩
    · unfold pack_write
      rw [if_pos hne]
      simp only []
      have e1 : head_block.next_block st.idx.m_data b.idx = b2.idx := hnext
      rw [e1, e2, e3, slab_step]
      exact r1
    · rw [r2, w1]
      show _ = st.out.bytes ++ (mem_bytes _ _ _ ++ chain_image st.idx.m_data _ (b2 :: rest))
      rw [List.append_assoc]
      congr 2
      exact chain_image_congr _ _ _ _ hframe
    · rw [r4, span_cons (b := b)]
      show st.next_idx + b.size + span (b2 :: rest) = _
      omega
    · intro a ha
      rw [r10 a (fun x hx => ha x (List.mem_cons_of_mem _ hx))]
      show head_block.set_next_block st.idx.m_data b.idx (st.next_idx + b.size) a = _
      unfold head_block.set_next_block
      exact write_u32_out _ _ _ _ (ha b (List.mem_cons_self _ _))

theorem getD_append_left (l1 l2 : List Nat) (k : Nat) (h : k < l1.length) :
    (l1 ++ l2).getD k 0 = l1.getD k 0 := by
  rw [List.getD_eq_getElem?_getD, List.getD_eq_getElem?_getD, List.getElem?_append_left h]

theorem getD_append_right (l1 l2 : List Nat) (k : Nat) :
    (l1 ++ l2).getD (l1.length + k) 0 = l2.getD k 0 := by
  rw [List.getD_eq_getElem?_getD, List.getD_eq_getElem?_getD,
    List.getElem?_append_right (by omega)]
  congr 2
  omega

theorem image_rep (S : Nat → Nat) (m M : Mem) (tI tO : Nat) :
    ∀ (bs : List Blk) (b : Blk) (j start base lo p : Nat),
    BlocksRep S m tI tO j start base lo (b :: bs) →
    (∀ x ∈ b :: bs, 1 ≤ x.size) → 4 ≤ start →
    p + span (b :: bs) < 2 ^ 32 →
    (∀ k, k < (chain_image m p (b :: bs)).length →
      M (struct_ptr p + k) = (chain_image m p (b :: bs)).getD k 0) →
    BlocksRep S M (reloc_tail p (b :: bs)) tO j start base lo (reloc_blocks p (b :: bs)) := by
  intro bs
  induction bs with
  | nil =>
    intro b j start base lo p h hsz hst _ hM
    rw [BlocksRep_cons] at h
    obtain ⟨hsize, hne, hb, hok, hseg, ⟨hl1, hl2, _, hl4⟩, _⟩ := h
    have hs1 := hsz b (List.mem_cons_self _ _)
    have hcopy : ∀ o, o < BLOCK_SIZE * b.size → M (struct_ptr p + o)
        = m (struct_ptr b.idx + o) := by
      intro o ho
      have hlt : o < b.size * BLOCK_SIZE := by rw [Nat.mul_comm]; exact ho
      have := hM o (by
        show o < (mem_bytes _ _ _).length
        rw [mem_bytes_length]
        exact hlt)
      rw [this]
      exact mem_bytes_getD _ _ _ _ hlt
    have hrd : read_u32 M (struct_ptr p) = read_u32 m (struct_ptr b.idx) :=
      read_u32_move _ _ _ _ (fun o ho => hcopy o (by simp only [BLOCK_SIZE]; omega))
    show BlocksRep S M p tO j start base lo [{ b with idx := p }]
    rw [BlocksRep_cons]
    refine ⟨hsize, hne, hb, hok, Seg_move _ _ _ _ _ _ _ _ hseg (fun o _ h2 => hcopy o h2),
      ⟨?_, ?_, rfl, hl4⟩, trivial⟩
    · intro h1
      rw [hrd]
      exact hl1 h1
    · intro h0
      rw [hrd]
      exact hl2 h0
  | cons b2 rest ih =>
    intro b j start base lo p h hsz hst hb32 hM
    rw [BlocksRep_cons] at h
    obtain ⟨hsize, hne, hb, hok, hseg, ⟨hnext, _⟩, hrest⟩ := h
    have hs1 := hsz b (List.mem_cons_self _ _)
    rw [span_cons] at hb32
    have himg : chain_image m p (b :: b2 :: rest)
        = mem_bytes (head_block.set_next_block m b.idx (p + b.size)) (struct_ptr b.idx)
            (b.size * BLOCK_SIZE) ++ chain_image m (p + b.size) (b2 :: rest) := rfl
    rw [himg] at hM
    have hcopy : ∀ o, o < BLOCK_SIZE * b.size → M (struct_ptr p + o)
        = head_block.set_next_block m b.idx (p + b.size) (struct_ptr b.idx + o) := by
      intro o ho
      have hlt : o < b.size * BLOCK_SIZE := by rw [Nat.mul_comm]; exact ho
      have := hM o (by
        rw [List.length_append, mem_bytes_length]
        omega)
      rw [this, getD_append_left _ _ _ (by rw [mem_bytes_length]; exact hlt)]
      exact mem_bytes_getD _ _ _ _ hlt
    have hrd : read_u32 M (struct_ptr p) = p + b.size := by
      rw [read_u32_move _ _ _ _ (fun o ho => hcopy o (by simp only [BLOCK_SIZE]; omega))]
      unfold head_block.set_next_block
      exact read_u32_write_u32_of_lt _ _ _ (by omega)
    show BlocksRep S M (reloc_tail (p + b.size) (b2 :: rest)) tO j start base lo
      ({ b with idx := p } :: reloc_blocks (p + b.size) (b2 :: rest))
    rw [BlocksRep_cons]
    refine ⟨hsize, hne, hb, hok, ?_, ?_, ?_⟩
    · apply Seg_move _ _ _ _ _ _ _ _ hseg
      intro o h1 h2
      rw [hcopy o h2]
      unfold head_block.set_next_block
      exact write_u32_out _ _ _ _ (by omega)
    · show read_u32 M (struct_ptr p) = p + b.size ∧ p ≠ reloc_tail (p + b.size) (b2 :: rest)
      refine ⟨hrd, ?_⟩
      have := reloc_tail_ge (b2 :: rest) (p + b.size)
      omega
    · apply ih b2 (j + 1) _ _ _ (p + b.size) hrest
        (fun x hx => hsz x (List.mem_cons_of_mem _ hx)) (by simp [TT_PL_OFFSET]) (by omega)
      intro k hk
      have := hM (b.size * BLOCK_SIZE + k) (by
        rw [List.length_append, mem_bytes_length]
        omega)
      have e : struct_ptr (p + b.size) + k = struct_ptr p + (b.size * BLOCK_SIZE + k) := by
        simp only [struct_ptr, BLOCK_SIZE]
        omega
      rw [e, this]
      have := getD_append_right (mem_bytes (head_block.set_next_block m b.idx (p + b.size))
        (struct_ptr b.idx) (b.size * BLOCK_SIZE)) (chain_image m (p + b.size) (b2 :: rest)) k
      rw [mem_bytes_length] at this
      exact this

theorem reloc_blocks_length : ∀ (bs : List Blk) (p : Nat),
    (reloc_blocks p bs).length = bs.length := by
  intro bs
  induction bs with
  | nil => intro p; rfl
  | cons b rest ih =>
    intro p
    show (_ :: reloc_blocks (p + b.size) rest).length = _
    rw [List.length_cons, ih, List.length_cons]

theorem reloc_blocks_posts : ∀ (bs : List Blk) (p : Nat),
    blockPosts (reloc_blocks p bs) = blockPosts bs := by
  intro bs
  induction bs with
  | nil => intro p; rfl
  | cons b rest ih =>
    intro p
    show blockPosts (_ :: reloc_blocks (p + b.size) rest) = _
    rw [blockPosts_cons, blockPosts_cons, ih]

theorem reloc_blocks_mem : ∀ (bs : List Blk) (p : Nat) (x : Blk), x ∈ reloc_blocks p bs →
    p ≤ x.idx ∧ x.idx + x.size ≤ p + span bs := by
  intro bs
  induction bs with
  | nil => intro p x hx; cases hx
  | cons b rest ih =>
    intro p x hx
    rw [span_cons]
    rcases List.mem_cons.1 hx with h | h
    · rw [h]
      exact ⟨le_refl _, by show p + b.size ≤ _; omega⟩
    · have := ih (p + b.size) x h
      omega

theorem reloc_blocks_ordered : ∀ (bs : List Blk) (p : Nat),
    (reloc_blocks p bs).Pairwise (fun b1 b2 => b1.idx + b1.size ≤ b2.idx) := by
  intro bs
  induction bs with
  | nil => intro p; exact List.Pairwise.nil
  | cons b rest ih =>
    intro p
    show (_ :: reloc_blocks (p + b.size) rest).Pairwise _
    refine List.pairwise_cons.2 ⟨?_, ih _⟩
    intro x hx
    exact (reloc_blocks_mem rest (p + b.size) x hx).1

theorem image_head_byte (m : Mem) (p : Nat) (b : Blk) (bs : List Blk) (o : Nat)
    (h4 : 4 ≤ o) (ho : o < BLOCK_SIZE * b.size) :
    (chain_image m p (b :: bs)).getD o 0 = m (struct_ptr b.idx + o) := by
  have hlt : o < b.size * BLOCK_SIZE := by rw [Nat.mul_comm]; exact ho
  cases bs with
  | nil => exact mem_bytes_getD _ _ _ _ hlt
  | cons b2 rest =>
    show (mem_bytes _ _ _ ++ _).getD o 0 = _
    rw [getD_append_left _ _ _ (by rw [mem_bytes_length]; exact hlt),
      mem_bytes_getD _ _ _ _ hlt]
    unfold head_block.set_next_block
    exact write_u32_out _ _ _ _ (by omega)

theorem image_chain_rep (S : Nat → Nat) (hS : SlabsOK S) (m M : Mem) (c : Chain) (p : Nat)
    (hrep : ChainRep S m c)
    (hord : c.blocks.Pairwise (fun b1 b2 => b1.idx + b1.size ≤ b2.idx))
    (hb : p + span c.blocks < 2 ^ 32)
    (hM : ∀ k, k < (chain_image (head_block.set_tail_block m c.head (reloc_tail p c.blocks)) p
        c.blocks).length →
      M (struct_ptr p + k)
        = (chain_image (head_block.set_tail_block m c.head (reloc_tail p c.blocks)) p
            c.blocks).getD k 0) :
    ChainRep S M (relocate c p) := by
  unfold ChainRep at hrep
  cases hcb : c.blocks with
  | nil => rw [hcb] at hrep; exact hrep.elim
  | cons h rest =>
    rw [hcb] at hrep hord hb hM
    have e : c.head = h.idx := by simp [Chain.head, hcb]
    rw [e] at hM
    obtain ⟨htl, htc, hwl, hterm, hdf, hrec, hgr, hbr⟩ := hrep
    have hsz := BlocksRep_size_pos _ hS _ _ _ _ _ _ _ _ hbr
    have hs1 := hsz h (List.mem_cons_self _ _)
    have hord2 := List.pairwise_cons.1 hord
    have hv : reloc_tail p (h :: rest) < 2 ^ 32 := by
      have := reloc_tail_le (h :: rest) p
      omega
    -- the head after `set_tail_block` still heads the chain
    have hbr1 : BlocksRep S (head_block.set_tail_block m h.idx (reloc_tail p (h :: rest)))
        (head_block.tail_block m h.idx) (head_block.tail_byte_offset m h.idx) 0
        (HEAD_PL_OFFSET + c.term.length) 0 0 (h :: rest) := by
      rw [BlocksRep_cons] at hbr ⊢
      obtain ⟨b1, b2, b3, b4, b5, b6, b7⟩ := hbr
      have hrd : read_u32 (head_block.set_tail_block m h.idx (reloc_tail p (h :: rest)))
          (struct_ptr h.idx) = read_u32 m (struct_ptr h.idx) := by
        unfold head_block.set_tail_block
        exact read_u32_write_u32_other _ _ _ _ (by omega)
      refine ⟨b1, b2, b3, b4, ?_, ?_, ?_⟩
      · apply Seg_congr _ _ _ _ _ _ _ b5
        intro o h1 _
        unfold head_block.set_tail_block
        apply write_u32_out
        simp only [HEAD_PL_OFFSET] at h1
        omega
      · rw [hrd]
        exact b6
      · apply BlocksRep_frame S _ _ _ _ _ _ _ _ _ b7
          (fun x hx => hsz x (List.mem_cons_of_mem _ hx))
        intro x hx o _
        unfold head_block.set_tail_block
        apply write_u32_out
        have := hord2.1 x hx
        simp only [struct_ptr, BLOCK_SIZE]
        omega
    have hbrM := image_rep S _ M _ _ rest h 0 _ 0 0 p hbr1 hsz
      (by simp only [HEAD_PL_OFFSET]; omega) hb hM
    have hlen := chain_image_length (h :: rest)
      (head_block.set_tail_block m h.idx (reloc_tail p (h :: rest))) p
    rw [span_cons] at hlen
    have hcopy : ∀ o, 4 ≤ o → o < 64 → M (struct_ptr p + o)
        = head_block.set_tail_block m h.idx (reloc_tail p (h :: rest)) (struct_ptr h.idx + o) := by
      intro o h4 ho
      rw [hM o (by rw [hlen]; simp only [BLOCK_SIZE]; omega)]
      exact image_head_byte _ _ _ _ _ h4 (by simp only [BLOCK_SIZE]; omega)
    have hcopy8 : ∀ o, 8 ≤ o → o < 64 → M (struct_ptr p + o) = m (struct_ptr h.idx + o) := by
      intro o h8 ho
      rw [hcopy o (by omega) ho]
      unfold head_block.set_tail_block
      exact write_u32_out _ _ _ _ (by omega)
    have hhead : (relocate c p).head = p := by simp [relocate, Chain.head, hcb, reloc_blocks]
    have htail : head_block.tail_block M p = reloc_tail p (h :: rest) := by
      unfold head_block.tail_block
      rw [read_u32_move (head_block.set_tail_block m h.idx (reloc_tail p (h :: rest))) M
        (struct_ptr h.idx + 4) (struct_ptr p + 4) (fun o ho => by
          rw [Nat.add_assoc, Nat.add_assoc]
          exact hcopy (4 + o) (by omega) (by omega))]
      unfold head_block.set_tail_block
      exact read_u32_write_u32_of_lt _ _ _ hv
    have htbo : head_block.tail_byte_offset M p = head_block.tail_byte_offset m h.idx := by
      unfold head_block.tail_byte_offset
      exact read_u16_move _ _ _ _ (fun o ho => by
        rw [Nat.add_assoc, Nat.add_assoc]
        exact hcopy8 (16 + o) (by omega) (by omega))
    apply ChainRep_of
    · simp [relocate, hcb, reloc_blocks]
    · exact htl
    · exact htc
    · rw [hhead]
      show M (struct_ptr p + 19) = _
      rw [hcopy8 19 (by omega) (by omega)]
      exact hwl
    · rw [hhead]
      intro i hi
      have h44 : c.term.length ≤ 44 := htl
      have hi2 : i < c.term.length := hi
      show M (struct_ptr p + HEAD_PL_OFFSET + i) = c.term.getD i 0
      rw [Nat.add_assoc, hcopy8 _ (by simp only [HEAD_PL_OFFSET]; omega)
        (by simp only [HEAD_PL_OFFSET]; omega), ← Nat.add_assoc]
      exact hterm i hi2
    · rw [hhead]
      show read_u32 M (struct_ptr p + 8) = (blockPosts (reloc_blocks p c.blocks)).length
      rw [reloc_blocks_posts, read_u32_move m M (struct_ptr h.idx + 8) (struct_ptr p + 8)
        (fun o ho => by
          rw [Nat.add_assoc, Nat.add_assoc]
          exact hcopy8 (8 + o) (by omega) (by omega))]
      exact hdf
    · rw [hhead]
      show read_u32 M (struct_ptr p + 12) = lastDoc 0 (blockPosts (reloc_blocks p c.blocks))
      rw [reloc_blocks_posts, read_u32_move m M (struct_ptr h.idx + 12) (struct_ptr p + 12)
        (fun o ho => by
          rw [Nat.add_assoc, Nat.add_assoc]
          exact hcopy8 (12 + o) (by omega) (by omega))]
      exact hrec
    · rw [hhead]
      show M (struct_ptr p + 18) = min ((reloc_blocks p c.blocks).length - 1) MAX_SLAB_IDX
      rw [hcopy8 18 (by omega) (by omega), reloc_blocks_length, hcb]
      exact hgr
    · rw [hhead, htail, htbo]
      show BlocksRep S M _ _ 0 _ 0 0 (reloc_blocks p c.blocks)
      rw [hcb]
      exact hbrM

end

section
open immediate_index

theorem reloc_tail_add : ∀ (bs : List Blk) (p : Nat), reloc_tail p bs = p + reloc_tail 0 bs := by
  intro bs
  induction bs with
  | nil => intro p; rfl
  | cons b rest ih =>
    intro p
    cases rest with
    | nil => rfl
    | cons b2 r2 =>
      show reloc_tail (p + b.size) (b2 :: r2) = p + reloc_tail (0 + b.size) (b2 :: r2)
      rw [ih (p + b.size), ih (0 + b.size)]
      omega

theorem BlocksRep_set_tail (S : Nat → Nat) (m : Mem) (tI tO v : Nat) (h : Blk)
    (rest : List Blk) (start : Nat) (hst : 8 ≤ start)
    (hsz : ∀ x ∈ h :: rest, 1 ≤ x.size)
    (hord : (h :: rest).Pairwise (fun b1 b2 => b1.idx + b1.size ≤ b2.idx))
    (hbr : BlocksRep S m tI tO 0 start 0 0 (h :: rest)) :
    BlocksRep S (head_block.set_tail_block m h.idx v) tI tO 0 start 0 0 (h :: rest) := by
  have hs1 := hsz h (List.mem_cons_self _ _)
  have hord2 := List.pairwise_cons.1 hord
  rw [BlocksRep_cons] at hbr ⊢
  obtain ⟨b1, b2, b3, b4, b5, b6, b7⟩ := hbr
  have hrd : read_u32 (head_block.set_tail_block m h.idx v) (struct_ptr h.idx)
      = read_u32 m (struct_ptr h.idx) := by
    unfold head_block.set_tail_block
    exact read_u32_write_u32_other _ _ _ _ (by omega)
  refine ⟨b1, b2, b3, b4, ?_, ?_, ?_⟩
  · apply Seg_congr _ _ _ _ _ _ _ b5
    intro o h1 _
    unfold head_block.set_tail_block
    apply write_u32_out
    omega
  · rw [hrd]
    exact b6
  · apply BlocksRep_frame S _ _ _ _ _ _ _ _ _ b7
      (fun x hx => hsz x (List.mem_cons_of_mem _ hx))
    intro x hx o _
    unfold head_block.set_tail_block
    apply write_u32_out
    have := hord2.1 x hx
    simp only [struct_ptr, BLOCK_SIZE]
    omega

theorem pack_slot_spec (S : Nat → Nat) (hS : SlabsOK S) (st : pack_state) (i : Nat) (c : Chain)
    (fuel : Nat) (hrep : ChainRep S st.idx.m_data c) (hslab : st.idx.m_slab_size = S)
    (hdir : st.idx.m_term_offsets i = c.head) (hne : c.head ≠ END_CHAIN)
    (hord : c.blocks.Pairwise (fun b1 b2 => b1.idx + b1.size ≤ b2.idx))
    (hpos : st.out.pos = st.out.bytes.length)
    (hb : st.next_idx + span c.blocks < 2 ^ 32) (hf : c.blocks.length ≤ fuel) :
    ∃ st1, pack_slot fuel st i = some st1 ∧
      st1.out.bytes = st.out.bytes ++ chain_image
        (head_block.set_tail_block st.idx.m_data c.head (reloc_tail st.next_idx c.blocks))
        st.next_idx c.blocks ∧
      st1.out.pos = st1.out.bytes.length ∧
      st1.next_idx = st.next_idx + span c.blocks ∧
      st1.idx.m_term_offsets = Function.update st.idx.m_term_offsets i st.next_idx ∧
      st1.idx.m_term_offsets_size = st.idx.m_term_offsets_size ∧
      st1.idx.m_slab_size = st.idx.m_slab_size ∧
      st1.idx.m_next_empty = st.idx.m_next_empty ∧
      st1.idx.m_data_size = st.idx.m_data_size ∧
      (∀ a, (∀ x ∈ c.blocks, a < struct_ptr x.idx ∨ struct_ptr x.idx + 8 ≤ a) →
        st1.idx.m_data a = st.idx.m_data a) := by
  unfold ChainRep at hrep
  cases hcb : c.blocks with
  | nil => rw [hcb] at hrep; exact hrep.elim
  | cons h rest =>
    rw [hcb] at hrep hord hb hf
    have e : c.head = h.idx := by simp [Chain.head, hcb]
    rw [e] at hdir hne ⊢
    obtain ⟨htl, htc, hwl, hterm, hdf, hrec, hgr, hbr⟩ := hrep
    have hsz := BlocksRep_size_pos _ hS _ _ _ _ _ _ _ _ hbr
    have hs1 := hsz h (List.mem_cons_self _ _)
    have hcount := pack_count_spec S st.idx hslab _ _ rest h 0 _ 0 0 fuel 0 hbr (by omega)
      (by simp only [List.length_cons] at hf; omega)
    have hv : (reloc_tail 0 (h :: rest) + st.next_idx) % 2 ^ 32
        = reloc_tail st.next_idx (h :: rest) := by
      rw [reloc_tail_add (h :: rest) st.next_idx, Nat.add_comm]
      apply Nat.mod_eq_of_lt
      have := reloc_tail_le (h :: rest) 0
      omega
    have hbr1 := BlocksRep_set_tail S st.idx.m_data _ _ (reloc_tail st.next_idx (h :: rest)) h
      rest _ (by simp only [HEAD_PL_OFFSET]; omega) hsz hord hbr
    obtain ⟨st1, bi, si, r1, r2, r3, r4, r5, r6, r7, r8, r9, r10⟩ :=
      pack_write_spec S _ _ rest h 0 _ 0 0 fuel
        { st with idx := { st.idx with
            m_term_offsets := Function.update st.idx.m_term_offsets i st.next_idx
            m_data := head_block.set_tail_block st.idx.m_data h.idx
              (reloc_tail st.next_idx (h :: rest)) } }
        hbr1 hslab hsz hord hpos hb (by simp only [List.length_cons] at hf; omega)
    refine ⟨{ idx := st1.idx
              out := st1.out.write
                (mem_bytes st1.idx.m_data (struct_ptr bi) (st1.idx.slab_size si * BLOCK_SIZE))
              next_idx := (st1.next_idx + st1.idx.slab_size si) % 2 ^ 32 },
      ?_, r2, r3, ?_, r5, r6, r7, r8, r9, ?_⟩
    · unfold pack_slot
      simp only []
      rw [hdir, if_neg hne]
      have hmin : min 0 MAX_SLAB_IDX = 0 := by simp
      rw [hmin] at hcount r1
      rw [hcount]
      simp only []
      rw [hv, r1]
    · show (st1.next_idx + st1.idx.slab_size si) % 2 ^ 32 = _
      rw [r4]
      exact Nat.mod_eq_of_lt hb
    · intro a ha
      rw [r10 a (fun x hx => by
        rcases ha x hx with h1 | h1
        · exact Or.inl h1
        · exact Or.inr (by omega))]
      show head_block.set_tail_block st.idx.m_data h.idx _ a = _
      unfold head_block.set_tail_block
      apply write_u32_out
      rcases ha h (List.mem_cons_self _ _) with h1 | h1
      · exact Or.inl (by omega)
      · exact Or.inr (by omega)

end

section
open immediate_index

theorem new_head_some (chains : Nat → Option Chain) (i : Nat) (c : Chain)
    (h : chains i = some c) : new_head chains (i + 1) = new_head chains i + span c.blocks := by
  unfold new_head
  rw [List.range_succ, List.map_append, List.sum_append]
  simp [h]

theorem new_head_none (chains : Nat → Option Chain) (i : Nat)
    (h : chains i = none) : new_head chains (i + 1) = new_head chains i := by
  unfold new_head
  rw [List.range_succ, List.map_append, List.sum_append]
  simp [h]

theorem new_head_step (chains : Nat → Option Chain) (i : Nat) :
    new_head chains i ≤ new_head chains (i + 1) := by
  cases h : chains i with
  | none => rw [new_head_none _ _ h]
  | some c =>
    rw [new_head_some _ _ _ h]
    exact Nat.le_add_right _ _

theorem new_head_mono (chains : Nat → Option Chain) (i j : Nat) (h : i ≤ j) :
    new_head chains i ≤ new_head chains j := by
  induction j with
  | zero =>
    have : i = 0 := by omega
    rw [this]
  | succ k ih =>
    rcases Nat.lt_or_ge i (k + 1) with h1 | h1
    · exact le_trans (ih (by omega)) (new_head_step chains k)
    · have : i = k + 1 := by omega
      rw [this]

theorem length_le_span (bs : List Blk) (h : ∀ x ∈ bs, 1 ≤ x.size) : bs.length ≤ span bs := by
  induction bs with
  | nil => exact Nat.zero_le _
  | cons b rest ih =>
    rw [span_cons, List.length_cons]
    have := h b (List.mem_cons_self _ _)
    have := ih (fun x hx => h x (List.mem_cons_of_mem _ hx))
    omega

theorem blocks_set (bs : List Blk)
    (hord : bs.Pairwise (fun b1 b2 => b1.idx + b1.size ≤ b2.idx)) :
    ∃ V : Finset Nat, V.card = span bs ∧
      ∀ a, a ∈ V ↔ ∃ b ∈ bs, b.idx ≤ a ∧ a < b.idx + b.size := by
  induction bs with
  | nil => exact ⟨∅, rfl, fun a => by simp⟩
  | cons b rest ih =>
    obtain ⟨h1, h2⟩ := List.pairwise_cons.1 hord
    obtain ⟨V, hc, hm⟩ := ih h2
    refine ⟨Finset.Ico b.idx (b.idx + b.size) ∪ V, ?_, ?_⟩
    · rw [Finset.card_union_of_disjoint, Nat.card_Ico, hc, span_cons]
      · omega
      · rw [Finset.disjoint_left]
        intro a ha hv
        obtain ⟨x, hx, hx1, _⟩ := (hm a).1 hv
        have := h1 x hx
        have := (Finset.mem_Ico.1 ha).2
        omega
    · intro a
      rw [Finset.mem_union, Finset.mem_Ico, hm a]
      constructor
      · rintro (h | ⟨x, hx, hh⟩)
        · exact ⟨b, List.mem_cons_self _ _, h⟩
        · exact ⟨x, List.mem_cons_of_mem _ hx, hh⟩
      · rintro ⟨x, hx, hh⟩
        rcases List.mem_cons.1 hx with rfl | hx
        · exact Or.inl hh
        · exact Or.inr ⟨x, hx, hh⟩

theorem used_set (hash : List Nat → Nat) (idx : immediate_index) (chains : Nat → Option Chain)
    (inv : IndexInv hash idx chains) (i : Nat) :
    ∃ U : Finset Nat, U.card = new_head chains i ∧
      ∀ a, a ∈ U ↔ ∃ s c b, s < i ∧ chains s = some c ∧ b ∈ c.blocks ∧
        b.idx ≤ a ∧ a < b.idx + b.size := by
  induction i with
  | zero => exact ⟨∅, rfl, fun a => by simp⟩
  | succ k ih =>
    obtain ⟨U, hc, hm⟩ := ih
    cases hk : chains k with
    | none =>
      refine ⟨U, by rw [new_head_none _ _ hk, hc], ?_⟩
      intro a
      rw [hm a]
      constructor
      · rintro ⟨s, c, b, h1, h2⟩
        exact ⟨s, c, b, by omega, h2⟩
      · rintro ⟨s, c, b, h1, h2, h3⟩
        have : s ≠ k := by
          intro e
          rw [e, hk] at h2
          cases h2
        exact ⟨s, c, b, by omega, h2, h3⟩
    | some c =>
      obtain ⟨V, hvc, hvm⟩ := blocks_set c.blocks (inv.ordered k c hk)
      refine ⟨U ∪ V, ?_, ?_⟩
      · rw [Finset.card_union_of_disjoint, hc, hvc, new_head_some _ _ _ hk]
        rw [Finset.disjoint_left]
        intro a ha hv
        obtain ⟨s, c1, b1, h1, h2, h3, h4, h5⟩ := (hm a).1 ha
        obtain ⟨b2, h6, h7, h8⟩ := (hvm a).1 hv
        have := inv.disj s k c1 c b1 b2 h2 hk (by omega) h3 h6
        omega
      · intro a
        rw [Finset.mem_union, hm a, hvm a]
        constructor
        · rintro (⟨s, c1, b, h1, h2⟩ | ⟨b, h1, h2⟩)
          · exact ⟨s, c1, b, by omega, h2⟩
          · exact ⟨k, c, b, by omega, hk, h1, h2⟩
        · rintro ⟨s, c1, b, h1, h2, h3, h4⟩
          rcases Nat.lt_or_ge s k with h | h
          · exact Or.inl ⟨s, c1, b, h, h2, h3, h4⟩
          · have : s = k := by omega
            subst this
            rw [hk] at h2
            cases h2
            exact Or.inr ⟨b, h3, h4⟩

theorem new_head_le (hash : List Nat → Nat) (idx : immediate_index)
    (chains : Nat → Option Chain) (inv : IndexInv hash idx chains) (i : Nat) :
    new_head chains i ≤ idx.m_next_empty := by
  obtain ⟨U, hc, hm⟩ := used_set hash idx chains inv i
  rw [← hc, ← Finset.card_range idx.m_next_empty]
  apply Finset.card_le_card
  intro a ha
  obtain ⟨s, c, b, _, h2, h3, _, h5⟩ := (hm a).1 ha
  have := inv.bound s c b h2 h3
  exact Finset.mem_range.2 (by omega)

theorem next_empty_lt (hash : List Nat → Nat) (idx : immediate_index)
    (chains : Nat → Option Chain) (inv : IndexInv hash idx chains) :
    idx.m_next_empty < 2 ^ 32 := by
  have h1 := inv.dsize
  rcases inv.ne_lt with h | h
  · rw [h]
    norm_num
  · omega

end

section
open immediate_index

theorem holds_self (data img : List Nat) : Holds (data ++ img) data.length img := by
  intro k _
  exact getD_append_right data img k

theorem holds_mono (data e img : List Nat) (off : Nat) (h : Holds data off img)
    (hle : off + img.length ≤ data.length) : Holds (data ++ e) off img := by
  intro k hk
  rw [getD_append_left _ _ _ (by omega)]
  exact h k hk

theorem pack_step (hash : List Nat → Nat) (idx0 : immediate_index)
    (chains : Nat → Option Chain) (inv : IndexInv hash idx0 chains) (pre : List Nat)
    (fuel : Nat) (hfuel : idx0.m_next_empty ≤ fuel) (i : Nat) (st : pack_state)
    (hi : i < idx0.m_term_offsets_size) (pin : PackInv chains idx0 pre i st) :
    ∃ st1, pack_slot fuel st i = some st1 ∧ PackInv chains idx0 pre (i + 1) st1 := by
  cases hk : chains i with
  | none =>
    refine ⟨st, ?_, ?_⟩
    · have hd : st.idx.m_term_offsets i = END_CHAIN := by
        rw [pin.dir i, if_neg (by rw [hk]; simp)]
        exact inv.dir_none i hk hi
      unfold pack_slot
      simp only []
      rw [if_pos hd]
    · obtain ⟨data, hd1, hd2, hd3⟩ := pin.out
      have hne : ∀ s c, chains s = some c → s ≠ i := by
        intro s c hs e
        rw [e, hk] at hs
        cases hs
      refine ⟨pin.size, pin.slab, pin.ne, ?_, ?_, pin.pos, ⟨data, hd1, ?_, ?_⟩, ?_⟩
      · intro s
        rw [pin.dir s]
        by_cases hs : (chains s).isSome = true
        · obtain ⟨c, hc⟩ := Option.isSome_iff_exists.1 hs
          have := hne s c hc
          by_cases h1 : s < i
          · rw [if_pos ⟨h1, hs⟩, if_pos ⟨by omega, hs⟩]
          · rw [if_neg (fun h => h1 h.1), if_neg (fun h => h1 (by have := h.1; omega))]
        · rw [if_neg (fun h => hs h.2), if_neg (fun h => hs h.2)]
      · rw [pin.nidx, new_head_none _ _ hk]
      · rw [hd2, new_head_none _ _ hk]
      · intro s c hs hc
        have := hne s c hc
        exact hd3 s c (by omega) hc
      · intro a ha
        exact pin.mem a (fun s c hs hc => ha s c (by omega) hc)
  | some c =>
    have hslabs := inv.slabs
    have hagree : ∀ b ∈ c.blocks, ∀ o, o < BLOCK_SIZE * b.size →
        st.idx.m_data (struct_ptr b.idx + o) = idx0.m_data (struct_ptr b.idx + o) := by
      intro b hb o ho
      apply pin.mem
      intro s c1 hs hc1 x hx
      have := inv.disj s i c1 c x b hc1 hk (by omega) hx hb
      simp only [struct_ptr, BLOCK_SIZE] at ho ⊢
      omega
    have hrep : ChainRep idx0.m_slab_size st.idx.m_data c :=
      ChainRep_frame _ hslabs _ _ _ (inv.rep i c hk) hagree
    have hsz : ∀ x ∈ c.blocks, 1 ≤ x.size := by
      intro x hx
      unfold ChainRep at hrep
      cases hcb : c.blocks with
      | nil => rw [hcb] at hx; cases hx
      | cons h rest =>
        rw [hcb] at hrep hx
        exact BlocksRep_size_pos _ hslabs _ _ _ _ _ _ _ _ hrep.2.2.2.2.2.2.2 x hx
    have hle := new_head_le hash idx0 chains inv (i + 1)
    rw [new_head_some _ _ _ hk] at hle
    have hne32 := next_empty_lt hash idx0 chains inv
    have hdir : st.idx.m_term_offsets i = c.head := by
      rw [pin.dir i, if_neg (fun h => Nat.lt_irrefl _ h.1)]
      exact inv.dir_some i c hk
    obtain ⟨st1, r1, r2, r3, r4, r5, r6, r7, r8, r9, r10⟩ :=
      pack_slot_spec idx0.m_slab_size hslabs st i c fuel hrep pin.slab hdir
        (chain_head_ne_end hash idx0 chains inv i c hk) (inv.ordered i c hk) pin.pos
        (by rw [pin.nidx]; omega)
        (by have := length_le_span c.blocks hsz; omega)
    obtain ⟨data, hd1, hd2, hd3⟩ := pin.out
    have himg : chain_image (head_block.set_tail_block st.idx.m_data c.head
          (reloc_tail st.next_idx c.blocks)) st.next_idx c.blocks
        = chain_image (head_block.set_tail_block idx0.m_data c.head
          (reloc_tail (new_head chains i) c.blocks)) (new_head chains i) c.blocks := by
      rw [pin.nidx]
      apply chain_image_congr
      intro b hb o ho
      unfold head_block.set_tail_block
      exact write_u32_eq _ _ _ _ _ (hagree b hb o ho)
    refine ⟨st1, r1, ?_⟩
    refine ⟨r6.trans pin.size, r7.trans pin.slab, r8.trans pin.ne, ?_, ?_, r3,
      ⟨data ++ chain_image (head_block.set_tail_block idx0.m_data c.head
          (reloc_tail (new_head chains i) c.blocks)) (new_head chains i) c.blocks,
        ?_, ?_, ?_⟩, ?_⟩
    · intro s
      rw [r5]
      by_cases hs : s = i
      · subst hs
        rw [Function.update_same, if_pos ⟨by omega, by rw [hk]; rfl⟩, pin.nidx]
      · rw [Function.update_noteq hs, pin.dir s]
        by_cases h1 : s < i ∧ (chains s).isSome = true
        · rw [if_pos h1, if_pos ⟨by omega, h1.2⟩]
        · rw [if_neg h1, if_neg (fun h => h1 ⟨by have := h.1; omega, h.2⟩)]
    · rw [r4, pin.nidx, new_head_some _ _ _ hk]
    · rw [r2, hd1, himg, List.append_assoc]
    · rw [List.length_append, hd2, chain_image_length, new_head_some _ _ _ hk]
      simp only [BLOCK_SIZE]
      omega
    · intro s c1 hs hc1
      rcases Nat.lt_or_ge s i with h | h
      · apply holds_mono _ _ _ _ (hd3 s c1 h hc1)
        rw [chain_image_length, hd2]
        have := new_head_mono chains (s + 1) i (by omega)
        rw [new_head_some _ _ _ hc1] at this
        simp only [BLOCK_SIZE]
        omega
      · have : s = i := by omega
        subst this
        rw [hk] at hc1
        cases hc1
        rw [← hd2]
        exact holds_self _ _
    · intro a ha
      rw [r10 a (fun x hx => by
        have := ha i c (by omega) hk x hx
        have := hsz x hx
        simp only [BLOCK_SIZE] at *
        omega)]
      exact pin.mem a (fun s c1 hs hc1 => ha s c1 (by omega) hc1)

theorem pack_loop (hash : List Nat → Nat) (idx0 : immediate_index)
    (chains : Nat → Option Chain) (inv : IndexInv hash idx0 chains) (pre : List Nat)
    (fuel : Nat) (hfuel : idx0.m_next_empty ≤ fuel) :
    ∀ (k i : Nat) (st : pack_state), i + k = idx0.m_term_offsets_size →
      PackInv chains idx0 pre i st →
      ∃ st1, pack_slots fuel (List.range' i k) st = some st1 ∧
        PackInv chains idx0 pre idx0.m_term_offsets_size st1 := by
  intro k
  induction k with
  | zero =>
    intro i st hi pin
    have : i = idx0.m_term_offsets_size := by omega
    subst this
    exact ⟨st, rfl, pin⟩
  | succ n ih =>
    intro i st hi pin
    obtain ⟨st1, h1, pin1⟩ := pack_step hash idx0 chains inv pre fuel hfuel i st (by omega) pin
    obtain ⟨st2, h2, pin2⟩ := ih (i + 1) st1 (by omega) pin1
    refine ⟨st2, ?_, pin2⟩
    show (match pack_slot fuel st i with
      | none => none
      | some st1 => pack_slots fuel (List.range' (i + 1) n) st1) = some st2
    rw [h1]
    exact h2

end

section
open immediate_index

theorem write_mid (out : ofstream) (X Y Z bs : List Nat) (hb : out.bytes = X ++ (Y ++ Z))
    (hp : out.pos = X.length) (hl : bs.length = Y.length) :
    (out.write bs).bytes = X ++ (bs ++ Z) := by
  unfold ofstream.write
  simp only [hb, hp, List.take_left, List.length_append]
  rw [show X.length - (X.length + (Y.length + Z.length)) = 0 by omega, List.replicate_zero,
    List.append_nil, hl, List.drop_append, List.drop_left, List.append_assoc]

theorem pack_inv_init (chains : Nat → Option Chain) (idx : immediate_index) (out : ofstream)
    (hpos : out.pos = out.bytes.length) :
    PackInv chains idx out.bytes 0 { idx := idx, out := out, next_idx := 0 } := by
  refine ⟨rfl, rfl, rfl, ?_, rfl, hpos, ⟨[], by simp, rfl, ?_⟩, fun _ _ => rfl⟩
  · intro s
    rw [if_neg (fun h => Nat.not_lt_zero _ h.1)]
  · intro s c hs
    exact absurd hs (Nat.not_lt_zero _)

theorem pack_spec (hash : List Nat → Nat) (idx : immediate_index) (chains : Nat → Option Chain)
    (inv : IndexInv hash idx chains) (fuel : Nat) (hfuel : idx.m_next_empty ≤ fuel)
    (out0 : ofstream) (hpos : out0.pos = out0.bytes.length) :
    ∃ idx1 out data, idx.serialize_pack fuel out0 = some (idx1, out) ∧
      out.bytes = out0.bytes ++ (u64_bytes idx.m_next_empty
        ++ (u64_bytes idx.m_term_offsets_size
        ++ (vec_bytes idx1.m_term_offsets idx.m_term_offsets_size ++ data))) ∧
      data.length = BLOCK_SIZE * new_head chains idx.m_term_offsets_size ∧
      (∀ s, idx1.m_term_offsets s
        = if s < idx.m_term_offsets_size ∧ (chains s).isSome = true then new_head chains s
          else idx.m_term_offsets s) ∧
      (∀ s c, chains s = some c →
        Holds data (BLOCK_SIZE * new_head chains s)
          (chain_image (head_block.set_tail_block idx.m_data c.head
            (reloc_tail (new_head chains s) c.blocks)) (new_head chains s) c.blocks)) := by
  obtain ⟨e1, p1⟩ := write_end out0 (u64_bytes idx.m_next_empty) hpos
  obtain ⟨e2, p2⟩ := write_end _ (u64_bytes idx.m_term_offsets_size) p1
  obtain ⟨e3, p3⟩ := write_end _ (vec_bytes idx.m_term_offsets idx.m_term_offsets_size) p2
  have pin0 := pack_inv_init chains idx _ p3
  obtain ⟨st, hrun, pin⟩ := pack_loop hash idx chains inv _ fuel hfuel idx.m_term_offsets_size 0
    _ (by omega) pin0
  obtain ⟨data, hd1, hd2, hd3⟩ := pin.out
  have hbytes : st.out.bytes = (out0.bytes ++ u64_bytes idx.m_next_empty
      ++ u64_bytes idx.m_term_offsets_size)
      ++ (vec_bytes idx.m_term_offsets idx.m_term_offsets_size ++ data) := by
    rw [hd1, e3, e2, e1, List.append_assoc]
  have hfin := write_mid (st.out.seekp ((out0.write (u64_bytes idx.m_next_empty)).write
      (u64_bytes idx.m_term_offsets_size)).tellp) _ _ _
    (vec_bytes st.idx.m_term_offsets idx.m_term_offsets_size) hbytes
    (by
      show ((out0.write (u64_bytes idx.m_next_empty)).write
        (u64_bytes idx.m_term_offsets_size)).pos = _
      rw [p2, e2, e1])
    (by rw [vec_bytes_length, vec_bytes_length])
  refine ⟨st.idx, (st.out.seekp ((out0.write (u64_bytes idx.m_next_empty)).write
      (u64_bytes idx.m_term_offsets_size)).tellp).write
      (vec_bytes st.idx.m_term_offsets idx.m_term_offsets_size), data, ?_, ?_, hd2, ?_, ?_⟩
  · unfold immediate_index.serialize_pack
    simp only []
    rw [List.range_eq_range', hrun]
  · rw [hfin]
    simp only [List.append_assoc]
  · intro s
    rw [pin.dir s]
  · intro s c hc
    have hs : s < idx.m_term_offsets_size := by
      by_contra h
      have := inv.dir_out s (by omega)
      rw [this] at hc
      cases hc
    exact hd3 s c hs hc

end

section
open immediate_index

theorem packed_some (chains : Nat → Option Chain) (s : Nat) (c1 : Chain)
    (h : packed_chains chains s = some c1) :
    ∃ c, chains s = some c ∧ c1 = relocate c (new_head chains s) := by
  unfold packed_chains at h
  cases hc : chains s with
  | none => rw [hc] at h; cases h
  | some c =>
    rw [hc] at h
    exact ⟨c, rfl, (Option.some.inj h).symm⟩

theorem packed_none (chains : Nat → Option Chain) (s : Nat)
    (h : packed_chains chains s = none) : chains s = none := by
  unfold packed_chains at h
  cases hc : chains s with
  | none => rfl
  | some c => rw [hc] at h; cases h

theorem tracks_packed (chains : Nat → Option Chain) (P : List Nat → List (Nat × Nat))
    (tr : Tracks chains P) : Tracks (packed_chains chains) P := by
  intro t
  refine ⟨?_, ?_⟩
  · intro ht s c1 hc1
    obtain ⟨c, hc, rfl⟩ := packed_some chains s c1 hc1
    exact (tr t).1 ht s c hc
  · intro ht
    obtain ⟨s, c, hc, e1, e2⟩ := (tr t).2 ht
    refine ⟨s, relocate c (new_head chains s), ?_, e1, ?_⟩
    · unfold packed_chains
      rw [hc]
      rfl
    · show blockPosts (reloc_blocks _ c.blocks) = _
      rw [reloc_blocks_posts]
      exact e2

theorem probe_path_transfer (hash : List Nat → Nat) (idx idx2 : immediate_index)
    (t : List Nat) (s : Nat) (hsize : idx2.m_term_offsets_size = idx.m_term_offsets_size)
    (hH : 0 < idx.m_term_offsets_size)
    (hocc : ∀ j, j < idx.m_term_offsets_size → idx.m_term_offsets j ≠ END_CHAIN →
      idx2.m_term_offsets j ≠ END_CHAIN)
    (h : ProbePath hash idx t s) : ProbePath hash idx2 t s := by
  obtain ⟨k, hk, hit, ho⟩ := h
  have hto : idx2.term_to_offset hash t = idx.term_to_offset hash t := by
    unfold term_to_offset
    rw [hsize]
  unfold ProbePath
  rw [hto, hsize]
  refine ⟨k, hk, hit, ?_⟩
  intro j hj
  exact hocc _ (probe_iter_lt idx hH _ (term_to_offset_lt hash idx t hH) j) (ho j hj)

theorem loaded_inv (hash : List Nat → Nat) (idx : immediate_index)
    (chains : Nat → Option Chain) (inv : IndexInv hash idx chains)
    (hH64 : idx.m_term_offsets_size < 2 ^ 64) (idx1 : immediate_index) (data : List Nat)
    (hdata : data.length = BLOCK_SIZE * new_head chains idx.m_term_offsets_size)
    (hdir : ∀ s, idx1.m_term_offsets s
        = if s < idx.m_term_offsets_size ∧ (chains s).isSome = true then new_head chains s
          else idx.m_term_offsets s)
    (himg : ∀ s c, chains s = some c →
        Holds data (BLOCK_SIZE * new_head chains s)
          (chain_image (head_block.set_tail_block idx.m_data c.head
            (reloc_tail (new_head chains s) c.blocks)) (new_head chains s) c.blocks))
    (idxL : immediate_index)
    (hL : idxL = ((mk_default idx.m_slab_size).load (some (u64_bytes idx.m_next_empty
        ++ (u64_bytes idx.m_term_offsets_size
        ++ (vec_bytes idx1.m_term_offsets idx.m_term_offsets_size ++ data))))).1) :
    IndexInv hash { idxL with m_data_size := idx.m_next_empty + 1 } (packed_chains chains) := by
  have hne32 := next_empty_lt hash idx chains inv
  obtain ⟨l1, l2, _, l4, l5, l6⟩ := load_spec (mk_default idx.m_slab_size) idx.m_next_empty
    idx.m_term_offsets_size (vec_bytes idx1.m_term_offsets idx.m_term_offsets_size) data
    (by omega) hH64 (vec_bytes_length _ _)
  rw [← hL] at l1 l2 l4 l5 l6
  have hnh : ∀ i, new_head chains i ≤ idx.m_next_empty := new_head_le hash idx chains inv
  have hlen : data.length ≤ idx.m_next_empty * BLOCK_SIZE := by
    rw [hdata, Nat.mul_comm]
    exact Nat.mul_le_mul_right _ (hnh _)
  have hmem : ∀ a, idxL.m_data a = data.getD a 0 := by
    intro a
    rw [l6 a, List.take_of_length_le hlen]
    by_cases h1 : a < data.length
    · rw [if_pos (by omega), if_pos h1]
    · have e : data.getD a 0 = 0 := List.getD_eq_default _ _ (by omega)
      rw [e]
      split_ifs <;> rfl
  have hslot : ∀ s c, chains s = some c → s < idx.m_term_offsets_size := by
    intro s c hc
    by_contra h
    have := inv.dir_out s (by omega)
    rw [this] at hc
    cases hc
  have hspan : ∀ s c, chains s = some c →
      new_head chains s + span c.blocks ≤ idx.m_next_empty := by
    intro s c hc
    rw [← new_head_some _ _ _ hc]
    exact hnh _
  have hentry : ∀ s, s < idx.m_term_offsets_size → idx1.m_term_offsets s < 2 ^ 32 →
      idxL.m_term_offsets s = idx1.m_term_offsets s := by
    intro s hs h32
    rw [l5 s, vec_bytes_entry _ _ _ hs, of_bytes_u32 _ h32]
  have hsz : ∀ s c, chains s = some c → ∀ x ∈ c.blocks, 1 ≤ x.size := by
    intro s c hc x hx
    have hrep := inv.rep s c hc
    unfold ChainRep at hrep
    cases hcb : c.blocks with
    | nil => rw [hcb] at hx; cases hx
    | cons h rest =>
      rw [hcb] at hrep hx
      exact BlocksRep_size_pos _ inv.slabs _ _ _ _ _ _ _ _ hrep.2.2.2.2.2.2.2 x hx
  have hspos : ∀ s c, chains s = some c → 1 ≤ span c.blocks := by
    intro s c hc
    have hrep := inv.rep s c hc
    unfold ChainRep at hrep
    cases hcb : c.blocks with
    | nil => rw [hcb] at hrep; exact hrep.elim
    | cons h rest =>
      have := hsz s c hc h (by rw [hcb]; exact List.mem_cons_self _ _)
      rw [span_cons]
      omega
  have hnew : ∀ s c, chains s = some c → idxL.m_term_offsets s = new_head chains s := by
    intro s c hc
    have hs := hslot s c hc
    have e : idx1.m_term_offsets s = new_head chains s := by
      rw [hdir s, if_pos ⟨hs, by rw [hc]; rfl⟩]
    rw [hentry s hs (by rw [e]; have := hspan s c hc; omega), e]
  have hold : ∀ s, chains s = none → s < idx.m_term_offsets_size →
      idxL.m_term_offsets s = END_CHAIN := by
    intro s hc hs
    have e : idx1.m_term_offsets s = END_CHAIN := by
      rw [hdir s, if_neg (by rw [hc]; simp)]
      exact inv.dir_none s hc hs
    rw [hentry s hs (by rw [e]; simp [END_CHAIN]), e]
  have hhead : ∀ (c : Chain) (p : Nat), c.blocks ≠ [] → (relocate c p).head = p := by
    intro c p hne
    cases hcb : c.blocks with
    | nil => exact absurd hcb hne
    | cons h rest => simp [relocate, Chain.head, hcb, reloc_blocks]
  have hnonempty : ∀ s c, chains s = some c → c.blocks ≠ [] := by
    intro s c hc hcb
    have := hspos s c hc
    rw [hcb] at this
    simp [span] at this
  constructor
  · show SlabsOK idxL.m_slab_size
    rw [l4]
    exact inv.slabs
  · show 0 < idxL.m_term_offsets_size
    rw [l2]
    exact inv.hsize
  · show idx.m_next_empty + 1 ≤ 2 ^ 32
    omega
  · right
    show idxL.m_next_empty < idx.m_next_empty + 1
    rw [l1]
    omega
  · intro s hs hlt
    have hlt2 : s < idxL.m_term_offsets_size := hlt
    rw [l2] at hlt2
    exact hold s (packed_none chains s hs) hlt2
  · intro s hs
    have hs2 : idxL.m_term_offsets_size ≤ s := hs
    rw [l2] at hs2
    unfold packed_chains
    rw [inv.dir_out s hs2]
    rfl
  · intro s c1 hc1
    obtain ⟨c, hc, rfl⟩ := packed_some chains s c1 hc1
    show idxL.m_term_offsets s = _
    rw [hnew s c hc, hhead c _ (hnonempty s c hc)]
  · intro s c1 hc1
    obtain ⟨c, hc, rfl⟩ := packed_some chains s c1 hc1
    show ChainRep idxL.m_slab_size idxL.m_data _
    rw [l4]
    apply image_chain_rep _ inv.slabs idx.m_data _ c _ (inv.rep s c hc) (inv.ordered s c hc)
      (by have := hspan s c hc; omega)
    intro k hk
    have e : struct_ptr (new_head chains s) + k = BLOCK_SIZE * new_head chains s + k := by
      simp only [struct_ptr, BLOCK_SIZE]
      omega
    rw [hmem, e]
    exact himg s c hc k hk
  · intro s c1 b hc1 hb
    obtain ⟨c, hc, rfl⟩ := packed_some chains s c1 hc1
    have hb2 : b ∈ reloc_blocks (new_head chains s) c.blocks := hb
    have h1 := (reloc_blocks_mem c.blocks (new_head chains s) b hb2).2
    have h2 := hspan s c hc
    show b.idx + b.size ≤ idxL.m_next_empty
    rw [l1]
    exact le_trans h1 h2
  · intro s1 s2 c1 c2 b1 b2 h1 h2 hne hb1 hb2
    obtain ⟨d1, hd1, rfl⟩ := packed_some chains s1 c1 h1
    obtain ⟨d2, hd2, rfl⟩ := packed_some chains s2 c2 h2
    have hb3 : b1 ∈ reloc_blocks (new_head chains s1) d1.blocks := hb1
    have hb4 : b2 ∈ reloc_blocks (new_head chains s2) d2.blocks := hb2
    have m1 := reloc_blocks_mem d1.blocks _ b1 hb3
    have m2 := reloc_blocks_mem d2.blocks _ b2 hb4
    rcases Nat.lt_or_ge s1 s2 with h | h
    · left
      have := new_head_mono chains (s1 + 1) s2 (by omega)
      rw [new_head_some _ _ _ hd1] at this
      omega
    · right
      have := new_head_mono chains (s2 + 1) s1 (by omega)
      rw [new_head_some _ _ _ hd2] at this
      omega
  · intro s c1 hc1
    obtain ⟨c, hc, rfl⟩ := packed_some chains s c1 hc1
    exact reloc_blocks_ordered _ _
  · intro a ha
    show idxL.m_data a = 0
    have ha2 : BLOCK_SIZE * idxL.m_next_empty ≤ a := ha
    rw [l1] at ha2
    rw [hmem]
    exact List.getD_eq_default _ _ (by rw [Nat.mul_comm] at ha2; omega)
  · intro s c1 hc1
    obtain ⟨c, hc, rfl⟩ := packed_some chains s c1 hc1
    apply probe_path_transfer hash idx _ c.term s l2 inv.hsize ?_ (inv.probe s c hc)
    intro j hlt hne
    show idxL.m_term_offsets j ≠ END_CHAIN
    cases hcj : chains j with
    | none => exact absurd (inv.dir_none _ hcj hlt) hne
    | some cj =>
      rw [hnew _ cj hcj]
      have := hspan _ cj hcj
      have := hspos _ cj hcj
      simp only [END_CHAIN]
      omega
  · intro s1 s2 c1 c2 h1 h2 ht
    obtain ⟨d1, hd1, rfl⟩ := packed_some chains s1 c1 h1
    obtain ⟨d2, hd2, rfl⟩ := packed_some chains s2 c2 h2
    exact inv.distinct s1 s2 d1 d2 hd1 hd2 ht

end

section
open immediate_index postings_cursor

theorem next_free_slot_fields (idx idx1 : immediate_index) (n slot : Nat)
    (h : idx.next_free_slot n = some (slot, idx1)) :
    idx1.m_slab_size = idx.m_slab_size ∧ idx1.m_term_offsets_size = idx.m_term_offsets_size := by
  unfold next_free_slot at h
  split_ifs at h
  simp only [Option.some.injEq, Prod.mk.injEq] at h
  rw [← h.2]
  exact ⟨rfl, rfl⟩

theorem insert_head_fields (hash : List Nat → Nat) (idx idx1 : immediate_index) (t : List Nat)
    (hb : Nat) (h : idx.insert_head hash t = some (hb, idx1)) :
    idx1.m_slab_size = idx.m_slab_size ∧ idx1.m_term_offsets_size = idx.m_term_offsets_size := by
  unfold insert_head at h
  cases hf : idx.found_or_empty_offset hash t with
  | none => rw [hf] at h; cases h
  | some e =>
    rw [hf] at h
    simp only [] at h
    split_ifs at h with h1
    · cases hn : idx.next_free_slot (idx.m_slab_size 0) with
      | none => rw [hn] at h; cases h
      | some r =>
        obtain ⟨slot, idx2⟩ := r
        rw [hn] at h
        simp only [Option.some.injEq, Prod.mk.injEq] at h
        obtain ⟨f1, f2⟩ := next_free_slot_fields _ _ _ _ hn
        rw [← h.2]
        exact ⟨f1, f2⟩
    · simp only [Option.some.injEq, Prod.mk.injEq] at h
      rw [← h.2]
      exact ⟨rfl, rfl⟩

theorem insert_posting_fields (idx idx1 : immediate_index) (hb d f : Nat)
    (h : idx.insert_posting hb d f = some idx1) :
    idx1.m_slab_size = idx.m_slab_size ∧ idx1.m_term_offsets_size = idx.m_term_offsets_size := by
  unfold insert_posting at h
  simp only [] at h
  split_ifs at h
  all_goals first
    | (simp only [Option.some.injEq] at h
       rw [← h]
       exact ⟨rfl, rfl⟩)
    | (split at h
       · cases h
       · rename_i slot idx2 hn
         obtain ⟨f1, f2⟩ := next_free_slot_fields _ _ _ _ hn
         simp only [Option.some.injEq] at h
         rw [← h]
         exact ⟨f1, f2⟩)

theorem insert_fields (hash : List Nat → Nat) (idx idx1 : immediate_index) (d : Nat)
    (t ps : List Nat) (h : idx.insert hash d t ps = some idx1) :
    idx1.m_slab_size = idx.m_slab_size ∧ idx1.m_term_offsets_size = idx.m_term_offsets_size := by
  unfold immediate_index.insert at h
  simp only [] at h
  split at h
  · cases h
  · rename_i hbi idx2 hh
    obtain ⟨f1, f2⟩ := insert_head_fields hash _ _ _ _ hh
    obtain ⟨g1, g2⟩ := insert_posting_fields _ _ _ _ _ h
    exact ⟨g1.trans f1, g2.trans f2⟩

theorem run_inserts_fields (hash : List Nat → Nat) : ∀ (calls : List insert_call)
    (idx idx1 : immediate_index), run_inserts hash idx calls = some idx1 →
    idx1.m_slab_size = idx.m_slab_size ∧ idx1.m_term_offsets_size = idx.m_term_offsets_size := by
  intro calls
  induction calls with
  | nil =>
    intro idx idx1 h
    simp only [run_inserts, Option.some.injEq] at h
    rw [← h]
    exact ⟨rfl, rfl⟩
  | cons c rest ih =>
    intro idx idx1 h
    unfold run_inserts at h
    split at h
    · cases h
    · rename_i idx2 hh
      obtain ⟨f1, f2⟩ := insert_fields hash _ _ _ _ _ hh
      obtain ⟨g1, g2⟩ := ih _ _ h
      exact ⟨g1.trans f1, g2.trans f2⟩

theorem next_size (idx : immediate_index) (n : Nat) (c : postings_cursor) :
    next { idx with m_data_size := n } c = next idx c := rfl

theorem loop_size (idx : immediate_index) (n : Nat) (t : List Nat) : ∀ (fuel i : Nat),
    found_or_empty_offset_loop { idx with m_data_size := n } t fuel i
      = found_or_empty_offset_loop idx t fuel i := by
  intro fuel
  induction fuel with
  | zero => intro i; rfl
  | succ f ih =>
    intro i
    unfold found_or_empty_offset_loop
    simp only []
    rw [ih]

theorem create_size (hash : List Nat → Nat) (idx : immediate_index) (n : Nat) (t : List Nat) :
    create hash { idx with m_data_size := n } t = create hash idx t := by
  have h : found_or_empty_offset hash { idx with m_data_size := n } t
      = found_or_empty_offset hash idx t := loop_size idx n t _ _
  unfold create
  rw [h]
  rfl

theorem read_all_size (idx : immediate_index) (n : Nat) : ∀ (k : Nat) (c : postings_cursor),
    read_all { idx with m_data_size := n } k c = read_all idx k c := by
  intro k
  induction k with
  | zero => intro c; rfl
  | succ j ih =>
    intro c
    show (match next { idx with m_data_size := n } c with
      | none => none
      | some c1 => (read_all { idx with m_data_size := n } j c1).map _) = _
    rw [next_size]
    cases hn : next idx c with
    | none =>
      show none = read_all idx (j + 1) c
      unfold read_all
      rw [hn]
    | some c1 =>
      show (read_all { idx with m_data_size := n } j c1).map _ = read_all idx (j + 1) c
      rw [ih c1]
      conv_rhs => unfold read_all
      rw [hn]

end

section
open immediate_index postings_cursor

theorem dir_end_iff (hash : List Nat → Nat) (idx : immediate_index)
    (chains : Nat → Option Chain) (inv : IndexInv hash idx chains) (j : Nat)
    (hj : j < idx.m_term_offsets_size) : idx.m_term_offsets j = END_CHAIN ↔ chains j = none := by
  constructor
  · intro h
    cases hc : chains j with
    | none => rfl
    | some c =>
      have := chain_head_ne_end hash idx chains inv j c hc
      rw [← inv.dir_some j c hc] at this
      exact absurd h this
  · intro h
    exact inv.dir_none j h hj

theorem stop_absent (hash : List Nat → Nat) (idx : immediate_index)
    (chains : Nat → Option Chain) (inv : IndexInv hash idx chains) (t : List Nat)
    (habs : ∀ s c, chains s = some c → c.term ≠ t) (i : Nat)
    (hi : i < idx.m_term_offsets_size) :
    probe_stop idx t i ↔ idx.m_term_offsets i = END_CHAIN := by
  constructor
  · rintro (h | h)
    · exact h
    · by_contra hne
      obtain ⟨c2, hc2⟩ := slot_chain hash idx chains inv i hi hne
      rw [chain_get_term hash idx chains inv i c2 hc2] at h
      exact habs i c2 hc2 h.symm
  · intro h
    exact Or.inl h

theorem absent_found (hash : List Nat → Nat) (idx idx2 : immediate_index)
    (chains chains2 : Nat → Option Chain) (inv : IndexInv hash idx chains)
    (inv2 : IndexInv hash idx2 chains2)
    (hsize : idx2.m_term_offsets_size = idx.m_term_offsets_size)
    (hnone : ∀ j, chains2 j = none ↔ chains j = none) (t : List Nat)
    (habs : ∀ s c, chains s = some c → c.term ≠ t)
    (habs2 : ∀ s c, chains2 s = some c → c.term ≠ t) (e : Nat)
    (h : idx.found_or_empty_offset hash t = some e) :
    idx2.found_or_empty_offset hash t = some e ∧ idx2.m_term_offsets e = END_CHAIN := by
  have hH := inv.hsize
  have hto : idx2.term_to_offset hash t = idx.term_to_offset hash t := by
    unfold term_to_offset
    rw [hsize]
  have hstop : ∀ i, i < idx.m_term_offsets_size → (probe_stop idx2 t i ↔ probe_stop idx t i) := by
    intro i hi
    rw [stop_absent hash idx chains inv t habs i hi,
      stop_absent hash idx2 chains2 inv2 t habs2 i (by rw [hsize]; exact hi),
      dir_end_iff hash idx chains inv i hi,
      dir_end_iff hash idx2 chains2 inv2 i (by rw [hsize]; exact hi)]
    exact hnone i
  unfold found_or_empty_offset at h ⊢
  obtain ⟨k, hk, e1, e2, e3⟩ := loop_sound idx t _ _ e h
  have hlt : ∀ j, (probe_step idx.m_term_offsets_size)^[j] (idx.term_to_offset hash t)
      < idx.m_term_offsets_size :=
    fun j => probe_iter_lt idx hH _ (term_to_offset_lt hash idx t hH) j
  have hc := loop_complete idx2 t k idx2.m_term_offsets_size (idx2.term_to_offset hash t)
    (by rw [hsize]; exact hk)
    (by
      rw [hsize, hto, hstop _ (hlt k), ← e1]
      exact e2)
    (by
      intro j hj
      rw [hsize, hto, hstop _ (hlt j)]
      exact e3 j hj)
  rw [hsize, hto, ← e1] at hc
  rw [hsize, hto]
  refine ⟨hc, ?_⟩
  have he : e < idx.m_term_offsets_size := by rw [e1]; exact hlt k
  have := (stop_absent hash idx chains inv t habs e he).1 e2
  rw [dir_end_iff hash idx chains inv e he, ← hnone e] at this
  exact (dir_end_iff hash idx2 chains2 inv2 e (by rw [hsize]; exact he)).2 this

theorem create_absent (hash : List Nat → Nat) (idx : immediate_index) (t : List Nat) (e : Nat)
    (h : idx.found_or_empty_offset hash t = some e) (he : idx.m_term_offsets e = END_CHAIN) :
    ∃ c, create hash idx t = some c ∧ c.valid = false := by
  unfold create
  rw [h]
  simp only [get_offset, he, if_true]
  exact ⟨_, rfl, by simp [valid]⟩

theorem chain_end_freq_reloc : ∀ (bs : List Blk) (p j start base : Nat)
    (fixed fixed2 : postings_cursor), fixed.m_current_tf = fixed2.m_current_tf →
    (chain_end fixed j start base (reloc_blocks p bs)).m_current_tf
      = (chain_end fixed2 j start base bs).m_current_tf := by
  intro bs
  induction bs with
  | nil => intro p j start base fixed fixed2 h; exact h
  | cons b rest ih =>
    intro p j start base fixed fixed2 h
    cases rest with
    | nil =>
      show lastTf fixed.m_current_tf b.posts = lastTf fixed2.m_current_tf b.posts
      rw [h]
    | cons b2 r2 =>
      exact ih (p + b.size) (j + 1) TT_PL_OFFSET (if j = 0 then 0 else firstDoc b) fixed fixed2 h

end

section
open immediate_index

theorem span_append (as bs : List Blk) : span (as ++ bs) = span as + span bs := by
  simp [span]

theorem slab_sum_succ (S : Nat → Nat) (n : Nat) :
    slab_sum S (n + 1) = slab_sum S n + S (min n MAX_SLAB_IDX) := by
  unfold slab_sum
  rw [List.range_succ, List.map_append, List.sum_append]
  simp

theorem reloc_get : ∀ (bs : List Blk) (p j : Nat) (b : Blk), bs[j]? = some b →
    (reloc_blocks p bs)[j]? = some { b with idx := p + span (bs.take j) } := by
  intro bs
  induction bs with
  | nil => intro p j b h; simp at h
  | cons x rest ih =>
    intro p j b h
    rw [show reloc_blocks p (x :: rest) = { x with idx := p } :: reloc_blocks (p + x.size) rest
      from rfl]
    cases j with
    | zero =>
      simp only [List.getElem?_cons_zero, Option.some.injEq] at h
      subst h
      simp [span]
    | succ k =>
      simp only [List.getElem?_cons_succ] at h
      rw [List.getElem?_cons_succ, ih (p + x.size) k b h, List.take_succ_cons, span_cons,
        Nat.add_assoc]

theorem rep_sizes (S : Nat → Nat) (m : Mem) (tI tO : Nat) : ∀ (bs : List Blk)
    (j0 start base lo : Nat), BlocksRep S m tI tO j0 start base lo bs →
    ∀ j b, bs[j]? = some b → b.size = S (min (j0 + j) MAX_SLAB_IDX) := by
  intro bs
  induction bs with
  | nil => intro _ _ _ _ _ j b h; simp at h
  | cons x rest ih =>
    intro j0 start base lo hbr j b h
    rw [BlocksRep_cons] at hbr
    cases j with
    | zero =>
      simp only [List.getElem?_cons_zero, Option.some.injEq] at h
      subst h
      exact hbr.1
    | succ k =>
      simp only [List.getElem?_cons_succ] at h
      have := ih _ _ _ _ hbr.2.2.2.2.2.2 k b h
      rw [this]
      congr 2
      omega

theorem rep_next (S : Nat → Nat) (m : Mem) (tI tO : Nat) : ∀ (bs : List Blk)
    (j0 start base lo : Nat), BlocksRep S m tI tO j0 start base lo bs →
    ∀ j b b2, bs[j]? = some b → bs[j + 1]? = some b2 →
      read_u32 m (struct_ptr b.idx) = b2.idx := by
  intro bs
  induction bs with
  | nil => intro _ _ _ _ _ j b b2 h; simp at h
  | cons x rest ih =>
    intro j0 start base lo hbr j b b2 h h2
    rw [BlocksRep_cons] at hbr
    cases j with
    | zero =>
      simp only [List.getElem?_cons_zero, Option.some.injEq] at h
      subst h
      cases rest with
      | nil => simp at h2
      | cons y r2 =>
        simp only [Nat.zero_add, List.getElem?_cons_succ, List.getElem?_cons_zero,
          Option.some.injEq] at h2
        subst h2
        exact hbr.2.2.2.2.2.1.1
    | succ k =>
      simp only [List.getElem?_cons_succ] at h h2
      exact ih _ _ _ _ hbr.2.2.2.2.2.2 k b b2 h h2

theorem span_take_slab (S : Nat → Nat) (bs : List Blk)
    (hs : ∀ j b, bs[j]? = some b → b.size = S (min j MAX_SLAB_IDX)) :
    ∀ n, n ≤ bs.length → span (bs.take n) = slab_sum S n := by
  intro n
  induction n with
  | zero => intro _; rfl
  | succ k ih =>
    intro hk
    have hlt : k < bs.length := by omega
    rw [List.take_succ, span_append, ih (by omega), slab_sum_succ,
      List.getElem?_eq_getElem hlt]
    show _ + span [bs[k]] = _
    rw [span_cons, span_nil, Nat.add_zero, hs k bs[k] (List.getElem?_eq_getElem hlt)]

theorem chain_sizes (S : Nat → Nat) (m : Mem) (c : Chain) (hrep : ChainRep S m c) :
    ∀ j b, c.blocks[j]? = some b → b.size = S (min j MAX_SLAB_IDX) := by
  intro j b h
  unfold ChainRep at hrep
  cases hcb : c.blocks with
  | nil => rw [hcb] at hrep; exact hrep.elim
  | cons x rest =>
    rw [hcb] at hrep h
    have := rep_sizes S m _ _ _ _ _ _ _ hrep.2.2.2.2.2.2.2 j b h
    rw [Nat.zero_add] at this
    exact this

theorem chain_next (S : Nat → Nat) (m : Mem) (c : Chain) (hrep : ChainRep S m c) :
    ∀ j b b2, c.blocks[j]? = some b → c.blocks[j + 1]? = some b2 →
      read_u32 m (struct_ptr b.idx) = b2.idx := by
  intro j b b2 h h2
  unfold ChainRep at hrep
  cases hcb : c.blocks with
  | nil => rw [hcb] at hrep; exact hrep.elim
  | cons x rest =>
    rw [hcb] at hrep h h2
    exact rep_next S m _ _ _ _ _ _ _ hrep.2.2.2.2.2.2.2 j b b2 h h2

theorem chain_span (S : Nat → Nat) (m : Mem) (c : Chain) (hrep : ChainRep S m c) :
    span c.blocks = slab_sum S c.blocks.length := by
  have := span_take_slab S c.blocks (chain_sizes S m c hrep) c.blocks.length (le_refl _)
  rw [List.take_length] at this
  exact this

theorem chain_tail (S : Nat → Nat) (hS : SlabsOK S) (m : Mem) (c : Chain)
    (hrep : ChainRep S m c)
    (hord : c.blocks.Pairwise (fun b1 b2 => b1.idx + b1.size ≤ b2.idx)) :
    ∃ last, c.blocks[c.blocks.length - 1]? = some last ∧
      head_block.tail_block m c.head = last.idx := by
  have hne : c.blocks ≠ [] := by
    intro h
    unfold ChainRep at hrep
    rw [h] at hrep
    exact hrep
  obtain ⟨pre, last, hpl⟩ : ∃ pre last, c.blocks = pre ++ [last] :=
    ⟨c.blocks.dropLast, c.blocks.getLast hne, (List.dropLast_append_getLast hne).symm⟩
  have F := chain_facts S hS m c pre last hpl hrep hord
  refine ⟨last, ?_, F.tail⟩
  rw [hpl]
  simp

end

section
open immediate_index postings_cursor

/-- C1: on a freshly constructed index, after any sequence of valid `insert` calls that does
not overflow the arena or the directory, a cursor constructed for a term that was inserted
is valid, reports the number of inserted pairs as `doc_freq`, shows at construction and after
each successive `next` exactly the inserted `(docid, freq)` pairs of the term in insertion
order, and after the last pair `next` leaves `docid() = END_CHAIN`. -/
theorem build_iterate_round_trip (hash : List Nat → Nat) (S : Nat → Nat) (N H : Nat)
    (calls : List insert_call) (idx : immediate_index) (t : List Nat)
    (hS : SlabsOK S) (hH : 0 < H) (hN : N ≤ 2 ^ 32) (hv : ValidCalls calls)
    (hrun : run_inserts hash (mk_sized S N H) calls = some idx)
    (ht : postings_of calls t ≠ []) :
    ∃ c1 tf, create hash idx t = some c1 ∧ c1.valid = true ∧
      c1.doc_freq = (postings_of calls t).length ∧
      read_all idx (postings_of calls t).length c1
        = some (postings_of calls t ++ [(END_CHAIN, tf)]) := by
  obtain ⟨chains, inv, tr⟩ := run_inserts_inv hash calls _ _ (fun _ => [])
    (inv_init hash S N H hS hH hN) tracks_init
    (fun c hc => ⟨(hv.1 c hc).2.2.2.2.2.1, (hv.1 c hc).2.2.2.2.2.2⟩)
    (fun t => by simpa using valid_calls_posts calls hv t) idx hrun
  obtain ⟨s, c, hc, e1, e2⟩ := (tr t).2 (by simpa using ht)
  simp only [List.nil_append] at e2
  obtain ⟨c1, h1, h2, h3, h4⟩ := cursor_reads_chain hash idx chains inv s c hc
    (by rw [e2]; exact ht)
  rw [e1] at h1
  rw [e2] at h3 h4
  exact ⟨c1, _, h1, h2, h3, h4⟩

theorem build_iterate_round_trip_witness :
    ∃ idx, run_inserts whash (mk_sized wslabs 40 8) wcalls = some idx ∧
      ∃ c1 tf, create whash idx [97] = some c1 ∧ c1.valid = true ∧
        c1.doc_freq = (postings_of wcalls [97]).length ∧
        read_all idx (postings_of wcalls [97]).length c1
          = some (postings_of wcalls [97] ++ [(END_CHAIN, tf)]) := by
  obtain ⟨idx, h⟩ := wcalls_run
  exact ⟨idx, h, build_iterate_round_trip whash wslabs 40 8 wcalls idx [97] wslabs_ok
    (by decide) (by norm_num) wcalls_valid h (by decide)⟩

end

theorem decode_magic_docgap (mv : Nat) (hmv : mv < 2 ^ 32) (m : Mem) (p stride : Nat)
    (h : holds m p (vbyte_bytes mv)) (r : (Nat × Nat) × Nat)
    (hr : decode_magic m p stride = some r) :
    r.1.1 = (if mv % 4 > 0 then 1 + mv / 4 else mv / 4) := by
  unfold decode_magic at hr
  rw [vbyte_decode_holds mv hmv m p 0 h] at hr
  simp only [MAGIC_F] at hr
  by_cases hz : mv % 4 > 0
  · rw [if_pos hz] at hr
    rw [if_pos hz]
    cases hr
    rfl
  · rw [if_neg hz] at hr
    rw [if_neg hz]
    cases hv : vbyte_decode m (p + (0 + bytes_required mv)) 0 with
    | none => rw [hv] at hr; cases hr
    | some x =>
      rw [hv] at hr
      cases hr
      rfl

/-- C2: for every 32-bit `v`, `vbyte_encode` returns `bytes_required v` (1, 2, 3, 4 or 5 by
the size of `v`), writes nothing outside those bytes, and `vbyte_decode` on the written bytes
returns `v` and advances the stride by `bytes_required v`. -/
theorem vbyte_round_trip (v : Nat) (hv : v < 2 ^ 32) (buffer : Mem) (p stride : Nat) :
    (vbyte_encode v buffer p).2 = bytes_required v ∧
    bytes_required v = (if v < 2 ^ 7 then 1 else if v < 2 ^ 14 then 2
      else if v < 2 ^ 21 then 3 else if v < 2 ^ 28 then 4 else 5) ∧
    (∀ a, a < p ∨ p + bytes_required v ≤ a → (vbyte_encode v buffer p).1 a = buffer a) ∧
    vbyte_decode (vbyte_encode v buffer p).1 p stride = some (v, stride + bytes_required v) := by
  rw [vbyte_encode_eq v hv]
  refine ⟨vbyte_bytes_length v, rfl, ?_, ?_⟩
  · intro a ha
    rcases ha with ha | ha
    · exact write_list_lt _ _ _ _ ha
    · exact write_list_ge _ _ _ _ (by rw [vbyte_bytes_length]; exact ha)
  · exact vbyte_decode_holds v hv _ _ _ (holds_write_list _ (vbyte_bytes_lt v hv) _ _)

theorem vbyte_round_trip_witness :
    (300 : Nat) < 2 ^ 32 ∧ (vbyte_encode 300 (fun _ => 0) 7).2 = 2 ∧
      vbyte_decode (vbyte_encode 300 (fun _ => 0) 7).1 7 0 = some (300, 2) :=
  ⟨by norm_num, (vbyte_round_trip 300 (by norm_num) (fun _ => 0) 7 0).1,
    (vbyte_round_trip 300 (by norm_num) (fun _ => 0) 7 0).2.2.2⟩

/-- C3 (counterexample): the pair `(1, 0)` is written as the single byte `0x00`, which
`decode_magic` reads as the two-field form and returns `(0, 3)` on zeroed memory; the pair
`(2 ^ 30, 4)` wraps to the bytes `0x00 0x01` and is read back as `(0, 4)`. -/
theorem magic_round_trip_counterexample :
    Option.map Prod.fst (decode_magic (encode_magic 1 0 (fun _ => 0) 0).1 0 0) = some (0, 3) ∧
    Option.map Prod.fst (decode_magic (encode_magic 1073741824 4 (fun _ => 0) 0).1 0 0)
      = some (0, 4) := by
  constructor <;> rfl

/-- C3 (amended): for a docgap `d ≥ 1` and a frequency `f` (both 32-bit), `decode_magic` returns
`(d, f)` on the bytes written by `encode_magic d f`, whatever the surrounding memory, exactly
when `f ≥ 1` and either `d < 2 ^ 30`, or `d = 2 ^ 30` and `f < 4`. -/
theorem magic_round_trip_iff (d f : Nat) (hd1 : 1 ≤ d) (hd2 : d < 2 ^ 32) (hf2 : f < 2 ^ 32) :
    (∀ (buffer : Mem) (p stride : Nat),
      Option.map Prod.fst (decode_magic (encode_magic d f buffer p).1 p stride) = some (d, f))
    ↔ (1 ≤ f ∧ (d < 2 ^ 30 ∨ (d = 2 ^ 30 ∧ f < 4))) := by
  constructor
  · intro h
    have h0 := h (fun _ => 0) 0 0
    have hw := holds_magic_written d f (fun _ => 0) 0
    cases hr : decode_magic (encode_magic d f (fun _ => 0) 0).1 0 0 with
    | none => rw [hr] at h0; cases h0
    | some r =>
      rw [hr] at h0
      simp only [Option.map_some', Option.some.injEq] at h0
      unfold magic_bytes at hw
      simp only [MAGIC_F] at hw
      by_cases hf : f < 4
      · rw [if_pos hf] at hw
        have hg := decode_magic_docgap _ (Nat.mod_lt _ (by norm_num)) _ _ _ hw r hr
        rw [h0] at hg
        simp only at hg
        split_ifs at hg <;> omega
      · rw [if_neg hf] at hw
        have hg := decode_magic_docgap _ (Nat.mod_lt _ (by norm_num)) _ _ _
          (holds_append_left _ _ _ _ hw) r hr
        rw [h0] at hg
        simp only at hg
        split_ifs at hg <;> omega
  · rintro ⟨hf1, hd⟩ buffer p stride
    rw [decode_magic_holds d f hd1 (by omega) (by omega) hf1 hf2 _ _ _
      (holds_magic_written d f buffer p)]
    rfl

theorem magic_round_trip_iff_witness :
    Option.map Prod.fst (decode_magic (encode_magic 5 7 (fun _ => 0) 3).1 3 0) = some (5, 7) :=
  (magic_round_trip_iff 5 7 (by norm_num) (by norm_num) (by norm_num)).2
    ⟨by norm_num, Or.inl (by norm_num)⟩ (fun _ => 0) 3 0

/-- C4: for 32-bit `docgap` and `freq`, the byte count returned by `encode_magic` equals
`magic_bytes_required docgap freq`, and lies between 1 and 10. -/
theorem encode_magic_exact_cost (docgap freq : Nat) (_hd : docgap < 2 ^ 32)
    (_hf : freq < 2 ^ 32) (buffer : Mem) (p : Nat) :
    (encode_magic docgap freq buffer p).2 = magic_bytes_required docgap freq ∧
    1 ≤ (encode_magic docgap freq buffer p).2 ∧ (encode_magic docgap freq buffer p).2 ≤ 10 := by
  rw [encode_magic_eq, magic_bytes_length]
  exact ⟨rfl, magic_bytes_required_bounds docgap freq⟩

theorem encode_magic_exact_cost_witness :
    (encode_magic 4294967295 4294967295 (fun _ => 0) 3).2
        = magic_bytes_required 4294967295 4294967295 ∧
    1 ≤ (encode_magic 4294967295 4294967295 (fun _ => 0) 3).2 ∧
    (encode_magic 4294967295 4294967295 (fun _ => 0) 3).2 ≤ 10 :=
  encode_magic_exact_cost 4294967295 4294967295 (by norm_num) (by norm_num) (fun _ => 0) 3

section
open immediate_index postings_cursor

/-- C5: over an index built by valid `insert` calls, take the cursor of an inserted term after
`k` calls of `next`, with `k` less than the number of inserted pairs, so that it stands on
the `k`-th pair.  For every 32-bit target `next_geq` returns (given fuel for its loops); if
`target ≤ docid()` the cursor is unchanged; otherwise the resulting `(docid(), freq())` is an
inserted pair whose docid is the smallest one at or after the target, or `docid()` is
`END_CHAIN` when every inserted docid is below the target. -/
theorem next_geq_postcondition (hash : List Nat → Nat) (S : Nat → Nat) (N H : Nat)
    (calls : List insert_call) (idx : immediate_index) (t : List Nat)
    (hS : SlabsOK S) (hH : 0 < H) (hN : N ≤ 2 ^ 32) (hv : ValidCalls calls)
    (hrun : run_inserts hash (mk_sized S N H) calls = some idx)
    (k target fuel : Nat) (c0 cur : postings_cursor)
    (hk : k < (postings_of calls t).length)
    (hc0 : create hash idx t = some c0) (hcur : nexts idx k c0 = some cur)
    (ht32 : target < 2 ^ 32) (hfuel : (postings_of calls t).length + 2 ≤ fuel) :
    (postings_of calls t)[k]? = some (cur.docid, cur.freq) ∧
    ∃ r, next_geq idx fuel cur target = some r ∧
      (target ≤ cur.docid → r = cur) ∧
      (cur.docid < target →
        ((r.docid, r.freq) ∈ postings_of calls t ∧ target ≤ r.docid ∧
          ∀ p ∈ postings_of calls t, target ≤ p.1 → r.docid ≤ p.1) ∨
        (r.docid = END_CHAIN ∧ ∀ p ∈ postings_of calls t, p.1 < target)) := by
  obtain ⟨chains, inv, tr⟩ := build_inv hash S N H calls idx hS hH hN hv hrun
  obtain ⟨s, c, hc, e1, e2⟩ := (tr t).2 (List.ne_nil_of_length_pos (by omega))
  rw [← e2] at hk hfuel ⊢
  obtain ⟨c0', cur', h1, h2, _, h4, h5⟩ := cursor_position hash idx chains inv s c hc k hk
  rw [e1, hc0] at h1
  cases h1
  rw [hcur] at h2
  cases h2
  have hobs := (follows_canon hash idx chains inv s c hc).2.1
  refine ⟨?_, ?_⟩
  · rw [← hobs, List.getElem?_map, h5]
    rfl
  · have hany := next_geq_any hash idx chains inv s c hc target fuel ht32 hfuel cur
      (List.mem_append_left _ h4)
    by_cases hle : target ≤ cur.m_current_docid
    · rw [if_pos hle] at hany
      exact ⟨cur, hany, fun _ => rfl, fun hlt => absurd hle (Nat.not_le.2 hlt)⟩
    · rw [if_neg hle] at hany
      obtain ⟨r, hr⟩ := geq_total hash idx chains inv s c hc target ht32
      rw [hr] at hany
      exact ⟨r, hany, fun h => absurd h hle,
        fun _ => geq_post hash idx chains inv s c hc target r hr⟩

theorem next_geq_postcondition_witness :
    ∃ idx c0 cur, run_inserts whash (mk_sized wslabs 40 8) wcalls = some idx ∧
      create whash idx [97] = some c0 ∧ nexts idx 2 c0 = some cur ∧
      (postings_of wcalls [97])[2]? = some (cur.docid, cur.freq) ∧
      ∃ r, next_geq idx 14 cur 1000000 = some r ∧
        (1000000 ≤ cur.docid → r = cur) ∧
        (cur.docid < 1000000 →
          ((r.docid, r.freq) ∈ postings_of wcalls [97] ∧ 1000000 ≤ r.docid ∧
            ∀ p ∈ postings_of wcalls [97], 1000000 ≤ p.1 → r.docid ≤ p.1) ∨
          (r.docid = END_CHAIN ∧ ∀ p ∈ postings_of wcalls [97], p.1 < 1000000)) := by
  obtain ⟨idx, h⟩ := wcalls_run
  obtain ⟨c0, cur, h1, h2⟩ := cursor_exists whash wslabs 40 8 wcalls idx [97] wslabs_ok
    (by decide) (by norm_num) wcalls_valid h 2 (by decide)
  exact ⟨idx, c0, cur, h, h1, h2, next_geq_postcondition whash wslabs 40 8 wcalls idx [97]
    wslabs_ok (by decide) (by norm_num) wcalls_valid h 2 1000000 14 c0 cur (by decide) h1 h2
    (by norm_num) (by decide)⟩

/-- C6: over an index built by valid `insert` calls, for a fresh cursor of an inserted term
and 32-bit targets `x ≤ y`, `next_geq x` followed by `next_geq y` and `next_geq y` alone all
return (given fuel for their loops) and leave the same `docid()` and the same `freq()`. -/
theorem next_geq_composition (hash : List Nat → Nat) (S : Nat → Nat) (N H : Nat)
    (calls : List insert_call) (idx : immediate_index) (t : List Nat)
    (hS : SlabsOK S) (hH : 0 < H) (hN : N ≤ 2 ^ 32) (hv : ValidCalls calls)
    (hrun : run_inserts hash (mk_sized S N H) calls = some idx)
    (x y fuel : Nat) (c0 : postings_cursor)
    (hne : postings_of calls t ≠ [])
    (hc0 : create hash idx t = some c0)
    (hxy : x ≤ y) (hy32 : y < 2 ^ 32) (hfuel : (postings_of calls t).length + 2 ≤ fuel) :
    ∃ a1 a2 b1, next_geq idx fuel c0 x = some a1 ∧ next_geq idx fuel a1 y = some a2 ∧
      next_geq idx fuel c0 y = some b1 ∧ a2.docid = b1.docid ∧ a2.freq = b1.freq := by
  obtain ⟨chains, inv, tr⟩ := build_inv hash S N H calls idx hS hH hN hv hrun
  obtain ⟨s, c, hc, e1, e2⟩ := (tr t).2 hne
  rw [← e2] at hne hfuel
  rw [← e1] at hc0
  obtain ⟨gx, hgx⟩ := geq_total hash idx chains inv s c hc x (by omega)
  obtain ⟨gy, hgy⟩ := geq_total hash idx chains inv s c hc y hy32
  refine ⟨gx, gy, gy, ?_, ?_, ?_, rfl, rfl⟩
  · rw [next_geq_fresh hash idx chains inv s c hc hne x fuel (by omega) hfuel c0 hc0, hgx]
  · rw [next_geq_twice hash idx chains inv s c hc x y fuel hxy hy32 hfuel gx hgx, hgy]
  · rw [next_geq_fresh hash idx chains inv s c hc hne y fuel hy32 hfuel c0 hc0, hgy]

theorem next_geq_composition_witness :
    ∃ idx c0 a1 a2 b1, run_inserts whash (mk_sized wslabs 40 8) wcalls = some idx ∧
      create whash idx [97] = some c0 ∧
      next_geq idx 14 c0 400000 = some a1 ∧ next_geq idx 14 a1 1000000 = some a2 ∧
      next_geq idx 14 c0 1000000 = some b1 ∧ a2.docid = b1.docid ∧ a2.freq = b1.freq := by
  obtain ⟨idx, h⟩ := wcalls_run
  obtain ⟨c0, _, h1, _⟩ := cursor_exists whash wslabs 40 8 wcalls idx [97] wslabs_ok
    (by decide) (by norm_num) wcalls_valid h 0 (by decide)
  obtain ⟨a1, a2, b1, h2⟩ := next_geq_composition whash wslabs 40 8 wcalls idx [97] wslabs_ok
    (by decide) (by norm_num) wcalls_valid h 400000 1000000 14 c0 (by decide) h1
    (by norm_num) (by norm_num) (by decide)
  exact ⟨idx, c0, a1, a2, b1, h, h1, h2⟩

end

section
open immediate_index postings_cursor

/-- C7: over an index built by valid `insert` calls, `boolean_conjunction` on an empty vector
returns 0, and on the fresh cursors of a non-empty list of inserted terms it returns (given
fuel for its loops, whatever order the sort leaves equal keys in) the number of docids that
occur in the posting list of every term. -/
theorem boolean_conjunction_count (hash : List Nat → Nat) (S : Nat → Nat) (N H : Nat)
    (calls : List insert_call) (idx : immediate_index)
    (hS : SlabsOK S) (hH : 0 < H) (hN : N ≤ 2 ^ 32) (hv : ValidCalls calls)
    (hrun : run_inserts hash (mk_sized S N H) calls = some idx)
    (sort : List postings_cursor → List postings_cursor) (hsort : ∀ l, (sort l).Perm l)
    (terms : List (List Nat)) (cursors : List postings_cursor) (fuel : Nat)
    (hterms : ∀ t ∈ terms, postings_of calls t ≠ [])
    (hcur : List.Forall₂ (fun t c => create hash idx t = some c) terms cursors)
    (hfuel : ∀ t ∈ terms, (postings_of calls t).length + 2 ≤ fuel) :
    boolean_conjunction idx sort fuel [] = some 0 ∧
    (terms ≠ [] →
      ∃ I : Finset Nat, (∀ d, d ∈ I ↔ ∀ t ∈ terms, d ∈ (postings_of calls t).map Prod.fst) ∧
        boolean_conjunction idx sort fuel cursors = some I.card) := by
  refine ⟨rfl, fun hne => ?_⟩
  obtain ⟨chains, inv, tr⟩ := build_inv hash S N H calls idx hS hH hN hv hrun
  obtain ⟨hD, hfresh, hct, htc⟩ := query_cursors hash idx chains (postings_of calls) inv tr
    terms cursors fuel hterms hcur hfuel
  have hcne : cursors ≠ [] := by
    intro h
    rw [h] at hcur
    cases hcur
    exact hne rfl
  obtain ⟨I, hI, hres⟩ := conj_spec hash idx chains inv
    (fun t => (postings_of calls t).map Prod.fst) hD fuel sort hsort cursors hfresh hcne
  refine ⟨I, fun d => ?_, hres⟩
  rw [hI]
  constructor
  · intro h t ht
    obtain ⟨c, hc, e⟩ := htc t ht
    rw [← e]
    exact h c hc
  · intro h c hc
    exact h c.m_term (hct c hc)

theorem boolean_conjunction_count_witness :
    ∃ idx cursors, run_inserts whash (mk_sized wslabs 40 8) qcalls = some idx ∧
      List.Forall₂ (fun t c => create whash idx t = some c) [[97], [98]] cursors ∧
      ∃ I : Finset Nat,
        (∀ d, d ∈ I ↔ ∀ t ∈ [[97], [98]], d ∈ (postings_of qcalls t).map Prod.fst) ∧
        boolean_conjunction idx wsort 10 cursors = some I.card := by
  obtain ⟨idx, h⟩ := qcalls_run
  obtain ⟨cursors, hc⟩ := cursors_exist whash wslabs 40 8 qcalls idx wslabs_ok (by decide)
    (by norm_num) qcalls_valid h [[97], [98]] (by decide)
  exact ⟨idx, cursors, h, hc, (boolean_conjunction_count whash wslabs 40 8 qcalls idx
    wslabs_ok (by decide) (by norm_num) qcalls_valid h wsort wsort_perm [[97], [98]] cursors
    10 (by decide) hc (by decide)).2 (by decide)⟩

/-- C8: over an index built by valid `insert` calls, `boolean_disjunction` on an empty vector
returns 0, and on the fresh cursors of a non-empty list of inserted terms it terminates
(given fuel for one more round than there are distinct docids) with every cursor at
`docid() = END_CHAIN` and returns the number of distinct docids that occur in the posting
list of at least one term. -/
theorem boolean_disjunction_count (hash : List Nat → Nat) (S : Nat → Nat) (N H : Nat)
    (calls : List insert_call) (idx : immediate_index)
    (hS : SlabsOK S) (hH : 0 < H) (hN : N ≤ 2 ^ 32) (hv : ValidCalls calls)
    (hrun : run_inserts hash (mk_sized S N H) calls = some idx)
    (terms : List (List Nat)) (cursors : List postings_cursor)
    (hterms : ∀ t ∈ terms, postings_of calls t ≠ [])
    (hcur : List.Forall₂ (fun t c => create hash idx t = some c) terms cursors) :
    (∀ fuel, boolean_disjunction idx fuel [] = some (0, [])) ∧
    (terms ≠ [] →
      ∃ U : Finset Nat, (∀ d, d ∈ U ↔ ∃ t ∈ terms, d ∈ (postings_of calls t).map Prod.fst) ∧
        ∀ fuel, U.card + 1 ≤ fuel →
          ∃ final, boolean_disjunction idx fuel cursors = some (U.card, final) ∧
            final.length = cursors.length ∧ ∀ c ∈ final, c.docid = END_CHAIN) := by
  refine ⟨fun _ => rfl, fun hne => ?_⟩
  obtain ⟨chains, inv, tr⟩ := build_inv hash S N H calls idx hS hH hN hv hrun
  obtain ⟨F, hF⟩ := exists_bound (fun t => (postings_of calls t).length + 2) terms
  obtain ⟨hD, hfresh, hct, htc⟩ := query_cursors hash idx chains (postings_of calls) inv tr
    terms cursors F hterms hcur hF
  have hcne : cursors ≠ [] := by
    intro h
    rw [h] at hcur
    cases hcur
    exact hne rfl
  obtain ⟨U, hU, hres⟩ := disj_spec hash idx chains inv
    (fun t => (postings_of calls t).map Prod.fst) hD cursors
    (fun c hc => by
      obtain ⟨s, ch, h1, h2, h3, _⟩ := hfresh c hc
      exact ⟨s, ch, h1, h2, h3⟩) hcne
  refine ⟨U, fun d => ?_, hres⟩
  rw [hU]
  constructor
  · rintro ⟨c, hc, h⟩
    exact ⟨c.m_term, hct c hc, h⟩
  · rintro ⟨t, ht, h⟩
    obtain ⟨c, hc, e⟩ := htc t ht
    exact ⟨c, hc, by rw [e]; exact h⟩

theorem boolean_disjunction_count_witness :
    ∃ idx cursors, run_inserts whash (mk_sized wslabs 40 8) qcalls = some idx ∧
      List.Forall₂ (fun t c => create whash idx t = some c) [[97], [98]] cursors ∧
      ∃ U : Finset Nat,
        (∀ d, d ∈ U ↔ ∃ t ∈ [[97], [98]], d ∈ (postings_of qcalls t).map Prod.fst) ∧
        ∀ fuel, U.card + 1 ≤ fuel →
          ∃ final, boolean_disjunction idx fuel cursors = some (U.card, final) ∧
            final.length = cursors.length ∧ ∀ c ∈ final, c.docid = END_CHAIN := by
  obtain ⟨idx, h⟩ := qcalls_run
  obtain ⟨cursors, hc⟩ := cursors_exist whash wslabs 40 8 qcalls idx wslabs_ok (by decide)
    (by norm_num) qcalls_valid h [[97], [98]] (by decide)
  exact ⟨idx, cursors, h, hc, (boolean_disjunction_count whash wslabs 40 8 qcalls idx
    wslabs_ok (by decide) (by norm_num) qcalls_valid h [[97], [98]] cursors (by decide)
    hc).2 (by decide)⟩

end

/-- C20: for every 32-bit `v`, `vbyte_encode` emits `bytes_required v` bytes that hold the
7-bit groups of `v` least significant group first and cover all of `v`; every emitted byte
but the last has bit `0x80` set, the last has it clear and is non-zero unless `v = 0`.  In
particular `0` is emitted as `[0x00]`, `127` as `[0x7F]`, `128` as `[0x80, 0x01]` and
`2 ^ 28` takes 5 bytes. -/
theorem vbyte_wire_format (v : Nat) (hv : v < 2 ^ 32) (buffer : Mem) (p : Nat) :
    (vbyte_encode v buffer p).2 = bytes_required v ∧
    v < 128 ^ (vbyte_encode v buffer p).2 ∧
    (∀ i, i < (vbyte_encode v buffer p).2 →
      (vbyte_encode v buffer p).1 (p + i) &&& 0x7f = (v >>> (7 * i)) &&& 0x7f ∧
      (i + 1 < (vbyte_encode v buffer p).2 →
        0 < (vbyte_encode v buffer p).1 (p + i) &&& 0x80) ∧
      (i + 1 = (vbyte_encode v buffer p).2 →
        (vbyte_encode v buffer p).1 (p + i) &&& 0x80 = 0 ∧
        (v ≠ 0 → (vbyte_encode v buffer p).1 (p + i) ≠ 0))) ∧
    vbyte_emitted 0 = [0x00] ∧ vbyte_emitted 127 = [0x7F] ∧
    vbyte_emitted 128 = [0x80, 0x01] ∧ (vbyte_emitted (2 ^ 28)).length = 5 := by
  obtain ⟨hcov, hgrp⟩ := vbyte_bytes_groups v hv
  have hh := holds_write_list (vbyte_bytes v) (vbyte_bytes_lt v hv) buffer p
  rw [vbyte_encode_eq v hv]
  refine ⟨vbyte_bytes_length v, hcov, fun i hi => ?_, rfl, rfl, rfl, rfl⟩
  obtain ⟨h1, h2, h3, h4⟩ := hgrp i hi
  have e := hh i hi
  dsimp only
  rw [e, and_7f, and_7f, Nat.shiftRight_eq_div_pow, Nat.pow_mul]
  refine ⟨h1, fun hlt => and_80_pos _ (h3 hlt) h2, fun he => ?_⟩
  have := and_80_zero _ (h4 he).1
  exact ⟨by omega, (h4 he).2⟩

theorem vbyte_wire_format_witness :
    (vbyte_encode 300 (fun _ => 0) 4).2 = bytes_required 300 ∧
    (vbyte_encode 300 (fun _ => 0) 4).1 (4 + 0) &&& 0x7f = (300 >>> (7 * 0)) &&& 0x7f ∧
    0 < (vbyte_encode 300 (fun _ => 0) 4).1 (4 + 0) &&& 0x80 :=
  ⟨(vbyte_wire_format 300 (by norm_num) (fun _ => 0) 4).1,
    ((vbyte_wire_format 300 (by norm_num) (fun _ => 0) 4).2.2.1 0 (by decide)).1,
    ((vbyte_wire_format 300 (by norm_num) (fun _ => 0) 4).2.2.1 0 (by decide)).2.1
      (by decide)⟩

theorem grants_spec (ks : List Nat) : ∀ (idx idx2 : immediate_index)
    (ranges : List (Nat × Nat)), (∀ k ∈ ks, k < 2 ^ 32) →
    grants idx ks = some (ranges, idx2) →
    ranges.Pairwise (fun a b => a.1 + a.2 ≤ b.1) ∧
    (∀ r ∈ ranges, idx.m_next_empty ≤ r.1 ∧ r.1 + r.2 ≤ idx2.m_next_empty) ∧
    idx.m_next_empty ≤ idx2.m_next_empty ∧
    (ranges ≠ [] → idx2.m_next_empty < idx2.m_data_size) ∧
    ranges.map Prod.snd = ks ∧
    idx2.m_term_offsets = idx.m_term_offsets ∧ idx2.m_data = idx.m_data ∧
    idx2.m_data_size = idx.m_data_size := by
  induction ks with
  | nil =>
    intro idx idx2 ranges _ h
    simp only [grants, Option.some.injEq, Prod.mk.injEq] at h
    obtain ⟨rfl, rfl⟩ := h
    simp
  | cons k ks ih =>
    intro idx idx2 ranges hk h
    have hk1 := hk k (List.mem_cons_self _ _)
    unfold grants immediate_index.next_free_slot at h
    rw [Nat.mod_eq_of_lt hk1] at h
    by_cases hfull : idx.m_next_empty + k ≥ idx.m_data_size
    · rw [if_pos hfull] at h
      cases h
    · rw [if_neg hfull] at h
      simp only at h
      cases hg : grants { idx with m_next_empty := idx.m_next_empty + k } ks with
      | none =>
        rw [hg] at h
        cases h
      | some r =>
        obtain ⟨rs, idx3⟩ := r
        rw [hg] at h
        simp only [Option.some.injEq, Prod.mk.injEq] at h
        obtain ⟨rfl, rfl⟩ := h
        obtain ⟨h1, h2, h3, h4, h5, h6, h7, h8⟩ := ih _ idx3 rs
          (fun x hx => hk x (List.mem_cons_of_mem _ hx)) hg
        dsimp only at h2 h3 h6 h7 h8
        refine ⟨?_, ?_, by omega, fun _ => ?_, by simp [h5], h6, h7, h8⟩
        · rw [List.pairwise_cons]
          exact ⟨fun r hr => (h2 r hr).1, h1⟩
        · intro r hr
          rcases List.mem_cons.1 hr with e | hm
          · rw [e]
            dsimp only
            omega
          · have := h2 r hm
            omega
        · cases ks with
          | nil =>
            simp only [grants, Option.some.injEq, Prod.mk.injEq] at hg
            rw [← hg.2]
            dsimp only
            omega
          | cons k2 ks2 =>
            apply h4
            intro e
            rw [e] at h5
            simp at h5

/-- C15: for a 32-bit `k`, `next_free_slot k` fails exactly when `next_empty + k` reaches the
arena size; otherwise it returns the old `next_empty` and adds `k` to it, changing nothing
else, and leaves `next_empty` below the arena size.  The ranges granted by successive calls
are consecutive and pairwise disjoint and lie between the old and the new `next_empty`. -/
theorem next_free_slot_spec (idx : immediate_index) (k : Nat) (hk : k < 2 ^ 32) :
    (idx.next_free_slot k = none ↔ idx.m_data_size ≤ idx.m_next_empty + k) ∧
    (idx.m_next_empty + k < idx.m_data_size →
      idx.next_free_slot k
        = some (idx.m_next_empty, { idx with m_next_empty := idx.m_next_empty + k }) ∧
      idx.m_next_empty + k < idx.m_data_size) ∧
    (∀ ks ranges idx2, (∀ x ∈ ks, x < 2 ^ 32) → grants idx ks = some (ranges, idx2) →
      ranges.Pairwise (fun a b => a.1 + a.2 ≤ b.1) ∧
      (∀ r ∈ ranges, idx.m_next_empty ≤ r.1 ∧ r.1 + r.2 ≤ idx2.m_next_empty) ∧
      (ranges ≠ [] → idx2.m_next_empty < idx2.m_data_size) ∧
      ranges.map Prod.snd = ks) := by
  unfold immediate_index.next_free_slot
  rw [Nat.mod_eq_of_lt hk]
  refine ⟨?_, ?_, ?_⟩
  · by_cases h : idx.m_next_empty + k ≥ idx.m_data_size
    · rw [if_pos h]
      exact ⟨fun _ => h, fun _ => rfl⟩
    · rw [if_neg h]
      exact ⟨fun h2 => Option.noConfusion h2, fun h2 => absurd h2 h⟩
  · intro h
    rw [if_neg (Nat.not_le.2 h)]
    exact ⟨rfl, h⟩
  · intro ks ranges idx2 hks hg
    obtain ⟨h1, h2, _, h4, h5, _⟩ := grants_spec ks idx idx2 ranges hks hg
    exact ⟨h1, h2, h4, h5⟩

theorem next_free_slot_spec_witness :
    ((immediate_index.mk_sized wslabs 10 4).next_free_slot 10 = none ↔
      (10 : Nat) ≤ 0 + 10) ∧
    (grants (immediate_index.mk_sized wslabs 10 4) [3, 2, 4]).map Prod.fst
      = some [(0, 3), (3, 2), (5, 4)] :=
  ⟨(next_free_slot_spec (immediate_index.mk_sized wslabs 10 4) 10 (by norm_num)).1, rfl⟩

section
open immediate_index

/-- C16: on a directory of `H` slots, `1 ≤ H ≤ 2 ^ 32`, whenever the probe loop of
`found_or_empty_offset` returns a slot `i` (after any number of rounds), the method returns
`i`, and `i` is the first slot on the cyclic sequence `hash(term) mod H, +1, +2, ...` that is
empty or whose head block stores `term` (same length, same bytes); all slots probed before
it are occupied by other terms.  The method returns whenever such a slot exists.  It only
reads the index. -/
theorem found_or_empty_offset_spec (hash : List Nat → Nat) (idx : immediate_index)
    (term : List Nat) (hH : 0 < idx.m_term_offsets_size)
    (hH32 : idx.m_term_offsets_size ≤ 2 ^ 32) :
    (∀ fuel i,
      found_or_empty_offset_loop idx term fuel (idx.term_to_offset hash term) = some i →
      found_or_empty_offset hash idx term = some i ∧
      ∃ k, k < idx.m_term_offsets_size ∧ i = (hash term + k) % idx.m_term_offsets_size ∧
        probe_stop idx term i ∧
        ∀ j, j < k → ¬ probe_stop idx term ((hash term + j) % idx.m_term_offsets_size)) ∧
    ((∃ k, probe_stop idx term ((hash term + k) % idx.m_term_offsets_size)) →
      ∃ i, found_or_empty_offset hash idx term = some i) ∧
    (∀ b, term = head_block.get_term idx.m_data b ↔
      head_block.word_length idx.m_data b = term.length ∧
      ∀ j, j < term.length →
        idx.m_data (struct_ptr b + HEAD_PL_OFFSET + j) = term.getD j 0) := by
  have hit : ∀ k, (probe_step idx.m_term_offsets_size)^[k] (idx.term_to_offset hash term)
      = (hash term + k) % idx.m_term_offsets_size :=
    fun k => probe_iter _ (hash term) k hH hH32
  refine ⟨fun fuel i h => ?_, fun h => ?_, fun b => get_term_iff _ b term⟩
  · obtain ⟨k, _, e1, e2, e3⟩ := loop_sound idx term fuel _ i h
    rw [hit] at e1
    have e3' : ∀ j, j < k →
        ¬ probe_stop idx term ((hash term + j) % idx.m_term_offsets_size) := by
      intro j hj
      rw [← hit]
      exact e3 j hj
    have hk := probe_least idx hash term hH k (by rw [← e1]; exact e2) e3'
    refine ⟨?_, k, hk, e1, e2, e3'⟩
    unfold found_or_empty_offset
    rw [loop_complete idx term k _ _ hk (by rw [hit, ← e1]; exact e2) e3, hit, e1]
  · classical
    have hmin : ∀ j, j < Nat.find h →
        ¬ probe_stop idx term ((hash term + j) % idx.m_term_offsets_size) :=
      fun j hj => Nat.find_min h hj
    have hspec := Nat.find_spec h
    have hk := probe_least idx hash term hH (Nat.find h) hspec hmin
    refine ⟨(probe_step idx.m_term_offsets_size)^[Nat.find h]
      (idx.term_to_offset hash term), ?_⟩
    unfold found_or_empty_offset
    exact loop_complete idx term (Nat.find h) _ _ hk (by rw [hit]; exact hspec)
      (fun j hj => by rw [hit]; exact hmin j hj)

theorem found_or_empty_offset_spec_witness :
    ∃ i, found_or_empty_offset whash full_dir [97] = some i :=
  (found_or_empty_offset_spec whash full_dir [97] (by rw [full_dir_facts.1]; decide)
    (by rw [full_dir_facts.1]; decide)).2.1
    ⟨0, Or.inr (by
      rw [full_dir_facts.1]
      show [97] = head_block.get_term full_dir.m_data (full_dir.m_term_offsets 0)
      rw [full_dir_facts.2.1, full_dir_facts.2.2])⟩

/-- C17 (counterexample): in an index whose single directory slot holds the term `[97]`,
the slot stops no probe for `[98]`, and the probe loop for `[98]` returns after no number of
rounds: the lookup keeps probing and reports nothing. -/
theorem directory_overflow_counterexample :
    (∀ i, i < full_dir.m_term_offsets_size → ¬ probe_stop full_dir [98] i) ∧
    ¬ ∃ fuel i, found_or_empty_offset_loop full_dir [98] fuel
      (full_dir.term_to_offset whash [98]) = some i := by
  refine ⟨full_dir_full, ?_⟩
  rintro ⟨fuel, i, h⟩
  rw [loop_full_none whash full_dir [98] (by rw [full_dir_facts.1]; decide) full_dir_full]
    at h
  cases h

/-- C17 (amended): a full directory is not detected.  When every slot of the directory is
occupied and none stores the term, the probe loop of `found_or_empty_offset` returns after
no number of rounds, so neither the lookup nor the insert that called it ends, and no
failure is reported. -/
theorem directory_overflow_never_returns (hash : List Nat → Nat) (idx : immediate_index)
    (term : List Nat) (hH : 0 < idx.m_term_offsets_size)
    (hfull : ∀ i, i < idx.m_term_offsets_size → ¬ probe_stop idx term i) :
    ∀ fuel, found_or_empty_offset_loop idx term fuel (idx.term_to_offset hash term) = none :=
  fun fuel => loop_full_none hash idx term hH hfull fuel

theorem directory_overflow_never_returns_witness :
    found_or_empty_offset_loop full_dir [98] 1000 (full_dir.term_to_offset whash [98])
      = none :=
  directory_overflow_never_returns whash full_dir [98] (by rw [full_dir_facts.1]; decide)
    full_dir_full 1000

end

section
open immediate_index postings_cursor

/-- C19: after any sequence of valid `insert` calls on a fresh index, for every inserted
term the `doc_freq` field of its head block, and the `doc_freq()` of a cursor constructed
for it, equal the number of `insert` calls made for the term; the cursor shows exactly that
many postings, none with docid `END_CHAIN`, and reports `END_CHAIN` right after them. -/
theorem doc_freq_counts_postings (hash : List Nat → Nat) (S : Nat → Nat) (N H : Nat)
    (calls : List insert_call) (idx : immediate_index) (t : List Nat)
    (hS : SlabsOK S) (hH : 0 < H) (hN : N ≤ 2 ^ 32) (hv : ValidCalls calls)
    (hrun : run_inserts hash (mk_sized S N H) calls = some idx)
    (ht : postings_of calls t ≠ []) :
    ∃ e c1 l tf, found_or_empty_offset hash idx t = some e ∧
      idx.doc_freq (idx.m_term_offsets e) = (calls.filter (fun c => c.term = t)).length ∧
      create hash idx t = some c1 ∧
      c1.doc_freq = (calls.filter (fun c => c.term = t)).length ∧
      read_all idx (calls.filter (fun c => c.term = t)).length c1
        = some (l ++ [(END_CHAIN, tf)]) ∧
      l.length = (calls.filter (fun c => c.term = t)).length ∧
      ∀ p ∈ l, p.1 ≠ END_CHAIN := by
  have hn : (postings_of calls t).length = (calls.filter (fun c => c.term = t)).length := by
    unfold postings_of
    rw [List.length_map]
  obtain ⟨chains, inv, tr⟩ := build_inv hash S N H calls idx hS hH hN hv hrun
  obtain ⟨s, c, hc, e1, e2⟩ := (tr t).2 ht
  have hfo := found_of_chain hash idx chains inv s c hc
  have hdf := chain_doc_freq hash idx chains inv s c hc
  have hok := chain_posts_ok hash idx chains inv s c hc
  obtain ⟨c1, h1, _, h3, h4⟩ := cursor_reads_chain hash idx chains inv s c hc
    (by rw [e2]; exact ht)
  rw [e1] at hfo h1
  rw [e2] at hdf h3 h4 hok
  rw [hn] at hdf h3 h4
  refine ⟨s, c1, postings_of calls t, _, hfo, ?_, h1, h3, h4, hn, fun p hp => ?_⟩
  · rw [inv.dir_some s c hc]
    exact hdf
  · have := (PostsOK_mem _ _ hok p hp).2.2
    simp only [END_CHAIN]
    omega

theorem doc_freq_counts_postings_witness :
    ∃ idx, run_inserts whash (mk_sized wslabs 40 8) wcalls = some idx ∧
      ∃ e c1 l tf, found_or_empty_offset whash idx [97] = some e ∧
        idx.doc_freq (idx.m_term_offsets e)
          = (wcalls.filter (fun c => c.term = [97])).length ∧
        create whash idx [97] = some c1 ∧
        c1.doc_freq = (wcalls.filter (fun c => c.term = [97])).length ∧
        read_all idx (wcalls.filter (fun c => c.term = [97])).length c1
          = some (l ++ [(END_CHAIN, tf)]) ∧
        l.length = (wcalls.filter (fun c => c.term = [97])).length ∧
        ∀ p ∈ l, p.1 ≠ END_CHAIN := by
  obtain ⟨idx, h⟩ := wcalls_run
  exact ⟨idx, h, doc_freq_counts_postings whash wslabs 40 8 wcalls idx [97] wslabs_ok
    (by decide) (by norm_num) wcalls_valid h (by decide)⟩

end

section
open immediate_index postings_cursor

/-- C18 (counterexample): over the index built by two `insert` calls for the term `[97]`, the
query `[97] [120]` contains the absent term `[120]`, and `boolean_conjunction` on the cursors
that `query_to_cursors` returns for it gives 2, not 0. -/
theorem lookup_miss_counterexample :
    postings_of mcalls [120] = [] ∧ boolean_conjunction midx wsort 4 mcursors = some 2 := by
  constructor
  · decide
  · decide!

/-- C18 (amended): over an index built by valid `insert` calls, a cursor constructed for a
term that was never inserted reports `valid() = false`; `query_to_cursors` drops such
cursors and returns the fresh cursors of the inserted terms of the query, in order; on them
`boolean_conjunction` returns 0 when no term of the query was inserted, and otherwise the
number of docids common to the posting lists of the inserted terms of the query. -/
theorem lookup_miss_dropped (hash : List Nat → Nat) (S : Nat → Nat) (N H : Nat)
    (calls : List insert_call) (idx : immediate_index)
    (hS : SlabsOK S) (hH : 0 < H) (hN : N ≤ 2 ^ 32) (hv : ValidCalls calls)
    (hrun : run_inserts hash (mk_sized S N H) calls = some idx)
    (sort : List postings_cursor → List postings_cursor) (hsort : ∀ l, (sort l).Perm l)
    (terms : List (List Nat)) (cs : List postings_cursor) (fuel : Nat)
    (hq : query_to_cursors hash idx terms = some cs)
    (hfuel : ∀ t ∈ terms, (postings_of calls t).length + 2 ≤ fuel) :
    (∀ t c, postings_of calls t = [] → create hash idx t = some c → c.valid = false) ∧
    List.Forall₂ (fun t c => create hash idx t = some c)
      (terms.filter (fun t => decide (postings_of calls t ≠ []))) cs ∧
    ((∀ t ∈ terms, postings_of calls t = []) →
      boolean_conjunction idx sort fuel cs = some 0) ∧
    ((∃ t ∈ terms, postings_of calls t ≠ []) →
      ∃ I : Finset Nat,
        (∀ d, d ∈ I ↔ ∀ t ∈ terms, postings_of calls t ≠ [] →
          d ∈ (postings_of calls t).map Prod.fst) ∧
        boolean_conjunction idx sort fuel cs = some I.card) := by
  obtain ⟨chains, inv, tr⟩ := build_inv hash S N H calls idx hS hH hN hv hrun
  have hfa := query_to_cursors_spec hash idx chains (postings_of calls) inv tr terms cs hq
  refine ⟨fun t c ht hc => absent_invalid hash idx chains _ inv tr t ht c hc, hfa, ?_, ?_⟩
  · intro hall
    have : terms.filter (fun t => decide (postings_of calls t ≠ [])) = [] := by
      rw [List.filter_eq_nil_iff]
      intro t ht
      simpa using hall t ht
    rw [this] at hfa
    cases hfa
    rfl
  · rintro ⟨t0, ht0, hp0⟩
    have hmemf : ∀ t, t ∈ terms.filter (fun t => decide (postings_of calls t ≠ [])) ↔
        t ∈ terms ∧ postings_of calls t ≠ [] := by
      intro t
      simp [List.mem_filter]
    obtain ⟨hD, hfresh, hct, htc⟩ := query_cursors hash idx chains (postings_of calls) inv tr
      _ cs fuel (fun t ht => ((hmemf t).1 ht).2) hfa
      (fun t ht => hfuel t ((hmemf t).1 ht).1)
    have hcne : cs ≠ [] := by
      obtain ⟨c, hc, _⟩ := htc t0 ((hmemf t0).2 ⟨ht0, hp0⟩)
      exact List.ne_nil_of_mem hc
    obtain ⟨I, hI, hres⟩ := conj_spec hash idx chains inv
      (fun t => (postings_of calls t).map Prod.fst) hD fuel sort hsort cs hfresh hcne
    refine ⟨I, fun d => ?_, hres⟩
    rw [hI]
    constructor
    · intro h t ht hp
      obtain ⟨c, hc, e⟩ := htc t ((hmemf t).2 ⟨ht, hp⟩)
      rw [← e]
      exact h c hc
    · intro h c hc
      have := (hmemf c.m_term).1 (hct c hc)
      exact h c.m_term this.1 this.2

theorem lookup_miss_dropped_witness :
    ∃ I : Finset Nat,
      (∀ d, d ∈ I ↔ ∀ t ∈ [[97], [120]], postings_of mcalls t ≠ [] →
        d ∈ (postings_of mcalls t).map Prod.fst) ∧
      boolean_conjunction midx wsort 4 mcursors = some I.card :=
  (lookup_miss_dropped whash wslabs 8 4 mcalls midx wslabs_ok (by decide) (by norm_num)
    mcalls_valid midx_run wsort wsort_perm [[97], [120]] mcursors 4 mcursors_eq
    (by decide)).2.2.2 ⟨[97], by decide, by decide⟩

end

section
open topk_queue

end

section
open immediate_index

/-- C11: for an index whose `m_next_empty` and table size are 64-bit values and whose
directory entries are 32-bit values, `serialize` appends to the file exactly the 8 bytes of
`m_next_empty`, the 8 bytes of the table size `H`, the `H` directory entries of 4 bytes each
and the first `m_next_empty * BLOCK_SIZE` bytes of the arena in arena order, which is
`16 + 4 * H + 64 * m_next_empty` bytes; `load` applied to these bytes, on any index object,
gives an index with the same `m_next_empty`, the same table size, the same directory
entries and the same bytes in the blocks `[0, m_next_empty)`. -/
theorem serialize_load_round_trip (idx tgt : immediate_index) (out : ofstream)
    (hpos : out.pos = out.bytes.length)
    (hne : idx.m_next_empty < 2 ^ 64) (hH : idx.m_term_offsets_size < 2 ^ 64)
    (hdir : ∀ s, s < idx.m_term_offsets_size → idx.m_term_offsets s < 2 ^ 32) :
    (idx.serialize out).bytes = out.bytes ++ (u64_bytes idx.m_next_empty
      ++ u64_bytes idx.m_term_offsets_size
      ++ vec_bytes idx.m_term_offsets idx.m_term_offsets_size
      ++ mem_bytes idx.m_data 0 (idx.m_next_empty * BLOCK_SIZE)) ∧
    ((idx.serialize out).bytes.drop out.bytes.length).length
      = 16 + 4 * idx.m_term_offsets_size + 64 * idx.m_next_empty ∧
    (tgt.load (some ((idx.serialize out).bytes.drop out.bytes.length))).1.m_next_empty
      = idx.m_next_empty ∧
    (tgt.load (some ((idx.serialize out).bytes.drop out.bytes.length))).1.m_term_offsets_size
      = idx.m_term_offsets_size ∧
    (∀ s, s < idx.m_term_offsets_size →
      (tgt.load (some ((idx.serialize out).bytes.drop out.bytes.length))).1.m_term_offsets s
        = idx.m_term_offsets s) ∧
    (∀ a, a < idx.m_next_empty * BLOCK_SIZE →
      (tgt.load (some ((idx.serialize out).bytes.drop out.bytes.length))).1.m_data a
        = idx.m_data a) := by
  have hb := serialize_bytes idx out hpos
  have hd : (idx.serialize out).bytes.drop out.bytes.length
      = u64_bytes idx.m_next_empty ++ (u64_bytes idx.m_term_offsets_size
        ++ (vec_bytes idx.m_term_offsets idx.m_term_offsets_size
        ++ mem_bytes idx.m_data 0 (idx.m_next_empty * BLOCK_SIZE))) := by
    rw [hb, List.drop_left]
    simp only [List.append_assoc]
  obtain ⟨l1, l2, _, _, l5, l6⟩ := load_spec tgt idx.m_next_empty idx.m_term_offsets_size
    (vec_bytes idx.m_term_offsets idx.m_term_offsets_size)
    (mem_bytes idx.m_data 0 (idx.m_next_empty * BLOCK_SIZE)) hne hH (vec_bytes_length _ _)
  rw [hd]
  refine ⟨hb, ?_, l1, l2, ?_, ?_⟩
  · simp only [List.length_append, u64_bytes_length, vec_bytes_length, mem_bytes_length,
      BLOCK_SIZE]
    omega
  · intro s hs
    rw [l5 s, vec_bytes_entry _ _ _ hs, of_bytes_u32 _ (hdir s hs)]
  · intro a ha
    rw [l6 a, if_pos ha, List.take_of_length_le (by rw [mem_bytes_length]), mem_bytes_length,
      if_pos ha, mem_bytes_getD _ _ _ _ ha, Nat.zero_add]

/-- C11 (witness): the statement for the index built by the two calls `mcalls`, written to an
empty file and loaded into a default-constructed index. -/
theorem serialize_load_round_trip_witness :
    (⟨[], 0⟩ : ofstream).pos = (⟨[], 0⟩ : ofstream).bytes.length ∧
    midx.m_next_empty < 2 ^ 64 ∧ midx.m_term_offsets_size < 2 ^ 64 ∧
    (∀ s, s < midx.m_term_offsets_size → midx.m_term_offsets s < 2 ^ 32) ∧
    (midx.serialize ⟨[], 0⟩).bytes = (⟨[], 0⟩ : ofstream).bytes ++ (u64_bytes midx.m_next_empty
      ++ u64_bytes midx.m_term_offsets_size
      ++ vec_bytes midx.m_term_offsets midx.m_term_offsets_size
      ++ mem_bytes midx.m_data 0 (midx.m_next_empty * BLOCK_SIZE)) ∧
    ((midx.serialize ⟨[], 0⟩).bytes.drop (⟨[], 0⟩ : ofstream).bytes.length).length
      = 16 + 4 * midx.m_term_offsets_size + 64 * midx.m_next_empty ∧
    ((mk_default wslabs).load (some ((midx.serialize ⟨[], 0⟩).bytes.drop
      (⟨[], 0⟩ : ofstream).bytes.length))).1.m_next_empty = midx.m_next_empty ∧
    ((mk_default wslabs).load (some ((midx.serialize ⟨[], 0⟩).bytes.drop
      (⟨[], 0⟩ : ofstream).bytes.length))).1.m_term_offsets_size = midx.m_term_offsets_size ∧
    (∀ s, s < midx.m_term_offsets_size →
      ((mk_default wslabs).load (some ((midx.serialize ⟨[], 0⟩).bytes.drop
        (⟨[], 0⟩ : ofstream).bytes.length))).1.m_term_offsets s = midx.m_term_offsets s) ∧
    (∀ a, a < midx.m_next_empty * BLOCK_SIZE →
      ((mk_default wslabs).load (some ((midx.serialize ⟨[], 0⟩).bytes.drop
        (⟨[], 0⟩ : ofstream).bytes.length))).1.m_data a = midx.m_data a) :=
  ⟨rfl, by decide!, by decide!, by decide!,
    serialize_load_round_trip midx (mk_default wslabs) ⟨[], 0⟩ rfl (by decide!) (by decide!)
      (by decide!)⟩

end

section
open immediate_index postings_cursor

/-- C9: for an index built by valid `insert` calls on a fresh index, `serialize_pack` (with
fuel for its inner loops of at least the number of blocks in use) returns, and `load` of the
bytes it wrote into a default-constructed index gives an index in which a cursor for an
inserted term is valid, reports the same `doc_freq` as a cursor of the original index before
`serialize_pack`, and shows at construction and after each `next` the same `(docid, freq)`
pairs as that cursor, namely the inserted pairs in order and then `END_CHAIN`; and in which a
term that was never inserted has, as in the original index, a cursor that is not valid. -/
theorem compact_load_round_trip (hash : List Nat → Nat) (S : Nat → Nat) (N H : Nat)
    (calls : List insert_call) (idx : immediate_index) (fuel : Nat) (t : List Nat)
    (hS : SlabsOK S) (hH : 0 < H) (hH64 : H < 2 ^ 64) (hN : N ≤ 2 ^ 32)
    (hv : ValidCalls calls)
    (hrun : run_inserts hash (mk_sized S N H) calls = some idx)
    (hfuel : idx.m_next_empty ≤ fuel) :
    ∃ idx1 out, idx.serialize_pack fuel ⟨[], 0⟩ = some (idx1, out) ∧
      (postings_of calls t ≠ [] →
        ∃ c0 c1 tf, create hash idx t = some c0 ∧
          create hash ((mk_default S).load (some out.bytes)).1 t = some c1 ∧
          c1.valid = true ∧ c1.doc_freq = c0.doc_freq ∧
          read_all idx (postings_of calls t).length c0
            = some (postings_of calls t ++ [(END_CHAIN, tf)]) ∧
          read_all ((mk_default S).load (some out.bytes)).1 (postings_of calls t).length c1
            = some (postings_of calls t ++ [(END_CHAIN, tf)])) ∧
      (postings_of calls t = [] → ∀ c0, create hash idx t = some c0 →
        c0.valid = false ∧
        ∃ c1, create hash ((mk_default S).load (some out.bytes)).1 t = some c1 ∧
          c1.valid = false) := by
  obtain ⟨chains, inv, tr⟩ := build_inv hash S N H calls idx hS hH hN hv hrun
  obtain ⟨hslab, hsize⟩ := run_inserts_fields hash calls _ _ hrun
  have hslab2 : idx.m_slab_size = S := hslab
  have hsize2 : idx.m_term_offsets_size = H := hsize
  obtain ⟨idx1, out, data, hpack, hbytes, hdata, hdir, himg⟩ :=
    pack_spec hash idx chains inv fuel hfuel ⟨[], 0⟩ rfl
  rw [List.nil_append] at hbytes
  have invP := loaded_inv hash idx chains inv (by rw [hsize2]; exact hH64) idx1 data hdata hdir
    himg _ rfl
  have trP := tracks_packed chains (postings_of calls) tr
  rw [← hbytes, hslab2] at invP
  refine ⟨idx1, out, hpack, ?_, ?_⟩
  · intro ht
    obtain ⟨s, c, hc, e1, e2⟩ := (tr t).2 ht
    have hcP : packed_chains chains s = some (relocate c (new_head chains s)) := by
      unfold packed_chains
      rw [hc]
      rfl
    have hposts : (relocate c (new_head chains s)).posts = c.posts :=
      reloc_blocks_posts _ _
    obtain ⟨c0, a1, _, a3, a4⟩ := cursor_reads_chain hash idx chains inv s c hc
      (by rw [e2]; exact ht)
    obtain ⟨c1, b1, b2, b3, b4⟩ := cursor_reads_chain hash _ _ invP s _ hcP
      (by rw [hposts, e2]; exact ht)
    rw [create_size] at b1
    rw [read_all_size, hposts] at b4
    rw [hposts] at b3
    have htf : (canon_end { ((mk_default S).load (some out.bytes)).1 with
          m_data_size := idx.m_next_empty + 1 } (relocate c (new_head chains s))).freq
        = (canon_end idx c).freq :=
      chain_end_freq_reloc c.blocks _ _ _ _ _ _ rfl
    rw [htf] at b4
    rw [e2] at a3 a4 b3 b4
    have b1' : create hash ((mk_default S).load (some out.bytes)).1 c.term = some c1 := b1
    rw [e1] at a1 b1'
    exact ⟨c0, c1, _, a1, b1', b2, b3.trans a3.symm, a4, b4⟩
  · intro ht c0 hc0
    have habs := (tr t).1 ht
    have habsP := (trP t).1 ht
    refine ⟨absent_invalid hash idx chains _ inv tr t ht c0 hc0, ?_⟩
    cases hfo : idx.found_or_empty_offset hash t with
    | none =>
      unfold create at hc0
      rw [hfo] at hc0
      cases hc0
    | some e =>
      obtain ⟨f1, f2⟩ := absent_found hash idx _ chains _ inv invP
        (by
          show ((mk_default S).load (some out.bytes)).1.m_term_offsets_size = _
          rw [hbytes]
          exact (load_spec (mk_default S) idx.m_next_empty idx.m_term_offsets_size
            (vec_bytes idx1.m_term_offsets idx.m_term_offsets_size) data
            (by have := next_empty_lt hash idx chains inv; omega)
            (by rw [hsize2]; exact hH64) (vec_bytes_length _ _)).2.1)
        (by
          intro j
          unfold packed_chains
          cases chains j <;> simp)
        t habs habsP e hfo
      obtain ⟨c1, g1, g2⟩ := create_absent hash _ t e f1 f2
      rw [create_size] at g1
      exact ⟨c1, g1, g2⟩

/-- C9 (witness): the statement for the index built by the calls `wcalls` and the term
`[97]`, whose chain holds twelve postings. -/
theorem compact_load_round_trip_witness :
    ∃ idx, run_inserts whash (mk_sized wslabs 40 8) wcalls = some idx ∧
      ∃ idx1 out, idx.serialize_pack idx.m_next_empty ⟨[], 0⟩ = some (idx1, out) ∧
        (postings_of wcalls [97] ≠ [] →
          ∃ c0 c1 tf, create whash idx [97] = some c0 ∧
            create whash ((mk_default wslabs).load (some out.bytes)).1 [97] = some c1 ∧
            c1.valid = true ∧ c1.doc_freq = c0.doc_freq ∧
            read_all idx (postings_of wcalls [97]).length c0
              = some (postings_of wcalls [97] ++ [(END_CHAIN, tf)]) ∧
            read_all ((mk_default wslabs).load (some out.bytes)).1
                (postings_of wcalls [97]).length c1
              = some (postings_of wcalls [97] ++ [(END_CHAIN, tf)])) ∧
        (postings_of wcalls [97] = [] → ∀ c0, create whash idx [97] = some c0 →
          c0.valid = false ∧
          ∃ c1, create whash ((mk_default wslabs).load (some out.bytes)).1 [97] = some c1 ∧
            c1.valid = false) := by
  obtain ⟨idx, h⟩ := wcalls_run
  exact ⟨idx, h, compact_load_round_trip whash wslabs 40 8 wcalls idx idx.m_next_empty [97]
    wslabs_ok (by decide) (by norm_num) (by norm_num) wcalls_valid h (le_refl _)⟩

end

section
open immediate_index

/-- C10: for an index built by valid `insert` calls, with `chains s` the chain whose head the
directory slot `s` points to, `serialize_pack` returns and in the file it wrote, for every
slot `s` that holds a chain `c`: the directory entry of `s` is `new_head chains s`, which is
the sum over the chains of the slots before `s` of the slab sizes of their logical blocks (0
for the first chain, and the end of the previous chain for each later one); the data part of
the file represents the chain `c` moved to consecutive blocks from `new_head chains s` on,
its `j`-th logical block, of `S (min j MAX_SLAB_IDX)` physical blocks, starting at physical
index `new_head chains s` plus the sum of `S (min i MAX_SLAB_IDX)` over `i < j`; the
`next_block` field of each block but the last is the start index of its successor; and the
`tail_block` field of the head is `new_head chains s` plus the sum of the slab sizes of the
blocks before the last. -/
theorem compaction_layout (hash : List Nat → Nat) (S : Nat → Nat) (N H : Nat)
    (calls : List insert_call) (idx : immediate_index) (fuel : Nat)
    (hS : SlabsOK S) (hH : 0 < H) (hN : N ≤ 2 ^ 32) (hv : ValidCalls calls)
    (hrun : run_inserts hash (mk_sized S N H) calls = some idx)
    (hfuel : idx.m_next_empty ≤ fuel) :
    ∃ chains idx1 out, IndexInv hash idx chains ∧
      idx.serialize_pack fuel ⟨[], 0⟩ = some (idx1, out) ∧
      ∀ s c, chains s = some c →
        of_bytes ((out.bytes.drop (16 + 4 * s)).take 4) = new_head chains s ∧
        new_head chains s = ((List.range s).map (fun i => match chains i with
          | none => 0
          | some c2 => slab_sum S c2.blocks.length)).sum ∧
        ChainRep S (file_mem (out.bytes.drop (16 + 4 * H))) (relocate c (new_head chains s)) ∧
        (∀ j b, c.blocks[j]? = some b →
          (relocate c (new_head chains s)).blocks[j]?
            = some { b with idx := new_head chains s + slab_sum S j } ∧
          b.size = S (min j MAX_SLAB_IDX)) ∧
        (∀ j, j + 1 < c.blocks.length →
          head_block.next_block (file_mem (out.bytes.drop (16 + 4 * H)))
            (new_head chains s + slab_sum S j) = new_head chains s + slab_sum S (j + 1)) ∧
        head_block.tail_block (file_mem (out.bytes.drop (16 + 4 * H))) (new_head chains s)
          = new_head chains s + slab_sum S (c.blocks.length - 1) := by
  obtain ⟨chains, inv, _⟩ := build_inv hash S N H calls idx hS hH hN hv hrun
  obtain ⟨hslab, hsize⟩ := run_inserts_fields hash calls _ _ hrun
  have hslab2 : idx.m_slab_size = S := hslab
  have hsize2 : idx.m_term_offsets_size = H := hsize
  obtain ⟨idx1, out, data, hpack, hbytes, hdata, hdir, himg⟩ :=
    pack_spec hash idx chains inv fuel hfuel ⟨[], 0⟩ rfl
  rw [List.nil_append, hsize2] at hbytes
  have hne32 := next_empty_lt hash idx chains inv
  have hdrop : ∀ n, out.bytes.drop (16 + n) = (vec_bytes idx1.m_term_offsets H ++ data).drop n := by
    intro n
    rw [hbytes, show 16 + n = (u64_bytes idx.m_next_empty).length
      + ((u64_bytes H).length + n) by simp [u64_bytes_length]; omega,
      List.drop_append, List.drop_append]
  have hdataeq : out.bytes.drop (16 + 4 * H) = data := by
    rw [hdrop, ← vec_bytes_length idx1.m_term_offsets H, List.drop_left]
  refine ⟨chains, idx1, out, inv, hpack, ?_⟩
  rw [hdataeq]
  intro s c hc
  have hs : s < H := by
    by_contra h
    have := inv.dir_out s (by omega)
    rw [this] at hc
    cases hc
  have hspan : new_head chains s + span c.blocks ≤ idx.m_next_empty := by
    rw [← new_head_some _ _ _ hc]
    exact new_head_le hash idx chains inv _
  have hrep0 := inv.rep s c hc
  rw [hslab2] at hrep0
  have hrep : ChainRep S (file_mem data) (relocate c (new_head chains s)) := by
    apply image_chain_rep S hS idx.m_data _ c _ hrep0 (inv.ordered s c hc) (by omega)
    intro k hk
    have e : struct_ptr (new_head chains s) + k = BLOCK_SIZE * new_head chains s + k := by
      simp only [struct_ptr, BLOCK_SIZE]
      omega
    show data.getD _ 0 = _
    rw [e]
    exact himg s c hc k hk
  have hsizes := chain_sizes S _ c hrep0
  have hget : ∀ (j : Nat) (b : Blk), c.blocks[j]? = some b →
      (relocate c (new_head chains s)).blocks[j]?
        = some { b with idx := new_head chains s + slab_sum S j } := by
    intro j b hj
    have hlt : j < c.blocks.length := by
      by_contra h
      rw [List.getElem?_eq_none (by omega)] at hj
      cases hj
    show (reloc_blocks _ c.blocks)[j]? = _
    rw [reloc_get c.blocks _ j b hj, span_take_slab S c.blocks hsizes j (by omega)]
  have hex : ∀ j, j < c.blocks.length → ∃ b, c.blocks[j]? = some b := by
    intro j hj
    cases hb : c.blocks[j]? with
    | none =>
      have := List.getElem?_eq_none_iff.1 hb
      omega
    | some b => exact ⟨b, rfl⟩
  have hlen : (relocate c (new_head chains s)).blocks.length = c.blocks.length :=
    reloc_blocks_length _ _
  have hne : c.blocks ≠ [] := by
    intro h
    unfold ChainRep at hrep0
    rw [h] at hrep0
    exact hrep0
  have hpos : 0 < c.blocks.length := List.length_pos.2 hne
  refine ⟨?_, ?_, hrep, fun j b hj => ⟨hget j b hj, hsizes j b hj⟩, ?_, ?_⟩
  · rw [hdrop, List.drop_append_of_le_length (by rw [vec_bytes_length]; omega),
      List.take_append_of_le_length (by rw [List.length_drop, vec_bytes_length]; omega),
      vec_bytes_entry _ _ _ hs, hdir s, hsize2, if_pos ⟨hs, by rw [hc]; rfl⟩]
    exact of_bytes_u32 _ (by omega)
  · unfold new_head
    congr 1
    apply List.map_congr_left
    intro i _
    cases hci : chains i with
    | none => rfl
    | some c2 =>
      have h2 := inv.rep i c2 hci
      show span c2.blocks = slab_sum S c2.blocks.length
      rw [← hslab2]
      exact chain_span idx.m_slab_size _ c2 h2
  · intro j hj
    obtain ⟨b, hb⟩ := hex j (by omega)
    obtain ⟨b2, hb2⟩ := hex (j + 1) hj
    have h := chain_next S (file_mem data) (relocate c (new_head chains s)) hrep j
      { b with idx := new_head chains s + slab_sum S j }
      { b2 with idx := new_head chains s + slab_sum S (j + 1) } (hget j b hb)
      (hget (j + 1) b2 hb2)
    exact h
  · have hordr : (relocate c (new_head chains s)).blocks.Pairwise
        (fun b1 b2 => b1.idx + b1.size ≤ b2.idx) :=
      reloc_blocks_ordered c.blocks (new_head chains s)
    obtain ⟨last, hl1, hl2⟩ := chain_tail S hS (file_mem data)
      (relocate c (new_head chains s)) hrep hordr
    rw [hlen] at hl1
    obtain ⟨b, hb⟩ := hex (c.blocks.length - 1) (by omega)
    rw [hget _ b hb] at hl1
    have hh : (relocate c (new_head chains s)).head = new_head chains s := by
      cases hcb : c.blocks with
      | nil => exact absurd hcb hne
      | cons h rest => simp [relocate, Chain.head, hcb, reloc_blocks]
    rw [hh] at hl2
    rw [hl2, ← Option.some.inj hl1]

/-- C10 (witness): the statement for the index built by the calls `wcalls`. -/
theorem compaction_layout_witness :
    ∃ idx, run_inserts whash (mk_sized wslabs 40 8) wcalls = some idx ∧
      ∃ chains idx1 out, IndexInv whash idx chains ∧
        idx.serialize_pack idx.m_next_empty ⟨[], 0⟩ = some (idx1, out) ∧
        ∀ s c, chains s = some c →
          of_bytes ((out.bytes.drop (16 + 4 * s)).take 4) = new_head chains s ∧
          new_head chains s = ((List.range s).map (fun i => match chains i with
            | none => 0
            | some c2 => slab_sum wslabs c2.blocks.length)).sum ∧
          ChainRep wslabs (file_mem (out.bytes.drop (16 + 4 * 8)))
            (relocate c (new_head chains s)) ∧
          (∀ j b, c.blocks[j]? = some b →
            (relocate c (new_head chains s)).blocks[j]?
              = some { b with idx := new_head chains s + slab_sum wslabs j } ∧
            b.size = wslabs (min j MAX_SLAB_IDX)) ∧
          (∀ j, j + 1 < c.blocks.length →
            head_block.next_block (file_mem (out.bytes.drop (16 + 4 * 8)))
              (new_head chains s + slab_sum wslabs j)
              = new_head chains s + slab_sum wslabs (j + 1)) ∧
          head_block.tail_block (file_mem (out.bytes.drop (16 + 4 * 8))) (new_head chains s)
            = new_head chains s + slab_sum wslabs (c.blocks.length - 1) := by
  obtain ⟨idx, h⟩ := wcalls_run
  exact ⟨idx, h, compaction_layout whash wslabs 40 8 wcalls idx idx.m_next_empty
    wslabs_ok (by decide) (by norm_num) wcalls_valid h (le_refl _)⟩

end

theorem range_map_holds (m : Mem) (bs : List Nat) (h : holds m 0 bs) :
    (List.range bs.length).map m = bs := by
  apply List.ext_getElem
  · simp
  · intro i h1 h2
    have := h i h2
    simp only [List.getElem_map, List.getElem_range]
    rw [Nat.zero_add] at this
    rw [this, List.getD_eq_getElem?_getD, List.getElem?_eq_getElem h2]
    rfl

theorem vbyte_emitted_eq (v : Nat) (hv : v < 2 ^ 32) : vbyte_emitted v = vbyte_bytes v := by
  unfold vbyte_emitted
  rw [vbyte_encode_eq v hv]
  exact range_map_holds _ _ (holds_write_list _ (vbyte_bytes_lt v hv) _ _)

theorem magic_emitted_eq (d f : Nat) : magic_emitted d f = magic_bytes d f := by
  unfold magic_emitted
  rw [encode_magic_eq]
  exact range_map_holds _ _ (holds_write_list _ (magic_bytes_lt d f) _ _)

section
open immediate_index

/-- The two ways `insert_posting` ends on a chain of the index: the posting is appended to the
last block, or a new block is opened for it. -/
theorem insert_posting_shape (hash : List Nat → Nat) (idx : immediate_index)
    (chains : Nat → Option Chain) (inv : IndexInv hash idx chains) (s : Nat) (c : Chain)
    (hc : chains s = some c) (d f : Nat) (hd : lastDoc 0 c.posts < d) (hd30 : d < 2 ^ 30)
    (hf1 : 1 ≤ f) (hf2 : f < 2 ^ 32) (idx' : immediate_index)
    (h : idx.insert_posting c.head d f = some idx') :
    ∃ pre last, c.blocks = pre ++ [last] ∧
      (d + 2 ^ 32 - head_block.recent_docid idx.m_data c.head) % 2 ^ 32
        = d - lastDoc 0 c.posts ∧
      ((head_block.tail_byte_offset idx.m_data c.head
            + (magic_bytes (d - lastDoc 0 c.posts) f).length ≤ BLOCK_SIZE * last.size ∧
          idx' = { idx with
            m_data := fit_mem idx.m_data c.head d (d - lastDoc 0 c.posts) f } ∧
          IndexInv hash idx' (Function.update chains s
            (some ⟨c.term, pre ++ [⟨last.idx, last.size, last.posts ++ [(d, f)]⟩]⟩))) ∨
        (¬ head_block.tail_byte_offset idx.m_data c.head
            + (magic_bytes (d - lastDoc 0 c.posts) f).length ≤ BLOCK_SIZE * last.size ∧
          idx' = { idx with
            m_next_empty := idx.m_next_empty
              + idx.m_slab_size (min (pre.length + 1) MAX_SLAB_IDX)
            m_data := grow_mem idx.m_data c.head d f idx.m_next_empty } ∧
          IndexInv hash idx' (Function.update chains s
            (some ⟨c.term, pre ++ [last, ⟨idx.m_next_empty,
              idx.m_slab_size (min (pre.length + 1) MAX_SLAB_IDX), [(d, f)]⟩]⟩)))) := by
  obtain ⟨pre, last, hcb⟩ := chain_blocks_snoc _ _ c (inv.rep s c hc)
  have F := chain_facts _ inv.slabs _ c pre last hcb (inv.rep s c hc) (inv.ordered s c hc)
  have hgap : (d + 2 ^ 32 - head_block.recent_docid idx.m_data c.head) % 2 ^ 32
      = d - lastDoc 0 c.posts := by
    rw [F.recent]
    exact gap_eq _ _ hd hd30
  refine ⟨pre, last, hcb, hgap, ?_⟩
  by_cases hfit : head_block.tail_byte_offset idx.m_data c.head
        + magic_bytes_required
          ((d + 2 ^ 32 - head_block.recent_docid idx.m_data c.head) % 2 ^ 32) f
      ≤ BLOCK_SIZE * idx.m_slab_size (head_block.growth_offset idx.m_data c.head)
  · rw [insert_posting_fit idx c.head d f hfit, hgap] at h
    rw [hgap, F.growth, ← F.size, ← magic_bytes_length] at hfit
    cases h
    exact Or.inl ⟨hfit, rfl,
      inv_fit hash idx chains inv s c hc pre last hcb d f hd hd30 hf1 hf2 hfit⟩
  · have hg : head_block.growth_offset
          (head_block.increment_growth_offset (head_upd idx.m_data c.head d) c.head) c.head
        = min (pre.length + 1) MAX_SLAB_IDX := by
      have e : head_block.growth_offset (head_upd idx.m_data c.head d) c.head
          = head_block.growth_offset idx.m_data c.head := by
        apply growth_offset_congr
        exact head_upd_out _ _ _ _ (by omega)
      rw [incr_growth_val _ _ (by rw [e, F.growth]; simp only [MAX_SLAB_IDX]; omega), e,
        F.growth]
      simp only [MAX_SLAB_IDX]
      omega
    have hk1 := (inv.slabs (min (pre.length + 1) MAX_SLAB_IDX))
    have hkm : idx.m_slab_size (min (pre.length + 1) MAX_SLAB_IDX) % 2 ^ 32
        = idx.m_slab_size (min (pre.length + 1) MAX_SLAB_IDX) := by
      apply Nat.mod_eq_of_lt
      simp only [BLOCK_SIZE] at hk1
      omega
    have hfit2 : ¬ head_block.tail_byte_offset idx.m_data c.head
        + (magic_bytes (d - lastDoc 0 c.posts) f).length ≤ BLOCK_SIZE * last.size := by
      rw [hgap, F.growth, ← F.size, ← magic_bytes_length] at hfit
      exact hfit
    by_cases hroom : idx.m_next_empty
        + idx.m_slab_size (min (pre.length + 1) MAX_SLAB_IDX) < idx.m_data_size
    · rw [insert_posting_grow idx c.head d f hfit _ (by rw [hg, hkm]) hroom] at h
      have hne : idx.m_next_empty % 2 ^ 32 = idx.m_next_empty := by
        apply Nat.mod_eq_of_lt
        have := inv.dsize
        omega
      rw [hne] at h
      cases h
      exact Or.inr ⟨hfit2, rfl,
        inv_grow hash idx chains inv s c hc pre last hcb d f hd hd30 hf1 hf2 _ rfl hroom⟩
    · rw [insert_posting_full idx c.head d f hfit _ (by rw [hg, hkm]) hroom] at h
      cases h

/-- The first part of `insert` on an index with the invariant: the head it returns heads a
chain of the term, which holds the postings inserted so far (none for a new term). -/
theorem insert_head_inv (hash : List Nat → Nat) (idx : immediate_index)
    (chains : Nat → Option Chain) (P : List Nat → List (Nat × Nat))
    (inv : IndexInv hash idx chains) (tr : Tracks chains P) (t : List Nat)
    (htl : t.length ≤ HEAD_BYTES) (htc : ∀ x ∈ t, x < 256) (hb : Nat) (idx1 : immediate_index)
    (h : idx.insert_head hash t = some (hb, idx1)) :
    ∃ chains1 s c, IndexInv hash idx1 chains1 ∧ chains1 s = some c ∧ c.head = hb ∧
      c.term = t ∧ c.posts = P t ∧ (∀ c0, chains s = some c0 → c0.term = t) ∧
      (∀ s2, s2 ≠ s → chains1 s2 = chains s2) ∧
      (P t = [] → c.blocks = [⟨idx.m_next_empty, idx.m_slab_size 0, []⟩] ∧
        idx1.m_next_empty = idx.m_next_empty + idx.m_slab_size 0) ∧
      (P t ≠ [] → chains1 = chains ∧ idx1 = idx) := by
  by_cases hP : P t = []
  · have habs := (tr t).1 hP
    unfold insert_head at h
    cases hfo : idx.found_or_empty_offset hash t with
    | none =>
      rw [hfo] at h
      cases h
    | some e =>
      rw [hfo] at h
      obtain ⟨he, heH, hce, hpath⟩ := found_absent hash idx chains inv t habs e hfo
      simp only [he, if_true, next_free_slot] at h
      have hS0 := inv.slabs 0
      have hdsz := inv.dsize
      have hm : idx.m_slab_size 0 % 2 ^ 32 = idx.m_slab_size 0 := by
        apply Nat.mod_eq_of_lt
        simp only [BLOCK_SIZE] at hS0
        omega
      rw [hm] at h
      by_cases hroom : idx.m_next_empty + idx.m_slab_size 0 < idx.m_data_size
      · rw [if_neg (Nat.not_le.2 hroom)] at h
        have hne : idx.m_next_empty % 2 ^ 32 = idx.m_next_empty := by
          apply Nat.mod_eq_of_lt
          omega
        simp only [hne, Option.some.injEq, Prod.mk.injEq] at h
        obtain ⟨h1, h2⟩ := h
        have inv1 := inv_new_head hash idx chains inv t htl htc habs e he heH hce hpath hroom
        rw [h2] at inv1
        refine ⟨_, e, ⟨t, [⟨idx.m_next_empty, idx.m_slab_size 0, []⟩]⟩, inv1, by simp, ?_, rfl,
          ?_, ?_, ?_, ?_, fun hne => absurd hP hne⟩
        · rw [← h1]
          rfl
        · rw [hP]
          rfl
        · intro c0 hc0
          rw [hce] at hc0
          cases hc0
        · intro s2 hs2
          exact Function.update_noteq hs2 _ _
        · intro _
          refine ⟨rfl, ?_⟩
          rw [← h2]
      · rw [if_pos (Nat.not_lt.1 hroom)] at h
        cases h
  · obtain ⟨s, c, hc, e1, e2⟩ := (tr t).2 hP
    have hfo := found_of_chain hash idx chains inv s c hc
    rw [e1] at hfo
    have hdir := inv.dir_some s c hc
    have hne := chain_head_ne_end hash idx chains inv s c hc
    unfold insert_head at h
    rw [hfo] at h
    simp only [hdir, if_neg hne, Option.some.injEq, Prod.mk.injEq] at h
    obtain ⟨h1, h2⟩ := h
    subst h2
    refine ⟨chains, s, c, inv, hc, h1, e1, e2, ?_, fun _ _ => rfl,
      fun hh => absurd hh hP, fun _ => ⟨rfl, rfl⟩⟩
    intro c0 hc0
    rw [hc] at hc0
    cases hc0
    exact e1

theorem postings_of_append (xs ys : List insert_call) (t : List Nat) :
    postings_of (xs ++ ys) t = postings_of xs t ++ postings_of ys t := by
  unfold postings_of
  rw [List.filter_append, List.map_append]

theorem valid_append (xs ys : List insert_call) (hv : ValidCalls (xs ++ ys)) :
    ValidCalls xs ∧ ValidCalls ys := by
  obtain ⟨h1, h2⟩ := hv
  obtain ⟨p1, p2, _⟩ := List.pairwise_append.1 h2
  exact ⟨⟨fun c hc => h1 c (List.mem_append_left _ hc), p1⟩,
    ⟨fun c hc => h1 c (List.mem_append_right _ hc), p2⟩⟩

theorem valid_snoc (calls : List insert_call) (c : insert_call)
    (hv : ValidCalls (calls ++ [c])) :
    ValidCalls calls ∧ 1 ≤ c.docid ∧ c.docid < 2 ^ 30 ∧ 1 ≤ c.positions.length ∧
      c.positions.length < 2 ^ 32 ∧ c.term.length ≤ HEAD_BYTES ∧ (∀ x ∈ c.term, x < 256) ∧
      lastDoc 0 (postings_of calls c.term) < c.docid := by
  have hc := hv.1 c (by simp)
  have hps := valid_calls_posts _ hv c.term
  rw [postings_of_append, PostsOK_append] at hps
  have e : postings_of [c] c.term = [(c.docid, c.positions.length)] := by
    simp [postings_of]
  rw [e] at hps
  exact ⟨(valid_append _ _ hv).1, hc.1, hc.2.1, hc.2.2.1, hc.2.2.2.1, hc.2.2.2.2.2.1,
    hc.2.2.2.2.2.2, hps.2.1⟩

theorem insert_unfold (hash : List Nat → Nat) (idx idx1 idx2 : immediate_index) (d hb : Nat)
    (t ps : List Nat) (hp : ps.length < 2 ^ 32)
    (hh : idx.insert_head hash t = some (hb, idx1))
    (h : idx.insert hash d t ps = some idx2) :
    idx1.insert_posting hb d ps.length = some idx2 := by
  unfold immediate_index.insert at h
  simp only [Nat.mod_eq_of_lt hp, hh] at h
  exact h

/-- The state in which a valid `insert` call finds an index built by valid calls. -/
theorem built_step (hash : List Nat → Nat) (S : Nat → Nat) (N H : Nat)
    (calls : List insert_call) (idx : immediate_index) (hS : SlabsOK S) (hH : 0 < H)
    (hN : N ≤ 2 ^ 32) (call : insert_call) (hv : ValidCalls (calls ++ [call]))
    (hrun : run_inserts hash (mk_sized S N H) calls = some idx) (hb : Nat)
    (idx1 : immediate_index) (hh : idx.insert_head hash call.term = some (hb, idx1)) :
    ∃ chains1 s c, IndexInv hash idx1 chains1 ∧ chains1 s = some c ∧ c.head = hb ∧
      c.term = call.term ∧ c.posts = postings_of calls call.term ∧
      lastDoc 0 c.posts < call.docid ∧ call.docid < 2 ^ 30 ∧ 1 ≤ call.positions.length ∧
      call.positions.length < 2 ^ 32 ∧ idx1.m_slab_size = S := by
  obtain ⟨hv0, _, h2, h3, h4, h5, h6, h7⟩ := valid_snoc calls call hv
  obtain ⟨chains, inv, tr⟩ := run_inserts_inv hash calls _ _ (fun _ => [])
    (inv_init hash S N H hS hH hN) tracks_init
    (fun c hc => ⟨(hv0.1 c hc).2.2.2.2.2.1, (hv0.1 c hc).2.2.2.2.2.2⟩)
    (fun t => by simpa using valid_calls_posts calls hv0 t) idx hrun
  simp only [List.nil_append] at tr
  obtain ⟨chains1, s, c, inv1, hc, e1, e2, e3, _, _, g1, g2⟩ :=
    insert_head_inv hash idx chains _ inv tr call.term h5 h6 hb idx1 hh
  refine ⟨chains1, s, c, inv1, hc, e1, e2, e3, by rw [e3]; exact h7, h2, h3, h4, ?_⟩
  exact (insert_head_fields hash _ _ _ _ hh).1.trans (run_inserts_fields hash calls _ _ hrun).1

end

section
open immediate_index

theorem walk_blocks (S : Nat → Nat) (m : Mem) (c : Chain) (hrep : ChainRep S m c) :
    ∀ j b, c.blocks[j]? = some b → chain_walk m c.head j = b.idx := by
  intro j
  induction j with
  | zero =>
    intro b hb
    cases hcb : c.blocks with
    | nil => rw [hcb] at hb; simp at hb
    | cons h rest =>
      rw [hcb] at hb
      simp only [List.getElem?_cons_zero, Option.some.injEq] at hb
      subst hb
      simp [chain_walk, Chain.head, hcb]
  | succ k ih =>
    intro b hb
    have hlt : k + 1 < c.blocks.length := by
      by_contra h
      rw [List.getElem?_eq_none (by omega)] at hb
      cases hb
    have hk : c.blocks[k]? = some c.blocks[k] := List.getElem?_eq_getElem (by omega)
    have h1 := ih _ hk
    have h2 := chain_next S m c hrep k _ b hk hb
    unfold chain_walk at h1 ⊢
    rw [Function.iterate_succ_apply', h1]
    exact h2

theorem ordered_idx_lt (bs : List Blk) (hsz : ∀ x ∈ bs, 1 ≤ x.size)
    (hord : bs.Pairwise (fun b1 b2 => b1.idx + b1.size ≤ b2.idx)) :
    ∀ (i j : Nat) (bi bj : Blk), i < j → bs[i]? = some bi → bs[j]? = some bj →
      bi.idx < bj.idx := by
  intro i j bi bj hij hi hj
  obtain ⟨h1, e1⟩ := List.getElem?_eq_some.1 hi
  obtain ⟨h2, e2⟩ := List.getElem?_eq_some.1 hj
  have := (List.pairwise_iff_getElem.1 hord) i j h1 h2 hij
  rw [e1, e2] at this
  have := hsz bi (by rw [← e1]; exact List.getElem_mem h1)
  omega

theorem chain_size_pos (S : Nat → Nat) (hS : SlabsOK S) (m : Mem) (c : Chain)
    (hrep : ChainRep S m c) : ∀ x ∈ c.blocks, 1 ≤ x.size := by
  intro x hx
  unfold ChainRep at hrep
  cases hcb : c.blocks with
  | nil => rw [hcb] at hx; cases hx
  | cons h rest =>
    rw [hcb] at hrep hx
    exact BlocksRep_size_pos _ hS _ _ _ _ _ _ _ _ hrep.2.2.2.2.2.2.2 x hx

theorem chain_single_next (S : Nat → Nat) (m : Mem) (c : Chain) (hrep : ChainRep S m c)
    (h1 : c.blocks.length = 1) : head_block.next_block m c.head = END_CHAIN := by
  unfold ChainRep at hrep
  cases hcb : c.blocks with
  | nil => rw [hcb] at hrep; exact hrep.elim
  | cons h rest =>
    rw [hcb] at hrep h1
    have hr : rest = [] := by
      cases rest with
      | nil => rfl
      | cons _ _ => simp at h1
    subst hr
    have hbr := hrep.2.2.2.2.2.2.2
    rw [BlocksRep_cons] at hbr
    have := hbr.2.2.2.2.2.1.2.1 rfl
    simpa [Chain.head, hcb, head_block.next_block] using this

theorem chain_growth (S : Nat → Nat) (m : Mem) (c : Chain) (hrep : ChainRep S m c) :
    head_block.growth_offset m c.head = min (c.blocks.length - 1) MAX_SLAB_IDX := by
  unfold ChainRep at hrep
  cases hcb : c.blocks with
  | nil => rw [hcb] at hrep; exact hrep.elim
  | cons h rest =>
    rw [hcb] at hrep
    have := hrep.2.2.2.2.2.2.1
    simpa [Chain.head, hcb] using this

end

section
open immediate_index

theorem vbyte_bytes_ne_zero (v : Nat) (h1 : 1 ≤ v) : ∀ b ∈ vbyte_bytes v, b ≠ 0 := by
  intro b hb
  unfold vbyte_bytes at hb
  split_ifs at hb <;> simp only [List.mem_cons, List.mem_singleton, List.not_mem_nil,
    or_false] at hb <;> omega

theorem magic_bytes_ne_zero (d f : Nat) (hd1 : 1 ≤ d) (hd2 : d < 2 ^ 30) (hf1 : 1 ≤ f)
    (hf2 : f < 2 ^ 32) : ∀ b ∈ magic_bytes d f, b ≠ 0 := by
  intro b hb
  unfold magic_bytes at hb
  simp only [MAGIC_F] at hb
  split_ifs at hb with h
  · exact vbyte_bytes_ne_zero _ (by omega) b hb
  · rcases List.mem_append.1 hb with hb | hb
    · exact vbyte_bytes_ne_zero _ (by omega) b hb
    · exact vbyte_bytes_ne_zero _ (by omega) b hb

theorem enc_posts_ne_zero : ∀ (posts : List (Nat × Nat)) (base lo : Nat), base ≤ lo →
    PostsOK lo posts → ∀ b ∈ enc_posts base posts, b ≠ 0 := by
  intro posts
  induction posts with
  | nil =>
    intro base lo _ _ b hb
    simp [enc_posts] at hb
  | cons p rest ih =>
    intro base lo hbl hok b hb
    obtain ⟨h1, h2, h3, h4, h5⟩ := hok
    simp only [enc_posts] at hb
    rcases List.mem_append.1 hb with hb | hb
    · exact magic_bytes_ne_zero _ _ (by omega) (by omega) h3 h4 b hb
    · exact ih p.1 p.1 (Nat.le_refl _) h5 b hb

/-- Every block of a represented chain has a write position: the payload bytes before it are
non-zero and the bytes of the slab from it on are zero. -/
theorem blocks_payload (S : Nat → Nat) (m : Mem) (tI tO : Nat) : ∀ (bs : List Blk)
    (j start base lo : Nat), BlocksRep S m tI tO j start base lo bs →
    ∀ k b, bs[k]? = some b → ∃ e, (if k = 0 then start else TT_PL_OFFSET) ≤ e ∧
      e ≤ BLOCK_SIZE * b.size ∧
      (∀ o, (if k = 0 then start else TT_PL_OFFSET) ≤ o → o < e →
        m (struct_ptr b.idx + o) ≠ 0) ∧
      (∀ o, e ≤ o → o < BLOCK_SIZE * b.size → m (struct_ptr b.idx + o) = 0) ∧
      (k + 1 = bs.length → e = tO) := by
  intro bs
  induction bs with
  | nil =>
    intro j start base lo _ k b hk
    simp at hk
  | cons x rest ih =>
    intro j start base lo h k b hk
    obtain ⟨_, _, hbl, hok, hseg, hlink, hrest⟩ := h
    cases k with
    | zero =>
      simp only [List.getElem?_cons_zero, Option.some.injEq] at hk
      subst hk
      obtain ⟨hh, hcap, hz⟩ := hseg
      refine ⟨start + (enc_posts base x.posts).length, ?_, hcap, ?_, hz, ?_⟩
      · simp
      · intro o ho1 ho2
        simp only [if_true] at ho1
        have := hh (o - start) (by omega)
        have e : struct_ptr x.idx + start + (o - start) = struct_ptr x.idx + o := by omega
        rw [e] at this
        rw [this]
        have hi : o - start < (enc_posts base x.posts).length := by omega
        rw [List.getD_eq_getElem _ _ hi]
        exact enc_posts_ne_zero _ _ _ hbl hok _ (List.getElem_mem _)
      · intro hl
        cases rest with
        | nil => exact hlink.2.2.2.symm
        | cons _ _ => simp at hl
    | succ k =>
      simp only [List.getElem?_cons_succ] at hk
      obtain ⟨e, h1, h2, h3, h4, h5⟩ := ih _ _ _ _ hrest k b hk
      refine ⟨e, ?_, h2, ?_, h4, ?_⟩
      · simp only [Nat.succ_ne_zero, if_false]
        split_ifs at h1 <;> exact h1
      · intro o ho1 ho2
        simp only [Nat.succ_ne_zero, if_false] at ho1
        exact h3 o (by split_ifs <;> exact ho1) ho2
      · intro hl
        exact h5 (by simpa using hl)

/-- The between-block gap of a well-formed chain is at least one. -/
theorem grow_gap_pos (S : Nat → Nat) (m : Mem) (c : Chain) (pre : List Blk) (last : Blk)
    (F : ChainFacts S m c pre last) (hc : c.blocks = pre ++ [last]) (d : Nat)
    (hd : lastDoc 0 c.posts < d) (hd30 : d < 2 ^ 30) :
    1 ≤ grow_gap m c.head d ∧ grow_gap m c.head d < 2 ^ 30 := by
  have hposts : c.posts = blockPosts pre ++ last.posts := by
    unfold Chain.posts
    rw [hc, blockPosts_append]
    simp [blockPosts]
  unfold grow_gap
  rw [F.tail]
  by_cases hp : pre = []
  · rw [if_pos (F.single hp).1]
    omega
  · have h1 := (F.multi hp).1
    have hne : last.idx ≠ c.head := by
      intro e
      rw [e] at h1
      omega
    rw [if_neg hne, (F.tail_first hp).1]
    have hle := firstDoc_le_lastDoc (lastDoc 0 (blockPosts pre)) last
      (by
        have := F.posts
        rw [hposts, PostsOK_append] at this
        exact this.2) (F.tail_first hp).2
    rw [← lastDoc_append, ← hposts] at hle
    omega

theorem posting_gap_fit (idx : immediate_index) (h docid freq : Nat)
    (hfit : head_block.tail_byte_offset idx.m_data h
        + magic_bytes_required
          ((docid + 2 ^ 32 - head_block.recent_docid idx.m_data h) % 2 ^ 32) freq
      ≤ BLOCK_SIZE * idx.m_slab_size (head_block.growth_offset idx.m_data h)) :
    idx.posting_gap h docid freq
      = some ((docid + 2 ^ 32 - head_block.recent_docid idx.m_data h) % 2 ^ 32) := by
  obtain ⟨e1, e2, e3, _, _⟩ := head_upd_fields idx.m_data h docid
  unfold head_upd at e1 e2 e3
  unfold posting_gap
  simp only [head_block.increment_doc_freq, head_block.set_recent_docid, e1, e2, e3]
  rw [if_pos hfit]

theorem posting_gap_grow (idx : immediate_index) (h docid freq : Nat)
    (hfit : ¬ head_block.tail_byte_offset idx.m_data h
        + magic_bytes_required
          ((docid + 2 ^ 32 - head_block.recent_docid idx.m_data h) % 2 ^ 32) freq
      ≤ BLOCK_SIZE * idx.m_slab_size (head_block.growth_offset idx.m_data h))
    (k : Nat)
    (hk : k = idx.m_slab_size
      (head_block.growth_offset
        (head_block.increment_growth_offset (head_upd idx.m_data h docid) h) h) % 2 ^ 32)
    (hroom : idx.m_next_empty + k < idx.m_data_size)
    (_ : struct_ptr h + 64 ≤ struct_ptr (idx.m_next_empty % 2 ^ 32))
    (hprev : head_block.tail_block idx.m_data h = h ∨
      (struct_ptr h + 64 ≤ struct_ptr (head_block.tail_block idx.m_data h) ∧
        struct_ptr (head_block.tail_block idx.m_data h) + 64
          ≤ struct_ptr (idx.m_next_empty % 2 ^ 32))) :
    idx.posting_gap h docid freq = some (grow_gap idx.m_data h docid) := by
  obtain ⟨e1, e2, e3, _, _⟩ := head_upd_fields idx.m_data h docid
  unfold head_upd at e1 e2 e3 hk
  unfold posting_gap
  simp only [head_block.increment_doc_freq, head_block.set_recent_docid, e1, e2, e3]
  rw [if_neg hfit]
  simp only [next_free_slot, ← hk, if_neg (Nat.not_le.2 hroom)]
  congr 1
  unfold grow_gap
  split_ifs with hp
  · rfl
  · have hp2 := hprev.resolve_left hp
    congr 2
    unfold tail_block.first_docid tail_block.init
    apply read_u32_congr
    intro x h1 h2
    rw [write_u32_out _ _ _ _ (by omega), incr_growth_out _ _ _ (by omega)]
    exact head_upd_out _ _ _ _ (by omega)

/-- On an index with the invariant, a posting with a larger docid that is stored has a gap
argument, and the gap lies in `[1, 2 ^ 30)`. -/
theorem posting_gap_spec (hash : List Nat → Nat) (idx : immediate_index)
    (chains : Nat → Option Chain) (inv : IndexInv hash idx chains) (s : Nat) (c : Chain)
    (hc : chains s = some c) (d f : Nat) (hd : lastDoc 0 c.posts < d) (hd30 : d < 2 ^ 30)
    (idx' : immediate_index) (h : idx.insert_posting c.head d f = some idx') :
    ∃ g, idx.posting_gap c.head d f = some g ∧ 1 ≤ g ∧ g < 2 ^ 30 := by
  obtain ⟨pre, last, hcb⟩ := chain_blocks_snoc _ _ c (inv.rep s c hc)
  have F := chain_facts _ inv.slabs _ c pre last hcb (inv.rep s c hc) (inv.ordered s c hc)
  have hgap : (d + 2 ^ 32 - head_block.recent_docid idx.m_data c.head) % 2 ^ 32
      = d - lastDoc 0 c.posts := by
    rw [F.recent]
    exact gap_eq _ _ hd hd30
  by_cases hfit : head_block.tail_byte_offset idx.m_data c.head
        + magic_bytes_required
          ((d + 2 ^ 32 - head_block.recent_docid idx.m_data c.head) % 2 ^ 32) f
      ≤ BLOCK_SIZE * idx.m_slab_size (head_block.growth_offset idx.m_data c.head)
  · refine ⟨_, posting_gap_fit idx c.head d f hfit, ?_, ?_⟩ <;> rw [hgap] <;> omega
  · have hg : head_block.growth_offset
          (head_block.increment_growth_offset (head_upd idx.m_data c.head d) c.head) c.head
        = min (pre.length + 1) MAX_SLAB_IDX := by
      have e : head_block.growth_offset (head_upd idx.m_data c.head d) c.head
          = head_block.growth_offset idx.m_data c.head := by
        apply growth_offset_congr
        exact head_upd_out _ _ _ _ (by omega)
      rw [incr_growth_val _ _ (by rw [e, F.growth]; simp only [MAX_SLAB_IDX]; omega), e,
        F.growth]
      simp only [MAX_SLAB_IDX]
      omega
    have hk1 := (inv.slabs (min (pre.length + 1) MAX_SLAB_IDX))
    have hkm : idx.m_slab_size (min (pre.length + 1) MAX_SLAB_IDX) % 2 ^ 32
        = idx.m_slab_size (min (pre.length + 1) MAX_SLAB_IDX) := by
      apply Nat.mod_eq_of_lt
      simp only [BLOCK_SIZE] at hk1
      omega
    by_cases hroom : idx.m_next_empty
        + idx.m_slab_size (min (pre.length + 1) MAX_SLAB_IDX) < idx.m_data_size
    · have hne : idx.m_next_empty % 2 ^ 32 = idx.m_next_empty := by
        apply Nat.mod_eq_of_lt
        have := inv.dsize
        omega
      have hlast1 := F.sizes last (by simp)
      have hlast_nb := sp_le _ _ _ (inv.bound s c last hc (by rw [hcb]; simp))
      have hnbh : struct_ptr c.head + 64 ≤ struct_ptr (idx.m_next_empty % 2 ^ 32) := by
        rw [hne]
        by_cases hp : pre = []
        · rw [← (F.single hp).1]
          simp only [BLOCK_SIZE] at hlast_nb
          omega
        · have := (F.multi hp).1
          simp only [BLOCK_SIZE] at hlast_nb
          omega
      have hprev : head_block.tail_block idx.m_data c.head = c.head ∨
          (struct_ptr c.head + 64 ≤ struct_ptr (head_block.tail_block idx.m_data c.head) ∧
            struct_ptr (head_block.tail_block idx.m_data c.head) + 64
              ≤ struct_ptr (idx.m_next_empty % 2 ^ 32)) := by
        rw [F.tail, hne]
        by_cases hp : pre = []
        · exact Or.inl (F.single hp).1
        · refine Or.inr ⟨(F.multi hp).1, ?_⟩
          simp only [BLOCK_SIZE] at hlast_nb
          omega
      exact ⟨_, posting_gap_grow idx c.head d f hfit _ (by rw [hg, hkm]) hroom hnbh hprev,
        grow_gap_pos _ _ c pre last F hcb d hd hd30⟩
    · rw [insert_posting_full idx c.head d f hfit _ (by rw [hg, hkm]) hroom] at h
      cases h

theorem run_inserts_append (hash : List Nat → Nat) : ∀ (xs ys : List insert_call)
    (idx idx1 idx2 : immediate_index), run_inserts hash idx xs = some idx1 →
    run_inserts hash idx1 ys = some idx2 → run_inserts hash idx (xs ++ ys) = some idx2 := by
  intro xs
  induction xs with
  | nil =>
    intro ys idx idx1 idx2 h1 h2
    simp only [run_inserts, Option.some.injEq] at h1
    rw [h1]
    exact h2
  | cons c rest ih =>
    intro ys idx idx1 idx2 h1 h2
    simp only [run_inserts, List.cons_append] at h1 ⊢
    cases hi : idx.insert hash c.docid c.term c.positions with
    | none =>
      rw [hi] at h1
      cases h1
    | some i1 =>
      rw [hi] at h1
      simp only at h1 ⊢
      exact ih ys i1 idx1 idx2 h1 h2

theorem run_inserts_snoc (hash : List Nat → Nat) (calls : List insert_call)
    (call : insert_call) (idx0 idx idx2 : immediate_index)
    (hrun : run_inserts hash idx0 calls = some idx)
    (hins : idx.insert hash call.docid call.term call.positions = some idx2) :
    run_inserts hash idx0 (calls ++ [call]) = some idx2 := by
  apply run_inserts_append hash calls [call] idx0 idx idx2 hrun
  simp only [run_inserts, hins]

end

section
open immediate_index

theorem s3_calls_succ (t : List Nat) (k : Nat) :
    s3_calls t (k + 1) = s3_calls t k ++ [⟨k + 1, t, [0]⟩] := by
  unfold s3_calls
  rw [List.range_succ, List.map_append]
  rfl

theorem s3_posts_succ (t : List Nat) (k : Nat) :
    postings_of (s3_calls t (k + 1)) t = postings_of (s3_calls t k) t ++ [(k + 1, 1)] := by
  rw [s3_calls_succ, postings_of_append]
  congr 1
  simp [postings_of]

theorem s3_posts_facts (t : List Nat) : ∀ k,
    lastDoc 0 (postings_of (s3_calls t k) t) = k ∧
      (enc_posts 0 (postings_of (s3_calls t k) t)).length = k ∧
      (1 ≤ k → postings_of (s3_calls t k) t ≠ []) := by
  intro k
  induction k with
  | zero => exact ⟨rfl, rfl, fun h => absurd h (by omega)⟩
  | succ k ih =>
    rw [s3_posts_succ]
    refine ⟨lastDoc_append_singleton _ _ _, ?_, fun _ => by simp⟩
    rw [enc_posts_append, List.length_append, ih.2.1, ih.1, enc_posts_singleton]
    have e : (k + 1, 1).1 - k = 1 := by
      show k + 1 - k = 1
      omega
    rw [e]
    rfl

theorem s3_valid (t : List Nat) (h1 : 1 ≤ t.length) (h2 : t.length ≤ HEAD_BYTES)
    (h3 : ∀ x ∈ t, x < 256) (n : Nat) (hn : n < 2 ^ 30) : ValidCalls (s3_calls t n) := by
  unfold ValidCalls s3_calls
  constructor
  · intro c hc
    obtain ⟨i, hi, rfl⟩ := List.mem_map.1 hc
    have := List.mem_range.1 hi
    refine ⟨?_, ?_, ?_, ?_, h1, h2, h3⟩
    · show 1 ≤ i + 1
      omega
    · show i + 1 < 2 ^ 30
      omega
    · exact Nat.le_refl 1
    · show 1 < 2 ^ 32
      norm_num
  · rw [List.pairwise_map]
    refine List.Pairwise.imp ?_ (List.pairwise_lt_range n)
    intro a b hab _
    show a + 1 < b + 1
    omega

theorem run_inserts_snoc_inv (hash : List Nat → Nat) : ∀ (calls : List insert_call)
    (call : insert_call) (idx0 idx2 : immediate_index),
    run_inserts hash idx0 (calls ++ [call]) = some idx2 →
    ∃ idx, run_inserts hash idx0 calls = some idx ∧
      idx.insert hash call.docid call.term call.positions = some idx2 := by
  intro calls
  induction calls with
  | nil =>
    intro call idx0 idx2 h
    simp only [List.nil_append, run_inserts] at h
    refine ⟨idx0, rfl, ?_⟩
    cases hi : idx0.insert hash call.docid call.term call.positions with
    | none =>
      rw [hi] at h
      cases h
    | some i1 =>
      rw [hi] at h
      exact h
  | cons c rest ih =>
    intro call idx0 idx2 h
    simp only [List.cons_append, run_inserts] at h ⊢
    cases hi : idx0.insert hash c.docid c.term c.positions with
    | none =>
      rw [hi] at h
      cases h
    | some i1 =>
      rw [hi] at h
      exact ih call i1 idx2 h

theorem single_block_offset (S : Nat → Nat) (m : Mem) (c : Chain) (b : Blk)
    (hrep : ChainRep S m c) (hcb : c.blocks = [b]) :
    head_block.tail_byte_offset m c.head
        = HEAD_PL_OFFSET + c.term.length + (enc_posts 0 c.posts).length ∧
      b.size = S 0 := by
  have hx : c.head = b.idx := by
    unfold Chain.head
    rw [hcb]
    rfl
  have hp : c.posts = b.posts := by
    unfold Chain.posts
    rw [hcb]
    simp [blockPosts]
  unfold ChainRep at hrep
  rw [hcb] at hrep
  obtain ⟨_, _, _, _, _, _, _, hbr⟩ := hrep
  obtain ⟨hsz, _, _, _, _, hlink, _⟩ := hbr
  rw [hx, hp]
  exact ⟨hlink.2.2.2, hsz⟩

theorem two_block_facts (S : Nat → Nat) (m : Mem) (c : Chain) (b1 b2 : Blk) (d f : Nat)
    (hrep : ChainRep S m c) (hcb : c.blocks = [b1, b2]) (hp : b2.posts = [(d, f)]) :
    head_block.tail_block m c.head = b2.idx ∧ head_block.next_block m c.head = b2.idx ∧
      b2.idx ≠ c.head ∧ tail_block.first_docid m b2.idx = d ∧
      holds m (struct_ptr b2.idx + TT_PL_OFFSET) (magic_bytes d f) := by
  have hx : c.head = b1.idx := by
    unfold Chain.head
    rw [hcb]
    rfl
  unfold ChainRep at hrep
  rw [hcb] at hrep
  obtain ⟨_, _, _, _, _, _, _, hbr⟩ := hrep
  obtain ⟨_, _, _, _, _, hlink1, hbr2⟩ := hbr
  obtain ⟨_, _, _, _, hseg, hlink2, _⟩ := hbr2
  have hfd : firstDoc b2 = d := by
    unfold firstDoc
    rw [hp]
    rfl
  have hseg1 := hseg.1
  rw [hp, enc_posts_singleton] at hseg1
  rw [hx]
  refine ⟨hlink2.2.2.1, hlink1.1, ?_, ?_, ?_⟩
  · intro e
    apply hlink1.2
    rw [hlink2.2.2.1]
    exact e.symm
  · rw [← hfd]
    exact hlink2.1 (by omega)
  · exact hseg1

/-- One call of scenario S3 on an index in which the chain of the term is a single block:
the posting goes into the head while the head has room, and the posting that finds the head
full opens a second block whose payload starts with the code of `(docid, 1)`. -/
theorem s3_step (hash : List Nat → Nat) (S : Nat → Nat) (N H : Nat) (hS : SlabsOK S)
    (hS0 : S 0 = 1) (hH : 0 < H) (hN : N ≤ 2 ^ 32) (t : List Nat) (h1 : 1 ≤ t.length)
    (h2 : t.length ≤ HEAD_BYTES) (h3 : ∀ x ∈ t, x < 256) (k : Nat) (hk : k + t.length ≤ 44)
    (idx : immediate_index)
    (hrun : run_inserts hash (mk_sized S N H) (s3_calls t k) = some idx)
    (hone : 1 ≤ k → ∃ s, idx.found_or_empty_offset hash t = some s ∧
      head_block.growth_offset idx.m_data (idx.m_term_offsets s) = 0)
    (idx2 : immediate_index) (hins : idx.insert hash (k + 1) t [0] = some idx2) :
    ∃ s, idx2.found_or_empty_offset hash t = some s ∧ idx2.m_term_offsets s ≠ END_CHAIN ∧
      (k + t.length < 44 →
        head_block.growth_offset idx2.m_data (idx2.m_term_offsets s) = 0) ∧
      (k + t.length = 44 →
        head_block.growth_offset idx2.m_data (idx2.m_term_offsets s) = 1 ∧
        head_block.tail_block idx2.m_data (idx2.m_term_offsets s) ≠ idx2.m_term_offsets s ∧
        head_block.next_block idx2.m_data (idx2.m_term_offsets s)
          = head_block.tail_block idx2.m_data (idx2.m_term_offsets s) ∧
        tail_block.first_docid idx2.m_data
          (head_block.tail_block idx2.m_data (idx2.m_term_offsets s)) = k + 1 ∧
        holds idx2.m_data
          (struct_ptr (head_block.tail_block idx2.m_data (idx2.m_term_offsets s))
            + TT_PL_OFFSET) (magic_bytes (k + 1) 1)) := by
  have hv : ValidCalls (s3_calls t k) := s3_valid t h1 h2 h3 k (by omega)
  obtain ⟨chains, inv, tr⟩ := build_inv hash S N H _ idx hS hH hN hv hrun
  obtain ⟨pl, pe, pne⟩ := s3_posts_facts t k
  have hslab : idx.m_slab_size = S := (run_inserts_fields hash _ _ _ hrun).1
  cases hh : idx.insert_head hash t with
  | none =>
    unfold immediate_index.insert at hins
    rw [hh] at hins
    cases hins
  | some r =>
    obtain ⟨hb, idx1⟩ := r
    obtain ⟨chains1, s, c, inv1, hc, e1, e2, e3, _, _, hnew, hold⟩ :=
      insert_head_inv hash idx chains _ inv tr t h2 h3 hb idx1 hh
    have hp := insert_unfold hash idx idx1 idx2 (k + 1) hb t [0] (by norm_num) hh hins
    have hslab1 : idx1.m_slab_size = S :=
      (insert_head_fields hash _ _ _ _ hh).1.trans hslab
    -- the chain is a single block
    have hlen : c.blocks.length = 1 := by
      by_cases hk0 : k = 0
      · have hP : postings_of (s3_calls t k) t = [] := by
          rw [hk0]
          rfl
        rw [(hnew hP).1]
        rfl
      · obtain ⟨hch, hix⟩ := hold (pne (by omega))
        obtain ⟨s0, hf0, hg0⟩ := hone (by omega)
        rw [hch] at hc
        have hf := found_of_chain hash idx chains inv s c hc
        rw [e2, hf0] at hf
        have hs : s0 = s := Option.some.inj hf
        rw [hs, inv.dir_some s c hc, chain_growth _ _ c (inv.rep s c hc)] at hg0
        have hrep := inv.rep s c hc
        have hpos : c.blocks ≠ [] := by
          intro e
          unfold ChainRep at hrep
          rw [e] at hrep
          exact hrep
        have := List.length_pos.2 hpos
        simp only [MAX_SLAB_IDX] at hg0
        omega
    have hd : lastDoc 0 c.posts < k + 1 := by
      rw [e3, pl]
      omega
    obtain ⟨pre, last, hcb, hgap, hcase⟩ := insert_posting_shape hash idx1 chains1 inv1 s c hc
      (k + 1) 1 hd (by omega) (Nat.le_refl 1) (by norm_num) idx2 (by rw [e1]; exact hp)
    have hpre : pre = [] := by
      rw [hcb] at hlen
      simp only [List.length_append, List.length_singleton] at hlen
      exact List.length_eq_zero.1 (by omega)
    subst hpre
    simp only [List.nil_append] at hcb hcase
    obtain ⟨hoff, hsize⟩ := single_block_offset _ _ c last (inv1.rep s c hc) hcb
    rw [hslab1, hS0] at hsize
    have hg1 : (magic_bytes (k + 1 - lastDoc 0 c.posts) 1).length = 1 := by
      rw [e3, pl]
      have e : k + 1 - k = 1 := by omega
      rw [e]
      rfl
    rw [hg1, hoff, e2, e3, pe, hsize] at hcase
    simp only [HEAD_PL_OFFSET, BLOCK_SIZE] at hcase
    rcases hcase with ⟨hfit, _, inv2⟩ | ⟨hnofit, _, inv2⟩
    · have hc2 := Function.update_same s (some (⟨t, [⟨last.idx, 1,
        last.posts ++ [(k + 1, 1)]⟩]⟩ : Chain)) chains1
      have hf := found_of_chain hash idx2 _ inv2 s _ hc2
      have hne := chain_head_ne_end hash idx2 _ inv2 s _ hc2
      have hdir := inv2.dir_some s _ hc2
      have hg := chain_growth _ _ _ (inv2.rep s _ hc2)
      rw [← hdir] at hne hg
      refine ⟨s, hf, hne, fun _ => hg, fun h => ?_⟩
      omega
    · have hc2 := Function.update_same s (some (⟨t, [last, ⟨idx1.m_next_empty,
        idx1.m_slab_size (min (0 + 1) MAX_SLAB_IDX), [(k + 1, 1)]⟩]⟩ : Chain)) chains1
      have hf := found_of_chain hash idx2 _ inv2 s _ hc2
      have hne := chain_head_ne_end hash idx2 _ inv2 s _ hc2
      have hdir := inv2.dir_some s _ hc2
      have hg := chain_growth _ _ _ (inv2.rep s _ hc2)
      obtain ⟨t1, t2, t3, t4, t5⟩ := two_block_facts _ _ _ last _ (k + 1) 1
        (inv2.rep s _ hc2) rfl rfl
      rw [← hdir] at hne hg t1 t2 t3
      refine ⟨s, hf, hne, fun h => ?_, fun _ => ⟨hg, ?_, ?_, ?_, ?_⟩⟩
      · omega
      · rw [t1]
        exact t3
      · rw [t1, t2]
      · rw [t1]
        exact t4
      · rw [t1]
        exact t5

/-- While the head has room, the chain of scenario S3 is a single block. -/
theorem s3_one_block (hash : List Nat → Nat) (S : Nat → Nat) (N H : Nat) (hS : SlabsOK S)
    (hS0 : S 0 = 1) (hH : 0 < H) (hN : N ≤ 2 ^ 32) (t : List Nat) (h1 : 1 ≤ t.length)
    (h2 : t.length ≤ HEAD_BYTES) (h3 : ∀ x ∈ t, x < 256) : ∀ (k : Nat), 1 ≤ k →
    k + t.length ≤ 44 → ∀ (idx : immediate_index),
    run_inserts hash (mk_sized S N H) (s3_calls t k) = some idx →
    ∃ s, idx.found_or_empty_offset hash t = some s ∧
      head_block.growth_offset idx.m_data (idx.m_term_offsets s) = 0 := by
  intro k
  induction k with
  | zero =>
    intro h _
    omega
  | succ j ih =>
    intro _ hj idx hrun
    rw [s3_calls_succ] at hrun
    obtain ⟨idx0, hrun0, hins⟩ := run_inserts_snoc_inv hash _ _ _ _ hrun
    obtain ⟨s, hf, _, hg, _⟩ := s3_step hash S N H hS hS0 hH hN t h1 h2 h3 j (by omega) idx0
      hrun0 (fun hj1 => ih hj1 (by omega) idx0 hrun0) idx hins
    exact ⟨s, hf, hg (by omega)⟩

end

section
open immediate_index postings_cursor

theorem prof_for_spec (hash : List Nat → Nat) (idx : immediate_index)
    (chains : Nat → Option Chain) (inv : IndexInv hash idx chains) (D : List Nat → List Nat)
    (hD : ∀ s ch, chains s = some ch → ch.posts.map Prod.fst = D ch.term)
    (fuel cand : Nat) (hc30 : cand < 2 ^ 30) (others : List postings_cursor) :
    ∀ (counts : List Nat) (h : Nat), counts.length = others.length →
    (∀ c ∈ others, Tracked idx chains fuel cand c) →
    (∀ x ∈ counts, x ≤ h) → counts.Pairwise (fun a b => b ≤ a) →
    ∃ all others1 counts1,
      profile_conjunction_for idx fuel cand others counts = some (all, others1, counts1) ∧
      (∀ c ∈ others1, Tracked idx chains fuel cand c) ∧
      others1.length = others.length ∧ counts1.length = counts.length ∧
      (∀ x ∈ counts1, x ≤ h + 1) ∧ counts1.Pairwise (fun a b => b ≤ a) := by
  induction others with
  | nil =>
    intro counts h hl _ hb hp
    exact ⟨true, [], counts, rfl, by simp, rfl, rfl, fun x hx => Nat.le_succ_of_le (hb x hx),
      hp⟩
  | cons c rest ih =>
    intro counts h hl htr hb hp
    cases counts with
    | nil => simp at hl
    | cons n ns =>
      obtain ⟨c1, h1, h2, h3, h4⟩ := tracked_geq hash idx chains inv D hD fuel cand cand c
        (htr c (List.mem_cons_self _ _)) (Nat.le_refl _) hc30
      have hrest : ∀ x ∈ rest, Tracked idx chains fuel cand x :=
        fun x hx => htr x (List.mem_cons_of_mem _ hx)
      have hn := hb n (List.mem_cons_self _ _)
      rw [List.pairwise_cons] at hp
      simp only [List.length_cons, Nat.add_right_cancel_iff] at hl
      unfold profile_conjunction_for
      rw [h1]
      simp only [List.headD_cons, List.tail_cons]
      by_cases hd : c1.m_current_docid = cand
      · obtain ⟨all, o1, k1, e1, e3, e4, e5, e6, e7⟩ := ih ns n hl hrest hp.1 hp.2
        simp only [postings_cursor.docid, hd, ne_eq, not_true_eq_false, if_false, e1]
        refine ⟨all, c1 :: o1, (n + 1) :: k1, rfl, ?_, ?_, ?_, ?_, ?_⟩
        · intro x hx
          rcases List.mem_cons.1 hx with e | hm
          · rw [e]
            exact h2
          · exact e3 x hm
        · simp only [List.length_cons, e4]
        · simp only [List.length_cons, e5]
        · intro x hx
          rcases List.mem_cons.1 hx with e | hm
          · omega
          · have := e6 x hm
            omega
        · rw [List.pairwise_cons]
          exact ⟨e6, e7⟩
      · simp only [postings_cursor.docid, hd, ne_eq, not_false_eq_true, if_true]
        refine ⟨false, c1 :: rest, (n + 1) :: ns, rfl, ?_, ?_, ?_, ?_, ?_⟩
        · intro x hx
          rcases List.mem_cons.1 hx with e | hm
          · rw [e]
            exact h2
          · exact hrest x hm
        · simp only [List.length_cons]
        · simp only [List.length_cons]
        · intro x hx
          rcases List.mem_cons.1 hx with e | hm
          · omega
          · have := hb x (List.mem_cons_of_mem _ hm)
            omega
        · rw [List.pairwise_cons]
          exact ⟨fun x hx => Nat.le_succ_of_le (hp.1 x hx), hp.2⟩

theorem prof_while_spec (hash : List Nat → Nat) (idx : immediate_index)
    (chains : Nat → Option Chain) (inv : IndexInv hash idx chains) (D : List Nat → List Nat)
    (hD : ∀ s ch, chains s = some ch → ch.posts.map Prod.fst = D ch.term)
    (fuel : Nat) (e : postings_cursor)
    (he : e.m_current_docid = END_CHAIN) (sts : List postings_cursor) :
    ∀ (lead : postings_cursor) (tl others : List postings_cursor) (res n g : Nat)
      (gs : List Nat),
    lead :: tl = sts ++ [e] → Follows idx lead tl →
    (sts ++ [e]).Pairwise (fun a b => a.m_current_docid < b.m_current_docid) →
    (∀ st ∈ sts, st.m_current_docid < 2 ^ 30) →
    (∀ c ∈ others, Tracked idx chains fuel lead.m_current_docid c) →
    gs.length = others.length → (g :: gs).Pairwise (fun a b => b ≤ a) →
    sts.length + 1 ≤ n →
    ∃ res1 gs1, profile_conjunction_while idx fuel n lead others res (g :: gs)
        = some (res1, (g + sts.length) :: gs1) ∧
      gs1.length = others.length ∧
      ((g + sts.length) :: gs1).Pairwise (fun a b => b ≤ a) := by
  induction sts with
  | nil =>
    intro lead tl others res n g gs hl _ _ _ _ hgl hgp hn
    obtain ⟨m, rfl⟩ : ∃ m, n = m + 1 := ⟨n - 1, by simp at hn; omega⟩
    simp only [List.nil_append, List.cons.injEq] at hl
    rw [hl.1]
    refine ⟨res, gs, ?_, hgl, hgp⟩
    simp [profile_conjunction_while, postings_cursor.docid, he]
  | cons a sts ih =>
    intro lead tl others res n g gs hl hf hs h30 htr hgl hgp hn
    obtain ⟨m, rfl⟩ : ∃ m, n = m + 1 := ⟨n - 1, by simp at hn; omega⟩
    simp only [List.cons_append, List.cons.injEq] at hl
    obtain ⟨rfl, rfl⟩ := hl
    have ha30 := h30 lead (List.mem_cons_self _ _)
    have hane : lead.m_current_docid ≠ END_CHAIN := by
      simp only [END_CHAIN]
      omega
    rw [List.pairwise_cons] at hgp
    obtain ⟨all, o1, k1, e1, e3, e4, e5, e6, e7⟩ := prof_for_spec hash idx chains inv D hD fuel
      lead.m_current_docid ha30 others gs g hgl htr hgp.1 hgp.2
    rw [List.cons_append, List.pairwise_cons] at hs
    cases htl : sts ++ [e] with
    | nil => simp at htl
    | cons lead1 tl1 =>
      rw [htl] at hf hs
      have hle := hs.1 lead1 (List.mem_cons_self _ _)
      obtain ⟨res1, gs1, r1, r2, r3⟩ := ih lead1 tl1 o1 (if all = true then res + 1 else res)
        m (g + 1) k1 htl.symm hf.2
        (by rw [htl]; exact hs.2) (fun st hst => h30 st (List.mem_cons_of_mem _ hst))
        (fun c hc => tracked_mono idx chains fuel _ _ c (e3 c hc) (Nat.le_of_lt hle))
        (by rw [e5, hgl, e4]) (by rw [List.pairwise_cons]; exact ⟨e6, e7⟩)
        (by simp at hn ⊢; omega)
      have hlen : g + (lead :: sts).length = g + 1 + sts.length := by
        simp only [List.length_cons]
        omega
      rw [hlen]
      refine ⟨res1, gs1, ?_, by rw [r2, e4], r3⟩
      unfold profile_conjunction_while
      simp only [postings_cursor.docid, hane, ne_eq, not_false_eq_true, if_true, e1, hf.1,
        List.headD_cons, List.tail_cons]
      exact r1

theorem prof_spec (hash : List Nat → Nat) (idx : immediate_index)
    (chains : Nat → Option Chain) (inv : IndexInv hash idx chains) (D : List Nat → List Nat)
    (hD : ∀ s ch, chains s = some ch → ch.posts.map Prod.fst = D ch.term)
    (fuel : Nat) (sort : List postings_cursor → List postings_cursor)
    (hsort : ∀ l, (sort l).Perm l) (cursors : List postings_cursor)
    (hfresh : ∀ c ∈ cursors, ∃ s ch, chains s = some ch ∧ ch.posts ≠ [] ∧
      create hash idx ch.term = some c ∧ ch.posts.length + 2 ≤ fuel)
    (hne : cursors ≠ []) :
    ∃ lead others res gs, sort cursors = lead :: others ∧
      profile_boolean_conjunction idx sort fuel cursors = some (res, lead.doc_freq :: gs) ∧
      gs.length = others.length ∧
      (lead.doc_freq :: gs).Pairwise (fun a b => b ≤ a) ∧
      lead.doc_freq = (D lead.m_term).length := by
  have hperm := hsort cursors
  unfold profile_boolean_conjunction
  rw [if_neg (by simpa using hne)]
  cases hso : sort cursors with
  | nil =>
    rw [hso] at hperm
    exact absurd (List.Perm.eq_nil hperm.symm) hne
  | cons lead others =>
    rw [hso] at hperm
    have hmem : ∀ c, c ∈ cursors ↔ c ∈ lead :: others := fun c => (hperm.mem_iff).symm
    obtain ⟨s, ch, hc, hpne, hcr, hfuel⟩ := hfresh lead ((hmem lead).2 (List.mem_cons_self _ _))
    obtain ⟨l, hl, hterm, _⟩ := fresh_tracked hash idx chains inv s ch hc hpne lead hcr
    obtain ⟨hf, hobs, hend⟩ := follows_canon hash idx chains inv s ch hc
    have hsorted := canon_all_sorted hash idx chains inv s ch hc
    have h30 := canon_sorted hash idx chains inv s ch hc
    have hlen : (canon_states idx ch).length = ch.posts.length := by
      rw [← hobs, List.length_map]
    obtain ⟨c1, hc1, _, hdf, _⟩ := cursor_reads_chain hash idx chains inv s ch hc hpne
    rw [hcr] at hc1
    cases hc1
    have hDl : (D lead.m_term).length = ch.posts.length := by
      rw [hterm, ← hD s ch hc, List.length_map]
    have htr : ∀ c ∈ others, Tracked idx chains fuel lead.m_current_docid c := by
      intro c hcm
      obtain ⟨s2, ch2, hc2, hp2, hcr2, hfuel2⟩ := hfresh c ((hmem c).2
        (List.mem_cons_of_mem _ hcm))
      obtain ⟨_, _, _, hfind⟩ := fresh_tracked hash idx chains inv s2 ch2 hc2 hp2 c hcr2
      exact ⟨s2, ch2, 0, hc2, Nat.zero_le _, hfuel2, hfind⟩
    obtain ⟨res1, gs1, r1, r2, r3⟩ := prof_while_spec hash idx chains inv D hD fuel
      (canon_end idx ch) hend (canon_states idx ch) lead
      (l ++ [canon_end idx ch]) others 0 fuel 0 (List.replicate others.length 0)
      (by rw [hl]; rfl)
      (by rw [hl, List.cons_append] at hf; exact hf.2) hsorted (fun st hst => (h30.2 st hst).2)
      htr (List.length_replicate _ _)
      (by
        rw [List.pairwise_cons]
        refine ⟨fun x hx => ?_, ?_⟩
        · rw [List.eq_of_mem_replicate hx]
        · rw [List.pairwise_replicate]
          exact Or.inr (Nat.le_refl 0))
      (by omega)
    rw [Nat.zero_add, hlen, ← hdf] at r1 r3
    exact ⟨lead, others, res1, gs1, rfl, r1, r2, r3, by rw [hdf, hDl]⟩

theorem wsort_sorted (l : List postings_cursor) :
    (wsort l).Pairwise (fun a b => a.doc_freq ≤ b.doc_freq) := by
  unfold wsort
  have : IsTotal postings_cursor (fun l r => l.doc_freq ≤ r.doc_freq) :=
    ⟨fun a b => Nat.le_total _ _⟩
  have : IsTrans postings_cursor (fun l r => l.doc_freq ≤ r.doc_freq) :=
    ⟨fun a b c h1 h2 => Nat.le_trans h1 h2⟩
  exact List.sorted_insertionSort _ l

end

section
open immediate_index

theorem pchain_head_mem (c : PChain) (hne : c.blocks ≠ []) :
    ∃ b, c.blocks[0]? = some b ∧ b ∈ c.blocks ∧ c.head = b.1 := by
  cases hb : c.blocks with
  | nil => exact absurd hb hne
  | cons h rest =>
    refine ⟨h, by simp, List.mem_cons_self _ _, ?_⟩
    unfold PChain.head
    rw [hb]
    rfl

theorem pchain_tail_mem (c : PChain) (hne : c.blocks ≠ []) :
    c.blocks[c.blocks.length - 1]? = some c.tail ∧ c.tail ∈ c.blocks := by
  unfold PChain.tail
  have h1 : c.blocks.getLastD (0, 0) = c.blocks.getLast hne := by
    rw [List.getLastD_eq_getLast?, List.getLast?_eq_getLast _ hne]
    rfl
  rw [h1]
  refine ⟨?_, List.getLast_mem hne⟩
  rw [List.getLast_eq_getElem]
  exact List.getElem?_eq_getElem _

theorem pchain_head_lt (hash : List Nat → Nat) (idx : immediate_index)
    (chains : Nat → Option PChain) (inv : PInv hash idx chains) (s : Nat) (c : PChain)
    (hc : chains s = some c) : c.head + 1 ≤ idx.m_next_empty := by
  have hrep := inv.rep s c hc
  obtain ⟨b, hb0, hbm, hbh⟩ := pchain_head_mem c hrep.ne
  have hs := hrep.sizes 0 b hb0
  have := inv.bound s c b hc hbm
  have := (inv.slabs (min 0 MAX_SLAB_IDX)).1
  omega

theorem pchain_head_ne_end (hash : List Nat → Nat) (idx : immediate_index)
    (chains : Nat → Option PChain) (inv : PInv hash idx chains) (s : Nat) (c : PChain)
    (hc : chains s = some c) : c.head ≠ END_CHAIN := by
  have := pchain_head_lt hash idx chains inv s c hc
  have := inv.ne_lt
  have := inv.dsize
  simp only [END_CHAIN]
  omega

theorem pchain_get_term (hash : List Nat → Nat) (idx : immediate_index)
    (chains : Nat → Option PChain) (inv : PInv hash idx chains) (s : Nat) (c : PChain)
    (hc : chains s = some c) :
    head_block.get_term idx.m_data (idx.m_term_offsets s) = c.term := by
  have hrep := inv.rep s c hc
  rw [inv.dir_some s c hc]
  exact get_term_eq _ _ _ hrep.wlen hrep.term

theorem pslot_chain (hash : List Nat → Nat) (idx : immediate_index)
    (chains : Nat → Option PChain) (inv : PInv hash idx chains) (s : Nat)
    (hs : s < idx.m_term_offsets_size) (h : idx.m_term_offsets s ≠ END_CHAIN) :
    ∃ c, chains s = some c := by
  cases hc : chains s with
  | none => exact absurd (inv.dir_none s hc hs) h
  | some c => exact ⟨c, rfl⟩

theorem pprobe_loop_found (hash : List Nat → Nat) (idx : immediate_index)
    (chains : Nat → Option PChain) (inv : PInv hash idx chains) (s : Nat) (c : PChain)
    (hc : chains s = some c) : ∀ (k fuel i : Nat), k < fuel → i < idx.m_term_offsets_size →
    (probe_step idx.m_term_offsets_size)^[k] i = s →
    (∀ j, j < k → idx.m_term_offsets ((probe_step idx.m_term_offsets_size)^[j] i) ≠ END_CHAIN) →
    found_or_empty_offset_loop idx c.term fuel i = some s := by
  intro k
  induction k with
  | zero =>
    intro fuel i hf hi hs _
    simp only [Function.iterate_zero, id_eq] at hs
    subst hs
    obtain ⟨f, rfl⟩ : ∃ f, fuel = f + 1 := ⟨fuel - 1, by omega⟩
    rw [found_or_empty_offset_loop,
      if_pos (by rw [inv.dir_some i c hc]; exact pchain_head_ne_end hash idx chains inv i c hc),
      if_pos (pchain_get_term hash idx chains inv i c hc).symm]
  | succ k ih =>
    intro fuel i hf hi hs hp
    obtain ⟨f, rfl⟩ : ∃ f, fuel = f + 1 := ⟨fuel - 1, by omega⟩
    have h0 := hp 0 (by omega)
    simp only [Function.iterate_zero, id_eq] at h0
    obtain ⟨c2, hc2⟩ := pslot_chain hash idx chains inv i hi h0
    rw [found_or_empty_offset_loop, if_pos h0, pchain_get_term hash idx chains inv i c2 hc2]
    by_cases ht : c.term = c2.term
    · rw [if_pos ht, inv.distinct s i c c2 hc hc2 ht]
    · rw [if_neg ht]
      apply ih f _ (by omega) (probe_step_lt _ _ inv.hsize)
      · rw [← hs, Function.iterate_succ_apply]
      · intro j hj
        have := hp (j + 1) (by omega)
        rw [Function.iterate_succ_apply] at this
        exact this

theorem pfound_of_chain (hash : List Nat → Nat) (idx : immediate_index)
    (chains : Nat → Option PChain) (inv : PInv hash idx chains) (s : Nat) (c : PChain)
    (hc : chains s = some c) : idx.found_or_empty_offset hash c.term = some s := by
  obtain ⟨k, hk, hs, hp⟩ := inv.probe s c hc
  unfold found_or_empty_offset
  exact pprobe_loop_found hash idx chains inv s c hc k _ _ hk
    (term_to_offset_lt hash idx c.term inv.hsize) hs hp

theorem pprobe_loop_absent (hash : List Nat → Nat) (idx : immediate_index)
    (chains : Nat → Option PChain) (inv : PInv hash idx chains) (t : List Nat)
    (habs : ∀ s c, chains s = some c → c.term ≠ t) :
    ∀ (fuel i e : Nat), i < idx.m_term_offsets_size →
    found_or_empty_offset_loop idx t fuel i = some e →
    ∃ k, k < fuel ∧ (probe_step idx.m_term_offsets_size)^[k] i = e ∧
      (∀ j, j < k →
        idx.m_term_offsets ((probe_step idx.m_term_offsets_size)^[j] i) ≠ END_CHAIN) ∧
      idx.m_term_offsets e = END_CHAIN ∧ e < idx.m_term_offsets_size := by
  intro fuel
  induction fuel with
  | zero => intro i e _ h; simp [found_or_empty_offset_loop] at h
  | succ f ih =>
    intro i e hi h
    rw [found_or_empty_offset_loop] at h
    by_cases h0 : idx.m_term_offsets i ≠ END_CHAIN
    · rw [if_pos h0] at h
      obtain ⟨c2, hc2⟩ := pslot_chain hash idx chains inv i hi h0
      rw [pchain_get_term hash idx chains inv i c2 hc2,
        if_neg (fun hh => habs i c2 hc2 hh.symm)] at h
      obtain ⟨k, hk, hs, hp, he⟩ := ih _ e (probe_step_lt _ _ inv.hsize) h
      refine ⟨k + 1, by omega, ?_, ?_, he⟩
      · rw [Function.iterate_succ_apply]
        exact hs
      · intro j hj
        cases j with
        | zero => simpa using h0
        | succ j =>
          rw [Function.iterate_succ_apply]
          exact hp j (by omega)
    · rw [if_neg h0] at h
      cases h
      exact ⟨0, by omega, rfl, fun j hj => absurd hj (by omega), by simpa using h0, hi⟩

theorem pfound_absent (hash : List Nat → Nat) (idx : immediate_index)
    (chains : Nat → Option PChain) (inv : PInv hash idx chains) (t : List Nat)
    (habs : ∀ s c, chains s = some c → c.term ≠ t) (e : Nat)
    (h : idx.found_or_empty_offset hash t = some e) :
    idx.m_term_offsets e = END_CHAIN ∧ e < idx.m_term_offsets_size ∧ chains e = none ∧
      ProbePath hash idx t e := by
  unfold found_or_empty_offset at h
  obtain ⟨k, hk, hs, hp, he, hlt⟩ := pprobe_loop_absent hash idx chains inv t habs _ _ e
    (term_to_offset_lt hash idx t inv.hsize) h
  refine ⟨he, hlt, ?_, ⟨k, hk, hs, hp⟩⟩
  cases hc : chains e with
  | none => rfl
  | some c =>
    have := pchain_head_ne_end hash idx chains inv e c hc
    rw [← inv.dir_some e c hc] at this
    exact absurd he this

end

section
open immediate_index

theorem PChainRep_frame (S : Nat → Nat) (hS : SlabsOK S) (m m2 : Mem) (c : PChain)
    (h : PChainRep S m c)
    (hf : ∀ b ∈ c.blocks, ∀ x, struct_ptr b.1 ≤ x → x < struct_ptr b.1 + BLOCK_SIZE * b.2 →
      m2 x = m x) : PChainRep S m2 c := by
  obtain ⟨b0, hb0, hbm, hbh⟩ := pchain_head_mem c h.ne
  obtain ⟨ht0, htm⟩ := pchain_tail_mem c h.ne
  have hs0 := h.sizes 0 b0 hb0
  have hs1 := (hS (min 0 MAX_SLAB_IDX)).1
  have hst := h.sizes _ _ ht0
  have hst1 := (hS (min (c.blocks.length - 1) MAX_SLAB_IDX)).1
  have hh : ∀ x, struct_ptr c.head ≤ x → x < struct_ptr c.head + 64 → m2 x = m x := by
    intro x h1 h2
    rw [hbh] at h1 h2
    apply hf b0 hbm x h1
    simp only [BLOCK_SIZE]
    omega
  have htl : ∀ x, struct_ptr c.tail.1 ≤ x → x < struct_ptr c.tail.1 + 64 → m2 x = m x := by
    intro x h1 h2
    apply hf c.tail htm x h1
    simp only [BLOCK_SIZE]
    omega
  have hlen := h.term_len
  simp only [HEAD_BYTES] at hlen
  have e1 : head_block.tail_byte_offset m2 c.head = head_block.tail_byte_offset m c.head :=
    tail_byte_offset_congr _ _ _ (fun x h1 h2 => hh x (by omega) (by omega))
  have e2 : tail_block.first_docid m2 c.tail.1 = tail_block.first_docid m c.tail.1 :=
    read_u32_congr _ _ _ (fun x h1 h2 => htl x (by omega) (by omega))
  refine ⟨h.ne, h.term_len, h.term_ch, ?_, ?_, h.doc1, h.doc32, ?_, ?_, ?_, h.sizes, ?_, ?_, ?_⟩
  · rw [word_length_congr _ _ _ (hh _ (by omega) (by omega))]
    exact h.wlen
  · apply holds_congr _ _ _ _ h.term
    intro a h1 h2
    simp only [HEAD_PL_OFFSET] at h1 h2
    exact hh a (by omega) (by omega)
  · rw [recent_docid_congr _ _ _ (fun x h1 h2 => hh x (by omega) (by omega))]
    exact h.recent
  · rw [growth_offset_congr _ _ _ (hh _ (by omega) (by omega))]
    exact h.growth
  · rw [tail_block_congr _ _ _ (fun x h1 h2 => hh x (by omega) (by omega))]
    exact h.tail
  · rw [e1]
    exact h.off_le
  · rw [e1]
    exact h.off_head
  · rw [e1, e2]
    exact h.off_tail

theorem ptracks_update (chains : Nat → Option PChain) (L : List Nat → Nat)
    (tr : PTracks chains L) (s : Nat) (c c2 : PChain) (hc : chains s = some c)
    (ht : c2.term = c.term) (hl : c2.last_docid = c.last_docid) :
    PTracks (Function.update chains s (some c2)) L := by
  intro t
  obtain ⟨t1, t2⟩ := tr t
  constructor
  · intro h0 s2 c3 h3
    by_cases hs : s2 = s
    · rw [hs, Function.update_same] at h3
      cases h3
      rw [ht]
      exact t1 h0 s c hc
    · rw [Function.update_noteq hs] at h3
      exact t1 h0 s2 c3 h3
  · intro h0
    obtain ⟨s2, c3, h3, h4, h5⟩ := t2 h0
    by_cases hs : s2 = s
    · rw [hs, hc] at h3
      cases h3
      exact ⟨s, c2, Function.update_same _ _ _, ht.trans h4, hl.trans h5⟩
    · exact ⟨s2, c3, by rw [Function.update_noteq hs]; exact h3, h4, h5⟩

/-- Where a round of `insert_positions` writes when the occurrence fits: beyond the header
of the chain and, in a tail that is not the head, beyond its `first_docid` field. -/
theorem pchain_write_pos (S : Nat → Nat) (hS : SlabsOK S) (m : Mem) (c : PChain)
    (h : PChainRep S m c) (hord : c.blocks.Pairwise (fun b1 b2 => b1.1 + b1.2 ≤ b2.1)) :
    (c.blocks.length = 1 → c.tail.1 = c.head) ∧
    (1 < c.blocks.length → struct_ptr c.head + 64 ≤ struct_ptr c.tail.1) := by
  obtain ⟨b0, hb0, hbm, hbh⟩ := pchain_head_mem c h.ne
  obtain ⟨ht0, htm⟩ := pchain_tail_mem c h.ne
  constructor
  · intro h1
    rw [h1] at ht0
    rw [hb0] at ht0
    rw [hbh, Option.some.inj ht0]
  · intro h1
    have hs0 := h.sizes 0 b0 hb0
    have hs1 := (hS (min 0 MAX_SLAB_IDX)).1
    have hlt : 0 < c.blocks.length - 1 := by omega
    have := List.pairwise_iff_getElem.1 hord 0 (c.blocks.length - 1) (by omega) (by omega) hlt
    have e0 : c.blocks[0] = b0 := List.getElem_eq_iff.2 hb0
    have e1 : c.blocks[c.blocks.length - 1] = c.tail := List.getElem_eq_iff.2 ht0
    rw [e0, e1] at this
    rw [hbh]
    unfold struct_ptr
    simp only [BLOCK_SIZE]
    omega

end

section
open immediate_index

theorem insert_position_fit (idx : immediate_index) (h docid dg last pos : Nat)
    (hfit : head_block.tail_byte_offset idx.m_data h
        + magic_bytes_required ((pos + 2 ^ 32 - last) % 2 ^ 32) dg
      ≤ BLOCK_SIZE * idx.m_slab_size (head_block.growth_offset idx.m_data h)) :
    idx.insert_position h docid dg last pos
      = some ({ idx with m_data := pfit_mem idx.m_data h ((pos + 2 ^ 32 - last) % 2 ^ 32) dg },
          [encoder_call.magic ((pos + 2 ^ 32 - last) % 2 ^ 32) dg]) := by
  unfold insert_position
  simp only
  rw [if_pos hfit]
  simp only [encode_magic_eq]
  rfl

theorem pfit_out (m : Mem) (h wg dg x : Nat)
    (h1 : x < struct_ptr h + 16 ∨ struct_ptr h + 18 ≤ x)
    (h2 : x < struct_ptr (head_block.tail_block m h) + head_block.tail_byte_offset m h ∨
      struct_ptr (head_block.tail_block m h) + head_block.tail_byte_offset m h
        + (magic_bytes wg dg).length ≤ x) :
    pfit_mem m h wg dg x = m x := by
  unfold pfit_mem head_block.advance_tail_byte_offset
  rw [write_u16_out _ _ _ _ (by omega), write_list_out _ _ _ _ h2]

theorem pfit_off (m : Mem) (h wg dg : Nat)
    (hdis : struct_ptr h + 18
      ≤ struct_ptr (head_block.tail_block m h) + head_block.tail_byte_offset m h)
    (hlt : head_block.tail_byte_offset m h + (magic_bytes wg dg).length < 65536) :
    head_block.tail_byte_offset (pfit_mem m h wg dg) h
      = head_block.tail_byte_offset m h + (magic_bytes wg dg).length := by
  unfold pfit_mem head_block.advance_tail_byte_offset
  have e : head_block.tail_byte_offset (write_list m
      (struct_ptr (head_block.tail_block m h) + head_block.tail_byte_offset m h)
      (magic_bytes wg dg)) h = head_block.tail_byte_offset m h := by
    apply tail_byte_offset_congr
    intro x h1 h2
    exact write_list_out _ _ _ _ (by omega)
  rw [e]
  exact read_u16_write_u16_of_lt _ _ _ hlt

theorem insert_position_grow (idx : immediate_index) (h docid dg last pos : Nat)
    (hfit : ¬ head_block.tail_byte_offset idx.m_data h
        + magic_bytes_required ((pos + 2 ^ 32 - last) % 2 ^ 32) dg
      ≤ BLOCK_SIZE * idx.m_slab_size (head_block.growth_offset idx.m_data h))
    (k : Nat)
    (hk : k = idx.m_slab_size
      (head_block.growth_offset (head_block.increment_growth_offset idx.m_data h) h) % 2 ^ 32)
    (hroom : idx.m_next_empty + k < idx.m_data_size)
    (_ : struct_ptr h + 64 ≤ struct_ptr (idx.m_next_empty % 2 ^ 32))
    (hprev : head_block.tail_block idx.m_data h = h ∨
      (struct_ptr h + 64 ≤ struct_ptr (head_block.tail_block idx.m_data h) ∧
        struct_ptr (head_block.tail_block idx.m_data h) + 64
          ≤ struct_ptr (idx.m_next_empty % 2 ^ 32)))
    (hd : docid < 2 ^ 32) :
    idx.insert_position h docid dg last pos
      = some ({ idx with
          m_next_empty := idx.m_next_empty + k
          m_data := pgrow_mem idx.m_data h docid ((pos + 2 ^ 32 - last) % 2 ^ 32)
            (idx.m_next_empty % 2 ^ 32) },
          [encoder_call.vbyte (pgrow_gap idx.m_data h docid),
            encoder_call.vbyte ((pos + 2 ^ 32 - last) % 2 ^ 32)]) := by
  have e4 : head_block.tail_block (head_block.increment_growth_offset idx.m_data h) h
      = head_block.tail_block idx.m_data h := by
    apply tail_block_congr
    intro x h1 h2
    exact incr_growth_out _ _ _ (by omega)
  have eg : (if head_block.tail_block idx.m_data h = h then docid
      else (docid + 2 ^ 32 - tail_block.first_docid
        (tail_block.init (head_block.increment_growth_offset idx.m_data h)
          (idx.m_next_empty % 2 ^ 32) docid) (head_block.tail_block idx.m_data h) + 1)
        % 2 ^ 32) = pgrow_gap idx.m_data h docid := by
    unfold pgrow_gap
    split_ifs with hp
    · rfl
    · have hp2 := hprev.resolve_left hp
      congr 3
      unfold tail_block.first_docid tail_block.init
      apply read_u32_congr
      intro x h1 h2
      rw [write_u32_out _ _ _ _ (by omega), incr_growth_out _ _ _ (by omega)]
  have hg32 : pgrow_gap idx.m_data h docid < 2 ^ 32 := by
    unfold pgrow_gap
    split_ifs
    · exact hd
    · exact Nat.mod_lt _ (by norm_num)
  have e7 : ∀ mm : Mem, head_block.tail_byte_offset
      (head_block.set_tail_byte_offset mm h TT_PL_OFFSET) h = TT_PL_OFFSET := by
    intro mm
    exact read_u16_write_u16_of_lt _ _ _ (by simp [TT_PL_OFFSET])
  unfold insert_position
  simp only
  rw [if_neg hfit]
  simp only [next_free_slot, ← hk, if_neg (Nat.not_le.2 hroom), e4, eg, e7,
    vbyte_encode_eq _ hg32, vbyte_encode_eq _ (Nat.mod_lt _ (by norm_num : 0 < 2 ^ 32))]
  rfl

theorem pgrow_out (m : Mem) (h docid wg nb x : Nat)
    (ha : x ≠ struct_ptr h + 18)
    (hb : x < struct_ptr nb ∨ struct_ptr nb + 9 ≤ x)
    (hc : x < struct_ptr (head_block.tail_block m h) ∨
      struct_ptr (head_block.tail_block m h) + 4 ≤ x)
    (hd : x < struct_ptr h + 4 ∨ struct_ptr h + 8 ≤ x)
    (he : x < struct_ptr h + 16 ∨ struct_ptr h + 18 ≤ x) :
    pgrow_mem m h docid wg nb x = m x := by
  have l1 := (bytes_required_bounds (pgrow_gap m h docid)).2
  have l2 := (bytes_required_bounds wg).2
  rw [← vbyte_bytes_length] at l1 l2
  unfold pgrow_mem
  simp only [tail_block.init, torso_block.set_next_block, head_block.set_tail_block,
    head_block.set_tail_byte_offset, head_block.advance_tail_byte_offset, TT_PL_OFFSET]
  rw [write_u16_out _ _ _ _ (by omega), write_list_out _ _ _ _ (by omega),
    write_u16_out _ _ _ _ (by omega), write_list_out _ _ _ _ (by omega),
    write_u16_out _ _ _ _ (by omega), write_u32_out _ _ _ _ (by omega),
    write_u32_out _ _ _ _ (by omega), write_u32_out _ _ _ _ (by omega),
    incr_growth_out _ _ _ ha]

theorem pgrow_fields (m : Mem) (h docid wg nb : Nat)
    (hnb : struct_ptr h + 64 ≤ struct_ptr nb)
    (hprev : head_block.tail_block m h = h ∨
      (struct_ptr h + 64 ≤ struct_ptr (head_block.tail_block m h) ∧
        struct_ptr (head_block.tail_block m h) + 64 ≤ struct_ptr nb))
    (hg : head_block.growth_offset m h ≤ 255) (hnb32 : nb < 2 ^ 32) (hd : docid < 2 ^ 32) :
    head_block.growth_offset (pgrow_mem m h docid wg nb) h
      = min (head_block.growth_offset m h + 1) 255 ∧
    head_block.tail_block (pgrow_mem m h docid wg nb) h = nb ∧
    head_block.tail_byte_offset (pgrow_mem m h docid wg nb) h
      = TT_PL_OFFSET + (vbyte_bytes (pgrow_gap m h docid)).length + (vbyte_bytes wg).length ∧
    tail_block.first_docid (pgrow_mem m h docid wg nb) nb = docid := by
  have l1 := bytes_required_bounds (pgrow_gap m h docid)
  have l2 := bytes_required_bounds wg
  rw [← vbyte_bytes_length] at l1 l2
  have hprev2 : struct_ptr (head_block.tail_block m h) = struct_ptr h ∨
      (struct_ptr h + 64 ≤ struct_ptr (head_block.tail_block m h) ∧
        struct_ptr (head_block.tail_block m h) + 64 ≤ struct_ptr nb) :=
    hprev.imp (fun e => congrArg struct_ptr e) id
  unfold pgrow_mem
  simp only [tail_block.init, torso_block.set_next_block, head_block.set_tail_block,
    head_block.set_tail_byte_offset, head_block.advance_tail_byte_offset, TT_PL_OFFSET]
  generalize hm4 : write_u32 (write_u32 (write_u32 (head_block.increment_growth_offset m h)
    (struct_ptr nb) docid) (struct_ptr (head_block.tail_block m h)) nb) (struct_ptr h + 4) nb
    = m4
  have t5 : ∀ mm : Mem, head_block.tail_byte_offset (write_u16 mm (struct_ptr h + 16) 4) h
      = 4 := fun mm => read_u16_write_u16_of_lt _ _ _ (by omega)
  have t5b : head_block.tail_byte_offset (write_list (write_u16 m4 (struct_ptr h + 16) 4)
      (struct_ptr nb + 4) (vbyte_bytes (pgrow_gap m h docid))) h = 4 := by
    refine Eq.trans (tail_byte_offset_congr _ _ h ?_) (t5 m4)
    intro x h1 h2
    exact write_list_out _ _ _ _ (by omega)
  rw [t5b]
  generalize hm6 : write_u16 (write_list (write_u16 m4 (struct_ptr h + 16) 4)
    (struct_ptr nb + 4) (vbyte_bytes (pgrow_gap m h docid))) (struct_ptr h + 16)
    (4 + (vbyte_bytes (pgrow_gap m h docid)).length) = m6
  have t6 : head_block.tail_byte_offset m6 h
      = 4 + (vbyte_bytes (pgrow_gap m h docid)).length := by
    rw [← hm6]
    exact read_u16_write_u16_of_lt _ _ _ (by omega)
  have t6b : head_block.tail_byte_offset (write_list m6 (struct_ptr nb + 4) (vbyte_bytes wg)) h
      = 4 + (vbyte_bytes (pgrow_gap m h docid)).length := by
    refine Eq.trans (tail_byte_offset_congr _ _ h ?_) t6
    intro x h1 h2
    exact write_list_out _ _ _ _ (by omega)
  rw [t6b]
  refine ⟨?_, ?_, ?_, ?_⟩
  · refine Eq.trans (growth_offset_congr (head_block.increment_growth_offset m h) _ h ?_)
      (incr_growth_val m h hg)
    rw [write_u16_out _ _ _ _ (by omega), write_list_out _ _ _ _ (by omega), ← hm6,
      write_u16_out _ _ _ _ (by omega), write_list_out _ _ _ _ (by omega),
      write_u16_out _ _ _ _ (by omega), ← hm4, write_u32_out _ _ _ _ (by omega),
      write_u32_out _ _ _ _ (by omega), write_u32_out _ _ _ _ (by omega)]
  · refine Eq.trans (tail_block_congr m4 _ h ?_)
      (by rw [← hm4]; exact read_u32_write_u32_of_lt _ _ _ hnb32)
    intro x h1 h2
    rw [write_u16_out _ _ _ _ (by omega), write_list_out _ _ _ _ (by omega), ← hm6,
      write_u16_out _ _ _ _ (by omega), write_list_out _ _ _ _ (by omega),
      write_u16_out _ _ _ _ (by omega)]
  · exact read_u16_write_u16_of_lt _ _ _ (by omega)
  · refine Eq.trans (read_u32_congr (write_u32 (head_block.increment_growth_offset m h)
      (struct_ptr nb) docid) _ (struct_ptr nb) ?_) (read_u32_write_u32_of_lt _ _ _ hd)
    intro x h1 h2
    rw [write_u16_out _ _ _ _ (by omega), write_list_out _ _ _ _ (by omega), ← hm6,
      write_u16_out _ _ _ _ (by omega), write_list_out _ _ _ _ (by omega),
      write_u16_out _ _ _ _ (by omega), ← hm4, write_u32_out _ _ _ _ (by omega),
      write_u32_out _ _ _ _ (by omega)]

end

section
open immediate_index

theorem struct_ptr_eq (b : Nat) : struct_ptr b = 64 * b := by
  unfold struct_ptr
  simp only [BLOCK_SIZE]
  omega

/-- Basic facts about the head and the tail of a chain of a positional index. -/
theorem pchain_facts (hash : List Nat → Nat) (idx : immediate_index)
    (chains : Nat → Option PChain) (inv : PInv hash idx chains) (s : Nat) (c : PChain)
    (hc : chains s = some c) :
    (∃ b0, b0 ∈ c.blocks ∧ b0.1 = c.head ∧ 1 ≤ b0.2) ∧ c.tail ∈ c.blocks ∧
    c.tail.2 = idx.m_slab_size (min (c.blocks.length - 1) MAX_SLAB_IDX) ∧ 1 ≤ c.tail.2 ∧
    BLOCK_SIZE * c.tail.2 ≤ 65535 ∧
    (c.blocks.length = 1 → c.tail.1 = c.head) ∧
    (1 < c.blocks.length → struct_ptr c.head + 64 ≤ struct_ptr c.tail.1) ∧
    1 ≤ c.blocks.length ∧ c.head + 1 ≤ idx.m_next_empty ∧
    c.tail.1 + c.tail.2 ≤ idx.m_next_empty ∧ idx.m_next_empty < 2 ^ 32 := by
  have hrep := inv.rep s c hc
  obtain ⟨b0, hb0, hbm, hbh⟩ := pchain_head_mem c hrep.ne
  obtain ⟨ht0, htm⟩ := pchain_tail_mem c hrep.ne
  obtain ⟨w1, w2⟩ := pchain_write_pos _ inv.slabs _ c hrep (inv.ordered s c hc)
  have hs0 := hrep.sizes 0 b0 hb0
  have hst := hrep.sizes _ _ ht0
  have hS0 := inv.slabs (min 0 MAX_SLAB_IDX)
  have hSt := inv.slabs (min (c.blocks.length - 1) MAX_SLAB_IDX)
  have hl := List.length_pos.2 hrep.ne
  have hhl := pchain_head_lt hash idx chains inv s c hc
  have hne := inv.ne_lt
  have hds := inv.dsize
  refine ⟨⟨b0, hbm, hbh.symm, by omega⟩, htm, hst, by omega, by rw [hst]; exact hSt.2, w1, w2,
    hl, hhl, inv.bound s c _ hc htm, by omega⟩

theorem pinv_fit (hash : List Nat → Nat) (idx : immediate_index)
    (chains : Nat → Option PChain) (inv : PInv hash idx chains) (s : Nat) (c : PChain)
    (hc : chains s = some c) (wg dg : Nat)
    (hfit : head_block.tail_byte_offset idx.m_data c.head + (magic_bytes wg dg).length
      ≤ BLOCK_SIZE * c.tail.2) :
    PInv hash { idx with m_data := pfit_mem idx.m_data c.head wg dg } chains := by
  have hrep := inv.rep s c hc
  obtain ⟨⟨b0, hb0m, hb0h, hb01⟩, htm, hts, ht1, ht65, w1, w2, hl, hhl, htb, hne32⟩ :=
    pchain_facts hash idx chains inv s c hc
  have hlen := hrep.term_len
  simp only [HEAD_BYTES] at hlen
  have htail := hrep.tail
  -- the write position lies beyond the header of the chain
  have hP : struct_ptr c.head + 20 + c.term.length
      ≤ struct_ptr c.tail.1 + head_block.tail_byte_offset idx.m_data c.head := by
    by_cases h1 : c.blocks.length = 1
    · have := hrep.off_head h1
      simp only [HEAD_PL_OFFSET] at this
      rw [w1 h1]
      omega
    · have := w2 (by omega)
      omega
  have hP2 : 1 < c.blocks.length → struct_ptr c.tail.1 + 4
      ≤ struct_ptr c.tail.1 + head_block.tail_byte_offset idx.m_data c.head := by
    intro h1
    have := (hrep.off_tail h1).1
    simp only [TT_PL_OFFSET] at this
    omega
  have hout : ∀ x, (x < struct_ptr c.head + 16 ∨ struct_ptr c.head + 18 ≤ x) →
      (x < struct_ptr c.tail.1 + head_block.tail_byte_offset idx.m_data c.head ∨
        struct_ptr c.tail.1 + head_block.tail_byte_offset idx.m_data c.head
          + (magic_bytes wg dg).length ≤ x) →
      pfit_mem idx.m_data c.head wg dg x = idx.m_data x := by
    intro x h1 h2
    apply pfit_out _ _ _ _ _ h1
    rw [htail]
    exact h2
  have hoff := pfit_off idx.m_data c.head wg dg (by rw [htail]; omega) (by omega)
  refine ⟨inv.slabs, inv.hsize, inv.dsize, inv.ne_lt, inv.dir_none, inv.dir_out, inv.dir_some,
    ?_, inv.bound, inv.disj, inv.ordered, inv.probe, inv.distinct⟩
  intro s2 c2 hc2
  by_cases hs : s2 = s
  · rw [hs, hc] at hc2
    cases hc2
    refine ⟨hrep.ne, hrep.term_len, hrep.term_ch, ?_, ?_, hrep.doc1, hrep.doc32, ?_, ?_, ?_,
      hrep.sizes, ?_, ?_, ?_⟩
    · show head_block.word_length (pfit_mem idx.m_data c.head wg dg) c.head = _
      rw [word_length_congr _ _ _ (hout _ (by omega) (by omega))]
      exact hrep.wlen
    · show holds (pfit_mem idx.m_data c.head wg dg) _ _
      apply holds_congr _ _ _ _ hrep.term
      intro a h1 h2
      simp only [HEAD_PL_OFFSET] at h1 h2
      exact hout a (by omega) (by omega)
    · show head_block.recent_docid (pfit_mem idx.m_data c.head wg dg) c.head + 1 = _
      rw [recent_docid_congr _ _ _ (fun x h1 h2 => hout x (by omega) (by omega))]
      exact hrep.recent
    · show head_block.growth_offset (pfit_mem idx.m_data c.head wg dg) c.head = _
      rw [growth_offset_congr _ _ _ (hout _ (by omega) (by omega))]
      exact hrep.growth
    · show head_block.tail_block (pfit_mem idx.m_data c.head wg dg) c.head = _
      rw [tail_block_congr _ _ _ (fun x h1 h2 => hout x (by omega) (by omega))]
      exact hrep.tail
    · show head_block.tail_byte_offset (pfit_mem idx.m_data c.head wg dg) c.head ≤ _
      rw [hoff]
      exact hfit
    · intro h1
      show _ ≤ head_block.tail_byte_offset (pfit_mem idx.m_data c.head wg dg) c.head
      rw [hoff]
      have := hrep.off_head h1
      omega
    · intro h1
      show _ ≤ head_block.tail_byte_offset (pfit_mem idx.m_data c.head wg dg) c.head ∧
        1 ≤ tail_block.first_docid (pfit_mem idx.m_data c.head wg dg) c.tail.1 ∧
        tail_block.first_docid (pfit_mem idx.m_data c.head wg dg) c.tail.1 ≤ _
      have e : tail_block.first_docid (pfit_mem idx.m_data c.head wg dg) c.tail.1
          = tail_block.first_docid idx.m_data c.tail.1 := by
        apply read_u32_congr
        intro x h3 h4
        have := w2 h1
        have := hP2 h1
        exact hout x (by omega) (by omega)
      rw [hoff, e]
      have := hrep.off_tail h1
      exact ⟨by omega, this.2⟩
  · have hrep2 := inv.rep s2 c2 hc2
    apply PChainRep_frame _ inv.slabs _ _ c2 hrep2
    intro b hb x h1 h2
    have d0 := inv.disj s2 s c2 c b b0 hc2 hc hs hb hb0m
    have dt := inv.disj s2 s c2 c b c.tail hc2 hc hs hb htm
    simp only [BLOCK_SIZE] at h2 hfit
    rw [struct_ptr_eq] at h1 h2
    apply hout x
    · rw [struct_ptr_eq, ← hb0h]
      omega
    · rw [struct_ptr_eq]
      omega

end

section
open immediate_index

theorem pchain_snoc (c : PChain) (b : Nat × Nat) (hne : c.blocks ≠ []) :
    (⟨c.term, c.blocks ++ [b], c.last_docid⟩ : PChain).head = c.head ∧
    (⟨c.term, c.blocks ++ [b], c.last_docid⟩ : PChain).tail = b := by
  constructor
  · unfold PChain.head
    cases hb : c.blocks with
    | nil => exact absurd hb hne
    | cons x rest => rfl
  · unfold PChain.tail
    simp

theorem pinv_grow (hash : List Nat → Nat) (idx : immediate_index)
    (chains : Nat → Option PChain) (inv : PInv hash idx chains) (s : Nat) (c : PChain)
    (hc : chains s = some c) (wg k : Nat)
    (hk : k = idx.m_slab_size (min c.blocks.length MAX_SLAB_IDX))
    (hroom : idx.m_next_empty + k < idx.m_data_size) :
    PInv hash { idx with
        m_next_empty := idx.m_next_empty + k
        m_data := pgrow_mem idx.m_data c.head c.last_docid wg idx.m_next_empty }
      (Function.update chains s (some ⟨c.term, c.blocks ++ [(idx.m_next_empty, k)],
        c.last_docid⟩)) := by
  have hrep := inv.rep s c hc
  obtain ⟨⟨b0, hb0m, hb0h, hb01⟩, htm, hts, ht1, ht65, w1, w2, hl, hhl, htb, hne32⟩ :=
    pchain_facts hash idx chains inv s c hc
  obtain ⟨sh, st⟩ := pchain_snoc c (idx.m_next_empty, k) hrep.ne
  have hlen := hrep.term_len
  simp only [HEAD_BYTES] at hlen
  have htail := hrep.tail
  have hk1 := inv.slabs (min c.blocks.length MAX_SLAB_IDX)
  rw [← hk] at hk1
  have hnb : struct_ptr c.head + 64 ≤ struct_ptr idx.m_next_empty := by
    rw [struct_ptr_eq, struct_ptr_eq]
    omega
  have hprev : head_block.tail_block idx.m_data c.head = c.head ∨
      (struct_ptr c.head + 64 ≤ struct_ptr (head_block.tail_block idx.m_data c.head) ∧
        struct_ptr (head_block.tail_block idx.m_data c.head) + 64
          ≤ struct_ptr idx.m_next_empty) := by
    rw [htail]
    by_cases h1 : c.blocks.length = 1
    · exact Or.inl (w1 h1)
    · refine Or.inr ⟨w2 (by omega), ?_⟩
      rw [struct_ptr_eq, struct_ptr_eq]
      omega
  have hg : head_block.growth_offset idx.m_data c.head ≤ 255 := by
    rw [hrep.growth]
    simp only [MAX_SLAB_IDX]
    omega
  obtain ⟨g1, g2, g3, g4⟩ := pgrow_fields idx.m_data c.head c.last_docid wg idx.m_next_empty
    hnb hprev hg hne32 hrep.doc32
  have l1 := bytes_required_bounds (pgrow_gap idx.m_data c.head c.last_docid)
  have l2 := bytes_required_bounds wg
  rw [← vbyte_bytes_length] at l1 l2
  -- what the grow path leaves untouched
  have hout : ∀ x, x ≠ struct_ptr c.head + 18 →
      (x < struct_ptr idx.m_next_empty ∨ struct_ptr idx.m_next_empty + 9 ≤ x) →
      (x < struct_ptr c.tail.1 ∨ struct_ptr c.tail.1 + 4 ≤ x) →
      (x < struct_ptr c.head + 4 ∨ struct_ptr c.head + 8 ≤ x) →
      (x < struct_ptr c.head + 16 ∨ struct_ptr c.head + 18 ≤ x) →
      pgrow_mem idx.m_data c.head c.last_docid wg idx.m_next_empty x = idx.m_data x := by
    intro x ha hb hcc hd he
    exact pgrow_out _ _ _ _ _ _ ha hb (by rw [htail]; exact hcc) hd he
  have htl : struct_ptr c.tail.1 = struct_ptr c.head ∨
      struct_ptr c.head + 64 ≤ struct_ptr c.tail.1 := by
    by_cases h1 : c.blocks.length = 1
    · exact Or.inl (by rw [w1 h1])
    · exact Or.inr (w2 (by omega))
  refine ⟨inv.slabs, inv.hsize, inv.dsize, Or.inr hroom, ?_, ?_, ?_, ?_, ?_, ?_, ?_, ?_, ?_⟩
  · intro s2 h2 hs2
    by_cases hs : s2 = s
    · rw [hs, Function.update_same] at h2
      cases h2
    · rw [Function.update_noteq hs] at h2
      exact inv.dir_none s2 h2 hs2
  · intro s2 hs2
    by_cases hs : s2 = s
    · rw [hs] at hs2
      have := inv.dir_out s hs2
      rw [hc] at this
      cases this
    · rw [Function.update_noteq hs]
      exact inv.dir_out s2 hs2
  · intro s2 c2 h2
    by_cases hs : s2 = s
    · rw [hs, Function.update_same] at h2
      cases h2
      rw [hs, sh]
      exact inv.dir_some s c hc
    · rw [Function.update_noteq hs] at h2
      exact inv.dir_some s2 c2 h2
  · intro s2 c2 h2
    by_cases hs : s2 = s
    · rw [hs, Function.update_same] at h2
      cases h2
      have hlen2 : (c.blocks ++ [(idx.m_next_empty, k)]).length = c.blocks.length + 1 := by
        simp
      refine ⟨by simp, hrep.term_len, hrep.term_ch, ?_, ?_, hrep.doc1, hrep.doc32, ?_, ?_, ?_,
        ?_, ?_, ?_, ?_⟩
      · rw [sh]
        show head_block.word_length (pgrow_mem _ _ _ _ _) c.head = _
        rw [word_length_congr _ _ _ (hout _ (by omega) (by omega) (by omega) (by omega)
          (by omega))]
        exact hrep.wlen
      · rw [sh]
        show holds (pgrow_mem _ _ _ _ _) _ _
        apply holds_congr _ _ _ _ hrep.term
        intro a h1 h2
        simp only [HEAD_PL_OFFSET] at h1 h2
        exact hout a (by omega) (by omega) (by omega) (by omega) (by omega)
      · rw [sh]
        show head_block.recent_docid (pgrow_mem _ _ _ _ _) c.head + 1 = _
        rw [recent_docid_congr _ _ _ (fun x h1 h2 => hout x (by omega) (by omega) (by omega)
          (by omega) (by omega))]
        exact hrep.recent
      · rw [sh]
        show head_block.growth_offset (pgrow_mem _ _ _ _ _) c.head = _
        rw [g1, hrep.growth]
        show _ = min ((c.blocks ++ [(idx.m_next_empty, k)]).length - 1) MAX_SLAB_IDX
        rw [hlen2]
        simp only [MAX_SLAB_IDX]
        omega
      · rw [sh, st]
        exact g2
      · intro j b hj
        by_cases hjl : j < c.blocks.length
        · have e : (c.blocks ++ [(idx.m_next_empty, k)])[j]? = c.blocks[j]? :=
            List.getElem?_append_left hjl
          rw [show (⟨c.term, c.blocks ++ [(idx.m_next_empty, k)], c.last_docid⟩
            : PChain).blocks[j]? = c.blocks[j]? from e] at hj
          exact hrep.sizes j b hj
        · have hjl2 : j < (c.blocks ++ [(idx.m_next_empty, k)]).length := by
            by_contra hcon
            have := List.getElem?_eq_none_iff.2 (Nat.le_of_not_lt hcon)
            rw [show (⟨c.term, c.blocks ++ [(idx.m_next_empty, k)], c.last_docid⟩
              : PChain).blocks[j]? = (c.blocks ++ [(idx.m_next_empty, k)])[j]? from rfl] at hj
            rw [this] at hj
            cases hj
          rw [hlen2] at hjl2
          have hje : j = c.blocks.length := by omega
          have e : (c.blocks ++ [(idx.m_next_empty, k)])[j]? = some (idx.m_next_empty, k) := by
            rw [hje]
            simp
          rw [show (⟨c.term, c.blocks ++ [(idx.m_next_empty, k)], c.last_docid⟩
            : PChain).blocks[j]? = (c.blocks ++ [(idx.m_next_empty, k)])[j]? from rfl, e] at hj
          cases hj
          rw [hje]
          exact hk
      · rw [sh, st]
        show head_block.tail_byte_offset (pgrow_mem _ _ _ _ _) c.head ≤ _
        rw [g3]
        simp only [TT_PL_OFFSET, BLOCK_SIZE]
        omega
      · intro h1
        rw [show (⟨c.term, c.blocks ++ [(idx.m_next_empty, k)], c.last_docid⟩
          : PChain).blocks.length = (c.blocks ++ [(idx.m_next_empty, k)]).length from rfl,
          hlen2] at h1
        omega
      · intro _
        rw [sh, st]
        show _ ≤ head_block.tail_byte_offset (pgrow_mem _ _ _ _ _) c.head ∧
          1 ≤ tail_block.first_docid (pgrow_mem _ _ _ _ _) idx.m_next_empty ∧
          tail_block.first_docid (pgrow_mem _ _ _ _ _) idx.m_next_empty ≤ c.last_docid
        rw [g3, g4]
        exact ⟨by omega, hrep.doc1, Nat.le_refl _⟩
    · rw [Function.update_noteq hs] at h2
      have hrep2 := inv.rep s2 c2 h2
      apply PChainRep_frame _ inv.slabs _ _ c2 hrep2
      intro b hb x h1 h3
      have d0 := inv.disj s2 s c2 c b b0 h2 hc hs hb hb0m
      have dt := inv.disj s2 s c2 c b c.tail h2 hc hs hb htm
      have bb := inv.bound s2 c2 b h2 hb
      simp only [BLOCK_SIZE] at h3
      rw [struct_ptr_eq] at h1 h3
      apply hout x
      · rw [struct_ptr_eq, ← hb0h]
        omega
      · rw [struct_ptr_eq]
        omega
      · rw [struct_ptr_eq]
        omega
      · rw [struct_ptr_eq, ← hb0h]
        omega
      · rw [struct_ptr_eq, ← hb0h]
        omega
  · intro s2 c2 b h2 hb
    by_cases hs : s2 = s
    · rw [hs, Function.update_same] at h2
      cases h2
      rcases List.mem_append.1 hb with hb | hb
      · have := inv.bound s c b hc hb
        show b.1 + b.2 ≤ idx.m_next_empty + k
        omega
      · rw [List.mem_singleton.1 hb]
    · rw [Function.update_noteq hs] at h2
      have := inv.bound s2 c2 b h2 hb
      show b.1 + b.2 ≤ idx.m_next_empty + k
      omega
  · intro s1 s2 c1 c2 b1 b2 h1 h2 hne hb1 hb2
    by_cases hs1 : s1 = s
    · rw [hs1, Function.update_same] at h1
      cases h1
      have hs2 : s2 ≠ s := fun e => hne (hs1.trans e.symm)
      rw [Function.update_noteq hs2] at h2
      rcases List.mem_append.1 hb1 with hb | hb
      · exact inv.disj s s2 c c2 b1 b2 hc h2 (fun e => hs2 e.symm) hb hb2
      · rw [List.mem_singleton.1 hb]
        exact Or.inr (inv.bound s2 c2 b2 h2 hb2)
    · rw [Function.update_noteq hs1] at h1
      by_cases hs2 : s2 = s
      · rw [hs2, Function.update_same] at h2
        cases h2
        rcases List.mem_append.1 hb2 with hb | hb
        · exact inv.disj s1 s c1 c b1 b2 h1 hc hs1 hb1 hb
        · rw [List.mem_singleton.1 hb]
          exact Or.inl (inv.bound s1 c1 b1 h1 hb1)
      · rw [Function.update_noteq hs2] at h2
        exact inv.disj s1 s2 c1 c2 b1 b2 h1 h2 hne hb1 hb2
  · intro s2 c2 h2
    by_cases hs : s2 = s
    · rw [hs, Function.update_same] at h2
      cases h2
      show (c.blocks ++ [(idx.m_next_empty, k)]).Pairwise _
      rw [List.pairwise_append]
      refine ⟨inv.ordered s c hc, List.pairwise_singleton _ _, ?_⟩
      intro a ha b hb
      rw [List.mem_singleton.1 hb]
      exact inv.bound s c a hc ha
    · rw [Function.update_noteq hs] at h2
      exact inv.ordered s2 c2 h2
  · intro s2 c2 h2
    by_cases hs : s2 = s
    · rw [hs, Function.update_same] at h2
      cases h2
      rw [hs]
      exact inv.probe s c hc
    · rw [Function.update_noteq hs] at h2
      exact inv.probe s2 c2 h2
  · intro s1 s2 c1 c2 h1 h2 ht
    have key : ∀ s0 c0, Function.update chains s (some (⟨c.term,
        c.blocks ++ [(idx.m_next_empty, k)], c.last_docid⟩ : PChain)) s0 = some c0 →
        ∃ c3, chains s0 = some c3 ∧ c3.term = c0.term := by
      intro s0 c0 h0
      by_cases hs : s0 = s
      · rw [hs, Function.update_same] at h0
        cases h0
        exact ⟨c, by rw [hs]; exact hc, rfl⟩
      · rw [Function.update_noteq hs] at h0
        exact ⟨c0, h0, rfl⟩
    obtain ⟨c3, h3, e3⟩ := key s1 c1 h1
    obtain ⟨c4, h4, e4⟩ := key s2 c2 h2
    exact inv.distinct s1 s2 c3 c4 h3 h4 (by rw [e3, e4]; exact ht)

end

section
open immediate_index

theorem insert_position_full (idx : immediate_index) (h docid dg last pos : Nat)
    (hfit : ¬ head_block.tail_byte_offset idx.m_data h
        + magic_bytes_required ((pos + 2 ^ 32 - last) % 2 ^ 32) dg
      ≤ BLOCK_SIZE * idx.m_slab_size (head_block.growth_offset idx.m_data h))
    (k : Nat)
    (hk : k = idx.m_slab_size
      (head_block.growth_offset (head_block.increment_growth_offset idx.m_data h) h) % 2 ^ 32)
    (hroom : ¬ idx.m_next_empty + k < idx.m_data_size) :
    idx.insert_position h docid dg last pos = none := by
  unfold insert_position
  simp only
  rw [if_neg hfit]
  simp only [next_free_slot, ← hk, if_pos (Nat.not_lt.1 hroom)]

/-- One round of the loop of `insert_positions` on an index with the invariant, for the chain
of the call: the invariant is kept, with the same term and last docid on the chain, and every
argument the round passes to an encoder is at least one; the docgap passed to `encode_magic`
is the one the round was entered with. -/
theorem pinv_round (hash : List Nat → Nat) (idx : immediate_index)
    (chains : Nat → Option PChain) (inv : PInv hash idx chains) (s : Nat) (c : PChain)
    (hc : chains s = some c) (dg last pos : Nat) (hdg : 1 ≤ dg) (hlp : last < pos)
    (hp32 : pos < 2 ^ 32) (res : immediate_index × List encoder_call)
    (h : idx.insert_position c.head c.last_docid dg last pos = some res) :
    ∃ c2, PInv hash res.1 (Function.update chains s (some c2)) ∧ c2.head = c.head ∧
      c2.term = c.term ∧ c2.last_docid = c.last_docid ∧
      (∀ call ∈ res.2, ∀ x ∈ call.args, 1 ≤ x) ∧
      (∀ w g, encoder_call.magic w g ∈ res.2 → g = dg) := by
  have hrep := inv.rep s c hc
  obtain ⟨⟨b0, hb0m, hb0h, hb01⟩, htm, hts, ht1, ht65, w1, w2, hl, hhl, htb, hne32⟩ :=
    pchain_facts hash idx chains inv s c hc
  have hwg : (pos + 2 ^ 32 - last) % 2 ^ 32 = pos - last := by omega
  by_cases hfit : head_block.tail_byte_offset idx.m_data c.head
        + magic_bytes_required ((pos + 2 ^ 32 - last) % 2 ^ 32) dg
      ≤ BLOCK_SIZE * idx.m_slab_size (head_block.growth_offset idx.m_data c.head)
  · rw [insert_position_fit idx c.head _ dg last pos hfit] at h
    cases h
    rw [hrep.growth, ← hts, ← magic_bytes_length] at hfit
    refine ⟨c, ?_, rfl, rfl, rfl, ?_, ?_⟩
    · have e : Function.update chains s (some c) = chains := by
        rw [← hc]
        exact Function.update_eq_self s chains
      rw [e]
      exact pinv_fit hash idx chains inv s c hc _ dg hfit
    · intro call hcall x hx
      rw [List.mem_singleton.1 hcall] at hx
      simp only [encoder_call.args, List.mem_cons, List.mem_singleton, List.not_mem_nil,
        or_false] at hx
      rcases hx with e | e
      · rw [e, hwg]
        omega
      · rw [e]
        exact hdg
    · intro w g hm
      have := List.mem_singleton.1 hm
      cases this
      rfl
  · have hg : head_block.growth_offset
          (head_block.increment_growth_offset idx.m_data c.head) c.head
        = min c.blocks.length MAX_SLAB_IDX := by
      rw [incr_growth_val _ _ (by rw [hrep.growth]; simp only [MAX_SLAB_IDX]; omega),
        hrep.growth]
      simp only [MAX_SLAB_IDX]
      omega
    have hk1 := inv.slabs (min c.blocks.length MAX_SLAB_IDX)
    have hkm : idx.m_slab_size (min c.blocks.length MAX_SLAB_IDX) % 2 ^ 32
        = idx.m_slab_size (min c.blocks.length MAX_SLAB_IDX) := by
      apply Nat.mod_eq_of_lt
      simp only [BLOCK_SIZE] at hk1
      omega
    have hne : idx.m_next_empty % 2 ^ 32 = idx.m_next_empty := Nat.mod_eq_of_lt hne32
    by_cases hroom : idx.m_next_empty
        + idx.m_slab_size (min c.blocks.length MAX_SLAB_IDX) < idx.m_data_size
    · have hnb : struct_ptr c.head + 64 ≤ struct_ptr (idx.m_next_empty % 2 ^ 32) := by
        rw [hne, struct_ptr_eq, struct_ptr_eq]
        omega
      have hprev : head_block.tail_block idx.m_data c.head = c.head ∨
          (struct_ptr c.head + 64 ≤ struct_ptr (head_block.tail_block idx.m_data c.head) ∧
            struct_ptr (head_block.tail_block idx.m_data c.head) + 64
              ≤ struct_ptr (idx.m_next_empty % 2 ^ 32)) := by
        rw [hrep.tail, hne]
        by_cases h1 : c.blocks.length = 1
        · exact Or.inl (w1 h1)
        · refine Or.inr ⟨w2 (by omega), ?_⟩
          rw [struct_ptr_eq, struct_ptr_eq]
          omega
      rw [insert_position_grow idx c.head _ dg last pos hfit _ (by rw [hg, hkm]) hroom hnb
        hprev hrep.doc32, hne] at h
      cases h
      obtain ⟨sh, st⟩ := pchain_snoc c (idx.m_next_empty,
        idx.m_slab_size (min c.blocks.length MAX_SLAB_IDX)) hrep.ne
      refine ⟨⟨c.term, c.blocks ++ [(idx.m_next_empty,
        idx.m_slab_size (min c.blocks.length MAX_SLAB_IDX))], c.last_docid⟩, ?_, sh, rfl, rfl,
        ?_, ?_⟩
      · exact pinv_grow hash idx chains inv s c hc _ _ rfl hroom
      · intro call hcall x hx
        simp only [List.mem_cons, List.mem_singleton, List.not_mem_nil, or_false] at hcall
        rcases hcall with e | e
        · rw [e] at hx
          simp only [encoder_call.args, List.mem_singleton] at hx
          rw [hx]
          unfold pgrow_gap
          rw [hrep.tail]
          by_cases h1 : c.blocks.length = 1
          · rw [if_pos (w1 h1)]
            exact hrep.doc1
          · have hw := w2 (by omega)
            have hne2 : c.tail.1 ≠ c.head := by
              intro e2
              rw [e2] at hw
              omega
            rw [if_neg hne2]
            obtain ⟨_, f1, f2⟩ := hrep.off_tail (by omega)
            have hd32 := hrep.doc32
            unfold tail_block.first_docid at f1 f2
            omega
        · rw [e] at hx
          simp only [encoder_call.args, List.mem_singleton] at hx
          rw [hx, hwg]
          omega
      · intro w g hm
        simp only [List.mem_cons, List.mem_singleton, List.not_mem_nil, or_false] at hm
        rcases hm with e | e <;> cases e
    · rw [insert_position_full idx c.head _ dg last pos hfit _ (by rw [hg, hkm]) hroom] at h
      cases h

end

section
open immediate_index

/-- The header update of `insert_positions` (lines 367-372) on the head of an existing chain:
the invariant holds with the docid of the call as last docid. -/
theorem pinv_old_head (hash : List Nat → Nat) (idx : immediate_index)
    (chains : Nat → Option PChain) (inv : PInv hash idx chains) (s : Nat) (c : PChain)
    (hc : chains s = some c) (d : Nat) (hd : c.last_docid < d) (hd32 : d < 2 ^ 32) :
    PInv hash { idx with m_data := head_upd idx.m_data c.head ((d + 2 ^ 32 - 1) % 2 ^ 32) }
      (Function.update chains s (some ⟨c.term, c.blocks, d⟩)) := by
  have hrep := inv.rep s c hc
  obtain ⟨⟨b0, hb0m, hb0h, hb01⟩, htm, hts, ht1, ht65, w1, w2, hl, hhl, htb, hne32⟩ :=
    pchain_facts hash idx chains inv s c hc
  have hlen := hrep.term_len
  simp only [HEAD_BYTES] at hlen
  obtain ⟨f1, f2, f3, _, f5⟩ := head_upd_fields idx.m_data c.head ((d + 2 ^ 32 - 1) % 2 ^ 32)
  have hout : ∀ x, (x < struct_ptr c.head + 8 ∨ struct_ptr c.head + 16 ≤ x) →
      head_upd idx.m_data c.head ((d + 2 ^ 32 - 1) % 2 ^ 32) x = idx.m_data x :=
    fun x hx => head_upd_out _ _ _ _ hx
  have hd1 := hrep.doc1
  have key : ∀ s0 c0, Function.update chains s (some (⟨c.term, c.blocks, d⟩ : PChain)) s0
      = some c0 → ∃ c3, chains s0 = some c3 ∧ c3.term = c0.term ∧ c3.blocks = c0.blocks ∧
        (s0 ≠ s → c3 = c0) := by
    intro s0 c0 h0
    by_cases hs : s0 = s
    · rw [hs, Function.update_same] at h0
      cases h0
      exact ⟨c, by rw [hs]; exact hc, rfl, rfl, fun h => absurd hs h⟩
    · rw [Function.update_noteq hs] at h0
      exact ⟨c0, h0, rfl, rfl, fun _ => rfl⟩
  refine ⟨inv.slabs, inv.hsize, inv.dsize, inv.ne_lt, ?_, ?_, ?_, ?_, ?_, ?_, ?_, ?_, ?_⟩
  · intro s2 h2 hs2
    by_cases hs : s2 = s
    · rw [hs, Function.update_same] at h2
      cases h2
    · rw [Function.update_noteq hs] at h2
      exact inv.dir_none s2 h2 hs2
  · intro s2 hs2
    by_cases hs : s2 = s
    · rw [hs] at hs2
      have := inv.dir_out s hs2
      rw [hc] at this
      cases this
    · rw [Function.update_noteq hs]
      exact inv.dir_out s2 hs2
  · intro s2 c2 h2
    obtain ⟨c3, h3, _, e3, _⟩ := key s2 c2 h2
    have := inv.dir_some s2 c3 h3
    unfold PChain.head at this ⊢
    rw [← e3]
    exact this
  · intro s2 c2 h2
    by_cases hs : s2 = s
    · rw [hs, Function.update_same] at h2
      cases h2
      have hh : (⟨c.term, c.blocks, d⟩ : PChain).head = c.head := rfl
      have ht : (⟨c.term, c.blocks, d⟩ : PChain).tail = c.tail := rfl
      refine ⟨hrep.ne, hrep.term_len, hrep.term_ch, ?_, ?_, by show 1 ≤ d; omega, hd32, ?_, ?_,
        ?_, hrep.sizes, ?_, ?_, ?_⟩
      · rw [hh]
        show head_block.word_length (head_upd _ _ _) c.head = _
        rw [word_length_congr _ _ _ (hout _ (by omega))]
        exact hrep.wlen
      · rw [hh]
        show holds (head_upd _ _ _) _ _
        apply holds_congr _ _ _ _ hrep.term
        intro a h1 h2
        simp only [HEAD_PL_OFFSET] at h1 h2
        exact hout a (by omega)
      · rw [hh]
        show head_block.recent_docid (head_upd _ _ _) c.head + 1 = d
        rw [f5]
        omega
      · rw [hh]
        show head_block.growth_offset (head_upd _ _ _) c.head = _
        rw [f3]
        exact hrep.growth
      · rw [hh, ht]
        show head_block.tail_block (head_upd _ _ _) c.head = _
        rw [f1]
        exact hrep.tail
      · rw [hh, ht]
        show head_block.tail_byte_offset (head_upd _ _ _) c.head ≤ _
        rw [f2]
        exact hrep.off_le
      · intro h1
        rw [hh]
        show _ ≤ head_block.tail_byte_offset (head_upd _ _ _) c.head
        rw [f2]
        exact hrep.off_head h1
      · intro h1
        rw [hh, ht]
        show _ ≤ head_block.tail_byte_offset (head_upd _ _ _) c.head ∧
          1 ≤ tail_block.first_docid (head_upd _ _ _) c.tail.1 ∧
          tail_block.first_docid (head_upd _ _ _) c.tail.1 ≤ d
        have e : tail_block.first_docid (head_upd idx.m_data c.head
            ((d + 2 ^ 32 - 1) % 2 ^ 32)) c.tail.1 = tail_block.first_docid idx.m_data c.tail.1 := by
          apply read_u32_congr
          intro x h3 h4
          have := w2 h1
          exact hout x (by omega)
        rw [f2, e]
        obtain ⟨o1, o2, o3⟩ := hrep.off_tail h1
        exact ⟨o1, o2, by omega⟩
    · rw [Function.update_noteq hs] at h2
      have hrep2 := inv.rep s2 c2 h2
      apply PChainRep_frame _ inv.slabs _ _ c2 hrep2
      intro b hb x h1 h3
      have d0 := inv.disj s2 s c2 c b b0 h2 hc hs hb hb0m
      simp only [BLOCK_SIZE] at h3
      rw [struct_ptr_eq] at h1 h3
      apply hout x
      rw [struct_ptr_eq, ← hb0h]
      omega
  · intro s2 c2 b h2 hb
    obtain ⟨c3, h3, _, e3, _⟩ := key s2 c2 h2
    exact inv.bound s2 c3 b h3 (by rw [e3]; exact hb)
  · intro s1 s2 c1 c2 b1 b2 h1 h2 hne hb1 hb2
    obtain ⟨c3, h3, _, e3, _⟩ := key s1 c1 h1
    obtain ⟨c4, h4, _, e4, _⟩ := key s2 c2 h2
    exact inv.disj s1 s2 c3 c4 b1 b2 h3 h4 hne (by rw [e3]; exact hb1) (by rw [e4]; exact hb2)
  · intro s2 c2 h2
    obtain ⟨c3, h3, _, e3, _⟩ := key s2 c2 h2
    rw [← e3]
    exact inv.ordered s2 c3 h3
  · intro s2 c2 h2
    obtain ⟨c3, h3, e3, _, _⟩ := key s2 c2 h2
    rw [← e3]
    exact inv.probe s2 c3 h3
  · intro s1 s2 c1 c2 h1 h2 ht
    obtain ⟨c3, h3, e3, _, _⟩ := key s1 c1 h1
    obtain ⟨c4, h4, e4, _, _⟩ := key s2 c2 h2
    exact inv.distinct s1 s2 c3 c4 h3 h4 (by rw [e3, e4]; exact ht)

/-- The first part of `insert_positions` for a new term (lines 357-372): a head block is
granted, entered in the directory and initialised, and the header update leaves the invariant
with a one-block chain whose last docid is the docid of the call. -/
theorem pinv_new_head (hash : List Nat → Nat) (idx : immediate_index)
    (chains : Nat → Option PChain) (inv : PInv hash idx chains) (t : List Nat)
    (htl : t.length ≤ HEAD_BYTES) (htc : ∀ x ∈ t, x < 256)
    (habs : ∀ s c, chains s = some c → c.term ≠ t) (e : Nat)
    (he : idx.m_term_offsets e = END_CHAIN) (heH : e < idx.m_term_offsets_size)
    (hce : chains e = none) (hpath : ProbePath hash idx t e)
    (hroom : idx.m_next_empty + idx.m_slab_size 0 < idx.m_data_size)
    (d : Nat) (hd1 : 1 ≤ d) (hd32 : d < 2 ^ 32) :
    PInv hash
      { idx with
        m_next_empty := idx.m_next_empty + idx.m_slab_size 0
        m_term_offsets := Function.update idx.m_term_offsets e idx.m_next_empty
        m_data := head_upd (head_block.init idx.m_data idx.m_next_empty t idx.m_next_empty)
          idx.m_next_empty ((d + 2 ^ 32 - 1) % 2 ^ 32) }
      (Function.update chains e (some ⟨t, [(idx.m_next_empty, idx.m_slab_size 0)], d⟩)) := by
  have hdsz := inv.dsize
  have hS0 := inv.slabs 0
  have hne32 : idx.m_next_empty < 2 ^ 32 := by omega
  have hlen := htl
  simp only [HEAD_BYTES] at hlen
  obtain ⟨i1, i2, i3, i4, i5, i6, i7, i8⟩ := init_fields idx.m_data idx.m_next_empty t hlen htc
    hne32
  obtain ⟨f1, f2, f3, _, f5⟩ := head_upd_fields
    (head_block.init idx.m_data idx.m_next_empty t idx.m_next_empty) idx.m_next_empty
    ((d + 2 ^ 32 - 1) % 2 ^ 32)
  have hout : ∀ x, x < struct_ptr idx.m_next_empty →
      head_upd (head_block.init idx.m_data idx.m_next_empty t idx.m_next_empty)
        idx.m_next_empty ((d + 2 ^ 32 - 1) % 2 ^ 32) x = idx.m_data x := by
    intro x hx
    rw [head_upd_out _ _ _ _ (by omega), init_out _ _ _ _ (by omega)]
  constructor
  · exact inv.slabs
  · exact inv.hsize
  · exact inv.dsize
  · exact Or.inr hroom
  · intro s2 h2 hlt
    by_cases hs : s2 = e
    · subst hs
      simp at h2
    · rw [Function.update_noteq hs] at h2
      show Function.update idx.m_term_offsets e idx.m_next_empty s2 = END_CHAIN
      rw [Function.update_noteq hs]
      exact inv.dir_none s2 h2 hlt
  · intro s2 hle
    have hs : s2 ≠ e := by
      intro e1
      subst e1
      exact absurd heH (Nat.not_lt.2 hle)
    rw [Function.update_noteq hs]
    exact inv.dir_out s2 hle
  · intro s2 c2 h2
    show Function.update idx.m_term_offsets e idx.m_next_empty s2 = c2.head
    by_cases hs : s2 = e
    · subst hs
      simp only [Function.update_same, Option.some.injEq] at h2
      subst h2
      rw [Function.update_same]
      rfl
    · rw [Function.update_noteq hs] at h2 ⊢
      exact inv.dir_some s2 c2 h2
  · intro s2 c2 h2
    by_cases hs : s2 = e
    · subst hs
      simp only [Function.update_same, Option.some.injEq] at h2
      subst h2
      have hh : (⟨t, [(idx.m_next_empty, idx.m_slab_size 0)], d⟩ : PChain).head
          = idx.m_next_empty := rfl
      have ht : (⟨t, [(idx.m_next_empty, idx.m_slab_size 0)], d⟩ : PChain).tail
          = (idx.m_next_empty, idx.m_slab_size 0) := rfl
      refine ⟨by simp, htl, htc, ?_, ?_, hd1, hd32, ?_, ?_, ?_, ?_, ?_, ?_, ?_⟩
      · rw [hh]
        show head_block.word_length (head_upd _ _ _) idx.m_next_empty = t.length
        rw [word_length_congr _ _ _ (head_upd_out _ _ _ _ (by omega))]
        exact i7
      · rw [hh]
        show holds (head_upd _ _ _) _ t
        apply holds_congr _ _ _ _ i8
        intro a h1 h2
        simp only [HEAD_PL_OFFSET] at h1 h2
        exact head_upd_out _ _ _ _ (by omega)
      · rw [hh]
        show head_block.recent_docid (head_upd _ _ _) idx.m_next_empty + 1 = d
        rw [f5]
        omega
      · rw [hh]
        show head_block.growth_offset (head_upd _ _ _) idx.m_next_empty = _
        rw [f3, i6]
        rfl
      · rw [hh, ht]
        show head_block.tail_block (head_upd _ _ _) idx.m_next_empty = _
        rw [f1, i2]
      · intro j b hj
        cases j with
        | zero =>
          simp only [List.getElem?_cons_zero, Option.some.injEq] at hj
          rw [← hj]
          rfl
        | succ j => simp at hj
      · rw [hh, ht]
        show head_block.tail_byte_offset (head_upd _ _ _) idx.m_next_empty ≤ _
        rw [f2, i5]
        simp only [BLOCK_SIZE] at hS0 ⊢
        omega
      · intro _
        rw [hh]
        show _ ≤ head_block.tail_byte_offset (head_upd _ _ _) idx.m_next_empty
        rw [f2, i5]
        simp only [HEAD_PL_OFFSET]
        exact Nat.le_refl _
      · intro h1
        simp at h1
    · rw [Function.update_noteq hs] at h2
      apply PChainRep_frame _ inv.slabs _ _ c2 (inv.rep s2 c2 h2)
      intro b hb x h1 h3
      have bb := inv.bound s2 c2 b h2 hb
      simp only [BLOCK_SIZE] at h3
      rw [struct_ptr_eq] at h1 h3
      apply hout x
      rw [struct_ptr_eq]
      omega
  · intro s2 c2 b h2 hb
    show b.1 + b.2 ≤ idx.m_next_empty + idx.m_slab_size 0
    by_cases hs : s2 = e
    · subst hs
      simp only [Function.update_same, Option.some.injEq] at h2
      subst h2
      simp only [List.mem_singleton] at hb
      subst hb
      exact Nat.le_refl _
    · rw [Function.update_noteq hs] at h2
      have := inv.bound s2 c2 b h2 hb
      omega
  · intro s1 s2 c1 c2 b1 b2 h1 h2 hne12 hb1 hb2
    by_cases hs1 : s1 = e
    · subst hs1
      simp only [Function.update_same, Option.some.injEq] at h1
      subst h1
      rw [Function.update_noteq (Ne.symm hne12)] at h2
      simp only [List.mem_singleton] at hb1
      subst hb1
      right
      exact inv.bound s2 c2 b2 h2 hb2
    · rw [Function.update_noteq hs1] at h1
      by_cases hs2 : s2 = e
      · subst hs2
        simp only [Function.update_same, Option.some.injEq] at h2
        subst h2
        simp only [List.mem_singleton] at hb2
        subst hb2
        left
        exact inv.bound s1 c1 b1 h1 hb1
      · rw [Function.update_noteq hs2] at h2
        exact inv.disj s1 s2 c1 c2 b1 b2 h1 h2 hne12 hb1 hb2
  · intro s2 c2 h2
    by_cases hs : s2 = e
    · subst hs
      simp only [Function.update_same, Option.some.injEq] at h2
      subst h2
      exact List.pairwise_singleton _ _
    · rw [Function.update_noteq hs] at h2
      exact inv.ordered s2 c2 h2
  · intro s2 c2 h2
    have hp : ∀ t2 s3, ProbePath hash idx t2 s3 → ProbePath hash
        { idx with
          m_next_empty := idx.m_next_empty + idx.m_slab_size 0
          m_term_offsets := Function.update idx.m_term_offsets e idx.m_next_empty
          m_data := head_upd (head_block.init idx.m_data idx.m_next_empty t idx.m_next_empty)
            idx.m_next_empty ((d + 2 ^ 32 - 1) % 2 ^ 32) } t2 s3 := by
      intro t2 s3
      refine ProbePath_mono hash idx
        { idx with
          m_next_empty := idx.m_next_empty + idx.m_slab_size 0
          m_term_offsets := Function.update idx.m_term_offsets e idx.m_next_empty
          m_data := head_upd (head_block.init idx.m_data idx.m_next_empty t idx.m_next_empty)
            idx.m_next_empty ((d + 2 ^ 32 - 1) % 2 ^ 32) }
        t2 s3 rfl ?_
      intro x hx
      have hxe : x ≠ e := by
        intro e1
        subst e1
        exact hx he
      show Function.update idx.m_term_offsets e idx.m_next_empty x ≠ END_CHAIN
      rw [Function.update_noteq hxe]
      exact hx
    by_cases hs : s2 = e
    · subst hs
      simp only [Function.update_same, Option.some.injEq] at h2
      subst h2
      exact hp _ _ hpath
    · rw [Function.update_noteq hs] at h2
      exact hp _ _ (inv.probe s2 c2 h2)
  · intro s1 s2 c1 c2 h1 h2 ht
    by_cases hs1 : s1 = e
    · subst hs1
      simp only [Function.update_same, Option.some.injEq] at h1
      subst h1
      by_cases hs2 : s2 = s1
      · exact hs2.symm
      · rw [Function.update_noteq hs2] at h2
        exact absurd ht.symm (habs s2 c2 h2)
    · rw [Function.update_noteq hs1] at h1
      by_cases hs2 : s2 = e
      · subst hs2
        simp only [Function.update_same, Option.some.injEq] at h2
        subst h2
        exact absurd ht (habs s1 c1 h1)
      · rw [Function.update_noteq hs2] at h2
        exact inv.distinct s1 s2 c1 c2 h1 h2 ht

end

section
open immediate_index

theorem pinv_loop (hash : List Nat → Nat) (s : Nat) : ∀ (positions : List Nat)
    (idx : immediate_index) (chains : Nat → Option PChain) (c : PChain) (last dg : Nat)
    (res : immediate_index × List (List encoder_call)),
    PInv hash idx chains → chains s = some c → 1 ≤ dg →
    (last :: positions).Pairwise (fun a b => a < b) → (∀ p ∈ positions, p < 2 ^ 32) →
    idx.insert_positions_loop c.head c.last_docid positions last dg = some res →
    ∃ c2, PInv hash res.1 (Function.update chains s (some c2)) ∧ c2.head = c.head ∧
      c2.term = c.term ∧ c2.last_docid = c.last_docid ∧
      res.2.length = positions.length ∧
      (∀ round ∈ res.2, ∀ call ∈ round, ∀ x ∈ call.args, 1 ≤ x) ∧
      (∀ i round, res.2[i]? = some round → ∀ w g, encoder_call.magic w g ∈ round →
        g = if i = 0 then dg else 1) := by
  intro positions
  induction positions with
  | nil =>
    intro idx chains c last dg res inv hc _ _ _ h
    simp only [insert_positions_loop, Option.some.injEq] at h
    rw [← h]
    have e : Function.update chains s (some c) = chains := by
      rw [← hc]
      exact Function.update_eq_self s chains
    refine ⟨c, by rw [e]; exact inv, rfl, rfl, rfl, rfl, ?_, ?_⟩
    · intro round hr
      simp at hr
    · intro i round hr
      simp at hr
  | cons p rest ih =>
    intro idx chains c last dg res inv hc hdg hpw h32 h
    rw [List.pairwise_cons] at hpw
    have hlp := hpw.1 p (List.mem_cons_self _ _)
    have hp32 := h32 p (List.mem_cons_self _ _)
    rw [insert_positions_loop] at h
    cases h1 : idx.insert_position c.head c.last_docid dg last p with
    | none =>
      rw [h1] at h
      cases h
    | some r1 =>
      rw [h1] at h
      obtain ⟨c1, inv1, e1, e2, e3, a1, b1⟩ := pinv_round hash idx chains inv s c hc dg last p
        hdg hlp hp32 r1 h1
      simp only at h
      cases h2 : r1.1.insert_positions_loop c.head c.last_docid rest p 1 with
      | none =>
        rw [h2] at h
        cases h
      | some r2 =>
        rw [h2] at h
        simp only [Option.some.injEq] at h
        rw [← e1, ← e3] at h2
        obtain ⟨c2, inv2, f1, f2, f3, f4, a2, b2⟩ := ih r1.1 _ c1 p 1 r2 inv1
          (Function.update_same _ _ _) (Nat.le_refl 1) hpw.2
          (fun q hq => h32 q (List.mem_cons_of_mem _ hq)) h2
        rw [Function.update_idem] at inv2
        rw [← h]
        refine ⟨c2, inv2, f1.trans e1, f2.trans e2, f3.trans e3, ?_, ?_, ?_⟩
        · simp only [List.length_cons, f4]
        · intro round hr
          rcases List.mem_cons.1 hr with e | hm
          · rw [e]
            exact a1
          · exact a2 round hm
        · intro i round hr w g hm
          cases i with
          | zero =>
            simp only [List.getElem?_cons_zero, Option.some.injEq] at hr
            rw [← hr] at hm
            rw [if_pos rfl]
            exact b1 w g hm
          | succ i =>
            simp only [List.getElem?_cons_succ] at hr
            have := b2 i round hr w g hm
            rw [if_neg (Nat.succ_ne_zero i)]
            split_ifs at this <;> exact this

/-- One call of `insert_positions` on an index with the invariant, for a docid above the last
docid of the term: the invariant is kept with the docid of the call as last docid of the
term, every argument passed to an encoder is at least one, and from the second round on the
docgap passed to `encode_magic` is one. -/
theorem pinv_call (hash : List Nat → Nat) (idx : immediate_index)
    (chains : Nat → Option PChain) (L : List Nat → Nat) (inv : PInv hash idx chains)
    (tr : PTracks chains L) (d : Nat) (t positions : List Nat) (hd : L t < d)
    (hd32 : d < 2 ^ 32) (htl : t.length ≤ HEAD_BYTES) (htc : ∀ x ∈ t, x < 256)
    (hpw : (0 :: positions).Pairwise (fun a b => a < b)) (h32 : ∀ p ∈ positions, p < 2 ^ 32)
    (res : immediate_index × List (List encoder_call))
    (h : idx.insert_positions_traced hash d t positions = some res) :
    ∃ chains2, PInv hash res.1 chains2 ∧ PTracks chains2 (Function.update L t d) ∧
      res.2.length = positions.length ∧
      (∀ round ∈ res.2, ∀ call ∈ round, ∀ x ∈ call.args, 1 ≤ x) ∧
      (∀ i round, 1 ≤ i → res.2[i]? = some round → ∀ w g,
        encoder_call.magic w g ∈ round → g = 1) := by
  have fin : ∀ (idxA : immediate_index) (chainsA : Nat → Option PChain) (s : Nat) (c : PChain)
      (dg : Nat), PInv hash idxA chainsA → chainsA s = some c → c.term = t →
      c.last_docid = d → PTracks chainsA (Function.update L t d) → 1 ≤ dg →
      idxA.insert_positions_loop c.head d positions 0 dg = some res →
      ∃ chains2, PInv hash res.1 chains2 ∧ PTracks chains2 (Function.update L t d) ∧
        res.2.length = positions.length ∧
        (∀ round ∈ res.2, ∀ call ∈ round, ∀ x ∈ call.args, 1 ≤ x) ∧
        (∀ i round, 1 ≤ i → res.2[i]? = some round → ∀ w g,
          encoder_call.magic w g ∈ round → g = 1) := by
    intro idxA chainsA s c dg invA hcA ht hl trA hdg hloop
    rw [← hl] at hloop
    obtain ⟨c2, inv2, f1, f2, f3, f4, a2, b2⟩ := pinv_loop hash s positions idxA chainsA c 0 dg
      res invA hcA hdg hpw h32 hloop
    refine ⟨_, inv2, ptracks_update chainsA _ trA s c c2 hcA f2 f3, f4, a2, ?_⟩
    intro i round hi hr w g hm
    have := b2 i round hr w g hm
    rw [if_neg (by omega)] at this
    exact this
  unfold insert_positions_traced at h
  by_cases hL : L t = 0
  · have habs := (tr t).1 hL
    unfold insert_head at h
    cases hfo : idx.found_or_empty_offset hash t with
    | none =>
      rw [hfo] at h
      cases h
    | some e =>
      rw [hfo] at h
      obtain ⟨he, heH, hce, hpath⟩ := pfound_absent hash idx chains inv t habs e hfo
      simp only [he, if_true, next_free_slot] at h
      have hS0 := inv.slabs 0
      have hdsz := inv.dsize
      have hm : idx.m_slab_size 0 % 2 ^ 32 = idx.m_slab_size 0 := by
        apply Nat.mod_eq_of_lt
        simp only [BLOCK_SIZE] at hS0
        omega
      rw [hm] at h
      by_cases hroom : idx.m_next_empty + idx.m_slab_size 0 < idx.m_data_size
      · rw [if_neg (Nat.not_le.2 hroom)] at h
        have hne : idx.m_next_empty % 2 ^ 32 = idx.m_next_empty := by
          apply Nat.mod_eq_of_lt
          omega
        simp only [hne] at h
        have hlen := htl
        simp only [HEAD_BYTES] at hlen
        obtain ⟨_, _, _, i4, _⟩ := init_fields idx.m_data idx.m_next_empty t hlen htc
          (by omega)
        have invA := pinv_new_head hash idx chains inv t htl htc habs e he heH hce hpath hroom
          d (by omega) hd32
        refine fin _ _ e ⟨t, [(idx.m_next_empty, idx.m_slab_size 0)], d⟩
          ((d + 2 ^ 32 - head_block.recent_docid
            (head_block.init idx.m_data idx.m_next_empty t idx.m_next_empty)
            idx.m_next_empty) % 2 ^ 32) invA (Function.update_same _ _ _) rfl rfl ?_ ?_ h
        · intro t2
          by_cases ht : t2 = t
          · rw [ht, Function.update_same]
            refine ⟨fun h0 => by omega, fun _ => ⟨e, _, Function.update_same _ _ _, rfl, rfl⟩⟩
          · rw [Function.update_noteq ht]
            obtain ⟨t1, t3⟩ := tr t2
            constructor
            · intro h0 s2 c2 h2
              by_cases hs : s2 = e
              · rw [hs, Function.update_same] at h2
                cases h2
                exact fun e2 => ht e2.symm
              · rw [Function.update_noteq hs] at h2
                exact t1 h0 s2 c2 h2
            · intro h0
              obtain ⟨s2, c2, h2, h3, h4⟩ := t3 h0
              have hs : s2 ≠ e := by
                intro e2
                rw [e2, hce] at h2
                cases h2
              exact ⟨s2, c2, by rw [Function.update_noteq hs]; exact h2, h3, h4⟩
        · rw [i4]
          omega
      · rw [if_pos (Nat.not_lt.1 hroom)] at h
        cases h
  · obtain ⟨s, c, hc, ht, hl⟩ := (tr t).2 hL
    have hrep := inv.rep s c hc
    have hfo := pfound_of_chain hash idx chains inv s c hc
    rw [ht] at hfo
    have hne := pchain_head_ne_end hash idx chains inv s c hc
    have hdir := inv.dir_some s c hc
    unfold insert_head at h
    rw [hfo] at h
    simp only [hdir, hne, if_false] at h
    have invA := pinv_old_head hash idx chains inv s c hc d (by rw [hl]; exact hd) hd32
    refine fin _ _ s ⟨c.term, c.blocks, d⟩
      ((d + 2 ^ 32 - head_block.recent_docid idx.m_data c.head) % 2 ^ 32) invA
      (Function.update_same _ _ _) ht rfl ?_ ?_ h
    · intro t2
      by_cases ht2 : t2 = t
      · rw [ht2, Function.update_same]
        refine ⟨fun h0 => by omega, fun _ => ⟨s, _, Function.update_same _ _ _, ht, rfl⟩⟩
      · rw [Function.update_noteq ht2]
        obtain ⟨t1, t3⟩ := tr t2
        constructor
        · intro h0 s2 c2 h2
          by_cases hs : s2 = s
          · rw [hs, Function.update_same] at h2
            cases h2
            show c.term ≠ t2
            rw [ht]
            exact fun e2 => ht2 e2.symm
          · rw [Function.update_noteq hs] at h2
            exact t1 h0 s2 c2 h2
        · intro h0
          obtain ⟨s2, c2, h2, h3, h4⟩ := t3 h0
          have hs : s2 ≠ s := by
            intro e2
            rw [e2, hc] at h2
            cases h2
            exact ht2 (h3.symm.trans ht)
          exact ⟨s2, c2, by rw [Function.update_noteq hs]; exact h2, h3, h4⟩
    · have := hrep.recent
      have := hrep.doc1
      rw [hl] at *
      omega

end

section
open immediate_index

theorem pinv_init (hash : List Nat → Nat) (S : Nat → Nat) (N H : Nat) (hS : SlabsOK S)
    (hH : 0 < H) (hN : N ≤ 2 ^ 32) :
    PInv hash (mk_sized S N H) (fun _ => none) := by
  constructor
  · exact hS
  · exact hH
  · exact hN
  · exact Or.inl rfl
  · intro s _ _
    rfl
  · intro s _
    rfl
  · intro s c h
    cases h
  · intro s c h
    cases h
  · intro s c b h
    cases h
  · intro s1 s2 c1 c2 b1 b2 h
    cases h
  · intro s c h
    cases h
  · intro s c h
    cases h
  · intro s1 s2 c1 c2 h
    cases h

theorem ptracks_init : PTracks (fun _ => none) (fun _ => 0) := by
  intro t
  refine ⟨fun _ s c h => ?_, fun h => absurd rfl h⟩
  cases h

theorem insert_positions_some (hash : List Nat → Nat) (idx idx1 : immediate_index) (d : Nat)
    (t ps : List Nat) (h : idx.insert_positions hash d t ps = some idx1) :
    ∃ trace, idx.insert_positions_traced hash d t ps = some (idx1, trace) := by
  unfold insert_positions at h
  cases hr : idx.insert_positions_traced hash d t ps with
  | none =>
    rw [hr] at h
    cases h
  | some r =>
    rw [hr] at h
    simp only [Option.map_some', Option.some.injEq] at h
    exact ⟨r.2, by rw [← h]⟩

theorem lastDoc_step (L : List Nat → Nat) (c : insert_call) (rest : List insert_call)
    (t : List Nat) :
    lastDoc (Function.update L c.term c.docid t) (postings_of rest t)
      = lastDoc (L t) (postings_of (c :: rest) t) := by
  rw [postings_of_cons]
  by_cases h : c.term = t
  · rw [if_pos h, ← h, Function.update_same]
    rfl
  · rw [if_neg h, Function.update_noteq (fun e => h e.symm)]

/-- The invariant of a positional index is kept by a sequence of valid `insert_positions`
calls whose docids lie above the last docids `L` of their terms. -/
theorem run_positions_inv (hash : List Nat → Nat) : ∀ (calls : List insert_call)
    (idx : immediate_index) (chains : Nat → Option PChain) (L : List Nat → Nat),
    PInv hash idx chains → PTracks chains L → ValidPositions calls →
    (∀ c ∈ calls, L c.term < c.docid) →
    ∀ idx2, run_positions hash idx calls = some idx2 →
    ∃ chains2, PInv hash idx2 chains2 ∧
      PTracks chains2 (fun t => lastDoc (L t) (postings_of calls t)) := by
  intro calls
  induction calls with
  | nil =>
    intro idx chains L inv tr _ _ idx2 h
    simp only [run_positions, Option.some.injEq] at h
    rw [← h]
    exact ⟨chains, inv, tr⟩
  | cons c rest ih =>
    intro idx chains L inv tr hv hL idx2 h
    rw [run_positions] at h
    cases h1 : idx.insert_positions hash c.docid c.term c.positions with
    | none =>
      rw [h1] at h
      cases h
    | some idx1 =>
      rw [h1] at h
      obtain ⟨trace, htr⟩ := insert_positions_some hash idx idx1 _ _ _ h1
      obtain ⟨v1, v2⟩ := hv
      rw [List.pairwise_cons] at v2
      obtain ⟨_, c2, c3, c4, _, c6, c7⟩ := v1 c (List.mem_cons_self _ _)
      obtain ⟨chains1, inv1, tr1, _⟩ := pinv_call hash idx chains L inv tr c.docid c.term
        c.positions (hL c (List.mem_cons_self _ _)) c2 c6 c7 c3 c4 (idx1, trace) htr
      obtain ⟨chains2, inv2, tr2⟩ := ih idx1 chains1 (Function.update L c.term c.docid) inv1 tr1
        ⟨fun x hx => v1 x (List.mem_cons_of_mem _ hx), v2.2⟩
        (by
          intro x hx
          by_cases ht : x.term = c.term
          · rw [ht, Function.update_same]
            exact v2.1 x hx ht.symm
          · rw [Function.update_noteq ht]
            exact hL x (List.mem_cons_of_mem _ hx))
        idx2 h
      refine ⟨chains2, inv2, ?_⟩
      have e : (fun t => lastDoc (Function.update L c.term c.docid t) (postings_of rest t))
          = (fun t => lastDoc (L t) (postings_of (c :: rest) t)) := by
        funext t
        exact lastDoc_step L c rest t
      rw [← e]
      exact tr2

/-- The state of an index built from a fresh one by valid `insert_positions` calls. -/
theorem build_pinv (hash : List Nat → Nat) (S : Nat → Nat) (N H : Nat)
    (calls : List insert_call) (idx : immediate_index)
    (hS : SlabsOK S) (hH : 0 < H) (hN : N ≤ 2 ^ 32) (hv : ValidPositions calls)
    (hrun : run_positions hash (mk_sized S N H) calls = some idx) :
    ∃ chains, PInv hash idx chains ∧ PTracks chains (last_docid_of calls) :=
  run_positions_inv hash calls _ _ (fun _ => 0) (pinv_init hash S N H hS hH hN) ptracks_init hv
    (fun c hc => (hv.1 c hc).1) idx hrun

theorem le_lastDoc (ps : List (Nat × Nat)) : ∀ base,
    ps.Pairwise (fun a b => a.1 < b.1) → ∀ p ∈ ps, p.1 ≤ lastDoc base ps := by
  induction ps with
  | nil =>
    intro _ _ p hp
    simp at hp
  | cons q rest ih =>
    intro base hpw p hp
    rw [List.pairwise_cons] at hpw
    rw [lastDoc_cons]
    rcases List.mem_cons.1 hp with e | hm
    · rw [e]
      cases rest with
      | nil => exact Nat.le_refl _
      | cons r rest2 =>
        have h1 := hpw.1 r (List.mem_cons_self _ _)
        have h2 := ih q.1 hpw.2 r (List.mem_cons_self _ _)
        omega
    · exact ih q.1 hpw.2 p hm

theorem lastDoc_mem (ps : List (Nat × Nat)) : ∀ base, ps ≠ [] →
    ∃ p ∈ ps, p.1 = lastDoc base ps := by
  induction ps with
  | nil =>
    intro _ h
    exact absurd rfl h
  | cons q rest ih =>
    intro base _
    rw [lastDoc_cons]
    cases rest with
    | nil => exact ⟨q, List.mem_cons_self _ _, rfl⟩
    | cons r rest2 =>
      obtain ⟨p, hp, e⟩ := ih q.1 (by simp)
      exact ⟨p, List.mem_cons_of_mem _ hp, e⟩

/-- With docids strictly increasing per term, the docid of the last call for a term is the
largest docid of its calls. -/
theorem last_docid_largest (calls : List insert_call)
    (hp : calls.Pairwise (fun a b => a.term = b.term → a.docid < b.docid)) (t : List Nat) :
    (∀ c ∈ calls, c.term = t → c.docid ≤ last_docid_of calls t) ∧
    (postings_of calls t ≠ [] → ∃ c ∈ calls, c.term = t ∧ c.docid = last_docid_of calls t) := by
  have hpw : (postings_of calls t).Pairwise (fun a b => a.1 < b.1) := by
    unfold postings_of
    rw [List.pairwise_map]
    have h2 := hp.filter (fun c => decide (c.term = t))
    refine List.Pairwise.imp_of_mem ?_ h2
    intro a b ha hb hab
    simp only [List.mem_filter, decide_eq_true_eq] at ha hb
    exact hab (by rw [ha.2, hb.2])
  unfold last_docid_of
  constructor
  · intro c hc ht
    apply le_lastDoc _ 0 hpw (c.docid, c.positions.length)
    unfold postings_of
    simp only [List.mem_map, List.mem_filter, decide_eq_true_eq]
    exact ⟨c, ⟨hc, ht⟩, rfl⟩
  · intro hne
    obtain ⟨p, hm, e⟩ := lastDoc_mem _ 0 hne
    unfold postings_of at hm
    simp only [List.mem_map, List.mem_filter, decide_eq_true_eq] at hm
    obtain ⟨c, ⟨hc, ht⟩, rfl⟩ := hm
    exact ⟨c, hc, ht, e⟩

theorem valid_positions_snoc (calls : List insert_call) (c : insert_call)
    (hv : ValidPositions (calls ++ [c])) :
    ValidPositions calls ∧ last_docid_of calls c.term < c.docid ∧ c.docid < 2 ^ 32 ∧
      (0 :: c.positions).Pairwise (fun a b => a < b) ∧ (∀ p ∈ c.positions, p < 2 ^ 32) ∧
      c.term.length ≤ HEAD_BYTES ∧ (∀ x ∈ c.term, x < 256) := by
  obtain ⟨h1, h2⟩ := hv
  obtain ⟨p1, _, p3⟩ := List.pairwise_append.1 h2
  obtain ⟨c1, c2, c3, c4, _, c6, c7⟩ := h1 c (by simp)
  refine ⟨⟨fun x hx => h1 x (List.mem_append_left _ hx), p1⟩, ?_, c2, c3, c4, c6, c7⟩
  by_cases hne : postings_of calls c.term = []
  · unfold last_docid_of
    rw [hne]
    exact c1
  · obtain ⟨x, hx, ht, e⟩ := (last_docid_largest calls p1 c.term).2 hne
    rw [← e]
    exact p3 x hx c (by simp) ht

end

/-- C21: for 32-bit `docgap` and `freq`, the bytes `encode_magic(docgap, freq)` writes at the
buffer position are, when `freq < 4`, the VByte code of the 32-bit value
`(docgap - 1) * 4 + freq` alone, and when `freq ≥ 4` the VByte code of the 32-bit value
`docgap * 4` followed immediately by the VByte code of `freq - 4 + 1`; the returned count is
the number of these bytes and no other byte of the buffer changes.  The 32-bit values are the
exact ones for `1 ≤ docgap ≤ 2 ^ 30` (first form) and `docgap < 2 ^ 30` (second form).  In
particular `encode_magic(1, 0)` gives `[0x00]`, `encode_magic(1, 3)` gives `[0x03]`,
`encode_magic(2, 0)` gives `[0x04]` and `encode_magic(1, 4)` gives `[0x04, 0x01]`. -/
theorem magic_wire_format (d f : Nat) (hd : d < 2 ^ 32) (hf : f < 2 ^ 32) (buffer : Mem)
    (p : Nat) :
    (f < 4 → magic_emitted d f = vbyte_emitted (((d + 2 ^ 32 - 1) % 2 ^ 32 * 4 + f) % 2 ^ 32) ∧
      (1 ≤ d → d ≤ 2 ^ 30 → ((d + 2 ^ 32 - 1) % 2 ^ 32 * 4 + f) % 2 ^ 32 = (d - 1) * 4 + f)) ∧
    (4 ≤ f → magic_emitted d f = vbyte_emitted (d * 4 % 2 ^ 32) ++ vbyte_emitted (f - 4 + 1) ∧
      (d < 2 ^ 30 → d * 4 % 2 ^ 32 = d * 4)) ∧
    holds (encode_magic d f buffer p).1 p (magic_emitted d f) ∧
    (encode_magic d f buffer p).2 = (magic_emitted d f).length ∧
    (∀ x, x < p ∨ p + (magic_emitted d f).length ≤ x →
      (encode_magic d f buffer p).1 x = buffer x) ∧
    magic_emitted 1 0 = [0x00] ∧ magic_emitted 1 3 = [0x03] ∧ magic_emitted 2 0 = [0x04] ∧
    magic_emitted 1 4 = [0x04, 0x01] := by
  refine ⟨?_, ?_, ?_, ?_, ?_, rfl, rfl, rfl, rfl⟩
  · intro h4
    refine ⟨?_, fun h1 h2 => by omega⟩
    rw [magic_emitted_eq, vbyte_emitted_eq _ (Nat.mod_lt _ (by norm_num))]
    unfold magic_bytes
    simp only [MAGIC_F]
    rw [if_pos h4]
  · intro h4
    refine ⟨?_, fun h1 => by omega⟩
    rw [magic_emitted_eq, vbyte_emitted_eq _ (Nat.mod_lt _ (by norm_num)),
      vbyte_emitted_eq _ (by omega)]
    unfold magic_bytes
    simp only [MAGIC_F]
    rw [if_neg (by omega)]
    have e : (f - 4 + 1) % 2 ^ 32 = f - 4 + 1 := by omega
    rw [e]
  · rw [magic_emitted_eq]
    exact holds_magic_written d f buffer p
  · rw [magic_emitted_eq, encode_magic_eq]
  · intro x hx
    rw [magic_emitted_eq] at hx
    rw [encode_magic_eq]
    exact write_list_out _ _ _ _ hx

/-- C21 (witness): the statement for `encode_magic(5, 7)` at address 3 of a zeroed buffer. -/
theorem magic_wire_format_witness :
    (5 : Nat) < 2 ^ 32 ∧ (7 : Nat) < 2 ^ 32 ∧
    magic_emitted 5 7 = vbyte_emitted (5 * 4 % 2 ^ 32) ++ vbyte_emitted (7 - 4 + 1) ∧
    holds (encode_magic 5 7 (fun _ => 0) 3).1 3 (magic_emitted 5 7) ∧
    (encode_magic 5 7 (fun _ => 0) 3).2 = (magic_emitted 5 7).length :=
  ⟨by norm_num, by norm_num,
    ((magic_wire_format 5 7 (by norm_num) (by norm_num) (fun _ => 0) 3).2.1 (by norm_num)).1,
    (magic_wire_format 5 7 (by norm_num) (by norm_num) (fun _ => 0) 3).2.2.1,
    (magic_wire_format 5 7 (by norm_num) (by norm_num) (fun _ => 0) 3).2.2.2.1⟩

section
open immediate_index

/-- C26: let an index be built by valid `insert` calls and let a further valid call
`insert(docid, term, positions)` find, after the lookup of its first part, a head whose
`tail_block` is the head itself and a posting that does not fit the head's slab.  Then after
the call the head's `next_block` and `tail_block` both are the index `nb` of the newly granted
slab (the value of `m_next_empty` before the grant), the `first_docid` field of that slab is
`docid`, `growth_offset` is 1, `access(nb, TT_PL_OFFSET)` decodes the pair `(docid, freq)`,
and `tail_byte_offset` is `TT_PL_OFFSET` plus the number of bytes of that pair. -/
theorem first_chain_growth (hash : List Nat → Nat) (S : Nat → Nat) (N H : Nat)
    (calls : List insert_call) (idx : immediate_index) (hS : SlabsOK S) (hH : 0 < H)
    (hN : N ≤ 2 ^ 32) (call : insert_call) (hv : ValidCalls (calls ++ [call]))
    (hrun : run_inserts hash (mk_sized S N H) calls = some idx) (hb : Nat)
    (idx1 : immediate_index) (hh : idx.insert_head hash call.term = some (hb, idx1))
    (htail : head_block.tail_block idx1.m_data hb = hb)
    (hnofit : ¬ head_block.tail_byte_offset idx1.m_data hb
        + magic_bytes_required
          ((call.docid + 2 ^ 32 - head_block.recent_docid idx1.m_data hb) % 2 ^ 32)
          call.positions.length
      ≤ BLOCK_SIZE * idx1.m_slab_size (head_block.growth_offset idx1.m_data hb))
    (idx2 : immediate_index)
    (hins : idx.insert hash call.docid call.term call.positions = some idx2) :
    head_block.next_block idx2.m_data hb = idx1.m_next_empty ∧
    head_block.tail_block idx2.m_data hb = idx1.m_next_empty ∧
    tail_block.first_docid idx2.m_data idx1.m_next_empty = call.docid ∧
    head_block.growth_offset idx2.m_data hb = 1 ∧
    idx2.access idx1.m_next_empty TT_PL_OFFSET
      = some ((call.docid, call.positions.length),
          TT_PL_OFFSET + magic_bytes_required call.docid call.positions.length) ∧
    head_block.tail_byte_offset idx2.m_data hb
      = TT_PL_OFFSET + magic_bytes_required call.docid call.positions.length := by
  obtain ⟨chains1, s, c, inv1, hc, e1, _, _, hlast, hd30, hf1, hf2, _⟩ :=
    built_step hash S N H calls idx hS hH hN call hv hrun hb idx1 hh
  have hpost := insert_unfold hash idx idx1 idx2 call.docid hb call.term call.positions hf2 hh
    hins
  subst e1
  obtain ⟨pre, last, hcb, hgap, hcase⟩ := insert_posting_shape hash idx1 chains1 inv1 s c hc
    call.docid call.positions.length hlast hd30 hf1 hf2 idx2 hpost
  have F := chain_facts _ inv1.slabs _ c pre last hcb (inv1.rep s c hc) (inv1.ordered s c hc)
  have hpre : pre = [] := by
    by_contra hne
    have h1 := (F.multi hne).1
    rw [← F.tail, htail] at h1
    omega
  rw [hgap, F.growth, ← F.size, ← magic_bytes_length] at hnofit
  rcases hcase with ⟨hfit, _, _⟩ | ⟨_, hidx, _⟩
  · exact absurd hfit hnofit
  · have hlt := chain_head_lt hash idx1 chains1 inv1 s c hc
    have hne32 : idx1.m_next_empty < 2 ^ 32 := by
      have := inv1.dsize
      rcases inv1.ne_lt with h0 | h0 <;> omega
    have hg0 : head_block.growth_offset idx1.m_data c.head = 0 := by
      rw [F.growth, hpre]
      rfl
    obtain ⟨_, _, g3, g4, g5, g6, g7, g8⟩ := grow_mem_fields idx1.m_data c.head call.docid
      call.positions.length idx1.m_next_empty
      (by simp only [struct_ptr, BLOCK_SIZE]; omega) (Or.inl htail) (by rw [hg0]; omega)
      hne32 (by omega)
    have hgg : grow_gap idx1.m_data c.head call.docid = call.docid := by
      unfold grow_gap
      rw [if_pos htail]
    rw [hgg] at g3 g8
    rw [htail] at g6
    rw [hg0] at g4
    have hm : idx2.m_data = grow_mem idx1.m_data c.head call.docid call.positions.length
        idx1.m_next_empty := by
      rw [hidx]
    rw [hm]
    refine ⟨g6, g5, g7, g4, ?_, ?_⟩
    · unfold immediate_index.access
      rw [hm]
      exact decode_magic_holds call.docid call.positions.length (by omega) (by omega)
        (Or.inl hd30) hf1 hf2 _ _ _ g8
    · rw [g3, magic_bytes_length]
      rfl

/-- C26 (witness): the statement for the second posting of a term of 43 characters, whose
head has room for one byte of payload. -/
theorem first_chain_growth_witness :
    ValidCalls (gcalls ++ [gcall]) ∧
    run_inserts whash (mk_sized wslabs 8 4) gcalls = some gidx ∧
    gidx.insert_head whash gcall.term = some (ghead.1, ghead.2) ∧
    head_block.tail_block ghead.2.m_data ghead.1 = ghead.1 ∧
    gidx.insert whash gcall.docid gcall.term gcall.positions = some gidx2 ∧
    head_block.next_block gidx2.m_data ghead.1 = ghead.2.m_next_empty ∧
    head_block.tail_block gidx2.m_data ghead.1 = ghead.2.m_next_empty ∧
    tail_block.first_docid gidx2.m_data ghead.2.m_next_empty = gcall.docid ∧
    head_block.growth_offset gidx2.m_data ghead.1 = 1 ∧
    gidx2.access ghead.2.m_next_empty TT_PL_OFFSET
      = some ((gcall.docid, gcall.positions.length),
          TT_PL_OFFSET + magic_bytes_required gcall.docid gcall.positions.length) ∧
    head_block.tail_byte_offset gidx2.m_data ghead.1
      = TT_PL_OFFSET + magic_bytes_required gcall.docid gcall.positions.length :=
  have hv : ValidCalls (gcalls ++ [gcall]) := by
    unfold ValidCalls
    decide
  have hrun : run_inserts whash (mk_sized wslabs 8 4) gcalls = some gidx :=
    getD_of_isSome _ _ (by decide!)
  have hh : gidx.insert_head whash gcall.term = some (ghead.1, ghead.2) :=
    getD_of_isSome (gidx.insert_head whash gcall.term) (0, mk_default wslabs) (by decide!)
  have htail : head_block.tail_block ghead.2.m_data ghead.1 = ghead.1 := by decide!
  have hins : gidx.insert whash gcall.docid gcall.term gcall.positions = some gidx2 :=
    getD_of_isSome _ _ (by decide!)
  ⟨hv, hrun, hh, htail, hins,
    first_chain_growth whash wslabs 8 4 gcalls gidx wslabs_ok (by decide) (by norm_num) gcall
      hv hrun ghead.1 ghead.2 hh htail (by decide!) gidx2 hins⟩

end

section
open immediate_index

/-- C30: after any sequence of valid `insert` calls on a fresh index, for every term that was
inserted the directory lookup returns a slot with a head `h`, and with `n ≥ 1` the number of
logical blocks of the chain of that slot: the blocks reached from `h` by `0, ..., n - 1` hops
along `next_block` are the blocks of the chain and are distinct; `tail_block` of the head is
reached after exactly `n - 1` hops and not before; `next_block` of the head is `END_CHAIN`
exactly when `n = 1`, and `tail_block` of the head is `h` exactly when `n = 1`; and
`growth_offset` of the head is `min (n - 1) MAX_SLAB_IDX`. -/
theorem chain_well_formed (hash : List Nat → Nat) (S : Nat → Nat) (N H : Nat)
    (calls : List insert_call) (idx : immediate_index) (t : List Nat)
    (hS : SlabsOK S) (hH : 0 < H) (hN : N ≤ 2 ^ 32) (hv : ValidCalls calls)
    (hrun : run_inserts hash (mk_sized S N H) calls = some idx)
    (ht : postings_of calls t ≠ []) :
    ∃ chains s c, IndexInv hash idx chains ∧ chains s = some c ∧ c.term = t ∧
      idx.found_or_empty_offset hash t = some s ∧ idx.m_term_offsets s ≠ END_CHAIN ∧
      1 ≤ c.blocks.length ∧
      (∀ j b, c.blocks[j]? = some b →
        chain_walk idx.m_data (idx.m_term_offsets s) j = b.idx) ∧
      (∀ i j, i < j → j < c.blocks.length →
        chain_walk idx.m_data (idx.m_term_offsets s) i
          ≠ chain_walk idx.m_data (idx.m_term_offsets s) j) ∧
      chain_walk idx.m_data (idx.m_term_offsets s) (c.blocks.length - 1)
        = head_block.tail_block idx.m_data (idx.m_term_offsets s) ∧
      (∀ j, j < c.blocks.length - 1 →
        chain_walk idx.m_data (idx.m_term_offsets s) j
          ≠ head_block.tail_block idx.m_data (idx.m_term_offsets s)) ∧
      (head_block.next_block idx.m_data (idx.m_term_offsets s) = END_CHAIN
        ↔ c.blocks.length = 1) ∧
      (head_block.tail_block idx.m_data (idx.m_term_offsets s) = idx.m_term_offsets s
        ↔ c.blocks.length = 1) ∧
      head_block.growth_offset idx.m_data (idx.m_term_offsets s)
        = min (c.blocks.length - 1) MAX_SLAB_IDX := by
  obtain ⟨chains, inv, tr⟩ := build_inv hash S N H calls idx hS hH hN hv hrun
  obtain ⟨s, c, hc, e1, _⟩ := (tr t).2 ht
  have hrep := inv.rep s c hc
  have hord := inv.ordered s c hc
  have hsz := chain_size_pos _ inv.slabs _ c hrep
  have hfo := found_of_chain hash idx chains inv s c hc
  rw [e1] at hfo
  have hdir := inv.dir_some s c hc
  have hne := chain_head_ne_end hash idx chains inv s c hc
  have hwalk := walk_blocks _ _ c hrep
  have hlt := ordered_idx_lt c.blocks hsz hord
  obtain ⟨last, hl1, hl2⟩ := chain_tail _ inv.slabs _ c hrep hord
  have hpos : 1 ≤ c.blocks.length := by
    cases hcb : c.blocks with
    | nil =>
      unfold ChainRep at hrep
      rw [hcb] at hrep
      exact hrep.elim
    | cons _ _ => simp
  have hex : ∀ j, j < c.blocks.length → ∃ b, c.blocks[j]? = some b := by
    intro j hj
    cases hb : c.blocks[j]? with
    | none =>
      have := List.getElem?_eq_none_iff.1 hb
      omega
    | some b => exact ⟨b, rfl⟩
  obtain ⟨h0, hh0⟩ := hex 0 (by omega)
  have hw0 := hwalk 0 h0 hh0
  have hhead : c.head = h0.idx := by
    rw [← hw0]
    rfl
  refine ⟨chains, s, c, inv, hc, e1, hfo, hdir ▸ hne, hpos, ?_⟩
  rw [hdir]
  refine ⟨hwalk, ?_, ?_, ?_, ?_, ?_, chain_growth _ _ c hrep⟩
  · intro i j hij hj
    obtain ⟨bi, hbi⟩ := hex i (by omega)
    obtain ⟨bj, hbj⟩ := hex j hj
    rw [hwalk i bi hbi, hwalk j bj hbj]
    exact Nat.ne_of_lt (hlt i j bi bj hij hbi hbj)
  · rw [hwalk _ last hl1, hl2]
  · intro j hj
    obtain ⟨bj, hbj⟩ := hex j (by omega)
    rw [hwalk j bj hbj, hl2]
    exact Nat.ne_of_lt (hlt j _ bj last hj hbj hl1)
  · constructor
    · intro h
      by_contra hn
      obtain ⟨b1, hb1⟩ := hex 1 (by omega)
      have h2 := chain_next _ _ c hrep 0 h0 b1 hh0 hb1
      have hbd := inv.bound s c b1 hc (List.getElem?_mem hb1)
      have hs1 := hsz b1 (List.getElem?_mem hb1)
      have hd := inv.dsize
      have hnl := inv.ne_lt
      unfold head_block.next_block at h
      rw [hhead, h2] at h
      simp only [END_CHAIN] at h
      omega
    · exact chain_single_next _ _ c hrep
  · constructor
    · intro h
      by_contra hn
      rw [hl2, hhead] at h
      have := hlt 0 _ h0 last (by omega) hh0 hl1
      omega
    · intro h1
      rw [h1] at hl1
      rw [hl2, hhead]
      rw [hh0] at hl1
      rw [Option.some.inj hl1]

/-- C30 (witness): the statement for the index built by the calls `wcalls` and the term
`[97]`. -/
theorem chain_well_formed_witness :
    ∃ idx, run_inserts whash (mk_sized wslabs 40 8) wcalls = some idx ∧
      ∃ chains s c, IndexInv whash idx chains ∧ chains s = some c ∧ c.term = [97] ∧
        idx.found_or_empty_offset whash [97] = some s ∧ idx.m_term_offsets s ≠ END_CHAIN ∧
        1 ≤ c.blocks.length ∧
        (∀ j b, c.blocks[j]? = some b →
          chain_walk idx.m_data (idx.m_term_offsets s) j = b.idx) ∧
        (∀ i j, i < j → j < c.blocks.length →
          chain_walk idx.m_data (idx.m_term_offsets s) i
            ≠ chain_walk idx.m_data (idx.m_term_offsets s) j) ∧
        chain_walk idx.m_data (idx.m_term_offsets s) (c.blocks.length - 1)
          = head_block.tail_block idx.m_data (idx.m_term_offsets s) ∧
        (∀ j, j < c.blocks.length - 1 →
          chain_walk idx.m_data (idx.m_term_offsets s) j
            ≠ head_block.tail_block idx.m_data (idx.m_term_offsets s)) ∧
        (head_block.next_block idx.m_data (idx.m_term_offsets s) = END_CHAIN
          ↔ c.blocks.length = 1) ∧
        (head_block.tail_block idx.m_data (idx.m_term_offsets s) = idx.m_term_offsets s
          ↔ c.blocks.length = 1) ∧
        head_block.growth_offset idx.m_data (idx.m_term_offsets s)
          = min (c.blocks.length - 1) MAX_SLAB_IDX := by
  obtain ⟨idx, h⟩ := wcalls_run
  exact ⟨idx, h, chain_well_formed whash wslabs 40 8 wcalls idx [97] wslabs_ok (by decide)
    (by norm_num) wcalls_valid h (by decide)⟩

end

section
open immediate_index

/-- C24: let an index be built from a fresh one by valid `insert` calls (docids in
`[1, 2 ^ 30)` strictly increasing per term, frequencies at least one) and let one more valid
call be stored.  Then the gap this call passes to `encode_magic`, whether it is the docgap of
the fit path or the between-block gap of the grow path, is at least one (and below `2 ^ 30`);
and in the resulting index every block of every chain has a write position `e` between its
data start and the end of its slab such that every payload byte from the data start up to `e`
is non-zero and every byte of the slab from `e` on is zero, where `e` is the stored
`tail_byte_offset` for the tail block.  So a zero byte at a read position means the end of
the payload. -/
theorem insert_payload_nonzero (hash : List Nat → Nat) (S : Nat → Nat) (N H : Nat)
    (calls : List insert_call) (idx : immediate_index) (hS : SlabsOK S) (hH : 0 < H)
    (hN : N ≤ 2 ^ 32) (call : insert_call) (hv : ValidCalls (calls ++ [call]))
    (hrun : run_inserts hash (mk_sized S N H) calls = some idx) (idx2 : immediate_index)
    (hins : idx.insert hash call.docid call.term call.positions = some idx2) :
    (∃ hb idx1 g, idx.insert_head hash call.term = some (hb, idx1) ∧
      idx1.posting_gap hb call.docid (call.positions.length % 2 ^ 32) = some g ∧
      1 ≤ g ∧ g < 2 ^ 30) ∧
    ∃ chains, IndexInv hash idx2 chains ∧ Tracks chains (postings_of (calls ++ [call])) ∧
      ∀ s c, chains s = some c → ∀ k b, c.blocks[k]? = some b →
        ∃ e, (if k = 0 then HEAD_PL_OFFSET + c.term.length else TT_PL_OFFSET) ≤ e ∧
          e ≤ BLOCK_SIZE * b.size ∧
          (∀ o, (if k = 0 then HEAD_PL_OFFSET + c.term.length else TT_PL_OFFSET) ≤ o → o < e →
            idx2.m_data (struct_ptr b.idx + o) ≠ 0) ∧
          (∀ o, e ≤ o → o < BLOCK_SIZE * b.size → idx2.m_data (struct_ptr b.idx + o) = 0) ∧
          (k + 1 = c.blocks.length → e = head_block.tail_byte_offset idx2.m_data c.head) := by
  constructor
  · cases hh : idx.insert_head hash call.term with
    | none =>
      unfold immediate_index.insert at hins
      rw [hh] at hins
      cases hins
    | some r =>
      obtain ⟨hb, idx1⟩ := r
      obtain ⟨chains1, s, c, inv1, hc, e1, _, _, hd, hd30, _, hf2, _⟩ :=
        built_step hash S N H calls idx hS hH hN call hv hrun hb idx1 hh
      have hp := insert_unfold hash idx idx1 idx2 call.docid hb call.term call.positions hf2
        hh hins
      rw [Nat.mod_eq_of_lt hf2]
      rw [← e1] at hp ⊢
      obtain ⟨g, h1, h2, h3⟩ := posting_gap_spec hash idx1 chains1 inv1 s c hc call.docid
        call.positions.length hd hd30 idx2 hp
      exact ⟨c.head, idx1, g, rfl, h1, h2, h3⟩
  · obtain ⟨chains, inv, tr⟩ := build_inv hash S N H (calls ++ [call]) idx2 hS hH hN hv
      (run_inserts_snoc hash calls call _ idx idx2 hrun hins)
    refine ⟨chains, inv, tr, ?_⟩
    intro s c hc k b hk
    have hrep := inv.rep s c hc
    unfold ChainRep at hrep
    cases hcb : c.blocks with
    | nil =>
      rw [hcb] at hrep
      exact hrep.elim
    | cons x rest =>
      rw [hcb] at hrep hk
      obtain ⟨_, _, _, _, _, _, _, hbr⟩ := hrep
      have hx : c.head = x.idx := by
        unfold Chain.head
        rw [hcb]
        rfl
      rw [hx]
      exact blocks_payload _ _ _ _ _ _ _ _ _ hbr k b hk

/-- C24 (witness): the statement for the first posting of the term `[97]` on a fresh
index. -/
theorem insert_payload_nonzero_witness :
    ∃ idx2, (mk_sized wslabs 8 4).insert whash 1 [97] [0] = some idx2 ∧
      (∃ hb idx1 g, (mk_sized wslabs 8 4).insert_head whash [97] = some (hb, idx1) ∧
        idx1.posting_gap hb 1 ([0].length % 2 ^ 32) = some g ∧ 1 ≤ g ∧ g < 2 ^ 30) ∧
      ∃ chains, IndexInv whash idx2 chains ∧
        Tracks chains (postings_of ([] ++ [⟨1, [97], [0]⟩])) ∧
        ∀ s c, chains s = some c → ∀ k b, c.blocks[k]? = some b →
          ∃ e, (if k = 0 then HEAD_PL_OFFSET + c.term.length else TT_PL_OFFSET) ≤ e ∧
            e ≤ BLOCK_SIZE * b.size ∧
            (∀ o, (if k = 0 then HEAD_PL_OFFSET + c.term.length else TT_PL_OFFSET) ≤ o →
              o < e → idx2.m_data (struct_ptr b.idx + o) ≠ 0) ∧
            (∀ o, e ≤ o → o < BLOCK_SIZE * b.size →
              idx2.m_data (struct_ptr b.idx + o) = 0) ∧
            (k + 1 = c.blocks.length →
              e = head_block.tail_byte_offset idx2.m_data c.head) := by
  obtain ⟨idx2, h⟩ := Option.isSome_iff_exists.1
    (show ((mk_sized wslabs 8 4).insert whash 1 [97] [0]).isSome = true by decide!)
  exact ⟨idx2, h, insert_payload_nonzero whash wslabs 8 4 [] (mk_sized wslabs 8 4) wslabs_ok
    (by decide) (by norm_num) ⟨1, [97], [0]⟩ (by unfold ValidCalls; decide) rfl idx2 h⟩

end

section
open immediate_index

/-- C27 (counterexample): scenario S3 for the one-character term `[97]`; `s3_idx n` is the
index after the first `n` postings, and both runs return.  After 43 postings the chain is
one block; posting `(44, 1)`, whose docgap to the previous posting is 1, opens the second
block, whose payload after the `first_docid` field begins with the two bytes `0xAD 0x01`: the
first byte has its continuation bit set, so the code is not a single byte, and it decodes to
the gap 44, not 1. -/
theorem s3_single_byte_counterexample :
    (run_inserts whash (mk_sized wslabs 8 4) (s3_calls [97] 43)).isSome = true ∧
    (run_inserts whash (mk_sized wslabs 8 4) (s3_calls [97] 44)).isSome = true ∧
    (s3_idx 44).found_or_empty_offset whash [97] = some 1 ∧
    (s3_idx 44).m_term_offsets 1 = 0 ∧ (s3_idx 43).m_term_offsets 1 = 0 ∧
    head_block.growth_offset (s3_idx 43).m_data 0 = 0 ∧
    head_block.recent_docid (s3_idx 43).m_data 0 = 43 ∧
    head_block.growth_offset (s3_idx 44).m_data 0 = 1 ∧
    head_block.tail_block (s3_idx 44).m_data 0 = 1 ∧
    tail_block.first_docid (s3_idx 44).m_data 1 = 44 ∧
    (s3_idx 44).m_data (struct_ptr 1 + TT_PL_OFFSET) = 0xAD ∧
    (s3_idx 44).m_data (struct_ptr 1 + TT_PL_OFFSET + 1) = 0x01 ∧
    decode_magic (s3_idx 44).m_data (struct_ptr 1 + TT_PL_OFFSET) 0 = some ((44, 1), 2) := by
  decide!

end

section
open immediate_index

/-- C27 (amended): scenario S3 for a term of `L` characters, on an index whose first slab is
one block of 64 bytes.  The postings `(1, 1), ..., (44 - L, 1)` leave the chain a single
block, and posting `(45 - L, 1)` opens the second block: the head then links to it as next
and tail block, its `first_docid` is `45 - L`, and its payload after the `first_docid` field
holds the double-VByte code of `(45 - L, 1)`, which decodes to the docid of the posting that
opened the block (the between-block gap in the second block is the docid itself), and which
is a single byte exactly when that docid is at most 32. -/
theorem s3_second_block (hash : List Nat → Nat) (S : Nat → Nat) (N H : Nat) (hS : SlabsOK S)
    (hS0 : S 0 = 1) (hH : 0 < H) (hN : N ≤ 2 ^ 32) (t : List Nat) (h1 : 1 ≤ t.length)
    (h2 : t.length ≤ HEAD_BYTES) (h3 : ∀ x ∈ t, x < 256) (idx : immediate_index)
    (hrun : run_inserts hash (mk_sized S N H) (s3_calls t (45 - t.length)) = some idx) :
    (∀ k idxk, 1 ≤ k → k < 45 - t.length →
      run_inserts hash (mk_sized S N H) (s3_calls t k) = some idxk →
      ∃ s, idxk.found_or_empty_offset hash t = some s ∧
        head_block.growth_offset idxk.m_data (idxk.m_term_offsets s) = 0) ∧
    ∃ s, idx.found_or_empty_offset hash t = some s ∧ idx.m_term_offsets s ≠ END_CHAIN ∧
      head_block.growth_offset idx.m_data (idx.m_term_offsets s) = 1 ∧
      head_block.tail_block idx.m_data (idx.m_term_offsets s) ≠ idx.m_term_offsets s ∧
      head_block.next_block idx.m_data (idx.m_term_offsets s)
        = head_block.tail_block idx.m_data (idx.m_term_offsets s) ∧
      tail_block.first_docid idx.m_data
        (head_block.tail_block idx.m_data (idx.m_term_offsets s)) = 45 - t.length ∧
      holds idx.m_data
        (struct_ptr (head_block.tail_block idx.m_data (idx.m_term_offsets s)) + TT_PL_OFFSET)
        (magic_bytes (45 - t.length) 1) ∧
      decode_magic idx.m_data
        (struct_ptr (head_block.tail_block idx.m_data (idx.m_term_offsets s)) + TT_PL_OFFSET)
        0 = some ((45 - t.length, 1), (magic_bytes (45 - t.length) 1).length) ∧
      ((magic_bytes (45 - t.length) 1).length = 1 ↔ 45 - t.length ≤ 32) := by
  simp only [HEAD_BYTES] at h2
  constructor
  · intro k idxk hk1 hk2 hrunk
    exact s3_one_block hash S N H hS hS0 hH hN t h1 h2 h3 k hk1 (by omega) idxk hrunk
  · have e : 45 - t.length = (44 - t.length) + 1 := by omega
    rw [e] at hrun ⊢
    rw [s3_calls_succ] at hrun
    obtain ⟨idx0, hrun0, hins⟩ := run_inserts_snoc_inv hash _ _ _ _ hrun
    obtain ⟨s, hf, hne, _, hg⟩ := s3_step hash S N H hS hS0 hH hN t h1 h2 h3 (44 - t.length)
      (by omega) idx0 hrun0
      (fun hj1 => s3_one_block hash S N H hS hS0 hH hN t h1 h2 h3 _ hj1 (by omega) idx0 hrun0)
      idx hins
    obtain ⟨g1, g2, g3, g4, g5⟩ := hg (by omega)
    refine ⟨s, hf, hne, g1, g2, g3, g4, g5, ?_, ?_⟩
    · have := decode_magic_holds (44 - t.length + 1) 1 (by omega) (by omega) (Or.inl (by omega))
        (Nat.le_refl 1) (by norm_num) _ _ 0 g5
      rw [this, magic_bytes_length]
      simp
    · rw [magic_bytes_length]
      unfold magic_bytes_required bytes_required
      simp only [MAGIC_F]
      have hm : (44 - t.length + 1 + 2 ^ 32 - 1) % 2 ^ 32 = 44 - t.length := by omega
      rw [if_pos (by norm_num), hm]
      have hm2 : ((44 - t.length) * 4 + 1) % 2 ^ 32 = (44 - t.length) * 4 + 1 := by omega
      simp only [hm2]
      split_ifs <;> omega

/-- C27 (amended, witness): the statement for the term of 43 characters `gterm`, whose head
has room for one posting. -/
theorem s3_second_block_witness :
    ∃ idx, run_inserts whash (mk_sized wslabs 8 4) (s3_calls gterm (45 - gterm.length))
        = some idx ∧
      (∀ k idxk, 1 ≤ k → k < 45 - gterm.length →
        run_inserts whash (mk_sized wslabs 8 4) (s3_calls gterm k) = some idxk →
        ∃ s, idxk.found_or_empty_offset whash gterm = some s ∧
          head_block.growth_offset idxk.m_data (idxk.m_term_offsets s) = 0) ∧
      ∃ s, idx.found_or_empty_offset whash gterm = some s ∧
        idx.m_term_offsets s ≠ END_CHAIN ∧
        head_block.growth_offset idx.m_data (idx.m_term_offsets s) = 1 ∧
        head_block.tail_block idx.m_data (idx.m_term_offsets s) ≠ idx.m_term_offsets s ∧
        head_block.next_block idx.m_data (idx.m_term_offsets s)
          = head_block.tail_block idx.m_data (idx.m_term_offsets s) ∧
        tail_block.first_docid idx.m_data
          (head_block.tail_block idx.m_data (idx.m_term_offsets s)) = 45 - gterm.length ∧
        holds idx.m_data
          (struct_ptr (head_block.tail_block idx.m_data (idx.m_term_offsets s))
            + TT_PL_OFFSET)
          (magic_bytes (45 - gterm.length) 1) ∧
        decode_magic idx.m_data
          (struct_ptr (head_block.tail_block idx.m_data (idx.m_term_offsets s))
            + TT_PL_OFFSET)
          0 = some ((45 - gterm.length, 1), (magic_bytes (45 - gterm.length) 1).length) ∧
        ((magic_bytes (45 - gterm.length) 1).length = 1 ↔ 45 - gterm.length ≤ 32) := by
  obtain ⟨idx, h⟩ := Option.isSome_iff_exists.1
    (show (run_inserts whash (mk_sized wslabs 8 4)
      (s3_calls gterm (45 - gterm.length))).isSome = true by decide!)
  exact ⟨idx, h, s3_second_block whash wslabs 8 4 wslabs_ok rfl (by decide) (by norm_num) gterm
    (by decide) (by decide) (by decide) idx h⟩

end

section
open immediate_index postings_cursor

/-- C28: over an index built by valid `insert` calls, `profile_boolean_conjunction` on the
fresh cursors of a non-empty list of inserted terms, sorted by ascending `doc_freq`, returns
(given fuel for its loops) with a vector `geq_count` whose entry 0, the number of rounds and
so of `next()` calls on the leader, is exactly the `doc_freq` of the leader, the smallest
`doc_freq` of all cursors (the number of postings of the leader term); the entries are
non-increasing along the vector, so every other cursor received at most `doc_freq(leader)`
`next_geq` calls and cursor `i` no more than cursor `i - 1`.  With doc_freqs 10, 100 and
1000 the leader is advanced exactly 10 times and the other two at most 10 times. -/
theorem conjunction_work_bound (hash : List Nat → Nat) (S : Nat → Nat) (N H : Nat)
    (calls : List insert_call) (idx : immediate_index)
    (hS : SlabsOK S) (hH : 0 < H) (hN : N ≤ 2 ^ 32) (hv : ValidCalls calls)
    (hrun : run_inserts hash (mk_sized S N H) calls = some idx)
    (sort : List postings_cursor → List postings_cursor) (hsort : ∀ l, (sort l).Perm l)
    (hsorted : ∀ l, (sort l).Pairwise (fun a b => a.doc_freq ≤ b.doc_freq))
    (terms : List (List Nat)) (cursors : List postings_cursor) (fuel : Nat)
    (hterms : ∀ t ∈ terms, postings_of calls t ≠ [])
    (hcur : List.Forall₂ (fun t c => create hash idx t = some c) terms cursors)
    (hfuel : ∀ t ∈ terms, (postings_of calls t).length + 2 ≤ fuel) (hne : terms ≠ []) :
    ∃ lead others res gs, sort cursors = lead :: others ∧
      (∀ c ∈ cursors, lead.doc_freq ≤ c.doc_freq) ∧
      lead.doc_freq = (postings_of calls lead.m_term).length ∧
      profile_boolean_conjunction idx sort fuel cursors = some (res, lead.doc_freq :: gs) ∧
      gs.length = others.length ∧
      (∀ x ∈ gs, x ≤ lead.doc_freq) ∧
      (lead.doc_freq :: gs).Pairwise (fun a b => b ≤ a) ∧
      (lead.doc_freq = 10 → ∀ x ∈ gs, x ≤ 10) := by
  obtain ⟨chains, inv, tr⟩ := build_inv hash S N H calls idx hS hH hN hv hrun
  obtain ⟨hD, hfresh, hct, htc⟩ := query_cursors hash idx chains (postings_of calls) inv tr
    terms cursors fuel hterms hcur hfuel
  have hcne : cursors ≠ [] := by
    intro h
    rw [h] at hcur
    cases hcur
    exact hne rfl
  obtain ⟨lead, others, res, gs, h1, h2, h3, h4, h5⟩ := prof_spec hash idx chains inv
    (fun t => (postings_of calls t).map Prod.fst) hD fuel sort hsort cursors hfresh hcne
  have hs := hsorted cursors
  rw [h1, List.pairwise_cons] at hs
  have hp := h4
  rw [List.pairwise_cons] at hp
  refine ⟨lead, others, res, gs, h1, ?_, ?_, h2, h3, hp.1, h4, fun e x hx => ?_⟩
  · intro c hc
    have hm : c ∈ lead :: others := by
      rw [← h1]
      exact ((hsort cursors).mem_iff).2 hc
    rcases List.mem_cons.1 hm with e | hm
    · rw [e]
    · exact hs.1 c hm
  · rw [h5, List.length_map]
  · rw [← e]
    exact hp.1 x hx

/-- C28 (witness): the statement for the two terms of `qcalls`. -/
theorem conjunction_work_bound_witness :
    ∃ idx cursors, run_inserts whash (mk_sized wslabs 40 8) qcalls = some idx ∧
      List.Forall₂ (fun t c => create whash idx t = some c) [[97], [98]] cursors ∧
      ∃ lead others res gs, wsort cursors = lead :: others ∧
        (∀ c ∈ cursors, lead.doc_freq ≤ c.doc_freq) ∧
        lead.doc_freq = (postings_of qcalls lead.m_term).length ∧
        profile_boolean_conjunction idx wsort 10 cursors
          = some (res, lead.doc_freq :: gs) ∧
        gs.length = others.length ∧
        (∀ x ∈ gs, x ≤ lead.doc_freq) ∧
        (lead.doc_freq :: gs).Pairwise (fun a b => b ≤ a) ∧
        (lead.doc_freq = 10 → ∀ x ∈ gs, x ≤ 10) := by
  obtain ⟨idx, h⟩ := qcalls_run
  obtain ⟨cursors, hc⟩ := cursors_exist whash wslabs 40 8 qcalls idx wslabs_ok (by decide)
    (by norm_num) qcalls_valid h [[97], [98]] (by decide)
  exact ⟨idx, cursors, h, hc, conjunction_work_bound whash wslabs 40 8 qcalls idx
    wslabs_ok (by decide) (by norm_num) qcalls_valid h wsort wsort_perm wsort_sorted
    [[97], [98]] cursors 10 (by decide) hc (by decide) (by decide)⟩

end

section
open immediate_index

/-- C22: `insert_positions(5, t, [3])` on a fresh index, for a term `t` of 43 characters whose
head has one byte of payload left: the occurrence does not fit, a new tail slab (block 1) is
allocated, and `tail_byte_offset` becomes `TT_PL_OFFSET + 2`, the lengths of the VByte codes
of the docgap 5 and of the word gap 3; but the payload at `TT_PL_OFFSET` holds `0x03`, the
code of the word gap, followed by `0x00`, not the code `0x05` of the docgap followed by
`0x03`: the second `vbyte_encode` call writes at the same address as the first. -/
theorem positional_overflow_overwrites :
    (mk_sized wslabs 8 4).insert_positions whash 5 gterm [3] = some pidx ∧
    head_block.tail_block pidx.m_data 0 = 1 ∧
    head_block.growth_offset pidx.m_data 0 = 1 ∧
    tail_block.first_docid pidx.m_data 1 = 5 ∧
    head_block.tail_byte_offset pidx.m_data 0 = TT_PL_OFFSET + 2 ∧
    vbyte_bytes 5 = [0x05] ∧ vbyte_bytes 3 = [0x03] ∧
    pidx.m_data (struct_ptr 1 + TT_PL_OFFSET) = 0x03 ∧
    pidx.m_data (struct_ptr 1 + TT_PL_OFFSET + 1) = 0x00 ∧
    ¬ holds pidx.m_data (struct_ptr 1 + TT_PL_OFFSET) (vbyte_bytes 5 ++ vbyte_bytes 3) := by
  refine ⟨getD_of_isSome _ _ (by decide!), by decide!, by decide!, by decide!, by decide!,
    by decide, by decide, by decide!, by decide!, ?_⟩
  intro h
  have h0 := h 0 (by decide)
  have e : pidx.m_data (struct_ptr 1 + TT_PL_OFFSET) = 0x03 := by decide!
  rw [Nat.add_zero, e] at h0
  revert h0
  decide

end

section
open immediate_index

/-- C25: let an index be built from a fresh one by valid `insert_positions` calls (docids at
least one and strictly increasing per term, word positions at least one and strictly
increasing within a call) and let one more valid call return.  Then the call makes one round
of encoder calls per word position, every argument it hands to `encode_magic` or
`vbyte_encode` (word gap, docgap, between-block gap) is at least one, and from the second
occurrence of the term in the document on the docgap handed to `encode_magic` is one. -/
theorem positional_gaps_nonzero (hash : List Nat → Nat) (S : Nat → Nat) (N H : Nat)
    (calls : List insert_call) (idx : immediate_index) (hS : SlabsOK S) (hH : 0 < H)
    (hN : N ≤ 2 ^ 32) (call : insert_call) (hv : ValidPositions (calls ++ [call]))
    (hrun : run_positions hash (mk_sized S N H) calls = some idx)
    (res : immediate_index × List (List encoder_call))
    (htr : idx.insert_positions_traced hash call.docid call.term call.positions = some res) :
    idx.insert_positions hash call.docid call.term call.positions = some res.1 ∧
    res.2.length = call.positions.length ∧
    (∀ round ∈ res.2, ∀ c ∈ round, ∀ x ∈ c.args, 1 ≤ x) ∧
    (∀ i round, 1 ≤ i → res.2[i]? = some round → ∀ w g,
      encoder_call.magic w g ∈ round → g = 1) := by
  obtain ⟨hv0, h1, h2, h3, h4, h5, h6⟩ := valid_positions_snoc calls call hv
  obtain ⟨chains, inv, tr⟩ := build_pinv hash S N H calls idx hS hH hN hv0 hrun
  obtain ⟨_, _, _, r1, r2, r3⟩ := pinv_call hash idx chains _ inv tr call.docid call.term
    call.positions h1 h2 h5 h6 h3 h4 res htr
  refine ⟨?_, r1, r2, r3⟩
  unfold insert_positions
  rw [htr]
  rfl

/-- C25 (witness): the statement for the second call of `pcalls` after the first. -/
theorem positional_gaps_nonzero_witness :
    ∃ idx res, run_positions whash (mk_sized wslabs 8 4) [⟨5, gterm, [3, 8]⟩] = some idx ∧
      idx.insert_positions_traced whash 9 gterm [2] = some res ∧
      idx.insert_positions whash 9 gterm [2] = some res.1 ∧
      res.2.length = [2].length ∧
      (∀ round ∈ res.2, ∀ c ∈ round, ∀ x ∈ c.args, 1 ≤ x) ∧
      (∀ i round, 1 ≤ i → res.2[i]? = some round → ∀ w g,
        encoder_call.magic w g ∈ round → g = 1) := by
  obtain ⟨idx, h⟩ := Option.isSome_iff_exists.1
    (show (run_positions whash (mk_sized wslabs 8 4) [⟨5, gterm, [3, 8]⟩]).isSome = true
      by decide!)
  have hs : (idx.insert_positions_traced whash 9 gterm [2]).isSome = true := by
    have e : some idx = run_positions whash (mk_sized wslabs 8 4) [⟨5, gterm, [3, 8]⟩] :=
      h.symm
    cases e
    decide!
  obtain ⟨res, hr⟩ := Option.isSome_iff_exists.1 hs
  exact ⟨idx, res, h, hr, positional_gaps_nonzero whash wslabs 8 4 [⟨5, gterm, [3, 8]⟩] idx
    wslabs_ok (by decide) (by norm_num) ⟨9, gterm, [2]⟩
    (by unfold ValidPositions; decide) h res hr⟩

end

section
open immediate_index

/-- C23 (counterexample): after `insert_positions(5, t, [3])` on a fresh index the head block
of `t` records `recent_docid = 4`, which is below the largest docid inserted for `t`, 5. -/
theorem recent_docid_counterexample :
    (mk_sized wslabs 8 4).insert_positions whash 5 gterm [3] = some pidx ∧
    pidx.found_or_empty_offset whash gterm = some 3 ∧ pidx.m_term_offsets 3 = 0 ∧
    head_block.recent_docid pidx.m_data 0 = 4 ∧
    ¬ 5 ≤ head_block.recent_docid pidx.m_data (pidx.m_term_offsets 3) := by
  refine ⟨getD_of_isSome _ _ (by decide!), by decide!, by decide!, by decide!, by decide!⟩

/-- C23 (amended): between builder calls, for every indexed term the head block's
`recent_docid` is the largest docid inserted so far for the term when the index was built by
valid `insert` calls, and that largest docid minus one when it was built by valid
`insert_positions` calls. -/
theorem recent_docid_tracks_last (hash : List Nat → Nat) (S : Nat → Nat) (N H : Nat)
    (hS : SlabsOK S) (hH : 0 < H) (hN : N ≤ 2 ^ 32)
    (calls : List insert_call) (idx : immediate_index) (hv : ValidCalls calls)
    (hrun : run_inserts hash (mk_sized S N H) calls = some idx)
    (pcs : List insert_call) (idxp : immediate_index) (hpv : ValidPositions pcs)
    (hprun : run_positions hash (mk_sized S N H) pcs = some idxp) :
    (∀ t, postings_of calls t ≠ [] →
      ∃ e, idx.found_or_empty_offset hash t = some e ∧ idx.m_term_offsets e ≠ END_CHAIN ∧
        head_block.recent_docid idx.m_data (idx.m_term_offsets e) = last_docid_of calls t ∧
        (∀ c ∈ calls, c.term = t →
          c.docid ≤ head_block.recent_docid idx.m_data (idx.m_term_offsets e)) ∧
        ∃ c ∈ calls, c.term = t ∧
          c.docid = head_block.recent_docid idx.m_data (idx.m_term_offsets e)) ∧
    (∀ t, postings_of pcs t ≠ [] →
      ∃ e, idxp.found_or_empty_offset hash t = some e ∧ idxp.m_term_offsets e ≠ END_CHAIN ∧
        head_block.recent_docid idxp.m_data (idxp.m_term_offsets e) + 1
          = last_docid_of pcs t ∧
        (∀ c ∈ pcs, c.term = t →
          c.docid ≤ head_block.recent_docid idxp.m_data (idxp.m_term_offsets e) + 1) ∧
        ∃ c ∈ pcs, c.term = t ∧
          c.docid = head_block.recent_docid idxp.m_data (idxp.m_term_offsets e) + 1) := by
  constructor
  · intro t ht
    obtain ⟨chains, inv, tr⟩ := build_inv hash S N H calls idx hS hH hN hv hrun
    obtain ⟨s, c, hc, e1, e2⟩ := (tr t).2 ht
    have hfo := found_of_chain hash idx chains inv s c hc
    rw [e1] at hfo
    have hne := chain_head_ne_end hash idx chains inv s c hc
    have hdir := inv.dir_some s c hc
    obtain ⟨pre, last, hcb⟩ := chain_blocks_snoc _ _ c (inv.rep s c hc)
    have F := chain_facts _ inv.slabs _ c pre last hcb (inv.rep s c hc) (inv.ordered s c hc)
    have hrec : head_block.recent_docid idx.m_data (idx.m_term_offsets s)
        = last_docid_of calls t := by
      rw [hdir, F.recent, e2]
      rfl
    obtain ⟨l1, l2⟩ := last_docid_largest calls hv.2 t
    refine ⟨s, hfo, by rw [hdir]; exact hne, hrec, ?_, ?_⟩
    · rw [hrec]
      exact l1
    · rw [hrec]
      exact l2 ht
  · intro t ht
    obtain ⟨chains, inv, tr⟩ := build_pinv hash S N H pcs idxp hS hH hN hpv hprun
    obtain ⟨l1, l2⟩ := last_docid_largest pcs hpv.2 t
    obtain ⟨x, hx, hxt, hxe⟩ := l2 ht
    have hL : last_docid_of pcs t ≠ 0 := by
      have := (hpv.1 x hx).1
      omega
    obtain ⟨s, c, hc, e1, e2⟩ := (tr t).2 hL
    have hfo := pfound_of_chain hash idxp chains inv s c hc
    rw [e1] at hfo
    have hne := pchain_head_ne_end hash idxp chains inv s c hc
    have hdir := inv.dir_some s c hc
    have hrec : head_block.recent_docid idxp.m_data (idxp.m_term_offsets s) + 1
        = last_docid_of pcs t := by
      rw [hdir, (inv.rep s c hc).recent, e2]
    refine ⟨s, hfo, by rw [hdir]; exact hne, hrec, ?_, ?_⟩
    · rw [hrec]
      exact l1
    · rw [hrec]
      exact ⟨x, hx, hxt, hxe⟩

/-- C23 (amended, witness): the statement for the index built by `wcalls` with `insert` and
the index built by `pcalls` with `insert_positions`. -/
theorem recent_docid_tracks_last_witness :
    ∃ idx idxp, run_inserts whash (mk_sized wslabs 40 8) wcalls = some idx ∧
      run_positions whash (mk_sized wslabs 40 8) pcalls = some idxp ∧
      (∀ t, postings_of wcalls t ≠ [] →
        ∃ e, idx.found_or_empty_offset whash t = some e ∧
          idx.m_term_offsets e ≠ END_CHAIN ∧
          head_block.recent_docid idx.m_data (idx.m_term_offsets e)
            = last_docid_of wcalls t ∧
          (∀ c ∈ wcalls, c.term = t →
            c.docid ≤ head_block.recent_docid idx.m_data (idx.m_term_offsets e)) ∧
          ∃ c ∈ wcalls, c.term = t ∧
            c.docid = head_block.recent_docid idx.m_data (idx.m_term_offsets e)) ∧
      (∀ t, postings_of pcalls t ≠ [] →
        ∃ e, idxp.found_or_empty_offset whash t = some e ∧
          idxp.m_term_offsets e ≠ END_CHAIN ∧
          head_block.recent_docid idxp.m_data (idxp.m_term_offsets e) + 1
            = last_docid_of pcalls t ∧
          (∀ c ∈ pcalls, c.term = t →
            c.docid ≤ head_block.recent_docid idxp.m_data (idxp.m_term_offsets e) + 1) ∧
          ∃ c ∈ pcalls, c.term = t ∧
            c.docid = head_block.recent_docid idxp.m_data (idxp.m_term_offsets e) + 1) := by
  obtain ⟨idx, h⟩ := wcalls_run
  obtain ⟨idxp, hp⟩ := Option.isSome_iff_exists.1
    (show (run_positions whash (mk_sized wslabs 40 8) pcalls).isSome = true by decide!)
  exact ⟨idx, idxp, h, hp, recent_docid_tracks_last whash wslabs 40 8 wslabs_ok (by decide)
    (by norm_num) wcalls idx wcalls_valid h pcalls idxp (by unfold ValidPositions; decide) hp⟩

end

section
open immediate_index

theorem postings_ne_iff (calls : List insert_call) (t : List Nat) :
    postings_of calls t ≠ [] ↔ ∃ c ∈ calls, c.term = t := by
  unfold postings_of
  rw [Ne, List.map_eq_nil_iff, List.filter_eq_nil_iff]
  simp only [decide_eq_true_eq, not_forall, not_not, exists_prop]

theorem chain_slot_lt (hash : List Nat → Nat) (idx : immediate_index)
    (chains : Nat → Option Chain) (inv : IndexInv hash idx chains) (s : Nat) (c : Chain)
    (hc : chains s = some c) : s < idx.m_term_offsets_size := by
  by_contra h
  have := inv.dir_out s (by omega)
  rw [hc] at this
  cases this

theorem tracked_inserted (chains : Nat → Option Chain) (calls : List insert_call)
    (tr : Tracks chains (postings_of calls)) (s : Nat) (c : Chain) (hc : chains s = some c) :
    postings_of calls c.term ≠ [] := by
  intro h
  exact (tr c.term).1 h s c hc rfl

theorem blocks_get (bs : List Blk) (j : Nat) (hj : j < bs.length) : ∃ b, bs[j]? = some b :=
  ⟨bs[j], List.getElem?_eq_getElem hj⟩

theorem chain_blocks_pos (S : Nat → Nat) (m : Mem) (c : Chain) (hrep : ChainRep S m c) :
    1 ≤ c.blocks.length := by
  cases hcb : c.blocks with
  | nil =>
    unfold ChainRep at hrep
    rw [hcb] at hrep
    exact hrep.elim
  | cons _ _ => simp

theorem chain_len_spec (hash : List Nat → Nat) (idx : immediate_index)
    (chains : Nat → Option Chain) (inv : IndexInv hash idx chains) (s : Nat) (c : Chain)
    (hc : chains s = some c) : ChainLen idx.m_data c.head c.blocks.length := by
  have hrep := inv.rep s c hc
  have hord := inv.ordered s c hc
  have hsz := chain_size_pos _ inv.slabs _ c hrep
  have hwalk := walk_blocks _ _ c hrep
  have hlt := ordered_idx_lt c.blocks hsz hord
  obtain ⟨last, hl1, hl2⟩ := chain_tail _ inv.slabs _ c hrep hord
  refine ⟨chain_blocks_pos _ _ c hrep, ?_, ?_⟩
  · rw [hwalk _ last hl1, hl2]
  · intro j hj
    obtain ⟨bj, hbj⟩ := blocks_get c.blocks j (by omega)
    rw [hwalk j bj hbj, hl2]
    exact Nat.ne_of_lt (hlt j _ bj last hj hbj hl1)

theorem chain_len_unique (m : Mem) (h n1 n2 : Nat) (h1 : ChainLen m h n1)
    (h2 : ChainLen m h n2) : n1 = n2 := by
  obtain ⟨a1, a2, a3⟩ := h1
  obtain ⟨b1, b2, b3⟩ := h2
  by_contra hne
  rcases Nat.lt_or_gt_of_ne hne with hlt | hlt
  · exact b3 (n1 - 1) (by omega) a2
  · exact a3 (n2 - 1) (by omega) b2

theorem ordered_get (bs : List Blk)
    (hord : bs.Pairwise (fun b1 b2 => b1.idx + b1.size ≤ b2.idx)) (i j : Nat) (bi bj : Blk)
    (hij : i < j) (hi : bs[i]? = some bi) (hj : bs[j]? = some bj) :
    bi.idx + bi.size ≤ bj.idx := by
  obtain ⟨hi1, hi2⟩ := List.getElem?_eq_some_iff.1 hi
  obtain ⟨hj1, hj2⟩ := List.getElem?_eq_some_iff.1 hj
  have := List.pairwise_iff_getElem.1 hord i j hi1 hj1 hij
  rw [hi2, hj2] at this
  exact this

theorem built_slabs (hash : List Nat → Nat) (S : Nat → Nat) (N H : Nat)
    (calls : List insert_call) (idx : immediate_index)
    (hrun : run_inserts hash (mk_sized S N H) calls = some idx) :
    idx.m_slab_size = S ∧ idx.m_term_offsets_size = H :=
  run_inserts_fields hash calls _ _ hrun

theorem blocks_seg (S : Nat → Nat) (m : Mem) (tI tO : Nat) : ∀ (bs : List Blk)
    (j start base lo : Nat), BlocksRep S m tI tO j start base lo bs →
    ∀ k b, bs[k]? = some b → ∃ base1 lo1, base1 ≤ lo1 ∧ PostsOK lo1 b.posts ∧
      Seg m (struct_ptr b.idx) (if k = 0 then start else TT_PL_OFFSET) (BLOCK_SIZE * b.size)
        base1 b.posts ∧
      (k + 1 = bs.length →
        tO = (if k = 0 then start else TT_PL_OFFSET) + (enc_posts base1 b.posts).length) := by
  intro bs
  induction bs with
  | nil =>
    intro j start base lo _ k b hk
    simp at hk
  | cons x rest ih =>
    intro j start base lo h k b hk
    obtain ⟨_, _, hbl, hok, hseg, hlink, hrest⟩ := h
    cases k with
    | zero =>
      simp only [List.getElem?_cons_zero, Option.some.injEq] at hk
      subst hk
      refine ⟨base, lo, hbl, hok, by simpa using hseg, ?_⟩
      intro hl
      cases rest with
      | nil => simpa using hlink.2.2.2
      | cons _ _ => simp at hl
    | succ k =>
      simp only [List.getElem?_cons_succ] at hk
      obtain ⟨base1, lo1, h1, h2, h3, h4⟩ := ih _ _ _ _ hrest k b hk
      refine ⟨base1, lo1, h1, h2, ?_, ?_⟩
      · simp only [Nat.succ_ne_zero, if_false]
        split_ifs at h3 <;> exact h3
      · intro hl
        have := h4 (by simpa using hl)
        simp only [Nat.succ_ne_zero, if_false]
        split_ifs at this <;> exact this

theorem chain_block_seg (hash : List Nat → Nat) (idx : immediate_index)
    (chains : Nat → Option Chain) (inv : IndexInv hash idx chains) (s : Nat) (c : Chain)
    (hc : chains s = some c) : ∀ j b, c.blocks[j]? = some b →
    ∃ base lo, base ≤ lo ∧ PostsOK lo b.posts ∧
      Seg idx.m_data (struct_ptr b.idx)
        (if j = 0 then HEAD_PL_OFFSET + head_block.word_length idx.m_data c.head
          else TT_PL_OFFSET) (BLOCK_SIZE * b.size) base b.posts ∧
      (j + 1 = c.blocks.length → head_block.tail_byte_offset idx.m_data c.head
        = (if j = 0 then HEAD_PL_OFFSET + head_block.word_length idx.m_data c.head
            else TT_PL_OFFSET) + (enc_posts base b.posts).length) := by
  intro j b hb
  have hrep := inv.rep s c hc
  unfold ChainRep at hrep
  cases hcb : c.blocks with
  | nil => rw [hcb] at hrep; exact hrep.elim
  | cons x rest =>
    rw [hcb] at hrep hb
    have hhead : c.head = x.idx := by
      unfold Chain.head
      rw [hcb]
      rfl
    rw [hhead, hrep.2.2.1]
    exact blocks_seg _ _ _ _ _ _ _ _ _ hrep.2.2.2.2.2.2.2 j b hb

theorem seg_nonzero (m : Mem) (a start cap base lo : Nat) (posts : List (Nat × Nat))
    (hbl : base ≤ lo) (hok : PostsOK lo posts) (hseg : Seg m a start cap base posts) (o : Nat)
    (h1 : start ≤ o) (h2 : o < start + (enc_posts base posts).length) : m (a + o) ≠ 0 := by
  have := hseg.1 (o - start) (by omega)
  have e : a + start + (o - start) = a + o := by omega
  rw [e] at this
  rw [this]
  have hi : o - start < (enc_posts base posts).length := by omega
  rw [List.getD_eq_getElem _ _ hi]
  exact enc_posts_ne_zero _ _ _ hbl hok _ (List.getElem_mem _)

theorem inserted_slot (hash : List Nat → Nat) (S : Nat → Nat) (N H : Nat)
    (calls : List insert_call) (idx : immediate_index)
    (hS : SlabsOK S) (hH : 0 < H) (hN : N ≤ 2 ^ 32) (hv : ValidCalls calls)
    (hrun : run_inserts hash (mk_sized S N H) calls = some idx) (t : List Nat)
    (ht : postings_of calls t ≠ []) :
    ∃ s, s < H ∧ idx.m_term_offsets s ≠ END_CHAIN ∧
      idx.found_or_empty_offset hash t = some s := by
  obtain ⟨chains, inv, tr⟩ := build_inv hash S N H calls idx hS hH hN hv hrun
  obtain ⟨s, c, hc, e1, _⟩ := (tr t).2 ht
  have hfo := found_of_chain hash idx chains inv s c hc
  rw [e1] at hfo
  refine ⟨s, ?_, ?_, hfo⟩
  · rw [← (built_slabs hash S N H calls idx hrun).2]
    exact chain_slot_lt hash idx chains inv s c hc
  · rw [inv.dir_some s c hc]
    exact chain_head_ne_end hash idx chains inv s c hc

end

section
open immediate_index

theorem posting_write_fit (idx : immediate_index) (h docid freq : Nat)
    (hfit : head_block.tail_byte_offset idx.m_data h
        + magic_bytes_required
          ((docid + 2 ^ 32 - head_block.recent_docid idx.m_data h) % 2 ^ 32) freq
      ≤ BLOCK_SIZE * idx.m_slab_size (head_block.growth_offset idx.m_data h)) :
    idx.posting_write h docid freq
      = some (head_block.tail_block idx.m_data h, head_block.tail_byte_offset idx.m_data h,
          (magic_bytes ((docid + 2 ^ 32 - head_block.recent_docid idx.m_data h) % 2 ^ 32)
            freq).length) := by
  obtain ⟨e1, e2, e3, _, _⟩ := head_upd_fields idx.m_data h docid
  unfold head_upd at e1 e2 e3
  unfold posting_write
  simp only [head_block.increment_doc_freq, head_block.set_recent_docid, e1, e2, e3]
  rw [if_pos hfit]
  simp only [encode_magic_eq]

theorem posting_write_grow (idx : immediate_index) (h docid freq : Nat)
    (hfit : ¬ head_block.tail_byte_offset idx.m_data h
        + magic_bytes_required
          ((docid + 2 ^ 32 - head_block.recent_docid idx.m_data h) % 2 ^ 32) freq
      ≤ BLOCK_SIZE * idx.m_slab_size (head_block.growth_offset idx.m_data h))
    (k : Nat)
    (hk : k = idx.m_slab_size
      (head_block.growth_offset
        (head_block.increment_growth_offset (head_upd idx.m_data h docid) h) h) % 2 ^ 32)
    (hroom : idx.m_next_empty + k < idx.m_data_size)
    (hprev : head_block.tail_block idx.m_data h = h ∨
      (struct_ptr h + 64 ≤ struct_ptr (head_block.tail_block idx.m_data h) ∧
        struct_ptr (head_block.tail_block idx.m_data h) + 64
          ≤ struct_ptr (idx.m_next_empty % 2 ^ 32))) :
    idx.posting_write h docid freq
      = some (idx.m_next_empty % 2 ^ 32, TT_PL_OFFSET,
          (magic_bytes (grow_gap idx.m_data h docid) freq).length) := by
  obtain ⟨e1, e2, e3, _, _⟩ := head_upd_fields idx.m_data h docid
  unfold head_upd at e1 e2 e3 hk
  unfold posting_write
  simp only [head_block.increment_doc_freq, head_block.set_recent_docid, e1, e2, e3]
  rw [if_neg hfit]
  simp only [next_free_slot, ← hk, if_neg (Nat.not_le.2 hroom), encode_magic_eq]
  have et : ∀ m : Mem, head_block.tail_byte_offset
      (head_block.set_tail_byte_offset m h TT_PL_OFFSET) h = TT_PL_OFFSET := by
    intro m
    unfold head_block.tail_byte_offset head_block.set_tail_byte_offset
    exact read_u16_write_u16_of_lt _ _ _ (by decide)
  rw [et]
  have hg : (if head_block.tail_block idx.m_data h = h then docid
      else (docid + 2 ^ 32 - tail_block.first_docid
        (tail_block.init
          (head_block.increment_growth_offset
            (write_u32 (write_u32 idx.m_data (struct_ptr h + 8)
              (head_block.doc_freq idx.m_data h + 1)) (struct_ptr h + 12) docid) h)
          (idx.m_next_empty % 2 ^ 32) docid)
        (head_block.tail_block idx.m_data h)) % 2 ^ 32) = grow_gap idx.m_data h docid := by
    unfold grow_gap
    split_ifs with hp
    · rfl
    · have hp2 := hprev.resolve_left hp
      congr 2
      unfold tail_block.first_docid tail_block.init
      apply read_u32_congr
      intro x h1 h2
      rw [write_u32_out _ _ _ _ (by omega), incr_growth_out _ _ _ (by omega)]
      exact head_upd_out _ _ _ _ (by omega)
  rw [hg]

/-- Where the second part of `insert` writes on an index with the invariant: inside the slab
of the tail the head records afterwards, ending at the new `tail_byte_offset`. -/
theorem posting_write_spec (hash : List Nat → Nat) (idx : immediate_index)
    (chains : Nat → Option Chain) (inv : IndexInv hash idx chains) (s : Nat) (c : Chain)
    (hc : chains s = some c) (d f : Nat) (hd30 : d < 2 ^ 30)
    (idx' : immediate_index) (h : idx.insert_posting c.head d f = some idx') :
    ∃ blk off len, idx.posting_write c.head d f = some (blk, off, len) ∧
      blk = head_block.tail_block idx'.m_data c.head ∧ 1 ≤ len ∧
      off + len
        ≤ BLOCK_SIZE * idx.m_slab_size (head_block.growth_offset idx'.m_data c.head) ∧
      off + len < 2 ^ 16 ∧
      head_block.tail_byte_offset idx'.m_data c.head = off + len ∧
      (blk = c.head → HEAD_PL_OFFSET + head_block.word_length idx.m_data c.head ≤ off) ∧
      (blk ≠ c.head → TT_PL_OFFSET ≤ off) := by
  obtain ⟨pre, last, hcb⟩ := chain_blocks_snoc _ _ c (inv.rep s c hc)
  have F := chain_facts _ inv.slabs _ c pre last hcb (inv.rep s c hc) (inv.ordered s c hc)
  have hsl := inv.slabs
  by_cases hfit : head_block.tail_byte_offset idx.m_data c.head
        + magic_bytes_required
          ((d + 2 ^ 32 - head_block.recent_docid idx.m_data c.head) % 2 ^ 32) f
      ≤ BLOCK_SIZE * idx.m_slab_size (head_block.growth_offset idx.m_data c.head)
  · rw [insert_posting_fit idx c.head d f hfit] at h
    cases h
    have hlen := magic_bytes_length
      ((d + 2 ^ 32 - head_block.recent_docid idx.m_data c.head) % 2 ^ 32) f
    have hb1 := (magic_bytes_required_bounds
      ((d + 2 ^ 32 - head_block.recent_docid idx.m_data c.head) % 2 ^ 32) f).1
    have hW : struct_ptr c.head + 20 ≤ struct_ptr (head_block.tail_block idx.m_data c.head)
        + head_block.tail_byte_offset idx.m_data c.head := by
      rw [F.tail]
      by_cases hp : pre = []
      · have := F.single hp
        rw [this.1]
        simp only [HEAD_PL_OFFSET] at this
        omega
      · have := (F.multi hp).1
        omega
    have et : head_block.tail_block (fit_mem idx.m_data c.head d
        ((d + 2 ^ 32 - head_block.recent_docid idx.m_data c.head) % 2 ^ 32) f) c.head
        = head_block.tail_block idx.m_data c.head := by
      apply tail_block_congr
      intro x h1 h2
      exact fit_mem_out _ _ _ _ _ _ (Or.inl (by omega)) (Or.inl (by omega))
    have eg : head_block.growth_offset (fit_mem idx.m_data c.head d
        ((d + 2 ^ 32 - head_block.recent_docid idx.m_data c.head) % 2 ^ 32) f) c.head
        = head_block.growth_offset idx.m_data c.head := by
      apply growth_offset_congr
      exact fit_mem_out _ _ _ _ _ _ (Or.inr (Nat.le_refl _)) (Or.inl (by omega))
    have eo := (fit_mem_fields idx.m_data c.head d
      ((d + 2 ^ 32 - head_block.recent_docid idx.m_data c.head) % 2 ^ 32) f
      (Or.inr (by omega))).2.2
    have hcap := (hsl (head_block.growth_offset idx.m_data c.head)).2
    refine ⟨_, _, _, posting_write_fit idx c.head d f hfit, et.symm, ?_, ?_, ?_, ?_, ?_, ?_⟩
    · rw [hlen]
      exact hb1
    · show _ ≤ BLOCK_SIZE * idx.m_slab_size _
      rw [eg, hlen]
      exact hfit
    · rw [hlen]
      omega
    · rw [eo, hlen]
      apply Nat.mod_eq_of_lt
      omega
    · intro e
      rw [F.tail] at e
      by_cases hp : pre = []
      · have := (F.single hp).2
        rw [F.wl]
        exact this
      · have := (F.multi hp).1
        rw [e] at this
        omega
    · intro e
      rw [F.tail] at e
      by_cases hp : pre = []
      · exact absurd (F.single hp).1 e
      · exact (F.multi hp).2.1
  · have hg : head_block.growth_offset
          (head_block.increment_growth_offset (head_upd idx.m_data c.head d) c.head) c.head
        = min (pre.length + 1) MAX_SLAB_IDX := by
      have e : head_block.growth_offset (head_upd idx.m_data c.head d) c.head
          = head_block.growth_offset idx.m_data c.head := by
        apply growth_offset_congr
        exact head_upd_out _ _ _ _ (by omega)
      rw [incr_growth_val _ _ (by rw [e, F.growth]; simp only [MAX_SLAB_IDX]; omega), e,
        F.growth]
      simp only [MAX_SLAB_IDX]
      omega
    have hk1 := (inv.slabs (min (pre.length + 1) MAX_SLAB_IDX))
    have hkm : idx.m_slab_size (min (pre.length + 1) MAX_SLAB_IDX) % 2 ^ 32
        = idx.m_slab_size (min (pre.length + 1) MAX_SLAB_IDX) := by
      apply Nat.mod_eq_of_lt
      simp only [BLOCK_SIZE] at hk1
      omega
    by_cases hroom : idx.m_next_empty
        + idx.m_slab_size (min (pre.length + 1) MAX_SLAB_IDX) < idx.m_data_size
    · have hne : idx.m_next_empty % 2 ^ 32 = idx.m_next_empty := by
        apply Nat.mod_eq_of_lt
        have := inv.dsize
        omega
      have hne32 : idx.m_next_empty < 2 ^ 32 := by
        have := inv.dsize
        omega
      have hlast1 := F.sizes last (by simp)
      have hlast_nb := sp_le _ _ _ (inv.bound s c last hc (by rw [hcb]; simp))
      have hnbh : struct_ptr c.head + 64 ≤ struct_ptr idx.m_next_empty := by
        by_cases hp : pre = []
        · rw [← (F.single hp).1]
          simp only [BLOCK_SIZE] at hlast_nb
          omega
        · have := (F.multi hp).1
          simp only [BLOCK_SIZE] at hlast_nb
          omega
      have hprev : head_block.tail_block idx.m_data c.head = c.head ∨
          (struct_ptr c.head + 64 ≤ struct_ptr (head_block.tail_block idx.m_data c.head) ∧
            struct_ptr (head_block.tail_block idx.m_data c.head) + 64
              ≤ struct_ptr idx.m_next_empty) := by
        rw [F.tail]
        by_cases hp : pre = []
        · exact Or.inl (F.single hp).1
        · refine Or.inr ⟨(F.multi hp).1, ?_⟩
          simp only [BLOCK_SIZE] at hlast_nb
          omega
      rw [insert_posting_grow idx c.head d f hfit _ (by rw [hg, hkm]) hroom, hne] at h
      cases h
      have hw := posting_write_grow idx c.head d f hfit _ (by rw [hg, hkm]) hroom
        (by rw [hne]; exact hprev)
      rw [hne] at hw
      obtain ⟨_, _, g3, g4, g5, _, _, _⟩ := grow_mem_fields idx.m_data c.head d f
        idx.m_next_empty hnbh hprev (by rw [F.growth]; simp only [MAX_SLAB_IDX]; omega)
        hne32 (by omega)
      have hb := magic_bytes_required_bounds (grow_gap idx.m_data c.head d) f
      rw [← magic_bytes_length] at hb
      have hcap := hsl (min (head_block.growth_offset idx.m_data c.head + 1) 255)
      simp only [BLOCK_SIZE] at hcap
      have hblk : idx.m_next_empty ≠ c.head := by
        intro e
        rw [e] at hnbh
        omega
      refine ⟨_, _, _, hw, g5.symm, hb.1, ?_, ?_, ?_, ?_, ?_⟩
      · show _ ≤ BLOCK_SIZE * idx.m_slab_size _
        rw [g4]
        simp only [TT_PL_OFFSET, BLOCK_SIZE]
        omega
      · simp only [TT_PL_OFFSET]
        omega
      · rw [g3]
        rfl
      · intro e
        exact absurd e hblk
      · intro _
        exact Nat.le_refl _
    · rw [insert_posting_full idx c.head d f hfit _ (by rw [hg, hkm]) hroom] at h
      cases h

theorem tail_offset_bounds (hash : List Nat → Nat) (idx : immediate_index)
    (chains : Nat → Option Chain) (inv : IndexInv hash idx chains) (s : Nat) (c : Chain)
    (hc : chains s = some c) :
    head_block.tail_byte_offset idx.m_data c.head
      ≤ BLOCK_SIZE * idx.m_slab_size (head_block.growth_offset idx.m_data c.head) ∧
    head_block.tail_byte_offset idx.m_data c.head < 2 ^ 16 ∧
    (head_block.tail_block idx.m_data c.head = c.head →
      HEAD_PL_OFFSET + head_block.word_length idx.m_data c.head
        ≤ head_block.tail_byte_offset idx.m_data c.head) ∧
    (head_block.tail_block idx.m_data c.head ≠ c.head →
      TT_PL_OFFSET ≤ head_block.tail_byte_offset idx.m_data c.head) := by
  obtain ⟨pre, last, hcb⟩ := chain_blocks_snoc _ _ c (inv.rep s c hc)
  have F := chain_facts _ inv.slabs _ c pre last hcb (inv.rep s c hc) (inv.ordered s c hc)
  have hle : head_block.tail_byte_offset idx.m_data c.head
      ≤ BLOCK_SIZE * idx.m_slab_size (head_block.growth_offset idx.m_data c.head) := by
    rw [F.growth, ← F.size]
    exact F.off_le
  have hcap := (inv.slabs (head_block.growth_offset idx.m_data c.head)).2
  refine ⟨hle, by omega, ?_, ?_⟩
  · intro e
    rw [F.tail] at e
    by_cases hp : pre = []
    · rw [F.wl]
      exact (F.single hp).2
    · have := (F.multi hp).1
      rw [e] at this
      omega
  · intro e
    rw [F.tail] at e
    by_cases hp : pre = []
    · exact absurd (F.single hp).1 e
    · exact (F.multi hp).2.1

end

section
open immediate_index postings_cursor

theorem next_tf (idx : immediate_index) (c c1 : postings_cursor) (x : Nat)
    (h : next idx c = some c1) (hne : c1.m_current_docid ≠ END_CHAIN) :
    next idx { c with m_current_tf := x } = some c1 := by
  unfold next at h ⊢
  by_cases hc : c.m_current_offset < idx.slab_size c.m_block_count * BLOCK_SIZE
      ∧ idx.has_data c.m_current_block c.m_current_offset = true
  · rw [if_pos hc] at h
    rw [if_pos hc]
    cases ha : idx.access c.m_current_block c.m_current_offset with
    | none => rw [ha] at h; cases h
    | some r =>
      rw [ha] at h
      simp only [ha]
      cases h
      rfl
  · rw [if_neg hc] at h
    rw [if_neg hc]
    simp only at h ⊢
    by_cases hn : idx.next_block c.m_current_block c.m_tail_block = END_CHAIN
    · rw [if_pos hn] at h
      cases h
      exact absurd rfl hne
    · rw [if_neg hn] at h
      rw [if_neg hn]
      cases ha : idx.access (idx.next_block c.m_current_block c.m_tail_block) TT_PL_OFFSET with
      | none => rw [ha] at h; cases h
      | some r =>
        rw [ha] at h
        simp only [ha]
        cases h
        rfl

theorem advance_fixed (idx : immediate_index) (target : Nat) : ∀ (fuel : Nat)
    (c c1 : postings_cursor), advance_to_id idx target fuel c = some c1 →
    c1.m_head_block = c.m_head_block ∧ c1.m_tail_block = c.m_tail_block ∧
      c1.m_doc_freq = c.m_doc_freq ∧ c1.m_term = c.m_term := by
  intro fuel
  induction fuel with
  | zero =>
    intro c c1 h
    simp [advance_to_id] at h
  | succ n ih =>
    intro c c1 h
    unfold advance_to_id at h
    split_ifs at h with hlt
    · cases hn : next idx c with
      | none => rw [hn] at h; cases h
      | some c2 =>
        rw [hn] at h
        obtain ⟨a1, a2, a3, a4⟩ := next_fixed idx c c2 hn
        obtain ⟨b1, b2, b3, b4⟩ := ih c2 c1 h
        exact ⟨b1.trans a1, b2.trans a2, b3.trans a3, b4.trans a4⟩
    · cases h
      exact ⟨rfl, rfl, rfl, rfl⟩

theorem next_geq_fixed (idx : immediate_index) (fuel : Nat) (c c1 : postings_cursor)
    (target : Nat) (h : next_geq idx fuel c target = some c1) :
    c1.m_head_block = c.m_head_block ∧ c1.m_tail_block = c.m_tail_block ∧
      c1.m_doc_freq = c.m_doc_freq ∧ c1.m_term = c.m_term := by
  unfold next_geq at h
  split_ifs at h with hle
  · cases h
    exact ⟨rfl, rfl, rfl, rfl⟩
  · split at h
    · cases h
    · rename_i s hs
      simp only at h
      split at h
      · cases h
      · rename_i c2 hal
        obtain ⟨b1, b2, b3, b4⟩ := advance_fixed idx target fuel _ c1 h
        simp only at b1 b2 b3 b4
        have hc2 : c2.m_head_block = c.m_head_block ∧ c2.m_tail_block = c.m_tail_block ∧
            c2.m_doc_freq = c.m_doc_freq ∧ c2.m_term = c.m_term := by
          split_ifs at hal with h1 h2 h2
          all_goals
            split at hal
            · cases hal
            · cases hal
              exact ⟨rfl, rfl, rfl, rfl⟩
        exact ⟨b1.trans hc2.1, b2.trans hc2.2.1, b3.trans hc2.2.2.1, b4.trans hc2.2.2.2⟩

theorem run_ops_fixed (idx : immediate_index) (fuel : Nat) : ∀ (ops : List cursor_op)
    (c c1 : postings_cursor), run_ops idx fuel ops c = some c1 →
    c1.m_head_block = c.m_head_block ∧ c1.m_tail_block = c.m_tail_block ∧
      c1.m_doc_freq = c.m_doc_freq ∧ c1.m_term = c.m_term := by
  intro ops
  induction ops with
  | nil =>
    intro c c1 h
    simp only [run_ops, Option.some.injEq] at h
    subst h
    exact ⟨rfl, rfl, rfl, rfl⟩
  | cons op rest ih =>
    intro c c1 h
    cases op with
    | next =>
      simp only [run_ops] at h
      cases hn : next idx c with
      | none => rw [hn] at h; cases h
      | some c2 =>
        rw [hn] at h
        obtain ⟨a1, a2, a3, a4⟩ := next_fixed idx c c2 hn
        obtain ⟨b1, b2, b3, b4⟩ := ih c2 c1 h
        exact ⟨b1.trans a1, b2.trans a2, b3.trans a3, b4.trans a4⟩
    | next_geq t =>
      simp only [run_ops] at h
      cases hn : next_geq idx fuel c t with
      | none => rw [hn] at h; cases h
      | some c2 =>
        rw [hn] at h
        obtain ⟨a1, a2, a3, a4⟩ := next_geq_fixed idx fuel c c2 t hn
        obtain ⟨b1, b2, b3, b4⟩ := ih c2 c1 h
        exact ⟨b1.trans a1, b2.trans a2, b3.trans a3, b4.trans a4⟩

/-- On an index with the invariant, `reset` on any cursor that kept the fixed fields of a
fresh cursor of a chain gives the fresh cursor again. -/
theorem reset_fresh (hash : List Nat → Nat) (idx : immediate_index)
    (chains : Nat → Option Chain) (inv : IndexInv hash idx chains) (s : Nat) (ch : Chain)
    (hc : chains s = some ch) (hne : ch.posts ≠ []) (c0 c : postings_cursor)
    (hc0 : create hash idx ch.term = some c0)
    (hfix : c.m_head_block = c0.m_head_block ∧ c.m_tail_block = c0.m_tail_block ∧
      c.m_doc_freq = c0.m_doc_freq ∧ c.m_term = c0.m_term) :
    reset idx c = some c0 ∧
      ∃ rest, ch.posts = (c0.docid, c0.freq) :: rest := by
  obtain ⟨l, hl, _, _⟩ := fresh_tracked hash idx chains inv s ch hc hne c0 hc0
  have hobs := (follows_canon hash idx chains inv s ch hc).2.1
  have hs := (canon_sorted hash idx chains inv s ch hc).2 c0 (by rw [hl]; simp)
  rw [create_eq_next hash idx chains inv s ch hc] at hc0
  obtain ⟨a1, a2, a3, a4⟩ := next_fixed idx _ c0 hc0
  constructor
  · have hd : c0.m_current_docid ≠ END_CHAIN := by
      have := hs.2
      simp only [END_CHAIN]
      omega
    have := next_tf idx _ c0 c.m_current_tf hc0 hd
    rw [← this]
    unfold reset
    congr 1
    have e1 : c.m_head_block = ch.head := hfix.1.trans a1
    have e2 : c.m_tail_block = idx.tail_block ch.head := hfix.2.1.trans a2
    have e3 : c.m_doc_freq = idx.doc_freq ch.head := hfix.2.2.1.trans a3
    have e4 : c.m_term = ch.term := hfix.2.2.2.trans a4
    cases c
    simp only at e1 e2 e3 e4
    subst e1 e2 e3 e4
    rfl
  · rw [hl] at hobs
    exact ⟨_, hobs.symm⟩

end

section
open immediate_index

theorem probe_reach (H h j : Nat) (hj : j < H) :
    ∃ k, k < H ∧ (h + k) % H = j := by
  have hH : 0 < H := by omega
  have hr : h % H < H := Nat.mod_lt _ hH
  by_cases hle : h % H ≤ j
  · refine ⟨j - h % H, by omega, ?_⟩
    rw [Nat.add_mod, Nat.mod_eq_of_lt (show (j - h % H) < H by omega),
      show h % H + (j - h % H) = j by omega]
    exact Nat.mod_eq_of_lt hj
  · refine ⟨j + H - h % H, by omega, ?_⟩
    rw [Nat.add_mod, Nat.mod_eq_of_lt (show (j + H - h % H) < H by omega),
      show h % H + (j + H - h % H) = j + H by omega, Nat.add_mod_right]
    exact Nat.mod_eq_of_lt hj

/-- The probe loop returns within `H` rounds when some slot stops the probe. -/
theorem probe_returns (hash : List Nat → Nat) (idx : immediate_index) (term : List Nat)
    (hH : 0 < idx.m_term_offsets_size) (hH32 : idx.m_term_offsets_size ≤ 2 ^ 32)
    (h : ∃ j, j < idx.m_term_offsets_size ∧ probe_stop idx term j) :
    ∃ k i, k < idx.m_term_offsets_size ∧
      found_or_empty_offset_loop idx term (k + 1) (idx.term_to_offset hash term) = some i ∧
      idx.found_or_empty_offset hash term = some i ∧ probe_stop idx term i := by
  classical
  have hit : ∀ k, (probe_step idx.m_term_offsets_size)^[k] (idx.term_to_offset hash term)
      = (hash term + k) % idx.m_term_offsets_size :=
    fun k => probe_iter _ (hash term) k hH hH32
  obtain ⟨j, hj, hs⟩ := h
  obtain ⟨k0, _, hk0⟩ := probe_reach idx.m_term_offsets_size (hash term) j hj
  have hex : ∃ k, probe_stop idx term ((hash term + k) % idx.m_term_offsets_size) :=
    ⟨k0, by rw [hk0]; exact hs⟩
  have hmin : ∀ j, j < Nat.find hex →
      ¬ probe_stop idx term ((hash term + j) % idx.m_term_offsets_size) :=
    fun j hj => Nat.find_min hex hj
  have hspec := Nat.find_spec hex
  have hk := probe_least idx hash term hH (Nat.find hex) hspec hmin
  refine ⟨Nat.find hex, _, hk,
    loop_complete idx term (Nat.find hex) _ _ (Nat.lt_succ_self _) (by rw [hit]; exact hspec)
      (fun j hj => by rw [hit]; exact hmin j hj),
    loop_complete idx term (Nat.find hex) _ _ hk (by rw [hit]; exact hspec)
      (fun j hj => by rw [hit]; exact hmin j hj), ?_⟩
  rw [hit]
  exact hspec

/-- A directory with more slots than terms has an empty slot. -/
theorem empty_slot (hash : List Nat → Nat) (idx : immediate_index)
    (chains : Nat → Option Chain) (inv : IndexInv hash idx chains) (V : Finset (List Nat))
    (hV : ∀ s c, chains s = some c → c.term ∈ V) (hlt : V.card < idx.m_term_offsets_size) :
    ∃ j, j < idx.m_term_offsets_size ∧ idx.m_term_offsets j = END_CHAIN := by
  by_contra hno
  have hall : ∀ s, s < idx.m_term_offsets_size → ∃ c, chains s = some c := by
    intro s hs
    cases hcs : chains s with
    | none => exact absurd ⟨s, hs, inv.dir_none s hcs hs⟩ hno
    | some c => exact ⟨c, rfl⟩
  have hcard := @Finset.card_le_card_of_injOn _ _ (Finset.range idx.m_term_offsets_size) V
    (fun s => match chains s with | some c => c.term | none => [])
    (by
      intro s hs
      obtain ⟨c, hc⟩ := hall s (Finset.mem_range.1 hs)
      simp only [hc]
      exact hV s c hc)
    (by
      intro s1 h1 s2 h2 e
      obtain ⟨c1, hc1⟩ := hall s1 (Finset.mem_range.1 (Finset.mem_coe.1 h1))
      obtain ⟨c2, hc2⟩ := hall s2 (Finset.mem_range.1 (Finset.mem_coe.1 h2))
      simp only [hc1, hc2] at e
      exact inv.distinct s1 s2 c1 c2 hc1 hc2 e)
  rw [Finset.card_range] at hcard
  omega

end

section
open immediate_index

/-- What the second part of `insert` leaves alone: the directory, and every byte below
`next_empty` outside the blocks of the chain it appends to; the chain keeps its blocks and
takes every block granted meanwhile. -/
theorem insert_posting_frame (hash : List Nat → Nat) (idx : immediate_index)
    (chains : Nat → Option Chain) (inv : IndexInv hash idx chains) (s : Nat) (c : Chain)
    (hc : chains s = some c) (d f : Nat) (hd : lastDoc 0 c.posts < d) (hd30 : d < 2 ^ 30)
    (hf1 : 1 ≤ f) (hf2 : f < 2 ^ 32) (idx' : immediate_index)
    (h : idx.insert_posting c.head d f = some idx') :
    idx'.m_term_offsets = idx.m_term_offsets ∧ idx.m_next_empty ≤ idx'.m_next_empty ∧
    (∀ x, (∀ b ∈ c.blocks, x < struct_ptr b.idx ∨
        struct_ptr b.idx + BLOCK_SIZE * b.size ≤ x) →
      x < BLOCK_SIZE * idx.m_next_empty → idx'.m_data x = idx.m_data x) ∧
    ∃ c', c'.term = c.term ∧ c'.posts = c.posts ++ [(d, f)] ∧
      IndexInv hash idx' (Function.update chains s (some c')) ∧
      (∀ b ∈ c.blocks, ∃ b' ∈ c'.blocks, b'.idx = b.idx ∧ b'.size = b.size) ∧
      (∀ a, idx.m_next_empty ≤ a → a < idx'.m_next_empty →
        ∃ b' ∈ c'.blocks, b'.idx ≤ a ∧ a < b'.idx + b'.size) := by
  obtain ⟨pre, last, hcb, _, hcase⟩ := insert_posting_shape hash idx chains inv s c hc d f hd
    hd30 hf1 hf2 idx' h
  have F := chain_facts _ inv.slabs _ c pre last hcb (inv.rep s c hc) (inv.ordered s c hc)
  have hposts : c.posts = blockPosts pre ++ last.posts := by
    unfold Chain.posts
    rw [hcb, blockPosts_append]
    simp [blockPosts]
  have hbound : ∀ b ∈ pre ++ [last], b.idx + b.size ≤ idx.m_next_empty := by
    intro b hb
    exact inv.bound s c b hc (by rw [hcb]; exact hb)
  obtain ⟨hb0, hbm, hbi⟩ := head_mem c (by rw [hcb]; simp)
  have hs1 := F.sizes hb0 (by rw [← hcb]; exact hbm)
  rcases hcase with ⟨hfit, rfl, inv2⟩ | ⟨hfit, rfl, inv2⟩
  · refine ⟨rfl, Nat.le_refl _, ?_,
      ⟨c.term, pre ++ [⟨last.idx, last.size, last.posts ++ [(d, f)]⟩]⟩, rfl, ?_, inv2, ?_, ?_⟩
    · intro x hx _
      have h1 := hx hb0 hbm
      have h2 := hx last (by rw [hcb]; simp)
      rw [hbi] at h1
      show fit_mem idx.m_data c.head d (d - lastDoc 0 c.posts) f x = idx.m_data x
      apply fit_mem_out
      · simp only [BLOCK_SIZE] at h1
        omega
      · rw [F.tail]
        omega
    · rw [hposts]
      unfold Chain.posts
      rw [blockPosts_append]
      simp [blockPosts]
    · intro b hb
      rw [hcb] at hb
      simp only [List.mem_append, List.mem_singleton] at hb ⊢
      rcases hb with hb | hb
      · exact ⟨b, Or.inl hb, rfl, rfl⟩
      · subst hb
        exact ⟨_, Or.inr rfl, rfl, rfl⟩
    · intro a h1 h2
      exact absurd h2 (Nat.not_lt.2 h1)
  · refine ⟨rfl, Nat.le_add_right _ _, ?_,
      ⟨c.term, pre ++ [last, ⟨idx.m_next_empty,
        idx.m_slab_size (min (pre.length + 1) MAX_SLAB_IDX), [(d, f)]⟩]⟩, rfl, ?_, inv2, ?_, ?_⟩
    · intro x hx hx2
      have h1 := hx hb0 hbm
      have hb1 := sp_le _ _ _ (hbound hb0 (by rw [← hcb]; exact hbm))
      have h2 := hx last (by rw [hcb]; simp)
      have hs2 := F.sizes last (by simp)
      have hb2 := sp_le _ _ _ (hbound last (by simp))
      rw [hbi] at h1 hb1
      have hsp : struct_ptr idx.m_next_empty = BLOCK_SIZE * idx.m_next_empty := by
        unfold struct_ptr
        exact Nat.mul_comm _ _
      show grow_mem idx.m_data c.head d f idx.m_next_empty x = idx.m_data x
      simp only [BLOCK_SIZE] at h1 h2 hb1 hb2 hx2 hsp
      apply grow_mem_out
      · omega
      · rw [F.tail]
        by_cases hp : pre = []
        · exact Or.inl (F.single hp).1
        · right
          have := (F.multi hp).1
          omega
      · omega
      · rw [F.tail]
        omega
      · left
        omega
    · rw [hposts]
      unfold Chain.posts
      rw [blockPosts_append]
      simp [blockPosts]
    · intro b hb
      rw [hcb] at hb
      simp only [List.mem_append, List.mem_cons, List.mem_singleton, List.not_mem_nil,
        or_false] at hb ⊢
      rcases hb with hb | hb
      · exact ⟨b, Or.inl hb, rfl, rfl⟩
      · exact ⟨b, Or.inr (Or.inl hb), rfl, rfl⟩
    · intro a h1 h2
      refine ⟨⟨idx.m_next_empty, idx.m_slab_size (min (pre.length + 1) MAX_SLAB_IDX),
        [(d, f)]⟩, by simp, h1, h2⟩

/-- What the first part of `insert` leaves alone: every byte below `next_empty` and every
non-NIL directory entry. -/
theorem insert_head_mem (hash : List Nat → Nat) (idx : immediate_index) (t : List Nat)
    (hb : Nat) (idx1 : immediate_index) (hne32 : idx.m_next_empty < 2 ^ 32)
    (h : idx.insert_head hash t = some (hb, idx1)) :
    (∀ x, x < BLOCK_SIZE * idx.m_next_empty → idx1.m_data x = idx.m_data x) ∧
    (∀ s, idx.m_term_offsets s ≠ END_CHAIN → idx1.m_term_offsets s = idx.m_term_offsets s) ∧
    idx.m_next_empty ≤ idx1.m_next_empty := by
  unfold insert_head at h
  cases hfo : idx.found_or_empty_offset hash t with
  | none =>
    rw [hfo] at h
    cases h
  | some e =>
    rw [hfo] at h
    simp only at h
    by_cases he : idx.m_term_offsets e = END_CHAIN
    · rw [if_pos he] at h
      unfold next_free_slot at h
      split_ifs at h with hroom
      simp only [Option.some.injEq, Prod.mk.injEq] at h
      obtain ⟨_, rfl⟩ := h
      refine ⟨?_, ?_, Nat.le_add_right _ _⟩
      · intro x hx
        show head_block.init idx.m_data (idx.m_next_empty % 2 ^ 32) t
          (idx.m_next_empty % 2 ^ 32) x = idx.m_data x
        apply init_out
        left
        rw [Nat.mod_eq_of_lt hne32]
        unfold struct_ptr
        simp only [BLOCK_SIZE] at hx ⊢
        omega
      · intro s hs
        show Function.update idx.m_term_offsets e (idx.m_next_empty % 2 ^ 32) s = _
        rw [Function.update_noteq]
        intro e1
        rw [e1] at hs
        exact hs he
    · rw [if_neg he] at h
      simp only [Option.some.injEq, Prod.mk.injEq] at h
      obtain ⟨_, rfl⟩ := h
      exact ⟨fun _ _ => rfl, fun _ _ => rfl, Nat.le_refl _⟩

theorem update_eq_of_agree (chains chains1 : Nat → Option Chain) (s : Nat) (x : Option Chain)
    (h : ∀ s2, s2 ≠ s → chains1 s2 = chains s2) :
    Function.update chains1 s x = Function.update chains s x := by
  funext s2
  by_cases e : s2 = s
  · subst e
    simp
  · rw [Function.update_noteq e, Function.update_noteq e, h s2 e]

/-- One valid `insert` on an index with the invariant: what it keeps and what it adds. -/
theorem insert_frame (hash : List Nat → Nat) (idx : immediate_index)
    (chains : Nat → Option Chain) (P : List Nat → List (Nat × Nat))
    (inv : IndexInv hash idx chains) (tr : Tracks chains P)
    (d : Nat) (t ps : List Nat) (htl : t.length ≤ HEAD_BYTES) (htc : ∀ x ∈ t, x < 256)
    (hd30 : d < 2 ^ 30) (hp1 : 1 ≤ ps.length) (hp2 : ps.length < 2 ^ 32)
    (hlast : lastDoc 0 (P t) < d) (idx2 : immediate_index)
    (h : idx.insert hash d t ps = some idx2) :
    ∃ chains2 s c2, IndexInv hash idx2 chains2 ∧
      Tracks chains2 (fun t2 => if t2 = t then P t ++ [(d, ps.length)] else P t2) ∧
      chains2 s = some c2 ∧ c2.term = t ∧
      (∀ s2, s2 ≠ s → chains2 s2 = chains s2) ∧
      (∀ c0, chains s = some c0 → c0.term = t) ∧
      (∀ s2, idx.m_term_offsets s2 ≠ END_CHAIN →
        idx2.m_term_offsets s2 = idx.m_term_offsets s2) ∧
      (∀ x, (∀ c0 b, chains s = some c0 → b ∈ c0.blocks →
          x < struct_ptr b.idx ∨ struct_ptr b.idx + BLOCK_SIZE * b.size ≤ x) →
        x < BLOCK_SIZE * idx.m_next_empty → idx2.m_data x = idx.m_data x) ∧
      idx.m_next_empty ≤ idx2.m_next_empty ∧
      (∀ c0 b, chains s = some c0 → b ∈ c0.blocks →
        ∃ b' ∈ c2.blocks, b'.idx = b.idx ∧ b'.size = b.size) ∧
      (∀ a, idx.m_next_empty ≤ a → a < idx2.m_next_empty →
        ∃ b' ∈ c2.blocks, b'.idx ≤ a ∧ a < b'.idx + b'.size) := by
  cases hh : idx.insert_head hash t with
  | none =>
    unfold immediate_index.insert at h
    rw [hh] at h
    cases h
  | some r =>
    obtain ⟨hb, idx1⟩ := r
    have hp := insert_unfold hash idx idx1 idx2 d hb t ps hp2 hh h
    obtain ⟨chains1, s, c, inv1, hc1, e1, e2, e3, hs0, hother, hnew, hold⟩ :=
      insert_head_inv hash idx chains P inv tr t htl htc hb idx1 hh
    have hne32 : idx.m_next_empty < 2 ^ 32 := by
      have := inv.dsize
      have := inv.ne_lt
      omega
    obtain ⟨m1, d1, n1⟩ := insert_head_mem hash idx t hb idx1 hne32 hh
    rw [← e1] at hp
    obtain ⟨f1, f2, f3, c', g1, g2, inv2, g4, g5⟩ :=
      insert_posting_frame hash idx1 chains1 inv1 s c hc1 d ps.length
        (by rw [e3]; exact hlast) hd30 hp1 hp2 idx2 hp
    have hcase : ∀ c0, chains s = some c0 → chains1 = chains ∧ idx1 = idx ∧ c0 = c := by
      intro c0 hc0
      have hP : P t ≠ [] := by
        intro hP
        exact (tr t).1 hP s c0 hc0 (hs0 c0 hc0)
      obtain ⟨a1, a2⟩ := hold hP
      refine ⟨a1, a2, ?_⟩
      rw [a1, hc0] at hc1
      exact Option.some.inj hc1
    refine ⟨Function.update chains1 s (some c'), s, c', inv2, ?_, by simp, g1.trans e2,
      ?_, hs0, ?_, ?_, Nat.le_trans n1 f2, ?_, ?_⟩
    · rw [update_eq_of_agree chains chains1 s _ hother]
      exact tracks_update chains P tr s t hs0 c' (g1.trans e2) _ (by rw [g2, e3]) (by simp)
    · intro s2 hs2
      rw [Function.update_noteq hs2]
      exact hother s2 hs2
    · intro s2 hs2
      rw [f1]
      exact d1 s2 hs2
    · intro x hx hx2
      rw [← m1 x hx2]
      apply f3 x
      · intro b hb2
        by_cases hP : P t = []
        · rw [(hnew hP).1] at hb2
          simp only [List.mem_singleton] at hb2
          subst hb2
          left
          show x < struct_ptr idx.m_next_empty
          unfold struct_ptr
          simp only [BLOCK_SIZE] at hx2 ⊢
          omega
        · obtain ⟨a1, a2⟩ := hold hP
          rw [a1] at hc1
          exact hx c b hc1 hb2
      · have := Nat.mul_le_mul_left BLOCK_SIZE n1
        omega
    · intro c0 b hc0 hb2
      obtain ⟨_, _, a3⟩ := hcase c0 hc0
      rw [a3] at hb2
      exact g4 b hb2
    · intro a ha1 ha2
      by_cases hlt : a < idx1.m_next_empty
      · by_cases hP : P t = []
        · obtain ⟨b1, b2⟩ := hnew hP
          obtain ⟨b', hb', q1, q2⟩ := g4 ⟨idx.m_next_empty, idx.m_slab_size 0, []⟩
            (by rw [b1]; simp)
          refine ⟨b', hb', ?_, ?_⟩
          · rw [q1]
            exact ha1
          · rw [q1, q2]
            show a < idx.m_next_empty + idx.m_slab_size 0
            omega
        · obtain ⟨_, a2⟩ := hold hP
          rw [a2] at hlt
          omega
      · exact g5 a (by omega) ha2

/-- Every chain of another term survives a valid `insert` byte for byte. -/
theorem other_chain_frame (hash : List Nat → Nat) (idx : immediate_index)
    (chains : Nat → Option Chain) (P : List Nat → List (Nat × Nat))
    (inv : IndexInv hash idx chains) (tr : Tracks chains P)
    (d : Nat) (t ps : List Nat) (htl : t.length ≤ HEAD_BYTES) (htc : ∀ x ∈ t, x < 256)
    (hd30 : d < 2 ^ 30) (hp1 : 1 ≤ ps.length) (hp2 : ps.length < 2 ^ 32)
    (hlast : lastDoc 0 (P t) < d) (idx2 : immediate_index)
    (h : idx.insert hash d t ps = some idx2) :
    ∃ chains2, IndexInv hash idx2 chains2 ∧
      (∀ s2, idx.m_term_offsets s2 ≠ END_CHAIN →
        idx2.m_term_offsets s2 = idx.m_term_offsets s2) ∧
      ∀ s c0, chains s = some c0 → c0.term ≠ t → chains2 s = some c0 ∧
        ∀ b ∈ c0.blocks, ∀ o, o < BLOCK_SIZE * b.size →
          idx2.m_data (struct_ptr b.idx + o) = idx.m_data (struct_ptr b.idx + o) := by
  obtain ⟨chains2, s1, c2, inv2, _, _, _, hother, hs0, hdir, hmem, _, _, _⟩ :=
    insert_frame hash idx chains P inv tr d t ps htl htc hd30 hp1 hp2 hlast idx2 h
  refine ⟨chains2, inv2, hdir, ?_⟩
  intro s c0 hc0 hne
  have hs : s ≠ s1 := by
    intro e
    subst e
    exact hne (hs0 c0 hc0)
  refine ⟨by rw [hother s hs]; exact hc0, ?_⟩
  intro b hb o ho
  apply hmem
  · intro c1 b1 hc1 hb1
    have := inv.disj s s1 c0 c1 b b1 hc0 hc1 hs hb hb1
    unfold struct_ptr
    simp only [BLOCK_SIZE] at ho ⊢
    omega
  · have := inv.bound s c0 b hc0 hb
    unfold struct_ptr
    simp only [BLOCK_SIZE] at ho ⊢
    omega

theorem get_term_congr (m m2 : Mem) (h : Nat)
    (hx : ∀ o, o < 20 + head_block.word_length m h → m2 (struct_ptr h + o) = m (struct_ptr h + o))
    : head_block.get_term m2 h = head_block.get_term m h := by
  have hw : head_block.word_length m2 h = head_block.word_length m h := by
    unfold head_block.word_length
    exact hx 19 (by omega)
  unfold head_block.get_term
  rw [hw]
  apply List.map_congr_left
  intro i hi
  have hi2 := List.mem_range.1 hi
  simp only [HEAD_PL_OFFSET]
  rw [Nat.add_assoc, hx (20 + i) (by omega)]

theorem start_cursor_congr (idx idx2 : immediate_index) (c : Chain)
    (hx : ∀ o, o < 20 → idx2.m_data (struct_ptr c.head + o) = idx.m_data (struct_ptr c.head + o)) :
    start_cursor idx2 c = start_cursor idx c := by
  have e1 : idx2.tail_block c.head = idx.tail_block c.head := by
    unfold immediate_index.tail_block
    apply tail_block_congr
    intro x h1 h2
    have := hx (x - struct_ptr c.head) (by omega)
    rw [show struct_ptr c.head + (x - struct_ptr c.head) = x by omega] at this
    exact this
  have e2 : idx2.doc_freq c.head = idx.doc_freq c.head := by
    unfold immediate_index.doc_freq
    apply doc_freq_congr
    intro x h1 h2
    have := hx (x - struct_ptr c.head) (by omega)
    rw [show struct_ptr c.head + (x - struct_ptr c.head) = x by omega] at this
    exact this
  have e3 : idx2.head_data_offset c.head = idx.head_data_offset c.head := by
    unfold immediate_index.head_data_offset head_block.data_offset head_block.word_length
    rw [hx 19 (by omega)]
  unfold start_cursor
  rw [e1, e2, e3]

/-- A cursor over a chain that two indexes hold with the same head bytes reads the same
sequence in both. -/
theorem cursor_frame (hash : List Nat → Nat) (idx idx2 : immediate_index)
    (chains chains2 : Nat → Option Chain) (inv : IndexInv hash idx chains)
    (inv2 : IndexInv hash idx2 chains2) (s : Nat) (c : Chain) (hc : chains s = some c)
    (hc2 : chains2 s = some c) (hne : c.posts ≠ [])
    (hx : ∀ o, o < 20 → idx2.m_data (struct_ptr c.head + o) = idx.m_data (struct_ptr c.head + o)) :
    ∃ c1 fe, postings_cursor.create hash idx c.term = some c1 ∧
      postings_cursor.create hash idx2 c.term = some c1 ∧ c1.valid = true ∧
      postings_cursor.read_all idx c.posts.length c1 = some (c.posts ++ [(END_CHAIN, fe)]) ∧
      postings_cursor.read_all idx2 c.posts.length c1
        = some (c.posts ++ [(END_CHAIN, fe)]) := by
  obtain ⟨c1, a1, a2, _, a4⟩ := cursor_reads_chain hash idx chains inv s c hc hne
  obtain ⟨c2, b1, _, _, b4⟩ := cursor_reads_chain hash idx2 chains2 inv2 s c hc2 hne
  obtain ⟨l1, hl1, _, _⟩ := fresh_tracked hash idx chains inv s c hc hne c1 a1
  obtain ⟨l2, hl2, _, _⟩ := fresh_tracked hash idx2 chains2 inv2 s c hc2 hne c2 b1
  have hst := start_cursor_congr idx idx2 c hx
  have hcs : canon_states idx2 c = canon_states idx c := by
    unfold canon_states
    rw [hst]
  have hce : canon_end idx2 c = canon_end idx c := by
    unfold canon_end
    rw [hst]
  rw [hcs, hl1] at hl2
  have e : c2 = c1 := (List.cons.inj hl2).1.symm
  subst e
  rw [hce] at b4
  exact ⟨c2, _, a1, b1, a2, a4, b4⟩

theorem head_fields_congr (m m2 : Mem) (h : Nat)
    (hx : ∀ o, o < 64 → m2 (struct_ptr h + o) = m (struct_ptr h + o))
    (hw : head_block.word_length m h ≤ 44) :
    head_block.next_block m2 h = head_block.next_block m h ∧
    head_block.tail_block m2 h = head_block.tail_block m h ∧
    head_block.doc_freq m2 h = head_block.doc_freq m h ∧
    head_block.recent_docid m2 h = head_block.recent_docid m h ∧
    head_block.tail_byte_offset m2 h = head_block.tail_byte_offset m h ∧
    head_block.growth_offset m2 h = head_block.growth_offset m h ∧
    head_block.word_length m2 h = head_block.word_length m h ∧
    head_block.get_term m2 h = head_block.get_term m h := by
  have hy : ∀ x, struct_ptr h ≤ x → x < struct_ptr h + 64 → m2 x = m x := by
    intro x h1 h2
    have := hx (x - struct_ptr h) (by omega)
    rw [show struct_ptr h + (x - struct_ptr h) = x by omega] at this
    exact this
  refine ⟨?_, ?_, ?_, ?_, ?_, ?_, ?_, ?_⟩
  · exact next_block_congr _ _ _ (fun x h1 h2 => hy x h1 (by omega))
  · exact tail_block_congr _ _ _ (fun x h1 h2 => hy x (by omega) (by omega))
  · exact doc_freq_congr _ _ _ (fun x h1 h2 => hy x (by omega) (by omega))
  · exact recent_docid_congr _ _ _ (fun x h1 h2 => hy x (by omega) (by omega))
  · exact tail_byte_offset_congr _ _ _ (fun x h1 h2 => hy x (by omega) (by omega))
  · exact growth_offset_congr _ _ _ (hx 18 (by omega))
  · exact word_length_congr _ _ _ (hx 19 (by omega))
  · exact get_term_congr _ _ _ (fun o ho => hx o (by omega))

end

section
open immediate_index

theorem cover_insert (hash : List Nat → Nat) (idx : immediate_index)
    (chains : Nat → Option Chain) (P : List Nat → List (Nat × Nat))
    (inv : IndexInv hash idx chains) (tr : Tracks chains P) (cov : Cover idx chains)
    (d : Nat) (t ps : List Nat) (htl : t.length ≤ HEAD_BYTES) (htc : ∀ x ∈ t, x < 256)
    (hd30 : d < 2 ^ 30) (hp1 : 1 ≤ ps.length) (hp2 : ps.length < 2 ^ 32)
    (hlast : lastDoc 0 (P t) < d) (idx2 : immediate_index)
    (h : idx.insert hash d t ps = some idx2) :
    ∃ chains2, IndexInv hash idx2 chains2 ∧
      Tracks chains2 (fun t2 => if t2 = t then P t ++ [(d, ps.length)] else P t2) ∧
      Cover idx2 chains2 := by
  obtain ⟨chains2, s1, c2, inv2, tr2, hc2, _, hother, _, _, _, _, hkeep, hnew⟩ :=
    insert_frame hash idx chains P inv tr d t ps htl htc hd30 hp1 hp2 hlast idx2 h
  refine ⟨chains2, inv2, tr2, ?_⟩
  intro a ha
  by_cases hlt : a < idx.m_next_empty
  · obtain ⟨s, c, b, hc, hb, h1, h2⟩ := cov a hlt
    by_cases hs : s = s1
    · subst hs
      obtain ⟨b', hb', e1, e2⟩ := hkeep c b hc hb
      exact ⟨s, c2, b', hc2, hb', by rw [e1]; exact h1, by rw [e1, e2]; exact h2⟩
    · exact ⟨s, c, b, by rw [hother s hs]; exact hc, hb, h1, h2⟩
  · obtain ⟨b', hb', h1, h2⟩ := hnew a (by omega) ha
    exact ⟨s1, c2, b', hc2, hb', h1, h2⟩

theorem run_inserts_cover (hash : List Nat → Nat) : ∀ (calls : List insert_call)
    (idx : immediate_index) (chains : Nat → Option Chain) (P : List Nat → List (Nat × Nat)),
    IndexInv hash idx chains → Tracks chains P → Cover idx chains →
    (∀ c ∈ calls, c.term.length ≤ HEAD_BYTES ∧ ∀ x ∈ c.term, x < 256) →
    (∀ t, PostsOK 0 (P t ++ postings_of calls t)) →
    ∀ idx', run_inserts hash idx calls = some idx' →
    ∃ chains', IndexInv hash idx' chains' ∧
      Tracks chains' (fun t => P t ++ postings_of calls t) ∧ Cover idx' chains' := by
  intro calls
  induction calls with
  | nil =>
    intro idx chains P inv tr cov _ _ idx' h
    simp only [run_inserts, Option.some.injEq] at h
    subst h
    refine ⟨chains, inv, ?_, cov⟩
    simpa [postings_of] using tr
  | cons c rest ih =>
    intro idx chains P inv tr cov hterm hok idx' h
    unfold run_inserts at h
    cases hi : idx.insert hash c.docid c.term c.positions with
    | none =>
      rw [hi] at h
      cases h
    | some idx1 =>
      rw [hi] at h
      simp only at h
      have hc := hterm c (List.mem_cons_self _ _)
      have h1 := hok c.term
      rw [postings_of_cons, if_pos rfl, PostsOK_append] at h1
      obtain ⟨_, hlt, hd30, hf1, hf2, _⟩ := h1
      obtain ⟨chains1, inv1, tr1, cov1⟩ := cover_insert hash idx chains P inv tr cov c.docid
        c.term c.positions hc.1 hc.2 hd30 hf1 hf2 hlt idx1 hi
      have hP : ∀ t, (if t = c.term then P c.term ++ [(c.docid, c.positions.length)] else P t)
          ++ postings_of rest t = P t ++ postings_of (c :: rest) t := by
        intro t
        rw [postings_of_cons]
        by_cases ht : t = c.term
        · subst ht
          simp
        · rw [if_neg ht, if_neg (fun e => ht e.symm)]
      obtain ⟨chains2, inv2, tr2, cov2⟩ := ih idx1 chains1 _ inv1 tr1 cov1
        (fun c2 h2 => hterm c2 (List.mem_cons_of_mem _ h2))
        (fun t => by rw [hP]; exact hok t) idx' h
      refine ⟨chains2, inv2, ?_, cov2⟩
      have hfun : (fun t => (if t = c.term then P c.term ++ [(c.docid, c.positions.length)]
          else P t) ++ postings_of rest t) = (fun t => P t ++ postings_of (c :: rest) t) :=
        funext hP
      rw [← hfun]
      exact tr2

/-- An index built by valid calls: its invariant, with every block in use in some chain. -/
theorem build_cover (hash : List Nat → Nat) (S : Nat → Nat) (N H : Nat)
    (calls : List insert_call) (idx : immediate_index)
    (hS : SlabsOK S) (hH : 0 < H) (hN : N ≤ 2 ^ 32) (hv : ValidCalls calls)
    (hrun : run_inserts hash (mk_sized S N H) calls = some idx) :
    ∃ chains, IndexInv hash idx chains ∧ Tracks chains (postings_of calls) ∧
      Cover idx chains := by
  obtain ⟨chains, inv, tr, cov⟩ := run_inserts_cover hash calls _ _ (fun _ => [])
    (inv_init hash S N H hS hH hN) tracks_init
    (fun a ha => absurd ha (Nat.not_lt_zero a))
    (fun c hc => ⟨(hv.1 c hc).2.2.2.2.2.1, (hv.1 c hc).2.2.2.2.2.2⟩)
    (fun t => by simpa using valid_calls_posts calls hv t) idx hrun
  refine ⟨chains, inv, ?_, cov⟩
  simpa using tr

/-- With every block in use in some chain, the compacted chains fill `next_empty` blocks. -/
theorem new_head_total (hash : List Nat → Nat) (idx : immediate_index)
    (chains : Nat → Option Chain) (inv : IndexInv hash idx chains) (cov : Cover idx chains) :
    new_head chains idx.m_term_offsets_size = idx.m_next_empty := by
  apply Nat.le_antisymm (new_head_le hash idx chains inv _)
  obtain ⟨U, hc, hm⟩ := used_set hash idx chains inv idx.m_term_offsets_size
  rw [← hc, ← Finset.card_range idx.m_next_empty]
  apply Finset.card_le_card
  intro a ha
  obtain ⟨s, c, b, h1, h2, h3, h4⟩ := cov a (Finset.mem_range.1 ha)
  exact (hm a).2 ⟨s, c, b, chain_slot_lt hash idx chains inv s c h1, h1, h2, h3, h4⟩

theorem load_rest (tgt : immediate_index) (ne H : Nat) (table data : List Nat)
    (hne : ne < 2 ^ 64) (hH : H < 2 ^ 64) (ht : table.length = 4 * H)
    (hd : data.length = ne * BLOCK_SIZE) :
    (tgt.load (some (u64_bytes ne ++ (u64_bytes H ++ (table ++ data))))).2 = some [] := by
  have r1 := read_some (u64_bytes ne) (u64_bytes H ++ (table ++ data)) 8 rfl
  have r2 := read_some (u64_bytes H) (table ++ data) 8 rfl
  have r3 := read_some table data (4 * H) ht
  have r4 := read_some data [] (ne * BLOCK_SIZE) hd
  rw [List.append_nil] at r4
  have o1 : overwrite (u64_bytes tgt.m_next_empty) (u64_bytes ne) = u64_bytes ne :=
    overwrite_full _ _ (by simp [u64_bytes_length])
  have o2 : overwrite (u64_bytes 0) (u64_bytes H) = u64_bytes H :=
    overwrite_full _ _ (by simp [u64_bytes_length])
  unfold immediate_index.load
  simp only [r1, o1, of_bytes_u64 ne hne, r2, o2, of_bytes_u64 H hH, r3, r4]

theorem slot_blocks_sum (hash : List Nat → Nat) (idx : immediate_index)
    (chains : Nat → Option Chain) (inv : IndexInv hash idx chains) :
    ((List.range idx.m_term_offsets_size).map
      (slot_blocks idx (chain_len chains))).sum
      = new_head chains idx.m_term_offsets_size := by
  unfold new_head
  congr 1
  apply List.map_congr_left
  intro s hs
  have hs2 := List.mem_range.1 hs
  unfold slot_blocks chain_len
  cases hc : chains s with
  | none =>
    simp only
    rw [if_pos (inv.dir_none s hc hs2)]
  | some c =>
    simp only
    rw [inv.dir_some s c hc, if_neg (chain_head_ne_end hash idx chains inv s c hc),
      chain_span _ _ c (inv.rep s c hc)]

end

section
open immediate_index

/-- C33: for every docgap `d` with `1 ≤ d < 2 ^ 30` and every frequency `f ≥ 1` (a 32-bit
value), whatever the buffer, the write position and the stride on entry, `decode_magic` on
the bytes written by `encode_magic d f` returns exactly `(d, f)` and advances the stride by
exactly the number of bytes `encode_magic` returned as written. -/
theorem magic_round_trip_stride (d f : Nat) (hd1 : 1 ≤ d) (hd2 : d < 2 ^ 30) (hf1 : 1 ≤ f)
    (hf2 : f < 2 ^ 32) (buffer : Mem) (p stride : Nat) :
    decode_magic (encode_magic d f buffer p).1 p stride
      = some ((d, f), stride + (encode_magic d f buffer p).2) := by
  rw [decode_magic_holds d f hd1 (by omega) (Or.inl hd2) hf1 hf2 _ _ _
    (holds_magic_written d f buffer p), encode_magic_eq, magic_bytes_length]

/-- C33 (witness): the round trip of `(5, 7)` written at address 3, read with stride 11. -/
theorem magic_round_trip_stride_witness :
    decode_magic (encode_magic 5 7 (fun _ => 0) 3).1 3 11
      = some ((5, 7), 11 + (encode_magic 5 7 (fun _ => 0) 3).2) :=
  magic_round_trip_stride 5 7 (by norm_num) (by norm_num) (by norm_num) (by norm_num)
    (fun _ => 0) 3 11

/-- C34: for every 32-bit `v`, whatever the buffer and the write position, one of the bytes
written by `vbyte_encode v` is `0x00` if and only if `v = 0`; and for every `d` with
`1 ≤ d < 2 ^ 30` and every 32-bit `f ≥ 1` no byte written by `encode_magic d f` is `0x00`. -/
theorem codec_sentinel_free (v d f : Nat) (hv : v < 2 ^ 32) (hd1 : 1 ≤ d) (hd2 : d < 2 ^ 30)
    (hf1 : 1 ≤ f) (hf2 : f < 2 ^ 32) (buffer : Mem) (p : Nat) :
    ((∃ i, i < (vbyte_encode v buffer p).2 ∧ (vbyte_encode v buffer p).1 (p + i) = 0)
      ↔ v = 0) ∧
    ∀ i, i < (encode_magic d f buffer p).2 → (encode_magic d f buffer p).1 (p + i) ≠ 0 := by
  constructor
  · rw [vbyte_encode_eq v hv]
    have hw := holds_write_list (vbyte_bytes v) (vbyte_bytes_lt v hv) buffer p
    constructor
    · rintro ⟨i, hi, h0⟩
      by_contra hne
      simp only at hi h0
      rw [hw i hi, List.getD_eq_getElem _ _ hi] at h0
      exact vbyte_bytes_ne_zero v (by omega) _ (List.getElem_mem hi) h0
    · intro h0
      subst h0
      refine ⟨0, Nat.zero_lt_succ 0, ?_⟩
      simp only
      rw [hw 0 (Nat.zero_lt_succ 0)]
      rfl
  · intro i hi
    rw [encode_magic_eq] at hi ⊢
    simp only at hi ⊢
    rw [holds_write_list (magic_bytes d f) (magic_bytes_lt d f) buffer p i hi,
      List.getD_eq_getElem _ _ hi]
    exact magic_bytes_ne_zero d f hd1 hd2 hf1 hf2 _ (List.getElem_mem hi)

/-- C34 (witness): the values `300` and `(5, 7)` written at address 3 of a zeroed buffer. -/
theorem codec_sentinel_free_witness :
    ((∃ i, i < (vbyte_encode 300 (fun _ => 0) 3).2 ∧
        (vbyte_encode 300 (fun _ => 0) 3).1 (3 + i) = 0) ↔ 300 = 0) ∧
    ∀ i, i < (encode_magic 5 7 (fun _ => 0) 3).2 →
      (encode_magic 5 7 (fun _ => 0) 3).1 (3 + i) ≠ 0 :=
  codec_sentinel_free 300 5 7 (by norm_num) (by norm_num) (by norm_num) (by norm_num)
    (by norm_num) (fun _ => 0) 3

end

section
open immediate_index

/-- C40: after any sequence of valid `insert` calls on a fresh index, every non-NIL directory
slot references a head block whose stored term (the `word_length` bytes `get_term` reads) is
the term of one of the calls; no two non-NIL slots reference head blocks storing the same
term; and for the term of every call `found_or_empty_offset` returns a non-NIL slot whose
head block stores that term, reached from the hash slot of the term through non-NIL slots
only. -/
theorem directory_consistent (hash : List Nat → Nat) (S : Nat → Nat) (N H : Nat)
    (calls : List insert_call) (idx : immediate_index)
    (hS : SlabsOK S) (hH : 0 < H) (hN : N ≤ 2 ^ 32) (hv : ValidCalls calls)
    (hrun : run_inserts hash (mk_sized S N H) calls = some idx) :
    (∀ s, s < idx.m_term_offsets_size → idx.m_term_offsets s ≠ END_CHAIN →
      ∃ call ∈ calls,
        call.term = head_block.get_term idx.m_data (idx.m_term_offsets s)) ∧
    (∀ s1 s2, s1 < idx.m_term_offsets_size → s2 < idx.m_term_offsets_size →
      idx.m_term_offsets s1 ≠ END_CHAIN → idx.m_term_offsets s2 ≠ END_CHAIN →
      head_block.get_term idx.m_data (idx.m_term_offsets s1)
        = head_block.get_term idx.m_data (idx.m_term_offsets s2) → s1 = s2) ∧
    (∀ call ∈ calls, ∃ s, idx.found_or_empty_offset hash call.term = some s ∧
      s < idx.m_term_offsets_size ∧ idx.m_term_offsets s ≠ END_CHAIN ∧
      head_block.get_term idx.m_data (idx.m_term_offsets s) = call.term ∧
      ProbePath hash idx call.term s) := by
  obtain ⟨chains, inv, tr⟩ := build_inv hash S N H calls idx hS hH hN hv hrun
  refine ⟨?_, ?_, ?_⟩
  · intro s hs hne
    obtain ⟨c, hc⟩ := slot_chain hash idx chains inv s hs hne
    rw [chain_get_term hash idx chains inv s c hc]
    exact (postings_ne_iff calls c.term).1 (tracked_inserted chains calls tr s c hc)
  · intro s1 s2 h1 h2 n1 n2 e
    obtain ⟨c1, hc1⟩ := slot_chain hash idx chains inv s1 h1 n1
    obtain ⟨c2, hc2⟩ := slot_chain hash idx chains inv s2 h2 n2
    rw [chain_get_term hash idx chains inv s1 c1 hc1,
      chain_get_term hash idx chains inv s2 c2 hc2] at e
    exact inv.distinct s1 s2 c1 c2 hc1 hc2 e
  · intro call hcall
    obtain ⟨s, c, hc, e1, _⟩ := (tr call.term).2
      ((postings_ne_iff calls call.term).2 ⟨call, hcall, rfl⟩)
    have hfo := found_of_chain hash idx chains inv s c hc
    have hp := inv.probe s c hc
    have hg := chain_get_term hash idx chains inv s c hc
    rw [e1] at hfo hp hg
    refine ⟨s, hfo, chain_slot_lt hash idx chains inv s c hc, ?_, hg, hp⟩
    rw [inv.dir_some s c hc]
    exact chain_head_ne_end hash idx chains inv s c hc

/-- C40 (witness): the statement for the index built by the calls `wcalls`. -/
theorem directory_consistent_witness :
    ∃ idx, run_inserts whash (mk_sized wslabs 40 8) wcalls = some idx ∧
      (∀ s, s < idx.m_term_offsets_size → idx.m_term_offsets s ≠ END_CHAIN →
        ∃ call ∈ wcalls,
          call.term = head_block.get_term idx.m_data (idx.m_term_offsets s)) ∧
      (∀ s1 s2, s1 < idx.m_term_offsets_size → s2 < idx.m_term_offsets_size →
        idx.m_term_offsets s1 ≠ END_CHAIN → idx.m_term_offsets s2 ≠ END_CHAIN →
        head_block.get_term idx.m_data (idx.m_term_offsets s1)
          = head_block.get_term idx.m_data (idx.m_term_offsets s2) → s1 = s2) ∧
      (∀ call ∈ wcalls, ∃ s, idx.found_or_empty_offset whash call.term = some s ∧
        s < idx.m_term_offsets_size ∧ idx.m_term_offsets s ≠ END_CHAIN ∧
        head_block.get_term idx.m_data (idx.m_term_offsets s) = call.term ∧
        ProbePath whash idx call.term s) := by
  obtain ⟨idx, h⟩ := wcalls_run
  exact ⟨idx, h, directory_consistent whash wslabs 40 8 wcalls idx wslabs_ok (by decide)
    (by norm_num) wcalls_valid h⟩

end

section
open immediate_index

/-- C31: after any sequence of valid `insert` calls on a fresh index with slab table `S`,
every non-NIL directory slot heads a chain of some number `n ≥ 1` of logical blocks (the
`tail_block` of the head is reached after `n - 1` hops and not before) such that
`growth_offset` of the head is `min (n - 1) 255`, so the tail occupies `S[growth_offset]`
physical blocks, and the range of `S[min j 255]` physical blocks starting at the index of the
`j`-th logical block ends at or below `next_empty` for every `j < n`; and the ranges of two
distinct logical blocks, of the same chain or of the chains of two slots, are disjoint. -/
theorem slab_ownership (hash : List Nat → Nat) (S : Nat → Nat) (N H : Nat)
    (calls : List insert_call) (idx : immediate_index)
    (hS : SlabsOK S) (hH : 0 < H) (hN : N ≤ 2 ^ 32) (hv : ValidCalls calls)
    (hrun : run_inserts hash (mk_sized S N H) calls = some idx) :
    (∀ s, s < H → idx.m_term_offsets s ≠ END_CHAIN →
      ∃ n, ChainLen idx.m_data (idx.m_term_offsets s) n ∧
        head_block.growth_offset idx.m_data (idx.m_term_offsets s)
          = min (n - 1) MAX_SLAB_IDX ∧
        head_block.tail_block idx.m_data (idx.m_term_offsets s)
          + S (head_block.growth_offset idx.m_data (idx.m_term_offsets s))
            ≤ idx.m_next_empty ∧
        ∀ j, j < n →
          chain_walk idx.m_data (idx.m_term_offsets s) j + S (min j MAX_SLAB_IDX)
            ≤ idx.m_next_empty) ∧
    (∀ s1 s2 n1 n2 j1 j2, s1 < H → s2 < H →
      idx.m_term_offsets s1 ≠ END_CHAIN → idx.m_term_offsets s2 ≠ END_CHAIN →
      ChainLen idx.m_data (idx.m_term_offsets s1) n1 →
      ChainLen idx.m_data (idx.m_term_offsets s2) n2 →
      j1 < n1 → j2 < n2 → (s1 ≠ s2 ∨ j1 ≠ j2) →
      chain_walk idx.m_data (idx.m_term_offsets s1) j1 + S (min j1 MAX_SLAB_IDX)
          ≤ chain_walk idx.m_data (idx.m_term_offsets s2) j2 ∨
        chain_walk idx.m_data (idx.m_term_offsets s2) j2 + S (min j2 MAX_SLAB_IDX)
          ≤ chain_walk idx.m_data (idx.m_term_offsets s1) j1) := by
  obtain ⟨chains, inv, _⟩ := build_inv hash S N H calls idx hS hH hN hv hrun
  obtain ⟨eS, eH⟩ := built_slabs hash S N H calls idx hrun
  have key : ∀ s, s < H → idx.m_term_offsets s ≠ END_CHAIN →
      ∃ c, chains s = some c ∧
        ChainLen idx.m_data (idx.m_term_offsets s) c.blocks.length ∧
        ∀ j, j < c.blocks.length → ∃ b, c.blocks[j]? = some b ∧
          chain_walk idx.m_data (idx.m_term_offsets s) j = b.idx ∧
          b.size = S (min j MAX_SLAB_IDX) := by
    intro s hs hne
    obtain ⟨c, hc⟩ := slot_chain hash idx chains inv s (by rw [eH]; exact hs) hne
    have hrep := inv.rep s c hc
    refine ⟨c, hc, ?_, ?_⟩
    · rw [inv.dir_some s c hc]
      exact chain_len_spec hash idx chains inv s c hc
    · intro j hj
      obtain ⟨b, hb⟩ := blocks_get c.blocks j hj
      refine ⟨b, hb, ?_, ?_⟩
      · rw [inv.dir_some s c hc]
        exact walk_blocks _ _ c hrep j b hb
      · rw [← eS]
        exact chain_sizes _ _ c hrep j b hb
  constructor
  · intro s hs hne
    obtain ⟨c, hc, hlen, hblk⟩ := key s hs hne
    have hg : head_block.growth_offset idx.m_data (idx.m_term_offsets s)
        = min (c.blocks.length - 1) MAX_SLAB_IDX := by
      rw [inv.dir_some s c hc]
      exact chain_growth _ _ c (inv.rep s c hc)
    have hall : ∀ j, j < c.blocks.length →
        chain_walk idx.m_data (idx.m_term_offsets s) j + S (min j MAX_SLAB_IDX)
          ≤ idx.m_next_empty := by
      intro j hj
      obtain ⟨b, hb, e1, e2⟩ := hblk j hj
      rw [e1, ← e2]
      exact inv.bound s c b hc (List.getElem?_mem hb)
    refine ⟨c.blocks.length, hlen, hg, ?_, hall⟩
    rw [hg, ← hlen.2.1]
    exact hall _ (by have := hlen.1; omega)
  · intro s1 s2 n1 n2 j1 j2 hs1 hs2 hne1 hne2 hl1 hl2 hj1 hj2 hd
    obtain ⟨c1, hc1, hlen1, hblk1⟩ := key s1 hs1 hne1
    obtain ⟨c2, hc2, hlen2, hblk2⟩ := key s2 hs2 hne2
    rw [chain_len_unique _ _ _ _ hl1 hlen1] at hj1
    rw [chain_len_unique _ _ _ _ hl2 hlen2] at hj2
    obtain ⟨b1, hb1, e1, f1⟩ := hblk1 j1 hj1
    obtain ⟨b2, hb2, e2, f2⟩ := hblk2 j2 hj2
    rw [e1, e2, ← f1, ← f2]
    by_cases hs : s1 = s2
    · subst hs
      rw [hc1] at hc2
      cases hc2
      have hord := inv.ordered s1 c1 hc1
      have hj : j1 ≠ j2 := by
        rcases hd with h | h
        · exact absurd rfl h
        · exact h
      rcases Nat.lt_or_gt_of_ne hj with hlt | hlt
      · exact Or.inl (ordered_get c1.blocks hord j1 j2 b1 b2 hlt hb1 hb2)
      · exact Or.inr (ordered_get c1.blocks hord j2 j1 b2 b1 hlt hb2 hb1)
    · exact inv.disj s1 s2 c1 c2 b1 b2 hc1 hc2 hs (List.getElem?_mem hb1)
        (List.getElem?_mem hb2)

/-- C31 (witness): the statement for the index built by the calls `wcalls`. -/
theorem slab_ownership_witness :
    ∃ idx, run_inserts whash (mk_sized wslabs 40 8) wcalls = some idx ∧
      (∀ s, s < 8 → idx.m_term_offsets s ≠ END_CHAIN →
        ∃ n, ChainLen idx.m_data (idx.m_term_offsets s) n ∧
          head_block.growth_offset idx.m_data (idx.m_term_offsets s)
            = min (n - 1) MAX_SLAB_IDX ∧
          head_block.tail_block idx.m_data (idx.m_term_offsets s)
            + wslabs (head_block.growth_offset idx.m_data (idx.m_term_offsets s))
              ≤ idx.m_next_empty ∧
          ∀ j, j < n →
            chain_walk idx.m_data (idx.m_term_offsets s) j + wslabs (min j MAX_SLAB_IDX)
              ≤ idx.m_next_empty) ∧
      (∀ s1 s2 n1 n2 j1 j2, s1 < 8 → s2 < 8 →
        idx.m_term_offsets s1 ≠ END_CHAIN → idx.m_term_offsets s2 ≠ END_CHAIN →
        ChainLen idx.m_data (idx.m_term_offsets s1) n1 →
        ChainLen idx.m_data (idx.m_term_offsets s2) n2 →
        j1 < n1 → j2 < n2 → (s1 ≠ s2 ∨ j1 ≠ j2) →
        chain_walk idx.m_data (idx.m_term_offsets s1) j1 + wslabs (min j1 MAX_SLAB_IDX)
            ≤ chain_walk idx.m_data (idx.m_term_offsets s2) j2 ∨
          chain_walk idx.m_data (idx.m_term_offsets s2) j2 + wslabs (min j2 MAX_SLAB_IDX)
            ≤ chain_walk idx.m_data (idx.m_term_offsets s1) j1) := by
  obtain ⟨idx, h⟩ := wcalls_run
  exact ⟨idx, h, slab_ownership whash wslabs 40 8 wcalls idx wslabs_ok (by decide)
    (by norm_num) wcalls_valid h⟩

end

section
open immediate_index

/-- C37: after any sequence of valid `insert` calls on a fresh (zero-initialised) index with
slab table `S`, for every non-NIL directory slot with head `h`: every byte of the tail slab
at an offset from `tail_byte_offset` up to the end of the slab (`S[growth_offset]` blocks)
is `0x00`; and the chain has some number `n` of logical blocks such that the payload of the
`j`-th block, for every `j < n`, is the code of a list of postings that ends at an offset `e`
within the slab, every byte from `e` up to the end of the slab is `0x00`, the test of
`next()` for staying in the block holds at every payload offset before `e` and fails at `e`,
and `e` is `tail_byte_offset` for the tail. -/
theorem sentinel_invariant (hash : List Nat → Nat) (S : Nat → Nat) (N H : Nat)
    (calls : List insert_call) (idx : immediate_index)
    (hS : SlabsOK S) (hH : 0 < H) (hN : N ≤ 2 ^ 32) (hv : ValidCalls calls)
    (hrun : run_inserts hash (mk_sized S N H) calls = some idx) (s : Nat) (hs : s < H)
    (hne : idx.m_term_offsets s ≠ END_CHAIN) :
    (∀ o, head_block.tail_byte_offset idx.m_data (idx.m_term_offsets s) ≤ o →
      o < BLOCK_SIZE * S (head_block.growth_offset idx.m_data (idx.m_term_offsets s)) →
      idx.m_data (struct_ptr (head_block.tail_block idx.m_data (idx.m_term_offsets s)) + o)
        = 0) ∧
    ∃ n, ChainLen idx.m_data (idx.m_term_offsets s) n ∧
      ∀ j, j < n → ∃ base posts e,
        e = (if j = 0 then idx.head_data_offset (idx.m_term_offsets s) else TT_PL_OFFSET)
          + (enc_posts base posts).length ∧
        holds idx.m_data (struct_ptr (chain_walk idx.m_data (idx.m_term_offsets s) j)
          + (if j = 0 then idx.head_data_offset (idx.m_term_offsets s) else TT_PL_OFFSET))
          (enc_posts base posts) ∧
        e ≤ BLOCK_SIZE * S (min j MAX_SLAB_IDX) ∧
        (∀ o, e ≤ o → o < BLOCK_SIZE * S (min j MAX_SLAB_IDX) →
          idx.m_data (struct_ptr (chain_walk idx.m_data (idx.m_term_offsets s) j) + o)
            = 0) ∧
        (∀ o, (if j = 0 then idx.head_data_offset (idx.m_term_offsets s)
            else TT_PL_OFFSET) ≤ o → o < e →
          o < idx.slab_size (min j MAX_SLAB_IDX) * BLOCK_SIZE ∧
            idx.has_data (chain_walk idx.m_data (idx.m_term_offsets s) j) o = true) ∧
        ¬ (e < idx.slab_size (min j MAX_SLAB_IDX) * BLOCK_SIZE ∧
          idx.has_data (chain_walk idx.m_data (idx.m_term_offsets s) j) e = true) ∧
        (j + 1 = n →
          chain_walk idx.m_data (idx.m_term_offsets s) j
            = head_block.tail_block idx.m_data (idx.m_term_offsets s) ∧
          e = head_block.tail_byte_offset idx.m_data (idx.m_term_offsets s)) := by
  obtain ⟨chains, inv, _⟩ := build_inv hash S N H calls idx hS hH hN hv hrun
  obtain ⟨eS, eH⟩ := built_slabs hash S N H calls idx hrun
  obtain ⟨c, hc⟩ := slot_chain hash idx chains inv s (by rw [eH]; exact hs) hne
  have hrep := inv.rep s c hc
  have hlen := chain_len_spec hash idx chains inv s c hc
  have hg := chain_growth _ _ c hrep
  rw [inv.dir_some s c hc]
  have key : ∀ j, j < c.blocks.length → ∃ base posts e,
      e = (if j = 0 then idx.head_data_offset c.head else TT_PL_OFFSET)
        + (enc_posts base posts).length ∧
      holds idx.m_data (struct_ptr (chain_walk idx.m_data c.head j)
        + (if j = 0 then idx.head_data_offset c.head else TT_PL_OFFSET))
        (enc_posts base posts) ∧
      e ≤ BLOCK_SIZE * S (min j MAX_SLAB_IDX) ∧
      (∀ o, e ≤ o → o < BLOCK_SIZE * S (min j MAX_SLAB_IDX) →
        idx.m_data (struct_ptr (chain_walk idx.m_data c.head j) + o) = 0) ∧
      (∀ o, (if j = 0 then idx.head_data_offset c.head else TT_PL_OFFSET) ≤ o → o < e →
        o < idx.slab_size (min j MAX_SLAB_IDX) * BLOCK_SIZE ∧
          idx.has_data (chain_walk idx.m_data c.head j) o = true) ∧
      ¬ (e < idx.slab_size (min j MAX_SLAB_IDX) * BLOCK_SIZE ∧
        idx.has_data (chain_walk idx.m_data c.head j) e = true) ∧
      (j + 1 = c.blocks.length →
        chain_walk idx.m_data c.head j = head_block.tail_block idx.m_data c.head ∧
        e = head_block.tail_byte_offset idx.m_data c.head) := by
    intro j hj
    obtain ⟨b, hb⟩ := blocks_get c.blocks j hj
    obtain ⟨base, lo, hbl, hok, hseg, htl⟩ := chain_block_seg hash idx chains inv s c hc j b hb
    have hw := walk_blocks _ _ c hrep j b hb
    have hsz : b.size = S (min j MAX_SLAB_IDX) := by
      rw [← eS]
      exact chain_sizes _ _ c hrep j b hb
    rw [hsz] at hseg
    have hsl : idx.slab_size (min j MAX_SLAB_IDX) = S (min j MAX_SLAB_IDX) := by
      unfold immediate_index.slab_size
      rw [eS]
    refine ⟨base, b.posts, _, rfl, ?_, ?_, ?_, ?_, ?_, ?_⟩
    · rw [hw]
      exact hseg.1
    · exact hseg.2.1
    · intro o h1 h2
      rw [hw]
      exact hseg.2.2 o h1 h2
    · intro o h1 h2
      have hnz := seg_nonzero _ _ _ _ _ _ _ hbl hok hseg o h1 h2
      refine ⟨?_, ?_⟩
      · rw [hsl, Nat.mul_comm]
        have := hseg.2.1
        unfold immediate_index.head_data_offset head_block.data_offset at h2
        omega
      · unfold immediate_index.has_data
        rw [hw]
        simpa using hnz
    · rintro ⟨h1, h2⟩
      rw [hsl, Nat.mul_comm] at h1
      have hz := hseg.2.2 _ (Nat.le_refl _) (by
        unfold immediate_index.head_data_offset head_block.data_offset at h1
        exact h1)
      unfold immediate_index.has_data at h2
      rw [hw] at h2
      unfold immediate_index.head_data_offset head_block.data_offset at h2
      rw [hz] at h2
      simp at h2
    · intro hl
      have h1 : j = c.blocks.length - 1 := by omega
      refine ⟨?_, (htl hl).symm⟩
      rw [h1]
      exact hlen.2.1
  constructor
  · intro o h1 h2
    obtain ⟨base, posts, e, he, _, _, hz, _, _, ht⟩ :=
      key (c.blocks.length - 1) (by have := hlen.1; omega)
    obtain ⟨t1, t2⟩ := ht (by have := hlen.1; omega)
    rw [← t1]
    rw [hg] at h2
    exact hz o (by rw [t2]; exact h1) h2
  · exact ⟨c.blocks.length, hlen, key⟩

/-- C37 (witness): the statement for the index built by the calls `wcalls` and the directory
slot of the term `[97]`. -/
theorem sentinel_invariant_witness :
    ∃ idx s, run_inserts whash (mk_sized wslabs 40 8) wcalls = some idx ∧
      idx.m_term_offsets s ≠ END_CHAIN ∧
      (∀ o, head_block.tail_byte_offset idx.m_data (idx.m_term_offsets s) ≤ o →
        o < BLOCK_SIZE
          * wslabs (head_block.growth_offset idx.m_data (idx.m_term_offsets s)) →
        idx.m_data (struct_ptr (head_block.tail_block idx.m_data (idx.m_term_offsets s)) + o)
          = 0) ∧
      ∃ n, ChainLen idx.m_data (idx.m_term_offsets s) n ∧
        ∀ j, j < n → ∃ base posts e,
          e = (if j = 0 then idx.head_data_offset (idx.m_term_offsets s) else TT_PL_OFFSET)
            + (enc_posts base posts).length ∧
          holds idx.m_data (struct_ptr (chain_walk idx.m_data (idx.m_term_offsets s) j)
            + (if j = 0 then idx.head_data_offset (idx.m_term_offsets s) else TT_PL_OFFSET))
            (enc_posts base posts) ∧
          e ≤ BLOCK_SIZE * wslabs (min j MAX_SLAB_IDX) ∧
          (∀ o, e ≤ o → o < BLOCK_SIZE * wslabs (min j MAX_SLAB_IDX) →
            idx.m_data (struct_ptr (chain_walk idx.m_data (idx.m_term_offsets s) j) + o)
              = 0) ∧
          (∀ o, (if j = 0 then idx.head_data_offset (idx.m_term_offsets s)
              else TT_PL_OFFSET) ≤ o → o < e →
            o < idx.slab_size (min j MAX_SLAB_IDX) * BLOCK_SIZE ∧
              idx.has_data (chain_walk idx.m_data (idx.m_term_offsets s) j) o = true) ∧
          ¬ (e < idx.slab_size (min j MAX_SLAB_IDX) * BLOCK_SIZE ∧
            idx.has_data (chain_walk idx.m_data (idx.m_term_offsets s) j) e = true) ∧
          (j + 1 = n →
            chain_walk idx.m_data (idx.m_term_offsets s) j
              = head_block.tail_block idx.m_data (idx.m_term_offsets s) ∧
            e = head_block.tail_byte_offset idx.m_data (idx.m_term_offsets s)) := by
  obtain ⟨idx, h⟩ := wcalls_run
  obtain ⟨s, hs, hne, _⟩ := inserted_slot whash wslabs 40 8 wcalls idx wslabs_ok (by decide)
    (by norm_num) wcalls_valid h [97] (by decide)
  exact ⟨idx, s, h, hne, sentinel_invariant whash wslabs 40 8 wcalls idx wslabs_ok (by decide)
    (by norm_num) wcalls_valid h s hs hne⟩

end

section
open immediate_index

/-- C36: let an index be built from a fresh one with slab table `S` by valid `insert` calls
(terms of at most `HEAD_BYTES` characters) and let one more valid call be stored.  Then in
the resulting index the head `h` of every non-NIL directory slot has
`tail_byte_offset ≤ BLOCK_SIZE * S[growth_offset]`, which is below `2 ^ 16`, with
`tail_byte_offset ≥ HEAD_PL_OFFSET + word_length` when the tail is the head and
`tail_byte_offset ≥ TT_PL_OFFSET` otherwise; and the call `encode_magic` of the stored call
writes `len ≥ 1` bytes at offset `off` of the block that is the tail afterwards, with
`off + len ≤ BLOCK_SIZE * S[growth_offset]` and `off + len < 2 ^ 16`, so that the 16-bit
`tail_byte_offset` advances to exactly `off + len` without wrapping. -/
theorem writes_inside_tail (hash : List Nat → Nat) (S : Nat → Nat) (N H : Nat)
    (calls : List insert_call) (idx : immediate_index) (hS : SlabsOK S) (hH : 0 < H)
    (hN : N ≤ 2 ^ 32) (call : insert_call) (hv : ValidCalls (calls ++ [call]))
    (hrun : run_inserts hash (mk_sized S N H) calls = some idx) (idx2 : immediate_index)
    (hins : idx.insert hash call.docid call.term call.positions = some idx2) :
    (∀ s, s < H → idx2.m_term_offsets s ≠ END_CHAIN →
      head_block.tail_byte_offset idx2.m_data (idx2.m_term_offsets s)
        ≤ BLOCK_SIZE * S (head_block.growth_offset idx2.m_data (idx2.m_term_offsets s)) ∧
      head_block.tail_byte_offset idx2.m_data (idx2.m_term_offsets s) < 2 ^ 16 ∧
      (head_block.tail_block idx2.m_data (idx2.m_term_offsets s) = idx2.m_term_offsets s →
        HEAD_PL_OFFSET + head_block.word_length idx2.m_data (idx2.m_term_offsets s)
          ≤ head_block.tail_byte_offset idx2.m_data (idx2.m_term_offsets s)) ∧
      (head_block.tail_block idx2.m_data (idx2.m_term_offsets s) ≠ idx2.m_term_offsets s →
        TT_PL_OFFSET ≤ head_block.tail_byte_offset idx2.m_data (idx2.m_term_offsets s))) ∧
    ∃ hb idx1 blk off len, idx.insert_head hash call.term = some (hb, idx1) ∧
      idx1.posting_write hb call.docid (call.positions.length % 2 ^ 32)
        = some (blk, off, len) ∧
      blk = head_block.tail_block idx2.m_data hb ∧ 1 ≤ len ∧
      off + len ≤ BLOCK_SIZE * S (head_block.growth_offset idx2.m_data hb) ∧
      off + len < 2 ^ 16 ∧
      head_block.tail_byte_offset idx2.m_data hb = off + len ∧
      (blk = hb → HEAD_PL_OFFSET + head_block.word_length idx1.m_data hb ≤ off) ∧
      (blk ≠ hb → TT_PL_OFFSET ≤ off) := by
  constructor
  · have hrun2 := run_inserts_snoc hash calls call _ idx idx2 hrun hins
    obtain ⟨chains, inv, _⟩ := build_inv hash S N H (calls ++ [call]) idx2 hS hH hN hv hrun2
    obtain ⟨eS, eH⟩ := built_slabs hash S N H _ idx2 hrun2
    intro s hs hne
    obtain ⟨c, hc⟩ := slot_chain hash idx2 chains inv s (by rw [eH]; exact hs) hne
    rw [inv.dir_some s c hc, ← eS]
    exact tail_offset_bounds hash idx2 chains inv s c hc
  · cases hh : idx.insert_head hash call.term with
    | none =>
      unfold immediate_index.insert at hins
      rw [hh] at hins
      cases hins
    | some r =>
      obtain ⟨hb, idx1⟩ := r
      obtain ⟨chains1, s, c, inv1, hc, e1, _, _, _, hd30, _, hf2, eS⟩ :=
        built_step hash S N H calls idx hS hH hN call hv hrun hb idx1 hh
      have hp := insert_unfold hash idx idx1 idx2 call.docid hb call.term call.positions hf2
        hh hins
      rw [Nat.mod_eq_of_lt hf2]
      rw [← e1] at hp ⊢
      obtain ⟨blk, off, len, h1, h2, h3, h4, h5, h6, h7, h8⟩ :=
        posting_write_spec hash idx1 chains1 inv1 s c hc call.docid call.positions.length
          hd30 idx2 hp
      rw [eS] at h4
      exact ⟨c.head, idx1, blk, off, len, rfl, h1, h2, h3, h4, h5, h6, h7, h8⟩

/-- C36 (witness): the statement for the call `gcall`, which opens a second block for the
term `gterm`, on the index built by `gcalls`. -/
theorem writes_inside_tail_witness :
    ∃ idx idx2, run_inserts whash (mk_sized wslabs 8 4) gcalls = some idx ∧
      idx.insert whash gcall.docid gcall.term gcall.positions = some idx2 ∧
      (∀ s, s < 4 → idx2.m_term_offsets s ≠ END_CHAIN →
        head_block.tail_byte_offset idx2.m_data (idx2.m_term_offsets s)
          ≤ BLOCK_SIZE
            * wslabs (head_block.growth_offset idx2.m_data (idx2.m_term_offsets s)) ∧
        head_block.tail_byte_offset idx2.m_data (idx2.m_term_offsets s) < 2 ^ 16 ∧
        (head_block.tail_block idx2.m_data (idx2.m_term_offsets s) = idx2.m_term_offsets s →
          HEAD_PL_OFFSET + head_block.word_length idx2.m_data (idx2.m_term_offsets s)
            ≤ head_block.tail_byte_offset idx2.m_data (idx2.m_term_offsets s)) ∧
        (head_block.tail_block idx2.m_data (idx2.m_term_offsets s) ≠ idx2.m_term_offsets s →
          TT_PL_OFFSET ≤ head_block.tail_byte_offset idx2.m_data (idx2.m_term_offsets s))) ∧
      ∃ hb idx1 blk off len, idx.insert_head whash gcall.term = some (hb, idx1) ∧
        idx1.posting_write hb gcall.docid (gcall.positions.length % 2 ^ 32)
          = some (blk, off, len) ∧
        blk = head_block.tail_block idx2.m_data hb ∧ 1 ≤ len ∧
        off + len ≤ BLOCK_SIZE * wslabs (head_block.growth_offset idx2.m_data hb) ∧
        off + len < 2 ^ 16 ∧
        head_block.tail_byte_offset idx2.m_data hb = off + len ∧
        (blk = hb → HEAD_PL_OFFSET + head_block.word_length idx1.m_data hb ≤ off) ∧
        (blk ≠ hb → TT_PL_OFFSET ≤ off) := by
  obtain ⟨idx2, h2⟩ := Option.isSome_iff_exists.1
    (show (run_inserts whash (mk_sized wslabs 8 4) (gcalls ++ [gcall])).isSome = true
      by decide!)
  obtain ⟨idx, h, hins⟩ := run_inserts_snoc_inv whash gcalls gcall _ idx2 h2
  exact ⟨idx, idx2, h, hins, writes_inside_tail whash wslabs 8 4 gcalls idx wslabs_ok
    (by decide) (by norm_num) gcall (by unfold ValidCalls; decide) h idx2 hins⟩

end

section
open immediate_index postings_cursor

/-- C39: over an index built by valid `insert` calls, let `c0` be the cursor the constructor
returns for a term, with `valid() = true`, and let `c` be the cursor after any sequence of
`next()` and `next_geq()` calls on it.  Then `reset()` on `c` returns, and leaves every field
of the cursor equal to its value in `c0`, so `docid()` and `freq()` again report the first
posting inserted for the term. -/
theorem reset_restores (hash : List Nat → Nat) (S : Nat → Nat) (N H : Nat)
    (calls : List insert_call) (idx : immediate_index)
    (hS : SlabsOK S) (hH : 0 < H) (hN : N ≤ 2 ^ 32) (hv : ValidCalls calls)
    (hrun : run_inserts hash (mk_sized S N H) calls = some idx)
    (t : List Nat) (c0 : postings_cursor) (hc0 : create hash idx t = some c0)
    (hvalid : c0.valid = true) (fuel : Nat) (ops : List cursor_op) (c : postings_cursor)
    (hops : run_ops idx fuel ops c0 = some c) :
    reset idx c = some c0 ∧
      ∃ rest, postings_of calls t = (c0.docid, c0.freq) :: rest := by
  obtain ⟨chains, inv, tr⟩ := build_inv hash S N H calls idx hS hH hN hv hrun
  have hne : postings_of calls t ≠ [] := by
    intro h
    have := absent_invalid hash idx chains _ inv tr t h c0 hc0
    rw [hvalid] at this
    cases this
  obtain ⟨s, ch, hc, e1, e2⟩ := (tr t).2 hne
  rw [← e2] at hne ⊢
  rw [← e1] at hc0
  exact reset_fresh hash idx chains inv s ch hc hne c0 c hc0
    (run_ops_fixed idx fuel ops c0 c hops)

/-- C39 (witness): over the index `midx`, the cursor of the term `[97]` after the calls
`rops`, which leave it exhausted. -/
theorem reset_restores_witness :
    ∃ c0 c, create whash midx [97] = some c0 ∧ c0.valid = true ∧
      run_ops midx 4 rops c0 = some c ∧ c.docid = END_CHAIN ∧
      reset midx c = some c0 ∧
      ∃ rest, postings_of mcalls [97] = (c0.docid, c0.freq) :: rest := by
  have h : (match create whash midx [97] with
      | none => false
      | some c0 =>
        match run_ops midx 4 rops c0 with
        | none => false
        | some c => c0.valid && decide (c.docid = END_CHAIN)) = true := by decide!
  cases h0 : create whash midx [97] with
  | none =>
    rw [h0] at h
    cases h
  | some c0 =>
    rw [h0] at h
    simp only at h
    cases h1 : run_ops midx 4 rops c0 with
    | none =>
      rw [h1] at h
      cases h
    | some c =>
      rw [h1] at h
      simp only [Bool.and_eq_true, decide_eq_true_eq] at h
      exact ⟨c0, c, rfl, h.1, h1, h.2, reset_restores whash wslabs 8 4 mcalls midx wslabs_ok
        (by decide) (by norm_num) mcalls_valid midx_run [97] c0 h0 h.1 4 rops c h1⟩

end

section
open immediate_index

/-- C32: on every directory of `H` slots, `1 ≤ H ≤ 2 ^ 32`, in which at least one slot is NIL
or references a head block that stores `term`, the probe loop of `found_or_empty_offset`
returns at its `(k + 1)`-th probe for some `k < H`, so after at most `H` probes, and the
method returns that slot.  And when the directory has at least twice as many slots as the
vocabulary `V` has terms (load factor at most 0.5), then after any sequence of valid `insert`
calls with terms of `V` some slot is NIL, so the precondition holds for the term of every
further call and `found_or_empty_offset` returns for it after at most `H` probes. -/
theorem probe_terminates (hash : List Nat → Nat) (S : Nat → Nat) (N H : Nat)
    (V : Finset (List Nat)) (calls : List insert_call) (idx : immediate_index)
    (hS : SlabsOK S) (hH : 0 < H) (hH32 : H ≤ 2 ^ 32) (hN : N ≤ 2 ^ 32)
    (hload : 2 * V.card ≤ H) (hv : ValidCalls calls) (hV : ∀ c ∈ calls, c.term ∈ V)
    (hrun : run_inserts hash (mk_sized S N H) calls = some idx) :
    (∀ (dir : immediate_index) (term : List Nat), 0 < dir.m_term_offsets_size →
      dir.m_term_offsets_size ≤ 2 ^ 32 →
      (∃ j, j < dir.m_term_offsets_size ∧ probe_stop dir term j) →
      ∃ k i, k < dir.m_term_offsets_size ∧
        found_or_empty_offset_loop dir term (k + 1) (dir.term_to_offset hash term)
          = some i ∧
        dir.found_or_empty_offset hash term = some i ∧ probe_stop dir term i) ∧
    idx.m_term_offsets_size = H ∧
    (∃ j, j < H ∧ idx.m_term_offsets j = END_CHAIN) ∧
    ∀ term, (∃ j, j < H ∧ probe_stop idx term j) ∧
      ∃ k i, k < H ∧
        found_or_empty_offset_loop idx term (k + 1) (idx.term_to_offset hash term)
          = some i ∧
        idx.found_or_empty_offset hash term = some i ∧ probe_stop idx term i := by
  obtain ⟨chains, inv, tr⟩ := build_inv hash S N H calls idx hS hH hN hv hrun
  obtain ⟨_, eH⟩ := built_slabs hash S N H calls idx hrun
  have hempty : ∃ j, j < H ∧ idx.m_term_offsets j = END_CHAIN := by
    have := empty_slot hash idx chains inv V (fun s c hc => by
      obtain ⟨call, hcall, e⟩ := (postings_ne_iff calls c.term).1
        (tracked_inserted chains calls tr s c hc)
      rw [← e]
      exact hV call hcall) (by rw [eH]; omega)
    rw [eH] at this
    exact this
  refine ⟨fun dir term h1 h2 h3 => probe_returns hash dir term h1 h2 h3, eH, hempty, ?_⟩
  intro term
  obtain ⟨j, hj, hnil⟩ := hempty
  have hpre : ∃ j, j < H ∧ probe_stop idx term j := ⟨j, hj, Or.inl hnil⟩
  refine ⟨hpre, ?_⟩
  have := probe_returns hash idx term (by rw [eH]; exact hH) (by rw [eH]; exact hH32)
    (by rw [eH]; exact hpre)
  rw [eH] at this
  exact this

/-- C32 (witness): the statement for the index built by the calls `wcalls`, whose two terms
share a directory of 8 slots. -/
theorem probe_terminates_witness :
    ∃ idx, run_inserts whash (mk_sized wslabs 40 8) wcalls = some idx ∧
      (∀ (dir : immediate_index) (term : List Nat), 0 < dir.m_term_offsets_size →
        dir.m_term_offsets_size ≤ 2 ^ 32 →
        (∃ j, j < dir.m_term_offsets_size ∧ probe_stop dir term j) →
        ∃ k i, k < dir.m_term_offsets_size ∧
          found_or_empty_offset_loop dir term (k + 1) (dir.term_to_offset whash term)
            = some i ∧
          dir.found_or_empty_offset whash term = some i ∧ probe_stop dir term i) ∧
      idx.m_term_offsets_size = 8 ∧
      (∃ j, j < 8 ∧ idx.m_term_offsets j = END_CHAIN) ∧
      ∀ term, (∃ j, j < 8 ∧ probe_stop idx term j) ∧
        ∃ k i, k < 8 ∧
          found_or_empty_offset_loop idx term (k + 1) (idx.term_to_offset whash term)
            = some i ∧
          idx.found_or_empty_offset whash term = some i ∧ probe_stop idx term i := by
  obtain ⟨idx, h⟩ := wcalls_run
  exact ⟨idx, h, probe_terminates whash wslabs 40 8 {[97], [1, 96]} wcalls idx wslabs_ok
    (by decide) (by norm_num) (by norm_num) (by decide) wcalls_valid (by decide) h⟩

end

section
open immediate_index

/-- C35: let an index be built from a fresh one with slab table `S` by valid `insert` calls
and let one more valid call `insert(docid, t, positions)` be stored.  The call changes no
non-NIL directory entry.  For every directory slot of another term (a non-NIL slot whose head
stores a term other than `t`) it leaves unchanged every header field of the head block and
every byte of every logical block of the chain, which keeps its length and its block
indexes.  And for every other term `t'` inserted before, the constructor of a cursor returns
the same cursor before and after the call, and the sequence of `(docid(), freq())` it reads
is the same: the postings inserted for `t'`, then the exhausted state. -/
theorem insert_frame_others (hash : List Nat → Nat) (S : Nat → Nat) (N H : Nat)
    (calls : List insert_call) (idx : immediate_index) (hS : SlabsOK S) (hH : 0 < H)
    (hN : N ≤ 2 ^ 32) (call : insert_call) (hv : ValidCalls (calls ++ [call]))
    (hrun : run_inserts hash (mk_sized S N H) calls = some idx) (idx2 : immediate_index)
    (hins : idx.insert hash call.docid call.term call.positions = some idx2) :
    (∀ s, idx.m_term_offsets s ≠ END_CHAIN →
      idx2.m_term_offsets s = idx.m_term_offsets s) ∧
    (∀ s, s < H → idx.m_term_offsets s ≠ END_CHAIN →
      head_block.get_term idx.m_data (idx.m_term_offsets s) ≠ call.term →
      (head_block.next_block idx2.m_data (idx.m_term_offsets s)
          = head_block.next_block idx.m_data (idx.m_term_offsets s) ∧
        head_block.tail_block idx2.m_data (idx.m_term_offsets s)
          = head_block.tail_block idx.m_data (idx.m_term_offsets s) ∧
        head_block.doc_freq idx2.m_data (idx.m_term_offsets s)
          = head_block.doc_freq idx.m_data (idx.m_term_offsets s) ∧
        head_block.recent_docid idx2.m_data (idx.m_term_offsets s)
          = head_block.recent_docid idx.m_data (idx.m_term_offsets s) ∧
        head_block.tail_byte_offset idx2.m_data (idx.m_term_offsets s)
          = head_block.tail_byte_offset idx.m_data (idx.m_term_offsets s) ∧
        head_block.growth_offset idx2.m_data (idx.m_term_offsets s)
          = head_block.growth_offset idx.m_data (idx.m_term_offsets s) ∧
        head_block.word_length idx2.m_data (idx.m_term_offsets s)
          = head_block.word_length idx.m_data (idx.m_term_offsets s) ∧
        head_block.get_term idx2.m_data (idx.m_term_offsets s)
          = head_block.get_term idx.m_data (idx.m_term_offsets s)) ∧
      ∃ n, ChainLen idx.m_data (idx.m_term_offsets s) n ∧
        ChainLen idx2.m_data (idx.m_term_offsets s) n ∧
        ∀ j, j < n →
          chain_walk idx2.m_data (idx.m_term_offsets s) j
            = chain_walk idx.m_data (idx.m_term_offsets s) j ∧
          ∀ o, o < BLOCK_SIZE * S (min j MAX_SLAB_IDX) →
            idx2.m_data (struct_ptr (chain_walk idx.m_data (idx.m_term_offsets s) j) + o)
              = idx.m_data
                (struct_ptr (chain_walk idx.m_data (idx.m_term_offsets s) j) + o)) ∧
    (∀ t, t ≠ call.term → postings_of calls t ≠ [] →
      ∃ c1 fe, postings_cursor.create hash idx t = some c1 ∧
        postings_cursor.create hash idx2 t = some c1 ∧ c1.valid = true ∧
        postings_cursor.read_all idx (postings_of calls t).length c1
          = some (postings_of calls t ++ [(END_CHAIN, fe)]) ∧
        postings_cursor.read_all idx2 (postings_of calls t).length c1
          = some (postings_of calls t ++ [(END_CHAIN, fe)])) := by
  obtain ⟨hv0, _, hd30, hp1, hp2, htl, htc, hlast⟩ := valid_snoc calls call hv
  obtain ⟨chains, inv, tr⟩ := build_inv hash S N H calls idx hS hH hN hv0 hrun
  obtain ⟨eS, eH⟩ := built_slabs hash S N H calls idx hrun
  obtain ⟨chains2, inv2, hdir, hkeep⟩ := other_chain_frame hash idx chains _ inv tr
    call.docid call.term call.positions htl htc hd30 hp1 hp2 hlast idx2 hins
  refine ⟨hdir, ?_, ?_⟩
  · intro s hs hne hterm
    obtain ⟨c0, hc0⟩ := slot_chain hash idx chains inv s (by rw [eH]; exact hs) hne
    rw [chain_get_term hash idx chains inv s c0 hc0] at hterm
    obtain ⟨hc2, hbytes⟩ := hkeep s c0 hc0 hterm
    have hrep := inv.rep s c0 hc0
    have hrep2 := inv2.rep s c0 hc2
    rw [inv.dir_some s c0 hc0]
    obtain ⟨b0, hb0, hbi⟩ := head_mem c0 (by
      intro e
      have := chain_blocks_pos _ _ c0 hrep
      rw [e] at this
      simp at this)
    have hs0 := chain_size_pos _ inv.slabs _ c0 hrep b0 hb0
    have hwl : head_block.word_length idx.m_data c0.head ≤ 44 := by
      obtain ⟨pre, last, hcb⟩ := chain_blocks_snoc _ _ c0 hrep
      have F := chain_facts _ inv.slabs _ c0 pre last hcb hrep (inv.ordered s c0 hc0)
      rw [F.wl]
      exact F.term_len
    refine ⟨head_fields_congr _ _ _ (fun o ho => ?_) hwl, c0.blocks.length,
      chain_len_spec hash idx chains inv s c0 hc0,
      chain_len_spec hash idx2 chains2 inv2 s c0 hc2, ?_⟩
    · rw [← hbi]
      exact hbytes b0 hb0 o (by simp only [BLOCK_SIZE]; omega)
    · intro j hj
      obtain ⟨b, hb⟩ := blocks_get c0.blocks j hj
      have hw := walk_blocks _ _ c0 hrep j b hb
      have hw2 := walk_blocks _ _ c0 hrep2 j b hb
      refine ⟨hw2.trans hw.symm, ?_⟩
      intro o ho
      rw [hw]
      apply hbytes b (List.getElem?_mem hb) o
      rw [chain_sizes _ _ c0 hrep j b hb, eS]
      exact ho
  · intro t ht hne
    obtain ⟨s, c0, hc0, e1, e2⟩ := (tr t).2 hne
    obtain ⟨hc2, hbytes⟩ := hkeep s c0 hc0 (by rw [e1]; exact ht)
    have hrep := inv.rep s c0 hc0
    obtain ⟨b0, hb0, hbi⟩ := head_mem c0 (by
      intro e
      have := chain_blocks_pos _ _ c0 hrep
      rw [e] at this
      simp at this)
    have hs0 := chain_size_pos _ inv.slabs _ c0 hrep b0 hb0
    have := cursor_frame hash idx idx2 chains chains2 inv inv2 s c0 hc0 hc2
      (by rw [e2]; exact hne) (fun o ho => by
        rw [← hbi]
        exact hbytes b0 hb0 o (by simp only [BLOCK_SIZE]; omega))
    rw [e1, e2] at this
    exact this

/-- C35 (witness): the statement for the last of the calls `wcalls`, a posting of the term
`[1, 96]` stored while the term `[97]` is indexed. -/
theorem insert_frame_others_witness :
    ∃ idx idx2, run_inserts whash (mk_sized wslabs 40 8) wcalls.dropLast = some idx ∧
      idx.insert whash 35 [1, 96] [1, 2] = some idx2 ∧
      postings_of wcalls.dropLast [97] ≠ [] ∧
      (∀ s, idx.m_term_offsets s ≠ END_CHAIN →
        idx2.m_term_offsets s = idx.m_term_offsets s) ∧
      (∀ s, s < 8 → idx.m_term_offsets s ≠ END_CHAIN →
        head_block.get_term idx.m_data (idx.m_term_offsets s) ≠ [1, 96] →
        (head_block.next_block idx2.m_data (idx.m_term_offsets s)
            = head_block.next_block idx.m_data (idx.m_term_offsets s) ∧
          head_block.tail_block idx2.m_data (idx.m_term_offsets s)
            = head_block.tail_block idx.m_data (idx.m_term_offsets s) ∧
          head_block.doc_freq idx2.m_data (idx.m_term_offsets s)
            = head_block.doc_freq idx.m_data (idx.m_term_offsets s) ∧
          head_block.recent_docid idx2.m_data (idx.m_term_offsets s)
            = head_block.recent_docid idx.m_data (idx.m_term_offsets s) ∧
          head_block.tail_byte_offset idx2.m_data (idx.m_term_offsets s)
            = head_block.tail_byte_offset idx.m_data (idx.m_term_offsets s) ∧
          head_block.growth_offset idx2.m_data (idx.m_term_offsets s)
            = head_block.growth_offset idx.m_data (idx.m_term_offsets s) ∧
          head_block.word_length idx2.m_data (idx.m_term_offsets s)
            = head_block.word_length idx.m_data (idx.m_term_offsets s) ∧
          head_block.get_term idx2.m_data (idx.m_term_offsets s)
            = head_block.get_term idx.m_data (idx.m_term_offsets s)) ∧
        ∃ n, ChainLen idx.m_data (idx.m_term_offsets s) n ∧
          ChainLen idx2.m_data (idx.m_term_offsets s) n ∧
          ∀ j, j < n →
            chain_walk idx2.m_data (idx.m_term_offsets s) j
              = chain_walk idx.m_data (idx.m_term_offsets s) j ∧
            ∀ o, o < BLOCK_SIZE * wslabs (min j MAX_SLAB_IDX) →
              idx2.m_data (struct_ptr (chain_walk idx.m_data (idx.m_term_offsets s) j) + o)
                = idx.m_data
                  (struct_ptr (chain_walk idx.m_data (idx.m_term_offsets s) j) + o)) ∧
      (∀ t, t ≠ [1, 96] → postings_of wcalls.dropLast t ≠ [] →
        ∃ c1 fe, postings_cursor.create whash idx t = some c1 ∧
          postings_cursor.create whash idx2 t = some c1 ∧ c1.valid = true ∧
          postings_cursor.read_all idx (postings_of wcalls.dropLast t).length c1
            = some (postings_of wcalls.dropLast t ++ [(END_CHAIN, fe)]) ∧
          postings_cursor.read_all idx2 (postings_of wcalls.dropLast t).length c1
            = some (postings_of wcalls.dropLast t ++ [(END_CHAIN, fe)])) := by
  have hw : wcalls = wcalls.dropLast ++ [⟨35, [1, 96], [1, 2]⟩] := rfl
  obtain ⟨idx2, h2⟩ := wcalls_run
  rw [hw] at h2
  obtain ⟨idx, h, hins⟩ := run_inserts_snoc_inv whash _ _ _ idx2 h2
  have hv : ValidCalls (wcalls.dropLast ++ [⟨35, [1, 96], [1, 2]⟩]) := by
    rw [← hw]
    exact wcalls_valid
  exact ⟨idx, idx2, h, hins, by decide,
    insert_frame_others whash wslabs 40 8 wcalls.dropLast idx wslabs_ok (by decide)
      (by norm_num) ⟨35, [1, 96], [1, 2]⟩ hv h idx2 hins⟩

end

section
open immediate_index

/-- C38: for an index built by valid `insert` calls on a fresh index of `H` directory slots,
`serialize_pack` (with fuel for its inner loops of at least the number of blocks in use)
returns; every non-NIL directory slot `s` heads a chain of some number `len s` of logical
blocks, and the sum over the directory slots of the slab sizes of these logical blocks (0 for
a NIL slot) is `next_empty`; the file written holds, after its header of 16 bytes and its
table of `4 * H` bytes, exactly `BLOCK_SIZE * next_empty` bytes of blocks, and its first
eight bytes are the block count `next_empty`; and `load` of the file reads that count and
exactly the bytes of the blocks written, leaving nothing in the stream and failing no read. -/
theorem compaction_block_count (hash : List Nat → Nat) (S : Nat → Nat) (N H : Nat)
    (calls : List insert_call) (idx : immediate_index) (fuel : Nat)
    (hS : SlabsOK S) (hH : 0 < H) (hH64 : H < 2 ^ 64) (hN : N ≤ 2 ^ 32)
    (hv : ValidCalls calls)
    (hrun : run_inserts hash (mk_sized S N H) calls = some idx)
    (hfuel : idx.m_next_empty ≤ fuel) :
    ∃ idx1 out len, idx.serialize_pack fuel ⟨[], 0⟩ = some (idx1, out) ∧
      (∀ s, s < H → idx.m_term_offsets s ≠ END_CHAIN →
        ChainLen idx.m_data (idx.m_term_offsets s) (len s)) ∧
      idx.m_slab_size = S ∧
      ((List.range H).map (slot_blocks idx len)).sum = idx.m_next_empty ∧
      out.bytes.length = 16 + 4 * H + BLOCK_SIZE * idx.m_next_empty ∧
      of_bytes (out.bytes.take 8) = idx.m_next_empty ∧
      ((mk_default S).load (some out.bytes)).2 = some [] ∧
      ((mk_default S).load (some out.bytes)).1.m_next_empty = idx.m_next_empty ∧
      ∀ a, a < BLOCK_SIZE * idx.m_next_empty →
        ((mk_default S).load (some out.bytes)).1.m_data a
          = (out.bytes.drop (16 + 4 * H)).getD a 0 := by
  obtain ⟨chains, inv, _, cov⟩ := build_cover hash S N H calls idx hS hH hN hv hrun
  obtain ⟨eS, eH⟩ := built_slabs hash S N H calls idx hrun
  obtain ⟨idx1, out, data, hpack, hbytes, hdata, _, _⟩ :=
    pack_spec hash idx chains inv fuel hfuel ⟨[], 0⟩ rfl
  have htot := new_head_total hash idx chains inv cov
  rw [htot] at hdata
  rw [List.nil_append, eH] at hbytes
  have hne32 := next_empty_lt hash idx chains inv
  have hne64 : idx.m_next_empty < 2 ^ 64 := by omega
  have hdata2 : data.length = idx.m_next_empty * BLOCK_SIZE := by
    rw [hdata, Nat.mul_comm]
  have hdataeq : out.bytes.drop (16 + 4 * H) = data := by
    rw [hbytes, show 16 + 4 * H = (u64_bytes idx.m_next_empty).length
      + ((u64_bytes H).length + (vec_bytes idx1.m_term_offsets H).length) by
        simp only [u64_bytes_length, vec_bytes_length]; omega,
      List.drop_append, List.drop_append, List.drop_left]
  obtain ⟨l1, _, _, _, _, l6⟩ := load_spec (mk_default S) idx.m_next_empty H
    (vec_bytes idx1.m_term_offsets H) data hne64 hH64 (vec_bytes_length _ _)
  refine ⟨idx1, out, chain_len chains, hpack, ?_, eS, ?_, ?_, ?_, ?_, ?_, ?_⟩
  · intro s hs hne
    obtain ⟨c, hc⟩ := slot_chain hash idx chains inv s (by rw [eH]; exact hs) hne
    unfold chain_len
    simp only [hc]
    rw [inv.dir_some s c hc]
    exact chain_len_spec hash idx chains inv s c hc
  · have := slot_blocks_sum hash idx chains inv
    rw [eH] at this
    rw [this, ← eH]
    exact htot
  · rw [hbytes]
    simp only [List.length_append, u64_bytes_length, vec_bytes_length, hdata]
    omega
  · rw [hbytes, List.take_left' (u64_bytes_length _)]
    exact of_bytes_u64 _ hne64
  · rw [hbytes]
    exact load_rest (mk_default S) idx.m_next_empty H _ data hne64 hH64
      (vec_bytes_length _ _) hdata2
  · rw [hbytes]
    exact l1
  · intro a ha
    rw [hdataeq]
    rw [hbytes, l6 a]
    have h1 : a < idx.m_next_empty * BLOCK_SIZE := by
      rw [Nat.mul_comm]
      exact ha
    have h2 : a < (data.take (idx.m_next_empty * BLOCK_SIZE)).length := by
      rw [List.length_take, hdata2]
      omega
    rw [if_pos h1, if_pos h2]

/-- C38 (witness): the statement for the index built by the calls `wcalls`. -/
theorem compaction_block_count_witness :
    ∃ idx, run_inserts whash (mk_sized wslabs 40 8) wcalls = some idx ∧
      ∃ idx1 out len, idx.serialize_pack idx.m_next_empty ⟨[], 0⟩ = some (idx1, out) ∧
        (∀ s, s < 8 → idx.m_term_offsets s ≠ END_CHAIN →
          ChainLen idx.m_data (idx.m_term_offsets s) (len s)) ∧
        idx.m_slab_size = wslabs ∧
        ((List.range 8).map (slot_blocks idx len)).sum = idx.m_next_empty ∧
        out.bytes.length = 16 + 4 * 8 + BLOCK_SIZE * idx.m_next_empty ∧
        of_bytes (out.bytes.take 8) = idx.m_next_empty ∧
        ((mk_default wslabs).load (some out.bytes)).2 = some [] ∧
        ((mk_default wslabs).load (some out.bytes)).1.m_next_empty = idx.m_next_empty ∧
        ∀ a, a < BLOCK_SIZE * idx.m_next_empty →
          ((mk_default wslabs).load (some out.bytes)).1.m_data a
            = (out.bytes.drop (16 + 4 * 8)).getD a 0 := by
  obtain ⟨idx, h⟩ := wcalls_run
  exact ⟨idx, h, compaction_block_count whash wslabs 40 8 wcalls idx idx.m_next_empty
    wslabs_ok (by decide) (by norm_num) (by norm_num) wcalls_valid h (le_refl _)⟩

end
